import Mathlib

/-!
# Sequential embedding of the lock-free interpolation search tree

Source: `src/ds/brown_ext_ist_lf/brown_ext_ist_lf_impl.h` (class `istree`).

The embedding is a single-threaded, explicit-state model.  The heap is a list of
nodes and a list of rebuild descriptors, addressed by position; every function
of the source becomes a function on the state that returns `Except Fault _`.
A failed `assert`, an out-of-bounds access and a dangling pointer are faults;
loops and recursions whose termination depends on the heap take a `fuel` bound.

Keys and values (the template parameters `K`, `V`) are integers, `Int`; the
arithmetic that the source does on keys, the interpolation formula of
`interpolationSearch`, is computed as the machine does it, in 64-bit two's
complement with a conversion of the quotient to `int` (`predictedIndex`), and the
square root of `createIdealConcurrent` is computed in double precision
(`ceilSqrt`).  Addresses of heap objects are positions in the heap lists, `Nat`.
-/

namespace ISTree

/-- Ways in which an execution of the model stops without a result. -/
inductive Fault where
  /-- An `assert(...)` of the source does not hold. -/
  | assertion
  /-- A key or slot index outside the bounds checked by the node accessors. -/
  | outOfBounds
  /-- A `NULL` or dangling pointer is dereferenced. -/
  | badPointer
  /-- The iteration bound of the model is exhausted. -/
  | outOfFuel
  /-- An integer division traps: the divisor is zero or the quotient is not representable. -/
  | arithmetic
  deriving DecidableEq, Repr

instance instDecidableEqExcept {ε α : Type} [DecidableEq ε] [DecidableEq α] :
    DecidableEq (Except ε α) := fun a b =>
  match a, b with
  | .ok x, .ok y =>
    if h : x = y then isTrue (by rw [h]) else isFalse (by intro h2; cases h2; exact h rfl)
  | .error x, .error y =>
    if h : x = y then isTrue (by rw [h]) else isFalse (by intro h2; cases h2; exact h rfl)
  | .ok _, .error _ => isFalse (by intro h; cases h)
  | .error _, .ok _ => isFalse (by intro h; cases h)

/-- The source's `assert(c)`. -/
def assert (c : Bool) : Except Fault Unit :=
  if c then pure () else throw Fault.assertion

/-- Update kinds of `doUpdate`. -/
inductive UpdateType where
  | InsertIfAbsent
  | InsertReplace
  | Erase
  deriving DecidableEq, Repr

/-- Modelled from the spec: the tagged-word codec (the `casword_t` macros live in
the header, which is not under src).  One constructor per kind of word; a
`KVPAIR` word carries the immutable record it points to. -/
inductive Word where
  /-- The word `NODE_TO_CASWORD(NULL)`. -/
  | null
  /-- The word `NODE_TO_CASWORD(p)` for the node at address `a`. -/
  | node (a : Nat)
  /-- The word `KVPAIR_TO_CASWORD(p)` with `p->k = k`, `p->v = v`. -/
  | kvpair (k : Int) (v : Int)
  /-- The word `VAL_TO_CASWORD(v)`. -/
  | val (v : Int)
  /-- The word `EMPTY_VAL_TO_CASWORD`. -/
  | emptyVal
  /-- The word `REBUILDOP_TO_CASWORD(p)` for the descriptor at address `o`. -/
  | rebuildop (o : Nat)
  deriving DecidableEq, Repr

/-- Tag predicate `IS_NODE` (the null word carries the node tag, see `helpFreeSubtree`). -/
def IS_NODE : Word → Bool
  | .null => true
  | .node _ => true
  | _ => false

/-- Tag predicate `IS_KVPAIR`. -/
def IS_KVPAIR : Word → Bool
  | .kvpair _ _ => true
  | _ => false

/-- Tag predicate `IS_VAL`; as `find` and `markAndCount` use it, the empty word is a `VAL` word. -/
def IS_VAL : Word → Bool
  | .val _ => true
  | .emptyVal => true
  | _ => false

/-- Tag predicate `IS_EMPTY_VAL`. -/
def IS_EMPTY_VAL : Word → Bool
  | .emptyVal => true
  | _ => false

/-- Tag predicate `IS_REBUILDOP`. -/
def IS_REBUILDOP : Word → Bool
  | .rebuildop _ => true
  | _ => false

/-- The test `word & ~TOTAL_MASK` of `doUpdate`: the payload bits are not all zero.
A value is shifted left by the tag width, so `VAL_TO_CASWORD(0)` has a zero payload. -/
def payloadNonzero : Word → Bool
  | .null => false
  | .val v => v != 0
  | _ => true

/-- Modelled from the spec: the dirty-field encoding of section 4.5 (the `DIRTY_*`
macros live in the header, which is not under src): three bits and the embedded
key count.  The all-clear record is the machine word `0`. -/
structure Dirty where
  started : Bool
  finished : Bool
  markedForFree : Bool
  sum : Nat
  deriving DecidableEq, Repr

/-- The clean dirty word, `0`. -/
def Dirty.clean : Dirty := ⟨false, false, false, 0⟩
/-- The word `DIRTY_STARTED_MASK`. -/
def DIRTY_STARTED_MASK : Dirty := ⟨true, false, false, 0⟩
/-- The word `SUM_TO_DIRTY_FINISHED(sum)`; it carries the started bit as well. -/
def SUM_TO_DIRTY_FINISHED (sum : Nat) : Dirty := ⟨true, true, false, sum⟩
/-- Decoder `IS_DIRTY_STARTED`. -/
def IS_DIRTY_STARTED (d : Dirty) : Bool := d.started
/-- Decoder `IS_DIRTY_FINISHED`. -/
def IS_DIRTY_FINISHED (d : Dirty) : Bool := d.finished
/-- Decoder `IS_DIRTY_MARKED_FOR_FREE`. -/
def IS_DIRTY_MARKED_FOR_FREE (d : Dirty) : Bool := d.markedForFree
/-- Decoder `DIRTY_FINISHED_TO_SUM`. -/
def DIRTY_FINISHED_TO_SUM (d : Dirty) : Nat := d.sum
/-- The word `old | DIRTY_MARKED_FOR_FREE_MASK`. -/
def Dirty.orMarkedForFree (d : Dirty) : Dirty := { d with markedForFree := true }

/-- A tree node `Node<K,V>`: header fields, `capacity - 1` key cells and `capacity` slot cells. -/
structure Node where
  capacity : Nat
  degree : Nat
  keys : List Int
  slots : List Word
  minKey : Int
  maxKey : Int
  initSize : Nat
  changeSum : Nat
  dirty : Dirty
  nextMarkAndCount : Nat
  deriving DecidableEq, Repr

/-- A rebuild descriptor `RebuildOperation<K,V>`. -/
structure RebuildOperation where
  rebuildRoot : Nat
  parent : Nat
  index : Int
  depth : Nat
  newRoot : Word
  success : Bool
  deriving DecidableEq, Repr

/-- One call into the reclamation interface, recorded in program order. -/
inductive SmrCall where
  /-- The call `freeSubtree(tid, w, retire)`. -/
  | freeSubtree (w : Word) (retire : Bool)
  /-- The call `freeNode(tid, node, retire)`. -/
  | freeNode (a : Nat) (retire : Bool)
  /-- The call `recordmgr->retire(tid, obj)` on the object behind `w`. -/
  | retire (w : Word)
  /-- The call `recordmgr->deallocate(tid, obj)` on the object behind `w`. -/
  | deallocate (w : Word)
  deriving DecidableEq, Repr

/-- One `istree` instance: its constants, the heap, and the trace of reclamation calls.
`MAX_ACCEPTABLE_LEAF_SIZE` and `REBUILD_FRACTION` (numerator over denominator) are
compile-time constants of the header and are taken as parameters. -/
structure istree where
  INF_KEY : Int
  NO_VALUE : Int
  MAX_ACCEPTABLE_LEAF_SIZE : Nat
  REBUILD_FRACTION_NUM : Nat
  REBUILD_FRACTION_DEN : Nat
  /-- Offset returned by `threadRNGs[tid].next(n)`, taken modulo `n`. -/
  rngNext : Nat
  root : Nat
  nodes : List Node
  ops : List RebuildOperation
  smrLog : List SmrCall
  deriving DecidableEq, Repr

/-- Dereference a node pointer. -/
def istree.getNode (st : istree) (a : Nat) : Except Fault Node :=
  match st.nodes[a]? with
  | some n => pure n
  | none => throw Fault.badPointer

/-- Dereference a descriptor pointer. -/
def istree.getOp (st : istree) (o : Nat) : Except Fault RebuildOperation :=
  match st.ops[o]? with
  | some op => pure op
  | none => throw Fault.badPointer

/-- Overwrite the node at address `a`. -/
def istree.setNode (st : istree) (a : Nat) (n : Node) : istree :=
  { st with nodes := st.nodes.set a n }

/-- Overwrite the descriptor at address `o`. -/
def istree.setOp (st : istree) (o : Nat) (op : RebuildOperation) : istree :=
  { st with ops := st.ops.set o op }

/-- Allocate a node; the new address is the old length of the heap. -/
def istree.allocNode (st : istree) (n : Node) : Nat × istree :=
  (st.nodes.length, { st with nodes := st.nodes ++ [n] })

/-- Allocate a descriptor. -/
def istree.allocOp (st : istree) (op : RebuildOperation) : Nat × istree :=
  (st.ops.length, { st with ops := st.ops ++ [op] })

/-- Record a call into the reclamation interface. -/
def istree.logSmr (st : istree) (c : SmrCall) : istree :=
  { st with smrLog := st.smrLog ++ [c] }

/-- `CASWORD_TO_NODE(w)` followed by a dereference. -/
def istree.derefWord (st : istree) (w : Word) : Except Fault (Nat × Node) :=
  match w with
  | .node a => do
    let n ← st.getNode a
    pure (a, n)
  | _ => throw Fault.badPointer

/-- Modelled from the spec: the accessor `Node::key(ix)` of the header (not under src),
which checks `0 <= ix < degree - 1`. -/
def Node.key (n : Node) (ix : Int) : Except Fault Int :=
  if 0 ≤ ix ∧ ix < (n.degree : Int) - 1 then
    match n.keys[ix.toNat]? with
    | some k => pure k
    | none => throw Fault.outOfBounds
  else throw Fault.outOfBounds

/-- Modelled from the spec: the accessor `Node::ptr(ix)` / a read through `Node::ptrAddr(ix)`
of the header (not under src), which checks `0 <= ix < degree`. -/
def Node.ptr (n : Node) (ix : Int) : Except Fault Word :=
  if 0 ≤ ix ∧ ix < (n.degree : Int) then
    match n.slots[ix.toNat]? with
    | some w => pure w
    | none => throw Fault.outOfBounds
  else throw Fault.outOfBounds

/-- A write through `Node::ptrAddr(ix)`. -/
def Node.setPtr (n : Node) (ix : Int) (w : Word) : Except Fault Node :=
  if 0 ≤ ix ∧ ix < (n.degree : Int) ∧ ix.toNat < n.slots.length then
    pure { n with slots := n.slots.set ix.toNat w }
  else throw Fault.outOfBounds

/-- A write through `Node::keyAddr(ix)`, which has no degree check. -/
def Node.setKey (n : Node) (ix : Int) (k : Int) : Except Fault Node :=
  if 0 ≤ ix ∧ ix.toNat < n.keys.length then
    pure { n with keys := n.keys.set ix.toNat k }
  else throw Fault.outOfBounds

/-! ## interpolationSearch (source lines 640-702) -/

/-- The loop `for (i=ix-1;i>=0;--i)` of `interpolationSearch`; the argument is `i + 1`.
Leaving the loop reaches `assert(false)`. -/
def scanLeft (key : Int) (node : Node) : Nat → Except Fault Int
  | 0 => throw Fault.assertion
  | i + 1 => do
    let ki ← node.key (i : Int)
    if key ≥ ki then pure ((i : Int) + 1) else scanLeft key node i

/-- The loop `for (i=ix+1;i<numKeys;++i)` of `interpolationSearch`, with `n` iterations left
before `i` reaches `numKeys`.  Leaving the loop reaches `assert(false)`. -/
def scanRight (key : Int) (node : Node) : Nat → Int → Except Fault Int
  | 0, _ => throw Fault.assertion
  | n + 1, i => do
    let ki ← node.key i
    if key < ki then pure i else scanRight key node n (i + 1)

/-- The value of a signed 64-bit result: the representative of `x` modulo `2^64` in
`[-2^63, 2^63)`. -/
def wrap64 (x : Int) : Int :=
  (x + 9223372036854775808) % 18446744073709551616 - 9223372036854775808

/-- The value of an `int` (signed 32-bit) result: the representative of `x` modulo `2^32`
in `[-2^31, 2^31)`. -/
def wrap32 (x : Int) : Int := (x + 2147483648) % 4294967296 - 2147483648

/-- The statement `int ix = (numKeys * (key - minKey) / (maxKey - minKey));` of
`interpolationSearch` (source line 671) over a signed 64-bit key type: `numKeys` is promoted
to the key type, each operation yields the 64-bit representative of its exact result, the
division truncates, and the quotient is converted to `int`. -/
def predictedIndex (numKeys key minKey maxKey : Int) : Int :=
  wrap32 (Int.tdiv (wrap64 (numKeys * wrap64 (key - minKey))) (wrap64 (maxKey - minKey)))

/-- The division of source line 671 traps: the 64-bit divisor is zero, or the dividend is
`-2^63` and the divisor `-1`. -/
def divisionTraps (numKeys key minKey maxKey : Int) : Bool :=
  decide (wrap64 (maxKey - minKey) = 0)
    || (decide (wrap64 (maxKey - minKey) = -1)
        && decide (wrap64 (numKeys * wrap64 (key - minKey)) = -9223372036854775808))

/-- The function `istree::interpolationSearch(tid, key, node)`. -/
def interpolationSearch (key : Int) (node : Node) : Except Fault Int := do
  let deg := node.degree
  if deg = 1 then pure 0 else
  let numKeys : Int := (deg : Int) - 1
  let minKey := node.minKey
  let maxKey := node.maxKey
  if key < minKey then pure 0 else
  if key ≥ maxKey then pure numKeys else
  if divisionTraps numKeys key minKey maxKey then throw Fault.arithmetic else
  let ix : Int := predictedIndex numKeys key minKey maxKey
  let ixKey ← node.key ix
  if key < ixKey then
    scanLeft key node ix.toNat
  else if key > ixKey then
    scanRight key node (numKeys - (ix + 1)).toNat (ix + 1)
  else pure (ix + 1)

/-! ## find (source lines 31-62) -/

/-- The `while (true)` loop of `istree::find`; `ptr`, `parent` and `ixToPtr` are the
loop variables. -/
def findLoop (st : istree) (key : Int) : Nat → Word → Nat → Int → Except Fault Int
  | 0, _, _, _ => throw Fault.outOfFuel
  | fuel + 1, ptr, parent, ixToPtr =>
    match ptr with
    | .kvpair k v => if k = key then pure v else pure st.NO_VALUE
    | .rebuildop o => do
      let rebuild ← st.getOp o
      findLoop st key fuel (Word.node rebuild.rebuildRoot) parent ixToPtr
    | .node a => do
      let parentNode ← st.getNode a
      let ix ← interpolationSearch key parentNode
      let ptr2 ← parentNode.ptr ix
      findLoop st key fuel ptr2 a ix
    | .null => throw Fault.assertion
    | .emptyVal => pure st.NO_VALUE
    | .val v => do
      assert (decide (ixToPtr > 0))
      let parentNode ← st.getNode parent
      let ixToKey := ixToPtr - 1
      let k ← parentNode.key ixToKey
      if k = key then pure v else pure st.NO_VALUE

/-- The function `istree::find(tid, key)`. -/
def find (fuel : Nat) (st : istree) (key : Int) : Except Fault Int := do
  let rootNode ← st.getNode st.root
  let ptr ← rootNode.ptr 0
  assert (ptr != Word.null)
  findLoop st key fuel ptr st.root 0

/-! ## createNode, createLeaf, createKVPair (source lines 886-951) -/

/-- The function `istree::createNode(tid, degree)`.  Key and slot cells that the source
leaves unwritten hold `0` and the null word. -/
def createNode (st : istree) (degree : Nat) : Nat × istree :=
  st.allocNode
    { capacity := degree, degree := 0, keys := List.replicate (degree - 1) 0,
      slots := List.replicate degree Word.null, minKey := 0, maxKey := 0,
      initSize := 0, changeSum := 0, dirty := Dirty.clean, nextMarkAndCount := 0 }

/-- The function `istree::createMultiCounterNode(tid, degree)`; the sharded counter is
represented by the node's `changeSum` (a read sums across shards). -/
def createMultiCounterNode (st : istree) (degree : Nat) : Nat × istree :=
  createNode st degree

/-- The check `assert(i==0 || pairs[i].k > pairs[i-1].k)` over the whole array. -/
def pairsIncreasing : List (Int × Int) → Bool
  | [] => true
  | [_] => true
  | p :: q :: rest => decide (q.1 > p.1) && pairsIncreasing (q :: rest)

/-- The function `istree::createLeaf(tid, pairs, numPairs)`. -/
def createLeaf (st : istree) (pairs : List (Int × Int)) : Except Fault (Nat × istree) := do
  let numPairs := pairs.length
  let (a, st1) := createNode st (numPairs + 1)
  let node ← st1.getNode a
  assert (pairsIncreasing pairs)
  let node1 : Node :=
    { node with
      degree := numPairs + 1
      initSize := numPairs
      slots := Word.emptyVal :: pairs.map (fun p => Word.val p.2)
      keys := pairs.map (fun p => p.1) }
  let minKey ← node1.key 0
  let maxKey ← node1.key ((node1.degree : Int) - 2)
  pure (a, st1.setNode a { node1 with minKey := minKey, maxKey := maxKey })

/-! ## IdealBuilder -/

/-- Position of the leading binary digit of `n` (`0` for `n < 2`), exact for
`n < 2 ^ (fuel + 1)`. -/
def log2Aux : Nat → Nat → Nat
  | 0, _ => 0
  | fuel + 1, n => if n < 2 then 0 else log2Aux fuel (n / 2) + 1

/-- The conversion `(double) n` of a `size_t` (source line 345), as the integer value of the
double: `n` itself below `2^53`, otherwise `n` rounded to 53 significant binary digits, to
the nearest and on a tie to the even one. -/
def toDouble (n : Nat) : Nat :=
  let sh := log2Aux 64 n - 52
  let q := n / 2 ^ sh
  let r := n % 2 ^ sh
  let q1 := if 2 ^ sh < 2 * r ∨ (2 * r = 2 ^ sh ∧ q % 2 = 1) then q + 1 else q
  q1 * 2 ^ sh

/-- Floor of the square root of `n` by bisection: `s` holds the binary digits found so far
and the first argument counts the digits still to decide. -/
def isqrtAux (n : Nat) : Nat → Nat → Nat
  | 0, s => s
  | b + 1, s => if (s + 2 ^ b) * (s + 2 ^ b) ≤ n then isqrtAux n b (s + 2 ^ b) else isqrtAux n b s

/-- The call `std::sqrt(d)` (source line 345) on a double with the integer value `d`, at most
`2^64`: the pair `(q, t)` stands for the double `q / 2^t`, the square root of `d` rounded to
53 significant binary digits.  With `4^e <= d < 4^(e+1)` the root lies in `[2^e, 2^(e+1))`,
so its 53 digits are the integer nearest to `sqrt(d) * 2^(52-e) = sqrt(d * 4^(52-e))`; that
root is never half-way between two integers. -/
def sqrtDouble (d : Nat) : Nat × Nat :=
  if d = 0 then (0, 0) else
  let t := 52 - log2Aux 64 d / 2
  let s := isqrtAux (d * 4 ^ t) 53 0
  (if s * s + s < d * 4 ^ t then s + 1 else s, t)

/-- The value `(size_t) std::ceil(std::sqrt((double) n))` of source lines 345-346 for a count
`n` that is a `size_t`: the count is converted to a double, the square root is rounded to a
double, and that double is rounded up to an integer.  A count of `2^64` or more is no
`size_t`; the model returns it unchanged. -/
def ceilSqrt (n : Nat) : Nat :=
  if n < 2 ^ 64 then
    let r := sqrtDouble (toDouble n)
    (r.1 + 2 ^ r.2 - 1) / 2 ^ r.2
  else n

/-- Modelled from the spec: the class `IdealBuilder` of the header (not under src), which
accumulates key/value pairs and emits an ideal-shape subtree root word. -/
structure IdealBuilder where
  initNumKeys : Nat
  depth : Nat
  pairs : List (Int × Int)
  deriving DecidableEq, Repr

/-- Modelled from the spec: `IdealBuilder::addKV(tid, key, value)`. -/
def IdealBuilder.addKV (b : IdealBuilder) (k : Int) (v : Int) : IdealBuilder :=
  { b with pairs := b.pairs ++ [(k, v)] }

/-- Modelled from the spec: `IdealBuilder::getMinKey()`, the key of the first pair added. -/
def IdealBuilder.getMinKey (b : IdealBuilder) : Except Fault Int :=
  match b.pairs with
  | [] => throw Fault.assertion
  | p :: _ => pure p.1

/-- Fill the children of an ideal internal node: child `i` receives the next
`childSize + (i < remainder)` pairs and `keys[i-1]` becomes its smallest key. -/
def buildChildren (build : istree → List (Int × Int) → Except Fault (Nat × istree))
    (a : Nat) (childSize remainder : Nat) :
    Nat → Nat → List (Int × Int) → istree → Except Fault istree
  | 0, _, _, st => pure st
  | n + 1, i, childSet, st => do
    let sz := childSize + (if i < remainder then 1 else 0)
    let (child, st1) ← build st (childSet.take sz)
    let node ← st1.getNode a
    let node1 ← node.setPtr i (Word.node child)
    let node2 ← if i > 0 then
        match childSet with
        | [] => throw Fault.outOfBounds
        | p :: _ => node1.setKey ((i : Int) - 1) p.1
      else pure node1
    buildChildren build a childSize remainder n (i + 1) (childSet.drop sz) (st1.setNode a node2)

/-- Modelled from the spec: the recursive construction of an ideal subtree for at least two
pairs: a leaf when the pairs fit in `MAX_ACCEPTABLE_LEAF_SIZE`, otherwise an internal node of
fan-out `ceil(sqrt(n))` whose children are built from consecutive chunks. -/
def build : Nat → istree → List (Int × Int) → Nat → Except Fault (Nat × istree)
  | 0, _, _, _ => throw Fault.outOfFuel
  | fuel + 1, st, pset, currDepth =>
    let psetSize := pset.length
    if psetSize ≤ st.MAX_ACCEPTABLE_LEAF_SIZE then createLeaf st pset
    else do
      let numChildren := ceilSqrt psetSize
      let childSize := psetSize / numChildren
      let remainder := psetSize % numChildren
      let (a, st1) := if currDepth ≤ 1 then createMultiCounterNode st numChildren
                      else createNode st numChildren
      let node ← st1.getNode a
      let st2 := st1.setNode a { node with degree := numChildren, initSize := psetSize }
      let st3 ← buildChildren (fun s ps => build fuel s ps (1 + currDepth)) a childSize remainder
        numChildren 0 pset st2
      let node3 ← st3.getNode a
      let minKey ← node3.key 0
      let maxKey ← node3.key ((node3.degree : Int) - 2)
      pure (a, st3.setNode a { node3 with minKey := minKey, maxKey := maxKey })

/-- The location `constructingSubtree` handed to the builder and to `addKVPairsSubset`:
a slot of a node, or a local variable holding the null word. -/
inductive SlotRef where
  | localNull
  | slot (a : Nat) (ix : Int)
  deriving DecidableEq, Repr

/-- Read `*constructingSubtree`. -/
def istree.readRef (st : istree) : SlotRef → Except Fault Word
  | .localNull => pure Word.null
  | .slot a ix => do
    let n ← st.getNode a
    n.ptr ix

/-- Modelled from the spec: `IdealBuilder::getCASWord(tid, constructingSubtree)`: no word
when the destination is already filled; the empty word for no pair, a `KVPAIR` word for
one pair, and the root of a freshly built ideal subtree otherwise. -/
def IdealBuilder.getCASWord (b : IdealBuilder) (fuel : Nat) (st : istree)
    (constructingSubtree : SlotRef) : Except Fault (Word × istree) := do
  let c ← st.readRef constructingSubtree
  if c != Word.null then pure (Word.null, st) else
  match b.pairs with
  | [] => pure (Word.emptyVal, st)
  | [p] => pure (Word.kvpair p.1 p.2, st)
  | _ => do
    let (a, st1) ← build fuel st b.pairs b.depth
    pure (Word.node a, st1)

/-! ## markAndCount (source lines 127-194) -/

/-- The statement `__sync_val_compare_and_swap(&node->dirty, old, new)` on the node at `a`. -/
def casDirty (st : istree) (a : Nat) (old new : Dirty) : Except Fault (Bool × istree) := do
  let n ← st.getNode a
  if n.dirty = old then pure (true, st.setNode a { n with dirty := new })
  else pure (false, st)

/-- The loop `while (1) { ix = fetch_and_add(&node->nextMarkAndCount, 1); ... }` of
`markAndCount`; the result is `some sum` when the loop leaves the function by its `return`. -/
def markClaimLoop (rec : istree → Word → Except Fault (Nat × istree)) (a : Nat) :
    Nat → istree → Except Fault (Option Nat × istree)
  | 0, _ => throw Fault.outOfFuel
  | n + 1, st => do
    let node ← st.getNode a
    let ix := node.nextMarkAndCount
    let st1 := st.setNode a { node with nextMarkAndCount := ix + 1 }
    if ix ≥ node.degree then pure (none, st1) else
    let child ← node.ptr ix
    let (_, st2) ← rec st1 child
    let node2 ← st2.getNode a
    let result := node2.dirty
    if IS_DIRTY_FINISHED result then pure (some (DIRTY_FINISHED_TO_SUM result), st2)
    else markClaimLoop rec a n st2

/-- The loop `for (int i=0;i<node->degree;++i) keyCount += markAndCount(...)` of
`markAndCount`, with `n` iterations left; `Sum.inl sum` is the `return` inside the loop,
`Sum.inr keyCount` the fall-through. -/
def markSumLoop (rec : istree → Word → Except Fault (Nat × istree)) (a : Nat) :
    Nat → Int → Nat → istree → Except Fault ((Nat ⊕ Nat) × istree)
  | 0, _, keyCount, st => pure (Sum.inr keyCount, st)
  | n + 1, i, keyCount, st => do
    let node ← st.getNode a
    let child ← node.ptr i
    let (c, st1) ← rec st child
    let keyCount1 := keyCount + c
    let node1 ← st1.getNode a
    let result := node1.dirty
    if IS_DIRTY_FINISHED result then pure (Sum.inl (DIRTY_FINISHED_TO_SUM result), st1)
    else markSumLoop rec a n (i + 1) keyCount1 st1

/-- The function `istree::markAndCount(tid, ptr)`. -/
def markAndCount : Nat → istree → Word → Except Fault (Nat × istree)
  | 0, _, _ => throw Fault.outOfFuel
  | fuel + 1, st, ptr =>
    if IS_KVPAIR ptr then pure (1, st)
    else if IS_VAL ptr then pure (1 - (if IS_EMPTY_VAL ptr then 1 else 0), st)
    else
      match ptr with
      | .rebuildop o => do
        let op ← st.getOp o
        markAndCount fuel st (Word.node op.rebuildRoot)
      | _ => do
        assert (IS_NODE ptr)
        let (a, node) ← st.derefWord ptr
        let result := node.dirty
        if IS_DIRTY_FINISHED result then pure (DIRTY_FINISHED_TO_SUM result, st) else
        let st1 ← if !IS_DIRTY_STARTED result then do
            let (_, s) ← casDirty st a Dirty.clean DIRTY_STARTED_MASK
            pure s
          else pure st
        let (early, st2) ← if node.degree > st.MAX_ACCEPTABLE_LEAF_SIZE then
            markClaimLoop (markAndCount fuel) a (node.degree + 1) st1
          else pure (none, st1)
        match early with
        | some sum => pure (sum, st2)
        | none => do
          let (r, st3) ← markSumLoop (markAndCount fuel) a node.degree 0 0 st2
          match r with
          | Sum.inl sum => pure (sum, st3)
          | Sum.inr keyCount => do
            let (_, st4) ← casDirty st3 a DIRTY_STARTED_MASK (SUM_TO_DIRTY_FINISHED keyCount)
            pure (keyCount, st4)

/-! ## addKVPairs (source lines 196-221) -/

/-- The loop `for (int i=0;i<node->degree;++i)` of `addKVPairs`, with `n` iterations left. -/
def addKVLoop (st : istree) (rec : Word → IdealBuilder → Except Fault IdealBuilder)
    (a : Nat) : Nat → Int → IdealBuilder → Except Fault IdealBuilder
  | 0, _, b => pure b
  | n + 1, i, b => do
    let node ← st.getNode a
    let childptr ← node.ptr i
    if IS_VAL childptr then
      match childptr with
      | .val v => do
        assert (decide (i > 0))
        let k ← node.key (i - 1)
        addKVLoop st rec a n (i + 1) (b.addKV k v)
      | _ => addKVLoop st rec a n (i + 1) b
    else do
      let b1 ← rec childptr b
      addKVLoop st rec a n (i + 1) b1

/-- The function `istree::addKVPairs(tid, ptr, b)`. -/
def addKVPairs (st : istree) : Nat → Word → IdealBuilder → Except Fault IdealBuilder
  | 0, _, _ => throw Fault.outOfFuel
  | fuel + 1, ptr, b =>
    match ptr with
    | .kvpair k v => pure (b.addKV k v)
    | .rebuildop o => do
      let op ← st.getOp o
      addKVPairs st fuel (Word.node op.rebuildRoot) b
    | _ => do
      assert (IS_NODE ptr)
      let (a, node) ← st.derefWord ptr
      assert (IS_DIRTY_FINISHED node.dirty && IS_DIRTY_STARTED node.dirty)
      addKVLoop st (addKVPairs st fuel) a node.degree 0 b

/-! ## addKVPairsSubset (source lines 223-287) -/

/-- The mutable arguments of `addKVPairsSubset`: `*numKeysToSkip`, `*numKeysToAdd`, `*b`. -/
structure SubsetArgs where
  numKeysToSkip : Nat
  numKeysToAdd : Nat
  b : IdealBuilder
  deriving DecidableEq, Repr

/-- The body of `addKVPairsSubset`: the loop `for (int i=0;i<node->degree;++i)` with `n`
iterations left. -/
def addKVSubsetLoop (st : istree) (rec : Nat → SubsetArgs → Except Fault SubsetArgs)
    (a : Nat) (constructingSubtree : SlotRef) :
    Nat → Int → SubsetArgs → Except Fault SubsetArgs
  | 0, _, s => pure s
  | n + 1, i, s => do
    let c ← st.readRef constructingSubtree
    if c != Word.null then pure s else
    assert (decide (s.numKeysToAdd > 0))
    let node ← st.getNode a
    let childptr ← node.ptr i
    match childptr with
    | .emptyVal => addKVSubsetLoop st rec a constructingSubtree n (i + 1) s
    | .val v =>
      if s.numKeysToSkip > 0 then
        addKVSubsetLoop st rec a constructingSubtree n (i + 1)
          { s with numKeysToSkip := s.numKeysToSkip - 1 }
      else do
        assert (decide (i > 0))
        let k ← node.key (i - 1)
        let s1 := { s with b := s.b.addKV k v, numKeysToAdd := s.numKeysToAdd - 1 }
        if s1.numKeysToAdd = 0 then pure s1
        else addKVSubsetLoop st rec a constructingSubtree n (i + 1) s1
    | .kvpair k v =>
      if s.numKeysToSkip > 0 then
        addKVSubsetLoop st rec a constructingSubtree n (i + 1)
          { s with numKeysToSkip := s.numKeysToSkip - 1 }
      else
        let s1 := { s with b := s.b.addKV k v, numKeysToAdd := s.numKeysToAdd - 1 }
        if s1.numKeysToAdd = 0 then pure s1
        else addKVSubsetLoop st rec a constructingSubtree n (i + 1) s1
    | .rebuildop o => do
      let op ← st.getOp o
      let child ← st.getNode op.rebuildRoot
      assert (IS_DIRTY_FINISHED child.dirty)
      let childSize := DIRTY_FINISHED_TO_SUM child.dirty
      if s.numKeysToSkip < childSize then do
        let s1 ← rec op.rebuildRoot s
        if s1.numKeysToAdd = 0 then pure s1
        else addKVSubsetLoop st rec a constructingSubtree n (i + 1) s1
      else
        addKVSubsetLoop st rec a constructingSubtree n (i + 1)
          { s with numKeysToSkip := s.numKeysToSkip - childSize }
    | _ => do
      assert (IS_NODE childptr)
      let (ca, child) ← st.derefWord childptr
      assert (IS_DIRTY_FINISHED child.dirty)
      let childSize := DIRTY_FINISHED_TO_SUM child.dirty
      if s.numKeysToSkip < childSize then do
        let s1 ← rec ca s
        if s1.numKeysToAdd = 0 then pure s1
        else addKVSubsetLoop st rec a constructingSubtree n (i + 1) s1
      else
        addKVSubsetLoop st rec a constructingSubtree n (i + 1)
          { s with numKeysToSkip := s.numKeysToSkip - childSize }

/-- The function `istree::addKVPairsSubset(tid, op, node, numKeysToSkip, numKeysToAdd, depth,
b, constructingSubtree)`. -/
def addKVPairsSubset (st : istree) (constructingSubtree : SlotRef) :
    Nat → Nat → SubsetArgs → Except Fault SubsetArgs
  | 0, _, _ => throw Fault.outOfFuel
  | fuel + 1, a, s => do
    let node ← st.getNode a
    addKVSubsetLoop st (addKVPairsSubset st constructingSubtree fuel) a constructingSubtree
      node.degree 0 s

/-! ## subtreeBuildAndReplace and createIdealConcurrent (source lines 289-477) -/

/-- The statement `__sync_bool_compare_and_swap(node->ptrAddr(ix), old, new)`. -/
def casPtr (st : istree) (a : Nat) (ix : Int) (old new : Word) :
    Except Fault (Bool × istree) := do
  let n ← st.getNode a
  let w ← n.ptr ix
  if w = old then do
    let n1 ← n.setPtr ix new
    pure (true, st.setNode a n1)
  else pure (false, st)

/-- The function `istree::subtreeBuildAndReplace(tid, op, parent, ix, childSize, remainder)`. -/
def subtreeBuildAndReplace (fuel : Nat) (st : istree) (o : Nat) (parent : Nat) (ix : Nat)
    (childSize remainder : Nat) : Except Fault istree := do
  let op ← st.getOp o
  let totalSizeSoFar := ix * childSize + (if ix < remainder then ix else remainder)
  let newChildSize := childSize + (if ix < remainder then 1 else 0)
  let b : IdealBuilder := ⟨newChildSize, 1 + op.depth, []⟩
  let s ← addKVPairsSubset st (SlotRef.slot parent ix) fuel op.rebuildRoot
    ⟨totalSizeSoFar, newChildSize, b⟩
  let parentNode ← st.getNode parent
  let cur ← parentNode.ptr ix
  if cur != Word.null then pure st else
  let (ptr, st1) ← s.b.getCASWord fuel st (SlotRef.slot parent ix)
  if ptr = Word.null then pure st1 else
  let st2 ← if ix > 0 then do
      let minKey ← s.b.getMinKey
      let pn ← st1.getNode parent
      let pn1 ← pn.setKey ((ix : Int) - 1) minKey
      pure (st1.setNode parent pn1)
    else pure st1
  let (ok, st3) ← casPtr st2 parent ix Word.null ptr
  let st4 := if ok then st3 else st3.logSmr (SmrCall.freeSubtree ptr false)
  let pn4 ← st4.getNode parent
  let w4 ← pn4.ptr ix
  assert (w4 != Word.null)
  pure st4

/-- The loop `while (1) { ix = node->degree; if (ix >= node->capacity) break; ... }` of
`createIdealConcurrent`. -/
def reserveLoop (fuel : Nat) (o : Nat) (a : Nat) (childSize remainder : Nat) :
    Nat → istree → Except Fault istree
  | 0, _ => throw Fault.outOfFuel
  | n + 1, st => do
    let node ← st.getNode a
    let ix := node.degree
    if ix ≥ node.capacity then pure st else
    let st1 := st.setNode a { node with degree := 1 + ix }
    let st2 ← subtreeBuildAndReplace fuel st1 o a ix childSize remainder
    reserveLoop fuel o a childSize remainder n st2

/-- The loop `for (int __i=0;__i<numChildren;++__i)` of `createIdealConcurrent`, with `n`
iterations left; `ix` is the offset drawn from the thread's RNG. -/
def helpLoop (fuel : Nat) (o : Nat) (a : Nat) (childSize remainder numChildren ix : Nat) :
    Nat → Nat → istree → Except Fault istree
  | 0, _, st => pure st
  | n + 1, i0, st => do
    let i := (i0 + ix) % numChildren
    let node ← st.getNode a
    let w ← node.ptr i
    let st1 ← if w = Word.null then
        subtreeBuildAndReplace fuel st o a i childSize remainder
      else pure st
    helpLoop fuel o a childSize remainder numChildren ix n (i0 + 1) st1

/-- The function `istree::createIdealConcurrent(tid, op, keyCount)`. -/
def createIdealConcurrent (fuel : Nat) (st : istree) (o : Nat) (keyCount : Nat) :
    Except Fault (Word × istree) := do
  if keyCount = 0 then pure (Word.emptyVal, st) else
  let numChildren := ceilSqrt keyCount
  let childSize := keyCount / numChildren
  let remainder := keyCount % numChildren
  let op ← st.getOp o
  let newRoot := op.newRoot
  if newRoot = Word.emptyVal then pure (Word.null, st) else
  let (word, st1) ← (if newRoot != Word.null then pure (some newRoot, st) else do
      let (word, s1) ← (if keyCount ≤ st.MAX_ACCEPTABLE_LEAF_SIZE then do
          let b : IdealBuilder := ⟨keyCount, op.depth, []⟩
          let b1 ← addKVPairs st fuel (Word.node op.rebuildRoot) b
          let (w, s) ← b1.getCASWord fuel st SlotRef.localNull
          assert (w != Word.null)
          pure (w, s)
        else do
          let (a, s) := if op.depth ≤ 1 then createMultiCounterNode st numChildren
                        else createNode st numChildren
          let node ← s.getNode a
          pure (Word.node a,
            s.setNode a { node with slots := List.replicate node.capacity Word.null,
                                    degree := 0 })
        : Except Fault (Word × istree))
      let op1 ← s1.getOp o
      if op1.newRoot = Word.null then
        pure (some word, s1.setOp o { op1 with newRoot := word })
      else do
        let s2 := s1.logSmr (SmrCall.freeSubtree word false)
        let word2 := op1.newRoot
        assert (word2 != Word.null)
        if word2 = Word.emptyVal then do
          let parentNode ← s2.getNode op1.parent
          assert (IS_DIRTY_STARTED parentNode.dirty)
          pure (none, s2)
        else pure (some word2, s2)
    : Except Fault (Option Word × istree))
  match word with
  | none => pure (Word.null, st1)
  | some word => do
    assert (word != Word.null)
    let op2 ← st1.getOp o
    assert (op2.newRoot != Word.null)
    if IS_KVPAIR word || decide (keyCount ≤ st.MAX_ACCEPTABLE_LEAF_SIZE) then pure (word, st1) else
    assert (IS_NODE word)
    let (a, node) ← st1.derefWord word
    assert (decide (node.capacity = numChildren))
    let st2 ← reserveLoop fuel o a childSize remainder (node.capacity + 1) st1
    let ix := st2.rngNext % numChildren
    let st3 ← helpLoop fuel o a childSize remainder numChildren ix numChildren 0 st2
    let node3 ← st3.getNode a
    let minKey ← node3.key 0
    let maxKey ← node3.key ((node3.degree : Int) - 2)
    assert (minKey != st.INF_KEY)
    assert (maxKey != st.INF_KEY)
    assert (decide (minKey ≤ maxKey))
    pure (word, st3.setNode a { node3 with initSize := keyCount, minKey := minKey,
                                           maxKey := maxKey })

/-! ## helpFreeSubtree (source lines 64-125) -/

/-- The loop `while (true) { old = child->dirty; ... }` that claims the subtree rooted at a
child of the node given to `helpFreeSubtree`. -/
def claimChildLoop (child : Nat) (ptr : Word) : Nat → istree → Except Fault istree
  | 0, _ => throw Fault.outOfFuel
  | n + 1, st => do
    let c ← st.getNode child
    let old := c.dirty
    if IS_DIRTY_MARKED_FOR_FREE old then pure st else
    let (ok, st1) ← casDirty st child old old.orMarkedForFree
    let st2 := if ok then st1.logSmr (SmrCall.freeSubtree ptr true) else st1
    claimChildLoop child ptr n st2

/-- The first loop of `helpFreeSubtree`, `for (int i=0;i<node->degree;++i)`, with `n`
iterations left. -/
def claimChildrenLoop (a : Nat) : Nat → Int → istree → Except Fault istree
  | 0, _, st => pure st
  | n + 1, i, st => do
    let node ← st.getNode a
    let ptr ← node.ptr i
    let st1 ← match ptr with
      | .node child => claimChildLoop child ptr 2 st
      | _ => pure st
    claimChildrenLoop a n (i + 1) st1

/-- The inner loop of the second phase of `helpFreeSubtree`, which frees what the slots
that are not node words point to. -/
def freeNonNodeLoop (a : Nat) : Nat → Int → istree → Except Fault istree
  | 0, _, st => pure st
  | n + 1, i, st => do
    let node ← st.getNode a
    let ptr ← node.ptr i
    let st1 := if !IS_NODE ptr then st.logSmr (SmrCall.freeSubtree ptr true) else st
    freeNonNodeLoop a n (i + 1) st1

/-- The second loop of `helpFreeSubtree`, `while (true) { old = node->dirty; ... }`. -/
def claimSelfLoop (a : Nat) : Nat → istree → Except Fault istree
  | 0, _ => throw Fault.outOfFuel
  | n + 1, st => do
    let node ← st.getNode a
    let old := node.dirty
    if IS_DIRTY_MARKED_FOR_FREE old then pure st else
    let (ok, st1) ← casDirty st a old old.orMarkedForFree
    let st2 ← if ok then do
        let s ← freeNonNodeLoop a node.degree 0 st1
        pure (s.logSmr (SmrCall.freeNode a true))
      else pure st1
    claimSelfLoop a n st2

/-- The function `istree::helpFreeSubtree(tid, node)`. -/
def helpFreeSubtree (st : istree) (a : Nat) : Except Fault istree := do
  let node ← st.getNode a
  let st1 ← claimChildrenLoop a node.degree 0 st
  claimSelfLoop a 2 st1

/-! ## DCSS, helpRebuild, rebuild (source lines 479-638) -/

/-- Result status of a DCSS. -/
inductive DcssStatus where
  | DCSS_SUCCESS
  | DCSS_FAILED_ADDR1
  | DCSS_FAILED_ADDR2
  deriving DecidableEq, Repr

/-- Modelled from the spec: the DCSS provider (an external collaborator, not under src), in
the form every call site uses: `dcssPtr(tid, &node->dirty, 0, node->ptrAddr(ix), old, new)`.
It stores `new` iff the slot holds `old` and the dirty word is `0`; as in the two-phase
descriptor protocol the slot is examined first. -/
def dcssPtr (st : istree) (a : Nat) (ix : Int) (old new : Word) :
    Except Fault (DcssStatus × istree) := do
  let n ← st.getNode a
  let w ← n.ptr ix
  if w != old then pure (DcssStatus.DCSS_FAILED_ADDR2, st)
  else if n.dirty != Dirty.clean then pure (DcssStatus.DCSS_FAILED_ADDR1, st)
  else do
    let n1 ← n.setPtr ix new
    pure (DcssStatus.DCSS_SUCCESS, st.setNode a n1)

/-- The function `istree::helpRebuild(tid, op)`. -/
def helpRebuild (fuel : Nat) (st : istree) (o : Nat) : Except Fault istree := do
  let op ← st.getOp o
  let (keyCount, st1) ← markAndCount fuel st (Word.node op.rebuildRoot)
  let oldWord := Word.rebuildop o
  let (newWord, st2) ← createIdealConcurrent fuel st1 o keyCount
  if newWord = Word.null then pure st2 else
  let (result, st3) ← dcssPtr st2 op.parent op.index oldWord newWord
  let st4 ← (match result with
    | DcssStatus.DCSS_SUCCESS => do
      let op3 ← st3.getOp o
      assert (op3.success == false)
      let s := st3.setOp o { op3 with success := true }
      pure (s.logSmr (SmrCall.retire (Word.rebuildop o)))
    | DcssStatus.DCSS_FAILED_ADDR1 => do
      let op3 ← st3.getOp o
      let s ← (if op3.newRoot != Word.null && op3.newRoot == newWord then
          pure ((st3.setOp o { op3 with newRoot := Word.emptyVal }).logSmr
            (SmrCall.freeSubtree newWord true))
        else pure st3 : Except Fault istree)
      let op4 ← s.getOp o
      assert (op4.newRoot == Word.emptyVal)
      pure s
    | DcssStatus.DCSS_FAILED_ADDR2 => pure st3
    : Except Fault istree)
  let op5 ← st4.getOp o
  if op5.success then do
    let rebuildRoot ← st4.getNode op5.rebuildRoot
    if rebuildRoot.degree < 256 then
      if result = DcssStatus.DCSS_SUCCESS then
        pure (st4.logSmr (SmrCall.freeSubtree (Word.node op5.rebuildRoot) true))
      else pure st4
    else helpFreeSubtree st4 op5.rebuildRoot
  else pure st4

/-- The function `istree::rebuild(tid, rebuildRoot, parent, indexOfRebuildRoot, depth)`.
A new descriptor starts with `newRoot == NODE_TO_CASWORD(NULL)` and `success == false`. -/
def rebuild (fuel : Nat) (st : istree) (rebuildRoot parent : Nat) (indexOfRebuildRoot : Int)
    (depth : Nat) : Except Fault istree := do
  let (o, st1) := st.allocOp ⟨rebuildRoot, parent, indexOfRebuildRoot, depth, Word.null, false⟩
  let ptr := Word.rebuildop o
  let old := Word.node rebuildRoot
  let (result, st2) ← dcssPtr st1 parent indexOfRebuildRoot old ptr
  if result = DcssStatus.DCSS_SUCCESS then helpRebuild fuel st2 o
  else pure (st2.logSmr (SmrCall.deallocate ptr))

/-! ## doUpdate (source lines 705-884) -/

/-- `Node::incrementChangeSum` on the node at `a`. -/
def incrementChangeSum (st : istree) (a : Nat) : Except Fault istree := do
  let n ← st.getNode a
  pure (st.setNode a { n with changeSum := n.changeSum + 1 })

/-- The loop `for (int i=0;i<pathLength;++i) path[i]->incrementChangeSum(...)`. -/
def incrementPath : istree → List Nat → Except Fault istree
  | st, [] => pure st
  | st, a :: rest => do
    let st1 ← incrementChangeSum st a
    incrementPath st1 rest

/-- The test `path[i]->readChangeSum(...) >= REBUILD_FRACTION * path[i]->initSize`. -/
def needsRebuild (st : istree) (n : Node) : Bool :=
  decide (n.changeSum * st.REBUILD_FRACTION_DEN ≥ st.REBUILD_FRACTION_NUM * n.initSize)

/-- The loop `for (int i=0;i<pathLength;++i)` of `doUpdate` that looks for a node to
rebuild; `pre` holds `path[0..i-1]` in reverse and `rest` holds `path[i..]`. -/
def rebuildScan (fuel : Nat) : istree → List Nat → List Nat → Except Fault istree
  | st, _, [] => pure st
  | st, pre, a :: rest => do
    let n ← st.getNode a
    if needsRebuild st n then
      match pre with
      | [] => rebuild fuel st a st.root 0 0
      | parent :: _ => do
        let parentNode ← st.getNode parent
        assert (decide (parentNode.degree > 1))
        assert (decide (n.degree > 1))
        let k0 ← n.key 0
        let index ← interpolationSearch k0 parentNode
        rebuild fuel st a parent index pre.length
    else rebuildScan fuel st (a :: pre) rest

/-- What lines 724-780 of `doUpdate` decide at a slot that holds a `KVPAIR` or `VAL` word. -/
inductive Decision where
  /-- The operation returns `v` without writing. -/
  | done (v : Int)
  /-- The operation attempts a DCSS to `newWord`; on success it returns `foundVal`. -/
  | swap (newWord : Word) (affectsChangeSum : Bool) (foundVal : Int) (newPair : Bool)
      (newNode : Option Nat)
  deriving DecidableEq, Repr

/-- Lines 724-782 of `doUpdate`: from the word read at `node->ptrAddr(ix)` to the new word. -/
def decideUpdate (st : istree) (node : Node) (ix : Int) (word : Word) (key : Int) (val : Int)
    (t : UpdateType) : Except Fault (Decision × istree) := do
  assert (IS_EMPTY_VAL word || !IS_VAL word || decide (ix > 0))
  let (foundKey, foundVal) ← (match word with
    | .emptyVal => pure (st.INF_KEY, st.NO_VALUE)
    | .val v => do
      let k ← node.key (ix - 1)
      pure (k, v)
    | .kvpair k v => pure (k, v)
    | _ => throw Fault.assertion : Except Fault (Int × Int))
  assert (foundVal == st.NO_VALUE ||
    (decide (foundVal > 0) && decide (foundKey < Int.tdiv st.INF_KEY 8)))
  let (d, st1) ← (if foundKey = key then
      match t with
      | UpdateType.InsertReplace =>
        pure (Decision.swap (Word.val val) (foundVal == st.NO_VALUE) foundVal false none, st)
      | UpdateType.InsertIfAbsent =>
        if foundVal != st.NO_VALUE then pure (Decision.done foundVal, st)
        else pure (Decision.swap (Word.val val) true foundVal false none, st)
      | UpdateType.Erase =>
        if foundVal == st.NO_VALUE then pure (Decision.done st.NO_VALUE, st)
        else pure (Decision.swap Word.emptyVal true foundVal false none, st)
    else
      match t with
      | UpdateType.Erase => pure (Decision.done st.NO_VALUE, st)
      | _ =>
        if foundVal == st.NO_VALUE then
          pure (Decision.swap (Word.kvpair key val) true foundVal true none, st)
        else do
          let pairs := if key < foundKey then [(key, val), (foundKey, foundVal)]
                       else [(foundKey, foundVal), (key, val)]
          let (a, s) ← createLeaf st pairs
          pure (Decision.swap (Word.node a) true st.NO_VALUE false (some a), s)
    : Except Fault (Decision × istree))
  match d with
  | Decision.done _ => pure (d, st1)
  | Decision.swap newWord _ _ _ _ => do
    assert (newWord != Word.null)
    assert (payloadNonzero newWord)
    pure (d, st1)

/-- The release of the transient helpers after a failed DCSS in `doUpdate`. -/
def releaseHelpers (st : istree) (newWord : Word) (newPair : Bool) (newNode : Option Nat) :
    istree :=
  let st1 := if newPair then st.logSmr (SmrCall.deallocate newWord) else st
  match newNode with
  | some a => st1.logSmr (SmrCall.freeNode a false)
  | none => st1

/-- The body of `istree::doUpdate` from the label `retry` on: `node` and `path` are the
local variables, `ixKnown` is `some ix` when control arrives at the label `retryNode`. -/
def doUpdateLoop (key : Int) (val : Int) (t : UpdateType) :
    Nat → istree → Nat → List Nat → Option Int → Except Fault (Int × istree)
  | 0, _, _, _, _ => throw Fault.outOfFuel
  | fuel + 1, st, node, path, ixKnown => do
    let n ← st.getNode node
    let ix ← (match ixKnown with
      | some ix => pure ix
      | none => interpolationSearch key n : Except Fault Int)
    let word ← n.ptr ix
    if IS_KVPAIR word || IS_VAL word then do
      let (d, st1) ← decideUpdate st n ix word key val t
      match d with
      | Decision.done v => pure (v, st1)
      | Decision.swap newWord affectsChangeSum foundVal newPair newNode => do
        assert (decide (ix ≥ 0))
        assert (decide (ix < (n.degree : Int)))
        let (result, st2) ← dcssPtr st1 node ix word newWord
        match result with
        | DcssStatus.DCSS_FAILED_ADDR2 =>
          doUpdateLoop key val t fuel (releaseHelpers st2 newWord newPair newNode) node path
            (some ix)
        | DcssStatus.DCSS_FAILED_ADDR1 =>
          let st3 := releaseHelpers st2 newWord newPair newNode
          doUpdateLoop key val t fuel st3 st3.root [] none
        | DcssStatus.DCSS_SUCCESS => do
          let st3 := if IS_KVPAIR word then st2.logSmr (SmrCall.retire word) else st2
          if !affectsChangeSum then pure (foundVal, st3) else
          let st4 ← incrementPath st3 path
          let st5 ← rebuildScan fuel st4 [] path
          pure (foundVal, st5)
    else
      match word with
      | .rebuildop o => do
        let st1 ← helpRebuild fuel st o
        doUpdateLoop key val t fuel st1 st1.root [] none
      | .node a => do
        assert (decide (path.length + 1 ≤ 64))
        doUpdateLoop key val t fuel st a (path ++ [a]) none
      | _ => throw Fault.badPointer

/-- The function `istree::doUpdate(tid, key, val, t)`. -/
def doUpdate (fuel : Nat) (st : istree) (key : Int) (val : Int) (t : UpdateType) :
    Except Fault (Int × istree) :=
  doUpdateLoop key val t fuel st st.root [] none

/-! ## The public operations -/

/-- Modelled from the spec: `insert(tid, k, v)` of the header (not under src), which always
installs `v`: `doUpdate` with `InsertReplace`. -/
def insert (fuel : Nat) (st : istree) (key : Int) (val : Int) : Except Fault (Int × istree) :=
  doUpdate fuel st key val UpdateType.InsertReplace

/-- Modelled from the spec: `insertIfAbsent(tid, k, v)` of the header (not under src), which
installs only if absent: `doUpdate` with `InsertIfAbsent`. -/
def insertIfAbsent (fuel : Nat) (st : istree) (key : Int) (val : Int) : Except Fault (Int × istree) :=
  doUpdate fuel st key val UpdateType.InsertIfAbsent

/-- Modelled from the spec: `erase(tid, k)` of the header (not under src), which removes the
mapping if present: `doUpdate` with `Erase`; the value argument is unused. -/
def erase (fuel : Nat) (st : istree) (key : Int) : Except Fault (Int × istree) :=
  doUpdate fuel st key st.NO_VALUE UpdateType.Erase

/-- Modelled from the spec: the constructor `new(keyReserved, noValue, numThreads)` of the
header (not under src).  The empty map consists of the permanent root pseudo-node (address
`0`) with one child slot that points to a real root node (address `1`), which has one
empty slot. -/
def istree.new (infKey : Int) (noValue : Int) (maxLeaf num den rng : Nat) : istree :=
  { INF_KEY := infKey, NO_VALUE := noValue, MAX_ACCEPTABLE_LEAF_SIZE := maxLeaf,
    REBUILD_FRACTION_NUM := num, REBUILD_FRACTION_DEN := den, rngNext := rng, root := 0,
    nodes :=
      [ { capacity := 1, degree := 1, keys := [], slots := [Word.node 1], minKey := infKey,
          maxKey := infKey, initSize := 0, changeSum := 0, dirty := Dirty.clean,
          nextMarkAndCount := 0 },
        { capacity := 1, degree := 1, keys := [], slots := [Word.emptyVal], minKey := infKey,
          maxKey := infKey, initSize := 0, changeSum := 0, dirty := Dirty.clean,
          nextMarkAndCount := 0 } ],
    ops := [], smrLog := [] }

/-! ## Derived definitions used to state the properties -/

/-- Where the loop of `find` stops: the word that is neither a node nor a descriptor, the
values of `parent` and `ixToPtr` at that moment, and whether a descriptor was crossed. -/
structure FindStop where
  ptr : Word
  parent : Nat
  ixToPtr : Int
  sawRebuildOp : Bool
  deriving DecidableEq, Repr

/-- The descent of `find`: the loop of `findLoop` up to the iteration that returns. -/
def findDescent (st : istree) (key : Int) : Nat → Word → Nat → Int → Bool → Except Fault FindStop
  | 0, _, _, _, _ => throw Fault.outOfFuel
  | fuel + 1, ptr, parent, ixToPtr, saw =>
    match ptr with
    | .rebuildop o => do
      let rebuild ← st.getOp o
      findDescent st key fuel (Word.node rebuild.rebuildRoot) parent ixToPtr true
    | .node a => do
      let parentNode ← st.getNode a
      let ix ← interpolationSearch key parentNode
      let ptr2 ← parentNode.ptr ix
      findDescent st key fuel ptr2 a ix saw
    | w => pure ⟨w, parent, ixToPtr, saw⟩

/-- The returning branches of the loop of `find`, applied to the place where it stops. -/
def findReturn (st : istree) (key : Int) (s : FindStop) : Except Fault Int :=
  match s.ptr with
  | .kvpair k v => if k = key then pure v else pure st.NO_VALUE
  | .emptyVal => pure st.NO_VALUE
  | .val v => do
    assert (decide (s.ixToPtr > 0))
    let parentNode ← st.getNode s.parent
    let k ← parentNode.key (s.ixToPtr - 1)
    if k = key then pure v else pure st.NO_VALUE
  | _ => throw Fault.assertion

/-- The terminating slot of `find(key)`: the descent started as `find` starts it. -/
def findStop (fuel : Nat) (st : istree) (key : Int) : Except Fault FindStop := do
  let rootNode ← st.getNode st.root
  let ptr ← rootNode.ptr 0
  assert (ptr != Word.null)
  findDescent st key fuel ptr st.root 0 false

/-- The empty map with `INF_KEY = 2^62`, `NO_VALUE = 0`, `MAX_ACCEPTABLE_LEAF_SIZE = 48` and
`REBUILD_FRACTION = 1/4`. -/
def emptyMap : istree := istree.new 4611686018427387904 0 48 1 4 0

/-- One call of the public interface: the update kind, the key and the value. -/
abbrev Op := UpdateType × Int × Int

/-- Run a sequence of updates, one after the other. -/
def applyOps (fuel : Nat) : List Op → istree → Except Fault istree
  | [], st => pure st
  | o :: rest, st => do
    let (_, s) ← doUpdate fuel st o.2.1 o.2.2 o.1
    applyOps fuel rest s

/-- The state after a sequence of updates on the empty map (the empty map itself if the
sequence faults). -/
def stateAfter (ops : List Op) : istree :=
  match applyOps 100 ops emptyMap with
  | .ok s => s
  | .error _ => emptyMap

/-- The sequential reference map of the spec, one operation applied to the value `cur`
currently held for `k`. -/
def refStep (noValue : Int) (k : Int) (cur : Int) (o : Op) : Int :=
  if o.2.1 = k then
    match o.1 with
    | UpdateType.InsertReplace => o.2.2
    | UpdateType.InsertIfAbsent => if cur = noValue then o.2.2 else cur
    | UpdateType.Erase => noValue
  else cur

/-- The sequential reference map of the spec: the value held for `k` after a sequence of
operations on the empty map, `noValue` when there is none. -/
def refFind (noValue : Int) (ops : List Op) (k : Int) : Int :=
  ops.foldl (refStep noValue k) noValue

/-- Inserts of `k ↦ k + 1` for the keys `10, 20, ..., 10 * n`. -/
def insertTens (n : Nat) : List Op :=
  (List.range n).map (fun i => (UpdateType.InsertReplace, 10 * ((i : Int) + 1), 10 * ((i : Int) + 1) + 1))

/-- Words read at the same place of a state and of the state in which one `REBUILDOP` word
for the descriptor `o` is replaced by the node word of its rebuild root `r`. -/
def SeeRel (o : Nat) (r : Nat) (w w2 : Word) : Prop :=
  w2 = w ∨ (w = Word.rebuildop o ∧ w2 = Word.node r)

/-- The node `n` with slot `i` holding `NODE(r)`. -/
def seenNode (n : Node) (i : Nat) (r : Nat) : Node :=
  { n with slots := n.slots.set i (Word.node r) }

/-- Nodes read at the same address of the two states related by `SeeRel`. -/
def NodeRel (o r : Nat) (m m2 : Node) : Prop :=
  m2.degree = m.degree ∧ m2.keys = m.keys ∧ m2.minKey = m.minKey ∧ m2.maxKey = m.maxKey ∧
  ∀ ix : Int, (∃ e, m.ptr ix = .error e ∧ m2.ptr ix = .error e)
    ∨ (∃ w w2, m.ptr ix = .ok w ∧ m2.ptr ix = .ok w2 ∧ SeeRel o r w w2)

/-- A state in which a rebuild is pending: the leaf at address `1` held the keys 10 and 20;
another thread erased 20 (which raised `changeSum` to 1), started `rebuild` on the leaf, and
stopped right after the DCSS that installs its descriptor in the root pseudo-node. -/
def pendingRebuild : istree :=
  { INF_KEY := 4611686018427387904, NO_VALUE := 0, MAX_ACCEPTABLE_LEAF_SIZE := 48,
    REBUILD_FRACTION_NUM := 1, REBUILD_FRACTION_DEN := 4, rngNext := 0, root := 0,
    nodes :=
      [ { capacity := 1, degree := 1, keys := [], slots := [Word.rebuildop 0],
          minKey := 4611686018427387904, maxKey := 4611686018427387904, initSize := 0,
          changeSum := 0, dirty := Dirty.clean, nextMarkAndCount := 0 },
        { capacity := 3, degree := 3, keys := [10, 20],
          slots := [Word.emptyVal, Word.val 11, Word.emptyVal],
          minKey := 10, maxKey := 20, initSize := 2, changeSum := 1, dirty := Dirty.clean,
          nextMarkAndCount := 0 } ],
    ops := [ { rebuildRoot := 1, parent := 0, index := 0, depth := 0, newRoot := Word.null,
               success := false } ],
    smrLog := [] }

/-- The root pseudo-node of `stateAfter (insertTens 5)`. -/
def rootOfFive : Node :=
  { capacity := 1, degree := 1, keys := [], slots := [Word.node 8],
    minKey := 4611686018427387904, maxKey := 4611686018427387904, initSize := 0,
    changeSum := 0, dirty := Dirty.clean, nextMarkAndCount := 0 }

/-- The leaf of `stateAfter (insertTens 5)`, at address `8`. -/
def leafOfFive : Node :=
  { capacity := 6, degree := 6, keys := [10, 20, 30, 40, 50],
    slots := [Word.emptyVal, Word.val 11, Word.val 21, Word.val 31, Word.val 41, Word.val 51],
    minKey := 10, maxKey := 50, initSize := 5, changeSum := 0, dirty := Dirty.clean,
    nextMarkAndCount := 0 }

/-! ### Well-formed subtrees

The checker below decides whether a word roots a well-formed subtree and returns its in-order
list of non-empty (key, value) pairs.  It follows the invariants of the data model: node keys
strictly increasing with `minKey`/`maxKey` cached, a `VAL` in slot `i > 0` belonging to
`keys[i-1]`, every key of slot `i` within the range of that slot; no descriptor inside; a
child node allocated after its parent; every node either clean or finished with the number
of keys of its subtree and nothing but finished nodes below it.

The flag `tol` selects between the strict check (`false`) and a tolerant check (`true`) that
also admits a non-empty `VAL` word in slot `0` of a node.  An update that replaces the value
of a `KVPAIR` in slot `0` leaves such a word behind, so the states that updates reach are
described by the tolerant check. -/

/-- The key in cell `i` of a node (0 beyond the cells). -/
def keyAt (n : Node) (i : Nat) : Int := n.keys.getD i 0

/-- The lower bound `lo` (if any) admits `k`. -/
def aboveLo (lo : Option Int) (k : Int) : Bool :=
  match lo with
  | none => true
  | some l => decide (l ≤ k)

/-- The upper bound `hi` (if any) admits `k`. -/
def belowHi (hi : Option Int) (k : Int) : Bool :=
  match hi with
  | none => true
  | some h => decide (k < h)

/-- Lower bound of the keys that belong to slot `i`. -/
def slotLo (n : Node) (lo : Option Int) (i : Nat) : Option Int :=
  if i = 0 then lo else some (keyAt n (i - 1))

/-- Upper bound of the keys that belong to slot `i`. -/
def slotHi (n : Node) (hi : Option Int) (i : Nat) : Option Int :=
  if i + 1 = n.degree then hi else some (keyAt n i)

/-- The list is strictly increasing. -/
def keysIncreasing : List Int → Bool
  | [] => true
  | [_] => true
  | a :: b :: rest => decide (a < b) && keysIncreasing (b :: rest)

/-- The header and the keys of a node are well formed for the key range `[lo, hi)`. -/
def nodeShapeOK (n : Node) (lo hi : Option Int) : Bool :=
  decide (1 ≤ n.degree) && decide (n.degree ≤ n.slots.length)
  && decide (n.degree - 1 ≤ n.keys.length)
  && keysIncreasing (n.keys.take (n.degree - 1))
  && (decide (n.degree < 2)
      || (n.minKey == keyAt n 0 && n.maxKey == keyAt n (n.degree - 2)
          && aboveLo lo (keyAt n 0) && belowHi hi (keyAt n (n.degree - 2))))

/-- The key under which a non-empty `VAL` word in slot `0` of a node is listed: a key below
the first key of the node. -/
def pickKey (n : Node) : Int :=
  if 2 ≤ n.degree then keyAt n 0 - 1 else 0

/-- Check of the word in slot `i` of the node `n` at address `a`; `rec` checks a child node.
With `tol` set, a non-empty `VAL` word in slot `0` (which an update that replaces the value
of a `KVPAIR` leaves there) is admitted and listed under the key `pickKey n`, provided that
key lies in the range of the slot; without `tol` it is rejected. -/
def chkSlot (tol : Bool) (rec : Option Int → Option Int → Nat → Option (List (Int × Int) × Bool))
    (n : Node) (a : Nat) (lo hi : Option Int) (i : Nat) :
    Word → Option (List (Int × Int) × Bool)
  | .emptyVal => some ([], true)
  | .val v =>
    if 0 < i then some ([(keyAt n (i - 1), v)], true)
    else if tol && (aboveLo (slotLo n lo i) (pickKey n) && belowHi (slotHi n hi i) (pickKey n)) then
      some ([(pickKey n, v)], true)
    else none
  | .kvpair k v =>
    if aboveLo (slotLo n lo i) k && belowHi (slotHi n hi i) k then some ([(k, v)], true)
    else none
  | .node b => if a < b then rec (slotLo n lo i) (slotHi n hi i) b else none
  | _ => none

/-- Check of the slots `i, i+1, ..., i+c-1` of a node: their in-order lists appended, and
whether every node below them is finished. -/
def chkSlots (tol : Bool)
    (rec : Option Int → Option Int → Nat → Option (List (Int × Int) × Bool))
    (n : Node) (a : Nat) (lo hi : Option Int) : Nat → Nat → Option (List (Int × Int) × Bool)
  | 0, _ => some ([], true)
  | c + 1, i =>
    match n.slots[i]? with
    | none => none
    | some w =>
      match chkSlot tol rec n a lo hi i w with
      | none => none
      | some r1 =>
        match chkSlots tol rec n a lo hi c (i + 1) with
        | none => none
        | some r2 => some (r1.1 ++ r2.1, r1.2 && r2.2)

/-- Check of the subtree rooted at the node at address `a`, of height at most `fuel`, for the
key range `[lo, hi)`: its in-order list, and whether the node is finished. -/
def chkNode (tol : Bool) :
    Nat → istree → Option Int → Option Int → Nat → Option (List (Int × Int) × Bool)
  | 0, _, _, _, _ => none
  | f + 1, st, lo, hi, a =>
    match st.nodes[a]? with
    | none => none
    | some n =>
      if nodeShapeOK n lo hi then
        match chkSlots tol (chkNode tol f st) n a lo hi n.degree 0 with
        | none => none
        | some r =>
          if n.dirty = Dirty.clean then some (r.1, false)
          else if n.dirty = SUM_TO_DIRTY_FINISHED r.1.length && r.2 then some (r.1, true)
          else none
      else none

/-- Check of the subtree behind a word that fills a slot of a node allocated at `minAddr`,
for the key range `[lo, hi)`: the empty word, a key/value pair, or a node. -/
def chkWord (tol : Bool) (fuel : Nat) (st : istree) (minAddr : Nat) (lo hi : Option Int) :
    Word → Option (List (Int × Int) × Bool)
  | .emptyVal => some ([], true)
  | .kvpair k v => if aboveLo lo k && belowHi hi k then some ([(k, v)], true) else none
  | .node b => if minAddr < b then chkNode tol fuel st lo hi b else none
  | _ => none

/-- The value that an in-order list holds for `key`, `noValue` when it holds none. -/
def valueOf (noValue : Int) (key : Int) (l : List (Int × Int)) : Int :=
  (l.lookup key).getD noValue

/-- The keys of a node are usable for searching. -/
structure KeysOK (n : Node) : Prop where
  deg : 1 ≤ n.degree
  len : n.degree - 1 ≤ n.keys.length
  sorted : ∀ i j, i < j → j < n.degree - 1 → keyAt n i < keyAt n j
  min : 2 ≤ n.degree → n.minKey = keyAt n 0
  max : 2 ≤ n.degree → n.maxKey = keyAt n (n.degree - 2)



/-- What `nodeShapeOK` says about a node. -/
structure ShapeFacts (n : Node) (lo hi : Option Int) : Prop where
  keys : KeysOK n
  slots : n.degree ≤ n.slots.length
  lo : 2 ≤ n.degree → aboveLo lo (keyAt n 0) = true
  hi : 2 ≤ n.degree → belowHi hi (keyAt n (n.degree - 2)) = true


/-- The keys of a list lie in `[lo, hi)` and increase strictly. -/
def ListOK (lo hi : Option Int) (l : List (Int × Int)) : Prop :=
  (∀ p ∈ l, aboveLo lo p.1 = true ∧ belowHi hi p.1 = true) ∧ l.Pairwise (fun p q => p.1 < q.1)


/-- The nodes `n` and `n1` differ at most in `dirty` and `nextMarkAndCount`. -/
def SameShape (n n1 : Node) : Prop :=
  n1 = { n with dirty := n1.dirty, nextMarkAndCount := n1.nextMarkAndCount }

/-- The state `st1` arises from `st` by marking: only `dirty` and `nextMarkAndCount` fields
change, and a node whose dirty word changes was clean, has an address of at least `a0`, and
is finished in `st1` wherever it was well formed in `st`. -/
structure MarkStep (tol : Bool) (st st1 : istree) (a0 : Nat) : Prop where
  rest : st1 = { st with nodes := st1.nodes }
  len : st1.nodes.length = st.nodes.length
  pt : ∀ b n, st.nodes[b]? = some n → ∃ n1, st1.nodes[b]? = some n1 ∧ SameShape n n1 ∧
    (n1.dirty = n.dirty ∨
      (a0 ≤ b ∧ n.dirty = Dirty.clean ∧
        ∀ f lo hi r, chkNode tol f st lo hi b = some r →
          chkNode tol f st1 lo hi b = some (r.1, true)))

/-- Passing from one checker of child nodes to another that keeps the lists and can only
turn flags to true. -/
def RecMono (rec rec1 : Option Int → Option Int → Nat → Option (List (Int × Int) × Bool)) :
    Prop :=
  ∀ lo hi b r, rec lo hi b = some r → ∃ d, rec1 lo hi b = some (r.1, d) ∧ (r.2 = true → d = true)

/-- The node at `a` has the shape of `n` and its dirty word is `DIRTY_STARTED_MASK`. -/
def StartedAt (s : istree) (a : Nat) (n : Node) : Prop :=
  ∃ na, s.nodes[a]? = some na ∧ SameShape n na ∧ na.dirty = DIRTY_STARTED_MASK

/-- The specification of `markAndCount` on well-formed subtrees of height at most `f`. -/
def MarkSpec (tol : Bool) (f : Nat) : Prop :=
  ∀ (fm : Nat) (st : istree) (lo hi : Option Int) (a : Nat) (r : List (Int × Int) × Bool)
    (c : Nat) (st1 : istree), chkNode tol f st lo hi a = some r →
    markAndCount fm st (Word.node a) = .ok (c, st1) →
    c = r.1.length ∧ MarkStep tol st st1 a ∧ chkNode tol f st1 lo hi a = some (r.1, true)

/-- The specification of `addKVPairs` on well-formed subtrees of height at most `f`. -/
def CollectSpec (tol : Bool) (st : istree) (f : Nat) : Prop :=
  ∀ (fuel : Nat) (lo hi : Option Int) (a : Nat) (r : List (Int × Int) × Bool)
    (b b1 : IdealBuilder), chkNode tol f st lo hi a = some r →
    addKVPairs st fuel (Word.node a) b = .ok b1 → b1 = { b with pairs := b.pairs ++ r.1 }

/-- The arguments of `addKVPairsSubset` after a traversal of a subtree with in-order list
`l`: the pairs `l[skip ..]`, at most `numKeysToAdd` of them, have been added. -/
def subsetResult (s : SubsetArgs) (l : List (Int × Int)) : SubsetArgs :=
  ⟨s.numKeysToSkip - l.length,
   s.numKeysToAdd - ((l.drop s.numKeysToSkip).take s.numKeysToAdd).length,
   { s.b with pairs := s.b.pairs ++ (l.drop s.numKeysToSkip).take s.numKeysToAdd }⟩

/-- The specification of `addKVPairsSubset` on well-formed subtrees of height at most `f`. -/
def SubsetSpec (tol : Bool) (st : istree) (cs : SlotRef) (f : Nat) : Prop :=
  ∀ (fuel : Nat) (lo hi : Option Int) (a : Nat) (r : List (Int × Int) × Bool)
    (s s1 : SubsetArgs), chkNode tol f st lo hi a = some r →
    addKVPairsSubset st cs fuel a s = .ok s1 → s1 = subsetResult s r.1

/-- The checker `rec1` accepts, with the same result, whatever `rec` accepts above `a`. -/
def RecExt (a : Nat) (rec rec1 : Option Int → Option Int → Nat → Option (List (Int × Int) × Bool)) :
    Prop :=
  ∀ lo hi b r, a < b → rec lo hi b = some r → rec1 lo hi b = some r

/-- Number of pairs in the children before child `j` of an ideal node: the expression
`ix*childSize + (ix < remainder ? ix : remainder)`. -/
def chunkStart (cs rem j : Nat) : Nat := j * cs + (if j < rem then j else rem)

/-- Number of pairs of child `j` of an ideal node: `childSize + (ix < remainder)`. -/
def chunkSize (cs rem j : Nat) : Nat := cs + (if j < rem then 1 else 0)

/-- The pairs of child `j` of an ideal node built from `l`. -/
def chunk (l : List (Int × Int)) (cs rem j : Nat) : List (Int × Int) :=
  (l.drop (chunkStart cs rem j)).take (chunkSize cs rem j)

/-- The smallest key of child `j` (`0` when there is none). -/
def chunkKey (l : List (Int × Int)) (cs rem j : Nat) : Int :=
  ((l.drop (chunkStart cs rem j)).headD (0, 0)).1

/-- Lower bound of the keys of child `j`. -/
def chunkLo (l : List (Int × Int)) (cs rem : Nat) (lo : Option Int) (j : Nat) : Option Int :=
  if j = 0 then lo else some (chunkKey l cs rem j)

/-- Upper bound of the keys of child `j` of `m` children. -/
def chunkHi (l : List (Int × Int)) (cs rem m : Nat) (hi : Option Int) (j : Nat) : Option Int :=
  if j + 1 = m then hi else some (chunkKey l cs rem (j + 1))

/-- The keys of the node are well formed: the cells exist, the keys increase strictly, and
`minKey` and `maxKey` cache the first and the last key. -/
def keysWellFormed (n : Node) : Bool :=
  decide (1 ≤ n.degree) && decide (n.degree - 1 ≤ n.keys.length)
  && keysIncreasing (n.keys.take (n.degree - 1))
  && (decide (n.degree < 2)
      || (n.minKey == keyAt n 0 && n.maxKey == keyAt n (n.degree - 2)))

/-- Every node at an address from `N` on is complete: its keys are well formed and it has at
least two slots. -/
def Fresh (N : Nat) (st : istree) : Prop :=
  ∀ (x : Nat) (n : Node), N ≤ x → st.nodes[x]? = some n →
    keysWellFormed n = true ∧ 2 ≤ n.degree

/-- The heap `st1` arises from `st` by allocation: the nodes of `st` are kept. -/
structure Grow (st st1 : istree) : Prop where
  rest : st1 = { st with nodes := st1.nodes }
  len : st.nodes.length ≤ st1.nodes.length
  keep : ∀ x, x < st.nodes.length → st1.nodes[x]? = st.nodes[x]?

/-- The heap `st1` arises from `st` by allocation and by writes to the node at `a`; the
allocated nodes other than the one at `a` are complete. -/
structure Ext (a : Nat) (st st1 : istree) : Prop where
  rest : st1 = { st with nodes := st1.nodes }
  len : st.nodes.length ≤ st1.nodes.length
  keep : ∀ x n, x ≠ a → st.nodes[x]? = some n → st1.nodes[x]? = some n
  fresh : ∀ (x : Nat) (n : Node), st.nodes.length ≤ x → x ≠ a → st1.nodes[x]? = some n →
    keysWellFormed n = true ∧ 2 ≤ n.degree

/-- The slots below `ix` of the node `n` at address `a` hold the first `ix` children of an
ideal node for the list `l`, and the keys between them are set. -/
structure Filled (tol : Bool) (F : Nat) (st : istree) (a : Nat) (n : Node) (l : List (Int × Int))
    (cs rem m : Nat) (lo hi : Option Int) (ix : Nat) : Prop where
  slot : ∀ j, j < ix → ∃ w d, n.slots[j]? = some w ∧
    chkWord tol F st a (chunkLo l cs rem lo j) (chunkHi l cs rem m hi j) w
      = some (chunk l cs rem j, d)
  key : ∀ j, 1 ≤ j → j < ix → keyAt n (j - 1) = chunkKey l cs rem j

/-- The specification of the builder: a fresh well-formed subtree that holds the pairs, all
of whose nodes are complete. -/
def BuildSpec (tol : Bool) (fuel : Nat) : Prop :=
  ∀ (st st1 : istree) (pset : List (Int × Int)) (d a : Nat) (lo hi : Option Int),
    build fuel st pset d = .ok (a, st1) → ListOK lo hi pset →
    a = st.nodes.length ∧ Grow st st1 ∧ Fresh st.nodes.length st1
      ∧ ∃ F, chkNode tol F st1 lo hi a = some (pset, false)

/-- The node `n` at address `a` is the root of an ideal subtree under construction with `m`
slots, of which those from `ix` on are not yet filled. -/
structure Reserved (st : istree) (a : Nat) (n : Node) (m ix : Nat) : Prop where
  get : st.nodes[a]? = some n
  cap : n.capacity = m
  slots : n.slots.length = m
  keys : n.keys.length = m - 1
  dirty : n.dirty = Dirty.clean
  free : ∀ j, ix ≤ j → j < m → n.slots[j]? = some Word.null

/-- What `createIdealConcurrent` leaves behind: the old nodes, the parameters of the tree,
the descriptor up to its `newRoot` field, and new nodes that are complete. -/
structure Built (st st1 : istree) (o : Nat) (op : RebuildOperation) : Prop where
  rest : st1 = { st with nodes := st1.nodes, ops := st1.ops }
  len : st.nodes.length ≤ st1.nodes.length
  keep : ∀ x, x < st.nodes.length → st1.nodes[x]? = st.nodes[x]?
  op : ∃ nr, st1.getOp o = .ok { op with newRoot := nr }
  fresh : Fresh st.nodes.length st1

/-- The heap `st1` arises from `st` by writes to the `dirty` words of nodes whose addresses
satisfy `S`, and by calls into the reclamation interface. -/
structure DirtyOnly (S : Nat → Prop) (st st1 : istree) : Prop where
  rest : st1 = { st with nodes := st1.nodes, smrLog := st1.smrLog }
  len : st1.nodes.length = st.nodes.length
  pt : ∀ (x : Nat) (n : Node), st.nodes[x]? = some n →
    ∃ n1, st1.nodes[x]? = some n1 ∧ SameShape n n1
  frame : ∀ (x : Nat), ¬ S x → st1.nodes[x]? = st.nodes[x]?

/-- The state `st1` arises from `st` by a successful rebuild below slot `i` of the node `pn`
at address `parent`: the slot holds the word `w`, which roots a well-formed subtree with
in-order list `l`; every other node keeps its shape. -/
structure Rebuilt (tol : Bool) (st st1 : istree) (parent i : Nat) (w : Word) (pn : Node)
    (l : List (Int × Int)) : Prop where
  root : st1.root = st.root
  noValue : st1.NO_VALUE = st.NO_VALUE
  len : st.nodes.length ≤ st1.nodes.length
  old : ∀ (x : Nat) (n : Node), x ≠ parent → st.nodes[x]? = some n →
    ∃ n1, st1.nodes[x]? = some n1 ∧ SameShape n n1
  par : ∃ pn1, st1.nodes[parent]? = some pn1 ∧
    SameShape { pn with slots := pn.slots.set i w } pn1
  word : w ≠ Word.null
  sub : ∀ lo hi, ListOK lo hi l → ∃ F d, chkWord tol F st1 parent lo hi w = some (l, d)
  infKey : st1.INF_KEY = st.INF_KEY

/-- A tree with the keys 10, 20, 30, 40, 50 in one leaf, in which a leaf may hold two keys:
the root node at address 0 and the leaf at address 1. -/
def fiveKeys : istree :=
  { INF_KEY := 4611686018427387904, NO_VALUE := 0, MAX_ACCEPTABLE_LEAF_SIZE := 2,
    REBUILD_FRACTION_NUM := 1, REBUILD_FRACTION_DEN := 4, rngNext := 0, root := 0,
    nodes :=
      [ { capacity := 1, degree := 1, keys := [], slots := [Word.node 1],
          minKey := 4611686018427387904, maxKey := 4611686018427387904, initSize := 0,
          changeSum := 0, dirty := Dirty.clean, nextMarkAndCount := 0 },
        { capacity := 6, degree := 6, keys := [10, 20, 30, 40, 50],
          slots := [Word.emptyVal, Word.val 11, Word.val 21, Word.val 31, Word.val 41,
            Word.val 51],
          minKey := 10, maxKey := 50, initSize := 5, changeSum := 2, dirty := Dirty.clean,
          nextMarkAndCount := 0 } ],
    ops := [], smrLog := [] }

/-- Number of keys of the node (cells `0 .. degree-2`) that are at most `key`. -/
def keysAtMost (n : Node) (key : Int) : Nat :=
  ((n.keys.take (n.degree - 1)).filter (fun k => decide (k ≤ key))).length

/-- A node of degree 4 with the keys 10, 20, 30. -/
def threeKeyNode : Node :=
  { capacity := 4, degree := 4, keys := [10, 20, 30],
    slots := [Word.emptyVal, Word.val 11, Word.val 21, Word.val 31],
    minKey := 10, maxKey := 30, initSize := 3, changeSum := 0, dirty := Dirty.clean,
    nextMarkAndCount := 0 }

/-- How many of the five tag predicates hold of a word. -/
def tagsHolding (w : Word) : Nat :=
  ([IS_NODE w, IS_KVPAIR w, IS_VAL w, IS_EMPTY_VAL w, IS_REBUILDOP w].filter id).length

/-- How many of the four predicates `IS_NODE`, `IS_KVPAIR`, `IS_VAL`, `IS_REBUILDOP` hold of
a word. -/
def kindsHolding (w : Word) : Nat :=
  ([IS_NODE w, IS_KVPAIR w, IS_VAL w, IS_REBUILDOP w].filter id).length

/-- One write to a dirty word: the compare-and-swap `0 -> started` and the compare-and-swap
`started -> finished(sum)` of `markAndCount`, and the compare-and-swap
`old -> old | marked-for-free` of `helpFreeSubtree`. -/
inductive DirtyWrite : Dirty → Dirty → Prop where
  | start : DirtyWrite Dirty.clean DIRTY_STARTED_MASK
  | finish (sum : Nat) : DirtyWrite DIRTY_STARTED_MASK (SUM_TO_DIRTY_FINISHED sum)
  | mark (d : Dirty) : DirtyWrite d d.orMarkedForFree

/-- The dirty word `d1` arises from `d` by a sequence of writes. -/
def DirtyForward (d d1 : Dirty) : Prop := Relation.ReflTransGen DirtyWrite d d1

/-- A relation between states that holds across the steps of marking and reclaiming: it is
reflexive and transitive, and it holds across a compare-and-swap of a dirty word that is one
of the three writes, across a store to `nextMarkAndCount`, and across a reclamation call. -/
structure MarkingRel (R : istree → istree → Prop) : Prop where
  reflRel : ∀ st, R st st
  thenRel : ∀ st st1 st2, R st st1 → R st1 st2 → R st st2
  cas : ∀ (st : istree) (a : Nat) (old new : Dirty) (b : Bool) (st1 : istree),
    casDirty st a old new = .ok (b, st1) → DirtyWrite old new → R st st1
  next : ∀ (st : istree) (a : Nat) (node : Node) (k : Nat), st.nodes[a]? = some node →
    R st (st.setNode a { node with nextMarkAndCount := k })
  log : ∀ (st : istree) (c : SmrCall), R st (st.logSmr c)

/-- The state `st1` arises from `st` by marking and reclaiming: nodes differ at most in
`dirty` and `nextMarkAndCount`, every dirty word has moved forward, and reclamation calls
may have been recorded. -/
structure Marked (st st1 : istree) : Prop where
  rest : st1 = { st with nodes := st1.nodes, smrLog := st1.smrLog }
  len : st1.nodes.length = st.nodes.length
  pt : ∀ (a : Nat) (n : Node), st.nodes[a]? = some n →
    ∃ n1, st1.nodes[a]? = some n1 ∧ SameShape n n1 ∧ DirtyForward n.dirty n1.dirty

/-- What a sequence of writes preserves: no bit is cleared, a stored sum is kept, and a
word that is not `0` does not become `0`. -/
def DirtyKept (d d1 : Dirty) : Prop :=
  (d.started = true → d1.started = true) ∧
  (d.finished = true → d1.finished = true ∧ d1.sum = d.sum) ∧
  (d.markedForFree = true → d1.markedForFree = true) ∧
  (d ≠ Dirty.clean → d1 ≠ Dirty.clean)

/-- The tree `fiveKeys` after `markAndCount` on its leaf (`fiveKeys` itself if that
faults). -/
def markedFiveKeys : istree :=
  match markAndCount 3 fiveKeys (Word.node 1) with
  | .ok r => r.2
  | .error _ => fiveKeys

/-- The tree `markedFiveKeys` after `helpFreeSubtree` on its leaf. -/
def freedFiveKeys : istree :=
  match helpFreeSubtree markedFiveKeys 1 with
  | .ok s => s
  | .error _ => fiveKeys

/-- The results of `rec` on the slots `i, i+1, ..., i+c-1` added up: the number of entries,
and whether every node behind these slots is finished. -/
def cntSlots (rec : Word → Option (Nat × Bool)) (slots : List Word) :
    Nat → Nat → Option (Nat × Bool)
  | 0, _ => some (0, true)
  | c + 1, i =>
    match slots[i]? with
    | none => none
    | some w =>
      match rec w with
      | none => none
      | some r1 =>
        match cntSlots rec slots c (i + 1) with
        | none => none
        | some r2 => some (r1.1 + r2.1, r1.2 && r2.2)

/-- Check of the subtree behind a word, of height at most `fuel`, as `markAndCount` walks
it (through descriptors into their rebuild roots): every node is either clean, or finished
with the number of non-empty entries of its own subtree and nothing but finished nodes
below it.  The result is that number, and whether the subtree is finished. -/
def cntWord : Nat → istree → Word → Option (Nat × Bool)
  | 0, _, _ => none
  | f + 1, st, w =>
    match w with
    | .kvpair _ _ => some (1, true)
    | .val _ => some (1, true)
    | .emptyVal => some (0, true)
    | .rebuildop o =>
      match st.ops[o]? with
      | none => none
      | some op => cntWord f st (Word.node op.rebuildRoot)
    | .node a =>
      match st.nodes[a]? with
      | none => none
      | some n =>
        if n.degree ≤ n.slots.length then
          match cntSlots (cntWord f st) n.slots n.degree 0 with
          | none => none
          | some r =>
            if n.dirty = Dirty.clean then some (r.1, false)
            else if n.dirty = SUM_TO_DIRTY_FINISHED r.1 && r.2 then some (r.1, true)
            else none
        else none
    | .null => none

/-- The state `st1` arises from `st` by marking: only `dirty` and `nextMarkAndCount` fields
change; a node whose dirty word changes was clean and roots a finished subtree in `st1`; a
node that is started and whose address is not in `skip` is untouched. -/
structure CountStep (skip : List Nat) (st st1 : istree) : Prop where
  rest : st1 = { st with nodes := st1.nodes }
  len : st1.nodes.length = st.nodes.length
  pt : ∀ (b : Nat) (n : Node), st.nodes[b]? = some n →
    ∃ n1, st1.nodes[b]? = some n1 ∧ SameShape n n1 ∧
      (n1.dirty = n.dirty ∨
        (n.dirty = Dirty.clean ∧ ∃ g0 c, cntWord g0 st1 (Word.node b) = some (c, true)))
  started : ∀ (b : Nat) (n : Node), b ∉ skip → st.nodes[b]? = some n →
    n.dirty = DIRTY_STARTED_MASK → st1.nodes[b]? = some n

/-- The specification of `markAndCount` on countable subtrees of height at most `f`: with
fuel at least `f` it returns the number of entries and leaves the subtree finished. -/
def CountSpec (f : Nat) : Prop :=
  ∀ (F : Nat) (st : istree) (w : Word) (r : Nat × Bool), f ≤ F → cntWord f st w = some r →
    ∃ st1, markAndCount F st w = .ok (r.1, st1) ∧ CountStep [] st st1
      ∧ cntWord f st1 w = some (r.1, true)

/-- The results of `rec` on the slots `i, i+1, ..., i+c-1` added up. -/
def sumSlots (rec : Word → Option Nat) (slots : List Word) : Nat → Nat → Option Nat
  | 0, _ => some 0
  | c + 1, i =>
    match slots[i]? with
    | none => none
    | some w =>
      match rec w with
      | none => none
      | some x =>
        match sumSlots rec slots c (i + 1) with
        | none => none
        | some y => some (x + y)

/-- The number of non-empty (key, value) entries in the subtree behind a word, for a subtree
of height at most `fuel`: 1 for a `KVPAIR`, 1 for a non-empty `VAL`, 0 for `EMPTY_VAL`, the
count of the rebuild root for a `REBUILDOP`, and for a `NODE` the sum of the counts of its
`degree` children. -/
def countKeys : Nat → istree → Word → Option Nat
  | 0, _, _ => none
  | f + 1, st, w =>
    match w with
    | .kvpair _ _ => some 1
    | .val _ => some 1
    | .emptyVal => some 0
    | .rebuildop o =>
      match st.ops[o]? with
      | none => none
      | some op => countKeys f st (Word.node op.rebuildRoot)
    | .node a =>
      match st.nodes[a]? with
      | none => none
      | some n =>
        if n.degree ≤ n.slots.length then sumSlots (countKeys f st) n.slots n.degree 0
        else none
    | .null => none

/-- The predicate `rec` holds of the slots `i, i+1, ..., i+c-1`. -/
def allSlots (rec : Word → Bool) (slots : List Word) : Nat → Nat → Bool
  | 0, _ => true
  | c + 1, i =>
    match slots[i]? with
    | none => false
    | some w => rec w && allSlots rec slots c (i + 1)

/-- Every node of the subtree behind a word (of height at most `fuel`, descriptors followed
into their rebuild roots) has a clean dirty field. -/
def allClean : Nat → istree → Word → Bool
  | 0, _, _ => false
  | f + 1, st, w =>
    match w with
    | .kvpair _ _ => true
    | .val _ => true
    | .emptyVal => true
    | .rebuildop o =>
      match st.ops[o]? with
      | none => false
      | some op => allClean f st (Word.node op.rebuildRoot)
    | .node a =>
      match st.nodes[a]? with
      | none => false
      | some n => decide (n.dirty = Dirty.clean) && allSlots (allClean f st) n.slots n.degree 0
    | .null => false

/-- Every node of the subtree behind a word (of height at most `fuel`, descriptors followed
into their rebuild roots) has `dirty == finished(s)`, started bit included, where `s` is the
number of non-empty entries of that node's own subtree. -/
def allFinished : Nat → istree → Word → Bool
  | 0, _, _ => false
  | f + 1, st, w =>
    match w with
    | .kvpair _ _ => true
    | .val _ => true
    | .emptyVal => true
    | .rebuildop o =>
      match st.ops[o]? with
      | none => false
      | some op => allFinished f st (Word.node op.rebuildRoot)
    | .node a =>
      match st.nodes[a]? with
      | none => false
      | some n =>
        (match countKeys (f + 1) st (Word.node a) with
          | none => false
          | some s => decide (n.dirty = SUM_TO_DIRTY_FINISHED s))
        && allSlots (allFinished f st) n.slots n.degree 0
    | .null => false

/-- The node `n1` agrees with `n` in everything that the check of a subtree reads: the
degree, the keys, the slots, the cached bounds and the dirty word. -/
structure LikeNode (n n1 : Node) : Prop where
  degree : n1.degree = n.degree
  keys : n1.keys = n.keys
  slots : n1.slots = n.slots
  minKey : n1.minKey = n.minKey
  maxKey : n1.maxKey = n.maxKey
  dirty : n1.dirty = n.dirty

/-- The key `k` lies in the range `[lo, hi)`. -/
def inRange (lo hi : Option Int) (k : Int) : Prop :=
  aboveLo lo k = true ∧ belowHi hi k = true

/-- The ranges `[lo, hi)` and `[L, H)` have no key in common. -/
def Apart (lo hi L H : Option Int) : Prop :=
  ∀ k, inRange lo hi k → ¬ inRange L H k

/-- The path from the node at `p`, whose range is `[lo, hi)`, down to the node at `q`, whose
range is `[L, H)`: each node of `path` sits in a slot of the node before it (the first one
in a slot of `p`) at a larger address, and `q` is the last one (`p` itself when the path is
empty). -/
def Chain (st : istree) :
    Nat → Option Int → Option Int → List Nat → Nat → Option Int → Option Int → Prop
  | p, lo, hi, [], q, L, H => q = p ∧ L = lo ∧ H = hi
  | p, lo, hi, a :: rest, q, L, H =>
    ∃ pn i, st.nodes[p]? = some pn ∧ i < pn.degree ∧ pn.slots[i]? = some (Word.node a) ∧ p < a
      ∧ Chain st a (slotLo pn lo i) (slotHi pn hi i) rest q L H

/-- What a successful rebuild of the subtree rooted at `rr`, whose range is `[lo0, hi0)`,
below the node at `p` leaves of the rest of the heap: the nodes at addresses below `rr` keep
their dirty words; the new nodes are complete; and a well-formed subtree whose range is
apart from a range `[L, H)` that includes `[lo0, hi0)` is well formed afterwards, with the
same in-order list, provided its nodes lie at addresses from `m` on, the node at `p` is
excluded from it by its address or by its first key, and the nodes from `rr` on have at
least two slots. -/
structure Kept (tol : Bool) (st st1 : istree) (p rr : Nat) (lo0 hi0 : Option Int) : Prop where
  low : ∀ (x : Nat) (n : Node), x < rr → st.nodes[x]? = some n →
    ∃ n1, st1.nodes[x]? = some n1 ∧ n1.dirty = n.dirty
  fresh : Fresh st.nodes.length st1
  off : ∀ (L H : Option Int) (m : Nat), (∀ k, inRange lo0 hi0 k → inRange L H k) →
    (m ≤ p → ∃ pn, st.nodes[p]? = some pn ∧ 2 ≤ pn.degree ∧ inRange L H (keyAt pn 0)) →
    (∀ (x : Nat) (n : Node), rr ≤ x → st.nodes[x]? = some n → 2 ≤ n.degree) →
    ∀ g lo hi b r, m ≤ b → Apart lo hi L H → chkNode tol g st lo hi b = some r →
      ∃ d, chkNode tol g st1 lo hi b = some (r.1, d)

/-- The value `x` is representable in the signed 64-bit key type. -/
def fits64 (x : Int) : Bool :=
  decide (-9223372036854775808 ≤ x) && decide (x < 9223372036854775808)

/-- The read `node->key(ix)` of `interpolationSearch` for `key` stays inside `node`: the
search returns at a guard, or the division of source line 671 does not trap and the index it
yields on machine integers is a key index of the node. -/
def indexInBounds (key : Int) (node : Node) : Bool :=
  decide (node.degree = 1) || decide (key < node.minKey) || decide (key ≥ node.maxKey)
    || (!divisionTraps ((node.degree : Int) - 1) key node.minKey node.maxKey
        && decide (0 ≤ predictedIndex ((node.degree : Int) - 1) key node.minKey node.maxKey)
        && decide (predictedIndex ((node.degree : Int) - 1) key node.minKey node.maxKey
            < (node.degree : Int) - 1))

/-- The leaf of `fiveKeys`, at address `1`. -/
def fiveKeysLeaf : Node :=
  { capacity := 6, degree := 6, keys := [10, 20, 30, 40, 50],
    slots := [Word.emptyVal, Word.val 11, Word.val 21, Word.val 31, Word.val 41, Word.val 51],
    minKey := 10, maxKey := 50, initSize := 5, changeSum := 2, dirty := Dirty.clean,
    nextMarkAndCount := 0 }

/-- The tree `fiveKeys` in the middle of the rebuild of its leaf: the descriptor is installed
in slot 0 of the root pseudo-node and `markAndCount` has run (`fiveKeys` itself if that
faults). -/
def rebuildingFiveKeys : istree :=
  match dcssPtr (fiveKeys.allocOp ⟨1, 0, 0, 0, Word.null, false⟩).2 0 0 (Word.node 1)
      (Word.rebuildop 0) with
  | .ok r =>
    (match markAndCount 3 r.2 (Word.node 1) with
    | .ok q => q.2
    | .error _ => fiveKeys)
  | .error _ => fiveKeys

/-- The state after `createIdealConcurrent` in `rebuildingFiveKeys` (`fiveKeys` itself if
that faults). -/
def idealFiveKeys : istree :=
  match createIdealConcurrent 8 rebuildingFiveKeys 0 5 with
  | .ok r => r.2
  | .error _ => fiveKeys

/-- Termination of `addKVPairs` on marked well-formed subtrees of height at most `f`. -/
def CollectTotal (st : istree) (f : Nat) : Prop :=
  ∀ (fuel : Nat) (lo hi : Option Int) (a : Nat) (l : List (Int × Int)) (b : IdealBuilder),
    f + 1 ≤ fuel → chkNode false f st lo hi a = some (l, true) →
    ∃ b1, addKVPairs st fuel (Word.node a) b = .ok b1

/-- Termination of `addKVPairsSubset` on marked well-formed subtrees of height at most `f`. -/
def SubsetTotal (st : istree) (cs : SlotRef) (f : Nat) : Prop :=
  ∀ (fuel : Nat) (lo hi : Option Int) (a : Nat) (l : List (Int × Int)) (s : SubsetArgs),
    f ≤ fuel → chkNode false f st lo hi a = some (l, true) → 0 < s.numKeysToAdd →
    ∃ s1, addKVPairsSubset st cs fuel a s = .ok s1

/-- A state in which a rebuild of an empty subtree is subsumed: the node at address `1` (the
parent) holds the key 10, the descriptor of a rebuild of the leaf at address `2` in its slot
0, and `VAL(11)` in its slot 1; the leaf holds no key (its only key was erased); another
rebuild, started above the parent, has set the parent's dirty word to started. -/
def subsumedEmptyRebuild : istree :=
  { INF_KEY := 4611686018427387904, NO_VALUE := 0, MAX_ACCEPTABLE_LEAF_SIZE := 48,
    REBUILD_FRACTION_NUM := 1, REBUILD_FRACTION_DEN := 4, rngNext := 0, root := 0,
    nodes :=
      [ { capacity := 1, degree := 1, keys := [], slots := [Word.rebuildop 1],
          minKey := 4611686018427387904, maxKey := 4611686018427387904, initSize := 0,
          changeSum := 0, dirty := Dirty.clean, nextMarkAndCount := 0 },
        { capacity := 2, degree := 2, keys := [10],
          slots := [Word.rebuildop 0, Word.val 11],
          minKey := 10, maxKey := 10, initSize := 2, changeSum := 1,
          dirty := DIRTY_STARTED_MASK, nextMarkAndCount := 0 },
        { capacity := 2, degree := 2, keys := [5],
          slots := [Word.emptyVal, Word.emptyVal],
          minKey := 5, maxKey := 5, initSize := 1, changeSum := 1, dirty := Dirty.clean,
          nextMarkAndCount := 0 } ],
    ops := [ { rebuildRoot := 2, parent := 1, index := 0, depth := 1, newRoot := Word.null,
               success := false },
             { rebuildRoot := 1, parent := 0, index := 0, depth := 0, newRoot := Word.null,
               success := false } ],
    smrLog := [] }

/-- The state `subsumedEmptyRebuild` with one key left in the leaf: its slot 1 holds
`VAL(6)` for the key 5. -/
def subsumedOneKeyRebuild : istree :=
  subsumedEmptyRebuild.setNode 2
    { capacity := 2, degree := 2, keys := [5], slots := [Word.emptyVal, Word.val 6],
      minKey := 5, maxKey := 5, initSize := 1, changeSum := 1, dirty := Dirty.clean,
      nextMarkAndCount := 0 }

/-- The state after `helpRebuild` in `subsumedOneKeyRebuild` (that state itself if the call
faults). -/
def subsumedOneKeyHelped : istree :=
  match helpRebuild 5 subsumedOneKeyRebuild 0 with
  | .ok s => s
  | .error _ => subsumedOneKeyRebuild

/-- The state `subsumedEmptyRebuild` after `markAndCount` on the empty leaf
(`subsumedEmptyRebuild` itself if that faults). -/
def subsumedEmptyMarked : istree :=
  match markAndCount 5 subsumedEmptyRebuild (Word.node 2) with
  | .ok r => r.2
  | .error _ => subsumedEmptyRebuild

/-- The slots `0 .. i-1` of the node `n` hold a pointer to the node at `c`. -/
def ChildBefore (n : Node) (i : Nat) (c : Nat) : Prop :=
  ∃ j, j < i ∧ j < n.degree ∧ n.slots[j]? = some (Word.node c)

/-- What the first loop of `helpFreeSubtree` has done when it is at slot `i`. -/
structure ClaimedTo (st s : istree) (a : Nat) (n : Node) (i : Nat) : Prop where
  rest : s = { st with nodes := s.nodes, smrLog := s.smrLog }
  self : s.nodes[a]? = some n
  child : ∀ c, ChildBefore n n.degree c →
    ∃ m1, s.nodes[c]? = some m1 ∧ (m1.dirty.markedForFree = true ↔ ChildBefore n i c)
  log : ∃ L, s.smrLog = st.smrLog ++ L
    ∧ (∀ e ∈ L, ∃ c, e = SmrCall.freeSubtree (Word.node c) true)
    ∧ (∀ c, ChildBefore n i c → L.count (SmrCall.freeSubtree (Word.node c) true) = 1)
    ∧ (∀ c, ¬ ChildBefore n i c → L.count (SmrCall.freeSubtree (Word.node c) true) = 0)

/-- Repeated calls of `insert` on one same key, with the values of the list in turn. -/
def repeatInsert (fuel : Nat) (key : Int) : List Int → istree → Except Fault istree
  | [], st => pure st
  | v :: vs, st => do
    let (_, st1) ← insert fuel st key v
    repeatInsert fuel key vs st1

/-- The key is present with the value `fv`: the descent of `find(key)` crosses no descriptor
and stops at slot `j > 0` of the clean node at `T`, which holds `VAL(fv)` behind the key
cell with `key`; `fv` and `key` are as `doUpdate` asserts them. -/
structure PresentAt (st : istree) (key : Int) (fuel : Nat) (T : Nat) (j : Nat) (fv : Int) :
    Prop where
  root : ∃ rootNode, st.getNode st.root = .ok rootNode ∧ rootNode.degree = 1
  stop : findStop fuel st key = .ok ⟨Word.val fv, T, (j : Int), false⟩
  pos : 0 < j
  node : ∃ m, st.getNode T = .ok m ∧ m.key ((j : Int) - 1) = .ok key ∧ m.dirty = Dirty.clean
  val : fv > 0 ∧ fv ≠ st.NO_VALUE
  key : key < Int.tdiv st.INF_KEY 8

/-- The empty map with `INF_KEY = 2^62`, `NO_VALUE = 0`, `MAX_ACCEPTABLE_LEAF_SIZE = 1` and
`REBUILD_FRACTION = 1/4`. -/
def tinyMap : istree := istree.new 4611686018427387904 0 1 1 4 0

/-- Inserts of `k ↦ 10 * k` for the keys `1, 2, ..., n`. -/
def insertUpTo (n : Nat) : List Op :=
  (List.range n).map (fun i => (UpdateType.InsertReplace, (i : Int) + 1, 10 * ((i : Int) + 1)))

/-- The map `tinyMap` filled with the keys 1..10 (`tinyMap` itself if an insert faults). -/
def filledTen : istree :=
  match applyOps 100 (insertUpTo 10) tinyMap with
  | .ok s => s
  | .error _ => tinyMap

/-- What holds of every node of the heap in the states that updates reach: the root
pseudo-node is at address `0`, there are at least two nodes, the keys of every node are well
formed, and the nodes with a single slot are the two nodes of the empty map. -/
structure GoodHeap (st : istree) : Prop where
  root : st.root = 0
  two : 2 ≤ st.nodes.length
  keys : ∀ (a : Nat) (n : Node), st.nodes[a]? = some n → keysWellFormed n = true
  deg : ∀ (a : Nat) (n : Node), st.nodes[a]? = some n → (2 ≤ n.degree ↔ 2 ≤ a)

/-- The invariant of the states that updates reach: the heap is good, and the tree below the
root pseudo-node passes the tolerant check for the range of all keys. -/
structure Inv (st : istree) : Prop where
  heap : GoodHeap st
  tree : ∃ g all d, chkNode true g st none none st.root = some (all, d)

/-- The nodes of `st` whose dirty word is not `0` are nodes of `st1` with the same slots. -/
def Frozen (st st1 : istree) : Prop :=
  ∀ (a : Nat) (n : Node), st.nodes[a]? = some n → n.dirty ≠ Dirty.clean →
    ∃ n1, st1.nodes[a]? = some n1 ∧ n1.slots = n.slots

/-- The states that single-threaded updates reach from an empty map.  The key of an update
is not `INF_KEY`, which the spec reserves. -/
inductive Reachable : istree → Prop
  | init (infKey noValue : Int) (maxLeaf num den rng : Nat) :
      Reachable (istree.new infKey noValue maxLeaf num den rng)
  | step {st st1 : istree} {fuel : Nat} {key val res : Int} {t : UpdateType} :
      Reachable st → key ≠ st.INF_KEY → doUpdate fuel st key val t = .ok (res, st1) →
      Reachable st1

/-- The map `tinyMap` after `insert(1, 10)` (`tinyMap` itself if the insert faults). -/
def tinyOne : istree :=
  match applyOps 100 (insertUpTo 1) tinyMap with
  | .ok s => s
  | .error _ => tinyMap

/-- The map `tinyMap` after `insert(1, 10)` and `insert(2, 20)`. -/
def tinyTwo : istree :=
  match applyOps 100 (insertUpTo 2) tinyMap with
  | .ok s => s
  | .error _ => tinyMap

/-- The map `tinyMap` after the inserts of the keys 1, 2 and 3. -/
def tinyThree : istree :=
  match applyOps 100 (insertUpTo 3) tinyMap with
  | .ok s => s
  | .error _ => tinyMap

/-- The leaf of `tinyTwo`, at address `2`. -/
def tinyTwoLeaf : Node :=
  { capacity := 3, degree := 3, keys := [1, 2],
    slots := [Word.emptyVal, Word.val 10, Word.val 20], minKey := 1, maxKey := 2,
    initSize := 2, changeSum := 0, dirty := Dirty.clean, nextMarkAndCount := 0 }

/-- The first real root node of `tinyMap`, at address `1`, after `insert(1, 10)`: the rebuild
that the insert triggers has finished it. -/
def tinyOneOld : Node :=
  { capacity := 1, degree := 1, keys := [], slots := [Word.kvpair 1 10],
    minKey := 4611686018427387904, maxKey := 4611686018427387904, initSize := 0,
    changeSum := 1, dirty := SUM_TO_DIRTY_FINISHED 1, nextMarkAndCount := 0 }

/-- The descent of `doUpdate` for `key`: the local variables `path` and `node` start as the
empty path and the root pseudo-node, and wherever the slot that `interpolationSearch` finds
in `node` holds a `NODE` word, the child becomes `node` and is appended to `path`. -/
inductive SavedPath (st : istree) (key : Int) : List Nat → Nat → Prop
  | start : SavedPath st key [] st.root
  | down {path : List Nat} {node a : Nat} : SavedPath st key path node →
      ((st.getNode node).bind fun n => (interpolationSearch key n).bind fun ix => n.ptr ix)
        = .ok (Word.node a) →
      SavedPath st key (path ++ [a]) a

/-- The map `tinyTwo` after `markAndCount` on its leaf. -/
def tinyTwoMarked : istree :=
  match markAndCount 3 tinyTwo (Word.node 2) with
  | .ok r => r.2
  | .error _ => tinyTwo

/-- What a second `createIdealConcurrent` needs of the node that the first one completed. -/
structure Completed (st : istree) (keyCount : Nat) (a : Nat) (n : Node) : Prop where
  get : st.nodes[a]? = some n
  cap : n.capacity = ceilSqrt keyCount
  deg : n.degree = ceilSqrt keyCount
  two : 2 ≤ ceilSqrt keyCount
  keys : n.degree - 1 ≤ n.keys.length
  full : ∀ j, j < ceilSqrt keyCount → ∃ w, n.slots[j]? = some w ∧ w ≠ Word.null
  size : n.initSize = keyCount
  min : n.minKey = keyAt n 0
  max : n.maxKey = keyAt n (n.degree - 2)
  minInf : keyAt n 0 ≠ st.INF_KEY
  maxInf : keyAt n (n.degree - 2) ≠ st.INF_KEY
  le : keyAt n 0 ≤ keyAt n (n.degree - 2)

/-- The state `pendingRebuild` after the `helpRebuild` of its descriptor (`pendingRebuild`
itself if that faults). -/
def pendingRebuildHelped : istree :=
  match helpRebuild 3 pendingRebuild 0 with
  | .ok s => s
  | .error _ => pendingRebuild

/-- The root pseudo-node of a map whose real root is at address `a`. -/
def rootTo (a : Nat) : Node :=
  { capacity := 1, degree := 1, keys := [], slots := [Word.node a],
    minKey := 4611686018427387904, maxKey := 4611686018427387904, initSize := 0,
    changeSum := 0, dirty := Dirty.clean, nextMarkAndCount := 0 }

/-- The first real root node of the map `wideTwo`, replaced and finished by the rebuild that
`insert(-2^62, 10)` runs. -/
def wideOld : Node :=
  { capacity := 1, degree := 1, keys := [], slots := [Word.kvpair (-4611686018427387904) 10],
    minKey := 4611686018427387904, maxKey := 4611686018427387904, initSize := 0,
    changeSum := 1, dirty := SUM_TO_DIRTY_FINISHED 1, nextMarkAndCount := 0 }

/-- The leaf of `wideThree`, at address 4, with the keys `-2^62`, `-1` and `1`. -/
def wideLeaf : Node :=
  { capacity := 4, degree := 4, keys := [-4611686018427387904, -1, 1],
    slots := [Word.emptyVal, Word.val 10, Word.val 20, Word.val 30],
    minKey := -4611686018427387904, maxKey := 1, initSize := 3, changeSum := 0,
    dirty := Dirty.clean, nextMarkAndCount := 0 }

/-- The map `wideTwo` after `insert(1, 30)`, which is the state `wideSplit` after the rebuild
of the leaf at address 2: one leaf, at address 4, holds the three keys. -/
def wideThree : istree :=
  { INF_KEY := 4611686018427387904, NO_VALUE := 0, MAX_ACCEPTABLE_LEAF_SIZE := 48,
    REBUILD_FRACTION_NUM := 1, REBUILD_FRACTION_DEN := 4, rngNext := 0, root := 0,
    nodes :=
      [ rootTo 4, wideOld,
        { capacity := 3, degree := 3, keys := [-4611686018427387904, -1],
          slots := [Word.emptyVal, Word.val 10, Word.node 3],
          minKey := -4611686018427387904, maxKey := -1, initSize := 2, changeSum := 1,
          dirty := SUM_TO_DIRTY_FINISHED 3, nextMarkAndCount := 0 },
        { capacity := 3, degree := 3, keys := [-1, 1],
          slots := [Word.emptyVal, Word.val 20, Word.val 30],
          minKey := -1, maxKey := 1, initSize := 2, changeSum := 0,
          dirty := SUM_TO_DIRTY_FINISHED 2, nextMarkAndCount := 0 },
        wideLeaf ],
    ops := [ { rebuildRoot := 1, parent := 0, index := 0, depth := 0,
               newRoot := Word.kvpair (-4611686018427387904) 10, success := true },
             { rebuildRoot := 2, parent := 0, index := 0, depth := 0,
               newRoot := Word.node 4, success := true } ],
    smrLog := [ SmrCall.retire (Word.rebuildop 0), SmrCall.freeSubtree (Word.node 1) true,
                SmrCall.retire (Word.kvpair (-4611686018427387904) 10),
                SmrCall.retire (Word.rebuildop 1), SmrCall.freeSubtree (Word.node 2) true ] }

/-- A leaf of degree 18 with the keys `0, 1, ..., 15` and `2^59 - 1`. -/
def spreadNode : Node :=
  { capacity := 18, degree := 18,
    keys := [0, 1, 2, 3, 4, 5, 6, 7, 8, 9, 10, 11, 12, 13, 14, 15, 576460752303423487],
    slots := [Word.emptyVal, Word.val 1, Word.val 1, Word.val 1, Word.val 1, Word.val 1,
      Word.val 1, Word.val 1, Word.val 1, Word.val 1, Word.val 1, Word.val 1, Word.val 1,
      Word.val 1, Word.val 1, Word.val 1, Word.val 1, Word.val 1],
    minKey := 0, maxKey := 576460752303423487, initSize := 17, changeSum := 0,
    dirty := Dirty.clean, nextMarkAndCount := 0 }

/-- Inserts of the keys `-2^62 - 2`, `-2^62 - 1`, `-2^62`, `0`, `1` with the values 1 to 5. -/
def wideOps : List Op :=
  [(UpdateType.InsertReplace, -4611686018427387906, 1),
   (UpdateType.InsertReplace, -4611686018427387905, 2),
   (UpdateType.InsertReplace, -4611686018427387904, 3),
   (UpdateType.InsertReplace, 0, 4), (UpdateType.InsertReplace, 1, 5)]

/-- The map `tinyMap` after the five inserts `wideOps` (`tinyMap` itself if an insert
faults): its real root, at address 17, holds the five keys. -/
def wideFive : istree :=
  match applyOps 100 wideOps tinyMap with
  | .ok s => s
  | .error _ => tinyMap

/-- The map `wideFive` in the middle of a rebuild of its real root: the descriptor, at
address 4, is installed in slot 0 of the root pseudo-node and `markAndCount` has run
(`wideFive` itself if that faults). -/
def rebuildingWide : istree :=
  match dcssPtr (wideFive.allocOp ⟨17, 0, 0, 0, Word.null, false⟩).2 0 0 (Word.node 17)
      (Word.rebuildop 4) with
  | .ok r =>
    (match markAndCount 5 r.2 (Word.node 17) with
    | .ok q => q.2
    | .error _ => wideFive)
  | .error _ => wideFive

/-- The node with the routing keys `-2^62` and `1` that a rebuild of the five keys of
`wideOps` builds when a leaf may hold one key. -/
def wideRouting (c0 c1 : Nat) : Node :=
  { capacity := 3, degree := 3, keys := [-4611686018427387904, 1],
    slots := [Word.node c0, Word.node c1, Word.kvpair 1 5],
    minKey := -4611686018427387904, maxKey := 1, initSize := 5, changeSum := 0,
    dirty := Dirty.clean, nextMarkAndCount := 0 }

/-- The leftmost-slot rule: slot 0 of no node of the heap holds a non-empty `VAL`. -/
def leftmostRule (st : istree) : Bool :=
  st.nodes.all (fun n =>
    match n.slots[0]? with
    | some (Word.val _) => false
    | _ => true)

/-- The map `tinyThree` after an `insert(0, 5)` that stands on the node at address 2, the
leaf that the rebuild of the third insert has replaced and finished (`tinyThree` itself if
the insert faults). -/
def tinyThreeRetried : istree :=
  match doUpdateLoop 0 5 UpdateType.InsertReplace 100 tinyThree 2 [2] none with
  | .ok r => r.2
  | .error _ => tinyThree

/-- The leaf at address 2 of `tinyThree`, which the rebuild of the third insert has replaced
and finished. -/
def tinyThreeOld : Node :=
  { capacity := 3, degree := 3, keys := [1, 2],
    slots := [Word.emptyVal, Word.val 10, Word.node 3], minKey := 1, maxKey := 2,
    initSize := 2, changeSum := 1, dirty := SUM_TO_DIRTY_FINISHED 3, nextMarkAndCount := 4 }

/-- The state after `createIdealConcurrent` in `rebuildingWide` (`rebuildingWide` itself if
that faults). -/
def idealWide : istree :=
  match createIdealConcurrent 8 rebuildingWide 4 5 with
  | .ok r => r.2
  | .error _ => rebuildingWide

theorem getNode_eq_ok {st : istree} {a : Nat} {n : Node} :
    st.getNode a = .ok n ↔ st.nodes[a]? = some n := by
  unfold istree.getNode
  cases h : st.nodes[a]? with
  | none => simp [throw, throwThe, MonadExceptOf.throw]
  | some m => simp [pure, Except.pure]

theorem getNode_lt {st : istree} {a : Nat} {n : Node} (h : st.getNode a = .ok n) :
    a < st.nodes.length := by
  rw [getNode_eq_ok] at h
  exact (List.getElem?_eq_some_iff.mp h).1

theorem getNode_setNode_same {st : istree} {a : Nat} (n : Node) (h : a < st.nodes.length) :
    (st.setNode a n).getNode a = .ok n := by
  rw [getNode_eq_ok]
  simp [istree.setNode, List.getElem?_set, h]

theorem getNode_setNode_ne {st : istree} {a b : Nat} (n : Node) (h : a ≠ b) :
    (st.setNode a n).getNode b = st.getNode b := by
  unfold istree.getNode istree.setNode
  simp [List.getElem?_set, h]

theorem getOp_setNode {st : istree} {a : Nat} (n : Node) (o : Nat) :
    (st.setNode a n).getOp o = st.getOp o := rfl




theorem findLoop_eq_descent (st : istree) (key : Int) :
    ∀ (fuel : Nat) (ptr : Word) (parent : Nat) (ix : Int) (saw : Bool),
      findLoop st key fuel ptr parent ix
        = (findDescent st key fuel ptr parent ix saw).bind (findReturn st key) := by
  intro fuel
  induction fuel with
  | zero => intro ptr parent ix saw; rfl
  | succ f ih =>
    intro ptr parent ix saw
    cases ptr with
    | null => rfl
    | node a =>
      simp only [findLoop, findDescent, bind, Except.bind]
      cases st.getNode a with
      | error e => rfl
      | ok n =>
        simp only
        cases interpolationSearch key n with
        | error e => rfl
        | ok i =>
          simp only
          cases n.ptr i with
          | error e => rfl
          | ok w => exact ih w a i saw
    | kvpair k v => rfl
    | val v => rfl
    | emptyVal => rfl
    | rebuildop o =>
      simp only [findLoop, findDescent, bind, Except.bind]
      cases st.getOp o with
      | error e => rfl
      | ok op => exact ih _ parent ix true

theorem find_eq_stop (fuel : Nat) (st : istree) (key : Int) :
    find fuel st key = (findStop fuel st key).bind (findReturn st key) := by
  simp only [find, findStop, bind, Except.bind]
  cases st.getNode st.root with
  | error e => rfl
  | ok n =>
    simp only
    cases n.ptr 0 with
    | error e => rfl
    | ok w =>
      simp only
      cases assert (w != Word.null) with
      | error e => rfl
      | ok u => exact findLoop_eq_descent st key fuel w st.root 0 false


/-- The word at which the descent stops was read from slot `ixToPtr` of `parent`. -/
theorem findDescent_reads (st : istree) (key : Int) :
    ∀ (fuel : Nat) (ptr : Word) (parent : Nat) (ix : Int) (saw : Bool) (s : FindStop),
      ((∃ n, st.getNode parent = .ok n ∧ n.ptr ix = .ok ptr) ∨ (∃ a, ptr = Word.node a)) →
      findDescent st key fuel ptr parent ix saw = .ok s →
      ∃ n, st.getNode s.parent = .ok n ∧ n.ptr s.ixToPtr = .ok s.ptr := by
  intro fuel
  induction fuel with
  | zero => intro ptr parent ix saw s _ h; simp [findDescent, throw, throwThe, MonadExceptOf.throw] at h
  | succ f ih =>
    intro ptr parent ix saw s hP h
    cases ptr with
    | node a =>
      simp only [findDescent, bind, Except.bind] at h
      cases hn : st.getNode a with
      | error e => simp [hn] at h
      | ok n =>
        simp only [hn] at h
        cases hi : interpolationSearch key n with
        | error e => simp [hi] at h
        | ok i =>
          simp only [hi] at h
          cases hw : n.ptr i with
          | error e => simp [hw] at h
          | ok w =>
            simp only [hw] at h
            exact ih w a i saw s (Or.inl ⟨n, hn, hw⟩) h
    | rebuildop o =>
      simp only [findDescent, bind, Except.bind] at h
      cases ho : st.getOp o with
      | error e => simp [ho] at h
      | ok op =>
        simp only [ho] at h
        exact ih _ parent ix true s (Or.inr ⟨_, rfl⟩) h
    | null =>
      simp only [findDescent, pure, Except.pure] at h
      cases h
      rcases hP with hP | ⟨a, ha⟩
      · exact hP
      · cases ha
    | kvpair k v =>
      simp only [findDescent, pure, Except.pure] at h
      cases h
      rcases hP with hP | ⟨a, ha⟩
      · exact hP
      · cases ha
    | val v =>
      simp only [findDescent, pure, Except.pure] at h
      cases h
      rcases hP with hP | ⟨a, ha⟩
      · exact hP
      · cases ha
    | emptyVal =>
      simp only [findDescent, pure, Except.pure] at h
      cases h
      rcases hP with hP | ⟨a, ha⟩
      · exact hP
      · cases ha

theorem findStop_reads (fuel : Nat) (st : istree) (key : Int) (s : FindStop)
    (h : findStop fuel st key = .ok s) :
    ∃ n, st.getNode s.parent = .ok n ∧ n.ptr s.ixToPtr = .ok s.ptr := by
  simp only [findStop, bind, Except.bind] at h
  cases hn : st.getNode st.root with
  | error e => simp [hn] at h
  | ok n =>
    simp only [hn] at h
    cases hw : n.ptr 0 with
    | error e => simp [hw] at h
    | ok w =>
      simp only [hw] at h
      cases ha : assert (w != Word.null) with
      | error e => simp [ha] at h
      | ok u =>
        simp only [ha] at h
        exact findDescent_reads st key fuel w st.root 0 false s (Or.inl ⟨n, hn, hw⟩) h

/-- C9: the result of `find` is decided by the slot at which its descent stops.  When the
descent for `key` stops at the word `s.ptr`, that word was read from slot `s.ixToPtr` of the
node `s.parent`, and: at a `KVPAIR (k', v')` `find` returns `v'` if `k' = key` and `NO_VALUE`
otherwise; at `EMPTY_VAL` it returns `NO_VALUE`; at a non-empty `VAL v` in slot `ixToPtr` of a
node `n` with `n.keys[ixToPtr - 1] = k'` it returns `v` if `k' = key` and `NO_VALUE`
otherwise. -/
theorem C9_find_decided_by_terminating_slot (fuel : Nat) (st : istree) (key : Int) (s : FindStop)
    (h : findStop fuel st key = .ok s) :
    (∃ n, st.getNode s.parent = .ok n ∧ n.ptr s.ixToPtr = .ok s.ptr)
    ∧ (∀ k' v', s.ptr = Word.kvpair k' v' →
        find fuel st key = .ok (if k' = key then v' else st.NO_VALUE))
    ∧ (s.ptr = Word.emptyVal → find fuel st key = .ok st.NO_VALUE)
    ∧ (∀ v n k', s.ptr = Word.val v → st.getNode s.parent = .ok n →
        n.key (s.ixToPtr - 1) = .ok k' →
        find fuel st key = .ok (if k' = key then v else st.NO_VALUE)) := by
  refine ⟨findStop_reads fuel st key s h, ?_, ?_, ?_⟩
  · intro k' v' hp
    rw [find_eq_stop, h]
    simp only [Except.bind, findReturn, hp]
    split <;> rfl
  · intro hp
    rw [find_eq_stop, h]
    simp only [Except.bind, findReturn, hp]
    rfl
  · intro v n k' hp hn hk
    rw [find_eq_stop, h]
    have hpos : s.ixToPtr > 0 := by
      unfold Node.key at hk
      split at hk
      · omega
      · cases hk
    simp only [Except.bind, findReturn, hp, bind, hn, hk, assert, hpos, decide_True, if_true, pure, Except.pure]
    split <;> rfl


theorem findLoop_node (st : istree) (key : Int) (f : Nat) (a parent : Nat) (ix : Int) :
    findLoop st key (f + 1) (Word.node a) parent ix
      = (st.getNode a).bind (fun n => (interpolationSearch key n).bind (fun i =>
          (n.ptr i).bind (fun w => findLoop st key f w a i))) := rfl

theorem findLoop_rebuildop (st : istree) (key : Int) (f : Nat) (o parent : Nat) (ix : Int) :
    findLoop st key (f + 1) (Word.rebuildop o) parent ix
      = (st.getOp o).bind (fun op => findLoop st key f (Word.node op.rebuildRoot) parent ix) :=
  rfl

theorem findLoop_mono (st : istree) (key : Int) :
    ∀ (fuel : Nat) (ptr : Word) (parent : Nat) (ix : Int) (x : Except Fault Int),
      x ≠ .error Fault.outOfFuel →
      findLoop st key fuel ptr parent ix = x → findLoop st key (fuel + 1) ptr parent ix = x := by
  intro fuel
  induction fuel with
  | zero => intro ptr parent ix x hx h; exact absurd h.symm hx
  | succ f ih =>
    intro ptr parent ix x hx h
    cases ptr with
    | node a =>
      rw [findLoop_node] at h ⊢
      cases hn : st.getNode a with
      | error e => simpa [hn, Except.bind] using h
      | ok n =>
        simp only [hn, Except.bind] at h ⊢
        cases hi : interpolationSearch key n with
        | error e => simpa [hi] using h
        | ok i =>
          simp only [hi] at h ⊢
          cases hw : n.ptr i with
          | error e => simpa [hw] using h
          | ok w =>
            simp only [hw] at h ⊢
            exact ih w a i x hx h
    | rebuildop o =>
      rw [findLoop_rebuildop] at h ⊢
      cases ho : st.getOp o with
      | error e => simpa [ho, Except.bind] using h
      | ok op =>
        simp only [ho, Except.bind] at h ⊢
        exact ih _ parent ix x hx h
    | null => exact h
    | kvpair k v => exact h
    | val v => exact h
    | emptyVal => exact h

theorem findLoop_mono_add (st : istree) (key : Int) (fuel : Nat) (ptr : Word) (parent : Nat)
    (ix : Int) (x : Except Fault Int) (hx : x ≠ .error Fault.outOfFuel)
    (h : findLoop st key fuel ptr parent ix = x) :
    ∀ d, findLoop st key (fuel + d) ptr parent ix = x := by
  intro d
  induction d with
  | zero => exact h
  | succ d ih => exact findLoop_mono st key (fuel + d) ptr parent ix x hx ih


theorem Node.key_congr {m m2 : Node} (hd : m.degree = m2.degree) (hk : m.keys = m2.keys)
    (ix : Int) : m.key ix = m2.key ix := by
  unfold Node.key
  rw [hd, hk]

theorem scanLeft_congr {m m2 : Node} (hd : m.degree = m2.degree) (hk : m.keys = m2.keys)
    (key : Int) : ∀ c, scanLeft key m c = scanLeft key m2 c := by
  intro c
  induction c with
  | zero => rfl
  | succ c ih =>
    simp only [scanLeft, Node.key_congr hd hk, ih]

theorem scanRight_congr {m m2 : Node} (hd : m.degree = m2.degree) (hk : m.keys = m2.keys)
    (key : Int) : ∀ c i, scanRight key m c i = scanRight key m2 c i := by
  intro c
  induction c with
  | zero => intro i; rfl
  | succ c ih =>
    intro i
    simp only [scanRight, Node.key_congr hd hk, ih]

theorem interpolationSearch_congr {m m2 : Node} (hd : m.degree = m2.degree)
    (hk : m.keys = m2.keys) (hmin : m.minKey = m2.minKey) (hmax : m.maxKey = m2.maxKey)
    (key : Int) : interpolationSearch key m = interpolationSearch key m2 := by
  unfold interpolationSearch
  simp only [hd, hmin, hmax, Node.key_congr hd hk, scanLeft_congr hd hk, scanRight_congr hd hk]

section seeThrough
variable {st : istree} {a : Nat} {i : Nat} {o : Nat} {n : Node} {op : RebuildOperation}

theorem seen_getNode (hn : st.getNode a = .ok n) (r : Nat) (b : Nat) :
    (st.setNode a (seenNode n i r)).getNode b
      = if b = a then .ok (seenNode n i r) else st.getNode b := by
  by_cases hb : b = a
  · subst hb
    simp [getNode_setNode_same _ (getNode_lt hn)]
  · simp [hb, getNode_setNode_ne _ (Ne.symm hb)]

theorem seen_ptr (hs : n.slots[i]? = some (Word.rebuildop o)) (r : Nat) (ix : Int) :
    (∃ e, n.ptr ix = .error e ∧ (seenNode n i r).ptr ix = .error e)
    ∨ (∃ w w2, n.ptr ix = .ok w ∧ (seenNode n i r).ptr ix = .ok w2 ∧ SeeRel o r w w2) := by
  unfold Node.ptr seenNode
  by_cases hb : 0 ≤ ix ∧ ix < (n.degree : Int)
  · simp only [hb, and_self, if_true]
    by_cases hi : ix.toNat = i
    · subst hi
      right
      refine ⟨_, _, ?_, ?_, Or.inr ⟨rfl, rfl⟩⟩
      · simp [hs, pure, Except.pure]
      · have := (List.getElem?_eq_some_iff.mp hs).1
        simp [List.getElem?_set, this, pure, Except.pure]
    · have hne : i ≠ ix.toNat := fun h => hi h.symm
      simp only [List.getElem?_set, hne, if_false]
      cases hw : n.slots[ix.toNat]? with
      | none => left; exact ⟨_, rfl, rfl⟩
      | some w => right; exact ⟨w, w, rfl, rfl, Or.inl rfl⟩
  · left
    simp only [hb, if_false]
    exact ⟨_, rfl, rfl⟩

end seeThrough

theorem NodeRel.reflRel (o r : Nat) (m : Node) : NodeRel o r m m := by
  refine ⟨rfl, rfl, rfl, rfl, ?_⟩
  intro ix
  cases h : m.ptr ix with
  | error e => exact Or.inl ⟨e, rfl, rfl⟩
  | ok w => exact Or.inr ⟨w, w, rfl, rfl, Or.inl rfl⟩

section seeThrough2
variable {st : istree} {a : Nat} {i : Nat} {o : Nat} {n : Node} {op : RebuildOperation}

theorem seen_getNode_rel (hn : st.getNode a = .ok n)
    (hs : n.slots[i]? = some (Word.rebuildop o)) (r : Nat) (b : Nat) :
    (∃ e, st.getNode b = .error e ∧ (st.setNode a (seenNode n i r)).getNode b = .error e)
    ∨ (∃ m m2, st.getNode b = .ok m ∧ (st.setNode a (seenNode n i r)).getNode b = .ok m2
        ∧ NodeRel o r m m2) := by
  rw [seen_getNode hn]
  by_cases hb : b = a
  · subst hb
    right
    refine ⟨n, seenNode n i r, hn, by simp, rfl, rfl, rfl, rfl, ?_⟩
    intro ix
    exact seen_ptr hs r ix
  · simp only [hb, if_false]
    cases h : st.getNode b with
    | error e => exact Or.inl ⟨e, rfl, rfl⟩
    | ok m => exact Or.inr ⟨m, m, rfl, rfl, NodeRel.reflRel o r m⟩

theorem findLoop_seen_forward (key : Int) (hn : st.getNode a = .ok n)
    (hs : n.slots[i]? = some (Word.rebuildop o)) (ho : st.getOp o = .ok op)
    (x : Except Fault Int) (hx : x ≠ .error Fault.outOfFuel) :
    ∀ (f : Nat) (ptr ptr2 : Word) (parent : Nat) (ix : Int),
      SeeRel o op.rebuildRoot ptr ptr2 →
      findLoop st key f ptr parent ix = x →
      findLoop (st.setNode a (seenNode n i op.rebuildRoot)) key f ptr2 parent ix = x := by
  intro f
  induction f with
  | zero => intro ptr ptr2 parent ix _ h; exact absurd h.symm hx
  | succ f ih =>
    intro ptr ptr2 parent ix hrel h
    rcases hrel with hrel | ⟨hp, hp2⟩
    · subst hrel
      cases ptr2 with
      | node b =>
        rw [findLoop_node] at h ⊢
        rcases seen_getNode_rel hn hs op.rebuildRoot b with ⟨e, h1, h2⟩ | ⟨m, m2, h1, h2, hr⟩
        · rw [h2]; rw [h1] at h; exact h
        · rw [h2]; rw [h1] at h
          simp only [Except.bind] at h ⊢
          rw [interpolationSearch_congr hr.1 hr.2.1 hr.2.2.1 hr.2.2.2.1 key]
          cases hi : interpolationSearch key m with
          | error e => simpa [hi] using h
          | ok j =>
            simp only [hi] at h ⊢
            rcases hr.2.2.2.2 j with ⟨e, h3, h4⟩ | ⟨w, w2, h3, h4, hw⟩
            · rw [h4]; rw [h3] at h; exact h
            · rw [h4]; rw [h3] at h
              exact ih w w2 b j hw h
      | rebuildop o2 =>
        rw [findLoop_rebuildop] at h ⊢
        rw [getOp_setNode]
        cases ho2 : st.getOp o2 with
        | error e => simpa [ho2, Except.bind] using h
        | ok op2 =>
          simp only [ho2, Except.bind] at h ⊢
          exact ih _ _ parent ix (Or.inl rfl) h
      | null => exact h
      | kvpair k v => exact h
      | emptyVal => exact h
      | val v =>
        simp only [findLoop, bind, Except.bind] at h ⊢
        cases hass : assert (decide (ix > 0)) with
        | error e => simpa [hass] using h
        | ok u =>
          simp only [hass] at h ⊢
          rcases seen_getNode_rel hn hs op.rebuildRoot parent with
            ⟨e, h1, h2⟩ | ⟨m, m2, h1, h2, hr⟩
          · rw [h2]; rw [h1] at h; exact h
          · rw [h2]; rw [h1] at h
            simp only at h ⊢
            rw [Node.key_congr hr.1 hr.2.1]
            exact h
    · subst hp hp2
      rw [findLoop_rebuildop, ho] at h
      simp only [Except.bind] at h
      exact findLoop_mono _ key f _ parent ix x hx (ih _ _ parent ix (Or.inl rfl) h)

theorem findLoop_seen_backward (key : Int) (hn : st.getNode a = .ok n)
    (hs : n.slots[i]? = some (Word.rebuildop o)) (ho : st.getOp o = .ok op)
    (x : Except Fault Int) (hx : x ≠ .error Fault.outOfFuel) :
    ∀ (f : Nat) (ptr ptr2 : Word) (parent : Nat) (ix : Int),
      SeeRel o op.rebuildRoot ptr ptr2 →
      findLoop (st.setNode a (seenNode n i op.rebuildRoot)) key f ptr2 parent ix = x →
      findLoop st key (2 * f) ptr parent ix = x := by
  intro f
  induction f with
  | zero => intro ptr ptr2 parent ix _ h; exact absurd h.symm hx
  | succ f ih =>
    intro ptr ptr2 parent ix hrel h
    have h2f : 2 * (f + 1) = (2 * f + 1) + 1 := by omega
    -- one step of the loop at a node word, shared by both cases below
    have stepNode : ∀ b : Nat,
        findLoop (st.setNode a (seenNode n i op.rebuildRoot)) key (f + 1) (Word.node b) parent ix
          = x → findLoop st key (2 * f + 1) (Word.node b) parent ix = x := by
      intro b h
      rw [findLoop_node] at h
      cases f with
      | zero =>
        -- the loop of the modified state has no fuel left after this step
        rcases seen_getNode_rel hn hs op.rebuildRoot b with ⟨e, h1, h2⟩ | ⟨m, m2, h1, h2, hr⟩
        · rw [h2] at h; rw [findLoop_node, h1]; exact h
        · rw [h2] at h
          rw [findLoop_node, h1]
          simp only [Except.bind] at h ⊢
          rw [interpolationSearch_congr hr.1 hr.2.1 hr.2.2.1 hr.2.2.2.1 key] at h
          cases hi : interpolationSearch key m with
          | error e => simpa [hi] using h
          | ok j =>
            simp only [hi] at h ⊢
            rcases hr.2.2.2.2 j with ⟨e, h3, h4⟩ | ⟨w, w2, h3, h4, hw⟩
            · rw [h4] at h; rw [h3]; exact h
            · rw [h4] at h
              exact absurd h.symm hx
      | succ g =>
        have e1 : 2 * (g + 1) + 1 = (2 * (g + 1)) + 1 := rfl
        rw [e1, findLoop_node]
        rcases seen_getNode_rel hn hs op.rebuildRoot b with ⟨e, h1, h2⟩ | ⟨m, m2, h1, h2, hr⟩
        · rw [h2] at h; rw [h1]; exact h
        · rw [h2] at h
          rw [h1]
          simp only [Except.bind] at h ⊢
          rw [interpolationSearch_congr hr.1 hr.2.1 hr.2.2.1 hr.2.2.2.1 key] at h
          cases hi : interpolationSearch key m with
          | error e => simpa [hi] using h
          | ok j =>
            simp only [hi] at h ⊢
            rcases hr.2.2.2.2 j with ⟨e, h3, h4⟩ | ⟨w, w2, h3, h4, hw⟩
            · rw [h4] at h; rw [h3]; exact h
            · rw [h4] at h; rw [h3]
              exact ih w w2 b j hw h
    rcases hrel with hrel | ⟨hp, hp2⟩
    · subst hrel
      cases ptr2 with
      | node b =>
        rw [h2f]
        exact findLoop_mono _ key _ _ parent ix x hx (stepNode b h)
      | rebuildop o2 =>
        rw [findLoop_rebuildop, getOp_setNode] at h
        rw [h2f, findLoop_rebuildop]
        cases ho2 : st.getOp o2 with
        | error e => simpa [ho2, Except.bind] using h
        | ok op2 =>
          simp only [ho2, Except.bind] at h ⊢
          exact findLoop_mono _ key _ _ parent ix x hx (ih _ _ parent ix (Or.inl rfl) h)
      | null => rw [h2f]; exact h
      | kvpair k v => rw [h2f]; exact h
      | emptyVal => rw [h2f]; exact h
      | val v =>
        rw [h2f]
        simp only [findLoop, bind, Except.bind] at h ⊢
        cases hass : assert (decide (ix > 0)) with
        | error e => simpa [hass] using h
        | ok u =>
          simp only [hass] at h ⊢
          rcases seen_getNode_rel hn hs op.rebuildRoot parent with
            ⟨e, h1, h2⟩ | ⟨m, m2, h1, h2, hr⟩
          · rw [h2] at h; rw [h1]; exact h
          · rw [h2] at h; rw [h1]
            simp only at h ⊢
            rw [Node.key_congr hr.1 hr.2.1] at h
            exact h
    · subst hp hp2
      rw [h2f, findLoop_rebuildop, ho]
      simp only [Except.bind]
      exact stepNode _ h

end seeThrough2

theorem SeeRel.ne_null {o r : Nat} {w w2 : Word} (h : SeeRel o r w w2) :
    (w2 != Word.null) = (w != Word.null) := by
  rcases h with h | ⟨h1, h2⟩
  · rw [h]
  · rw [h1, h2]; rfl

/-- C10: `find` sees through rebuild descriptors.  `find` is a function of the state that
returns a value and no state, so it writes no slot, key, counter or dirty field.  When slot
`i` of the node at `a` holds `REBUILDOP(o)`, then for every key every outcome of `find` other
than the exhaustion of the iteration bound is reached in the state exactly when it is reached
in the same state with that slot holding `NODE(op.rebuildRoot)`. -/
theorem C10_find_sees_through_rebuildop (st : istree) (a : Nat) (i : Nat) (o : Nat) (n : Node)
    (op : RebuildOperation) (hn : st.getNode a = .ok n)
    (hs : n.slots[i]? = some (Word.rebuildop o)) (ho : st.getOp o = .ok op)
    (key : Int) (x : Except Fault Int) (hx : x ≠ .error Fault.outOfFuel) :
    (∃ f, find f st key = x)
      ↔ (∃ f, find f (st.setNode a (seenNode n i op.rebuildRoot)) key = x) := by
  have hroot : (st.setNode a (seenNode n i op.rebuildRoot)).root = st.root := rfl
  constructor
  · rintro ⟨f, h⟩
    refine ⟨f, ?_⟩
    simp only [find, bind, Except.bind, hroot] at h ⊢
    rcases seen_getNode_rel hn hs op.rebuildRoot st.root with ⟨e, h1, h2⟩ | ⟨m, m2, h1, h2, hr⟩
    · rw [h2]; rw [h1] at h; exact h
    · rw [h2]; rw [h1] at h
      simp only at h ⊢
      rcases hr.2.2.2.2 0 with ⟨e, h3, h4⟩ | ⟨w, w2, h3, h4, hw⟩
      · rw [h4]; rw [h3] at h; exact h
      · rw [h4]; rw [h3] at h
        simp only [hw.ne_null] at h ⊢
        cases hass : assert (w != Word.null) with
        | error e => simpa [hass] using h
        | ok u =>
          simp only [hass] at h ⊢
          exact findLoop_seen_forward key hn hs ho x hx f w w2 st.root 0 hw h
  · rintro ⟨f, h⟩
    refine ⟨2 * f, ?_⟩
    simp only [find, bind, Except.bind, hroot] at h ⊢
    rcases seen_getNode_rel hn hs op.rebuildRoot st.root with ⟨e, h1, h2⟩ | ⟨m, m2, h1, h2, hr⟩
    · rw [h2] at h; rw [h1]; exact h
    · rw [h2] at h; rw [h1]
      simp only at h ⊢
      rcases hr.2.2.2.2 0 with ⟨e, h3, h4⟩ | ⟨w, w2, h3, h4, hw⟩
      · rw [h4] at h; rw [h3]; exact h
      · rw [h4] at h; rw [h3]
        simp only [hw.ne_null] at h ⊢
        cases hass : assert (w != Word.null) with
        | error e => simpa [hass] using h
        | ok u =>
          simp only [hass] at h ⊢
          exact findLoop_seen_backward key hn hs ho x hx f w w2 st.root 0 hw h

/-! ## Properties -/

/-- C1 (round trip `insert(k,v); find(k) == v`), evaluated where it fails.  On the empty
map `insert(5,10)` leaves `KVPAIR(5,10)` in slot 0 of the root pseudo-node; `insert(5,20)`
succeeds (it returns 10) and overwrites that slot with `VAL(20)`; `find(5)` then fails the
assertion that slot 0 holds no non-empty `VAL`.  After the keys 10..90, `erase(20)` and
`insert(25,6)`, slot 2 of the leaf holds `KVPAIR(25,6)`; `insert(25,7)` returns 6 and
`find(25)` returns `NO_VALUE`. -/
theorem C1_insert_find_fails_on_kvpair :
    applyOps 100 [(UpdateType.InsertReplace, 5, 10)] emptyMap
        = .ok (stateAfter [(UpdateType.InsertReplace, 5, 10)])
    ∧ ((stateAfter [(UpdateType.InsertReplace, 5, 10)]).nodes[0]?).map (fun n => n.slots)
        = some [Word.kvpair 5 10]
    ∧ (insert 100 (stateAfter [(UpdateType.InsertReplace, 5, 10)]) 5 20).map (fun r => r.1)
        = .ok 10
    ∧ applyOps 100 [(UpdateType.InsertReplace, 5, 10), (UpdateType.InsertReplace, 5, 20)] emptyMap
        = .ok (stateAfter [(UpdateType.InsertReplace, 5, 10), (UpdateType.InsertReplace, 5, 20)])
    ∧ find 100 (stateAfter [(UpdateType.InsertReplace, 5, 10), (UpdateType.InsertReplace, 5, 20)]) 5
        = .error Fault.assertion
    ∧ applyOps 100 (insertTens 9 ++ [(UpdateType.Erase, 20, 0), (UpdateType.InsertReplace, 25, 6)])
          emptyMap
        = .ok (stateAfter (insertTens 9 ++
            [(UpdateType.Erase, 20, 0), (UpdateType.InsertReplace, 25, 6)]))
    ∧ (findStop 100 (stateAfter (insertTens 9 ++
            [(UpdateType.Erase, 20, 0), (UpdateType.InsertReplace, 25, 6)])) 25).map
          (fun s => (s.ptr, s.ixToPtr))
        = .ok (Word.kvpair 25 6, 2)
    ∧ (do
        let (r, s) ← insert 100 (stateAfter (insertTens 9 ++
            [(UpdateType.Erase, 20, 0), (UpdateType.InsertReplace, 25, 6)])) 25 7
        let f ← find 100 s 25
        pure (r, f)) = .ok (6, 0) := by
  decide
/-! ## Lemmas on `doUpdate` at a slot that needs no write -/


theorem findDescent_saw (st : istree) (key : Int) :
    ∀ (fuel : Nat) (ptr : Word) (parent : Nat) (ix : Int) (s : FindStop),
      findDescent st key fuel ptr parent ix true = .ok s → s.sawRebuildOp = true := by
  intro fuel
  induction fuel with
  | zero => intro ptr parent ix s h; cases h
  | succ f ih =>
    intro ptr parent ix s h
    cases ptr with
    | node a =>
      simp only [findDescent, bind, Except.bind] at h
      cases hn : st.getNode a with
      | error e => simp [hn] at h
      | ok n =>
        simp only [hn] at h
        cases hi : interpolationSearch key n with
        | error e => simp [hi] at h
        | ok i =>
          simp only [hi] at h
          cases hw : n.ptr i with
          | error e => simp [hw] at h
          | ok w =>
            simp only [hw] at h
            exact ih w a i s h
    | rebuildop o =>
      simp only [findDescent, bind, Except.bind] at h
      cases ho : st.getOp o with
      | error e => simp [ho] at h
      | ok op =>
        simp only [ho] at h
        exact ih _ parent ix s h
    | null => simp only [findDescent, pure, Except.pure] at h; cases h; rfl
    | kvpair k v => simp only [findDescent, pure, Except.pure] at h; cases h; rfl
    | val v => simp only [findDescent, pure, Except.pure] at h; cases h; rfl
    | emptyVal => simp only [findDescent, pure, Except.pure] at h; cases h; rfl

theorem doUpdateLoop_node (key : Int) (val : Int) (t : UpdateType) (fuel : Nat) (st : istree)
    (a : Nat) (path : List Nat) (n : Node) (ix : Int) (a2 : Nat)
    (hn : st.getNode a = .ok n) (hi : interpolationSearch key n = .ok ix)
    (hw : n.ptr ix = .ok (Word.node a2)) :
    doUpdateLoop key val t (fuel + 1) st a path none
      = (assert (decide (path.length + 1 ≤ 64))).bind (fun _ =>
          doUpdateLoop key val t fuel st a2 (path ++ [a2]) none) := by
  rw [doUpdateLoop]
  simp only [hn, hi, hw, bind, Except.bind]
  rfl

theorem doUpdateLoop_rebuildop (key : Int) (val : Int) (t : UpdateType) (fuel : Nat) (st : istree)
    (a : Nat) (path : List Nat) (n : Node) (ix : Int) (o : Nat)
    (hn : st.getNode a = .ok n) (hi : interpolationSearch key n = .ok ix)
    (hw : n.ptr ix = .ok (Word.rebuildop o)) :
    doUpdateLoop key val t (fuel + 1) st a path none
      = (helpRebuild fuel st o).bind (fun st1 =>
          doUpdateLoop key val t fuel st1 st1.root [] none) := by
  rw [doUpdateLoop]
  simp only [hn, hi, hw, bind, Except.bind]
  rfl

theorem doUpdateLoop_done (key : Int) (val : Int) (t : UpdateType) (fuel : Nat) (st : istree)
    (a : Nat) (path : List Nat) (n : Node) (ix : Int) (word : Word) (r : Int) (st2 : istree)
    (hn : st.getNode a = .ok n) (hi : interpolationSearch key n = .ok ix)
    (hw : n.ptr ix = .ok word) (hleaf : (IS_KVPAIR word || IS_VAL word) = true)
    (hd : decideUpdate st n ix word key val t = .ok (Decision.done r, st2)) :
    doUpdateLoop key val t (fuel + 1) st a path none = .ok (r, st2) := by
  rw [doUpdateLoop]
  simp only [hn, hi, hw, bind, Except.bind, hleaf, if_true, hd]
  rfl

/-- The descent of `doUpdate` follows the descent of `find` as long as no descriptor is met;
at the slot where `find` stops, `doUpdate` takes its decision. -/
theorem doUpdateLoop_follows_find (key : Int) (val : Int) (t : UpdateType) (st : istree) (r : Int) :
    ∀ (fuel : Nat) (a : Nat) (path : List Nat) (n : Node) (ix : Int) (word : Word)
      (s : FindStop),
      st.getNode a = .ok n → interpolationSearch key n = .ok ix → n.ptr ix = .ok word →
      findDescent st key fuel word a ix false = .ok s → s.sawRebuildOp = false →
      path.length + fuel ≤ 65 →
      (IS_KVPAIR s.ptr || IS_VAL s.ptr) = true →
      (∀ m, st.getNode s.parent = .ok m →
        decideUpdate st m s.ixToPtr s.ptr key val t = .ok (Decision.done r, st)) →
      doUpdateLoop key val t fuel st a path none = .ok (r, st) := by
  intro fuel
  induction fuel with
  | zero => intro a path n ix word s _ _ _ h; cases h
  | succ f ih =>
    intro a path n ix word s hn hi hw h hsaw hlen hleaf hdec
    cases word with
    | node a2 =>
      rw [doUpdateLoop_node key val t f st a path n ix a2 hn hi hw]
      simp only [findDescent, bind, Except.bind] at h
      cases hn2 : st.getNode a2 with
      | error e => simp [hn2] at h
      | ok n2 =>
        simp only [hn2] at h
        cases hi2 : interpolationSearch key n2 with
        | error e => simp [hi2] at h
        | ok i2 =>
          simp only [hi2] at h
          cases hw2 : n2.ptr i2 with
          | error e => simp [hw2] at h
          | ok w2 =>
            simp only [hw2] at h
            have hf : f ≠ 0 := by
              intro h0; subst h0; cases h
            have hlen2 : path.length + 1 ≤ 64 := by omega
            simp only [assert, hlen2, decide_True, if_true, pure, Except.pure, Except.bind]
            exact ih a2 (path ++ [a2]) n2 i2 w2 s hn2 hi2 hw2 h hsaw
              (by simp only [List.length_append, List.length_singleton]; omega) hleaf hdec
    | rebuildop o =>
      simp only [findDescent, bind, Except.bind] at h
      cases ho : st.getOp o with
      | error e => simp [ho] at h
      | ok op =>
        simp only [ho] at h
        have := findDescent_saw st key f _ a ix s h
        rw [hsaw] at this
        cases this
    | null =>
      simp only [findDescent, pure, Except.pure] at h
      cases h
      exact doUpdateLoop_done key val t f st a path n ix _ r st hn hi hw hleaf (hdec n hn)
    | kvpair k v =>
      simp only [findDescent, pure, Except.pure] at h
      cases h
      exact doUpdateLoop_done key val t f st a path n ix _ r st hn hi hw hleaf (hdec n hn)
    | val v =>
      simp only [findDescent, pure, Except.pure] at h
      cases h
      exact doUpdateLoop_done key val t f st a path n ix _ r st hn hi hw hleaf (hdec n hn)
    | emptyVal =>
      simp only [findDescent, pure, Except.pure] at h
      cases h
      exact doUpdateLoop_done key val t f st a path n ix _ r st hn hi hw hleaf (hdec n hn)


theorem interpolationSearch_degree_one (key : Int) (n : Node) (h : n.degree = 1) :
    interpolationSearch key n = .ok 0 := by
  unfold interpolationSearch
  simp [h, pure, Except.pure]

/-- From the place where `find` stops to the result of `doUpdate`, when the descent meets no
descriptor and `doUpdate` decides to return without writing. -/
theorem doUpdate_of_findStop (key : Int) (val : Int) (t : UpdateType) (st : istree) (r : Int)
    (fuel : Nat) (s : FindStop) (rootNode : Node) (hfuel : fuel ≤ 65)
    (hroot : st.getNode st.root = .ok rootNode) (hdeg : rootNode.degree = 1)
    (hstop : findStop fuel st key = .ok s) (hsaw : s.sawRebuildOp = false)
    (hleaf : (IS_KVPAIR s.ptr || IS_VAL s.ptr) = true)
    (hdec : ∀ m, st.getNode s.parent = .ok m →
        decideUpdate st m s.ixToPtr s.ptr key val t = .ok (Decision.done r, st)) :
    doUpdate fuel st key val t = .ok (r, st) := by
  simp only [findStop, bind, Except.bind, hroot] at hstop
  cases hw : rootNode.ptr 0 with
  | error e => simp [hw] at hstop
  | ok w =>
    simp only [hw] at hstop
    cases ha : assert (w != Word.null) with
    | error e => simp [ha] at hstop
    | ok u =>
      simp only [ha] at hstop
      exact doUpdateLoop_follows_find key val t st r fuel st.root [] rootNode 0 w s hroot
        (interpolationSearch_degree_one key rootNode hdeg) hw hstop hsaw
        (by simpa using hfuel) hleaf hdec

/-- C6 (amended): `insertIfAbsent` on a present key is a no-op when its descent meets no
rebuild descriptor.  In a state whose root pseudo-node has degree 1, if the descent of
`find(k)` crosses no `REBUILDOP` word and at most 64 nodes and `find(k)` returns a value
`w != NO_VALUE` (with `w > 0` and `k < INF_KEY/8`, as `doUpdate` asserts of what it finds),
then `insertIfAbsent(k, v)` returns `w` and leaves the whole state unchanged: every slot, key,
`changeSum` and dirty field, the descriptors and the reclamation trace. -/
theorem C6_insertIfAbsent_present_is_noop (st : istree) (k : Int) (v w : Int) (fuel : Nat)
    (s : FindStop) (rootNode : Node) (hfuel : fuel ≤ 65)
    (hroot : st.getNode st.root = .ok rootNode) (hdeg : rootNode.degree = 1)
    (hstop : findStop fuel st k = .ok s) (hsaw : s.sawRebuildOp = false)
    (hfind : find fuel st k = .ok w) (hw : w ≠ st.NO_VALUE) (hpos : 0 < w)
    (hk : k < Int.tdiv st.INF_KEY 8) :
    insertIfAbsent fuel st k v = .ok (w, st) := by
  rw [find_eq_stop, hstop] at hfind
  simp only [Except.bind] at hfind
  unfold insertIfAbsent
  have hwb : (w == st.NO_VALUE) = false := by simpa using hw
  have hwb2 : (w != st.NO_VALUE) = true := by simpa using hw
  cases hp : s.ptr with
  | kvpair k2 v2 =>
    simp only [findReturn, hp] at hfind
    by_cases hkk : k2 = k
    · simp only [hkk, if_true, pure, Except.pure] at hfind
      cases hfind
      subst hkk
      refine doUpdate_of_findStop k2 v _ st w fuel s rootNode hfuel hroot hdeg hstop hsaw
        (by rw [hp]; rfl) ?_
      intro m _
      rw [hp]
      simp [decideUpdate, assert, IS_EMPTY_VAL, IS_VAL, bind, Except.bind, pure, Except.pure,
        hwb, hwb2, hpos, hk]
    · simp only [hkk, if_false, pure, Except.pure] at hfind
      cases hfind
      exact absurd rfl hw
  | emptyVal =>
    simp only [findReturn, hp, pure, Except.pure] at hfind
    cases hfind
    exact absurd rfl hw
  | val v2 =>
    simp only [findReturn, hp, bind, Except.bind] at hfind
    cases hass : assert (decide (s.ixToPtr > 0)) with
    | error e => simp [hass] at hfind
    | ok u =>
      simp only [hass] at hfind
      have hix : s.ixToPtr > 0 := by
        unfold assert at hass
        by_contra hc
        simp [hc] at hass
      cases hm : st.getNode s.parent with
      | error e => simp [hm] at hfind
      | ok m =>
        simp only [hm] at hfind
        cases hkey : m.key (s.ixToPtr - 1) with
        | error e => simp [hkey] at hfind
        | ok k2 =>
          simp only [hkey] at hfind
          by_cases hkk : k2 = k
          · simp only [hkk, if_true, pure, Except.pure] at hfind
            cases hfind
            subst hkk
            refine doUpdate_of_findStop k2 v _ st w fuel s rootNode hfuel hroot hdeg hstop hsaw
              (by rw [hp]; rfl) ?_
            intro m2 hm2
            rw [hm] at hm2
            cases hm2
            rw [hp]
            simp [decideUpdate, assert, IS_EMPTY_VAL, IS_VAL, bind, Except.bind, pure,
              Except.pure, hwb, hwb2, hpos, hk, hix, hkey]
          · simp only [hkk, if_false, pure, Except.pure] at hfind
            cases hfind
            exact absurd rfl hw
  | null => simp [findReturn, hp] at hfind
  | node a => simp [findReturn, hp] at hfind
  | rebuildop o => simp [findReturn, hp] at hfind

/-- C7 (amended): `erase` of an absent key is a no-op when its descent meets no rebuild
descriptor.  In a state whose root pseudo-node has degree 1, if the descent for `k` crosses
no `REBUILDOP` word and at most 64 nodes and stops at `EMPTY_VAL`, or at a `KVPAIR` or `VAL`
for a different key (whose value is `NO_VALUE` or positive with key below `INF_KEY/8`, as
`doUpdate` asserts of what it finds), then `erase(k)` returns `NO_VALUE` and leaves the whole
state unchanged. -/
theorem C7_erase_absent_is_noop (st : istree) (k : Int) (fuel : Nat)
    (s : FindStop) (rootNode : Node) (hfuel : fuel ≤ 65)
    (hroot : st.getNode st.root = .ok rootNode) (hdeg : rootNode.degree = 1)
    (hstop : findStop fuel st k = .ok s) (hsaw : s.sawRebuildOp = false)
    (habsent : s.ptr = Word.emptyVal
      ∨ (∃ k2 v2, s.ptr = Word.kvpair k2 v2 ∧ k2 ≠ k
          ∧ (v2 = st.NO_VALUE ∨ (0 < v2 ∧ k2 < Int.tdiv st.INF_KEY 8)))
      ∨ (∃ v2 m k2, s.ptr = Word.val v2 ∧ st.getNode s.parent = .ok m
          ∧ m.key (s.ixToPtr - 1) = .ok k2 ∧ k2 ≠ k
          ∧ (v2 = st.NO_VALUE ∨ (0 < v2 ∧ k2 < Int.tdiv st.INF_KEY 8)))) :
    erase fuel st k = .ok (st.NO_VALUE, st) := by
  unfold erase
  rcases habsent with hp | ⟨k2, v2, hp, hne, hval⟩ | ⟨v2, m, k2, hp, hm, hkey, hne, hval⟩
  · refine doUpdate_of_findStop k _ _ st _ fuel s rootNode hfuel hroot hdeg hstop hsaw
      (by rw [hp]; rfl) ?_
    intro m _
    rw [hp]
    by_cases hinf : st.INF_KEY = k
    · simp [decideUpdate, assert, IS_EMPTY_VAL, IS_VAL, bind, Except.bind, pure, Except.pure,
        hinf]
    · simp [decideUpdate, assert, IS_EMPTY_VAL, IS_VAL, bind, Except.bind, pure, Except.pure,
        hinf]
  · refine doUpdate_of_findStop k _ _ st _ fuel s rootNode hfuel hroot hdeg hstop hsaw
      (by rw [hp]; rfl) ?_
    intro m _
    rw [hp]
    rcases hval with hv | ⟨hv1, hv2⟩
    · simp [decideUpdate, assert, IS_EMPTY_VAL, IS_VAL, bind, Except.bind, pure, Except.pure,
        hne, hv]
    · simp [decideUpdate, assert, IS_EMPTY_VAL, IS_VAL, bind, Except.bind, pure, Except.pure,
        hne, hv1, hv2]
  · refine doUpdate_of_findStop k _ _ st _ fuel s rootNode hfuel hroot hdeg hstop hsaw
      (by rw [hp]; rfl) ?_
    intro m2 hm2
    rw [hm] at hm2
    cases hm2
    rw [hp]
    have hix : s.ixToPtr > 0 := by
      unfold Node.key at hkey
      split at hkey
      · omega
      · cases hkey
    rcases hval with hv | ⟨hv1, hv2⟩
    · simp [decideUpdate, assert, IS_EMPTY_VAL, IS_VAL, bind, Except.bind, pure, Except.pure,
        hne, hv, hix, hkey]
    · simp [decideUpdate, assert, IS_EMPTY_VAL, IS_VAL, bind, Except.bind, pure, Except.pure,
        hne, hv1, hv2, hix, hkey]


/-! ## Properties: the laws of the map on reachable states (C2 to C5) -/

/-- C2 (reference-map equivalence), evaluated where it fails.  After the inserts of 10..90,
`erase(20)`, `insert(25,6)` and `insert(25,7)`, the sequential reference map holds 7 for key
25 and nothing for key 20, while `find(25)` returns `NO_VALUE` and `find(20)` returns 7. -/
theorem C2_reference_map_diverges :
    applyOps 100 (insertTens 9 ++ [(UpdateType.Erase, 20, 0), (UpdateType.InsertReplace, 25, 6),
        (UpdateType.InsertReplace, 25, 7)]) emptyMap
      = .ok (stateAfter (insertTens 9 ++ [(UpdateType.Erase, 20, 0),
          (UpdateType.InsertReplace, 25, 6), (UpdateType.InsertReplace, 25, 7)]))
    ∧ find 100 (stateAfter (insertTens 9 ++ [(UpdateType.Erase, 20, 0),
          (UpdateType.InsertReplace, 25, 6), (UpdateType.InsertReplace, 25, 7)])) 25 = .ok 0
    ∧ refFind 0 (insertTens 9 ++ [(UpdateType.Erase, 20, 0),
          (UpdateType.InsertReplace, 25, 6), (UpdateType.InsertReplace, 25, 7)]) 25 = 7
    ∧ find 100 (stateAfter (insertTens 9 ++ [(UpdateType.Erase, 20, 0),
          (UpdateType.InsertReplace, 25, 6), (UpdateType.InsertReplace, 25, 7)])) 20 = .ok 7
    ∧ refFind 0 (insertTens 9 ++ [(UpdateType.Erase, 20, 0),
          (UpdateType.InsertReplace, 25, 6), (UpdateType.InsertReplace, 25, 7)]) 20 = 0 := by
  decide

/-- C3 (absent-insert law), evaluated where it fails.  After the inserts of 10..50,
`insert(5,6)` and `insert(5,7)`, slot 0 of the leaf holds `VAL(7)`.  Key 60 is absent
(`find(60)` returns `NO_VALUE`), yet `insertIfAbsent(60,8)` does not return `NO_VALUE`: the
rebuild it triggers stops at the assertion `i > 0` of `addKVPairs`. -/
theorem C3_insertIfAbsent_faults_after_slot0_val :
    applyOps 100 (insertTens 5 ++ [(UpdateType.InsertReplace, 5, 6),
        (UpdateType.InsertReplace, 5, 7)]) emptyMap
      = .ok (stateAfter (insertTens 5 ++ [(UpdateType.InsertReplace, 5, 6),
          (UpdateType.InsertReplace, 5, 7)]))
    ∧ find 100 (stateAfter (insertTens 5 ++ [(UpdateType.InsertReplace, 5, 6),
          (UpdateType.InsertReplace, 5, 7)])) 60 = .ok 0
    ∧ insertIfAbsent 100 (stateAfter (insertTens 5 ++ [(UpdateType.InsertReplace, 5, 6),
          (UpdateType.InsertReplace, 5, 7)])) 60 8 = .error Fault.assertion := by
  decide

/-- C4 (erase law), evaluated where it fails.  In the state of C3 key 10 maps to 11
(`find(10)` returns 11), yet `erase(10)` does not return 11: the rebuild it triggers stops
at the assertion `i > 0` of `addKVPairs`. -/
theorem C4_erase_faults_after_slot0_val :
    applyOps 100 (insertTens 5 ++ [(UpdateType.InsertReplace, 5, 6),
        (UpdateType.InsertReplace, 5, 7)]) emptyMap
      = .ok (stateAfter (insertTens 5 ++ [(UpdateType.InsertReplace, 5, 6),
          (UpdateType.InsertReplace, 5, 7)]))
    ∧ find 100 (stateAfter (insertTens 5 ++ [(UpdateType.InsertReplace, 5, 6),
          (UpdateType.InsertReplace, 5, 7)])) 10 = .ok 11
    ∧ erase 100 (stateAfter (insertTens 5 ++ [(UpdateType.InsertReplace, 5, 6),
          (UpdateType.InsertReplace, 5, 7)])) 10 = .error Fault.assertion := by
  decide

/-- C5 (an insert returns the pre-update value), evaluated where it fails.  In the state of
C3 `find(60)` returns `NO_VALUE`, yet `insert(60,8)` does not return `NO_VALUE`: the rebuild
it triggers stops at the assertion `i > 0` of `addKVPairs`. -/
theorem C5_insert_faults_after_slot0_val :
    applyOps 100 (insertTens 5 ++ [(UpdateType.InsertReplace, 5, 6),
        (UpdateType.InsertReplace, 5, 7)]) emptyMap
      = .ok (stateAfter (insertTens 5 ++ [(UpdateType.InsertReplace, 5, 6),
          (UpdateType.InsertReplace, 5, 7)]))
    ∧ find 100 (stateAfter (insertTens 5 ++ [(UpdateType.InsertReplace, 5, 6),
          (UpdateType.InsertReplace, 5, 7)])) 60 = .ok 0
    ∧ insert 100 (stateAfter (insertTens 5 ++ [(UpdateType.InsertReplace, 5, 6),
          (UpdateType.InsertReplace, 5, 7)])) 60 8 = .error Fault.assertion := by
  decide

/-! ## Properties: updates that write nothing (C6, C7) -/

/-- C6 as stated fails where a rebuild is pending: in `pendingRebuild` key 10 maps to 11
(`find(10)` returns 11); `insertIfAbsent(10,9)` returns 11 but first helps the rebuild, which
marks the old leaf, swaps a new subtree into the root pseudo-node and sets the descriptor's
fields. -/
theorem C6_counterexample_pending_rebuild :
    find 100 pendingRebuild 10 = .ok 11
    ∧ (pendingRebuild.getNode 0).map (fun n => n.slots) = .ok [Word.rebuildop 0]
    ∧ (pendingRebuild.getNode 1).map (fun n => n.dirty) = .ok Dirty.clean
    ∧ (insertIfAbsent 100 pendingRebuild 10 9).map
        (fun p => (p.1, (p.2.getNode 0).map (fun n => n.slots),
          (p.2.getNode 1).map (fun n => n.dirty), decide (p.2 = pendingRebuild)))
      = .ok (11, .ok [Word.kvpair 10 11], .ok (SUM_TO_DIRTY_FINISHED 1), false) := by
  decide

/-- Witness of the amended C6: in the state after the inserts of 10..50, `find(10)` stops at
`VAL(11)` in slot 1 of the leaf and `insertIfAbsent(10,9)` returns 11 and leaves the state
as it is. -/
theorem C6_witness :
    (65 ≤ 65)
    ∧ (stateAfter (insertTens 5)).getNode (stateAfter (insertTens 5)).root = .ok rootOfFive
    ∧ rootOfFive.degree = 1
    ∧ findStop 65 (stateAfter (insertTens 5)) 10 = .ok ⟨Word.val 11, 8, 1, false⟩
    ∧ find 65 (stateAfter (insertTens 5)) 10 = .ok 11
    ∧ (11 : Int) ≠ (stateAfter (insertTens 5)).NO_VALUE
    ∧ (0 : Int) < 11
    ∧ (10 : Int) < Int.tdiv (stateAfter (insertTens 5)).INF_KEY 8
    ∧ insertIfAbsent 65 (stateAfter (insertTens 5)) 10 9 = .ok (11, stateAfter (insertTens 5)) :=
  ⟨by decide, by decide, by decide, by decide, by decide, by decide, by decide, by decide,
    C6_insertIfAbsent_present_is_noop (stateAfter (insertTens 5)) 10 9 11 65
      ⟨Word.val 11, 8, 1, false⟩ rootOfFive (by decide) (by decide) (by decide) (by decide)
      rfl (by decide) (by decide) (by decide) (by decide)⟩

/-- C7 as stated fails where a rebuild is pending: in `pendingRebuild` key 15 is absent (its
slot, slot 1 of the leaf, holds a `VAL` for key 10); `erase(15)` returns `NO_VALUE` but first
helps the rebuild, which changes the root slot and the dirty field of the old leaf. -/
theorem C7_counterexample_pending_rebuild :
    findStop 100 pendingRebuild 15 = .ok ⟨Word.val 11, 1, 1, true⟩
    ∧ (pendingRebuild.getNode 1).bind (fun n => n.key 0) = .ok 10
    ∧ (pendingRebuild.getNode 0).map (fun n => n.slots) = .ok [Word.rebuildop 0]
    ∧ (pendingRebuild.getNode 1).map (fun n => n.dirty) = .ok Dirty.clean
    ∧ (erase 100 pendingRebuild 15).map
        (fun p => (p.1, (p.2.getNode 0).map (fun n => n.slots),
          (p.2.getNode 1).map (fun n => n.dirty), decide (p.2 = pendingRebuild)))
      = .ok (0, .ok [Word.kvpair 10 11], .ok (SUM_TO_DIRTY_FINISHED 1), false) := by
  decide

/-- Witness of the amended C7: in the state after the inserts of 10..50, the descent for key
35 stops at `VAL(31)` in slot 3 of the leaf, whose key is 30, and `erase(35)` returns
`NO_VALUE` and leaves the state as it is. -/
theorem C7_witness :
    (65 ≤ 65)
    ∧ (stateAfter (insertTens 5)).getNode (stateAfter (insertTens 5)).root = .ok rootOfFive
    ∧ rootOfFive.degree = 1
    ∧ findStop 65 (stateAfter (insertTens 5)) 35 = .ok ⟨Word.val 31, 8, 3, false⟩
    ∧ (stateAfter (insertTens 5)).getNode 8 = .ok leafOfFive
    ∧ leafOfFive.key (3 - 1) = .ok 30
    ∧ erase 65 (stateAfter (insertTens 5)) 35
        = .ok ((stateAfter (insertTens 5)).NO_VALUE, stateAfter (insertTens 5)) :=
  ⟨by decide, by decide, by decide, by decide, by decide, by decide,
    C7_erase_absent_is_noop (stateAfter (insertTens 5)) 35 65
      ⟨Word.val 31, 8, 3, false⟩ rootOfFive (by decide) (by decide) (by decide) (by decide)
      rfl (Or.inr (Or.inr ⟨31, leafOfFive, 30, rfl, by decide, by decide, by decide,
        Or.inr ⟨by decide, by decide⟩⟩))⟩

/-! ## Properties: witnesses for `find` (C9, C10) -/

/-- Witness of C9: in the state after the inserts of 10..50 the descent for key 30 stops at
`VAL(31)` in slot 3 of the leaf at address 8, whose key 2 is 30, and `find(30)` returns 31. -/
theorem C9_witness :
    findStop 65 (stateAfter (insertTens 5)) 30 = .ok ⟨Word.val 31, 8, 3, false⟩
    ∧ (stateAfter (insertTens 5)).getNode 8 = .ok leafOfFive
    ∧ leafOfFive.key (3 - 1) = .ok 30
    ∧ find 65 (stateAfter (insertTens 5)) 30 = .ok 31 :=
  ⟨by decide, by decide, by decide,
    (C9_find_decided_by_terminating_slot 65 (stateAfter (insertTens 5)) 30
      ⟨Word.val 31, 8, 3, false⟩ (by decide)).2.2.2 31 leafOfFive 30 rfl (by decide)
      (by decide)⟩

/-- Witness of C10: in `pendingRebuild` slot 0 of the root pseudo-node holds the descriptor
whose rebuild root is the leaf at address 1; `find(10)` returns 11 there exactly when it
returns 11 in the state whose root slot holds the node word of that leaf. -/
theorem C10_witness :
    pendingRebuild.getNode 0 = .ok
      { capacity := 1, degree := 1, keys := [], slots := [Word.rebuildop 0],
        minKey := 4611686018427387904, maxKey := 4611686018427387904, initSize := 0,
        changeSum := 0, dirty := Dirty.clean, nextMarkAndCount := 0 }
    ∧ [Word.rebuildop 0][0]? = some (Word.rebuildop 0)
    ∧ pendingRebuild.getOp 0 = .ok ⟨1, 0, 0, 0, Word.null, false⟩
    ∧ (Except.ok 11 : Except Fault Int) ≠ .error Fault.outOfFuel
    ∧ ((∃ f, find f pendingRebuild 10 = .ok 11) ↔
        (∃ f, find f (pendingRebuild.setNode 0 (seenNode
          { capacity := 1, degree := 1, keys := [], slots := [Word.rebuildop 0],
            minKey := 4611686018427387904, maxKey := 4611686018427387904, initSize := 0,
            changeSum := 0, dirty := Dirty.clean, nextMarkAndCount := 0 } 0 1)) 10 = .ok 11)) :=
  ⟨by decide, by decide, by decide, by decide,
    C10_find_sees_through_rebuildop pendingRebuild 0 0 0 _ ⟨1, 0, 0, 0, Word.null, false⟩
      (by decide) (by decide) (by decide) 10 (.ok 11) (by decide)⟩

/-! ## Well-formed subtrees: search -/

variable {tol : Bool}


theorem keysIncreasing_iff (l : List Int) :
    keysIncreasing l = true ↔ l.Pairwise (· < ·) := by
  induction l with
  | nil => simp [keysIncreasing]
  | cons a t ih =>
    cases t with
    | nil => simp [keysIncreasing]
    | cons b rest =>
      simp only [keysIncreasing, Bool.and_eq_true, decide_eq_true_eq, ih, List.pairwise_cons]
      constructor
      · rintro ⟨hab, h1, h2⟩
        refine ⟨?_, h1, h2⟩
        intro x hx
        rcases List.mem_cons.mp hx with rfl | hx
        · exact hab
        · exact lt_trans hab (h1 x hx)
      · rintro ⟨h0, h1, h2⟩
        exact ⟨h0 b (List.mem_cons_self _ _), h1, h2⟩

theorem keyAt_take (n : Node) (m i : Nat) (h : i < m) (hl : m ≤ n.keys.length) :
    (n.keys.take m)[i]? = some (keyAt n i) := by
  have hi : i < n.keys.length := by omega
  simp [keyAt, List.getElem?_take, h, List.getElem?_eq_getElem hi]

theorem aboveLo_trans {lo : Option Int} {x y : Int} (h : aboveLo lo x = true) (hxy : x ≤ y) :
    aboveLo lo y = true := by
  cases lo with
  | none => rfl
  | some l => simp only [aboveLo, decide_eq_true_eq] at h ⊢; omega

theorem belowHi_trans {hi : Option Int} {x y : Int} (h : belowHi hi y = true) (hxy : x ≤ y) :
    belowHi hi x = true := by
  cases hi with
  | none => rfl
  | some l => simp only [belowHi, decide_eq_true_eq] at h ⊢; omega

theorem nodeShapeOK_facts {n : Node} {lo hi : Option Int} (h : nodeShapeOK n lo hi = true) :
    ShapeFacts n lo hi := by
  simp only [nodeShapeOK, Bool.and_eq_true, Bool.or_eq_true, decide_eq_true_eq,
    beq_iff_eq] at h
  obtain ⟨⟨⟨⟨h1, h2⟩, h3⟩, h4⟩, h5⟩ := h
  rw [keysIncreasing_iff, List.pairwise_iff_getElem] at h4
  have hsorted : ∀ i j, i < j → j < n.degree - 1 → keyAt n i < keyAt n j := by
    intro i j hij hj
    have hlen : (n.keys.take (n.degree - 1)).length = n.degree - 1 := by
      simp [List.length_take]; omega
    have := h4 i j (by omega) (by omega) hij
    have e1 := keyAt_take n (n.degree - 1) i (by omega) h3
    have e2 := keyAt_take n (n.degree - 1) j hj h3
    rw [List.getElem?_eq_getElem (by omega)] at e1 e2
    simp only [Option.some.injEq] at e1 e2
    rw [e1, e2] at this
    exact this
  refine ⟨⟨h1, h3, hsorted, ?_, ?_⟩, h2, ?_, ?_⟩
  · intro hd; rcases h5 with h5 | h5
    · omega
    · exact h5.1.1.1
  · intro hd; rcases h5 with h5 | h5
    · omega
    · exact h5.1.1.2
  · intro hd; rcases h5 with h5 | h5
    · omega
    · exact h5.1.2
  · intro hd; rcases h5 with h5 | h5
    · omega
    · exact h5.2

theorem keyAt_mono {n : Node} (h : KeysOK n) {i j : Nat} (hij : i ≤ j) (hj : j < n.degree - 1) :
    keyAt n i ≤ keyAt n j := by
  rcases Nat.eq_or_lt_of_le hij with rfl | hlt
  · exact le_refl _
  · exact le_of_lt (h.sorted i j hlt hj)

theorem slotLo_le {n : Node} {lo hi : Option Int} (h : ShapeFacts n lo hi) {i : Nat}
    (hi1 : i + 1 < n.degree) : aboveLo (slotLo n lo i) (keyAt n i) = true := by
  unfold slotLo
  by_cases h0 : i = 0
  · subst h0; simp only [if_true]; exact h.lo (by omega)
  · simp only [h0, if_false, aboveLo, decide_eq_true_eq]
    exact le_of_lt (h.keys.sorted (i - 1) i (by omega) (by omega))

theorem chkSlot_ok {rec : Option Int → Option Int → Nat → Option (List (Int × Int) × Bool)}
    {n : Node} {a : Nat} {lo hi : Option Int} (h : ShapeFacts n lo hi)
    (hrec : ∀ lo2 hi2 b r, rec lo2 hi2 b = some r → ListOK lo2 hi2 r.1)
    {i : Nat} (hi1 : i < n.degree) {w : Word} {r : List (Int × Int) × Bool}
    (hc : chkSlot tol rec n a lo hi i w = some r) :
    ListOK (slotLo n lo i) (slotHi n hi i) r.1 := by
  cases w with
  | emptyVal =>
    simp only [chkSlot, Option.some.injEq] at hc
    subst hc
    exact ⟨by simp, List.Pairwise.nil⟩
  | val v =>
    simp only [chkSlot] at hc
    split at hc
    · rename_i hpos
      simp only [Option.some.injEq] at hc
      subst hc
      refine ⟨?_, List.pairwise_singleton _ _⟩
      intro p hp
      simp only [List.mem_singleton] at hp
      subst hp
      constructor
      · have hne : i ≠ 0 := by omega
        simp [slotLo, aboveLo, hne]
      · unfold slotHi
        by_cases hl : i + 1 = n.degree
        · simp only [hl, if_true]
          have := h.hi (by omega)
          have e : i - 1 = n.degree - 2 := by omega
          rw [e]; exact this
        · simp only [hl, if_false, belowHi, decide_eq_true_eq]
          exact h.keys.sorted (i - 1) i (by omega) (by omega)
    · split at hc
      · rename_i hb
        simp only [Option.some.injEq] at hc
        subst hc
        simp only [Bool.and_eq_true] at hb
        refine ⟨?_, List.pairwise_singleton _ _⟩
        intro p hp
        simp only [List.mem_singleton] at hp
        subst hp
        exact hb.2
      · cases hc
  | kvpair k v =>
    simp only [chkSlot] at hc
    split at hc
    · rename_i hb
      simp only [Option.some.injEq] at hc
      subst hc
      simp only [Bool.and_eq_true] at hb
      refine ⟨?_, List.pairwise_singleton _ _⟩
      intro p hp
      simp only [List.mem_singleton] at hp
      subst hp
      exact hb
    · cases hc
  | node b =>
    simp only [chkSlot] at hc
    split at hc
    · exact hrec _ _ _ _ hc
    · cases hc
  | null => simp [chkSlot] at hc
  | rebuildop o => simp [chkSlot] at hc

theorem chkSlots_step {rec : Option Int → Option Int → Nat → Option (List (Int × Int) × Bool)}
    {n : Node} {a : Nat} {lo hi : Option Int} {c i : Nat} {r : List (Int × Int) × Bool}
    (h : chkSlots tol rec n a lo hi (c + 1) i = some r) :
    ∃ w r1 r2, n.slots[i]? = some w ∧ chkSlot tol rec n a lo hi i w = some r1
      ∧ chkSlots tol rec n a lo hi c (i + 1) = some r2 ∧ r = (r1.1 ++ r2.1, r1.2 && r2.2) := by
  simp only [chkSlots] at h
  cases hw : n.slots[i]? with
  | none => simp [hw] at h
  | some w =>
    simp only [hw] at h
    cases h1 : chkSlot tol rec n a lo hi i w with
    | none => simp [h1] at h
    | some r1 =>
      simp only [h1] at h
      cases h2 : chkSlots tol rec n a lo hi c (i + 1) with
      | none => simp [h2] at h
      | some r2 =>
        simp only [h2, Option.some.injEq] at h
        exact ⟨w, r1, r2, rfl, h1, rfl, h.symm⟩

theorem chkSlots_ok {rec : Option Int → Option Int → Nat → Option (List (Int × Int) × Bool)}
    {n : Node} {a : Nat} {lo hi : Option Int} (h : ShapeFacts n lo hi)
    (hrec : ∀ lo2 hi2 b r, rec lo2 hi2 b = some r → ListOK lo2 hi2 r.1) :
    ∀ (c i : Nat) (r : List (Int × Int) × Bool), i + c ≤ n.degree →
      chkSlots tol rec n a lo hi c i = some r → ListOK (slotLo n lo i) hi r.1 := by
  intro c
  induction c with
  | zero =>
    intro i r _ hc
    simp only [chkSlots, Option.some.injEq] at hc
    subst hc
    exact ⟨by simp, List.Pairwise.nil⟩
  | succ c ih =>
    intro i r hle hc
    obtain ⟨w, r1, r2, hw, h1, h2, hr⟩ := chkSlots_step hc
    subst hr
    have ok1 := chkSlot_ok h hrec (by omega : i < n.degree) h1
    by_cases hlast : i + 1 = n.degree
    · -- the last slot: nothing follows
      have hc0 : c = 0 := by omega
      subst hc0
      simp only [chkSlots, Option.some.injEq] at h2
      subst h2
      simp only [List.append_nil]
      have : slotHi n hi i = hi := by simp [slotHi, hlast]
      rw [this] at ok1
      exact ok1
    · have ok2 := ih (i + 1) r2 (by omega) h2
      have hsl : slotLo n lo (i + 1) = some (keyAt n i) := by simp [slotLo]
      have hsh : slotHi n hi i = some (keyAt n i) := by simp [slotHi, hlast]
      rw [hsl] at ok2
      rw [hsh] at ok1
      have hlo_i := slotLo_le h (by omega : i + 1 < n.degree)
      have hhi_i : belowHi hi (keyAt n i) = true :=
        belowHi_trans (h.hi (by omega)) (keyAt_mono h.keys (by omega) (by omega))
      refine ⟨?_, ?_⟩
      · intro p hp
        rcases List.mem_append.mp hp with hp | hp
        · refine ⟨(ok1.1 p hp).1, ?_⟩
          have := (ok1.1 p hp).2
          simp only [belowHi, decide_eq_true_eq] at this
          exact belowHi_trans hhi_i (le_of_lt this)
        · refine ⟨?_, (ok2.1 p hp).2⟩
          have := (ok2.1 p hp).1
          simp only [aboveLo, decide_eq_true_eq] at this
          exact aboveLo_trans hlo_i this
      · rw [List.pairwise_append]
        refine ⟨ok1.2, ok2.2, ?_⟩
        intro p hp q hq
        have h1' := (ok1.1 p hp).2
        have h2' := (ok2.1 q hq).1
        simp only [belowHi, aboveLo, decide_eq_true_eq] at h1' h2'
        omega

theorem chkNode_ok (st : istree) :
    ∀ (f : Nat) (lo hi : Option Int) (a : Nat) (r : List (Int × Int) × Bool),
      chkNode tol f st lo hi a = some r → ListOK lo hi r.1 := by
  intro f
  induction f with
  | zero => intro lo hi a r h; simp [chkNode] at h
  | succ f ih =>
    intro lo hi a r h
    simp only [chkNode] at h
    cases hn : st.nodes[a]? with
    | none => simp [hn] at h
    | some n =>
      simp only [hn] at h
      split at h
      · rename_i hshape
        have hf := nodeShapeOK_facts hshape
        cases hs : chkSlots tol (chkNode tol f st) n a lo hi n.degree 0 with
        | none => simp [hs] at h
        | some r2 =>
          simp only [hs] at h
          have ok := chkSlots_ok hf ih n.degree 0 r2 (by omega) hs
          have hl0 : slotLo n lo 0 = lo := by simp [slotLo]
          rw [hl0] at ok
          split at h
          · simp only [Option.some.injEq] at h; subst h; exact ok
          · split at h
            · simp only [Option.some.injEq] at h; subst h; exact ok
            · cases h
      · cases h

theorem Node.key_ok (n : Node) (i : Nat) (h1 : i + 1 < n.degree) (h2 : n.degree - 1 ≤ n.keys.length) :
    n.key (i : Int) = .ok (keyAt n i) := by
  unfold Node.key keyAt
  have hb : (0 : Int) ≤ (i : Int) ∧ (i : Int) < (n.degree : Int) - 1 := by omega
  have hl : i < n.keys.length := by omega
  simp only [hb, and_self, if_true, Int.toNat_ofNat, List.get?_eq_getElem?,
    List.getElem?_eq_getElem hl, List.getD_eq_getElem?_getD, Option.getD_some]
  rfl

theorem scanLeft_spec (key : Int) (n : Node) (hlen : n.degree - 1 ≤ n.keys.length)
    (hmin : keyAt n 0 ≤ key) :
    ∀ c, c + 1 < n.degree → key < keyAt n c →
      ∃ r : Nat, scanLeft key n c = .ok (r : Int) ∧ 0 < r ∧ r ≤ c ∧ keyAt n (r - 1) ≤ key
        ∧ key < keyAt n r := by
  intro c
  induction c with
  | zero => intro _ h; omega
  | succ c ih =>
    intro hc hk
    have hkey : n.key ((c : Nat) : Int) = .ok (keyAt n c) := Node.key_ok n c (by omega) hlen
    simp only [scanLeft, bind, Except.bind, hkey]
    by_cases hge : key ≥ keyAt n c
    · simp only [hge, if_true]
      exact ⟨c + 1, by simp [pure, Except.pure], by omega, le_refl _, by simpa using hge, hk⟩
    · simp only [hge, if_false]
      obtain ⟨r, h1, h2, h3, h4, h5⟩ := ih (by omega) (by omega)
      exact ⟨r, h1, h2, by omega, h4, h5⟩

theorem scanRight_spec (key : Int) (n : Node) (hlen : n.degree - 1 ≤ n.keys.length)
    (hmax : key < keyAt n (n.degree - 2)) :
    ∀ cnt i : Nat, 0 < i → i + cnt = n.degree - 1 → keyAt n (i - 1) ≤ key →
      ∃ r : Nat, scanRight key n cnt (i : Int) = .ok (r : Int) ∧ i ≤ r ∧ r + 1 < n.degree
        ∧ keyAt n (r - 1) ≤ key ∧ key < keyAt n r := by
  intro cnt
  induction cnt with
  | zero =>
    intro i hi hsum hk
    have : i - 1 = n.degree - 2 := by omega
    rw [this] at hk
    omega
  | succ cnt ih =>
    intro i hi hsum hk
    have hkey : n.key ((i : Nat) : Int) = .ok (keyAt n i) := Node.key_ok n i (by omega) hlen
    simp only [scanRight, bind, Except.bind, hkey]
    by_cases hlt : key < keyAt n i
    · simp only [hlt, if_true]
      exact ⟨i, by simp [pure, Except.pure], le_refl _, by omega, hk, hlt⟩
    · simp only [hlt, if_false]
      have hcast : ((i : Nat) : Int) + 1 = ((i + 1 : Nat) : Int) := by simp
      rw [hcast]
      obtain ⟨r, h1, h2, h3, h4, h5⟩ := ih (i + 1) (by omega) (by omega)
        (by simpa using (not_lt.mp hlt))
      exact ⟨r, h1, by omega, h3, h4, h5⟩

theorem wrap64_of_fits {x : Int} (h : fits64 x = true) : wrap64 x = x := by
  simp only [fits64, Bool.and_eq_true, decide_eq_true_eq] at h
  unfold wrap64
  omega

theorem wrap32_of_range {x : Int} (h1 : -2147483648 ≤ x) (h2 : x < 2147483648) :
    wrap32 x = x := by
  unfold wrap32
  omega

/-- The two scans of `interpolationSearch`, started at any key index `m` of a node with
well-formed keys, return the slot whose key range holds `key`. -/
theorem interpolationSearch_scan (n : Node) (key : Int) (h : KeysOK n) (h2 : 2 ≤ n.degree)
    (hlo2 : keyAt n 0 ≤ key) (hhi2 : key < keyAt n (n.degree - 2)) (m : Nat)
    (hmlt : m + 1 < n.degree) :
    ∃ r : Nat,
      ((n.key (m : Int)).bind fun ixKey =>
        if key < ixKey then scanLeft key n (m : Int).toNat
        else if key > ixKey then
          scanRight key n (((n.degree : Int) - 1) - ((m : Int) + 1)).toNat ((m : Int) + 1)
        else pure ((m : Int) + 1)) = .ok (r : Int)
      ∧ r < n.degree
      ∧ (0 < r → keyAt n (r - 1) ≤ key) ∧ (r + 1 < n.degree → key < keyAt n r) := by
  have hkey : n.key (m : Int) = .ok (keyAt n m) := Node.key_ok n m hmlt h.len
  simp only [Except.bind, hkey]
  by_cases hc1 : key < keyAt n m
  · simp only [hc1, if_true]
    have : ((m : Nat) : Int).toNat = m := by simp
    rw [this]
    obtain ⟨r, h1, h2', h3, h4, h5⟩ := scanLeft_spec key n h.len hlo2 m hmlt hc1
    exact ⟨r, h1, by omega, fun _ => h4, fun _ => h5⟩
  · simp only [hc1, if_false]
    by_cases hc2 : key > keyAt n m
    · simp only [hc2, if_true]
      have e1 : (m : Int) + 1 = ((m + 1 : Nat) : Int) := by simp
      have e2 : ((n.degree : Int) - 1 - ((m : Int) + 1)).toNat = n.degree - 1 - (m + 1) := by
        omega
      rw [e2, e1]
      obtain ⟨r, h1, h2', h3, h4, h5⟩ := scanRight_spec key n h.len hhi2
        (n.degree - 1 - (m + 1)) (m + 1) (by omega) (by omega)
        (by simpa using le_of_lt hc2)
      exact ⟨r, h1, by omega, fun _ => h4, fun _ => h5⟩
    · simp only [hc2, if_false]
      have heq : keyAt n m = key := by omega
      refine ⟨m + 1, ?_, by omega, ?_, ?_⟩
      · simp only [pure, Except.pure]
        congr 1
      · intro _; simp [heq]
      · intro hlt
        rw [← heq]
        exact h.sorted m (m + 1) (by omega) (by omega)

/-- Past its guards, and when the division does not trap, `interpolationSearch` reads the key
at the predicted index and scans from there. -/
theorem interpolationSearch_past {n : Node} {key : Int} (hd : n.degree ≠ 1)
    (hlo : ¬ key < n.minKey) (hhi : ¬ key ≥ n.maxKey)
    (ht : divisionTraps ((n.degree : Int) - 1) key n.minKey n.maxKey = false) :
    interpolationSearch key n
      = (n.key (predictedIndex ((n.degree : Int) - 1) key n.minKey n.maxKey)).bind
          (fun ixKey =>
            if key < ixKey then
              scanLeft key n (predictedIndex ((n.degree : Int) - 1) key n.minKey n.maxKey).toNat
            else if key > ixKey then
              scanRight key n
                (((n.degree : Int) - 1)
                  - (predictedIndex ((n.degree : Int) - 1) key n.minKey n.maxKey + 1)).toNat
                (predictedIndex ((n.degree : Int) - 1) key n.minKey n.maxKey + 1)
            else pure (predictedIndex ((n.degree : Int) - 1) key n.minKey n.maxKey + 1)) := by
  unfold interpolationSearch
  simp only [hd, if_false, hlo, hhi, ht, Bool.false_eq_true]
  rfl

/-- When the division traps, `interpolationSearch` faults. -/
theorem interpolationSearch_traps {n : Node} {key : Int} (hd : n.degree ≠ 1)
    (hlo : ¬ key < n.minKey) (hhi : ¬ key ≥ n.maxKey)
    (ht : divisionTraps ((n.degree : Int) - 1) key n.minKey n.maxKey = true) :
    interpolationSearch key n = .error Fault.arithmetic := by
  unfold interpolationSearch
  simp only [hd, if_false, hlo, hhi, ht, if_true]
  rfl

theorem Node.key_bounds {n : Node} {ix k : Int} (h : n.key ix = .ok k) :
    0 ≤ ix ∧ ix < (n.degree : Int) - 1 := by
  unfold Node.key at h
  by_cases hb : 0 ≤ ix ∧ ix < (n.degree : Int) - 1
  · exact hb
  · simp only [hb, if_false] at h
    cases h

/-- A call of `interpolationSearch` that returns has read inside the node. -/
theorem indexInBounds_of_ok {n : Node} {key ix : Int}
    (hr : interpolationSearch key n = .ok ix) : indexInBounds key n = true := by
  unfold indexInBounds
  by_cases hd : n.degree = 1
  · simp [hd]
  by_cases hlo : key < n.minKey
  · simp [hlo]
  by_cases hhi : key ≥ n.maxKey
  · simp [hhi]
  cases ht : divisionTraps ((n.degree : Int) - 1) key n.minKey n.maxKey with
  | true => rw [interpolationSearch_traps hd hlo hhi ht] at hr; cases hr
  | false =>
    rw [interpolationSearch_past hd hlo hhi ht] at hr
    cases hk : n.key (predictedIndex ((n.degree : Int) - 1) key n.minKey n.maxKey) with
    | error e => rw [hk] at hr; cases hr
    | ok k =>
      have hb := Node.key_bounds hk
      simp only [Bool.or_eq_true, decide_eq_true_eq, Bool.and_eq_true, Bool.not_false, true_and]
      exact Or.inr ⟨hb.1, hb.2⟩

/-- When its read stays inside the node, `interpolationSearch` returns the slot whose key
range holds `key`. -/
theorem interpolationSearch_spec (n : Node) (key : Int) (h : KeysOK n)
    (hb : indexInBounds key n = true) :
    ∃ r : Nat, interpolationSearch key n = .ok (r : Int) ∧ r < n.degree
      ∧ (0 < r → keyAt n (r - 1) ≤ key) ∧ (r + 1 < n.degree → key < keyAt n r) := by
  by_cases hd : n.degree = 1
  · refine ⟨0, ?_, by omega, by omega, by omega⟩
    unfold interpolationSearch
    simp [hd, pure, Except.pure]
  have h2 : 2 ≤ n.degree := by have := h.deg; omega
  by_cases hlo : key < n.minKey
  · refine ⟨0, ?_, by omega, by omega, fun _ => by rw [← h.min h2]; exact hlo⟩
    unfold interpolationSearch
    simp [hd, hlo, pure, Except.pure]
  by_cases hhi : key ≥ n.maxKey
  · refine ⟨n.degree - 1, ?_, by omega, ?_, by omega⟩
    · unfold interpolationSearch
      simp only [hd, if_false, hlo, hhi, if_true, pure, Except.pure]
      congr 1
      omega
    · intro _
      have : n.degree - 1 - 1 = n.degree - 2 := by omega
      rw [this, ← h.max h2]; exact hhi
  unfold indexInBounds at hb
  simp only [hd, hlo, hhi, decide_False, Bool.false_or, Bool.and_eq_true, decide_eq_true_eq,
    Bool.not_eq_true'] at hb
  obtain ⟨⟨ht, hb1⟩, hb2⟩ := hb
  rw [interpolationSearch_past hd hlo hhi ht]
  obtain ⟨m, hm⟩ := Int.eq_ofNat_of_zero_le hb1
  rw [hm] at hb2 ⊢
  exact interpolationSearch_scan n key h h2 (by rw [← h.min h2]; omega)
    (by rw [← h.max h2]; omega) m (by omega)

/-- A call of `interpolationSearch` that returns on a node with well-formed keys returns the
slot whose key range holds `key`. -/
theorem interpolationSearch_sound {n : Node} {key ix : Int} (h : KeysOK n)
    (hr : interpolationSearch key n = .ok ix) :
    ∃ r : Nat, ix = (r : Int) ∧ r < n.degree
      ∧ (0 < r → keyAt n (r - 1) ≤ key) ∧ (r + 1 < n.degree → key < keyAt n r) := by
  obtain ⟨r, g1, g2, g3, g4⟩ := interpolationSearch_spec n key h (indexInBounds_of_ok hr)
  rw [hr] at g1
  simp only [Except.ok.injEq] at g1
  exact ⟨r, g1, g2, g3, g4⟩

/-- The division of source line 671 does not trap when the divisor fits the key type and is
positive. -/
theorem divisionTraps_of_fits {numKeys key minKey maxKey : Int}
    (hf1 : fits64 (maxKey - minKey) = true) (hpos : 0 < maxKey - minKey) :
    divisionTraps numKeys key minKey maxKey = false := by
  unfold divisionTraps
  rw [wrap64_of_fits hf1]
  have e1 : ¬ (maxKey - minKey = 0) := by omega
  have e2 : ¬ (maxKey - minKey = -1) := by omega
  simp [e1, e2]

/-- The index that `interpolationSearch` predicts is a key index of the node whenever the
divisor and the product of source line 671 fit the signed 64-bit key type and the degree fits
an `int`. -/
theorem indexInBounds_of_fits {n : Node} {key : Int} (h1 : 1 ≤ n.degree)
    (hf1 : fits64 (n.maxKey - n.minKey) = true)
    (hf2 : fits64 (((n.degree : Int) - 1) * (key - n.minKey)) = true)
    (hdeg : (n.degree : Int) ≤ 2147483648) : indexInBounds key n = true := by
  unfold indexInBounds
  by_cases hd : n.degree = 1
  · simp [hd]
  by_cases hlo : key < n.minKey
  · simp [hlo]
  by_cases hhi : key ≥ n.maxKey
  · simp [hhi]
  have hpos : 0 < n.maxKey - n.minKey := by omega
  have hdz : 1 ≤ (n.degree : Int) - 1 := by omega
  have hnumnn : 0 ≤ ((n.degree : Int) - 1) * (key - n.minKey) := by
    apply mul_nonneg
    · omega
    · omega
  have hkm : fits64 (key - n.minKey) = true := by
    simp only [fits64, Bool.and_eq_true, decide_eq_true_eq] at hf1 ⊢
    omega
  have hix0 : 0 ≤ Int.tdiv (((n.degree : Int) - 1) * (key - n.minKey)) (n.maxKey - n.minKey) := by
    rw [Int.tdiv_eq_ediv hnumnn (le_of_lt hpos)]
    exact Int.ediv_nonneg hnumnn (le_of_lt hpos)
  have hixlt : Int.tdiv (((n.degree : Int) - 1) * (key - n.minKey)) (n.maxKey - n.minKey)
      < (n.degree : Int) - 1 := by
    rw [Int.tdiv_eq_ediv hnumnn (le_of_lt hpos)]
    apply Int.ediv_lt_of_lt_mul hpos
    apply mul_lt_mul_of_pos_left
    · omega
    · omega
  have hp : predictedIndex ((n.degree : Int) - 1) key n.minKey n.maxKey
      = Int.tdiv (((n.degree : Int) - 1) * (key - n.minKey)) (n.maxKey - n.minKey) := by
    unfold predictedIndex
    rw [wrap64_of_fits hkm, wrap64_of_fits hf2, wrap64_of_fits hf1]
    exact wrap32_of_range (by omega) (by omega)
  have ht : divisionTraps ((n.degree : Int) - 1) key n.minKey n.maxKey = false :=
    divisionTraps_of_fits hf1 hpos
  rw [hp, ht]
  simp only [hd, hlo, hhi, decide_False, Bool.false_or, Bool.not_false, Bool.true_and,
    Bool.and_eq_true, decide_eq_true_eq]
  exact ⟨hix0, hixlt⟩


theorem lookup_append_of_absent_left (k : Int) (l1 l2 : List (Int × Int))
    (h : ∀ p ∈ l1, p.1 ≠ k) : (l1 ++ l2).lookup k = l2.lookup k := by
  induction l1 with
  | nil => rfl
  | cons p t ih =>
    obtain ⟨pk, pv⟩ := p
    have hne : pk ≠ k := h (pk, pv) (List.mem_cons_self _ _)
    have hb : (k == pk) = false := by
      simp only [beq_eq_false_iff_ne, ne_eq]
      exact fun e => hne e.symm
    simp only [List.cons_append, List.lookup, hb]
    exact ih (fun q hq => h q (List.mem_cons_of_mem _ hq))

theorem lookup_of_absent (k : Int) (l : List (Int × Int)) (h : ∀ p ∈ l, p.1 ≠ k) :
    l.lookup k = none := by
  have := lookup_append_of_absent_left k l [] h
  simpa using this

theorem lookup_append_of_absent_right (k : Int) (l1 l2 : List (Int × Int))
    (h : ∀ p ∈ l2, p.1 ≠ k) : (l1 ++ l2).lookup k = l1.lookup k := by
  induction l1 with
  | nil => simpa using lookup_of_absent k l2 h
  | cons p t ih =>
    obtain ⟨pk, pv⟩ := p
    simp only [List.cons_append, List.lookup]
    cases hb : (k == pk) with
    | true => rfl
    | false => exact ih

theorem Node.ptr_ok (n : Node) (i : Nat) (w : Word) (h1 : i < n.degree)
    (h2 : n.slots[i]? = some w) : n.ptr (i : Int) = .ok w := by
  unfold Node.ptr
  have hb : (0 : Int) ≤ (i : Int) ∧ (i : Int) < (n.degree : Int) := by omega
  simp only [hb, and_self, if_true, Int.toNat_ofNat, h2]
  rfl

/-- Among the slots `i, ..., i+c-1` the lookup of `key` is decided by the slot `r` whose key
range holds `key`. -/
theorem chkSlots_lookup
    {rec : Option Int → Option Int → Nat → Option (List (Int × Int) × Bool)}
    {n : Node} {a : Nat} {lo hi : Option Int} (h : ShapeFacts n lo hi)
    (hrec : ∀ lo2 hi2 b r, rec lo2 hi2 b = some r → ListOK lo2 hi2 r.1) (key : Int) (r : Nat)
    (hr1 : 0 < r → keyAt n (r - 1) ≤ key) (hr2 : r + 1 < n.degree → key < keyAt n r) :
    ∀ (c i : Nat) (res : List (Int × Int) × Bool), i + c ≤ n.degree → i ≤ r → r < i + c →
      chkSlots tol rec n a lo hi c i = some res →
      ∃ w rr, n.slots[r]? = some w ∧ chkSlot tol rec n a lo hi r w = some rr
        ∧ res.1.lookup key = rr.1.lookup key := by
  intro c
  induction c with
  | zero => intro i res _ h1 h2; omega
  | succ c ih =>
    intro i res hle hir hrc hc
    obtain ⟨w, r1, r2, hw, h1, h2, hres⟩ := chkSlots_step hc
    subst hres
    have ok1 := chkSlot_ok h hrec (by omega : i < n.degree) h1
    by_cases hri : r = i
    · subst hri
      refine ⟨w, r1, hw, h1, ?_⟩
      apply lookup_append_of_absent_right
      intro p hp
      by_cases hlast : r + 1 = n.degree
      · have hc0 : c = 0 := by omega
        subst hc0
        simp only [chkSlots, Option.some.injEq] at h2
        subst h2
        simp at hp
      · have ok2 := chkSlots_ok h hrec c (r + 1) r2 (by omega) h2
        have hsl : slotLo n lo (r + 1) = some (keyAt n r) := by simp [slotLo]
        rw [hsl] at ok2
        have := (ok2.1 p hp).1
        simp only [aboveLo, decide_eq_true_eq] at this
        have := hr2 (by omega)
        omega
    · have hlast : i + 1 ≠ n.degree := by omega
      obtain ⟨w2, rr, hw2, hrr, hl⟩ := ih (i + 1) r2 (by omega) (by omega) (by omega) h2
      refine ⟨w2, rr, hw2, hrr, ?_⟩
      rw [← hl]
      apply lookup_append_of_absent_left
      intro p hp
      have hsh : slotHi n hi i = some (keyAt n i) := by simp [slotHi, hlast]
      rw [hsh] at ok1
      have := (ok1.1 p hp).2
      simp only [belowHi, decide_eq_true_eq] at this
      have hmono := keyAt_mono h.keys (show i ≤ r - 1 by omega) (by omega)
      have := hr1 (by omega)
      omega

theorem getNode_of_getElem {st : istree} {a : Nat} {n : Node} (h : st.nodes[a]? = some n) :
    st.getNode a = .ok n := by
  unfold istree.getNode
  rw [h]
  rfl

/-- On a well-formed subtree the search of `find` returns the value that the in-order list
holds for the key, when the reads of `interpolationSearch` stay inside the nodes at and after
the root of the subtree. -/
theorem findLoop_chkNode (st : istree) (key : Int) :
    ∀ (f : Nat) (lo hi : Option Int) (a : Nat) (r : List (Int × Int) × Bool) (p : Nat)
      (i : Int), chkNode false f st lo hi a = some r →
      (∀ (b : Nat) (n : Node), a ≤ b → st.nodes[b]? = some n → indexInBounds key n = true) →
      findLoop st key (f + 1) (Word.node a) p i = .ok (valueOf st.NO_VALUE key r.1) := by
  intro f
  induction f with
  | zero => intro lo hi a r p i h; simp [chkNode] at h
  | succ f ih =>
    intro lo hi a r p i h hfit
    simp only [chkNode] at h
    cases hn : st.nodes[a]? with
    | none => simp [hn] at h
    | some n =>
      simp only [hn] at h
      split at h
      swap
      · cases h
      rename_i hshape
      have hf := nodeShapeOK_facts hshape
      cases hs : chkSlots false (chkNode false f st) n a lo hi n.degree 0 with
      | none => simp [hs] at h
      | some r2 =>
        simp only [hs] at h
        have hr : r.1 = r2.1 := by
          split at h
          · simp only [Option.some.injEq] at h; subst h; rfl
          · split at h
            · simp only [Option.some.injEq] at h; subst h; rfl
            · cases h
        rw [hr]
        obtain ⟨r0, hsearch, hlt, hk1, hk2⟩ :=
          interpolationSearch_spec n key hf.keys (hfit a n (le_refl _) hn)
        obtain ⟨w, rr, hw, hrr, hl⟩ := chkSlots_lookup hf (chkNode_ok st f) key r0 hk1 hk2
          n.degree 0 r2 (by omega) (by omega) (by omega) hs
        rw [findLoop_node, getNode_of_getElem hn]
        simp only [Except.bind, hsearch, Node.ptr_ok n r0 w hlt hw]
        unfold valueOf
        rw [hl]
        cases w with
        | emptyVal =>
          simp only [chkSlot, Option.some.injEq] at hrr
          subst hrr
          rfl
        | val v =>
          simp only [chkSlot, Bool.false_and, Bool.false_eq_true, if_false] at hrr
          split at hrr
          swap
          · cases hrr
          rename_i hpos
          simp only [Option.some.injEq] at hrr
          subst hrr
          have hpos2 : ((r0 : Nat) : Int) > 0 := by omega
          have hkey : n.key ((r0 : Int) - 1) = .ok (keyAt n (r0 - 1)) := by
            have : ((r0 : Int) - 1) = ((r0 - 1 : Nat) : Int) := by omega
            rw [this]
            exact Node.key_ok n (r0 - 1) (by omega) hf.keys.len
          simp only [findLoop, bind, Except.bind, assert, hpos2, decide_True, if_true, pure,
            Except.pure, getNode_of_getElem hn, hkey, List.lookup]
          by_cases hkk : keyAt n (r0 - 1) = key
          · simp [hkk]
          · have hb : (key == keyAt n (r0 - 1)) = false := by
              simp only [beq_eq_false_iff_ne, ne_eq]
              exact fun e => hkk e.symm
            simp [hkk, hb]
        | kvpair k v =>
          simp only [chkSlot] at hrr
          split at hrr
          swap
          · cases hrr
          simp only [Option.some.injEq] at hrr
          subst hrr
          simp only [findLoop, List.lookup]
          by_cases hkk : k = key
          · simp [hkk, pure, Except.pure]
          · have hb : (key == k) = false := by
              simp only [beq_eq_false_iff_ne, ne_eq]
              exact fun e => hkk e.symm
            simp [hkk, hb, pure, Except.pure]
        | node b =>
          simp only [chkSlot] at hrr
          split at hrr
          swap
          · cases hrr
          rename_i hab
          exact ih _ _ b rr a r0 hrr (fun c m hc hm => hfit c m (by omega) hm)
        | null => simp [chkSlot] at hrr
        | rebuildop o => simp [chkSlot] at hrr


/-! ## Well-formed subtrees: marking -/

theorem SameShape.reflShape (n : Node) : SameShape n n := rfl

theorem SameShape.thenShape {n n1 n2 : Node} (h1 : SameShape n n1) (h2 : SameShape n1 n2) :
    SameShape n n2 := by
  unfold SameShape at *
  rw [h2, h1]

theorem SameShape.degree {n n1 : Node} (h : SameShape n n1) : n1.degree = n.degree := by
  rw [h]
theorem SameShape.slots {n n1 : Node} (h : SameShape n n1) : n1.slots = n.slots := by
  rw [h]
theorem SameShape.keys {n n1 : Node} (h : SameShape n n1) : n1.keys = n.keys := by
  rw [h]
theorem SameShape.minKey {n n1 : Node} (h : SameShape n n1) : n1.minKey = n.minKey := by
  rw [h]
theorem SameShape.maxKey {n n1 : Node} (h : SameShape n n1) : n1.maxKey = n.maxKey := by
  rw [h]

theorem chkSlot_shape {rec : Option Int → Option Int → Nat → Option (List (Int × Int) × Bool)}
    {n n1 : Node} (h : SameShape n n1) (a : Nat) (lo hi : Option Int) (i : Nat) (w : Word) :
    chkSlot tol rec n1 a lo hi i w = chkSlot tol rec n a lo hi i w := by
  cases w <;> simp [chkSlot, slotLo, slotHi, keyAt, pickKey, h.degree, h.keys]

theorem chkSlots_shape {rec : Option Int → Option Int → Nat → Option (List (Int × Int) × Bool)}
    {n n1 : Node} (h : SameShape n n1) (a : Nat) (lo hi : Option Int) :
    ∀ c i, chkSlots tol rec n1 a lo hi c i = chkSlots tol rec n a lo hi c i := by
  intro c
  induction c with
  | zero => intro i; rfl
  | succ c ih =>
    intro i
    simp only [chkSlots, h.slots, chkSlot_shape h, ih]

theorem nodeShapeOK_shape {n n1 : Node} (h : SameShape n n1) (lo hi : Option Int) :
    nodeShapeOK n1 lo hi = nodeShapeOK n lo hi := by
  simp [nodeShapeOK, keyAt, h.degree, h.keys, h.slots, h.minKey, h.maxKey]

theorem chkSlot_mono {rec rec1 : Option Int → Option Int → Nat → Option (List (Int × Int) × Bool)}
    (hm : RecMono rec rec1) (n : Node) (a : Nat) (lo hi : Option Int) (i : Nat) (w : Word)
    (r : List (Int × Int) × Bool) (h : chkSlot tol rec n a lo hi i w = some r) :
    ∃ d, chkSlot tol rec1 n a lo hi i w = some (r.1, d) ∧ (r.2 = true → d = true) := by
  cases w with
  | node b =>
    simp only [chkSlot] at h ⊢
    split at h
    · rename_i hab
      simp only [hab, if_true]
      exact hm _ _ _ _ h
    · cases h
  | emptyVal => exact ⟨r.2, by simpa [chkSlot] using h, id⟩
  | val v => exact ⟨r.2, by simpa [chkSlot] using h, id⟩
  | kvpair k v => exact ⟨r.2, by simpa [chkSlot] using h, id⟩
  | null => simp [chkSlot] at h
  | rebuildop o => simp [chkSlot] at h

theorem chkSlots_mono {rec rec1 : Option Int → Option Int → Nat → Option (List (Int × Int) × Bool)}
    (hm : RecMono rec rec1) (n : Node) (a : Nat) (lo hi : Option Int) :
    ∀ (c i : Nat) (r : List (Int × Int) × Bool), chkSlots tol rec n a lo hi c i = some r →
      ∃ d, chkSlots tol rec1 n a lo hi c i = some (r.1, d) ∧ (r.2 = true → d = true) := by
  intro c
  induction c with
  | zero =>
    intro i r h
    simp only [chkSlots, Option.some.injEq] at h
    subst h
    exact ⟨true, rfl, id⟩
  | succ c ih =>
    intro i r h
    obtain ⟨w, r1, r2, hw, h1, h2, hr⟩ := chkSlots_step h
    subst hr
    obtain ⟨d1, e1, m1⟩ := chkSlot_mono hm n a lo hi i w r1 h1
    obtain ⟨d2, e2, m2⟩ := ih (i + 1) r2 h2
    refine ⟨d1 && d2, ?_, ?_⟩
    · simp only [chkSlots, hw, e1, e2]
    · simp only [Bool.and_eq_true]
      rintro ⟨x, y⟩
      exact ⟨m1 x, m2 y⟩

theorem MarkStep.reflMark (st : istree) (a0 : Nat) : MarkStep tol st st a0 :=
  ⟨rfl, rfl, fun _ n h => ⟨n, h, SameShape.reflShape n, Or.inl rfl⟩⟩

/-- Marking keeps every well-formed subtree well formed with the same in-order list, and
keeps finished subtrees finished. -/
theorem chkNode_stable {st st1 : istree} {a0 : Nat} (hs : MarkStep tol st st1 a0) :
    ∀ f, RecMono (chkNode tol f st) (chkNode tol f st1) := by
  intro f
  induction f with
  | zero => intro lo hi b r h; simp [chkNode] at h
  | succ f ih =>
    intro lo hi b r h
    have h0 := h
    simp only [chkNode] at h
    cases hn : st.nodes[b]? with
    | none => simp [hn] at h
    | some n =>
      simp only [hn] at h
      obtain ⟨n1, hn1, hshape, hd⟩ := hs.pt b n hn
      split at h
      swap
      · cases h
      rename_i hok
      cases hsl : chkSlots tol (chkNode tol f st) n b lo hi n.degree 0 with
      | none => simp [hsl] at h
      | some r2 =>
        simp only [hsl] at h
        rcases hd with hd | ⟨_, _, hdone⟩
        · obtain ⟨d2, e2, m2⟩ := chkSlots_mono ih n b lo hi n.degree 0 r2 hsl
          simp only [chkNode, hn1, nodeShapeOK_shape hshape, hok, if_true,
            chkSlots_shape hshape, hshape.degree, e2, hd]
          split at h
          · rename_i hclean
            simp only [Option.some.injEq] at h
            subst h
            exact ⟨false, by simp [hclean], by simp⟩
          · rename_i hnc
            split at h
            · rename_i hfin
              simp only [Option.some.injEq] at h
              subst h
              simp only [Bool.and_eq_true, decide_eq_true_eq] at hfin
              refine ⟨true, ?_, fun _ => rfl⟩
              have hne : ¬ SUM_TO_DIRTY_FINISHED r2.1.length = Dirty.clean := by
                rw [← hfin.1]; exact hnc
              simp [hfin.1, m2 hfin.2, hne]
            · cases h
        · exact ⟨true, hdone _ _ _ _ h0, fun _ => rfl⟩

theorem MarkStep.weaken {st st1 : istree} {a0 a1 : Nat} (h : MarkStep tol st st1 a0)
    (hle : a1 ≤ a0) : MarkStep tol st st1 a1 := by
  refine ⟨h.rest, h.len, ?_⟩
  intro b n hn
  obtain ⟨n1, h1, h2, h3⟩ := h.pt b n hn
  refine ⟨n1, h1, h2, ?_⟩
  rcases h3 with h3 | ⟨h4, h5, h6⟩
  · exact Or.inl h3
  · exact Or.inr ⟨by omega, h5, h6⟩

theorem MarkStep.thenMark {st st1 st2 : istree} {a0 : Nat} (h1 : MarkStep tol st st1 a0)
    (h2 : MarkStep tol st1 st2 a0) : MarkStep tol st st2 a0 := by
  refine ⟨?_, by rw [h2.len, h1.len], ?_⟩
  · have e1 := h1.rest
    have e2 := h2.rest
    rw [e2, e1]
  · intro b n hn
    obtain ⟨n1, hn1, s1, d1⟩ := h1.pt b n hn
    obtain ⟨n2, hn2, s2, d2⟩ := h2.pt b n1 hn1
    refine ⟨n2, hn2, s1.thenShape s2, ?_⟩
    rcases d1 with d1 | ⟨ha, hc, hdone⟩
    · rcases d2 with d2 | ⟨ha2, hc2, hdone2⟩
      · exact Or.inl (by rw [d2, d1])
      · right
        refine ⟨ha2, by rw [← d1]; exact hc2, ?_⟩
        intro f lo hi r hr
        obtain ⟨d, e, _⟩ := chkNode_stable h1 f lo hi b r hr
        exact hdone2 f lo hi (r.1, d) e
    · right
      refine ⟨ha, hc, ?_⟩
      intro f lo hi r hr
      have e1 := hdone f lo hi r hr
      obtain ⟨d, e, m⟩ := chkNode_stable h2 f lo hi b _ e1
      rw [m rfl] at e
      exact e


theorem chkSlot_congr {rec rec1 : Option Int → Option Int → Nat → Option (List (Int × Int) × Bool)}
    (n : Node) (a : Nat) (h : ∀ lo hi b, a < b → rec1 lo hi b = rec lo hi b)
    (lo hi : Option Int) (i : Nat) (w : Word) :
    chkSlot tol rec1 n a lo hi i w = chkSlot tol rec n a lo hi i w := by
  cases w with
  | node b =>
    simp only [chkSlot]
    split
    · rename_i hab; exact h _ _ _ hab
    · rfl
  | _ => rfl

theorem chkSlots_congr {rec rec1 : Option Int → Option Int → Nat → Option (List (Int × Int) × Bool)}
    (n : Node) (a : Nat) (h : ∀ lo hi b, a < b → rec1 lo hi b = rec lo hi b)
    (lo hi : Option Int) :
    ∀ c i, chkSlots tol rec1 n a lo hi c i = chkSlots tol rec n a lo hi c i := by
  intro c
  induction c with
  | zero => intro i; rfl
  | succ c ih =>
    intro i
    simp only [chkSlots, chkSlot_congr n a h, ih]

/-- A check below address `a` does not read the nodes at addresses up to `a`. -/
theorem chkNode_frame {st st1 : istree} {a : Nat}
    (h : ∀ x, a < x → st1.nodes[x]? = st.nodes[x]?) :
    ∀ f lo hi b, a < b → chkNode tol f st1 lo hi b = chkNode tol f st lo hi b := by
  intro f
  induction f with
  | zero => intro lo hi b _; rfl
  | succ f ih =>
    intro lo hi b hab
    simp only [chkNode, h b hab]
    cases st.nodes[b]? with
    | none => rfl
    | some n =>
      simp only
      rw [chkSlots_congr n b (fun lo hi b2 hb => ih lo hi b2 (by omega))]

theorem chkSlot_unique {rec1 rec2 : Option Int → Option Int → Nat → Option (List (Int × Int) × Bool)}
    (h : ∀ lo1 hi1 lo2 hi2 b r1 r2, rec1 lo1 hi1 b = some r1 → rec2 lo2 hi2 b = some r2 → r1 = r2)
    (n : Node) (a : Nat) (lo1 hi1 lo2 hi2 : Option Int) (i : Nat) (w : Word)
    (x y : List (Int × Int) × Bool)
    (hx : chkSlot tol rec1 n a lo1 hi1 i w = some x) (hy : chkSlot tol rec2 n a lo2 hi2 i w = some y) :
    x = y := by
  cases w with
  | node b =>
    simp only [chkSlot] at hx hy
    split at hx
    · rename_i hab
      simp only [hab, if_true] at hy
      exact h _ _ _ _ _ _ _ hx hy
    · cases hx
  | emptyVal =>
    simp only [chkSlot, Option.some.injEq] at hx hy
    rw [← hx, ← hy]
  | val v =>
    simp only [chkSlot] at hx hy
    split at hx
    · rename_i hpos
      simp only [hpos, if_true, Option.some.injEq] at hx hy
      rw [← hx, ← hy]
    · rename_i hpos
      simp only [hpos, if_false] at hy
      split at hx
      · split at hy
        · simp only [Option.some.injEq] at hx hy
          rw [← hx, ← hy]
        · cases hy
      · cases hx
  | kvpair k v =>
    simp only [chkSlot] at hx hy
    split at hx
    · split at hy
      · simp only [Option.some.injEq] at hx hy
        rw [← hx, ← hy]
      · cases hy
    · cases hx
  | null => simp [chkSlot] at hx
  | rebuildop o => simp [chkSlot] at hx

theorem chkSlots_unique {rec1 rec2 : Option Int → Option Int → Nat → Option (List (Int × Int) × Bool)}
    (h : ∀ lo1 hi1 lo2 hi2 b r1 r2, rec1 lo1 hi1 b = some r1 → rec2 lo2 hi2 b = some r2 → r1 = r2)
    (n : Node) (a : Nat) (lo1 hi1 lo2 hi2 : Option Int) :
    ∀ (c i : Nat) (x y : List (Int × Int) × Bool),
      chkSlots tol rec1 n a lo1 hi1 c i = some x → chkSlots tol rec2 n a lo2 hi2 c i = some y →
      x = y := by
  intro c
  induction c with
  | zero =>
    intro i x y hx hy
    simp only [chkSlots, Option.some.injEq] at hx hy
    rw [← hx, ← hy]
  | succ c ih =>
    intro i x y hx hy
    obtain ⟨w, x1, x2, hw, h1, h2, hr⟩ := chkSlots_step hx
    obtain ⟨w2, y1, y2, hw2, g1, g2, hr2⟩ := chkSlots_step hy
    rw [hw] at hw2
    cases hw2
    have e1 := chkSlot_unique h n a lo1 hi1 lo2 hi2 i w x1 y1 h1 g1
    have e2 := ih (i + 1) x2 y2 h2 g2
    rw [hr, hr2, e1, e2]

/-- The result of a check does not depend on the height bound or on the key range. -/
theorem chkNode_unique (st : istree) :
    ∀ f1 f2 lo1 hi1 lo2 hi2 b r1 r2, chkNode tol f1 st lo1 hi1 b = some r1 →
      chkNode tol f2 st lo2 hi2 b = some r2 → r1 = r2 := by
  intro f1
  induction f1 with
  | zero => intro f2 lo1 hi1 lo2 hi2 b r1 r2 h; simp [chkNode] at h
  | succ f1 ih =>
    intro f2 lo1 hi1 lo2 hi2 b r1 r2 h1 h2
    cases f2 with
    | zero => simp [chkNode] at h2
    | succ f2 =>
      simp only [chkNode] at h1 h2
      cases hn : st.nodes[b]? with
      | none => simp [hn] at h1
      | some n =>
        simp only [hn] at h1 h2
        split at h1
        swap
        · cases h1
        split at h2
        swap
        · cases h2
        cases hs1 : chkSlots tol (chkNode tol f1 st) n b lo1 hi1 n.degree 0 with
        | none => simp [hs1] at h1
        | some x =>
          cases hs2 : chkSlots tol (chkNode tol f2 st) n b lo2 hi2 n.degree 0 with
          | none => simp [hs2] at h2
          | some y =>
            have e := chkSlots_unique (fun a b c d e f g h1 h2 => ih f2 a b c d e f g h1 h2)
              n b lo1 hi1 lo2 hi2 n.degree 0 x y hs1 hs2
            subst e
            simp only [hs1] at h1
            simp only [hs2] at h2
            rw [h1] at h2
            exact Option.some.inj h2

/-- The check of one slot among the slots `i, ..., i+c-1`. -/
theorem chkSlots_get {rec : Option Int → Option Int → Nat → Option (List (Int × Int) × Bool)}
    {n : Node} {a : Nat} {lo hi : Option Int} :
    ∀ (c i : Nat) (r : List (Int × Int) × Bool), chkSlots tol rec n a lo hi c i = some r →
      ∀ j, i ≤ j → j < i + c →
        ∃ w rj, n.slots[j]? = some w ∧ chkSlot tol rec n a lo hi j w = some rj := by
  intro c
  induction c with
  | zero => intro i r _ j h1 h2; omega
  | succ c ih =>
    intro i r h j h1 h2
    obtain ⟨w, r1, r2, hw, e1, e2, _⟩ := chkSlots_step h
    by_cases hj : j = i
    · subst hj; exact ⟨w, r1, hw, e1⟩
    · exact ih (i + 1) r2 e2 j (by omega) (by omega)
theorem getElem_setNode_same {st : istree} {a : Nat} (n : Node) (h : a < st.nodes.length) :
    (st.setNode a n).nodes[a]? = some n := by
  simp [istree.setNode, List.getElem?_set, h]

theorem getElem_setNode_ne {st : istree} {a b : Nat} (n : Node) (h : a ≠ b) :
    (st.setNode a n).nodes[b]? = st.nodes[b]? := by
  simp [istree.setNode, List.getElem?_set, h]

theorem lt_of_getElem {st : istree} {a : Nat} {n : Node} (h : st.nodes[a]? = some n) :
    a < st.nodes.length := (List.getElem?_eq_some_iff.mp h).1

/-- Overwriting a node by one of the same shape and the same dirty word is a marking step. -/
theorem MarkStep.setNode_same {st : istree} {a : Nat} {n : Node} (hn : st.nodes[a]? = some n)
    (n1 : Node) (hs : SameShape n n1) (hd : n1.dirty = n.dirty) (a0 : Nat) :
    MarkStep tol st (st.setNode a n1) a0 := by
  refine ⟨rfl, by simp [istree.setNode], ?_⟩
  intro b m hm
  by_cases hb : b = a
  · subst hb
    rw [hn] at hm
    cases hm
    exact ⟨n1, getElem_setNode_same n1 (lt_of_getElem hn), hs, Or.inl hd⟩
  · exact ⟨m, by rw [getElem_setNode_ne n1 (Ne.symm hb)]; exact hm, SameShape.reflShape m, Or.inl rfl⟩

theorem StartedAt.stepStarted {s s1 : istree} {a a0 : Nat} {n : Node} (h : StartedAt s a n)
    (hm : MarkStep tol s s1 a0) : StartedAt s1 a n := by
  obtain ⟨na, h1, h2, h3⟩ := h
  obtain ⟨n1, g1, g2, g3⟩ := hm.pt a na h1
  refine ⟨n1, g1, h2.thenShape g2, ?_⟩
  rcases g3 with g3 | ⟨_, g4, _⟩
  · rw [g3, h3]
  · rw [h3] at g4
    cases g4

theorem markWord_spec {f : Nat} (hB : MarkSpec tol f) {n : Node} {a : Nat} {lo hi : Option Int}
    {i : Nat} {w : Word} {r1 : List (Int × Int) × Bool} {fm : Nat} {s s1 : istree} {c : Nat}
    (hc : chkSlot tol (chkNode tol f s) n a lo hi i w = some r1)
    (hm : markAndCount fm s w = .ok (c, s1)) :
    c = r1.1.length ∧ MarkStep tol s s1 (a + 1)
      ∧ chkSlot tol (chkNode tol f s1) n a lo hi i w = some (r1.1, true) := by
  cases fm with
  | zero => cases hm
  | succ fm =>
    cases w with
    | emptyVal =>
      simp only [markAndCount, IS_KVPAIR, IS_VAL, IS_EMPTY_VAL, pure, Except.pure] at hm
      simp only [chkSlot, Option.some.injEq] at hc
      subst hc
      cases hm
      exact ⟨rfl, MarkStep.reflMark _ _, rfl⟩
    | val v =>
      simp only [markAndCount, IS_KVPAIR, IS_VAL, IS_EMPTY_VAL, pure, Except.pure] at hm
      simp only [chkSlot] at hc ⊢
      split at hc
      · rename_i hpos
        simp only [Option.some.injEq] at hc
        subst hc
        cases hm
        exact ⟨rfl, MarkStep.reflMark _ _, by simp [hpos]⟩
      · rename_i hpos
        split at hc
        · rename_i hb
          simp only [Option.some.injEq] at hc
          subst hc
          cases hm
          exact ⟨rfl, MarkStep.reflMark _ _, by simp [hpos, hb]⟩
        · cases hc
    | kvpair k v =>
      simp only [markAndCount, IS_KVPAIR, pure, Except.pure] at hm
      simp only [chkSlot] at hc ⊢
      split at hc
      · rename_i hb
        simp only [Option.some.injEq] at hc
        subst hc
        cases hm
        exact ⟨rfl, MarkStep.reflMark _ _, by simp [hb]⟩
      · cases hc
    | node b =>
      simp only [chkSlot] at hc ⊢
      split at hc
      · rename_i hab
        obtain ⟨h1, h2, h3⟩ := hB (fm + 1) s _ _ b r1 c s1 hc hm
        exact ⟨h1, h2.weaken (by omega), by simp [hab, h3]⟩
      · cases hc
    | null => simp [chkSlot] at hc
    | rebuildop o => simp [chkSlot] at hc

theorem startedAt_getNode {s : istree} {a : Nat} {n : Node} (h : StartedAt s a n) :
    ∃ na, s.getNode a = .ok na ∧ s.nodes[a]? = some na ∧ SameShape n na
      ∧ na.dirty = DIRTY_STARTED_MASK := by
  obtain ⟨na, h1, h2, h3⟩ := h
  exact ⟨na, getNode_of_getElem h1, h1, h2, h3⟩

theorem markSumLoop_spec {f : Nat} (hB : MarkSpec tol f) {n : Node} {a : Nat} {lo hi : Option Int}
    (fm : Nat) :
    ∀ (cnt i keyCount : Nat) (s s2 : istree) (rr : List (Int × Int) × Bool)
      (res : Nat ⊕ Nat), StartedAt s a n → i + cnt = n.degree →
      chkSlots tol (chkNode tol f s) n a lo hi cnt i = some rr →
      markSumLoop (markAndCount fm) a cnt (i : Int) keyCount s = .ok (res, s2) →
      res = Sum.inr (keyCount + rr.1.length) ∧ MarkStep tol s s2 (a + 1)
        ∧ chkSlots tol (chkNode tol f s2) n a lo hi cnt i = some (rr.1, true) := by
  intro cnt
  induction cnt with
  | zero =>
    intro i keyCount s s2 rr res _ _ hc hm
    simp only [chkSlots, Option.some.injEq] at hc
    subst hc
    simp only [markSumLoop, pure, Except.pure, Except.ok.injEq, Prod.mk.injEq] at hm
    obtain ⟨e1, e2⟩ := hm
    subst e1 e2
    exact ⟨rfl, MarkStep.reflMark _ _, rfl⟩
  | succ cnt ih =>
    intro i keyCount s s2 rr res hst hsum hc hm
    obtain ⟨w, r1, r2, hw, h1, h2, hr⟩ := chkSlots_step hc
    subst hr
    obtain ⟨na, hget, hna, hshape, hdirty⟩ := startedAt_getNode hst
    have hptr : na.ptr (i : Int) = .ok w :=
      Node.ptr_ok na i w (by rw [hshape.degree]; omega) (by rw [hshape.slots]; exact hw)
    simp only [markSumLoop, bind, Except.bind, hget, hptr] at hm
    cases hrec : markAndCount fm s w with
    | error e => simp [hrec] at hm
    | ok p =>
      obtain ⟨c, s1⟩ := p
      simp only [hrec] at hm
      obtain ⟨hc1, hm1, hk1⟩ := markWord_spec hB h1 hrec
      have hst1 := hst.stepStarted hm1
      obtain ⟨na1, hget1, hna1, hshape1, hdirty1⟩ := startedAt_getNode hst1
      simp only [hget1, hdirty1, IS_DIRTY_FINISHED, DIRTY_STARTED_MASK] at hm
      have hcast : ((i : Nat) : Int) + 1 = ((i + 1 : Nat) : Int) := by simp
      simp only [Bool.false_eq_true, if_false, hcast] at hm
      obtain ⟨d2, e2, _⟩ := chkSlots_mono (chkNode_stable hm1 f) n a lo hi cnt (i + 1) r2 h2
      obtain ⟨g1, g2, g3⟩ := ih (i + 1) (keyCount + c) s1 s2 _ res hst1 (by omega) e2 hm
      refine ⟨?_, hm1.thenMark g2, ?_⟩
      · rw [g1, hc1]
        simp only [List.length_append]
        congr 1
        omega
      · obtain ⟨d1, e1, m1⟩ := chkSlot_mono (chkNode_stable g2 f) n a lo hi i w _ hk1
        simp only [chkSlots, hw, e1, g3, m1 rfl]
        rfl


theorem chkNode_succ_some {f : Nat} {st : istree} {lo hi : Option Int} {a : Nat}
    {r : List (Int × Int) × Bool} (h : chkNode tol (f + 1) st lo hi a = some r) :
    ∃ n r2, st.nodes[a]? = some n ∧ nodeShapeOK n lo hi = true
      ∧ chkSlots tol (chkNode tol f st) n a lo hi n.degree 0 = some r2 ∧ r.1 = r2.1
      ∧ ((n.dirty = Dirty.clean ∧ r.2 = false)
          ∨ (n.dirty = SUM_TO_DIRTY_FINISHED r2.1.length ∧ r2.2 = true ∧ r.2 = true)) := by
  simp only [chkNode] at h
  cases hn : st.nodes[a]? with
  | none => simp [hn] at h
  | some n =>
    simp only [hn] at h
    split at h
    swap
    · cases h
    rename_i hok
    cases hsl : chkSlots tol (chkNode tol f st) n a lo hi n.degree 0 with
    | none => simp [hsl] at h
    | some r2 =>
      simp only [hsl] at h
      refine ⟨n, r2, rfl, hok, hsl, ?_⟩
      split at h
      · rename_i hclean
        simp only [Option.some.injEq] at h
        subst h
        exact ⟨rfl, Or.inl ⟨hclean, rfl⟩⟩
      · split at h
        · rename_i hfin
          simp only [Option.some.injEq] at h
          subst h
          simp only [Bool.and_eq_true, decide_eq_true_eq] at hfin
          exact ⟨rfl, Or.inr ⟨hfin.1, hfin.2, rfl⟩⟩
        · cases h

theorem chkNode_succ_fin {f : Nat} {st : istree} {lo hi : Option Int} {a : Nat} {n : Node}
    {L : List (Int × Int)} (hn : st.nodes[a]? = some n) (hok : nodeShapeOK n lo hi = true)
    (hs : chkSlots tol (chkNode tol f st) n a lo hi n.degree 0 = some (L, true))
    (hd : n.dirty = SUM_TO_DIRTY_FINISHED L.length) :
    chkNode tol (f + 1) st lo hi a = some (L, true) := by
  have hne : ¬ SUM_TO_DIRTY_FINISHED L.length = Dirty.clean := by
    simp [SUM_TO_DIRTY_FINISHED, Dirty.clean]
  simp [chkNode, hn, hok, hs, hd, hne]

theorem markClaimLoop_spec {f : Nat} (hB : MarkSpec tol f) {n : Node} {a : Nat} {lo hi : Option Int}
    (fm : Nat) :
    ∀ (cnt : Nat) (s s2 : istree) (rr : List (Int × Int) × Bool) (res : Option Nat),
      StartedAt s a n → chkSlots tol (chkNode tol f s) n a lo hi n.degree 0 = some rr →
      markClaimLoop (markAndCount fm) a cnt s = .ok (res, s2) →
      res = none ∧ MarkStep tol s s2 (a + 1) := by
  intro cnt
  induction cnt with
  | zero =>
    intro s s2 rr res _ _ hm
    cases hm
  | succ cnt ih =>
    intro s s2 rr res hst hc hm
    obtain ⟨na, hget, hna, hshape, hdirty⟩ := startedAt_getNode hst
    simp only [markClaimLoop, bind, Except.bind, hget] at hm
    have hstep : MarkStep tol s (s.setNode a { na with nextMarkAndCount := na.nextMarkAndCount + 1 })
        (a + 1) :=
      MarkStep.setNode_same hna { na with nextMarkAndCount := na.nextMarkAndCount + 1 }
        (by simp [SameShape]) rfl (a + 1)
    split at hm
    · simp only [pure, Except.pure, Except.ok.injEq, Prod.mk.injEq] at hm
      obtain ⟨e1, e2⟩ := hm
      subst e1 e2
      exact ⟨rfl, hstep⟩
    · rename_i hlt
      have hlt2 : na.nextMarkAndCount < n.degree := by
        rw [← hshape.degree]; omega
      obtain ⟨w, rj, hw, hj⟩ := chkSlots_get n.degree 0 rr hc na.nextMarkAndCount
        (by omega) (by omega)
      have hptr : na.ptr (na.nextMarkAndCount : Int) = .ok w :=
        Node.ptr_ok na _ w (by rw [hshape.degree]; omega) (by rw [hshape.slots]; exact hw)
      simp only [hptr] at hm
      obtain ⟨dj, ej, _⟩ := chkSlot_mono (chkNode_stable hstep f) n a lo hi _ w rj hj
      cases hrec : markAndCount fm
          (s.setNode a { na with nextMarkAndCount := na.nextMarkAndCount + 1 }) w with
      | error e => simp [hrec] at hm
      | ok p =>
        obtain ⟨c, s1⟩ := p
        simp only [hrec] at hm
        obtain ⟨_, hm1, _⟩ := markWord_spec hB ej hrec
        have hst1 := (hst.stepStarted hstep).stepStarted hm1
        obtain ⟨na1, hget1, hna1, hshape1, hdirty1⟩ := startedAt_getNode hst1
        simp only [hget1, hdirty1, IS_DIRTY_FINISHED, DIRTY_STARTED_MASK] at hm
        simp only [Bool.false_eq_true, if_false] at hm
        obtain ⟨d2, e2, _⟩ := chkSlots_mono (chkNode_stable (hstep.thenMark hm1) f) n a lo hi
          n.degree 0 rr hc
        obtain ⟨g1, g2⟩ := ih s1 s2 _ res hst1 e2 hm
        exact ⟨g1, (hstep.thenMark hm1).thenMark g2⟩

theorem markFinish_spec {f : Nat} (hB : MarkSpec tol f) {n : Node} {a : Nat} {lo hi : Option Int}
    {fm : Nat} {s2 st1 : istree} {rr : List (Int × Int) × Bool} {c : Nat}
    (hst : StartedAt s2 a n)
    (hc : chkSlots tol (chkNode tol f s2) n a lo hi n.degree 0 = some rr)
    (hm : (do
      let (r, st3) ← markSumLoop (markAndCount fm) a n.degree 0 0 s2
      match r with
      | Sum.inl sum => pure (sum, st3)
      | Sum.inr keyCount => do
        let (_, st4) ← casDirty st3 a DIRTY_STARTED_MASK (SUM_TO_DIRTY_FINISHED keyCount)
        pure (keyCount, st4) : Except Fault (Nat × istree)) = .ok (c, st1)) :
    ∃ s3 n3, MarkStep tol s2 s3 (a + 1) ∧ s3.nodes[a]? = some n3 ∧ SameShape n n3
      ∧ c = rr.1.length ∧ chkSlots tol (chkNode tol f s3) n a lo hi n.degree 0 = some (rr.1, true)
      ∧ st1 = s3.setNode a { n3 with dirty := SUM_TO_DIRTY_FINISHED c } := by
  simp only [bind, Except.bind] at hm
  cases hsum : markSumLoop (markAndCount fm) a n.degree 0 0 s2 with
  | error e => simp [hsum] at hm
  | ok p =>
    obtain ⟨res, s3⟩ := p
    simp only [hsum] at hm
    obtain ⟨g1, g2, g3⟩ := markSumLoop_spec hB fm n.degree 0 0 s2 s3 rr res hst (by omega) hc
      (by simpa using hsum)
    subst g1
    have hst3 := hst.stepStarted g2
    obtain ⟨n3, hget3, hn3, hshape3, hdirty3⟩ := startedAt_getNode hst3
    simp only [casDirty, bind, Except.bind, hget3, hdirty3, if_true, pure, Except.pure,
      Except.ok.injEq, Prod.mk.injEq] at hm
    obtain ⟨e1, e2⟩ := hm
    refine ⟨s3, n3, g2, hn3, hshape3, ?_, g3, ?_⟩
    · rw [← e1]; simp
    · rw [← e2, ← e1]

theorem markAndCount_spec : ∀ f, MarkSpec tol f := by
  intro f
  induction f with
  | zero => intro fm st lo hi a r c st1 hc; simp [chkNode] at hc
  | succ f ih =>
    intro fm st lo hi a r c st1 hc hm
    cases fm with
    | zero => cases hm
    | succ fm =>
      obtain ⟨n, r2, hn, hok, hsl, hr1, hcase⟩ := chkNode_succ_some hc
      have hget := getNode_of_getElem hn
      simp only [markAndCount, IS_KVPAIR, IS_VAL, IS_NODE, assert, istree.derefWord, bind,
        Except.bind, pure, Except.pure, hget, if_true, Bool.false_eq_true, if_false] at hm
      rcases hcase with ⟨hclean, hflag⟩ | ⟨hfin, hall, hflag⟩
      · simp only [hclean, IS_DIRTY_FINISHED, IS_DIRTY_STARTED, Dirty.clean, casDirty, bind,
          Except.bind, pure, Except.pure, hget, Bool.false_eq_true, if_false, Bool.not_false,
          if_true] at hm
        -- the node has been claimed: the state `s0`
        have hlt := lt_of_getElem hn
        have hs0a : (st.setNode a { n with dirty := DIRTY_STARTED_MASK }).nodes[a]?
            = some { n with dirty := DIRTY_STARTED_MASK } := getElem_setNode_same _ hlt
        have hst0 : StartedAt (st.setNode a { n with dirty := DIRTY_STARTED_MASK }) a n :=
          ⟨_, hs0a, by simp [SameShape], rfl⟩
        have hfr0 : ∀ g lo1 hi1 b, a < b →
            chkNode tol g (st.setNode a { n with dirty := DIRTY_STARTED_MASK }) lo1 hi1 b
              = chkNode tol g st lo1 hi1 b :=
          chkNode_frame (fun x hx => getElem_setNode_ne _ (by omega))
        have hsl0 : ∀ g lo1 hi1, chkSlots tol
            (chkNode tol g (st.setNode a { n with dirty := DIRTY_STARTED_MASK })) n a lo1 hi1
              n.degree 0 = chkSlots tol (chkNode tol g st) n a lo1 hi1 n.degree 0 :=
          fun g lo1 hi1 => chkSlots_congr n a (hfr0 g) lo1 hi1 n.degree 0
        -- the claim loop
        obtain ⟨s2, hstep2, hm2⟩ : ∃ s2,
            MarkStep tol (st.setNode a { n with dirty := DIRTY_STARTED_MASK }) s2 (a + 1) ∧
            (do
              let (r, st3) ← markSumLoop (markAndCount fm) a n.degree 0 0 s2
              match r with
              | Sum.inl sum => pure (sum, st3)
              | Sum.inr keyCount => do
                let (_, st4) ← casDirty st3 a DIRTY_STARTED_MASK (SUM_TO_DIRTY_FINISHED keyCount)
                pure (keyCount, st4) : Except Fault (Nat × istree)) = .ok (c, st1) := by
          split at hm
          · cases hcl : markClaimLoop (markAndCount fm) a (n.degree + 1)
                (st.setNode a { n with dirty := DIRTY_STARTED_MASK }) with
            | error e => simp [hcl] at hm
            | ok p =>
              obtain ⟨res, s2⟩ := p
              simp only [hcl] at hm
              obtain ⟨g1, g2⟩ := markClaimLoop_spec ih fm (n.degree + 1) _ s2 r2 res hst0
                (by rw [hsl0]; exact hsl) hcl
              subst g1
              exact ⟨s2, g2, hm⟩
          · exact ⟨_, MarkStep.reflMark _ _, hm⟩
        have hst2 := hst0.stepStarted hstep2
        obtain ⟨d2, hsl2, _⟩ := chkSlots_mono (chkNode_stable hstep2 f) n a lo hi n.degree 0 r2
          (by rw [hsl0]; exact hsl)
        obtain ⟨s3, n3, hstep3, hn3, hshape3, hcnt, hsl3, hst1⟩ := markFinish_spec ih hst2 hsl2 hm2
        simp only at hcnt hsl3
        have hstep := hstep2.thenMark hstep3
        have hlt3 := lt_of_getElem hn3
        have hs1a : st1.nodes[a]? = some { n3 with dirty := SUM_TO_DIRTY_FINISHED c } := by
          rw [hst1]; exact getElem_setNode_same _ hlt3
        have hshape1 : SameShape n { n3 with dirty := SUM_TO_DIRTY_FINISHED c } := by
          have := hshape3
          unfold SameShape at this ⊢
          rw [this]
        have hfr1 : ∀ g lo1 hi1 b, a < b → chkNode tol g st1 lo1 hi1 b = chkNode tol g s3 lo1 hi1 b := by
          rw [hst1]
          exact chkNode_frame (fun x hx => getElem_setNode_ne _ (by omega))
        have hsl1 : ∀ g lo1 hi1, chkSlots tol (chkNode tol g st1) n a lo1 hi1 n.degree 0
            = chkSlots tol (chkNode tol g s3) n a lo1 hi1 n.degree 0 :=
          fun g lo1 hi1 => chkSlots_congr n a (hfr1 g) lo1 hi1 n.degree 0
        have hdone : ∀ g lo1 hi1 r1, chkNode tol g st lo1 hi1 a = some r1 →
            chkNode tol g st1 lo1 hi1 a = some (r1.1, true) := by
          intro g lo1 hi1 r1 h1
          cases g with
          | zero => simp [chkNode] at h1
          | succ g =>
            obtain ⟨n9, r9, hn9, hok9, hsl9, hr9, _⟩ := chkNode_succ_some h1
            rw [hn] at hn9
            cases hn9
            obtain ⟨d9, e9, _⟩ := chkSlots_mono (chkNode_stable hstep g) n a lo1 hi1 n.degree 0 r9
              (by rw [hsl0]; exact hsl9)
            have e1 : chkSlots tol (chkNode tol g st1) n a lo1 hi1 n.degree 0 = some (r9.1, d9) := by
              rw [hsl1]; exact e9
            have e2 : chkSlots tol (chkNode tol f st1) n a lo hi n.degree 0 = some (r2.1, true) := by
              rw [hsl1]; exact hsl3
            have heq := chkSlots_unique (fun lo1 hi1 lo2 hi2 b x y hx hy =>
              chkNode_unique st1 g f lo1 hi1 lo2 hi2 b x y hx hy) n a lo1 hi1 lo hi n.degree 0
              _ _ e1 e2
            simp only [Prod.mk.injEq] at heq
            rw [hr9, heq.1]
            refine chkNode_succ_fin hs1a ?_ ?_ ?_
            · rw [nodeShapeOK_shape hshape1]; exact hok9
            · have e3 := e1
              rw [heq.1, heq.2, ← chkSlots_shape hshape1, ← hshape3.degree] at e3
              exact e3
            · simp only [hcnt]
        refine ⟨by rw [hcnt, hr1], ⟨?_, ?_, ?_⟩, hdone _ _ _ _ hc⟩
        · rw [hst1]
          have h3 := hstep.rest
          simp only [istree.setNode] at h3 ⊢
          rw [h3]
        · rw [hst1]
          have h3 := hstep.len
          simp only [istree.setNode, List.length_set] at h3 ⊢
          exact h3
        · intro b m hb
          by_cases hba : b = a
          · subst hba
            rw [hn] at hb
            cases hb
            exact ⟨_, hs1a, hshape1, Or.inr ⟨le_refl _, hclean, hdone⟩⟩
          · have hb0 : (st.setNode a { n with dirty := DIRTY_STARTED_MASK }).nodes[b]? = some m := by
              rw [getElem_setNode_ne _ (Ne.symm hba)]; exact hb
            obtain ⟨m1, hm1, hsh1, hd1⟩ := hstep.pt b m hb0
            refine ⟨m1, ?_, hsh1, ?_⟩
            · rw [hst1, getElem_setNode_ne _ (Ne.symm hba)]; exact hm1
            · rcases hd1 with hd1 | ⟨hle, hcl, hall⟩
              · exact Or.inl hd1
              · refine Or.inr ⟨by omega, hcl, ?_⟩
                intro g lo1 hi1 r1 h1
                rw [hfr1 g lo1 hi1 b (by omega)]
                exact hall g lo1 hi1 r1 (by rw [hfr0 g lo1 hi1 b (by omega)]; exact h1)
      · simp only [hfin, IS_DIRTY_FINISHED, SUM_TO_DIRTY_FINISHED, DIRTY_FINISHED_TO_SUM,
          if_true, Except.ok.injEq, Prod.mk.injEq] at hm
        obtain ⟨e1, e2⟩ := hm
        subst e1 e2
        refine ⟨by rw [hr1], MarkStep.reflMark _ _, ?_⟩
        rw [hc]
        cases r
        simp only at hflag
        subst hflag
        rfl


/-! ## Well-formed subtrees: collecting the pairs -/

theorem addKVLoop_spec {st : istree} {f : Nat} (hB : CollectSpec tol st f) {n : Node} {a : Nat}
    {lo hi : Option Int} (hn : st.nodes[a]? = some n) (hlen : n.degree - 1 ≤ n.keys.length)
    (fuel : Nat) :
    ∀ (cnt i : Nat) (rr : List (Int × Int) × Bool) (b b1 : IdealBuilder),
      i + cnt = n.degree → chkSlots tol (chkNode tol f st) n a lo hi cnt i = some rr →
      addKVLoop st (addKVPairs st fuel) a cnt (i : Int) b = .ok b1 →
      b1 = { b with pairs := b.pairs ++ rr.1 } := by
  intro cnt
  induction cnt with
  | zero =>
    intro i rr b b1 _ hc hm
    simp only [chkSlots, Option.some.injEq] at hc
    subst hc
    simp only [addKVLoop, pure, Except.pure, Except.ok.injEq] at hm
    subst hm
    simp
  | succ cnt ih =>
    intro i rr b b1 hsum hc hm
    obtain ⟨w, r1, r2, hw, h1, h2, hr⟩ := chkSlots_step hc
    subst hr
    have hget := getNode_of_getElem hn
    have hptr : n.ptr (i : Int) = .ok w := Node.ptr_ok n i w (by omega) hw
    have hcast : ((i : Nat) : Int) + 1 = ((i + 1 : Nat) : Int) := by simp
    simp only [addKVLoop, bind, Except.bind, hget, hptr, hcast] at hm
    cases w with
    | emptyVal =>
      simp only [IS_VAL, if_true] at hm
      simp only [chkSlot, Option.some.injEq] at h1
      subst h1
      have := ih (i + 1) r2 b b1 (by omega) h2 hm
      simpa using this
    | val v =>
      simp only [IS_VAL, if_true] at hm
      simp only [chkSlot] at h1
      split at h1
      swap
      · rename_i hpos
        simp [assert, hpos, throw, throwThe, MonadExceptOf.throw] at hm
      rename_i hpos
      simp only [Option.some.injEq] at h1
      subst h1
      have hdec : decide ((i : Int) > 0) = true := by simp; omega
      have hk : n.key ((i : Int) - 1) = .ok (keyAt n (i - 1)) := by
        have := Node.key_ok n (i - 1) (by omega) hlen
        have hc2 : ((i - 1 : Nat) : Int) = (i : Int) - 1 := by omega
        rw [hc2] at this
        exact this
      simp only [assert, hdec, if_true, pure, Except.pure, hk] at hm
      have := ih (i + 1) r2 _ b1 (by omega) h2 hm
      rw [this]
      simp [IdealBuilder.addKV]
    | kvpair k v =>
      simp only [IS_VAL, Bool.false_eq_true, if_false] at hm
      simp only [chkSlot] at h1
      split at h1
      swap
      · cases h1
      simp only [Option.some.injEq] at h1
      subst h1
      cases fuel with
      | zero => simp [addKVPairs, throw, throwThe, MonadExceptOf.throw] at hm
      | succ fuel =>
        simp only [addKVPairs, pure, Except.pure] at hm
        have := ih (i + 1) r2 _ b1 (by omega) h2 hm
        rw [this]
        simp [IdealBuilder.addKV]
    | node c =>
      simp only [IS_VAL, Bool.false_eq_true, if_false] at hm
      simp only [chkSlot] at h1
      split at h1
      swap
      · cases h1
      cases hrec : addKVPairs st fuel (Word.node c) b with
      | error e => simp [hrec] at hm
      | ok b2 =>
        simp only [hrec] at hm
        have e2 := hB fuel _ _ c r1 b b2 h1 hrec
        have := ih (i + 1) r2 _ b1 (by omega) h2 hm
        rw [this, e2]
        simp
    | null => simp [chkSlot] at h1
    | rebuildop o => simp [chkSlot] at h1

theorem addKVPairs_spec (st : istree) : ∀ f, CollectSpec tol st f := by
  intro f
  induction f with
  | zero => intro fuel lo hi a r b b1 hc; simp [chkNode] at hc
  | succ f ih =>
    intro fuel lo hi a r b b1 hc hm
    cases fuel with
    | zero => cases hm
    | succ fuel =>
      obtain ⟨n, r2, hn, hok, hsl, hr1, _⟩ := chkNode_succ_some hc
      have hget := getNode_of_getElem hn
      have hf := nodeShapeOK_facts hok
      simp only [addKVPairs, IS_NODE, assert, istree.derefWord, bind, Except.bind, pure,
        Except.pure, hget, if_true] at hm
      by_cases hfin : (IS_DIRTY_FINISHED n.dirty && IS_DIRTY_STARTED n.dirty) = true
      swap
      · simp [hfin, throw, throwThe, MonadExceptOf.throw] at hm
      simp only [hfin, if_true] at hm
      rw [hr1]
      exact addKVLoop_spec ih hn hf.keys.len fuel n.degree 0 r2 b b1 (by omega) hsl hm

theorem take_drop_append (l1 l2 : List (Int × Int)) (skip add : Nat) :
    ((l1 ++ l2).drop skip).take add
      = (l1.drop skip).take add
        ++ (l2.drop (skip - l1.length)).take (add - ((l1.drop skip).take add).length) := by
  rw [List.drop_append_eq_append_drop, List.take_append_eq_append_take]
  congr 2
  simp only [List.length_take, List.length_drop]
  omega

theorem subsetResult_nil (s : SubsetArgs) : subsetResult s [] = s := by
  cases s
  simp [subsetResult]

theorem subsetResult_append (s : SubsetArgs) (l1 l2 : List (Int × Int)) :
    subsetResult (subsetResult s l1) l2 = subsetResult s (l1 ++ l2) := by
  simp only [subsetResult, take_drop_append l1 l2, List.length_append, List.append_assoc,
    SubsetArgs.mk.injEq, IdealBuilder.mk.injEq, true_and]
  refine ⟨by omega, by omega, trivial⟩

theorem subsetResult_early (s : SubsetArgs) (l1 l2 : List (Int × Int))
    (hadd : 0 < s.numKeysToAdd) (h0 : (subsetResult s l1).numKeysToAdd = 0) :
    subsetResult s (l1 ++ l2) = subsetResult s l1 := by
  rw [← subsetResult_append]
  simp only [subsetResult] at h0
  have h1 : ((l1.drop s.numKeysToSkip).take s.numKeysToAdd).length = s.numKeysToAdd := by
    simp only [List.length_take, List.length_drop] at h0 ⊢
    omega
  have h2 : s.numKeysToSkip - l1.length = 0 := by
    simp only [List.length_take, List.length_drop] at h1
    omega
  simp only [subsetResult, h1, h2, Nat.sub_self, List.take_zero, List.append_nil,
    List.length_nil, Nat.sub_zero, List.drop_zero, Nat.zero_sub]

theorem subsetResult_skip (s : SubsetArgs) (l : List (Int × Int))
    (h : l.length ≤ s.numKeysToSkip) :
    subsetResult s l = { s with numKeysToSkip := s.numKeysToSkip - l.length } := by
  cases s
  simp only [subsetResult, List.drop_of_length_le h]
  simp

theorem subsetResult_one (s : SubsetArgs) (p : Int × Int) (h : s.numKeysToSkip = 0)
    (hadd : 0 < s.numKeysToAdd) :
    subsetResult s [p] = { s with b := s.b.addKV p.1 p.2,
                                  numKeysToAdd := s.numKeysToAdd - 1 } := by
  obtain ⟨sk, ad, b⟩ := s
  simp only at h hadd
  subst h
  obtain ⟨ad, rfl⟩ : ∃ m, ad = m + 1 := ⟨ad - 1, by omega⟩
  simp [subsetResult, IdealBuilder.addKV]

theorem chkNode_fin_sum {f : Nat} {st : istree} {lo hi : Option Int} {a : Nat} {n : Node}
    {r : List (Int × Int) × Bool} (h : chkNode tol f st lo hi a = some r)
    (hn : st.nodes[a]? = some n) (hfin : IS_DIRTY_FINISHED n.dirty = true) :
    DIRTY_FINISHED_TO_SUM n.dirty = r.1.length := by
  cases f with
  | zero => simp [chkNode] at h
  | succ f =>
    obtain ⟨n1, r2, hn1, _, _, hr1, hcase⟩ := chkNode_succ_some h
    rw [hn] at hn1
    cases hn1
    rcases hcase with ⟨hc, _⟩ | ⟨hc, _, _⟩
    · rw [hc] at hfin
      simp [IS_DIRTY_FINISHED, Dirty.clean] at hfin
    · rw [hc, hr1]
      rfl

theorem addKVSubsetLoop_spec {st : istree} {cs : SlotRef} {f : Nat} (hB : SubsetSpec tol st cs f)
    {n : Node} {a : Nat} {lo hi : Option Int} (hn : st.nodes[a]? = some n)
    (hlen : n.degree - 1 ≤ n.keys.length) (hcs : st.readRef cs = .ok Word.null) (fuel : Nat) :
    ∀ (cnt i : Nat) (rr : List (Int × Int) × Bool) (s s1 : SubsetArgs),
      i + cnt = n.degree → chkSlots tol (chkNode tol f st) n a lo hi cnt i = some rr →
      addKVSubsetLoop st (addKVPairsSubset st cs fuel) a cs cnt (i : Int) s = .ok s1 →
      s1 = subsetResult s rr.1 := by
  intro cnt
  induction cnt with
  | zero =>
    intro i rr s s1 _ hc hm
    simp only [chkSlots, Option.some.injEq] at hc
    subst hc
    simp only [addKVSubsetLoop, pure, Except.pure, Except.ok.injEq] at hm
    subst hm
    exact (subsetResult_nil _).symm
  | succ cnt ih =>
    intro i rr s s1 hsum hc hm
    obtain ⟨w, r1, r2, hw, h1, h2, hr⟩ := chkSlots_step hc
    subst hr
    have hget := getNode_of_getElem hn
    have hptr : n.ptr (i : Int) = .ok w := Node.ptr_ok n i w (by omega) hw
    have hcast : ((i : Nat) : Int) + 1 = ((i + 1 : Nat) : Int) := by simp
    have hnn : (Word.null != Word.null) = false := by decide
    simp only [addKVSubsetLoop, bind, Except.bind, hcs, hnn, Bool.false_eq_true, if_false,
      assert] at hm
    by_cases hadd : 0 < s.numKeysToAdd
    swap
    · simp [hadd, throw, throwThe, MonadExceptOf.throw] at hm
    have hadd2 : decide (s.numKeysToAdd > 0) = true := by simpa using hadd
    simp only [hadd2, if_true, pure, Except.pure, hget, hptr, hcast] at hm
    -- what remains after the slot: either the early return or the rest of the loop
    have fin : ∀ (l1 : List (Int × Int)),
        (s1 = subsetResult s l1 ∧ (subsetResult s l1).numKeysToAdd = 0) ∨
        addKVSubsetLoop st (addKVPairsSubset st cs fuel) a cs cnt ((i + 1 : Nat) : Int)
          (subsetResult s l1) = .ok s1 →
        s1 = subsetResult s (l1 ++ r2.1) := by
      intro l1 h
      rcases h with ⟨e, h0⟩ | h
      · rw [e, subsetResult_early s l1 r2.1 hadd h0]
      · rw [ih (i + 1) r2 _ s1 (by omega) h2 h, subsetResult_append]
    cases w with
    | emptyVal =>
      simp only [chkSlot, Option.some.injEq] at h1
      subst h1
      simp only at hm
      exact fin [] (Or.inr (by rw [subsetResult_nil]; exact hm))
    | val v =>
      simp only [chkSlot] at h1
      split at h1
      swap
      · rename_i hpos
        split at h1
        swap
        · cases h1
        simp only [Option.some.injEq] at h1
        subst h1
        simp only at hm
        split at hm
        · rename_i hskip
          refine fin _ (Or.inr ?_)
          rw [subsetResult_skip s _ (by simpa using hskip)]
          exact hm
        · simp [hpos, throw, throwThe, MonadExceptOf.throw] at hm
      rename_i hpos
      simp only [Option.some.injEq] at h1
      subst h1
      simp only at hm
      split at hm
      · rename_i hskip
        refine fin _ (Or.inr ?_)
        rw [subsetResult_skip s _ (by simpa using hskip)]
        exact hm
      · rename_i hskip
        have hdec : decide ((i : Int) > 0) = true := by simp; omega
        have hk : n.key ((i : Int) - 1) = .ok (keyAt n (i - 1)) := by
          have := Node.key_ok n (i - 1) (by omega) hlen
          have hc2 : ((i - 1 : Nat) : Int) = (i : Int) - 1 := by omega
          rw [hc2] at this
          exact this
        simp only [hdec, if_true, hk] at hm
        have hone := subsetResult_one s (keyAt n (i - 1), v) (by omega) hadd
        simp only at hone
        refine fin _ ?_
        rw [hone]
        split at hm
        · rename_i h0
          left
          simp only [Except.ok.injEq] at hm
          exact ⟨hm.symm, h0⟩
        · right
          exact hm
    | kvpair k v =>
      simp only [chkSlot] at h1
      split at h1
      swap
      · cases h1
      simp only [Option.some.injEq] at h1
      subst h1
      simp only at hm
      split at hm
      · rename_i hskip
        refine fin _ (Or.inr ?_)
        rw [subsetResult_skip s _ (by simpa using hskip)]
        exact hm
      · rename_i hskip
        have hone := subsetResult_one s (k, v) (by omega) hadd
        simp only at hone
        refine fin _ ?_
        rw [hone]
        split at hm
        · rename_i h0
          left
          simp only [Except.ok.injEq] at hm
          exact ⟨hm.symm, h0⟩
        · right
          exact hm
    | node c =>
      simp only [chkSlot] at h1
      split at h1
      swap
      · cases h1
      simp only [IS_NODE, istree.derefWord, bind, Except.bind, if_true, pure, Except.pure] at hm
      cases hgc : st.getNode c with
      | error e => simp [hgc] at hm
      | ok child =>
        simp only [hgc] at hm
        by_cases hfin : IS_DIRTY_FINISHED child.dirty = true
        swap
        · simp [hfin, throw, throwThe, MonadExceptOf.throw] at hm
        simp only [hfin, if_true] at hm
        have hsz := chkNode_fin_sum h1 (getNode_eq_ok.mp hgc) hfin
        rw [hsz] at hm
        refine fin _ ?_
        split at hm
        · cases hrec : addKVPairsSubset st cs fuel c s with
          | error e => simp [hrec] at hm
          | ok s2 =>
            simp only [hrec] at hm
            have e2 := hB fuel _ _ c r1 s s2 h1 hrec
            subst e2
            split at hm
            · rename_i h0
              left
              simp only [Except.ok.injEq] at hm
              exact ⟨hm.symm, h0⟩
            · right
              exact hm
        · rename_i hskip
          right
          rw [subsetResult_skip s _ (by omega)]
          exact hm
    | null => simp [chkSlot] at h1
    | rebuildop o => simp [chkSlot] at h1

theorem addKVPairsSubset_spec (st : istree) (cs : SlotRef)
    (hcs : st.readRef cs = .ok Word.null) : ∀ f, SubsetSpec tol st cs f := by
  intro f
  induction f with
  | zero => intro fuel lo hi a r s s1 hc; simp [chkNode] at hc
  | succ f ih =>
    intro fuel lo hi a r s s1 hc hm
    cases fuel with
    | zero => cases hm
    | succ fuel =>
      obtain ⟨n, r2, hn, hok, hsl, hr1, _⟩ := chkNode_succ_some hc
      have hget := getNode_of_getElem hn
      have hf := nodeShapeOK_facts hok
      simp only [addKVPairsSubset, bind, Except.bind, hget] at hm
      rw [hr1]
      exact addKVSubsetLoop_spec ih hn hf.keys.len hcs fuel n.degree 0 r2 s s1 (by omega) hsl hm

/-! ## Well-formed subtrees: building -/

theorem chkSlot_ext {rec rec1 : Option Int → Option Int → Nat → Option (List (Int × Int) × Bool)}
    {a : Nat} (hm : RecExt a rec rec1) (n : Node) (lo hi : Option Int) (i : Nat) (w : Word)
    (r : List (Int × Int) × Bool) (h : chkSlot tol rec n a lo hi i w = some r) :
    chkSlot tol rec1 n a lo hi i w = some r := by
  cases w with
  | node b =>
    simp only [chkSlot] at h ⊢
    split at h
    · rename_i hab
      simp only [hab, if_true]
      exact hm _ _ b r hab h
    · cases h
  | emptyVal => exact h
  | val v => exact h
  | kvpair k v => exact h
  | null => exact h
  | rebuildop o => exact h

theorem chkSlots_ext {rec rec1 : Option Int → Option Int → Nat → Option (List (Int × Int) × Bool)}
    {a : Nat} (hm : RecExt a rec rec1) (n : Node) (lo hi : Option Int) :
    ∀ (c i : Nat) (r : List (Int × Int) × Bool), chkSlots tol rec n a lo hi c i = some r →
      chkSlots tol rec1 n a lo hi c i = some r := by
  intro c
  induction c with
  | zero => intro i r h; exact h
  | succ c ih =>
    intro i r h
    obtain ⟨w, r1, r2, hw, h1, h2, hr⟩ := chkSlots_step h
    subst hr
    simp only [chkSlots, hw, chkSlot_ext hm n lo hi i w r1 h1, ih (i + 1) r2 h2]

/-- A well-formed subtree stays well formed, with the same result, in any heap that keeps
the nodes above `a`. -/
theorem chkNode_ext {st st1 : istree} {a : Nat}
    (h : ∀ x n, a < x → st.nodes[x]? = some n → st1.nodes[x]? = some n) :
    ∀ f, RecExt a (chkNode tol f st) (chkNode tol f st1) := by
  intro f
  induction f with
  | zero => intro lo hi b r _ hc; simp [chkNode] at hc
  | succ f ih =>
    intro lo hi b r hab hc
    obtain ⟨n, r2, hn, hok, hsl, hr1, hcase⟩ := chkNode_succ_some hc
    have hn1 := h b n hab hn
    have ih2 : RecExt b (chkNode tol f st) (chkNode tol f st1) :=
      fun lo2 hi2 c r3 hbc h3 => ih lo2 hi2 c r3 (by omega) h3
    have hsl1 := chkSlots_ext ih2 n lo hi n.degree 0 r2 hsl
    rw [← hc]
    simp only [chkNode, hn, hn1, hsl, hsl1]

/-- More fuel does not change the result of the checker. -/
theorem chkNode_mono_succ (st : istree) :
    ∀ f lo hi b r, chkNode tol f st lo hi b = some r → chkNode tol (f + 1) st lo hi b = some r := by
  intro f
  induction f with
  | zero => intro lo hi b r hc; simp [chkNode] at hc
  | succ f ih =>
    intro lo hi b r hc
    obtain ⟨n, r2, hn, hok, hsl, hr1, hcase⟩ := chkNode_succ_some hc
    have hsl1 := chkSlots_ext (a := b) (fun lo2 hi2 c r3 _ h3 => ih lo2 hi2 c r3 h3) n lo hi
      n.degree 0 r2 hsl
    rw [← hc]
    rw [chkNode, chkNode]
    simp only [hn, hsl, hsl1]

theorem chkNode_mono (st : istree) {f g : Nat} (hfg : f ≤ g) {lo hi : Option Int} {b : Nat}
    {r : List (Int × Int) × Bool} (h : chkNode tol f st lo hi b = some r) :
    chkNode tol g st lo hi b = some r := by
  induction hfg with
  | refl => exact h
  | step _ ih => exact chkNode_mono_succ st _ _ _ _ _ ih

theorem chkWord_mono (st : istree) {f g : Nat} (hfg : f ≤ g) {m : Nat} {lo hi : Option Int}
    {w : Word} {r : List (Int × Int) × Bool} (h : chkWord tol f st m lo hi w = some r) :
    chkWord tol g st m lo hi w = some r := by
  cases w with
  | node b =>
    simp only [chkWord] at h ⊢
    split at h
    · rename_i hab
      simp only [hab, if_true]
      exact chkNode_mono st hfg h
    · cases h
  | emptyVal => exact h
  | val v => exact h
  | kvpair k v => exact h
  | null => exact h
  | rebuildop o => exact h

theorem chkWord_ext {st st1 : istree} {m : Nat}
    (h : ∀ x n, m < x → st.nodes[x]? = some n → st1.nodes[x]? = some n) {f : Nat}
    {lo hi : Option Int} {w : Word} {r : List (Int × Int) × Bool}
    (hc : chkWord tol f st m lo hi w = some r) : chkWord tol f st1 m lo hi w = some r := by
  cases w with
  | node b =>
    simp only [chkWord] at hc ⊢
    split at hc
    · rename_i hab
      simp only [hab, if_true]
      exact chkNode_ext h f lo hi b r hab hc
    · cases hc
  | emptyVal => exact hc
  | val v => exact hc
  | kvpair k v => exact hc
  | null => exact hc
  | rebuildop o => exact hc

/-- The check of a slot that holds no `VAL` word is the check of the word for the key range
of the slot. -/
theorem chkSlot_eq_chkWord (f : Nat) (st : istree) (n : Node) (a : Nat) (lo hi : Option Int)
    (i : Nat) (w : Word) (hv : ∀ v, w ≠ Word.val v) :
    chkSlot tol (chkNode tol f st) n a lo hi i w = chkWord tol f st a (slotLo n lo i) (slotHi n hi i) w := by
  cases w with
  | val v => exact absurd rfl (hv v)
  | node b => rfl
  | emptyVal => rfl
  | kvpair k v => rfl
  | null => rfl
  | rebuildop o => rfl

theorem chunkStart_zero (cs rem : Nat) : chunkStart cs rem 0 = 0 := by
  simp [chunkStart]

theorem chunkStart_succ (cs rem j : Nat) :
    chunkStart cs rem (j + 1) = chunkStart cs rem j + chunkSize cs rem j := by
  unfold chunkStart chunkSize
  rw [Nat.add_mul, Nat.one_mul]
  split_ifs <;> omega

theorem chunkStart_lt (cs rem : Nat) (hcs : 1 ≤ cs) {j k : Nat} (h : j < k) :
    chunkStart cs rem j < chunkStart cs rem k := by
  induction h with
  | refl => rw [chunkStart_succ]; unfold chunkSize; omega
  | step _ ih => rw [chunkStart_succ]; omega

theorem chunkStart_le (cs rem : Nat) {j k : Nat} (h : j ≤ k) :
    chunkStart cs rem j ≤ chunkStart cs rem k := by
  induction h with
  | refl => exact le_refl _
  | step _ ih => rw [chunkStart_succ]; omega

theorem chunkStart_total (n m : Nat) (hm : 1 ≤ m) : chunkStart (n / m) (n % m) m = n := by
  unfold chunkStart
  have h1 : n % m < m := Nat.mod_lt _ (by omega)
  have h2 : ¬ m < n % m := by omega
  simp only [h2, if_false]
  exact Nat.div_add_mod n m

theorem log2Aux_spec : ∀ fuel n, 1 ≤ n → n < 2 ^ (fuel + 1) →
    2 ^ log2Aux fuel n ≤ n ∧ n < 2 ^ (log2Aux fuel n + 1) ∧ log2Aux fuel n ≤ fuel := by
  intro fuel
  induction fuel with
  | zero =>
    intro n h1 h2
    simp only [log2Aux]
    simp at h2 ⊢
    omega
  | succ fuel ih =>
    intro n h1 h2
    simp only [log2Aux]
    split
    · simp; omega
    · rename_i hn
      have hp : 2 ^ (fuel + 1 + 1) = 2 * 2 ^ (fuel + 1) := by rw [pow_succ]; ring
      obtain ⟨g1, g2, g3⟩ := ih (n / 2) (by omega) (by omega)
      refine ⟨?_, ?_, by omega⟩
      · rw [pow_succ]; omega
      · rw [pow_succ]; omega

theorem isqrtAux_spec (n : Nat) : ∀ b s, s * s ≤ n → n < (s + 2 ^ b) * (s + 2 ^ b) →
    isqrtAux n b s * isqrtAux n b s ≤ n
      ∧ n < (isqrtAux n b s + 1) * (isqrtAux n b s + 1) := by
  intro b
  induction b with
  | zero => intro s h1 h2; simpa [isqrtAux] using ⟨h1, h2⟩
  | succ b ih =>
    intro s h1 h2
    simp only [isqrtAux]
    have hp : 2 ^ (b + 1) = 2 ^ b + 2 ^ b := by rw [pow_succ]; ring
    split
    · rename_i h
      apply ih _ h
      rw [hp] at h2
      rw [Nat.add_assoc]; exact h2
    · rename_i h
      exact ih _ h1 (by omega)

theorem toDouble_small {n : Nat} (h : n < 2 ^ 53) : toDouble n = n := by
  have hsh : log2Aux 64 n - 52 = 0 := by
    by_cases h0 : n = 0
    · subst h0; decide
    · obtain ⟨g1, g2, _⟩ := log2Aux_spec 64 n (by omega) (by
        calc n < 2 ^ 53 := h
          _ ≤ 2 ^ 65 := by norm_num)
      have : log2Aux 64 n < 53 := by
        by_contra hc
        have : 2 ^ 53 ≤ 2 ^ log2Aux 64 n := Nat.pow_le_pow_right (by norm_num) (by omega)
        omega
      omega
  unfold toDouble
  simp only [hsh, pow_zero, Nat.mod_one, Nat.div_one, Nat.mul_zero, Nat.mul_one]
  have h3 : ¬ ((1 : Nat) < 0 ∨ (0 : Nat) = 1 ∧ n % 2 = 1) := by omega
  simp only [h3, if_false]

theorem toDouble_big {n : Nat} (h1 : 2 ^ 53 ≤ n) (h2 : n < 2 ^ 64) :
    2 ^ 53 ≤ toDouble n ∧ toDouble n ≤ 2 ^ 64 := by
  obtain ⟨g1, g2, g3⟩ := log2Aux_spec 64 n (by
    calc 1 ≤ 2 ^ 53 := by norm_num
      _ ≤ n := h1) (by
    calc n < 2 ^ 64 := h2
      _ ≤ 2 ^ 65 := by norm_num)
  have hL1 : 53 ≤ log2Aux 64 n := by
    by_contra hc
    have : 2 ^ (log2Aux 64 n + 1) ≤ 2 ^ 53 := Nat.pow_le_pow_right (by norm_num) (by omega)
    omega
  have hL2 : log2Aux 64 n ≤ 63 := by
    by_contra hc
    have : 2 ^ 64 ≤ 2 ^ log2Aux 64 n := Nat.pow_le_pow_right (by norm_num) (by omega)
    omega
  obtain ⟨sh, hsh⟩ : ∃ sh, log2Aux 64 n = sh + 52 := ⟨log2Aux 64 n - 52, by omega⟩
  have hshv : log2Aux 64 n - 52 = sh := by omega
  rw [hsh] at g1 g2
  have hpos : 0 < 2 ^ sh := Nat.pos_pow_of_pos _ (by norm_num)
  have e1 : 2 ^ (sh + 52) = 2 ^ 52 * 2 ^ sh := by rw [pow_add]; ring
  have e2 : 2 ^ (sh + 52 + 1) = 2 ^ 53 * 2 ^ sh := by rw [pow_succ, pow_add]; ring
  have hq1 : 2 ^ 52 ≤ n / 2 ^ sh := by
    rw [Nat.le_div_iff_mul_le hpos]; omega
  have hq2 : n / 2 ^ sh < 2 ^ 53 := by
    rw [Nat.div_lt_iff_lt_mul hpos]; omega
  have hsh1 : 1 ≤ sh := by omega
  have hsh2 : sh ≤ 11 := by omega
  have hp1 : 2 ^ 1 ≤ 2 ^ sh := Nat.pow_le_pow_right (by norm_num) hsh1
  have hp2 : 2 ^ sh ≤ 2 ^ 11 := Nat.pow_le_pow_right (by norm_num) hsh2
  unfold toDouble
  simp only [hshv]
  constructor
  · split
    · calc 2 ^ 53 = 2 ^ 52 * 2 ^ 1 := by norm_num
        _ ≤ (n / 2 ^ sh + 1) * 2 ^ sh := Nat.mul_le_mul (by omega) hp1
    · calc 2 ^ 53 = 2 ^ 52 * 2 ^ 1 := by norm_num
        _ ≤ (n / 2 ^ sh) * 2 ^ sh := Nat.mul_le_mul hq1 hp1
  · split
    · calc (n / 2 ^ sh + 1) * 2 ^ sh ≤ 2 ^ 53 * 2 ^ 11 := Nat.mul_le_mul (by omega) hp2
        _ = 2 ^ 64 := by norm_num
    · calc (n / 2 ^ sh) * 2 ^ sh ≤ 2 ^ 53 * 2 ^ 11 := Nat.mul_le_mul (by omega) hp2
        _ = 2 ^ 64 := by norm_num

/-- The square root of a double with the integer value `d`. -/
theorem sqrtDouble_spec {d : Nat} (h1 : 1 ≤ d) (h2 : d ≤ 2 ^ 64) :
    ∃ e s, 4 ^ e ≤ d ∧ d < 4 ^ (e + 1) ∧ e ≤ 32 ∧ s * s ≤ d * 4 ^ (52 - e)
      ∧ d * 4 ^ (52 - e) < (s + 1) * (s + 1)
      ∧ sqrtDouble d = (if s * s + s < d * 4 ^ (52 - e) then s + 1 else s, 52 - e) := by
  obtain ⟨g1, g2, g3⟩ := log2Aux_spec 64 d h1 (by
    calc d ≤ 2 ^ 64 := h2
      _ < 2 ^ 65 := by norm_num)
  have hd := Nat.div_add_mod (log2Aux 64 d) 2
  have hm : log2Aux 64 d % 2 < 2 := Nat.mod_lt _ (by norm_num)
  have he1 : 4 ^ (log2Aux 64 d / 2) ≤ d := by
    have : (4 : Nat) ^ (log2Aux 64 d / 2) = 2 ^ (2 * (log2Aux 64 d / 2)) := by
      rw [pow_mul]; norm_num
    rw [this]
    exact le_trans (Nat.pow_le_pow_right (by norm_num) (by omega)) g1
  have he2 : d < 4 ^ (log2Aux 64 d / 2 + 1) := by
    have : (4 : Nat) ^ (log2Aux 64 d / 2 + 1) = 2 ^ (2 * (log2Aux 64 d / 2 + 1)) := by
      rw [pow_mul]; norm_num
    rw [this]
    exact lt_of_lt_of_le g2 (Nat.pow_le_pow_right (by norm_num) (by omega))
  have he3 : log2Aux 64 d / 2 ≤ 32 := by omega
  have hN : d * 4 ^ (52 - log2Aux 64 d / 2) < (0 + 2 ^ 53) * (0 + 2 ^ 53) := by
    have e53 : (0 + 2 ^ 53) * (0 + 2 ^ 53) = 4 ^ (log2Aux 64 d / 2 + 1) * 4 ^ (52 - log2Aux 64 d / 2) := by
      rw [← pow_add]
      have : log2Aux 64 d / 2 + 1 + (52 - log2Aux 64 d / 2) = 53 := by omega
      rw [this]; norm_num
    rw [e53]
    exact Nat.mul_lt_mul_of_pos_right he2 (Nat.pos_pow_of_pos _ (by norm_num))
  obtain ⟨s1, s2⟩ := isqrtAux_spec (d * 4 ^ (52 - log2Aux 64 d / 2)) 53 0 (by simp) hN
  refine ⟨log2Aux 64 d / 2, isqrtAux (d * 4 ^ (52 - log2Aux 64 d / 2)) 53 0, he1, he2, he3, s1, s2, ?_⟩
  unfold sqrtDouble
  have hd0 : d ≠ 0 := by omega
  simp only [hd0, if_false]

/-- The value of `ceilSqrt` on a count that is a `size_t`: with `d` the count as a double and
`q / P` the rounded square root of `d`, the value is `q / P` rounded up. -/
theorem ceilSqrt_unfold {n : Nat} (h1 : 1 ≤ n) (h2 : n < 2 ^ 64) :
    ∃ d P s q, (n < 2 ^ 53 → d = n) ∧ (2 ^ 53 ≤ n → 2 ^ 53 ≤ d ∧ d ≤ 2 ^ 64)
      ∧ 2 ^ 20 ≤ P ∧ (n ≤ 2 ^ 52 → 2 ^ 26 ≤ P)
      ∧ s * s ≤ d * (P * P) ∧ d * (P * P) < (s + 1) * (s + 1)
      ∧ q = (if s * s + s < d * (P * P) then s + 1 else s)
      ∧ ceilSqrt n = (q + P - 1) / P := by
  have hd1 : 1 ≤ toDouble n ∧ toDouble n ≤ 2 ^ 64 := by
    by_cases hs : n < 2 ^ 53
    · rw [toDouble_small hs]; exact ⟨h1, by omega⟩
    · obtain ⟨g1, g2⟩ := toDouble_big (by omega) h2
      exact ⟨by omega, g2⟩
  obtain ⟨e, s, g1, g2, g3, g4, g5, g6⟩ := sqrtDouble_spec hd1.1 hd1.2
  have hPP : 4 ^ (52 - e) = 2 ^ (52 - e) * 2 ^ (52 - e) := by
    rw [show (4 : Nat) = 2 * 2 from rfl, Nat.mul_pow]
  rw [hPP] at g4 g5 g6
  refine ⟨toDouble n, 2 ^ (52 - e), s, _, fun h => toDouble_small h,
    fun h => toDouble_big h h2, ?_, ?_, g4, g5, rfl, ?_⟩
  · exact Nat.pow_le_pow_right (by norm_num) (by omega)
  · intro hn
    have hs : n < 2 ^ 53 := by omega
    rw [toDouble_small hs] at g1
    have he : e ≤ 26 := by
      by_contra hc
      have : 4 ^ 27 ≤ 4 ^ e := Nat.pow_le_pow_right (by norm_num) (by omega)
      have h4 : (4 : Nat) ^ 27 = 2 ^ 54 := by norm_num
      omega
    exact Nat.pow_le_pow_right (by norm_num) (by omega)
  · unfold ceilSqrt
    simp only [h2, if_true, g6]

theorem ceilSqrt_pos {n : Nat} (h : 1 ≤ n) : 1 ≤ ceilSqrt n := by
  by_cases h2 : n < 2 ^ 64
  · obtain ⟨d, P, s, q, g1, g2, g3, _, g5, g6, g7, g8⟩ := ceilSqrt_unfold h h2
    have hP : 0 < P := by omega
    have hd : 1 ≤ d := by
      by_cases hs : n < 2 ^ 53
      · rw [g1 hs]; exact h
      · have := (g2 (by omega)).1; omega
    have hs1 : 1 ≤ s := by
      by_contra hc
      have : s = 0 := by omega
      subst this
      have : 1 * (1 * 1) ≤ d * (P * P) := Nat.mul_le_mul hd (Nat.mul_le_mul hP hP)
      omega
    have hq : 1 ≤ q := by rw [g7]; split <;> omega
    rw [g8, Nat.le_div_iff_mul_le hP]
    omega
  · unfold ceilSqrt
    simp only [h2, if_false]; exact h

theorem ceilSqrt_two {n : Nat} (h : 2 ≤ n) : 2 ≤ ceilSqrt n := by
  by_cases h2 : n < 2 ^ 64
  · obtain ⟨d, P, s, q, g1, g2, g3, _, g5, g6, g7, g8⟩ := ceilSqrt_unfold (by omega) h2
    have hP : 0 < P := by omega
    have hP2 : 2 ≤ P := by omega
    have hd : 2 ≤ d := by
      by_cases hs : n < 2 ^ 53
      · rw [g1 hs]; exact h
      · have := (g2 (by omega)).1; omega
    have hN : 2 * (P * P) ≤ d * (P * P) := Nat.mul_le_mul_right _ hd
    have hsP : P ≤ s := by
      by_contra hc
      have : (s + 1) * (s + 1) ≤ P * P := Nat.mul_le_mul (by omega) (by omega)
      omega
    have hPP : 2 * P ≤ P * P := Nat.mul_le_mul_right _ hP2
    have hq : P + 1 ≤ q := by
      rw [g7]
      by_cases hsp : s = P
      · subst hsp
        have : s * s + s < d * (s * s) := by omega
        simp only [this, if_true]
        omega
      · split <;> omega
    rw [g8, Nat.le_div_iff_mul_le hP]
    omega
  · unfold ceilSqrt
    simp only [h2, if_false]; exact h

theorem ceilSqrt_le (n : Nat) : ceilSqrt n ≤ n := by
  by_cases h2 : n < 2 ^ 64
  · by_cases h0 : n = 0
    · subst h0; decide
    by_cases h1 : n = 1
    · subst h1; decide
    obtain ⟨d, P, s, q, g1, g2, g3, _, g5, g6, g7, g8⟩ := ceilSqrt_unfold (by omega) h2
    have hP : 0 < P := by omega
    have hdn : d < n * n := by
      by_cases hs : n < 2 ^ 53
      · rw [g1 hs]
        have : n * 2 ≤ n * n := Nat.mul_le_mul_left n (by omega)
        omega
      · have := (g2 (by omega)).2
        have : 2 ^ 53 * 2 ^ 53 ≤ n * n := Nat.mul_le_mul (by omega) (by omega)
        have e : (2 : Nat) ^ 53 * 2 ^ 53 = 2 ^ 106 := by norm_num
        have e2 : (2 : Nat) ^ 64 < 2 ^ 106 := by norm_num
        omega
    have hs : s < n * P := by
      by_contra hc
      have h3 : (n * P) * (n * P) ≤ s * s := Nat.mul_le_mul (by omega) (by omega)
      have h4 : (n * P) * (n * P) = (n * n) * (P * P) := by ring
      have h5 : d * (P * P) < (n * n) * (P * P) :=
        Nat.mul_lt_mul_of_pos_right hdn (Nat.mul_pos hP hP)
      omega
    have hq : q ≤ n * P := by rw [g7]; split <;> omega
    rw [g8]
    have : (q + P - 1) / P < n + 1 := by
      rw [Nat.div_lt_iff_lt_mul hP]
      have : (n + 1) * P = n * P + P := by ring
      omega
    omega
  · unfold ceilSqrt
    simp only [h2, if_false]; exact le_refl _

/-- Up to `2 ^ 52` the value `ceilSqrt n` is the least `m` with `m * m >= n`: the square
root is rounded to a double that lies on the same side of every integer. -/
theorem ceilSqrt_spec (n : Nat) (hn : n ≤ 2 ^ 52) :
    n ≤ ceilSqrt n * ceilSqrt n ∧ ∀ k, k < ceilSqrt n → k * k < n := by
  by_cases h0 : n = 0
  · subst h0
    have : ceilSqrt 0 = 0 := by decide
    rw [this]
    exact ⟨le_refl _, fun k hk => by omega⟩
  have h2 : n < 2 ^ 64 := by omega
  have h53 : n < 2 ^ 53 := by omega
  obtain ⟨d, P, s, q, g1, _, g3, g4, g5, g6, g7, g8⟩ := ceilSqrt_unfold (by omega) h2
  have hd := g1 h53
  rw [hd] at g5 g6 g7
  clear hd g1
  have hP : 0 < P := by omega
  have hP26 := g4 hn
  have hPP : 0 < P * P := Nat.mul_pos hP hP
  constructor
  · -- the rounded root is not below the root of a count that is no square
    by_contra hc
    have hc2 : ceilSqrt n * ceilSqrt n + 1 ≤ n := by omega
    have hqc : q ≤ ceilSqrt n * P := by
      rw [g8]
      have := Nat.div_mul_le_self (q + P - 1) P
      have h3 := Nat.lt_div_mul_add hP (a := q + P - 1)
      omega
    have hsq : s ≤ q := by rw [g7]; split <;> omega
    have h5 : s * s ≤ (ceilSqrt n * P) * (ceilSqrt n * P) :=
      Nat.mul_le_mul (by omega) (by omega)
    have h6 : (ceilSqrt n * P) * (ceilSqrt n * P) = (ceilSqrt n * ceilSqrt n) * (P * P) := by
      ring
    have h7 : (ceilSqrt n * ceilSqrt n + 1) * (P * P) ≤ n * (P * P) :=
      Nat.mul_le_mul_right _ hc2
    have h8 : (ceilSqrt n * ceilSqrt n + 1) * (P * P)
        = (ceilSqrt n * ceilSqrt n) * (P * P) + P * P := by ring
    by_cases hq : s * s + s < n * (P * P)
    · simp only [hq, if_true] at g7
      have h9 : (s + 1) * (s + 1) ≤ (ceilSqrt n * P) * (ceilSqrt n * P) :=
        Nat.mul_le_mul (by omega) (by omega)
      omega
    · simp only [hq, if_false] at g7
      have hPs : P * P ≤ s := by omega
      have hPc : P ≤ ceilSqrt n := by
        by_contra hlt
        have : ceilSqrt n * P < P * P := Nat.mul_lt_mul_of_pos_right (by omega) hP
        omega
      have h10 : 2 ^ 26 * 2 ^ 26 ≤ ceilSqrt n * ceilSqrt n :=
        Nat.mul_le_mul (by omega) (by omega)
      have e : (2 : Nat) ^ 26 * 2 ^ 26 = 2 ^ 52 := by norm_num
      omega
  · intro k hk
    have hkq : k * P < q := by
      rw [g8] at hk
      have hk2 : k + 1 ≤ (q + P - 1) / P := hk
      have := (Nat.le_div_iff_mul_le hP).mp hk2
      have e : (k + 1) * P = k * P + P := by ring
      omega
    have hks : k * P ≤ s := by rw [g7] at hkq; split at hkq <;> omega
    have h3 : (k * P) * (k * P) ≤ s * s := Nat.mul_le_mul hks hks
    have h4 : (k * P) * (k * P) = (k * k) * (P * P) := by ring
    have hlt : (k * k) * (P * P) < n * (P * P) := by
      by_cases hc : k * P = s
      · by_cases hq : s * s + s < n * (P * P)
        · omega
        · simp only [hq, if_false] at g7
          omega
      · have : k * P + 1 ≤ s := by omega
        have h6 : (k * P + 1) * (k * P + 1) ≤ s * s := Nat.mul_le_mul this this
        have h7 : (k * P + 1) * (k * P + 1) = (k * P) * (k * P) + 2 * (k * P) + 1 := by ring
        omega
    exact Nat.lt_of_mul_lt_mul_right hlt

theorem sorted_getElem {l : List (Int × Int)} (h : l.Pairwise (fun p q => p.1 < q.1))
    {i k : Nat} {p q : Int × Int} (hp : l[i]? = some p) (hq : l[k]? = some q) (hik : i < k) :
    p.1 < q.1 := by
  rw [List.pairwise_iff_getElem] at h
  obtain ⟨hi, rfl⟩ := List.getElem?_eq_some_iff.mp hp
  obtain ⟨hk, rfl⟩ := List.getElem?_eq_some_iff.mp hq
  exact h i k hi hk hik

theorem mem_chunk {l : List (Int × Int)} {cs rem j : Nat} {p : Int × Int}
    (h : p ∈ chunk l cs rem j) :
    ∃ k, chunkStart cs rem j ≤ k ∧ k < chunkStart cs rem (j + 1) ∧ l[k]? = some p := by
  unfold chunk at h
  rw [List.mem_iff_getElem?] at h
  obtain ⟨i, hi⟩ := h
  rw [List.getElem?_take] at hi
  split at hi
  · rename_i hlt
    rw [List.getElem?_drop] at hi
    exact ⟨chunkStart cs rem j + i, by omega, by rw [chunkStart_succ]; omega, hi⟩
  · cases hi

theorem chunkKey_eq {l : List (Int × Int)} {cs rem j : Nat} {p : Int × Int}
    (h : l[chunkStart cs rem j]? = some p) : chunkKey l cs rem j = p.1 := by
  unfold chunkKey
  rw [List.headD_eq_head?_getD, List.head?_drop, h]
  rfl

theorem chunk_listOK {l : List (Int × Int)} {lo hi : Option Int} (hL : ListOK lo hi l)
    {cs rem m : Nat} (hcs : 1 ≤ cs) (htot : chunkStart cs rem m = l.length) {j : Nat}
    (hj : j < m) :
    ListOK (chunkLo l cs rem lo j) (chunkHi l cs rem m hi j) (chunk l cs rem j) := by
  refine ⟨?_, ?_⟩
  · intro p hp
    obtain ⟨k, hk1, hk2, hk3⟩ := mem_chunk hp
    have hmem : p ∈ l := List.mem_iff_getElem?.mpr ⟨k, hk3⟩
    refine ⟨?_, ?_⟩
    · unfold chunkLo
      split
      · exact (hL.1 p hmem).1
      · have hlt : chunkStart cs rem j < l.length := by
          have := (List.getElem?_eq_some_iff.mp hk3).1
          omega
        have hq : l[chunkStart cs rem j]? = some (l[chunkStart cs rem j]) :=
          List.getElem?_eq_getElem hlt
        rw [chunkKey_eq hq]
        simp only [aboveLo, decide_eq_true_eq]
        rcases Nat.eq_or_lt_of_le hk1 with e | e
        · rw [← e, hq] at hk3
          cases hk3
          exact le_refl _
        · exact le_of_lt (sorted_getElem hL.2 hq hk3 e)
    · unfold chunkHi
      split
      · exact (hL.1 p hmem).2
      · have hlt : chunkStart cs rem (j + 1) < l.length := by
          rw [← htot]
          exact chunkStart_lt cs rem hcs (by omega)
        have hq : l[chunkStart cs rem (j + 1)]? = some (l[chunkStart cs rem (j + 1)]) :=
          List.getElem?_eq_getElem hlt
        rw [chunkKey_eq hq]
        simp only [belowHi, decide_eq_true_eq]
        exact sorted_getElem hL.2 hk3 hq hk2
  · exact (hL.2.sublist (List.drop_sublist _ _)).sublist (List.take_sublist _ _)

theorem chunk_append_drop (l : List (Int × Int)) (cs rem j : Nat) :
    chunk l cs rem j ++ l.drop (chunkStart cs rem (j + 1)) = l.drop (chunkStart cs rem j) := by
  unfold chunk
  rw [chunkStart_succ, ← List.drop_drop, List.take_append_drop]

theorem chunk_head {l : List (Int × Int)} {cs rem j : Nat} {p : Int × Int} {t : List (Int × Int)}
    (h : chunk l cs rem j = p :: t) : chunkKey l cs rem j = p.1 := by
  unfold chunk at h
  unfold chunkKey
  cases hd : l.drop (chunkStart cs rem j) with
  | nil => rw [hd] at h; simp at h
  | cons q u =>
    rw [hd] at h
    cases hs : chunkSize cs rem j with
    | zero => rw [hs] at h; simp at h
    | succ z =>
      rw [hs] at h
      simp only [List.take_succ_cons, List.cons.injEq] at h
      rw [← h.1]
      rfl

theorem Grow.reflGrow (st : istree) : Grow st st := ⟨rfl, le_refl _, fun _ _ => rfl⟩

theorem Grow.thenGrow {s1 s2 s3 : istree} (h1 : Grow s1 s2) (h2 : Grow s2 s3) : Grow s1 s3 := by
  refine ⟨?_, le_trans h1.len h2.len, ?_⟩
  · rw [h2.rest, h1.rest]
  · intro x hx
    rw [h2.keep x (by have := h1.len; omega), h1.keep x hx]

theorem Fresh.top {N : Nat} {st : istree} (h : st.nodes.length ≤ N) : Fresh N st := by
  intro x n hx hn
  have := lt_of_getElem hn
  omega

theorem Fresh.fromBelow {N M : Nat} {st : istree} (h : Fresh N st) (hle : N ≤ M) : Fresh M st :=
  fun x n hx hn => h x n (by omega) hn

theorem Fresh.thenFresh {N : Nat} {s s1 : istree} (h : Fresh N s) (hg : Grow s s1)
    (h1 : Fresh s.nodes.length s1) : Fresh N s1 := by
  intro x n hx hn
  by_cases hlt : x < s.nodes.length
  · rw [hg.keep x hlt] at hn
    exact h x n hx hn
  · exact h1 x n (by omega) hn

theorem Fresh.setNodeBelow {N : Nat} {s : istree} (h : Fresh N s) {a : Nat} (ha : a < N)
    (n : Node) : Fresh N (s.setNode a n) := by
  intro x m hx hm
  rw [getElem_setNode_ne n (by omega)] at hm
  exact h x m hx hm

theorem Fresh.cons {a : Nat} {s : istree} (h : Fresh (a + 1) s) {n : Node}
    (hn : s.nodes[a]? = some n) (hk : keysWellFormed n = true) (hd : 2 ≤ n.degree) :
    Fresh a s := by
  intro x m hx hm
  by_cases hxa : x = a
  · subst hxa
    rw [hn] at hm
    cases hm
    exact ⟨hk, hd⟩
  · exact h x m (by omega) hm

theorem keysWellFormed_of_shape {n : Node} {lo hi : Option Int}
    (h : nodeShapeOK n lo hi = true) : keysWellFormed n = true := by
  simp only [nodeShapeOK, Bool.and_eq_true, Bool.or_eq_true, decide_eq_true_eq,
    beq_iff_eq] at h
  simp only [keysWellFormed, Bool.and_eq_true, Bool.or_eq_true, decide_eq_true_eq,
    beq_iff_eq]
  obtain ⟨⟨⟨⟨h1, _⟩, h3⟩, h4⟩, h5⟩ := h
  refine ⟨⟨⟨h1, h3⟩, h4⟩, ?_⟩
  rcases h5 with h5 | h5
  · exact Or.inl h5
  · exact Or.inr ⟨h5.1.1.1, h5.1.1.2⟩

theorem Grow.ext {st st1 : istree} (h : Grow st st1) (hf : Fresh st.nodes.length st1) (a : Nat) :
    Ext a st st1 := by
  refine ⟨h.rest, h.len, ?_, fun x n hx _ hn => hf x n hx hn⟩
  intro x n _ hx
  rw [h.keep x (lt_of_getElem hx)]
  exact hx

theorem Ext.reflExt (a : Nat) (st : istree) : Ext a st st :=
  ⟨rfl, le_refl _, fun _ _ _ h => h, fun x n hx _ hn => by
    have := lt_of_getElem hn
    omega⟩

theorem Ext.thenExt {a : Nat} {s1 s2 s3 : istree} (h1 : Ext a s1 s2) (h2 : Ext a s2 s3) :
    Ext a s1 s3 := by
  refine ⟨?_, le_trans h1.len h2.len, ?_, ?_⟩
  · rw [h2.rest, h1.rest]
  · intro x n hx h
    exact h2.keep x n hx (h1.keep x n hx h)
  · intro x n hx hxa hn
    by_cases hlt : x < s2.nodes.length
    · have h2x : s2.nodes[x]? = some (s2.nodes[x]) := List.getElem?_eq_getElem hlt
      have := h2.keep x _ hxa h2x
      rw [hn] at this
      cases this
      exact h1.fresh x _ hx hxa h2x
    · exact h2.fresh x n (by omega) hxa hn

theorem Ext.setNode (a : Nat) (st : istree) (n : Node) : Ext a st (st.setNode a n) := by
  refine ⟨rfl, by simp [istree.setNode], ?_, ?_⟩
  · intro x m hx h
    rw [getElem_setNode_ne n (Ne.symm hx)]
    exact h
  · intro x m hx hxa hm
    rw [getElem_setNode_ne n (Ne.symm hxa)] at hm
    have := lt_of_getElem hm
    omega

/-- The nodes allocated above the node at `a` while it is written are complete. -/
theorem Ext.freshAbove {a : Nat} {st st1 : istree} (h : Ext a st st1)
    (ha : st.nodes.length ≤ a + 1) : Fresh (a + 1) st1 :=
  fun x n hx hn => h.fresh x n (by omega) (by omega) hn

theorem Ext.grow {a : Nat} {st st1 st2 : istree} (h0 : Grow st st1) (h : Ext a st1 st2)
    (ha : st.nodes.length ≤ a) : Grow st st2 := by
  refine ⟨?_, le_trans h0.len h.len, ?_⟩
  · rw [h.rest, h0.rest]
  · intro x hx
    have h1 := h0.keep x hx
    have h2 : st.nodes[x]? = some (st.nodes[x]) := List.getElem?_eq_getElem hx
    rw [h2] at h1 ⊢
    exact h.keep x _ (by omega) h1

theorem Grow.alloc (st : istree) (n : Node) : Grow st (st.allocNode n).2 := by
  refine ⟨rfl, by simp [istree.allocNode], ?_⟩
  intro x hx
  simp [istree.allocNode, List.getElem?_append_left hx]

theorem allocNode_get (st : istree) (n : Node) :
    (st.allocNode n).2.nodes[st.nodes.length]? = some n := by
  simp [istree.allocNode]

theorem getNode_alloc (st : istree) (n : Node) :
    (st.allocNode n).2.getNode (st.allocNode n).1 = .ok n :=
  getNode_of_getElem (allocNode_get st n)

theorem leaf_chkSlots (rec : Option Int → Option Int → Nat → Option (List (Int × Int) × Bool))
    {n : Node} (a : Nat) (lo hi : Option Int) {pairs : List (Int × Int)}
    (hs : n.slots = Word.emptyVal :: pairs.map (fun p => Word.val p.2))
    (hk : n.keys = pairs.map (fun p => p.1)) :
    ∀ c i, i + c = pairs.length →
      chkSlots tol rec n a lo hi c (i + 1) = some (pairs.drop i, true) := by
  intro c
  induction c with
  | zero =>
    intro i h
    simp only [chkSlots]
    rw [List.drop_of_length_le (by omega)]
  | succ c ih =>
    intro i h
    have hi : i < pairs.length := by omega
    have hw : n.slots[i + 1]? = some (Word.val (pairs[i]).2) := by
      rw [hs]
      simp [List.getElem?_map, List.getElem?_eq_getElem hi]
    have hkey : keyAt n i = (pairs[i]).1 := by
      unfold keyAt
      rw [hk]
      simp [List.getD_eq_getElem?_getD, List.getElem?_map, List.getElem?_eq_getElem hi]
    simp only [chkSlots, hw, chkSlot, Nat.lt_add_left_iff_pos, Nat.zero_lt_one, if_true,
      Nat.add_sub_cancel, hkey, ih (i + 1) (by omega)]
    rw [List.drop_eq_getElem_cons hi]
    have hpos : 0 < i + 1 := by omega
    simp [hpos]

theorem Node.key_zero (n : Node) (h1 : 2 ≤ n.degree) (h2 : n.degree - 1 ≤ n.keys.length) :
    n.key 0 = .ok (keyAt n 0) := by
  simpa using Node.key_ok n 0 (by omega) h2

theorem Node.key_last (n : Node) (h1 : 2 ≤ n.degree) (h2 : n.degree - 1 ≤ n.keys.length) :
    n.key ((n.degree : Int) - 2) = .ok (keyAt n (n.degree - 2)) := by
  have h := Node.key_ok n (n.degree - 2) (by omega) h2
  have hc : ((n.degree - 2 : Nat) : Int) = (n.degree : Int) - 2 := by omega
  rw [hc] at h
  exact h

theorem pairs_keys_increasing {lo hi : Option Int} {pairs : List (Int × Int)}
    (hL : ListOK lo hi pairs) : keysIncreasing (pairs.map (fun p => p.1)) = true := by
  rw [keysIncreasing_iff, List.pairwise_map]
  exact hL.2

theorem keyAt_of_pairs {n : Node} {pairs : List (Int × Int)}
    (hk : n.keys = pairs.map (fun p => p.1)) {i : Nat} (hi : i < pairs.length) :
    keyAt n i = (pairs[i]).1 := by
  unfold keyAt
  rw [hk]
  simp [List.getD_eq_getElem?_getD, List.getElem?_map, List.getElem?_eq_getElem hi]

theorem chkNode_leaf {st : istree} {a : Nat} {leaf : Node} {lo hi : Option Int}
    {pairs : List (Int × Int)} (hget : st.nodes[a]? = some leaf)
    (hdeg : leaf.degree = pairs.length + 1) (hk : leaf.keys = pairs.map (fun p => p.1))
    (hs : leaf.slots = Word.emptyVal :: pairs.map (fun p => Word.val p.2))
    (hd : leaf.dirty = Dirty.clean) (hmin : leaf.minKey = keyAt leaf 0)
    (hmax : leaf.maxKey = keyAt leaf (pairs.length - 1)) (hL : ListOK lo hi pairs)
    (hne : 1 ≤ pairs.length) : chkNode tol 1 st lo hi a = some (pairs, false) := by
  have h0 : leaf.slots[0]? = some Word.emptyVal := by rw [hs]; simp
  have hall : ∀ rec, chkSlots tol rec leaf a lo hi (pairs.length + 1) 0 = some (pairs, true) := by
    intro rec
    have hsl : chkSlots tol rec leaf a lo hi pairs.length (0 + 1) = some (pairs.drop 0, true) :=
      leaf_chkSlots rec a lo hi hs hk pairs.length 0 (by omega)
    simp only [chkSlots, h0, chkSlot, hsl, List.drop_zero, List.nil_append, Bool.and_true]
  have hfirst : aboveLo lo (keyAt leaf 0) = true := by
    rw [keyAt_of_pairs hk (by omega)]
    exact (hL.1 _ (List.getElem_mem _)).1
  have hlastk : belowHi hi (keyAt leaf (pairs.length - 1)) = true := by
    rw [keyAt_of_pairs hk (by omega)]
    exact (hL.1 _ (List.getElem_mem _)).2
  have hinc : keysIncreasing (leaf.keys.take pairs.length) = true := by
    rw [hk, List.take_of_length_le (by simp)]
    exact pairs_keys_increasing hL
  have hslen : leaf.slots.length = pairs.length + 1 := by rw [hs]; simp
  have hklen : leaf.keys.length = pairs.length := by rw [hk]; simp
  have hshape : nodeShapeOK leaf lo hi = true := by
    simp only [nodeShapeOK, hdeg, Nat.add_sub_cancel, hinc, hmin, hmax, hfirst,
      show pairs.length + 1 - 2 = pairs.length - 1 by omega, hlastk, hslen, hklen,
      beq_self_eq_true, Bool.and_true, Bool.or_true, decide_eq_true_eq]
    simp
  simp only [chkNode, hget, hshape, if_true, hdeg, hall, hd]

theorem createLeaf_spec {st st1 : istree} {pairs : List (Int × Int)} {a : Nat}
    {lo hi : Option Int} (h : createLeaf st pairs = .ok (a, st1)) (hL : ListOK lo hi pairs) :
    a = st.nodes.length ∧ Grow st st1 ∧ chkNode tol 1 st1 lo hi a = some (pairs, false)
      ∧ Fresh st.nodes.length st1 := by
  unfold createLeaf at h
  simp only [createNode, bind, Except.bind, getNode_alloc] at h
  by_cases hinc : pairsIncreasing pairs = true
  swap
  · simp [assert, hinc, throw, throwThe, MonadExceptOf.throw] at h
  simp only [assert, hinc, if_true, pure, Except.pure] at h
  cases hp : pairs with
  | nil =>
    subst hp
    simp [Node.key, throw, throwThe, MonadExceptOf.throw] at h
  | cons p t =>
    have hlen : 1 ≤ pairs.length := by rw [hp]; simp
    have e1 := Node.key_zero
      { capacity := pairs.length + 1, degree := pairs.length + 1,
        keys := pairs.map (fun p => p.1),
        slots := Word.emptyVal :: pairs.map (fun p => Word.val p.2), minKey := 0, maxKey := 0,
        initSize := pairs.length, changeSum := 0, dirty := Dirty.clean, nextMarkAndCount := 0 }
      (by simp only; omega) (by simp)
    have e2 := Node.key_last
      { capacity := pairs.length + 1, degree := pairs.length + 1,
        keys := pairs.map (fun p => p.1),
        slots := Word.emptyVal :: pairs.map (fun p => Word.val p.2), minKey := 0, maxKey := 0,
        initSize := pairs.length, changeSum := 0, dirty := Dirty.clean, nextMarkAndCount := 0 }
      (by simp only; omega) (by simp)
    simp only [Nat.add_sub_cancel] at e1 e2 h
    rw [e1, e2] at h
    simp only [Except.ok.injEq, Prod.mk.injEq] at h
    obtain ⟨ha, hst⟩ := h
    have ha2 : a = st.nodes.length := by rw [← ha]; rfl
    have hchk : chkNode tol 1 st1 lo hi a = some (pairs, false) := by
      subst hst
      subst ha2
      exact chkNode_leaf (getElem_setNode_same _ (by simp [istree.allocNode])) rfl rfl rfl rfl
        rfl rfl hL hlen
    refine ⟨ha2, ?_, hp ▸ hchk, ?_⟩
    · rw [← hst]
      refine ⟨rfl, by simp [istree.setNode, istree.allocNode], ?_⟩
      intro x hx
      simp only [istree.setNode, istree.allocNode, List.getElem?_set]
      have hne : ¬ st.nodes.length = x := by omega
      simp [hne, List.getElem?_append_left hx]
    · intro x n hx hn
      have hlen1 : st1.nodes.length = st.nodes.length + 1 := by
        rw [← hst]
        simp [istree.setNode, istree.allocNode]
      have hxa : x = a := by
        have := lt_of_getElem hn
        omega
      subst hxa
      obtain ⟨n1, r2, hn1, hok, _, _, _⟩ := chkNode_succ_some hchk
      rw [hn] at hn1
      cases hn1
      refine ⟨keysWellFormed_of_shape hok, ?_⟩
      rw [← hst, ha2] at hn
      simp only [istree.setNode, istree.allocNode, List.length_append, List.length_singleton,
        Nat.lt_add_one, List.getElem?_set_self, Option.some.injEq] at hn
      rw [← hn]
      simp only
      omega

theorem Filled.zero (F : Nat) (st : istree) (a : Nat) (n : Node) (l : List (Int × Int))
    (cs rem m : Nat) (lo hi : Option Int) : Filled tol F st a n l cs rem m lo hi 0 :=
  ⟨fun j hj => absurd hj (by omega), fun j _ hj => absurd hj (by omega)⟩

theorem Filled.stepFilled {F F1 : Nat} {st st1 : istree} {a : Nat} {n : Node} (n2 : Node)
    {l : List (Int × Int)} {cs rem m : Nat} {lo hi : Option Int} {i : Nat} {w : Word} {d : Bool}
    (h : Filled tol F st a n l cs rem m lo hi i)
    (hk : ∀ x y, a < x → st.nodes[x]? = some y → st1.nodes[x]? = some y)
    (hw : chkWord tol F1 st1 a (chunkLo l cs rem lo i) (chunkHi l cs rem m hi i) w
      = some (chunk l cs rem i, d))
    (hs : n2.slots = n.slots.set i w) (hi1 : i < n.slots.length)
    (hkeys : n2.keys = if 0 < i then n.keys.set (i - 1) (chunkKey l cs rem i) else n.keys)
    (hi2 : 0 < i → i - 1 < n.keys.length) :
    Filled tol (max F F1) st1 a n2 l cs rem m lo hi (i + 1) := by
  refine ⟨?_, ?_⟩
  · intro j hj
    by_cases hji : j = i
    · subst hji
      refine ⟨w, d, ?_, chkWord_mono st1 (le_max_right _ _) hw⟩
      rw [hs]
      simp [List.getElem?_set, hi1]
    · obtain ⟨w0, d0, h1, h2⟩ := h.slot j (by omega)
      refine ⟨w0, d0, ?_, chkWord_mono st1 (le_max_left _ _) (chkWord_ext hk h2)⟩
      rw [hs, List.getElem?_set_ne (Ne.symm hji)]
      exact h1
  · intro j hj1 hj2
    unfold keyAt
    rw [hkeys]
    by_cases hji : j = i
    · subst hji
      have hpos : 0 < j := by omega
      simp only [hpos, if_true]
      rw [List.getD_eq_getElem?_getD, List.getElem?_set_self (hi2 hpos)]
      rfl
    · have := h.key j hj1 (by omega)
      unfold keyAt at this
      split
      · rw [List.getD_eq_getElem?_getD, List.getElem?_set_ne (by omega),
          ← List.getD_eq_getElem?_getD]
        exact this
      · exact this

theorem Filled.mono {F : Nat} {st st1 : istree} {a : Nat} {n n2 : Node}
    {l : List (Int × Int)} {cs rem m : Nat} {lo hi : Option Int} {i : Nat}
    (h : Filled tol F st a n l cs rem m lo hi i)
    (hk : ∀ x y, a < x → st.nodes[x]? = some y → st1.nodes[x]? = some y)
    (hs : n2.slots = n.slots) (hkeys : n2.keys = n.keys) :
    Filled tol F st1 a n2 l cs rem m lo hi i := by
  refine ⟨?_, ?_⟩
  · intro j hj
    obtain ⟨w0, d0, h1, h2⟩ := h.slot j hj
    exact ⟨w0, d0, by rw [hs]; exact h1, chkWord_ext hk h2⟩
  · intro j hj1 hj2
    have := h.key j hj1 hj2
    unfold keyAt at this ⊢
    rw [hkeys]
    exact this

theorem keysIncreasing_take {n : Node} {k : Nat} (hk : k ≤ n.keys.length)
    (h : ∀ i j, i < j → j < k → keyAt n i < keyAt n j) :
    keysIncreasing (n.keys.take k) = true := by
  rw [keysIncreasing_iff, List.pairwise_iff_getElem]
  intro i j hi hj hij
  simp only [List.length_take] at hi hj
  have h1 := h i j hij (by omega)
  unfold keyAt at h1
  rw [List.getD_eq_getElem?_getD, List.getD_eq_getElem?_getD,
    List.getElem?_eq_getElem (by omega), List.getElem?_eq_getElem (by omega)] at h1
  simpa [List.getElem_take] using h1

theorem chunkKey_mem {l : List (Int × Int)} {cs rem m : Nat} (hcs : 1 ≤ cs)
    (htot : chunkStart cs rem m = l.length) {j : Nat} (hj : j < m) :
    ∃ p, l[chunkStart cs rem j]? = some p ∧ chunkKey l cs rem j = p.1 := by
  have hlt : chunkStart cs rem j < l.length := by
    rw [← htot]
    exact chunkStart_lt cs rem hcs hj
  exact ⟨_, List.getElem?_eq_getElem hlt, chunkKey_eq (List.getElem?_eq_getElem hlt)⟩

theorem chkNode_of_filled {F : Nat} {st : istree} {a : Nat} {n : Node} {l : List (Int × Int)}
    {cs rem m : Nat} {lo hi : Option Int} (hget : st.nodes[a]? = some n)
    (hf : Filled tol F st a n l cs rem m lo hi m) (hdeg : n.degree = m) (hm : 2 ≤ m)
    (hsl : m ≤ n.slots.length) (hkl : m - 1 ≤ n.keys.length) (hd : n.dirty = Dirty.clean)
    (hmin : n.minKey = keyAt n 0) (hmax : n.maxKey = keyAt n (m - 2)) (hL : ListOK lo hi l)
    (hcs : 1 ≤ cs) (htot : chunkStart cs rem m = l.length) :
    chkNode tol (F + 1) st lo hi a = some (l, false) := by
  have hkey : ∀ j, 1 ≤ j → j < m → ∃ p, l[chunkStart cs rem j]? = some p ∧
      keyAt n (j - 1) = p.1 := by
    intro j h1 h2
    obtain ⟨p, hp1, hp2⟩ := chunkKey_mem hcs htot h2
    exact ⟨p, hp1, by rw [hf.key j h1 h2, hp2]⟩
  have hlo : ∀ j, j < m → slotLo n lo j = chunkLo l cs rem lo j := by
    intro j hj
    unfold slotLo chunkLo
    split
    · rfl
    · rw [hf.key j (by omega) hj]
  have hhi : ∀ j, j < m → slotHi n hi j = chunkHi l cs rem m hi j := by
    intro j hj
    unfold slotHi chunkHi
    rw [hdeg]
    split
    · rfl
    · have := hf.key (j + 1) (by omega) (by omega)
      simp only [Nat.add_sub_cancel] at this
      rw [this]
  have hslots : ∀ c i, i + c = m → ∃ d,
      chkSlots tol (chkNode tol F st) n a lo hi c i = some (l.drop (chunkStart cs rem i), d) := by
    intro c
    induction c with
    | zero =>
      intro i hi0
      refine ⟨true, ?_⟩
      simp only [chkSlots]
      rw [List.drop_of_length_le]
      rw [← htot]
      exact chunkStart_le cs rem (by omega)
    | succ c ih =>
      intro i hi0
      obtain ⟨w, d, hw1, hw2⟩ := hf.slot i (by omega)
      obtain ⟨d2, h2⟩ := ih (i + 1) (by omega)
      have hnv : ∀ v, w ≠ Word.val v := by
        intro v e
        subst e
        simp [chkWord] at hw2
      refine ⟨d && d2, ?_⟩
      simp only [chkSlots, hw1, chkSlot_eq_chkWord F st n a lo hi i w hnv, hlo i (by omega),
        hhi i (by omega), hw2, h2, chunk_append_drop]
  have hshape : nodeShapeOK n lo hi = true := by
    have hinc : keysIncreasing (n.keys.take (m - 1)) = true := by
      apply keysIncreasing_take hkl
      intro i j hij hj
      obtain ⟨p, hp1, hp2⟩ := hkey (i + 1) (by omega) (by omega)
      obtain ⟨q, hq1, hq2⟩ := hkey (j + 1) (by omega) (by omega)
      simp only [Nat.add_sub_cancel] at hp2 hq2
      rw [hp2, hq2]
      exact sorted_getElem hL.2 hp1 hq1 (chunkStart_lt cs rem hcs (by omega))
    obtain ⟨p, hp1, hp2⟩ := hkey 1 (by omega) (by omega)
    obtain ⟨q, hq1, hq2⟩ := hkey (m - 1) (by omega) (by omega)
    have h1 : aboveLo lo (keyAt n 0) = true := by
      rw [show (0 : Nat) = 1 - 1 from rfl, hp2]
      exact (hL.1 p (List.mem_iff_getElem?.mpr ⟨_, hp1⟩)).1
    have h2 : belowHi hi (keyAt n (m - 2)) = true := by
      rw [show m - 2 = m - 1 - 1 by omega, hq2]
      exact (hL.1 q (List.mem_iff_getElem?.mpr ⟨_, hq1⟩)).2
    simp only [nodeShapeOK, hdeg, hinc, hmin, hmax, h1, h2, beq_self_eq_true, Bool.and_true,
      Bool.or_true, decide_eq_true_eq]
    simp
    omega
  obtain ⟨d, hall⟩ := hslots m 0 (by omega)
  rw [chunkStart_zero, List.drop_zero] at hall
  rw [← hdeg] at hall
  simp only [chkNode, hget, hshape, if_true, hall, hd]

theorem Node.setPtr_ok (n : Node) (i : Nat) (w : Word) (h1 : i < n.degree)
    (h2 : i < n.slots.length) :
    n.setPtr (i : Int) w = .ok { n with slots := n.slots.set i w } := by
  unfold Node.setPtr
  have hb : (0 : Int) ≤ (i : Int) ∧ (i : Int) < (n.degree : Int)
      ∧ ((i : Int)).toNat < n.slots.length := by
    refine ⟨by omega, by omega, ?_⟩
    simpa using h2
  simp only [hb, and_self, if_true, Int.toNat_ofNat]
  simp [h2, pure, Except.pure]

theorem Node.setKey_ok (n : Node) (i : Nat) (k : Int) (h1 : 0 < i) (h2 : i - 1 < n.keys.length) :
    n.setKey ((i : Int) - 1) k = .ok { n with keys := n.keys.set (i - 1) k } := by
  unfold Node.setKey
  have hc : (i : Int) - 1 = ((i - 1 : Nat) : Int) := by omega
  rw [hc]
  have hb : (0 : Int) ≤ ((i - 1 : Nat) : Int) ∧ (((i - 1 : Nat) : Int)).toNat < n.keys.length := by
    refine ⟨by omega, ?_⟩
    simpa using h2
  simp only [hb, and_self, if_true, Int.toNat_ofNat]
  simp [h2, pure, Except.pure]

theorem buildChildren_spec {fuel d : Nat} (hB : BuildSpec tol fuel) {a : Nat}
    {l : List (Int × Int)} {cs rem m : Nat} {lo hi : Option Int} (hL : ListOK lo hi l)
    (hcs : 1 ≤ cs) (htot : chunkStart cs rem m = l.length) :
    ∀ (cnt i : Nat) (st st2 : istree) (n : Node) (F : Nat), i + cnt = m →
      st.nodes[a]? = some n → n.degree = m → n.slots.length = m → n.keys.length = m - 1 →
      Filled tol F st a n l cs rem m lo hi i →
      buildChildren (fun s ps => build fuel s ps d) a cs rem cnt i
        (l.drop (chunkStart cs rem i)) st = .ok st2 →
      Ext a st st2 ∧ ∃ n2 F2, st2.nodes[a]? = some n2 ∧ n2.degree = m ∧ n2.slots.length = m
        ∧ n2.keys.length = m - 1 ∧ n2.dirty = n.dirty
        ∧ Filled tol F2 st2 a n2 l cs rem m lo hi m := by
  intro cnt
  induction cnt with
  | zero =>
    intro i st st2 n F hi0 hget hdeg hsl hkl hf hrun
    simp only [buildChildren, pure, Except.pure, Except.ok.injEq] at hrun
    subst hrun
    have : i = m := by omega
    subst this
    exact ⟨Ext.reflExt _ _, n, F, hget, hdeg, hsl, hkl, rfl, hf⟩
  | succ cnt ih =>
    intro i st st2 n F hi0 hget hdeg hsl hkl hf hrun
    have him : i < m := by omega
    simp only [buildChildren, bind, Except.bind] at hrun
    cases hb : build fuel st (List.take (cs + if i < rem then 1 else 0)
        (l.drop (chunkStart cs rem i))) d with
    | error e => simp [hb] at hrun
    | ok p =>
      obtain ⟨child, st1⟩ := p
      simp only [hb] at hrun
      have hLc := chunk_listOK hL hcs htot him
      obtain ⟨hchild, hgrow, hfresh, F1, hchk⟩ := hB st st1 _ d child _ _ hb hLc
      have hlt := lt_of_getElem hget
      have hget1 : st1.nodes[a]? = some n := by rw [hgrow.keep a hlt]; exact hget
      have hsp := Node.setPtr_ok n i (Word.node child) (by omega) (by omega)
      simp only [getNode_of_getElem hget1, hsp] at hrun
      have hsize : cs + (if i < rem then 1 else 0) = chunkSize cs rem i := rfl
      have hdrop : List.drop (cs + if i < rem then 1 else 0) (l.drop (chunkStart cs rem i))
          = l.drop (chunkStart cs rem (i + 1)) := by
        rw [List.drop_drop, chunkStart_succ, hsize]
      rw [hdrop] at hrun
      have hkeep : ∀ x y, a < x → st.nodes[x]? = some y →
          (st1.setNode a
            (if 0 < i then { n with slots := n.slots.set i (Word.node child),
                                    keys := n.keys.set (i - 1) (chunkKey l cs rem i) }
             else { n with slots := n.slots.set i (Word.node child) })).nodes[x]? = some y := by
        intro x y hx hy
        rw [getElem_setNode_ne _ (by omega), hgrow.keep x (lt_of_getElem hy)]
        exact hy
      have hw : chkWord tol F1
          (st1.setNode a
            (if 0 < i then { n with slots := n.slots.set i (Word.node child),
                                    keys := n.keys.set (i - 1) (chunkKey l cs rem i) }
             else { n with slots := n.slots.set i (Word.node child) }))
          a (chunkLo l cs rem lo i) (chunkHi l cs rem m hi i)
          (Word.node child) = some (chunk l cs rem i, false) := by
        have hac : a < child := by omega
        simp only [chkWord, hac, if_true]
        exact chkNode_ext (fun x y hx hy => by rw [getElem_setNode_ne _ (by omega)]; exact hy)
          F1 _ _ child _ hac hchk
      have hrun2 : buildChildren (fun s ps => build fuel s ps d) a cs rem cnt (i + 1)
          (l.drop (chunkStart cs rem (i + 1)))
          (st1.setNode a
            (if 0 < i then { n with slots := n.slots.set i (Word.node child),
                                    keys := n.keys.set (i - 1) (chunkKey l cs rem i) }
             else { n with slots := n.slots.set i (Word.node child) })) = .ok st2 := by
        by_cases hpos : 0 < i
        · simp only [hpos, if_true] at hrun ⊢
          cases hcs2 : l.drop (chunkStart cs rem i) with
          | nil => simp [hcs2, throw, throwThe, MonadExceptOf.throw] at hrun
          | cons q t =>
            simp only [hcs2] at hrun
            have hk := Node.setKey_ok { n with slots := n.slots.set i (Word.node child) } i q.1
              hpos (by simp only; omega)
            simp only [hk] at hrun
            have hq : chunkKey l cs rem i = q.1 := by
              unfold chunkKey
              rw [hcs2]
              rfl
            rw [hq]
            exact hrun
        · simp only [hpos, if_false] at hrun ⊢
          exact hrun
      have hstep := Filled.stepFilled (if 0 < i then
          { n with slots := n.slots.set i (Word.node child),
                   keys := n.keys.set (i - 1) (chunkKey l cs rem i) }
          else { n with slots := n.slots.set i (Word.node child) }) hf hkeep hw
        (by split <;> rfl) (by omega) (by split <;> rfl) (by intro h; omega)
      obtain ⟨hext, n2, F2, g1, g2, g3, g4, g5, g6⟩ := ih (i + 1) _ st2 _ _ (by omega)
        (getElem_setNode_same _ (lt_of_getElem hget1)) (by split <;> exact hdeg)
        (by split <;> simp [hsl]) (by split <;> simp [hkl]) hstep hrun2
      refine ⟨(hgrow.ext hfresh a).thenExt ((Ext.setNode a st1 _).thenExt hext), n2, F2, g1, g2, g3, g4, ?_,
        g6⟩
      rw [g5]
      split <;> rfl

theorem Node.key_zero_degree {n : Node} {k : Int} (h : n.key 0 = .ok k) : 2 ≤ n.degree := by
  unfold Node.key at h
  split at h
  · omega
  · cases h

theorem createNode_spec (st : istree) (m : Nat) :
    ∃ n, createNode st m = (st.nodes.length, { st with nodes := st.nodes ++ [n] })
      ∧ n.degree = 0 ∧ n.capacity = m ∧ n.slots = List.replicate m Word.null
      ∧ n.keys.length = m - 1 ∧ n.dirty = Dirty.clean :=
  ⟨_, rfl, rfl, rfl, rfl, by simp, rfl⟩

theorem getNode_append (st : istree) (n : Node) :
    ({ st with nodes := st.nodes ++ [n] } : istree).getNode st.nodes.length = .ok n :=
  getNode_of_getElem (by simp)

theorem Grow.append (st : istree) (n : Node) :
    Grow st { st with nodes := st.nodes ++ [n] } := Grow.alloc st n

theorem build_spec : ∀ fuel, BuildSpec tol fuel := by
  intro fuel
  induction fuel with
  | zero => intro st st1 pset d a lo hi h; cases h
  | succ fuel ih =>
    intro st st1 pset d a lo hi h hL
    simp only [build] at h
    split at h
    · obtain ⟨h1, h2, h3, h4⟩ := createLeaf_spec h hL
      exact ⟨h1, h2, h4, 1, h3⟩
    · rename_i hbig
      have hlen : 1 ≤ pset.length := by omega
      have hm1 := ceilSqrt_pos hlen
      have hcs : 1 ≤ pset.length / ceilSqrt pset.length :=
        Nat.div_pos (ceilSqrt_le _) (by omega)
      have htot := chunkStart_total pset.length (ceilSqrt pset.length) hm1
      obtain ⟨n0, hcn, hn1, hn2, hn3, hn4, hn5⟩ := createNode_spec st (ceilSqrt pset.length)
      simp only [createMultiCounterNode, ite_self, hcn, bind, Except.bind, getNode_append] at h
      have hgrow := Grow.append st n0
      cases hbc : buildChildren (fun s ps => build fuel s ps (1 + d)) st.nodes.length
          (pset.length / ceilSqrt pset.length) (pset.length % ceilSqrt pset.length)
          (ceilSqrt pset.length) 0 pset
          (({ st with nodes := st.nodes ++ [n0] } : istree).setNode st.nodes.length
            { n0 with degree := ceilSqrt pset.length, initSize := pset.length }) with
      | error e => simp [hbc] at h
      | ok st3 =>
        simp only [hbc] at h
        have hbc2 : buildChildren (fun s ps => build fuel s ps (1 + d)) st.nodes.length
          (pset.length / ceilSqrt pset.length) (pset.length % ceilSqrt pset.length)
          (ceilSqrt pset.length) 0 (pset.drop (chunkStart (pset.length / ceilSqrt pset.length)
            (pset.length % ceilSqrt pset.length) 0))
          (({ st with nodes := st.nodes ++ [n0] } : istree).setNode st.nodes.length
            { n0 with degree := ceilSqrt pset.length, initSize := pset.length }) = .ok st3 := by
          rw [chunkStart_zero, List.drop_zero]
          exact hbc
        obtain ⟨hext, n3, F3, g1, g2, g3, g4, g5, g6⟩ := buildChildren_spec ih hL hcs htot
          (ceilSqrt pset.length) 0 _ st3 _ 0 (by omega)
          (getElem_setNode_same _ (by simp)) rfl (by simp [hn3]) (by simp [hn4])
          (Filled.zero _ _ _ _ _ _ _ _ _ _) hbc2
        simp only [getNode_of_getElem g1] at h
        cases hk0 : n3.key 0 with
        | error e => simp [hk0] at h
        | ok k0 =>
          have hm2 : 2 ≤ ceilSqrt pset.length := by
            rw [← g2]; exact Node.key_zero_degree hk0
          rw [Node.key_zero n3 (by omega) (by omega),
            Node.key_last n3 (by omega) (by omega)] at h
          simp only [pure, Except.pure, Except.ok.injEq, Prod.mk.injEq] at h
          obtain ⟨ha, hst⟩ := h
          subst ha hst
          have hext2 : Ext st.nodes.length
              (({ st with nodes := st.nodes ++ [n0] } : istree).setNode st.nodes.length
                { n0 with degree := ceilSqrt pset.length, initSize := pset.length })
              (st3.setNode st.nodes.length
                { n3 with minKey := keyAt n3 0, maxKey := keyAt n3 (n3.degree - 2) }) :=
            hext.thenExt (Ext.setNode _ _ _)
          have hnf : (st3.setNode st.nodes.length
              { n3 with minKey := keyAt n3 0, maxKey := keyAt n3 (n3.degree - 2) }).nodes[
                st.nodes.length]?
              = some { n3 with minKey := keyAt n3 0, maxKey := keyAt n3 (n3.degree - 2) } :=
            getElem_setNode_same _ (lt_of_getElem g1)
          have hchk : chkNode tol (F3 + 1) (st3.setNode st.nodes.length
              { n3 with minKey := keyAt n3 0, maxKey := keyAt n3 (n3.degree - 2) }) lo hi
              st.nodes.length = some (pset, false) := by
            refine chkNode_of_filled hnf
              (g6.mono (fun x y hx hy => by rw [getElem_setNode_ne _ (by omega)]; exact hy) rfl rfl)
              g2 hm2 (by simp [g3]) (by simp [g4]) ?_ rfl (by rw [g2]; rfl) hL hcs htot
            simp only [g5, hn5]
          obtain ⟨nf, _, hnf2, hokf, _, _, _⟩ := chkNode_succ_some hchk
          rw [hnf] at hnf2
          cases hnf2
          exact ⟨rfl, Ext.grow hgrow ((Ext.setNode _ _ _).thenExt hext2) (le_refl _),
            Fresh.cons (Ext.freshAbove hext2 (by simp [istree.setNode])) hnf
              (keysWellFormed_of_shape hokf) (by simp only; omega), F3 + 1, hchk⟩

theorem chkNode_keep {st st1 : istree}
    (h : ∀ (x : Nat) (n : Node), st.nodes[x]? = some n → st1.nodes[x]? = some n) :
    ∀ f lo hi b r, chkNode tol f st lo hi b = some r → chkNode tol f st1 lo hi b = some r := by
  intro f
  induction f with
  | zero => intro lo hi b r hc; simp [chkNode] at hc
  | succ f ih =>
    intro lo hi b r hc
    obtain ⟨n, r2, hn, hok, hsl, hr1, hcase⟩ := chkNode_succ_some hc
    have hn1 := h b n hn
    have hsl1 := chkSlots_ext (a := b) (fun lo2 hi2 c r3 _ h3 => ih lo2 hi2 c r3 h3) n lo hi
      n.degree 0 r2 hsl
    rw [← hc]
    simp only [chkNode, hn, hn1, hsl, hsl1]

theorem Grow.keepSome {st st1 : istree} (h : Grow st st1) {x : Nat} {n : Node}
    (hx : st.nodes[x]? = some n) : st1.nodes[x]? = some n := by
  rw [h.keep x (lt_of_getElem hx)]
  exact hx

theorem getCASWord_spec {b : IdealBuilder} {fuel : Nat} {st st1 : istree} {cs : SlotRef}
    {w : Word} {lo hi : Option Int} {m : Nat}
    (h : b.getCASWord fuel st cs = .ok (w, st1)) (hcs : st.readRef cs = .ok Word.null)
    (hL : ListOK lo hi b.pairs) (hm : m < st.nodes.length) :
    Grow st st1 ∧ Fresh st.nodes.length st1 ∧ w ≠ Word.null
      ∧ ∃ F d, chkWord tol F st1 m lo hi w = some (b.pairs, d) := by
  have hnn : (Word.null != Word.null) = false := by decide
  simp only [IdealBuilder.getCASWord, bind, Except.bind, hcs, hnn, Bool.false_eq_true,
    if_false] at h
  split at h
  · rename_i hp
    simp only [pure, Except.pure, Except.ok.injEq, Prod.mk.injEq] at h
    obtain ⟨e1, e2⟩ := h
    subst e1 e2
    exact ⟨Grow.reflGrow _, Fresh.top (le_refl _), by simp, 0, true, by rw [hp]; rfl⟩
  · rename_i p hp
    simp only [pure, Except.pure, Except.ok.injEq, Prod.mk.injEq] at h
    obtain ⟨e1, e2⟩ := h
    subst e1 e2
    refine ⟨Grow.reflGrow _, Fresh.top (le_refl _), by simp, 0, true, ?_⟩
    rw [hp] at hL ⊢
    have := hL.1 p (by simp)
    simp [chkWord, this.1, this.2]
  · cases hb : build fuel st b.pairs b.depth with
    | error e => simp [hb] at h
    | ok q =>
      obtain ⟨a, s⟩ := q
      simp only [hb, pure, Except.pure, Except.ok.injEq, Prod.mk.injEq] at h
      obtain ⟨e1, e2⟩ := h
      subst e1 e2
      obtain ⟨ha, hg, hfr, F, hF⟩ := build_spec fuel st s b.pairs b.depth a lo hi hb hL
      refine ⟨hg, hfr, by simp, F, false, ?_⟩
      have hma : m < a := by omega
      simp only [chkWord, hma, if_true]
      exact hF

/-! ## The concurrent construction of an ideal subtree -/

theorem subtreeBuildAndReplace_spec {fuel : Nat} {st st4 : istree} {o a ix cs rem m f F : Nat}
    {op : RebuildOperation} {l : List (Int × Int)} {lo hi lo0 hi0 : Option Int} {d0 : Bool}
    {n : Node} (hop : st.getOp o = .ok op)
    (hold : chkNode tol f st lo0 hi0 op.rebuildRoot = some (l, d0))
    (hL : ListOK lo hi l) (hcs : 1 ≤ cs) (htot : chunkStart cs rem m = l.length) (hix : ix < m)
    (hres : Reserved st a n m ix) (hdeg : n.degree = ix + 1)
    (hfill : Filled tol F st a n l cs rem m lo hi ix)
    (hrun : subtreeBuildAndReplace fuel st o a ix cs rem = .ok st4) :
    Ext a st st4 ∧ ∃ n4 F4, Reserved st4 a n4 m (ix + 1) ∧ n4.degree = ix + 1
      ∧ Filled tol F4 st4 a n4 l cs rem m lo hi (ix + 1) := by
  have hget := getNode_of_getElem hres.get
  have hnull : n.slots[ix]? = some Word.null := hres.free ix (le_refl _) hix
  have hptr : n.ptr (ix : Int) = .ok Word.null := Node.ptr_ok n ix _ (by omega) hnull
  have hcsr : st.readRef (SlotRef.slot a (ix : Int)) = .ok Word.null := by
    simp only [istree.readRef, bind, Except.bind, hget, hptr]
  have hnn : (Word.null != Word.null) = false := by decide
  simp only [subtreeBuildAndReplace, bind, Except.bind, hop] at hrun
  cases hsub : addKVPairsSubset st (SlotRef.slot a (ix : Int)) fuel op.rebuildRoot
      ⟨ix * cs + (if ix < rem then ix else rem), cs + (if ix < rem then 1 else 0),
        ⟨cs + (if ix < rem then 1 else 0), 1 + op.depth, []⟩⟩ with
  | error e => simp [hsub] at hrun
  | ok s =>
    simp only [hsub, hget, hptr, hnn, Bool.false_eq_true, if_false] at hrun
    have hs := addKVPairsSubset_spec st _ hcsr f fuel lo0 hi0 _ _ _ s hold hsub
    have hpairs : s.b.pairs = chunk l cs rem ix := by
      rw [hs]
      simp [subsetResult, chunk, chunkStart, chunkSize]
    cases hcas : s.b.getCASWord fuel st (SlotRef.slot a (ix : Int)) with
    | error e => simp [hcas] at hrun
    | ok q =>
      obtain ⟨w, st1⟩ := q
      simp only [hcas] at hrun
      have hLc := chunk_listOK hL hcs htot hix
      rw [← hpairs] at hLc
      obtain ⟨hgrow, hfresh, hwn, F1, d1, hw⟩ :=
        getCASWord_spec hcas hcsr hLc (lt_of_getElem hres.get)
      rw [hpairs] at hw
      simp only [hwn, if_false] at hrun
      have hget1 : st1.nodes[a]? = some n := hgrow.keepSome hres.get
      have hwn2 : (w != Word.null) = true := by simpa using hwn
      -- the rest of the function, from the state `st2` in which the key is written
      have fin : ∀ st2 n2, st2.nodes[a]? = some n2 → Ext a st1 st2 →
          n2 = (if 0 < ix then { n with keys := n.keys.set (ix - 1) (chunkKey l cs rem ix) }
            else n) →
          ((casPtr st2 a (ix : Int) Word.null w
              = .ok (true, st2.setNode a { n2 with slots := n2.slots.set ix w })) ∧
           (st2.setNode a { n2 with slots := n2.slots.set ix w }).getNode a
              = .ok { n2 with slots := n2.slots.set ix w } ∧
           ({ n2 with slots := n2.slots.set ix w } : Node).ptr (ix : Int) = .ok w) ∧
          (st4 = st2.setNode a { n2 with slots := n2.slots.set ix w } →
            Ext a st st4 ∧ ∃ n4 F4, Reserved st4 a n4 m (ix + 1) ∧ n4.degree = ix + 1
              ∧ Filled tol F4 st4 a n4 l cs rem m lo hi (ix + 1)) := by
        intro st2 n2 hget2 hext2 hn2
        have hslots2 : n2.slots = n.slots := by rw [hn2]; split <;> rfl
        have hdeg2 : n2.degree = n.degree := by rw [hn2]; split <;> rfl
        have hptr2 : n2.ptr (ix : Int) = .ok Word.null :=
          Node.ptr_ok n2 ix _ (by omega) (by rw [hslots2]; exact hnull)
        have hsp := Node.setPtr_ok n2 ix w (by omega) (by rw [hslots2, hres.slots]; exact hix)
        have hget3 : (st2.setNode a { n2 with slots := n2.slots.set ix w }).nodes[a]?
            = some { n2 with slots := n2.slots.set ix w } :=
          getElem_setNode_same _ (lt_of_getElem hget2)
        have hptr3 : ({ n2 with slots := n2.slots.set ix w } : Node).ptr (ix : Int) = .ok w :=
          Node.ptr_ok _ ix _ (by simp only; omega)
            (by simp [List.getElem?_set, hslots2, hres.slots, hix])
        refine ⟨⟨?_, getNode_of_getElem hget3, hptr3⟩, ?_⟩
        · simp only [casPtr, bind, Except.bind, getNode_of_getElem hget2, hptr2, if_true, hsp,
            pure, Except.pure]
        intro hst4
        subst hst4
        have hext : Ext a st (st2.setNode a { n2 with slots := n2.slots.set ix w }) :=
          (hgrow.ext hfresh a).thenExt (hext2.thenExt (Ext.setNode _ _ _))
        refine ⟨hext, _, max F F1, ⟨hget3, ?_, ?_, ?_, ?_, ?_⟩, by simp only; omega, ?_⟩
        · rw [hn2]; split <;> exact hres.cap
        · simp only [List.length_set, hslots2]; exact hres.slots
        · rw [hn2]; split
          · simp only [List.length_set]; exact hres.keys
          · exact hres.keys
        · rw [hn2]; split <;> exact hres.dirty
        · intro j hj1 hj2
          simp only [hslots2]
          rw [List.getElem?_set_ne (by omega)]
          exact hres.free j (by omega) hj2
        · refine Filled.stepFilled (w := w) (d := d1) _ hfill (fun x y hx hy => hext.keep x y (by omega) hy) ?_
            (by simp only [hslots2]) (by rw [hres.slots]; exact hix)
            (by rw [hn2]; split <;> rfl) (by intro h; have := hres.keys; omega)
          exact chkWord_ext (fun x y hx hy =>
            (hext2.thenExt (Ext.setNode _ _ _)).keep x y (by omega) hy) hw
      by_cases hpos : 0 < ix
      · have hpos2 : ix > 0 := hpos
        simp only [hpos2, if_true] at hrun
        cases hmk : s.b.getMinKey with
        | error e => simp [hmk] at hrun
        | ok mk =>
          simp only [hmk, getNode_of_getElem hget1] at hrun
          have hmk2 : mk = chunkKey l cs rem ix := by
            unfold IdealBuilder.getMinKey at hmk
            rw [hpairs] at hmk
            cases hch : chunk l cs rem ix with
            | nil => simp [hch, throw, throwThe, MonadExceptOf.throw] at hmk
            | cons p t =>
              simp only [hch, pure, Except.pure, Except.ok.injEq] at hmk
              rw [chunk_head hch, hmk]
          subst hmk2
          have hk := Node.setKey_ok n ix (chunkKey l cs rem ix) hpos
            (by have := hres.keys; omega)
          simp only [hk, pure, Except.pure] at hrun
          obtain ⟨⟨c1, c2, c3⟩, c4⟩ := fin
            (st1.setNode a { n with keys := n.keys.set (ix - 1) (chunkKey l cs rem ix) })
            { n with keys := n.keys.set (ix - 1) (chunkKey l cs rem ix) }
            (getElem_setNode_same _ (lt_of_getElem hget1)) (Ext.setNode _ _ _)
            (by simp only [hpos, if_true])
          simp only [c1, if_true, c2, c3, assert, hwn2, pure, Except.pure, Except.ok.injEq]
            at hrun
          exact c4 hrun.symm
      · have hpos2 : ¬ ix > 0 := hpos
        simp only [hpos2, if_false, pure, Except.pure] at hrun
        obtain ⟨⟨c1, c2, c3⟩, c4⟩ := fin st1 n hget1 (Ext.reflExt _ _)
          (by simp only [hpos, if_false])
        simp only [c1, if_true, c2, c3, assert, hwn2, pure, Except.pure, Except.ok.injEq]
          at hrun
        exact c4 hrun.symm

theorem Grow.chk {s0 st : istree} (h : Grow s0 st) {f : Nat} {lo hi : Option Int} {b : Nat}
    {r : List (Int × Int) × Bool} (hc : chkNode tol f s0 lo hi b = some r) :
    chkNode tol f st lo hi b = some r :=
  chkNode_keep (fun _ _ hx => h.keepSome hx) f lo hi b r hc

theorem Ext.ops {a : Nat} {st st1 : istree} (h : Ext a st st1) : st1.ops = st.ops := by
  rw [h.rest]

theorem Ext.getOp {a : Nat} {st st1 : istree} (h : Ext a st st1) (o : Nat) :
    st1.getOp o = st.getOp o := by
  unfold istree.getOp
  rw [h.ops]

theorem reserveLoop_spec {fuel o a cs rem m f : Nat} {s0 : istree} {op : RebuildOperation}
    {l : List (Int × Int)} {lo hi lo0 hi0 : Option Int} {d0 : Bool}
    (hold : chkNode tol f s0 lo0 hi0 op.rebuildRoot = some (l, d0)) (ha : s0.nodes.length ≤ a)
    (hL : ListOK lo hi l) (hcs : 1 ≤ cs) (htot : chunkStart cs rem m = l.length) :
    ∀ (cnt : Nat) (st st2 : istree) (n : Node) (ix F : Nat), Grow s0 st →
      st.getOp o = .ok op → Reserved st a n m ix → n.degree = ix → ix ≤ m →
      Filled tol F st a n l cs rem m lo hi ix →
      reserveLoop fuel o a cs rem cnt st = .ok st2 →
      Ext a st st2 ∧ ∃ n2 F2, Reserved st2 a n2 m m ∧ n2.degree = m
        ∧ Filled tol F2 st2 a n2 l cs rem m lo hi m := by
  intro cnt
  induction cnt with
  | zero => intro st st2 n ix F _ _ _ _ _ _ hrun; cases hrun
  | succ cnt ih =>
    intro st st2 n ix F hgrow hop hres hdeg hle hfill hrun
    simp only [reserveLoop, bind, Except.bind, getNode_of_getElem hres.get] at hrun
    split at hrun
    · rename_i hge
      simp only [pure, Except.pure, Except.ok.injEq] at hrun
      subst hrun
      have : ix = m := by have := hres.cap; omega
      subst this
      exact ⟨Ext.reflExt _ _, n, F, hres, hdeg, hfill⟩
    · rename_i hlt
      have hixm : ix < m := by have := hres.cap; omega
      cases hsb : subtreeBuildAndReplace fuel (st.setNode a { n with degree := 1 + n.degree }) o a
          n.degree cs rem with
      | error e => simp [hsb] at hrun
      | ok st1 =>
        simp only [hsb] at hrun
        have hext1 : Ext a st (st.setNode a { n with degree := 1 + n.degree }) :=
          Ext.setNode _ _ _
        have hres1 : Reserved (st.setNode a { n with degree := 1 + n.degree }) a
            { n with degree := 1 + n.degree } m ix :=
          ⟨getElem_setNode_same _ (lt_of_getElem hres.get), hres.cap, hres.slots, hres.keys,
            hres.dirty, hres.free⟩
        have hgrow1 := Ext.grow hgrow hext1 ha
        have hfill1 : Filled tol F (st.setNode a { n with degree := 1 + n.degree }) a
            { n with degree := 1 + n.degree } l cs rem m lo hi ix :=
          hfill.mono (fun x y hx hy => hext1.keep x y (by omega) hy) rfl rfl
        rw [hdeg] at hext1 hres1 hgrow1 hfill1 hsb
        obtain ⟨hext2, n4, F4, hres4, hdeg4, hfill4⟩ := subtreeBuildAndReplace_spec
          (by rw [hext1.getOp]; exact hop) (hgrow1.chk hold) hL hcs htot hixm hres1
          (by simp only; omega) hfill1 hsb
        have hgrow4 := Ext.grow hgrow (hext1.thenExt hext2) ha
        obtain ⟨hext3, r⟩ := ih st1 st2 n4 (ix + 1) F4 hgrow4
          (by rw [hext2.getOp, hext1.getOp]; exact hop) hres4 hdeg4 (by omega) hfill4 hrun
        exact ⟨hext1.thenExt (hext2.thenExt hext3), r⟩

theorem helpLoop_spec {fuel o a cs rem m ix : Nat} {st : istree} {n : Node}
    (hget : st.nodes[a]? = some n)
    (hfull : ∀ j w, n.ptr (j : Int) = .ok w → w ≠ Word.null) :
    ∀ (cnt i0 : Nat) (st2 : istree),
      helpLoop fuel o a cs rem m ix cnt i0 st = .ok st2 → st2 = st := by
  intro cnt
  induction cnt with
  | zero =>
    intro i0 st2 hrun
    simp only [helpLoop, pure, Except.pure, Except.ok.injEq] at hrun
    exact hrun.symm
  | succ cnt ih =>
    intro i0 st2 hrun
    simp only [helpLoop, bind, Except.bind, getNode_of_getElem hget] at hrun
    cases hp : n.ptr (((i0 + ix) % m : Nat) : Int) with
    | error e =>
      simp only [hp] at hrun
      cases hrun
    | ok w =>
      simp only [hp] at hrun
      have hw := hfull _ w hp
      simp only [hw, if_false, pure, Except.pure] at hrun
      exact ih (i0 + 1) st2 hrun

theorem getOp_eq_ok {st : istree} {o : Nat} {op : RebuildOperation} :
    st.getOp o = .ok op ↔ st.ops[o]? = some op := by
  unfold istree.getOp
  cases h : st.ops[o]? with
  | none => simp [throw, throwThe, MonadExceptOf.throw]
  | some m => simp [pure, Except.pure]

theorem getOp_setOp_same {st : istree} {o : Nat} {op : RebuildOperation}
    (h : st.getOp o = .ok op) (op1 : RebuildOperation) :
    (st.setOp o op1).getOp o = .ok op1 := by
  rw [getOp_eq_ok] at h ⊢
  have hlt := (List.getElem?_eq_some_iff.mp h).1
  simp [istree.setOp, List.getElem?_set, hlt]

theorem chkNode_nodes {st st1 : istree} (h : st1.nodes = st.nodes) (f : Nat)
    (lo hi : Option Int) (b : Nat) : chkNode tol f st1 lo hi b = chkNode tol f st lo hi b := by
  have h1 : ∀ r, chkNode tol f st lo hi b = some r → chkNode tol f st1 lo hi b = some r :=
    chkNode_keep (fun x n hx => by rw [h]; exact hx) f lo hi b
  have h2 : ∀ r, chkNode tol f st1 lo hi b = some r → chkNode tol f st lo hi b = some r :=
    chkNode_keep (fun x n hx => by rw [← h]; exact hx) f lo hi b
  cases hc : chkNode tol f st lo hi b with
  | some r => exact h1 r hc
  | none =>
    cases hc1 : chkNode tol f st1 lo hi b with
    | none => rfl
    | some r => rw [h2 r hc1] at hc; cases hc

theorem chkWord_nodes {st st1 : istree} (h : st1.nodes = st.nodes) (f m : Nat)
    (lo hi : Option Int) (w : Word) : chkWord tol f st1 m lo hi w = chkWord tol f st m lo hi w := by
  cases w with
  | node b => simp only [chkWord, chkNode_nodes h]
  | emptyVal => rfl
  | val v => rfl
  | kvpair k v => rfl
  | null => rfl
  | rebuildop o => rfl

/-- Single-threaded, for at most `MAX_ACCEPTABLE_LEAF_SIZE` keys `createIdealConcurrent`
returns a word for a well-formed subtree, and it has stored the word in the descriptor unless
there is no key. -/
theorem createIdealConcurrent_small_full {fuel : Nat} {st st1 : istree} {o keyCount f m0 : Nat}
    {op : RebuildOperation} {l : List (Int × Int)} {lo hi lo0 hi0 : Option Int} {d0 : Bool}
    {w : Word} (hop : st.getOp o = .ok op) (hnr : op.newRoot = Word.null)
    (hold : chkNode tol f st lo0 hi0 op.rebuildRoot = some (l, d0)) (hcount : keyCount = l.length)
    (hL : ListOK lo hi l) (hm0 : m0 < st.nodes.length)
    (hsmall : keyCount = 0 ∨ keyCount ≤ st.MAX_ACCEPTABLE_LEAF_SIZE)
    (hrun : createIdealConcurrent fuel st o keyCount = .ok (w, st1)) :
    (w ≠ Word.null ∧ (∃ F d, chkWord tol F st1 m0 lo hi w = some (l, d)) ∧ Built st st1 o op)
      ∧ st1.getOp o = .ok { op with newRoot := if keyCount = 0 then Word.null else w } := by
  have hne : (Word.null = Word.emptyVal) = False := by simp
  have hnn : (Word.null != Word.null) = false := by decide
  simp only [createIdealConcurrent, bind, Except.bind, hop, hnr, hne, if_false, hnn,
    Bool.false_eq_true] at hrun
  by_cases h0 : keyCount = 0
  · simp only [h0, if_true, pure, Except.pure, Except.ok.injEq, Prod.mk.injEq] at hrun
    obtain ⟨e1, e2⟩ := hrun
    subst e1 e2
    have hl : l = [] := List.length_eq_zero.mp (by omega)
    subst hl
    refine ⟨⟨by simp, ⟨0, true, rfl⟩, rfl, le_refl _, fun _ _ => rfl, ⟨op.newRoot, ?_⟩,
      Fresh.top (le_refl _)⟩, ?_⟩
    · rw [hop]
    · rw [hop, if_pos h0, ← hnr]
  · have hs : keyCount ≤ st.MAX_ACCEPTABLE_LEAF_SIZE := by
      rcases hsmall with h | h
      · exact absurd h h0
      · exact h
    simp only [h0, if_false, hs, if_true] at hrun
    cases hadd : addKVPairs st fuel (Word.node op.rebuildRoot) ⟨keyCount, op.depth, []⟩ with
    | error e => simp [hadd] at hrun
    | ok b1 =>
      simp only [hadd] at hrun
      have hb1 := addKVPairs_spec st f fuel lo0 hi0 _ _ _ b1 hold hadd
      simp only [List.nil_append] at hb1
      cases hcas : b1.getCASWord fuel st SlotRef.localNull with
      | error e => simp [hcas] at hrun
      | ok q =>
        obtain ⟨w1, s1⟩ := q
        simp only [hcas] at hrun
        have hpairs : b1.pairs = l := by rw [hb1]
        have hL1 : ListOK lo hi b1.pairs := by rw [hpairs]; exact hL
        obtain ⟨hgrow, hfresh, hwn, F, d, hw⟩ := getCASWord_spec hcas rfl hL1 hm0
        rw [hpairs] at hw
        have hwn2 : (w1 != Word.null) = true := by simpa using hwn
        have hop1 : s1.getOp o = .ok op := by
          rw [← hop]
          unfold istree.getOp
          rw [hgrow.rest]
        simp only [assert, hwn2, if_true, pure, Except.pure, hop1, hnr,
          getOp_setOp_same hop1, Bool.or_true, decide_True, hs] at hrun
        simp only [Except.ok.injEq, Prod.mk.injEq] at hrun
        obtain ⟨e1, e2⟩ := hrun
        subst e1 e2
        refine ⟨⟨hwn, ⟨F, d, ?_⟩, ?_, ?_, ?_, ⟨w1, ?_⟩, ?_⟩, ?_⟩
        · exact (chkWord_nodes (show (s1.setOp o _).nodes = s1.nodes from rfl) F m0 lo hi
            w1).trans hw
        · rw [hgrow.rest]
          rfl
        · exact hgrow.len
        · exact hgrow.keep
        · exact getOp_setOp_same hop1 _
        · exact fun x n hx hn => hfresh x n hx hn
        · rw [if_neg h0]
          exact getOp_setOp_same hop1 _

theorem createIdealConcurrent_small {fuel : Nat} {st st1 : istree} {o keyCount f m0 : Nat}
    {op : RebuildOperation} {l : List (Int × Int)} {lo hi lo0 hi0 : Option Int} {d0 : Bool}
    {w : Word} (hop : st.getOp o = .ok op) (hnr : op.newRoot = Word.null)
    (hold : chkNode tol f st lo0 hi0 op.rebuildRoot = some (l, d0)) (hcount : keyCount = l.length)
    (hL : ListOK lo hi l) (hm0 : m0 < st.nodes.length)
    (hsmall : keyCount = 0 ∨ keyCount ≤ st.MAX_ACCEPTABLE_LEAF_SIZE)
    (hrun : createIdealConcurrent fuel st o keyCount = .ok (w, st1)) :
    w ≠ Word.null ∧ (∃ F d, chkWord tol F st1 m0 lo hi w = some (l, d)) ∧ Built st st1 o op :=
  (createIdealConcurrent_small_full hop hnr hold hcount hL hm0 hsmall hrun).1

/-- Single-threaded, for more than `MAX_ACCEPTABLE_LEAF_SIZE` keys `createIdealConcurrent`
returns a new node with `ceil(sqrt(keyCount))` slots, all filled: child `j` holds the chunk
`j` of the in-order list, and the key before it is the first key of that chunk. -/
theorem createIdealConcurrent_large_full {fuel : Nat} {st st1 : istree} {o keyCount f : Nat}
    {op : RebuildOperation} {l : List (Int × Int)} {lo hi lo0 hi0 : Option Int} {d0 : Bool}
    {w : Word} (hop : st.getOp o = .ok op) (hnr : op.newRoot = Word.null)
    (hold : chkNode tol f st lo0 hi0 op.rebuildRoot = some (l, d0)) (hcount : keyCount = l.length)
    (hL : ListOK lo hi l)
    (h0 : ¬ keyCount = 0) (hbig : ¬ keyCount ≤ st.MAX_ACCEPTABLE_LEAF_SIZE)
    (hrun : createIdealConcurrent fuel st o keyCount = .ok (w, st1)) :
    ∃ (n : Node) (F : Nat), (w = Word.node st.nodes.length
      ∧ st1.nodes[st.nodes.length]? = some n
      ∧ n.capacity = ceilSqrt keyCount ∧ n.degree = ceilSqrt keyCount
      ∧ n.slots.length = ceilSqrt keyCount ∧ n.keys.length = ceilSqrt keyCount - 1
      ∧ n.initSize = keyCount ∧ n.dirty = Dirty.clean ∧ 2 ≤ ceilSqrt keyCount
      ∧ Filled tol F st1 st.nodes.length n l (keyCount / ceilSqrt keyCount)
          (keyCount % ceilSqrt keyCount) (ceilSqrt keyCount) lo hi (ceilSqrt keyCount)
      ∧ chkNode tol (F + 1) st1 lo hi st.nodes.length = some (l, false)
      ∧ Built st st1 o op)
      ∧ st1.getOp o = .ok { op with newRoot := w }
      ∧ keyAt n 0 ≠ st.INF_KEY ∧ keyAt n (n.degree - 2) ≠ st.INF_KEY := by
  have hne : (Word.null = Word.emptyVal) = False := by simp
  have hnn : (Word.null != Word.null) = false := by decide
  have hlen : 1 ≤ keyCount := by omega
  have hm1 := ceilSqrt_pos hlen
  have hcs : 1 ≤ keyCount / ceilSqrt keyCount := Nat.div_pos (ceilSqrt_le _) (by omega)
  have htot : chunkStart (keyCount / ceilSqrt keyCount) (keyCount % ceilSqrt keyCount)
      (ceilSqrt keyCount) = l.length := by
    rw [← hcount]; exact chunkStart_total keyCount (ceilSqrt keyCount) hm1
  obtain ⟨n0, hcn, hn1, hn2, hn3, hn4, hn5⟩ := createNode_spec st (ceilSqrt keyCount)
  simp only [createIdealConcurrent, bind, Except.bind, hop, hnr, hne, if_false, hnn,
    Bool.false_eq_true, h0, hbig, createMultiCounterNode, ite_self, hcn, getNode_append,
    pure, Except.pure] at hrun
  have hop1 : ((({ st with nodes := st.nodes ++ [n0] } : istree).setNode st.nodes.length
      { n0 with slots := List.replicate n0.capacity Word.null, degree := 0 })).getOp o
      = .ok op := hop
  have hnode : (Word.node st.nodes.length != Word.null) = true := by simp
  have hget1 : ((({ st with nodes := st.nodes ++ [n0] } : istree).setNode st.nodes.length
      { n0 with slots := List.replicate n0.capacity Word.null, degree := 0 }).setOp o
      { op with newRoot := Word.node st.nodes.length }).nodes[st.nodes.length]?
      = some { n0 with slots := List.replicate n0.capacity Word.null, degree := 0 } := by
    simp [istree.setOp, istree.setNode]
  simp only [hop1, hnr, if_true, getOp_setOp_same hop1, assert, IS_KVPAIR, IS_NODE,
    Bool.false_or, decide_eq_true_eq, hbig, if_false, pure, Except.pure, istree.derefWord,
    bind, Except.bind, hnode, getNode_of_getElem hget1] at hrun
  generalize hs1 : ((({ st with nodes := st.nodes ++ [n0] } : istree).setNode st.nodes.length
      { n0 with slots := List.replicate n0.capacity Word.null, degree := 0 }).setOp o
      { op with newRoot := Word.node st.nodes.length }) = s1 at hrun hget1
  have hgrow : Grow (st.setOp o { op with newRoot := Word.node st.nodes.length }) s1 := by
    rw [← hs1]
    refine ⟨rfl, by simp [istree.setOp, istree.setNode], ?_⟩
    intro x hx
    have hx2 : x < st.nodes.length := hx
    have hne2 : ¬ st.nodes.length = x := by omega
    simp [istree.setOp, istree.setNode, List.getElem?_set, hne2, List.getElem?_append_left hx2]
  have hop2 : s1.getOp o = .ok { op with newRoot := Word.node st.nodes.length } := by
    rw [← hs1]; exact getOp_setOp_same hop1 _
  have hold2 : chkNode tol f (st.setOp o { op with newRoot := Word.node st.nodes.length }) lo0 hi0
      ({ op with newRoot := Word.node st.nodes.length } : RebuildOperation).rebuildRoot
      = some (l, d0) := by
    rw [chkNode_nodes (show (st.setOp o _).nodes = st.nodes from rfl)]
    exact hold
  have hres : Reserved s1 st.nodes.length
      { n0 with slots := List.replicate n0.capacity Word.null, degree := 0 }
      (ceilSqrt keyCount) 0 := by
    refine ⟨hget1, hn2, by simp [hn2], hn4, hn5, ?_⟩
    intro j _ hj
    simp [hn2, List.getElem?_replicate, hj]
  simp only [hn2, if_true] at hrun
  cases hrl : reserveLoop fuel o st.nodes.length (keyCount / ceilSqrt keyCount)
      (keyCount % ceilSqrt keyCount) (ceilSqrt keyCount + 1) s1 with
  | error e => simp [hrl] at hrun
  | ok st2 =>
    simp only [hrl] at hrun
    obtain ⟨hext, n2, F2, hres2, hdeg2, hfill2⟩ := reserveLoop_spec hold2
      (show (st.setOp o { op with newRoot := Word.node st.nodes.length }).nodes.length
        ≤ st.nodes.length from le_refl _) hL hcs htot
      (ceilSqrt keyCount + 1) s1 st2 _ 0 0 hgrow hop2 hres rfl (by omega)
      (Filled.zero _ _ _ _ _ _ _ _ _ _) hrl
    have hfull : ∀ (j : Int) (w : Word), n2.ptr j = .ok w → w ≠ Word.null := by
      intro j w hp
      unfold Node.ptr at hp
      split at hp
      swap
      · cases hp
      rename_i hb
      have hj : j.toNat < ceilSqrt keyCount := by omega
      obtain ⟨w2, d2, hw1, hw2⟩ := hfill2.slot j.toNat hj
      simp only [hw1, pure, Except.pure, Except.ok.injEq] at hp
      subst hp
      intro e
      subst e
      simp [chkWord] at hw2
    cases hhl : helpLoop fuel o st.nodes.length (keyCount / ceilSqrt keyCount)
        (keyCount % ceilSqrt keyCount) (ceilSqrt keyCount) (st2.rngNext % ceilSqrt keyCount)
        (ceilSqrt keyCount) 0 st2 with
    | error e => simp [hhl] at hrun
    | ok st3 =>
      simp only [hhl] at hrun
      have hst3 := helpLoop_spec hres2.get hfull _ _ _ hhl
      subst hst3
      simp only [getNode_of_getElem hres2.get] at hrun
      cases hk0 : n2.key 0 with
      | error e => simp [hk0] at hrun
      | ok k0 =>
        have hm2 : 2 ≤ ceilSqrt keyCount := by
          rw [← hdeg2]; exact Node.key_zero_degree hk0
        have hkl : n2.degree - 1 ≤ n2.keys.length := by
          rw [hdeg2, hres2.keys]
        rw [Node.key_zero n2 (by omega) hkl, Node.key_last n2 (by omega) hkl] at hrun
        by_cases c1 : (keyAt n2 0 != st.INF_KEY) = true
        swap
        · simp [c1, throw, throwThe, MonadExceptOf.throw] at hrun
        by_cases c2 : (keyAt n2 (n2.degree - 2) != st.INF_KEY) = true
        swap
        · simp [c1, c2, throw, throwThe, MonadExceptOf.throw] at hrun
        by_cases c3 : keyAt n2 0 ≤ keyAt n2 (n2.degree - 2)
        swap
        · simp [c1, c2, c3, throw, throwThe, MonadExceptOf.throw] at hrun
        simp only [c1, c2, c3, if_true, Except.ok.injEq, Prod.mk.injEq] at hrun
        obtain ⟨e1, e2⟩ := hrun
        subst e1 e2
        have hext2 := hext.thenExt (Ext.setNode st.nodes.length st3
          { n2 with initSize := keyCount, minKey := keyAt n2 0,
                    maxKey := keyAt n2 (n2.degree - 2) })
        have hgrow2 := Ext.grow hgrow hext2 (le_refl _)
        have hnf : (st3.setNode st.nodes.length
            { n2 with initSize := keyCount, minKey := keyAt n2 0,
                      maxKey := keyAt n2 (n2.degree - 2) }).nodes[st.nodes.length]?
            = some { n2 with initSize := keyCount, minKey := keyAt n2 0,
                             maxKey := keyAt n2 (n2.degree - 2) } :=
          getElem_setNode_same _ (lt_of_getElem hres2.get)
        have hchk : chkNode tol (F2 + 1) (st3.setNode st.nodes.length
            { n2 with initSize := keyCount, minKey := keyAt n2 0,
                      maxKey := keyAt n2 (n2.degree - 2) }) lo hi st.nodes.length
            = some (l, false) :=
          chkNode_of_filled hnf
            (hfill2.mono (fun x y hx hy => by rw [getElem_setNode_ne _ (by omega)]; exact hy)
              rfl rfl)
            hdeg2 hm2 (by simp [hres2.slots]) (by simp [hres2.keys]) hres2.dirty rfl
            (by rw [hdeg2]; rfl) hL hcs htot
        obtain ⟨nf, _, hnf2, hokf, _, _, _⟩ := chkNode_succ_some hchk
        rw [hnf] at hnf2
        cases hnf2
        have hlen1 : s1.nodes.length ≤ st.nodes.length + 1 := by
          rw [← hs1]
          simp [istree.setOp, istree.setNode]
        refine ⟨_, F2, ⟨rfl, hnf, hres2.cap, hdeg2, hres2.slots, hres2.keys, rfl, hres2.dirty, hm2,
          hfill2.mono (fun x y hx hy => by rw [getElem_setNode_ne _ (by omega)]; exact hy)
            rfl rfl, hchk, ?_, ?_, ?_, ⟨Word.node st.nodes.length, ?_⟩, ?_⟩, ?_, ?_, ?_⟩
        · rw [hgrow2.rest]
          rfl
        · exact hgrow2.len
        · exact hgrow2.keep
        · rw [hext2.getOp]
          exact hop2
        · exact Fresh.cons (Ext.freshAbove hext2 hlen1) hnf (keysWellFormed_of_shape hokf)
            (by simp only; omega)
        · rw [hext2.getOp]
          exact hop2
        · have : keyAt n2 0 ≠ st.INF_KEY := by simpa using c1
          exact this
        · have : keyAt n2 (n2.degree - 2) ≠ st.INF_KEY := by simpa using c2
          exact this

/-- Single-threaded, for more than `MAX_ACCEPTABLE_LEAF_SIZE` keys `createIdealConcurrent`
returns a new node with `ceil(sqrt(keyCount))` slots, all filled: child `j` holds the chunk
`j` of the in-order list, and the key before it is the first key of that chunk. -/
theorem createIdealConcurrent_large_node {fuel : Nat} {st st1 : istree} {o keyCount f : Nat}
    {op : RebuildOperation} {l : List (Int × Int)} {lo hi lo0 hi0 : Option Int} {d0 : Bool}
    {w : Word} (hop : st.getOp o = .ok op) (hnr : op.newRoot = Word.null)
    (hold : chkNode tol f st lo0 hi0 op.rebuildRoot = some (l, d0)) (hcount : keyCount = l.length)
    (hL : ListOK lo hi l)
    (h0 : ¬ keyCount = 0) (hbig : ¬ keyCount ≤ st.MAX_ACCEPTABLE_LEAF_SIZE)
    (hrun : createIdealConcurrent fuel st o keyCount = .ok (w, st1)) :
    ∃ (n : Node) (F : Nat), w = Word.node st.nodes.length
      ∧ st1.nodes[st.nodes.length]? = some n
      ∧ n.capacity = ceilSqrt keyCount ∧ n.degree = ceilSqrt keyCount
      ∧ n.slots.length = ceilSqrt keyCount ∧ n.keys.length = ceilSqrt keyCount - 1
      ∧ n.initSize = keyCount ∧ n.dirty = Dirty.clean ∧ 2 ≤ ceilSqrt keyCount
      ∧ Filled tol F st1 st.nodes.length n l (keyCount / ceilSqrt keyCount)
          (keyCount % ceilSqrt keyCount) (ceilSqrt keyCount) lo hi (ceilSqrt keyCount)
      ∧ chkNode tol (F + 1) st1 lo hi st.nodes.length = some (l, false)
      ∧ Built st st1 o op := by
  obtain ⟨n, F, h, _⟩ := createIdealConcurrent_large_full hop hnr hold hcount hL h0 hbig hrun
  exact ⟨n, F, h⟩

theorem createIdealConcurrent_large {fuel : Nat} {st st1 : istree} {o keyCount f m0 : Nat}
    {op : RebuildOperation} {l : List (Int × Int)} {lo hi lo0 hi0 : Option Int} {d0 : Bool}
    {w : Word} (hop : st.getOp o = .ok op) (hnr : op.newRoot = Word.null)
    (hold : chkNode tol f st lo0 hi0 op.rebuildRoot = some (l, d0)) (hcount : keyCount = l.length)
    (hL : ListOK lo hi l) (hm0 : m0 < st.nodes.length)
    (h0 : ¬ keyCount = 0) (hbig : ¬ keyCount ≤ st.MAX_ACCEPTABLE_LEAF_SIZE)
    (hrun : createIdealConcurrent fuel st o keyCount = .ok (w, st1)) :
    w ≠ Word.null ∧ (∃ F d, chkWord tol F st1 m0 lo hi w = some (l, d)) ∧ Built st st1 o op := by
  obtain ⟨n, F, hw, _, _, _, _, _, _, _, _, _, hchk, hb⟩ :=
    createIdealConcurrent_large_node hop hnr hold hcount hL h0 hbig hrun
  subst hw
  refine ⟨by simp, ⟨F + 1, false, ?_⟩, hb⟩
  simp only [chkWord, hm0, if_true]
  exact hchk

/-- Single-threaded, `createIdealConcurrent` returns a word that roots a well-formed subtree
with the in-order list of the subtree being rebuilt. -/
theorem createIdealConcurrent_spec {fuel : Nat} {st st1 : istree} {o keyCount f m0 : Nat}
    {op : RebuildOperation} {l : List (Int × Int)} {lo hi lo0 hi0 : Option Int} {d0 : Bool}
    {w : Word} (hop : st.getOp o = .ok op) (hnr : op.newRoot = Word.null)
    (hold : chkNode tol f st lo0 hi0 op.rebuildRoot = some (l, d0)) (hcount : keyCount = l.length)
    (hL : ListOK lo hi l) (hm0 : m0 < st.nodes.length)
    (hrun : createIdealConcurrent fuel st o keyCount = .ok (w, st1)) :
    w ≠ Word.null ∧ (∃ F d, chkWord tol F st1 m0 lo hi w = some (l, d)) ∧ Built st st1 o op := by
  by_cases h0 : keyCount = 0
  · exact createIdealConcurrent_small hop hnr hold hcount hL hm0 (Or.inl h0) hrun
  · by_cases hs : keyCount ≤ st.MAX_ACCEPTABLE_LEAF_SIZE
    · exact createIdealConcurrent_small hop hnr hold hcount hL hm0 (Or.inr hs) hrun
    · exact createIdealConcurrent_large hop hnr hold hcount hL hm0 h0 hs hrun

/-! ## Well-formed subtrees: key ranges that are apart -/

theorem LikeNode.reflLike (n : Node) : LikeNode n n := ⟨rfl, rfl, rfl, rfl, rfl, rfl⟩

theorem LikeNode.thenLike {n n1 n2 : Node} (h1 : LikeNode n n1) (h2 : LikeNode n1 n2) :
    LikeNode n n2 :=
  ⟨h2.degree.trans h1.degree, h2.keys.trans h1.keys, h2.slots.trans h1.slots,
    h2.minKey.trans h1.minKey, h2.maxKey.trans h1.maxKey, h2.dirty.trans h1.dirty⟩

theorem chkSlot_like {rec : Option Int → Option Int → Nat → Option (List (Int × Int) × Bool)}
    {n n1 : Node} (h : LikeNode n n1) (a : Nat) (lo hi : Option Int) (i : Nat) (w : Word) :
    chkSlot tol rec n1 a lo hi i w = chkSlot tol rec n a lo hi i w := by
  cases w <;> simp [chkSlot, slotLo, slotHi, keyAt, pickKey, h.keys, h.degree]

theorem chkSlots_like {rec : Option Int → Option Int → Nat → Option (List (Int × Int) × Bool)}
    {n n1 : Node} (h : LikeNode n n1) (a : Nat) (lo hi : Option Int) :
    ∀ c i, chkSlots tol rec n1 a lo hi c i = chkSlots tol rec n a lo hi c i := by
  intro c
  induction c with
  | zero => intro i; rfl
  | succ c ih =>
    intro i
    simp only [chkSlots, h.slots, chkSlot_like h, ih]

theorem nodeShapeOK_like {n n1 : Node} (h : LikeNode n n1) (lo hi : Option Int) :
    nodeShapeOK n1 lo hi = nodeShapeOK n lo hi := by
  simp [nodeShapeOK, keyAt, h.degree, h.keys, h.slots, h.minKey, h.maxKey]

/-- The range of a slot lies within the range of its node. -/
theorem slot_sub {n : Node} {lo hi : Option Int} (h : ShapeFacts n lo hi) {i : Nat}
    (hi1 : i < n.degree) {k : Int} (hk : inRange (slotLo n lo i) (slotHi n hi i) k) :
    inRange lo hi k := by
  obtain ⟨h1, h2⟩ := hk
  constructor
  · by_cases h0 : i = 0
    · subst h0
      simpa [slotLo] using h1
    · simp only [slotLo, h0, if_false, aboveLo, decide_eq_true_eq] at h1
      have := h.lo (by omega)
      have hm := keyAt_mono h.keys (show 0 ≤ i - 1 by omega) (show i - 1 < n.degree - 1 by omega)
      exact aboveLo_trans this (le_trans hm h1)
  · by_cases hl : i + 1 = n.degree
    · simpa [slotHi, hl] using h2
    · simp only [slotHi, hl, if_false, belowHi, decide_eq_true_eq] at h2
      have := h.hi (by omega)
      have hm := keyAt_mono h.keys (show i ≤ n.degree - 2 by omega)
        (show n.degree - 2 < n.degree - 1 by omega)
      exact belowHi_trans this (le_trans (le_of_lt h2) hm)

/-- The ranges of two different slots of a node have no key in common. -/
theorem slot_apart {n : Node} (h : KeysOK n) (lo hi : Option Int) {i j : Nat}
    (hi1 : i < n.degree) (hj1 : j < n.degree) (hij : i ≠ j) :
    Apart (slotLo n lo i) (slotHi n hi i) (slotLo n lo j) (slotHi n hi j) := by
  intro k ⟨a1, a2⟩ ⟨b1, b2⟩
  rcases Nat.lt_or_gt_of_ne hij with hlt | hgt
  · have hl : ¬ i + 1 = n.degree := by omega
    have h0 : ¬ j = 0 := by omega
    simp only [slotHi, hl, if_false, belowHi, decide_eq_true_eq] at a2
    simp only [slotLo, h0, if_false, aboveLo, decide_eq_true_eq] at b1
    have := keyAt_mono h (show i ≤ j - 1 by omega) (show j - 1 < n.degree - 1 by omega)
    omega
  · have hl : ¬ j + 1 = n.degree := by omega
    have h0 : ¬ i = 0 := by omega
    simp only [slotHi, hl, if_false, belowHi, decide_eq_true_eq] at b2
    simp only [slotLo, h0, if_false, aboveLo, decide_eq_true_eq] at a1
    have := keyAt_mono h (show j ≤ i - 1 by omega) (show i - 1 < n.degree - 1 by omega)
    omega

theorem Apart.sub {lo hi L H lo2 hi2 : Option Int} (h : Apart lo hi L H)
    (hs : ∀ k, inRange lo2 hi2 k → inRange lo hi k) : Apart lo2 hi2 L H :=
  fun k hk => h k (hs k hk)

theorem Apart.subRight {lo hi L H L2 H2 : Option Int} (h : Apart lo hi L H)
    (hs : ∀ k, inRange L2 H2 k → inRange L H k) : Apart lo hi L2 H2 :=
  fun k hk hk2 => h k hk (hs k hk2)

theorem Apart.empty (lo hi : Option Int) : Apart lo hi (some 0) (some 0) := by
  intro k _ ⟨h1, h2⟩
  simp only [aboveLo, belowHi, decide_eq_true_eq] at h1 h2
  omega

/-- The first key of a well-shaped node of degree at least two lies in the range of the
node. -/
theorem first_key_inRange {n : Node} {lo hi : Option Int} (h : ShapeFacts n lo hi)
    (hd : 2 ≤ n.degree) : inRange lo hi (keyAt n 0) :=
  ⟨h.lo hd, belowHi_trans (h.hi hd)
    (keyAt_mono h.keys (show 0 ≤ n.degree - 2 by omega) (show n.degree - 2 < n.degree - 1 by omega))⟩

/-- A checker of child nodes may be replaced by another one that agrees with it on the
ranges within the range of the node. -/
theorem chkSlot_sub {rec rec1 : Option Int → Option Int → Nat → Option (List (Int × Int) × Bool)}
    {n : Node} {a : Nat} {lo hi : Option Int} (hf : ShapeFacts n lo hi)
    (hm : ∀ lo2 hi2 c r, a < c → (∀ k, inRange lo2 hi2 k → inRange lo hi k) →
      rec lo2 hi2 c = some r → rec1 lo2 hi2 c = some r)
    {i : Nat} (hi1 : i < n.degree) {w : Word} {r : List (Int × Int) × Bool}
    (h : chkSlot tol rec n a lo hi i w = some r) : chkSlot tol rec1 n a lo hi i w = some r := by
  cases w with
  | node b =>
    simp only [chkSlot] at h ⊢
    split at h
    · rename_i hab
      simp only [hab, if_true]
      exact hm _ _ b r hab (fun k hk => slot_sub hf hi1 hk) h
    · cases h
  | emptyVal => exact h
  | val v => exact h
  | kvpair k v => exact h
  | null => exact h
  | rebuildop o => exact h

theorem chkSlots_sub {rec rec1 : Option Int → Option Int → Nat → Option (List (Int × Int) × Bool)}
    {n : Node} {a : Nat} {lo hi : Option Int} (hf : ShapeFacts n lo hi)
    (hm : ∀ lo2 hi2 c r, a < c → (∀ k, inRange lo2 hi2 k → inRange lo hi k) →
      rec lo2 hi2 c = some r → rec1 lo2 hi2 c = some r) :
    ∀ (c i : Nat) (r : List (Int × Int) × Bool), i + c ≤ n.degree →
      chkSlots tol rec n a lo hi c i = some r → chkSlots tol rec1 n a lo hi c i = some r := by
  intro c
  induction c with
  | zero => intro i r _ h; exact h
  | succ c ih =>
    intro i r hle h
    obtain ⟨w, r1, r2, hw, h1, h2, hr⟩ := chkSlots_step h
    subst hr
    simp only [chkSlots, hw, chkSlot_sub hf hm (by omega : i < n.degree) h1,
      ih (i + 1) r2 (by omega) h2]

/-- A well-formed subtree whose range is apart from `[L, H)` is untouched by changes to
nodes whose first key lies in `[L, H)`: the nodes of the subtree at addresses from `m` on
are either kept (up to the fields that the check does not read) or have at least two slots
and a first key in `[L, H)`, which excludes them from the subtree. -/
theorem chkNode_apart {A B : istree} {L H : Option Int} {m : Nat}
    (h : ∀ x n, m ≤ x → A.nodes[x]? = some n →
      (∃ n1, B.nodes[x]? = some n1 ∧ LikeNode n n1)
        ∨ (2 ≤ n.degree ∧ inRange L H (keyAt n 0))) :
    ∀ g lo hi b r, m ≤ b → Apart lo hi L H → chkNode tol g A lo hi b = some r →
      chkNode tol g B lo hi b = some r := by
  intro g
  induction g with
  | zero => intro lo hi b r _ _ hc; simp [chkNode] at hc
  | succ g ih =>
    intro lo hi b r hmb hap hc
    obtain ⟨n, r2, hn, hok, hsl, hr1, hcase⟩ := chkNode_succ_some hc
    have hf := nodeShapeOK_facts hok
    rcases h b n hmb hn with ⟨n1, hn1, hlike⟩ | ⟨hd, hin⟩
    · have hsl1 : chkSlots tol (chkNode tol g B) n b lo hi n.degree 0 = some r2 :=
        chkSlots_sub hf
          (fun lo2 hi2 c r3 hbc hsub h3 => ih lo2 hi2 c r3 (by omega) (hap.sub hsub) h3)
          n.degree 0 r2 (by omega) hsl
      rw [← hc]
      simp only [chkNode, hn, hn1, nodeShapeOK_like hlike, hok, if_true, hlike.degree,
        chkSlots_like hlike, hsl, hsl1, hlike.dirty]
    · exact absurd hin (hap _ (first_key_inRange hf hd))

/-- A well-formed subtree stays well formed when its nodes are kept up to the fields that
the check does not read. -/
theorem chkNode_like {A B : istree}
    (h : ∀ (x : Nat) (n : Node), A.nodes[x]? = some n →
      ∃ n1, B.nodes[x]? = some n1 ∧ LikeNode n n1) :
    ∀ g lo hi b r, chkNode tol g A lo hi b = some r → chkNode tol g B lo hi b = some r :=
  fun g lo hi b r hc =>
    @chkNode_apart tol A B (some 0) (some 0) 0 (fun x n _ hn => Or.inl (h x n hn))
      g lo hi b r (Nat.zero_le _) (Apart.empty lo hi) hc

/-- The check of a node child, read off the check of its parent. -/
theorem chkNode_slot {g : Nat} {st : istree} {lo hi : Option Int} {p : Nat} {pn : Node}
    {r : List (Int × Int) × Bool} (h : chkNode tol (g + 1) st lo hi p = some r)
    (hn : st.nodes[p]? = some pn) {i c : Nat} (hi1 : i < pn.degree)
    (hs : pn.slots[i]? = some (Word.node c)) :
    ∃ rc, chkNode tol g st (slotLo pn lo i) (slotHi pn hi i) c = some rc ∧ p < c := by
  obtain ⟨n1, r2, hn1, _, hsl, _, _⟩ := chkNode_succ_some h
  rw [hn] at hn1
  cases hn1
  obtain ⟨w, rj, hw, hc⟩ := chkSlots_get pn.degree 0 r2 hsl i (by omega) (by omega)
  rw [hs] at hw
  cases hw
  simp only [chkSlot] at hc
  split at hc
  · rename_i hbc
    exact ⟨rj, hc, hbc⟩
  · cases hc

/-! ## helpRebuild and rebuild -/

theorem DirtyOnly.reflDirty (S : Nat → Prop) (st : istree) : DirtyOnly S st st :=
  ⟨rfl, rfl, fun _ n h => ⟨n, h, SameShape.reflShape n⟩, fun _ _ => rfl⟩

theorem DirtyOnly.thenDirty {S : Nat → Prop} {s1 s2 s3 : istree} (h1 : DirtyOnly S s1 s2)
    (h2 : DirtyOnly S s2 s3) : DirtyOnly S s1 s3 := by
  refine ⟨?_, by rw [h2.len, h1.len], ?_, ?_⟩
  · rw [h2.rest, h1.rest]
  · intro x n hx
    obtain ⟨n1, g1, g2⟩ := h1.pt x n hx
    obtain ⟨n2, g3, g4⟩ := h2.pt x n1 g1
    exact ⟨n2, g3, g2.thenShape g4⟩
  · intro x hx
    rw [h2.frame x hx, h1.frame x hx]

theorem DirtyOnly.logSmr (S : Nat → Prop) (st : istree) (c : SmrCall) :
    DirtyOnly S st (st.logSmr c) :=
  ⟨rfl, rfl, fun _ n h => ⟨n, h, SameShape.reflShape n⟩, fun _ _ => rfl⟩

theorem DirtyOnly.casDirty {S : Nat → Prop} {st st1 : istree} {c : Nat} {old new : Dirty}
    {b : Bool} (h : casDirty st c old new = .ok (b, st1)) (hc : S c) : DirtyOnly S st st1 := by
  unfold ISTree.casDirty at h
  cases hg : st.getNode c with
  | error e => simp [hg, bind, Except.bind] at h
  | ok n =>
    simp only [hg, bind, Except.bind] at h
    split at h
    · simp only [pure, Except.pure, Except.ok.injEq, Prod.mk.injEq] at h
      obtain ⟨_, e⟩ := h
      subst e
      have hn := getNode_eq_ok.mp hg
      refine ⟨rfl, by simp [istree.setNode], ?_, ?_⟩
      · intro x m hx
        by_cases hxc : x = c
        · subst hxc
          rw [hn] at hx
          cases hx
          exact ⟨_, getElem_setNode_same _ (lt_of_getElem hn), by simp [SameShape]⟩
        · exact ⟨m, by rw [getElem_setNode_ne _ (Ne.symm hxc)]; exact hx, SameShape.reflShape m⟩
      · intro x hx
        have hxc : x ≠ c := fun e => hx (e ▸ hc)
        exact getElem_setNode_ne _ (Ne.symm hxc)
    · simp only [pure, Except.pure, Except.ok.injEq, Prod.mk.injEq] at h
      obtain ⟨_, e⟩ := h
      subst e
      exact DirtyOnly.reflDirty S st

theorem claimChildLoop_spec {S : Nat → Prop} {child : Nat} {ptr : Word} (hc : S child) :
    ∀ (cnt : Nat) (st st1 : istree), claimChildLoop child ptr cnt st = .ok st1 →
      DirtyOnly S st st1 := by
  intro cnt
  induction cnt with
  | zero => intro st st1 h; cases h
  | succ cnt ih =>
    intro st st1 h
    simp only [claimChildLoop, bind, Except.bind] at h
    cases hg : st.getNode child with
    | error e => simp [hg] at h
    | ok c =>
      simp only [hg] at h
      split at h
      · simp only [pure, Except.pure, Except.ok.injEq] at h
        subst h
        exact DirtyOnly.reflDirty S st
      · cases hcas : casDirty st child c.dirty c.dirty.orMarkedForFree with
        | error e => simp [hcas] at h
        | ok q =>
          obtain ⟨b, s1⟩ := q
          simp only [hcas] at h
          have h1 := DirtyOnly.casDirty hcas hc
          have h2 := ih _ st1 h
          refine h1.thenDirty (DirtyOnly.thenDirty ?_ h2)
          split
          · exact DirtyOnly.logSmr S s1 _
          · exact DirtyOnly.reflDirty S s1

theorem Node.ptr_inv {n : Node} {i : Int} {w : Word} (h : n.ptr i = .ok w) :
    ∃ j : Nat, i = (j : Int) ∧ j < n.degree ∧ n.slots[j]? = some w := by
  unfold Node.ptr at h
  split at h
  · rename_i hb
    cases hs : n.slots[i.toNat]? with
    | none => simp [hs, throw, throwThe, MonadExceptOf.throw] at h
    | some v =>
      simp only [hs, pure, Except.pure, Except.ok.injEq] at h
      subst h
      exact ⟨i.toNat, by omega, by omega, hs⟩
  · cases h

theorem claimChildrenLoop_spec {S : Nat → Prop} {a : Nat} {n : Node}
    (hS : ∀ c j, j < n.degree → n.slots[j]? = some (Word.node c) → S c) :
    ∀ (cnt : Nat) (i : Int) (st st1 : istree) (na : Node), st.nodes[a]? = some na →
      SameShape n na → claimChildrenLoop a cnt i st = .ok st1 → DirtyOnly S st st1 := by
  intro cnt
  induction cnt with
  | zero =>
    intro i st st1 na _ _ h
    simp only [claimChildrenLoop, pure, Except.pure, Except.ok.injEq] at h
    subst h
    exact DirtyOnly.reflDirty S st
  | succ cnt ih =>
    intro i st st1 na hna hsh h
    simp only [claimChildrenLoop, bind, Except.bind, getNode_of_getElem hna] at h
    cases hp : na.ptr i with
    | error e => simp [hp] at h
    | ok w =>
      simp only [hp] at h
      obtain ⟨j, _, hj1, hj2⟩ := Node.ptr_inv hp
      rw [hsh.degree] at hj1
      rw [hsh.slots] at hj2
      cases w with
      | node child =>
        simp only at h
        cases hcl : claimChildLoop child (Word.node child) 2 st with
        | error e => simp [hcl] at h
        | ok s1 =>
          simp only [hcl] at h
          have h1 := claimChildLoop_spec (hS child j hj1 hj2) 2 st s1 hcl
          obtain ⟨na1, g1, g2⟩ := h1.pt a na hna
          exact h1.thenDirty (ih _ s1 st1 na1 g1 (hsh.thenShape g2) h)
      | null => exact ih _ st st1 na hna hsh h
      | emptyVal => exact ih _ st st1 na hna hsh h
      | val v => exact ih _ st st1 na hna hsh h
      | kvpair k v => exact ih _ st st1 na hna hsh h
      | rebuildop o => exact ih _ st st1 na hna hsh h

theorem freeNonNodeLoop_spec (S : Nat → Prop) (a : Nat) :
    ∀ (cnt : Nat) (i : Int) (st st1 : istree), freeNonNodeLoop a cnt i st = .ok st1 →
      DirtyOnly S st st1 := by
  intro cnt
  induction cnt with
  | zero =>
    intro i st st1 h
    simp only [freeNonNodeLoop, pure, Except.pure, Except.ok.injEq] at h
    subst h
    exact DirtyOnly.reflDirty S st
  | succ cnt ih =>
    intro i st st1 h
    simp only [freeNonNodeLoop, bind, Except.bind] at h
    cases hg : st.getNode a with
    | error e => simp [hg] at h
    | ok n =>
      simp only [hg] at h
      cases hp : n.ptr i with
      | error e => simp [hp] at h
      | ok w =>
        simp only [hp] at h
        refine DirtyOnly.thenDirty ?_ (ih _ _ st1 h)
        split
        · exact DirtyOnly.logSmr S st _
        · exact DirtyOnly.reflDirty S st

theorem claimSelfLoop_spec {S : Nat → Prop} {a : Nat} (ha : S a) :
    ∀ (cnt : Nat) (st st1 : istree), claimSelfLoop a cnt st = .ok st1 → DirtyOnly S st st1 := by
  intro cnt
  induction cnt with
  | zero => intro st st1 h; cases h
  | succ cnt ih =>
    intro st st1 h
    simp only [claimSelfLoop, bind, Except.bind] at h
    cases hg : st.getNode a with
    | error e => simp [hg] at h
    | ok n =>
      simp only [hg] at h
      split at h
      · simp only [pure, Except.pure, Except.ok.injEq] at h
        subst h
        exact DirtyOnly.reflDirty S st
      · cases hcas : casDirty st a n.dirty n.dirty.orMarkedForFree with
        | error e => simp [hcas] at h
        | ok q =>
          obtain ⟨b, s1⟩ := q
          simp only [hcas] at h
          have h1 := DirtyOnly.casDirty hcas ha
          cases b with
          | false =>
            simp only [Bool.false_eq_true, if_false, pure, Except.pure] at h
            exact h1.thenDirty (ih _ st1 h)
          | true =>
            simp only [if_true] at h
            cases hf : freeNonNodeLoop a n.degree 0 s1 with
            | error e => simp [hf] at h
            | ok s2 =>
              simp only [hf, pure, Except.pure] at h
              exact h1.thenDirty ((freeNonNodeLoop_spec S a _ _ _ _ hf).thenDirty
                ((DirtyOnly.logSmr S s2 _).thenDirty (ih _ st1 h)))

/-- The function `helpFreeSubtree` writes only `dirty` words, those of the node and of its
child nodes. -/
theorem helpFreeSubtree_spec {st st1 : istree} {a : Nat} {n : Node}
    (hn : st.nodes[a]? = some n) (h : helpFreeSubtree st a = .ok st1) :
    DirtyOnly (fun x => x = a ∨ ∃ j, j < n.degree ∧ n.slots[j]? = some (Word.node x)) st st1 := by
  simp only [helpFreeSubtree, bind, Except.bind, getNode_of_getElem hn] at h
  cases hc : claimChildrenLoop a n.degree 0 st with
  | error e => simp [hc] at h
  | ok s1 =>
    simp only [hc] at h
    exact (claimChildrenLoop_spec (fun c j h1 h2 => Or.inr ⟨j, h1, h2⟩) _ _ _ _ n hn
      (SameShape.reflShape n)
      hc).thenDirty (claimSelfLoop_spec (Or.inl rfl) _ _ _ h)

theorem chkWord_minAddr {F : Nat} {st : istree} {m : Nat} (m1 : Nat) {lo hi : Option Int} {w : Word}
    {r : List (Int × Int) × Bool} (hm : m ≤ m1) (h : chkWord tol F st m1 lo hi w = some r) :
    chkWord tol F st m lo hi w = some r := by
  cases w with
  | node b =>
    simp only [chkWord] at h ⊢
    split at h
    · rename_i hab
      have : m < b := by omega
      simp only [this, if_true]
      exact h
    · cases h
  | emptyVal => exact h
  | val v => exact h
  | kvpair k v => exact h
  | null => exact h
  | rebuildop o => exact h

theorem dcssPtr_inv {st st1 : istree} {a : Nat} {ix : Int} {old new : Word} {r : DcssStatus}
    (h : dcssPtr st a ix old new = .ok (r, st1)) :
    (r = DcssStatus.DCSS_SUCCESS ∧ ∃ (n : Node) (i : Nat), st.nodes[a]? = some n ∧ ix = (i : Int)
        ∧ i < n.degree ∧ n.slots[i]? = some old ∧ n.dirty = Dirty.clean
        ∧ st1 = st.setNode a { n with slots := n.slots.set i new })
      ∨ (r ≠ DcssStatus.DCSS_SUCCESS ∧ st1 = st) := by
  unfold dcssPtr at h
  cases hg : st.getNode a with
  | error e => simp [hg, bind, Except.bind] at h
  | ok n =>
    simp only [hg, bind, Except.bind] at h
    cases hp : n.ptr ix with
    | error e => simp [hp] at h
    | ok w =>
      simp only [hp] at h
      obtain ⟨i, hi1, hi2, hi3⟩ := Node.ptr_inv hp
      subst hi1
      split at h
      · simp only [pure, Except.pure, Except.ok.injEq, Prod.mk.injEq] at h
        right
        exact ⟨by rw [← h.1]; simp, h.2.symm⟩
      · rename_i hw
        split at h
        · simp only [pure, Except.pure, Except.ok.injEq, Prod.mk.injEq] at h
          right
          exact ⟨by rw [← h.1]; simp, h.2.symm⟩
        · rename_i hd
          have hlt := (List.getElem?_eq_some_iff.mp hi3).1
          rw [Node.setPtr_ok n i new hi2 hlt] at h
          simp only [pure, Except.pure, Except.ok.injEq, Prod.mk.injEq] at h
          left
          refine ⟨h.1.symm, n, i, getNode_eq_ok.mp hg, rfl, hi2, ?_, ?_, h.2.symm⟩
          · rw [hi3]
            simpa using hw
          · simpa using hd

theorem dcssPtr_ok {st : istree} {a i : Nat} {old : Word} (new : Word) {n : Node}
    (hn : st.nodes[a]? = some n) (hi : i < n.degree) (hs : n.slots[i]? = some old)
    (hd : n.dirty = Dirty.clean) :
    dcssPtr st a (i : Int) old new
      = .ok (DcssStatus.DCSS_SUCCESS, st.setNode a { n with slots := n.slots.set i new }) := by
  unfold dcssPtr
  have hlt := (List.getElem?_eq_some_iff.mp hs).1
  simp [bind, Except.bind, getNode_of_getElem hn, Node.ptr_ok n i old hi hs, hd,
    Node.setPtr_ok n i new hi hlt, pure, Except.pure]

theorem chkNode_exists {f : Nat} {st : istree} {lo hi : Option Int} {b : Nat}
    {r : List (Int × Int) × Bool} (h : chkNode tol f st lo hi b = some r) :
    ∃ n, st.nodes[b]? = some n := by
  cases f with
  | zero => simp [chkNode] at h
  | succ f =>
    obtain ⟨n, _, hn, _⟩ := chkNode_succ_some h
    exact ⟨n, hn⟩

/-- The node children of a well-formed node lie above it, in the heap. -/
theorem chkNode_child {f : Nat} {st : istree} {lo hi : Option Int} {b : Nat} {n : Node}
    {r : List (Int × Int) × Bool} (h : chkNode tol f st lo hi b = some r)
    (hn : st.nodes[b]? = some n) {j c : Nat} (hj : j < n.degree)
    (hs : n.slots[j]? = some (Word.node c)) : b < c ∧ c < st.nodes.length := by
  cases f with
  | zero => simp [chkNode] at h
  | succ f =>
    obtain ⟨n1, r2, hn1, _, hsl, _, _⟩ := chkNode_succ_some h
    rw [hn] at hn1
    cases hn1
    obtain ⟨w, rj, hw, hc⟩ := chkSlots_get n.degree 0 r2 hsl j (by omega) (by omega)
    rw [hs] at hw
    cases hw
    simp only [chkSlot] at hc
    split at hc
    · rename_i hbc
      obtain ⟨m, hm⟩ := chkNode_exists hc
      exact ⟨hbc, lt_of_getElem hm⟩
    · cases hc

theorem helpRebuild_spec {fuel : Nat} {st2 st1 : istree} {o f i : Nat} {op0 : RebuildOperation}
    {lo0 hi0 : Option Int} {l : List (Int × Int)} {d0 : Bool} {pn1 : Node}
    (hop : st2.getOp o = .ok op0) (hnr : op0.newRoot = Word.null)
    (hs0 : op0.success = false)
    (hold : chkNode tol f st2 lo0 hi0 op0.rebuildRoot = some (l, d0))
    (hpar : op0.parent < op0.rebuildRoot) (hpn : st2.nodes[op0.parent]? = some pn1)
    (hidx : op0.index = (i : Int)) (hi : i < pn1.degree)
    (hslot : pn1.slots[i]? = some (Word.rebuildop o)) (hdirty : pn1.dirty = Dirty.clean)
    (hrun : helpRebuild fuel st2 o = .ok st1) :
    ∃ w, Rebuilt tol st2 st1 op0.parent i w pn1 l
      ∧ Kept tol st2 st1 op0.parent op0.rebuildRoot lo0 hi0 := by
  simp only [helpRebuild, bind, Except.bind, hop] at hrun
  cases hmc : markAndCount fuel st2 (Word.node op0.rebuildRoot) with
  | error e => simp [hmc] at hrun
  | ok q =>
    obtain ⟨keyCount, st3⟩ := q
    simp only [hmc] at hrun
    obtain ⟨hcount, hmark, hfin⟩ := markAndCount_spec f fuel st2 lo0 hi0 _ _ _ _ hold hmc
    simp only at hcount hfin
    have hop3 : st3.getOp o = .ok op0 := by
      rw [← hop]
      unfold istree.getOp
      rw [hmark.rest]
    obtain ⟨nrr, hnrr⟩ := chkNode_exists hold
    have hN0 : op0.rebuildRoot < st2.nodes.length := lt_of_getElem hnrr
    cases hci : createIdealConcurrent fuel st3 o keyCount with
    | error e => simp [hci] at hrun
    | ok q =>
      obtain ⟨w, st4⟩ := q
      simp only [hci] at hrun
      have hm0 : st2.nodes.length - 1 < st3.nodes.length := by
        rw [hmark.len]; omega
      have hsub4 : ∀ lo hi, ListOK lo hi l →
          ∃ F d, chkWord tol F st4 (st2.nodes.length - 1) lo hi w = some (l, d) :=
        fun lo hi hL => (createIdealConcurrent_spec hop3 hnr hfin hcount hL hm0 hci).2.1
      obtain ⟨hwn, _, hbuilt⟩ := createIdealConcurrent_spec hop3 hnr hfin hcount
        (chkNode_ok st2 f lo0 hi0 _ _ hold) hm0 hci
      simp only [hwn, if_false] at hrun
      -- the parent in the state after the construction
      obtain ⟨pn3, hpn3, hsh3, hd3⟩ := hmark.pt op0.parent pn1 hpn
      have hd3b : pn3.dirty = Dirty.clean := by
        rcases hd3 with h | ⟨h, _⟩
        · rw [h, hdirty]
        · omega
      have hplt : op0.parent < st3.nodes.length := lt_of_getElem hpn3
      have hpn4 : st4.nodes[op0.parent]? = some pn3 := by
        rw [hbuilt.keep _ hplt]; exact hpn3
      have hdc := dcssPtr_ok w hpn4 (by rw [hsh3.degree]; exact hi)
        (by rw [hsh3.slots]; exact hslot) hd3b
      rw [hidx, hdc] at hrun
      obtain ⟨nr, hop4⟩ := hbuilt.op
      have hop5 : (st4.setNode op0.parent { pn3 with slots := pn3.slots.set i w }).getOp o
          = .ok { op0 with newRoot := nr } := hop4
      simp only [hop5, hs0, assert, beq_self_eq_true, if_true, pure, Except.pure,
        getOp_setOp_same hop5] at hrun
      generalize hs6 : (((st4.setNode op0.parent { pn3 with slots := pn3.slots.set i w }).setOp o
        { op0 with newRoot := nr, success := true }).logSmr
          (SmrCall.retire (Word.rebuildop o))) = st6 at hrun
      have hnodes6 : st6.nodes = (st4.nodes.set op0.parent
          { pn3 with slots := pn3.slots.set i w }) := by
        rw [← hs6]; rfl
      have hrest6 : st6.root = st4.root ∧ st6.NO_VALUE = st4.NO_VALUE := by
        rw [← hs6]; exact ⟨rfl, rfl⟩
      have hop6 : st6.getOp o = .ok { op0 with newRoot := nr, success := true } := by
        rw [← hs6]; exact getOp_setOp_same hop5 _
      have hget6 : ∀ x, x ≠ op0.parent → st6.nodes[x]? = st4.nodes[x]? := by
        intro x hx
        rw [hnodes6, List.getElem?_set_ne (Ne.symm hx)]
      have hpar6 : st6.nodes[op0.parent]? = some { pn3 with slots := pn3.slots.set i w } := by
        rw [hnodes6]
        simp [List.getElem?_set, lt_of_getElem hpn4]
      -- the old root of the subtree
      obtain ⟨nrr3, hnrr3, hshr, _⟩ := hmark.pt op0.rebuildRoot nrr hnrr
      have hnrr6 : st6.nodes[op0.rebuildRoot]? = some nrr3 := by
        rw [hget6 _ (by omega), hbuilt.keep _ (lt_of_getElem hnrr3)]
        exact hnrr3
      simp only [hop6, if_true, getNode_of_getElem hnrr6] at hrun
      have hdo : DirtyOnly (fun x => x = op0.rebuildRoot ∨
          ∃ j, j < nrr3.degree ∧ nrr3.slots[j]? = some (Word.node x)) st6 st1 := by
        split at hrun
        · simp only [Except.ok.injEq] at hrun
          subst hrun
          exact DirtyOnly.logSmr _ _ _
        · exact helpFreeSubtree_spec hnrr6 hrun
      have hS : ∀ x, (x = op0.parent ∨ st2.nodes.length ≤ x) →
          ¬ (x = op0.rebuildRoot ∨ ∃ j, j < nrr3.degree ∧ nrr3.slots[j]? = some (Word.node x)) := by
        intro x hx hc
        rcases hc with hc | ⟨j, hj1, hj2⟩
        · omega
        · rw [hshr.degree] at hj1
          rw [hshr.slots] at hj2
          have := chkNode_child hold hnrr hj1 hj2
          omega
      have hkeep34 : ∀ (x : Nat) (n : Node), st3.nodes[x]? = some n → st4.nodes[x]? = some n :=
        fun x n hn => by rw [hbuilt.keep x (lt_of_getElem hn)]; exact hn
      have hkept : Kept tol st2 st1 op0.parent op0.rebuildRoot lo0 hi0 := by
        refine ⟨?_, ?_, ?_⟩
        · intro x n hx hn
          obtain ⟨n3, g1, g2, g3⟩ := hmark.pt x n hn
          have hd3x : n3.dirty = n.dirty := by
            rcases g3 with h | ⟨h, _⟩
            · exact h
            · omega
          by_cases hxp : x = op0.parent
          · subst hxp
            rw [hpn3] at g1
            cases g1
            refine ⟨{ pn3 with slots := pn3.slots.set i w }, ?_, hd3x⟩
            rw [hdo.frame _ (hS _ (Or.inl rfl))]
            exact hpar6
          · refine ⟨n3, ?_, hd3x⟩
            rw [hdo.frame x, hget6 x hxp]
            · exact hkeep34 x n3 g1
            · intro hc
              rcases hc with hc | ⟨j, hj1, hj2⟩
              · omega
              · rw [hshr.degree] at hj1
                rw [hshr.slots] at hj2
                have := chkNode_child hold hnrr hj1 hj2
                omega
        · intro x n hx hn
          have hlt1 := lt_of_getElem hn
          rw [hdo.len] at hlt1
          have h6 : st6.nodes[x]? = some (st6.nodes[x]) := List.getElem?_eq_getElem hlt1
          obtain ⟨n1, g4, g5⟩ := hdo.pt x _ h6
          rw [hn] at g4
          cases g4
          have hxp : x ≠ op0.parent := by omega
          rw [hget6 x hxp] at h6
          have := hbuilt.fresh x _ (by rw [hmark.len]; exact hx) h6
          unfold SameShape at g5
          rw [g5]
          exact this
        · intro L H m hsub hp hdeg g lo hi b r hmb hap hc
          obtain ⟨d, hc3, _⟩ := chkNode_stable hmark g lo hi b r hc
          have hc4 := chkNode_keep hkeep34 g lo hi b _ hc3
          have hc6 : chkNode tol g st6 lo hi b = some (r.1, d) := by
            refine @chkNode_apart tol st4 st6 L H m (fun x n hmx hn => ?_) g lo hi b _ hmb hap hc4
            by_cases hxp : x = op0.parent
            · subst hxp
              right
              rw [hpn4] at hn
              cases hn
              obtain ⟨pn, hpn2, h2, h3⟩ := hp hmx
              rw [hpn] at hpn2
              cases hpn2
              refine ⟨by rw [hsh3.degree]; exact h2, ?_⟩
              have : keyAt pn3 0 = keyAt pn1 0 := by simp [keyAt, hsh3.keys]
              rw [this]
              exact h3
            · left
              exact ⟨n, by rw [hget6 x hxp]; exact hn, LikeNode.reflLike n⟩
          refine ⟨d, ?_⟩
          refine @chkNode_apart tol st6 st1 L H m (fun x n hmx hn => ?_) g lo hi b _ hmb hap hc6
          by_cases hs : x = op0.rebuildRoot ∨
              ∃ j, j < nrr3.degree ∧ nrr3.slots[j]? = some (Word.node x)
          swap
          · left
            exact ⟨n, by rw [hdo.frame x hs]; exact hn, LikeNode.reflLike n⟩
          right
          cases f with
          | zero => simp [chkNode] at hold
          | succ f =>
            obtain ⟨nr, _, hnr2, hokr, _, _, _⟩ := chkNode_succ_some hold
            rw [hnrr] at hnr2
            cases hnr2
            have hfr := nodeShapeOK_facts hokr
            rcases hs with hs | ⟨j, hj1, hj2⟩
            · subst hs
              rw [hnrr6] at hn
              cases hn
              have hd2 := hdeg _ nrr (le_refl _) hnrr
              refine ⟨by rw [hshr.degree]; exact hd2, ?_⟩
              have : keyAt nrr3 0 = keyAt nrr 0 := by simp [keyAt, hshr.keys]
              rw [this]
              exact hsub _ (first_key_inRange hfr hd2)
            · rw [hshr.degree] at hj1
              rw [hshr.slots] at hj2
              obtain ⟨rc, hrc, hlt⟩ := chkNode_slot hold hnrr hj1 hj2
              cases f with
              | zero => simp [chkNode] at hrc
              | succ f =>
                obtain ⟨nx, _, hnx, hokx, _, _, _⟩ := chkNode_succ_some hrc
                obtain ⟨n3, g1, g2, _⟩ := hmark.pt x nx hnx
                have hxp : x ≠ op0.parent := by omega
                rw [hget6 x hxp, hkeep34 x n3 g1] at hn
                cases hn
                have hd2 := hdeg x nx (by omega) hnx
                refine ⟨by rw [g2.degree]; exact hd2, ?_⟩
                have : keyAt n 0 = keyAt nx 0 := by simp [keyAt, g2.keys]
                rw [this]
                exact hsub _ (slot_sub hfr hj1 (first_key_inRange (nodeShapeOK_facts hokx) hd2))
      have hinf : st1.INF_KEY = st2.INF_KEY := by
        rw [hdo.rest]
        show st6.INF_KEY = _
        rw [← hs6]
        show st4.INF_KEY = _
        rw [hbuilt.rest, hmark.rest]
      refine ⟨w, ⟨?_, ?_, ?_, ?_, ?_, hwn, ?_, hinf⟩, hkept⟩
      · rw [hdo.rest]
        show st6.root = _
        rw [hrest6.1, hbuilt.rest, hmark.rest]
      · rw [hdo.rest]
        show st6.NO_VALUE = _
        rw [hrest6.2, hbuilt.rest, hmark.rest]
      · rw [hdo.len, hnodes6, List.length_set, ← hmark.len]
        exact hbuilt.len
      · intro x n hx hn
        obtain ⟨n3, g1, g2, _⟩ := hmark.pt x n hn
        have g3 : st6.nodes[x]? = some n3 := by
          rw [hget6 x hx, hbuilt.keep _ (lt_of_getElem g1)]
          exact g1
        obtain ⟨n1, g4, g5⟩ := hdo.pt x n3 g3
        exact ⟨n1, g4, g2.thenShape g5⟩
      · refine ⟨{ pn3 with slots := pn3.slots.set i w }, ?_, ?_⟩
        · rw [hdo.frame _ (hS _ (Or.inl rfl))]
          exact hpar6
        · unfold SameShape at hsh3 ⊢
          rw [hsh3]
      · intro lo hi hL
        obtain ⟨F, d, hw⟩ := hsub4 lo hi hL
        refine ⟨F, d, chkWord_minAddr (st2.nodes.length - 1) (by omega) ?_⟩
        refine chkWord_ext ?_ hw
        intro x n hx hn
        rw [hdo.frame _ (hS _ (Or.inr (by omega))), hget6 x (by omega)]
        exact hn

theorem chkSlot_keys {rec : Option Int → Option Int → Nat → Option (List (Int × Int) × Bool)}
    {n n1 : Node} (hk : n1.keys = n.keys) (hd : n1.degree = n.degree) (a : Nat)
    (lo hi : Option Int) (i : Nat) (w : Word) :
    chkSlot tol rec n1 a lo hi i w = chkSlot tol rec n a lo hi i w := by
  cases w <;> simp [chkSlot, slotLo, slotHi, keyAt, pickKey, hk, hd]

theorem keysOK_of_wellFormed {n : Node} (h : keysWellFormed n = true) : KeysOK n := by
  have h2 : nodeShapeOK { n with slots := List.replicate n.degree Word.null } none none = true := by
    simp only [keysWellFormed, Bool.and_eq_true, Bool.or_eq_true, decide_eq_true_eq,
      beq_iff_eq] at h
    simp only [nodeShapeOK, Bool.and_eq_true, Bool.or_eq_true, decide_eq_true_eq,
      beq_iff_eq, aboveLo, belowHi, List.length_replicate, keyAt, and_true]
    obtain ⟨⟨⟨h1, h3⟩, h4⟩, h5⟩ := h
    refine ⟨⟨⟨⟨h1, le_refl _⟩, h3⟩, h4⟩, ?_⟩
    simpa [keyAt] using h5
  have h3 := (nodeShapeOK_facts h2).keys
  exact ⟨h3.deg, h3.len, h3.sorted, h3.min, h3.max⟩

theorem keysAtMost_eq {n : Node} (h : KeysOK n) (key : Int) (r : Nat) (hr : r < n.degree)
    (h1 : 0 < r → keyAt n (r - 1) ≤ key) (h2 : r + 1 < n.degree → key < keyAt n r) :
    keysAtMost n key = r := by
  unfold keysAtMost
  have hlenL : (n.keys.take (n.degree - 1)).length = n.degree - 1 := by
    have := h.len
    simp [List.length_take]; omega
  have hget : ∀ i (hi : i < (n.keys.take (n.degree - 1)).length),
      (n.keys.take (n.degree - 1))[i] = keyAt n i := by
    intro i hi
    have e := keyAt_take n (n.degree - 1) i (by omega) h.len
    rw [List.getElem?_eq_getElem hi] at e
    simpa using e
  generalize hL : n.keys.take (n.degree - 1) = L at hlenL hget
  rw [← List.take_append_drop r L, List.filter_append]
  have e1 : (L.take r).filter (fun k => decide (k ≤ key)) = L.take r := by
    rw [List.filter_eq_self]
    intro a ha
    obtain ⟨i, hi, rfl⟩ := List.getElem_of_mem ha
    simp only [List.length_take] at hi
    simp only [List.getElem_take, decide_eq_true_eq]
    rw [hget i (by omega)]
    have := h1 (by omega)
    exact le_trans (keyAt_mono h (by omega) (by omega)) this
  have e2 : (L.drop r).filter (fun k => decide (k ≤ key)) = [] := by
    rw [List.filter_eq_nil_iff]
    intro a ha
    obtain ⟨i, hi, rfl⟩ := List.getElem_of_mem ha
    simp only [List.length_drop] at hi
    simp only [List.getElem_drop, decide_eq_true_eq, not_le]
    rw [hget (r + i) (by omega)]
    have := h2 (by omega)
    exact lt_of_lt_of_le this (keyAt_mono h (by omega) (by omega))
  rw [e1, e2]
  simp [List.length_take]
  omega

theorem interpolationSearch_below (key : Int) (n : Node) (hd : n.degree ≠ 1)
    (h : key < n.minKey) : interpolationSearch key n = .ok 0 := by
  unfold interpolationSearch
  simp [hd, h, pure, Except.pure]

theorem interpolationSearch_above (key : Int) (n : Node) (hd : n.degree ≠ 1)
    (h1 : n.minKey ≤ key) (h2 : key ≥ n.maxKey) :
    interpolationSearch key n = .ok ((n.degree : Int) - 1) := by
  unfold interpolationSearch
  have h3 : ¬ key < n.minKey := by omega
  simp [hd, h3, h2, pure, Except.pure]

theorem bind_ok {α β : Type} (x : Except Fault α) (f : α → Except Fault β) (b : β) :
    (x >>= f) = .ok b ↔ ∃ a, x = .ok a ∧ f a = .ok b := by
  cases x with
  | error e => simp [bind, Except.bind]
  | ok a => simp [bind, Except.bind]

theorem getElem_of_getNode {st : istree} {a : Nat} {n : Node} (h : st.getNode a = .ok n) :
    st.nodes[a]? = some n := by
  unfold istree.getNode at h
  cases hn : st.nodes[a]? with
  | none => simp [hn, throw, throwThe, MonadExceptOf.throw] at h
  | some m => simp [hn, pure, Except.pure] at h; rw [h]

theorem markClaimLoop_rel {R : istree → istree → Prop} (hR : MarkingRel R)
    {rec : istree → Word → Except Fault (Nat × istree)}
    (hrec : ∀ s w c s1, rec s w = .ok (c, s1) → R s s1) (a : Nat) :
    ∀ (k : Nat) (st : istree) (res : Option Nat) (st1 : istree),
      markClaimLoop rec a k st = .ok (res, st1) → R st st1 := by
  intro k
  induction k with
  | zero => intro st res st1 h; cases h
  | succ k ih =>
    intro st res st1 h
    simp only [markClaimLoop, bind, Except.bind] at h
    cases hg : st.getNode a with
    | error e => simp [hg] at h
    | ok node =>
      simp only [hg] at h
      have h0 := hR.next st a node (node.nextMarkAndCount + 1) (getElem_of_getNode hg)
      by_cases hix : node.nextMarkAndCount ≥ node.degree
      · simp only [hix, if_true, pure, Except.pure, Except.ok.injEq, Prod.mk.injEq] at h
        rw [← h.2]; exact h0
      · simp only [hix, if_false] at h
        cases hp : node.ptr (node.nextMarkAndCount : Int) with
        | error e => simp [hp] at h
        | ok child =>
          simp only [hp] at h
          cases hr : rec (st.setNode a { node with nextMarkAndCount := node.nextMarkAndCount + 1 })
              child with
          | error e => simp [hr] at h
          | ok p =>
            obtain ⟨c, st2⟩ := p
            simp only [hr] at h
            have h1 := hrec _ _ _ _ hr
            cases hg2 : st2.getNode a with
            | error e => simp [hg2] at h
            | ok node2 =>
              simp only [hg2] at h
              split at h
              · simp only [pure, Except.pure, Except.ok.injEq, Prod.mk.injEq] at h
                rw [← h.2]; exact hR.thenRel _ _ _ h0 h1
              · exact hR.thenRel _ _ _ (hR.thenRel _ _ _ h0 h1) (ih _ _ _ h)

theorem markSumLoop_rel {R : istree → istree → Prop} (hR : MarkingRel R)
    {rec : istree → Word → Except Fault (Nat × istree)}
    (hrec : ∀ s w c s1, rec s w = .ok (c, s1) → R s s1) (a : Nat) :
    ∀ (k : Nat) (i : Int) (kc : Nat) (st : istree) (res : Nat ⊕ Nat) (st1 : istree),
      markSumLoop rec a k i kc st = .ok (res, st1) → R st st1 := by
  intro k
  induction k with
  | zero =>
    intro i kc st res st1 h
    simp only [markSumLoop, pure, Except.pure, Except.ok.injEq, Prod.mk.injEq] at h
    rw [← h.2]; exact hR.reflRel _
  | succ k ih =>
    intro i kc st res st1 h
    simp only [markSumLoop, bind, Except.bind] at h
    cases hg : st.getNode a with
    | error e => simp [hg] at h
    | ok node =>
      simp only [hg] at h
      cases hp : node.ptr i with
      | error e => simp [hp] at h
      | ok child =>
        simp only [hp] at h
        cases hr : rec st child with
        | error e => simp [hr] at h
        | ok p =>
          obtain ⟨c, st2⟩ := p
          simp only [hr] at h
          have h1 := hrec _ _ _ _ hr
          cases hg2 : st2.getNode a with
          | error e => simp [hg2] at h
          | ok node2 =>
            simp only [hg2] at h
            split at h
            · simp only [pure, Except.pure, Except.ok.injEq, Prod.mk.injEq] at h
              rw [← h.2]; exact h1
            · exact hR.thenRel _ _ _ h1 (ih _ _ _ _ _ h)

theorem markFinish_rel {R : istree → istree → Prop} (hR : MarkingRel R)
    {rec : istree → Word → Except Fault (Nat × istree)}
    (hrec : ∀ s w c s1, rec s w = .ok (c, s1) → R s s1) (a degree : Nat) (s2 : istree)
    (c : Nat) (st1 : istree)
    (h : (do
      let (r, st3) ← markSumLoop rec a degree 0 0 s2
      match r with
      | Sum.inl sum => pure (sum, st3)
      | Sum.inr keyCount => do
        let (_, st4) ← casDirty st3 a DIRTY_STARTED_MASK (SUM_TO_DIRTY_FINISHED keyCount)
        pure (keyCount, st4) : Except Fault (Nat × istree)) = .ok (c, st1)) : R s2 st1 := by
  rw [bind_ok] at h
  obtain ⟨⟨res, s3⟩, h3, h⟩ := h
  have r3 := markSumLoop_rel hR hrec a _ _ _ _ _ _ h3
  cases res with
  | inl sum =>
    simp only [pure, Except.pure, Except.ok.injEq, Prod.mk.injEq] at h
    rw [← h.2]; exact r3
  | inr kc =>
    simp only at h
    rw [bind_ok] at h
    obtain ⟨⟨b, s4⟩, hc, h⟩ := h
    simp only [pure, Except.pure, Except.ok.injEq, Prod.mk.injEq] at h
    rw [← h.2]
    exact hR.thenRel _ _ _ r3 (hR.cas _ _ _ _ _ _ hc (DirtyWrite.finish kc))

theorem markBody_rel {R : istree → istree → Prop} (hR : MarkingRel R)
    {rec : istree → Word → Except Fault (Nat × istree)}
    (hrec : ∀ s w c s1, rec s w = .ok (c, s1) → R s s1) (a degree : Nat) (big : Prop)
    [Decidable big] (s1 : istree) (c : Nat) (st1 : istree)
    (h : (if big then do
        let y ← markClaimLoop rec a (degree + 1) s1
        match y.1 with
        | some sum => pure (sum, y.2)
        | none => do
          let (r, st3) ← markSumLoop rec a degree 0 0 y.2
          match r with
          | Sum.inl sum => pure (sum, st3)
          | Sum.inr keyCount => do
            let (_, st4) ← casDirty st3 a DIRTY_STARTED_MASK (SUM_TO_DIRTY_FINISHED keyCount)
            pure (keyCount, st4)
      else do
        let (r, st3) ← markSumLoop rec a degree 0 0 s1
        match r with
        | Sum.inl sum => pure (sum, st3)
        | Sum.inr keyCount => do
          let (_, st4) ← casDirty st3 a DIRTY_STARTED_MASK (SUM_TO_DIRTY_FINISHED keyCount)
          pure (keyCount, st4) : Except Fault (Nat × istree)) = .ok (c, st1)) : R s1 st1 := by
  split at h
  · rw [bind_ok] at h
    obtain ⟨⟨early, s2⟩, h2, h⟩ := h
    have r2 : R s1 s2 := markClaimLoop_rel hR hrec a _ _ _ _ h2
    cases early with
    | some sum =>
      simp only [pure, Except.pure, Except.ok.injEq, Prod.mk.injEq] at h
      rw [← h.2]; exact r2
    | none =>
      exact hR.thenRel _ _ _ r2 (markFinish_rel hR hrec a degree s2 c st1 h)
  · exact markFinish_rel hR hrec a degree s1 c st1 h

theorem markAndCount_rel {R : istree → istree → Prop} (hR : MarkingRel R) :
    ∀ (F : Nat) (st : istree) (w : Word) (c : Nat) (st1 : istree),
      markAndCount F st w = .ok (c, st1) → R st st1 := by
  intro F
  induction F with
  | zero => intro st w c st1 h; cases h
  | succ F ih =>
    intro st w c st1 h
    cases w with
    | kvpair k v =>
      simp only [markAndCount, IS_KVPAIR, if_true, pure, Except.pure, Except.ok.injEq,
        Prod.mk.injEq] at h
      rw [← h.2]; exact hR.reflRel _
    | val v =>
      simp only [markAndCount, IS_KVPAIR, IS_VAL, if_true, Bool.false_eq_true, if_false, pure,
        Except.pure, Except.ok.injEq, Prod.mk.injEq] at h
      rw [← h.2]; exact hR.reflRel _
    | emptyVal =>
      simp only [markAndCount, IS_KVPAIR, IS_VAL, if_true, Bool.false_eq_true, if_false, pure,
        Except.pure, Except.ok.injEq, Prod.mk.injEq] at h
      rw [← h.2]; exact hR.reflRel _
    | rebuildop o =>
      simp only [markAndCount, IS_KVPAIR, IS_VAL, Bool.false_eq_true, if_false] at h
      rw [bind_ok] at h
      obtain ⟨op, -, h⟩ := h
      exact ih _ _ _ _ h
    | null =>
      simp [markAndCount, IS_KVPAIR, IS_VAL, IS_NODE, assert, istree.derefWord, bind,
        Except.bind, pure, Except.pure, throw, throwThe, MonadExceptOf.throw] at h
    | node a =>
      simp only [markAndCount, IS_KVPAIR, IS_VAL, Bool.false_eq_true, if_false] at h
      rw [bind_ok] at h
      obtain ⟨u, -, h⟩ := h
      rw [bind_ok] at h
      obtain ⟨⟨a1, node⟩, hd, h⟩ := h
      simp only at h
      split at h
      · simp only [pure, Except.pure, Except.ok.injEq, Prod.mk.injEq] at h
        rw [← h.2]; exact hR.reflRel _
      · split at h
        · rw [bind_ok] at h
          obtain ⟨⟨b, s0⟩, hc, h⟩ := h
          simp only [pure_bind] at h
          exact hR.thenRel _ _ _ (hR.cas _ _ _ _ _ _ hc DirtyWrite.start)
            (markBody_rel hR ih a1 node.degree _ s0 c st1 h)
        · simp only [pure_bind] at h
          exact markBody_rel hR ih a1 node.degree _ st c st1 h

theorem claimChildLoop_rel {R : istree → istree → Prop} (hR : MarkingRel R) (child : Nat)
    (ptr : Word) : ∀ (k : Nat) (st st1 : istree),
      claimChildLoop child ptr k st = .ok st1 → R st st1 := by
  intro k
  induction k with
  | zero => intro st st1 h; cases h
  | succ k ih =>
    intro st st1 h
    simp only [claimChildLoop] at h
    rw [bind_ok] at h
    obtain ⟨cn, -, h⟩ := h
    split at h
    · simp only [pure, Except.pure, Except.ok.injEq] at h
      rw [← h]; exact hR.reflRel _
    · rw [bind_ok] at h
      obtain ⟨⟨b, s1⟩, hc, h⟩ := h
      simp only at h
      have r1 : R st s1 := hR.cas _ _ _ _ _ _ hc (DirtyWrite.mark _)
      have r2 : R s1 (if b = true then s1.logSmr (SmrCall.freeSubtree ptr true) else s1) := by
        split
        · exact hR.log _ _
        · exact hR.reflRel _
      exact hR.thenRel _ _ _ (hR.thenRel _ _ _ r1 r2) (ih _ _ h)

theorem claimChildrenLoop_rel {R : istree → istree → Prop} (hR : MarkingRel R) (a : Nat) :
    ∀ (k : Nat) (i : Int) (st st1 : istree),
      claimChildrenLoop a k i st = .ok st1 → R st st1 := by
  intro k
  induction k with
  | zero =>
    intro i st st1 h
    simp only [claimChildrenLoop, pure, Except.pure, Except.ok.injEq] at h
    rw [← h]; exact hR.reflRel _
  | succ k ih =>
    intro i st st1 h
    simp only [claimChildrenLoop] at h
    rw [bind_ok] at h
    obtain ⟨node, -, h⟩ := h
    rw [bind_ok] at h
    obtain ⟨ptr, -, h⟩ := h
    split at h
    · rw [bind_ok] at h
      obtain ⟨s1, h1, h⟩ := h
      exact hR.thenRel _ _ _ (claimChildLoop_rel hR _ _ _ _ _ h1) (ih _ _ _ h)
    · simp only [pure_bind] at h
      exact ih _ _ _ h

theorem freeNonNodeLoop_rel {R : istree → istree → Prop} (hR : MarkingRel R) (a : Nat) :
    ∀ (k : Nat) (i : Int) (st st1 : istree),
      freeNonNodeLoop a k i st = .ok st1 → R st st1 := by
  intro k
  induction k with
  | zero =>
    intro i st st1 h
    simp only [freeNonNodeLoop, pure, Except.pure, Except.ok.injEq] at h
    rw [← h]; exact hR.reflRel _
  | succ k ih =>
    intro i st st1 h
    simp only [freeNonNodeLoop] at h
    rw [bind_ok] at h
    obtain ⟨node, -, h⟩ := h
    rw [bind_ok] at h
    obtain ⟨ptr, -, h⟩ := h
    refine hR.thenRel _ _ _ ?_ (ih _ _ _ h)
    split
    · exact hR.log _ _
    · exact hR.reflRel _

theorem claimSelfLoop_rel {R : istree → istree → Prop} (hR : MarkingRel R) (a : Nat) :
    ∀ (k : Nat) (st st1 : istree), claimSelfLoop a k st = .ok st1 → R st st1 := by
  intro k
  induction k with
  | zero => intro st st1 h; cases h
  | succ k ih =>
    intro st st1 h
    simp only [claimSelfLoop] at h
    rw [bind_ok] at h
    obtain ⟨node, -, h⟩ := h
    split at h
    · simp only [pure, Except.pure, Except.ok.injEq] at h
      rw [← h]; exact hR.reflRel _
    · rw [bind_ok] at h
      obtain ⟨⟨b, s1⟩, hc, h⟩ := h
      simp only at h
      have r1 : R st s1 := hR.cas _ _ _ _ _ _ hc (DirtyWrite.mark _)
      split at h
      · rw [bind_ok] at h
        obtain ⟨s, hs, h⟩ := h
        simp only [pure_bind] at h
        exact hR.thenRel _ _ _ (hR.thenRel _ _ _ r1
          (hR.thenRel _ _ _ (freeNonNodeLoop_rel hR _ _ _ _ _ hs) (hR.log _ _))) (ih _ _ h)
      · simp only [pure_bind] at h
        exact hR.thenRel _ _ _ r1 (ih _ _ h)

theorem helpFreeSubtree_rel {R : istree → istree → Prop} (hR : MarkingRel R) (st : istree)
    (a : Nat) (st1 : istree) (h : helpFreeSubtree st a = .ok st1) : R st st1 := by
  simp only [helpFreeSubtree] at h
  rw [bind_ok] at h
  obtain ⟨node, -, h⟩ := h
  rw [bind_ok] at h
  obtain ⟨s1, h1, h⟩ := h
  exact hR.thenRel _ _ _ (claimChildrenLoop_rel hR _ _ _ _ _ h1) (claimSelfLoop_rel hR _ _ _ _ h)

theorem DirtyWrite.keptStep {d d1 : Dirty} (h : DirtyWrite d d1) : DirtyKept d d1 := by
  cases h with
  | start => simp [DirtyKept, Dirty.clean, DIRTY_STARTED_MASK]
  | finish sum => simp [DirtyKept, Dirty.clean, DIRTY_STARTED_MASK, SUM_TO_DIRTY_FINISHED]
  | mark =>
    refine ⟨fun h => h, fun h => ⟨h, rfl⟩, fun _ => rfl, fun _ h2 => ?_⟩
    have := congrArg Dirty.markedForFree h2
    simp [Dirty.orMarkedForFree, Dirty.clean] at this

theorem DirtyForward.kept {d d1 : Dirty} (h : DirtyForward d d1) : DirtyKept d d1 := by
  induction h with
  | refl => exact ⟨id, fun h => ⟨h, rfl⟩, id, id⟩
  | tail _ hw ih =>
    have k := hw.keptStep
    refine ⟨fun h => k.1 (ih.1 h), fun h => ?_, fun h => k.2.2.1 (ih.2.2.1 h),
      fun h => k.2.2.2 (ih.2.2.2 h)⟩
    obtain ⟨h1, h2⟩ := ih.2.1 h
    obtain ⟨h3, h4⟩ := k.2.1 h1
    exact ⟨h3, by rw [h4, h2]⟩

theorem Marked.reflMarked (st : istree) : Marked st st :=
  ⟨rfl, rfl, fun _ n h => ⟨n, h, rfl, Relation.ReflTransGen.refl⟩⟩

theorem Marked.thenMarked {st st1 st2 : istree} (h1 : Marked st st1) (h2 : Marked st1 st2) :
    Marked st st2 := by
  refine ⟨?_, by rw [h2.len, h1.len], ?_⟩
  · have e1 := h1.rest
    have e2 := h2.rest
    rw [e2, e1]
  · intro a n hn
    obtain ⟨n1, hn1, hs1, hd1⟩ := h1.pt a n hn
    obtain ⟨n2, hn2, hs2, hd2⟩ := h2.pt a n1 hn1
    exact ⟨n2, hn2, hs1.thenShape hs2, Relation.ReflTransGen.trans hd1 hd2⟩

theorem Marked.ofSetNode {st : istree} {a : Nat} {n n1 : Node} (hn : st.nodes[a]? = some n)
    (hs : SameShape n n1) (hd : DirtyForward n.dirty n1.dirty) :
    Marked st (st.setNode a n1) := by
  refine ⟨rfl, by simp [istree.setNode], ?_⟩
  intro b m hb
  by_cases hba : b = a
  · subst hba
    rw [hn] at hb
    cases hb
    exact ⟨n1, getElem_setNode_same _ (lt_of_getElem hn), hs, hd⟩
  · refine ⟨m, ?_, rfl, Relation.ReflTransGen.refl⟩
    rw [getElem_setNode_ne _ (Ne.symm hba)]; exact hb

theorem marked_rel : MarkingRel Marked := by
  refine ⟨Marked.reflMarked, fun _ _ _ => Marked.thenMarked, ?_, ?_, ?_⟩
  · intro st a old new b st1 h hw
    simp only [casDirty] at h
    rw [bind_ok] at h
    obtain ⟨n, hg, h⟩ := h
    split at h
    · simp only [pure, Except.pure, Except.ok.injEq, Prod.mk.injEq] at h
      rw [← h.2]
      refine Marked.ofSetNode (getElem_of_getNode hg) (by simp [SameShape]) ?_
      rename_i hold
      rw [hold]
      exact Relation.ReflTransGen.single hw
    · simp only [pure, Except.pure, Except.ok.injEq, Prod.mk.injEq] at h
      rw [← h.2]; exact Marked.reflMarked _
  · intro st a node k hn
    exact Marked.ofSetNode hn (by simp [SameShape]) Relation.ReflTransGen.refl
  · intro st c
    exact ⟨rfl, rfl, fun _ n h => ⟨n, h, rfl, Relation.ReflTransGen.refl⟩⟩

/-! ### Counting the entries of a subtree -/

theorem cntSlots_step {rec : Word → Option (Nat × Bool)} {slots : List Word} {c i : Nat}
    {r : Nat × Bool} (h : cntSlots rec slots (c + 1) i = some r) :
    ∃ w r1 r2, slots[i]? = some w ∧ rec w = some r1 ∧ cntSlots rec slots c (i + 1) = some r2
      ∧ r = (r1.1 + r2.1, r1.2 && r2.2) := by
  simp only [cntSlots] at h
  cases hw : slots[i]? with
  | none => simp [hw] at h
  | some w =>
    simp only [hw] at h
    cases h1 : rec w with
    | none => simp [h1] at h
    | some r1 =>
      simp only [h1] at h
      cases h2 : cntSlots rec slots c (i + 1) with
      | none => simp [h2] at h
      | some r2 =>
        simp only [h2, Option.some.injEq] at h
        exact ⟨w, r1, r2, rfl, h1, rfl, h.symm⟩

theorem cntSlots_mono {rec rec1 : Word → Option (Nat × Bool)}
    (h : ∀ w r, rec w = some r → ∃ d, rec1 w = some (r.1, d) ∧ (r.2 = true → d = true))
    (slots : List Word) : ∀ (c i : Nat) (r : Nat × Bool), cntSlots rec slots c i = some r →
      ∃ d, cntSlots rec1 slots c i = some (r.1, d) ∧ (r.2 = true → d = true) := by
  intro c
  induction c with
  | zero =>
    intro i r hc
    simp only [cntSlots, Option.some.injEq] at hc
    subst hc
    exact ⟨true, rfl, fun _ => rfl⟩
  | succ c ih =>
    intro i r hc
    obtain ⟨w, r1, r2, hw, h1, h2, hr⟩ := cntSlots_step hc
    subst hr
    obtain ⟨d1, e1, m1⟩ := h w r1 h1
    obtain ⟨d2, e2, m2⟩ := ih (i + 1) r2 h2
    refine ⟨d1 && d2, by simp [cntSlots, hw, e1, e2], ?_⟩
    intro hb
    simp only [Bool.and_eq_true] at hb ⊢
    exact ⟨m1 hb.1, m2 hb.2⟩

theorem cntSlots_ext {rec rec1 : Word → Option (Nat × Bool)}
    (h : ∀ w r, rec w = some r → rec1 w = some r)
    (slots : List Word) : ∀ (c i : Nat) (r : Nat × Bool), cntSlots rec slots c i = some r →
      cntSlots rec1 slots c i = some r := by
  intro c
  induction c with
  | zero => intro i r hc; simpa [cntSlots] using hc
  | succ c ih =>
    intro i r hc
    obtain ⟨w, r1, r2, hw, h1, h2, hr⟩ := cntSlots_step hc
    subst hr
    simp [cntSlots, hw, h w r1 h1, ih (i + 1) r2 h2]

theorem cntSlots_get {rec : Word → Option (Nat × Bool)} {slots : List Word} :
    ∀ (c i : Nat) (r : Nat × Bool), cntSlots rec slots c i = some r →
      ∀ j, i ≤ j → j < i + c → ∃ w rj, slots[j]? = some w ∧ rec w = some rj := by
  intro c
  induction c with
  | zero => intro i r _ j h1 h2; omega
  | succ c ih =>
    intro i r hc j h1 h2
    obtain ⟨w, r1, r2, hw, hr1, hr2, _⟩ := cntSlots_step hc
    by_cases hji : j = i
    · subst hji; exact ⟨w, r1, hw, hr1⟩
    · exact ih (i + 1) r2 hr2 j (by omega) (by omega)

theorem cntWord_node {f : Nat} {st : istree} {a : Nat} {r : Nat × Bool}
    (h : cntWord (f + 1) st (Word.node a) = some r) :
    ∃ n r2, st.nodes[a]? = some n ∧ n.degree ≤ n.slots.length
      ∧ cntSlots (cntWord f st) n.slots n.degree 0 = some r2 ∧ r.1 = r2.1
      ∧ ((n.dirty = Dirty.clean ∧ r.2 = false)
          ∨ (n.dirty = SUM_TO_DIRTY_FINISHED r2.1 ∧ r2.2 = true ∧ r.2 = true)) := by
  simp only [cntWord] at h
  cases hn : st.nodes[a]? with
  | none => simp [hn] at h
  | some n =>
    simp only [hn] at h
    split at h
    swap
    · cases h
    rename_i hok
    cases hsl : cntSlots (cntWord f st) n.slots n.degree 0 with
    | none => simp [hsl] at h
    | some r2 =>
      simp only [hsl] at h
      refine ⟨n, r2, rfl, hok, hsl, ?_⟩
      split at h
      · rename_i hclean
        simp only [Option.some.injEq] at h
        subst h
        exact ⟨rfl, Or.inl ⟨hclean, rfl⟩⟩
      · split at h
        · rename_i hfin
          simp only [Option.some.injEq] at h
          subst h
          simp only [Bool.and_eq_true, decide_eq_true_eq] at hfin
          exact ⟨rfl, Or.inr ⟨hfin.1, hfin.2, rfl⟩⟩
        · cases h

theorem cntWord_node_clean {f : Nat} {st : istree} {a : Nat} {n : Node} {r2 : Nat × Bool}
    (hn : st.nodes[a]? = some n) (hok : n.degree ≤ n.slots.length)
    (hs : cntSlots (cntWord f st) n.slots n.degree 0 = some r2) (hd : n.dirty = Dirty.clean) :
    cntWord (f + 1) st (Word.node a) = some (r2.1, false) := by
  simp [cntWord, hn, hok, hs, hd]

theorem cntWord_node_fin {f : Nat} {st : istree} {a : Nat} {n : Node} {c : Nat}
    (hn : st.nodes[a]? = some n) (hok : n.degree ≤ n.slots.length)
    (hs : cntSlots (cntWord f st) n.slots n.degree 0 = some (c, true))
    (hd : n.dirty = SUM_TO_DIRTY_FINISHED c) :
    cntWord (f + 1) st (Word.node a) = some (c, true) := by
  have hne : ¬ SUM_TO_DIRTY_FINISHED c = Dirty.clean := by
    simp [SUM_TO_DIRTY_FINISHED, Dirty.clean]
  simp [cntWord, hn, hok, hs, hd, hne]

theorem cntWord_mono_succ (st : istree) : ∀ (f : Nat) (w : Word) (r : Nat × Bool),
    cntWord f st w = some r → cntWord (f + 1) st w = some r := by
  intro f
  induction f with
  | zero => intro w r h; simp [cntWord] at h
  | succ f ih =>
    intro w r h
    cases w with
    | kvpair k v => simpa [cntWord] using h
    | val v => simpa [cntWord] using h
    | emptyVal => simpa [cntWord] using h
    | null => simp [cntWord] at h
    | rebuildop o =>
      simp only [cntWord] at h ⊢
      cases ho : st.ops[o]? with
      | none => simp [ho] at h
      | some op =>
        simp only [ho] at h ⊢
        exact ih _ _ h
    | node a =>
      obtain ⟨n, r2, hn, hok, hs, hr, hcase⟩ := cntWord_node h
      have hs2 := cntSlots_ext ih n.slots n.degree 0 r2 hs
      rcases hcase with ⟨hc, hf⟩ | ⟨hfin, hall, hf⟩
      · have := cntWord_node_clean hn hok hs2 hc
        rw [this]; cases r; simp only at hr hf; subst hr hf; rfl
      · have hs3 : cntSlots (cntWord (f + 1) st) n.slots n.degree 0 = some (r2.1, true) := by
          rw [hs2]; cases r2; simp only at hall; subst hall; rfl
        have := cntWord_node_fin hn hok hs3 hfin
        rw [this]; cases r; simp only at hr hf; subst hr hf; rfl

theorem cntWord_mono (st : istree) {f g : Nat} (hfg : f ≤ g) (w : Word) (r : Nat × Bool)
    (h : cntWord f st w = some r) : cntWord g st w = some r := by
  induction hfg with
  | refl => exact h
  | step _ ih => exact cntWord_mono_succ st _ w r ih

theorem cntWord_unique (st : istree) {f g : Nat} {w : Word} {r1 r2 : Nat × Bool}
    (h1 : cntWord f st w = some r1) (h2 : cntWord g st w = some r2) : r1 = r2 := by
  have e1 := cntWord_mono st (Nat.le_max_left f g) w r1 h1
  have e2 := cntWord_mono st (Nat.le_max_right f g) w r2 h2
  rw [e1] at e2
  exact Option.some.inj e2

theorem CountStep.reflCount (skip : List Nat) (st : istree) : CountStep skip st st :=
  ⟨rfl, rfl, fun _ n h => ⟨n, h, rfl, Or.inl rfl⟩, fun _ _ _ h _ => h⟩

theorem CountStep.sameOps {skip : List Nat} {st st1 : istree} (h : CountStep skip st st1) :
    st1.ops = st.ops := by
  have := h.rest
  rw [this]

theorem cntSlots_flags {rec : Word → Option (Nat × Bool)} {slots : List Word} :
    ∀ (c i : Nat) (r : Nat × Bool), cntSlots rec slots c i = some r → r.2 = true →
      ∀ j, i ≤ j → j < i + c → ∃ w rj, slots[j]? = some w ∧ rec w = some (rj, true) := by
  intro c
  induction c with
  | zero => intro i r _ _ j h1 h2; omega
  | succ c ih =>
    intro i r hc hr j h1 h2
    obtain ⟨w, r1, r2, hw, hr1, hr2, e⟩ := cntSlots_step hc
    subst e
    simp only [Bool.and_eq_true] at hr
    by_cases hji : j = i
    · subst hji
      refine ⟨w, r1.1, hw, ?_⟩
      rw [hr1]; cases r1; simp only at hr; rw [hr.1]
    · exact ih (i + 1) r2 hr2 hr.2 j (by omega) (by omega)

theorem cntSlots_fin {recA recB : Word → Option (Nat × Bool)} {slots : List Word}
    (h : ∀ w rA, recA w = some rA → recB w = some (rA.1, true)) :
    ∀ (c i : Nat) (r : Nat × Bool), cntSlots recA slots c i = some r →
      cntSlots recB slots c i = some (r.1, true) := by
  intro c
  induction c with
  | zero => intro i r hc; simp only [cntSlots, Option.some.injEq] at hc; subst hc; rfl
  | succ c ih =>
    intro i r hc
    obtain ⟨w, r1, r2, hw, hr1, hr2, e⟩ := cntSlots_step hc
    subst e
    simp [cntSlots, hw, h w r1 hr1, ih (i + 1) r2 hr2]

theorem cntSlots_fin_on {recA recB0 recB : Word → Option (Nat × Bool)} {slots : List Word}
    (h : ∀ w rA cB, recA w = some rA → recB0 w = some (cB, true) →
      recB w = some (rA.1, true)) :
    ∀ (c i : Nat) (r rB : Nat × Bool), cntSlots recA slots c i = some r →
      cntSlots recB0 slots c i = some rB → rB.2 = true →
      cntSlots recB slots c i = some (r.1, true) := by
  intro c
  induction c with
  | zero => intro i r rB hc _ _; simp only [cntSlots, Option.some.injEq] at hc; subst hc; rfl
  | succ c ih =>
    intro i r rB hc hB hf
    obtain ⟨w, r1, r2, hw, hr1, hr2, e⟩ := cntSlots_step hc
    obtain ⟨w', b1, b2, hw', hb1, hb2, e'⟩ := cntSlots_step hB
    rw [hw] at hw'
    cases hw'
    subst e e'
    simp only [Bool.and_eq_true] at hf
    have hb1' : recB0 w = some (b1.1, true) := by
      rw [hb1]; cases b1; simp only at hf; rw [hf.1]
    simp [cntSlots, hw, h w r1 b1.1 hr1 hb1', ih (i + 1) r2 b2 hr2 hb2 hf.2]

theorem cntSlots_unique {st : istree} {f g : Nat} {slots : List Word} {c i : Nat}
    {r1 r2 : Nat × Bool} (h1 : cntSlots (cntWord f st) slots c i = some r1)
    (h2 : cntSlots (cntWord g st) slots c i = some r2) : r1 = r2 := by
  have e1 := cntSlots_ext (fun w r h => cntWord_mono st (Nat.le_max_left f g) w r h)
    slots c i r1 h1
  have e2 := cntSlots_ext (fun w r h => cntWord_mono st (Nat.le_max_right f g) w r h)
    slots c i r2 h2
  rw [e1] at e2
  exact Option.some.inj e2

theorem cntWord_finished {A B : istree} (hops : B.ops = A.ops)
    (hsh : ∀ (b : Nat) (n : Node), A.nodes[b]? = some n →
      ∃ n1, B.nodes[b]? = some n1 ∧ SameShape n n1) :
    ∀ (g : Nat) (w : Word) (r : Nat × Bool) (g0 c : Nat), cntWord g A w = some r →
      cntWord g0 B w = some (c, true) → cntWord g B w = some (r.1, true) := by
  intro g
  induction g with
  | zero => intro w r g0 c h; simp [cntWord] at h
  | succ g ih =>
    intro w r g0 c hA hB
    cases g0 with
    | zero => simp [cntWord] at hB
    | succ g0 =>
      cases w with
      | kvpair k v =>
        simp only [cntWord, Option.some.injEq] at hA ⊢
        rw [← hA]
      | val v =>
        simp only [cntWord, Option.some.injEq] at hA ⊢
        rw [← hA]
      | emptyVal =>
        simp only [cntWord, Option.some.injEq] at hA ⊢
        rw [← hA]
      | null => simp [cntWord] at hA
      | rebuildop o =>
        simp only [cntWord, hops] at hA hB ⊢
        cases ho : A.ops[o]? with
        | none => simp [ho] at hA
        | some op =>
          simp only [ho] at hA hB ⊢
          exact ih _ _ _ _ hA hB
      | node b =>
        obtain ⟨n, r2, hn, hok, hsl, hr, _⟩ := cntWord_node hA
        obtain ⟨nB, rB, hnB, hokB, hslB, hrB, hcaseB⟩ := cntWord_node hB
        obtain ⟨n1, hn1, hshape⟩ := hsh b n hn
        rw [hn1] at hnB
        cases hnB
        rcases hcaseB with ⟨_, hf⟩ | ⟨hfin, hall, _⟩
        · cases hf
        · rw [hshape.slots, hshape.degree] at hslB
          have hs1 := cntSlots_fin_on (fun w rA cB h1 h2 => ih w rA g0 cB h1 h2)
            n.degree 0 r2 rB hsl hslB hall
          have hu := cntSlots_unique hslB hs1
          rw [hr]
          refine cntWord_node_fin hn1 (by rw [hshape.degree, hshape.slots]; exact hok) ?_ ?_
          · rw [hshape.slots, hshape.degree]; exact hs1
          · rw [hfin, hu]

theorem cntWord_stable {skip : List Nat} {st st1 : istree} (hs : CountStep skip st st1) :
    ∀ (g : Nat) (w : Word) (r : Nat × Bool), cntWord g st w = some r →
      ∃ d, cntWord g st1 w = some (r.1, d) ∧ (r.2 = true → d = true) := by
  intro g
  induction g with
  | zero => intro w r h; simp [cntWord] at h
  | succ g ih =>
    intro w r h
    cases w with
    | kvpair k v => exact ⟨r.2, by simpa [cntWord] using h, id⟩
    | val v => exact ⟨r.2, by simpa [cntWord] using h, id⟩
    | emptyVal => exact ⟨r.2, by simpa [cntWord] using h, id⟩
    | null => simp [cntWord] at h
    | rebuildop o =>
      simp only [cntWord, hs.sameOps] at h ⊢
      cases ho : st.ops[o]? with
      | none => simp [ho] at h
      | some op =>
        simp only [ho] at h ⊢
        exact ih _ _ h
    | node b =>
      obtain ⟨n, r2, hn, hok, hsl, hr, hcase⟩ := cntWord_node h
      obtain ⟨n1, hn1, hshape, hd⟩ := hs.pt b n hn
      rcases hd with hd | ⟨_, g0, c, hfin⟩
      · obtain ⟨d2, e2, m2⟩ := cntSlots_mono ih n.slots n.degree 0 r2 hsl
        have hok1 : n1.degree ≤ n1.slots.length := by rw [hshape.degree, hshape.slots]; exact hok
        rw [← hshape.slots, ← hshape.degree] at e2
        rcases hcase with ⟨hc, hf⟩ | ⟨hfin, hall2, hf⟩
        · refine ⟨false, ?_, fun hx => by rw [hf] at hx; cases hx⟩
          rw [cntWord_node_clean hn1 hok1 e2 (by rw [hd, hc]), hr]
        · refine ⟨true, ?_, fun _ => rfl⟩
          rw [m2 hall2] at e2
          rw [hr]
          exact cntWord_node_fin hn1 hok1 e2 (by rw [hd, hfin])
      · exact ⟨true, cntWord_finished hs.sameOps (fun b n hb => by
          obtain ⟨n1, h1, h2, _⟩ := hs.pt b n hb
          exact ⟨n1, h1, h2⟩) _ _ _ _ _ h hfin, fun _ => rfl⟩

theorem CountStep.thenCount {skip : List Nat} {st st1 st2 : istree}
    (h1 : CountStep skip st st1) (h2 : CountStep skip st1 st2) : CountStep skip st st2 := by
  refine ⟨?_, by rw [h2.len, h1.len], ?_, ?_⟩
  · have e1 := h1.rest
    have e2 := h2.rest
    rw [e2, e1]
  · intro b n hn
    obtain ⟨n1, hn1, hs1, hd1⟩ := h1.pt b n hn
    obtain ⟨n2, hn2, hs2, hd2⟩ := h2.pt b n1 hn1
    refine ⟨n2, hn2, hs1.thenShape hs2, ?_⟩
    rcases hd1 with hd1 | ⟨hc1, g0, c, hfin1⟩
    · rcases hd2 with hd2 | ⟨hc2, hfin2⟩
      · exact Or.inl (by rw [hd2, hd1])
      · exact Or.inr ⟨by rw [← hd1]; exact hc2, hfin2⟩
    · obtain ⟨d, e, m⟩ := cntWord_stable h2 g0 _ _ hfin1
      exact Or.inr ⟨hc1, g0, c, by rw [e, m rfl]⟩
  · intro b n hb hn hd
    exact h2.started b n hb (h1.started b n hb hn hd) hd

theorem CountStep.widen {skip skip1 : List Nat} {st st1 : istree} (h : CountStep skip st st1)
    (hsub : ∀ b, b ∈ skip → b ∈ skip1) : CountStep skip1 st st1 :=
  ⟨h.rest, h.len, h.pt, fun b n hb => h.started b n (fun hx => hb (hsub b hx))⟩

theorem cntWord_frame {st st1 : istree} {a : Nat} (hops : st1.ops = st.ops)
    (hkeep : ∀ b, b ≠ a → st1.nodes[b]? = st.nodes[b]?) :
    ∀ (f : Nat), cntWord f st (Word.node a) = none →
      ∀ (w : Word) (r : Nat × Bool), cntWord f st w = some r → cntWord f st1 w = some r := by
  intro f
  induction f with
  | zero => intro _ w r h; simp [cntWord] at h
  | succ f ih =>
    intro hnone w r h
    have hnone1 : cntWord f st (Word.node a) = none := by
      cases hx : cntWord f st (Word.node a) with
      | none => rfl
      | some x => rw [cntWord_mono_succ st f _ x hx] at hnone; cases hnone
    cases w with
    | kvpair k v => simpa [cntWord] using h
    | val v => simpa [cntWord] using h
    | emptyVal => simpa [cntWord] using h
    | null => simp [cntWord] at h
    | rebuildop o =>
      simp only [cntWord, hops] at h ⊢
      cases ho : st.ops[o]? with
      | none => simp [ho] at h
      | some op =>
        simp only [ho] at h ⊢
        exact ih hnone1 _ _ h
    | node b =>
      by_cases hba : b = a
      · subst hba; rw [hnone] at h; cases h
      · obtain ⟨n, r2, hn, hok, hsl, hr, hcase⟩ := cntWord_node h
        have hn1 : st1.nodes[b]? = some n := by rw [hkeep b hba]; exact hn
        have hsl1 := cntSlots_ext (ih hnone1) n.slots n.degree 0 r2 hsl
        rcases hcase with ⟨hc, hf⟩ | ⟨hfin, hall, hf⟩
        · rw [cntWord_node_clean hn1 hok hsl1 hc]
          cases r; simp only at hr hf; subst hr hf; rfl
        · have hsl2 : cntSlots (cntWord f st1) n.slots n.degree 0 = some (r2.1, true) := by
            rw [hsl1]; cases r2; simp only at hall; subst hall; rfl
          rw [cntWord_node_fin hn1 hok hsl2 hfin]
          cases r; simp only at hr hf; subst hr hf; rfl

theorem cntWord_setNode {st : istree} {a : Nat} (n1 : Node) {f : Nat}
    (hnone : cntWord f st (Word.node a) = none) (w : Word) (r : Nat × Bool)
    (h : cntWord f st w = some r) : cntWord f (st.setNode a n1) w = some r :=
  @cntWord_frame st (st.setNode a n1) a rfl
    (fun _ hb => getElem_setNode_ne _ (Ne.symm hb)) f hnone w r h

theorem cntWord_started {s : istree} {a : Nat} {n : Node} (h : StartedAt s a n) (g : Nat) :
    cntWord g s (Word.node a) = none := by
  obtain ⟨na, h1, _, h3⟩ := h
  cases g with
  | zero => simp [cntWord]
  | succ g =>
    cases hx : cntWord (g + 1) s (Word.node a) with
    | none => rfl
    | some r =>
      obtain ⟨n9, r2, hn, _, _, _, hcase⟩ := cntWord_node hx
      rw [h1] at hn
      cases hn
      rcases hcase with ⟨hc, _⟩ | ⟨hfin, _, _⟩
      · rw [h3] at hc; simp [DIRTY_STARTED_MASK, Dirty.clean] at hc
      · rw [h3] at hfin; simp [DIRTY_STARTED_MASK, SUM_TO_DIRTY_FINISHED] at hfin

theorem StartedAt.keepStarted {skip : List Nat} {s s1 : istree} {a : Nat} {n : Node}
    (h : StartedAt s a n) (hm : CountStep skip s s1) : StartedAt s1 a n := by
  obtain ⟨na, h1, h2, h3⟩ := h
  obtain ⟨n1, g1, g2, g3⟩ := hm.pt a na h1
  refine ⟨n1, g1, h2.thenShape g2, ?_⟩
  rcases g3 with g3 | ⟨g4, _⟩
  · rw [g3, h3]
  · rw [h3] at g4
    simp [DIRTY_STARTED_MASK, Dirty.clean] at g4

theorem CountStep.atSetNode {skip : List Nat} {st : istree} {a : Nat} {n n1 : Node}
    (hn : st.nodes[a]? = some n) (hs : SameShape n n1) (hd : n1.dirty = n.dirty)
    (ha : a ∈ skip) : CountStep skip st (st.setNode a n1) := by
  refine ⟨rfl, by simp [istree.setNode], ?_, ?_⟩
  · intro b m hb
    by_cases hba : b = a
    · subst hba
      rw [hn] at hb
      cases hb
      exact ⟨n1, getElem_setNode_same _ (lt_of_getElem hn), hs, Or.inl hd⟩
    · refine ⟨m, ?_, rfl, Or.inl rfl⟩
      rw [getElem_setNode_ne _ (Ne.symm hba)]; exact hb
  · intro b m hb hm _
    have hba : b ≠ a := fun e => hb (e ▸ ha)
    rw [getElem_setNode_ne _ (Ne.symm hba)]; exact hm

theorem markSumLoop_total {f F : Nat} (hB : CountSpec f) (hF : f ≤ F) {n : Node} {a : Nat} :
    ∀ (cnt i keyCount : Nat) (s : istree) (rr : Nat × Bool), StartedAt s a n →
      i + cnt = n.degree → cntSlots (cntWord f s) n.slots cnt i = some rr →
      ∃ s2, markSumLoop (markAndCount F) a cnt (i : Int) keyCount s
          = .ok (Sum.inr (keyCount + rr.1), s2)
        ∧ CountStep [] s s2 ∧ cntSlots (cntWord f s2) n.slots cnt i = some (rr.1, true) := by
  intro cnt
  induction cnt with
  | zero =>
    intro i keyCount s rr _ _ hc
    simp only [cntSlots, Option.some.injEq] at hc
    subst hc
    exact ⟨s, by simp [markSumLoop, pure, Except.pure], CountStep.reflCount _ _, rfl⟩
  | succ cnt ih =>
    intro i keyCount s rr hst hsum hc
    obtain ⟨w, r1, r2, hw, h1, h2, hr⟩ := cntSlots_step hc
    subst hr
    obtain ⟨na, hget, hna, hshape, hdirty⟩ := startedAt_getNode hst
    have hptr : na.ptr (i : Int) = .ok w :=
      Node.ptr_ok na i w (by rw [hshape.degree]; omega) (by rw [hshape.slots]; exact hw)
    obtain ⟨s1, hrec, hm1, hk1⟩ := hB F s w r1 hF h1
    have hst1 := hst.keepStarted hm1
    obtain ⟨na1, hget1, hna1, hshape1, hdirty1⟩ := startedAt_getNode hst1
    obtain ⟨d2, e2, _⟩ := cntSlots_mono (cntWord_stable hm1 f) n.slots cnt (i + 1) r2 h2
    obtain ⟨s2, g1, g2, g3⟩ := ih (i + 1) (keyCount + r1.1) s1 _ hst1 (by omega) e2
    refine ⟨s2, ?_, hm1.thenCount g2, ?_⟩
    · have hcast : ((i : Nat) : Int) + 1 = ((i + 1 : Nat) : Int) := by simp
      simp only [markSumLoop, bind, Except.bind, hget, hptr, hrec, hget1, hdirty1,
        IS_DIRTY_FINISHED, DIRTY_STARTED_MASK, Bool.false_eq_true, if_false, hcast]
      rw [g1]
      simp only [Nat.add_assoc]
    · obtain ⟨d1, e1, m1⟩ := cntWord_stable g2 f w _ hk1
      simp only [cntSlots, hw, e1, g3, m1 rfl]
      rfl

theorem markClaimLoop_total {f F : Nat} (hB : CountSpec f) (hF : f ≤ F) {n : Node} {a : Nat} :
    ∀ (k : Nat) (s : istree) (rr : Nat × Bool) (na : Node), s.nodes[a]? = some na →
      SameShape n na → na.dirty = DIRTY_STARTED_MASK →
      cntSlots (cntWord f s) n.slots n.degree 0 = some rr →
      1 ≤ k → n.degree + 1 ≤ k + na.nextMarkAndCount →
      ∃ s2, markClaimLoop (markAndCount F) a k s = .ok (none, s2) ∧ CountStep [a] s s2 := by
  intro k
  induction k with
  | zero => intro s rr na _ _ _ _ hk _; omega
  | succ k ih =>
    intro s rr na hna hshape hdirty hc _ hk
    have hget := getNode_of_getElem hna
    have hstep : CountStep [a] s
        (s.setNode a { na with nextMarkAndCount := na.nextMarkAndCount + 1 }) :=
      CountStep.atSetNode hna (by simp [SameShape]) rfl (by simp)
    have hna0 : (s.setNode a { na with nextMarkAndCount := na.nextMarkAndCount + 1 }).nodes[a]?
        = some { na with nextMarkAndCount := na.nextMarkAndCount + 1 } :=
      getElem_setNode_same _ (lt_of_getElem hna)
    by_cases hix : na.nextMarkAndCount ≥ na.degree
    · exact ⟨_, by simp [markClaimLoop, bind, Except.bind, hget, hix, pure, Except.pure], hstep⟩
    · have hlt2 : na.nextMarkAndCount < n.degree := by
        rw [← hshape.degree]; omega
      obtain ⟨w, rj, hw, hj⟩ := cntSlots_get n.degree 0 rr hc na.nextMarkAndCount
        (by omega) (by omega)
      have hptr : na.ptr (na.nextMarkAndCount : Int) = .ok w :=
        Node.ptr_ok na _ w (by rw [hshape.degree]; omega) (by rw [hshape.slots]; exact hw)
      obtain ⟨dj, ej, _⟩ := cntWord_stable hstep f w rj hj
      obtain ⟨s1, hrec, hm1, _⟩ := hB F _ w _ hF ej
      have hna1 : s1.nodes[a]? = some { na with nextMarkAndCount := na.nextMarkAndCount + 1 } :=
        hm1.started a _ (by simp) hna0 hdirty
      have hget1 := getNode_of_getElem hna1
      obtain ⟨d2, e2, _⟩ := cntSlots_mono
        (cntWord_stable (hstep.thenCount (hm1.widen (by simp))) f) n.slots n.degree 0 rr hc
      obtain ⟨s2, g1, g2⟩ := ih s1 _ { na with nextMarkAndCount := na.nextMarkAndCount + 1 } hna1
        (hshape.thenShape (by simp [SameShape])) hdirty e2 (by omega)
        (by simp only; omega)
      refine ⟨s2, ?_, (hstep.thenCount (hm1.widen (by simp))).thenCount g2⟩
      simp only [markClaimLoop, bind, Except.bind, hget, hix, if_false, hptr, hrec, hget1]
      simp only [hdirty, IS_DIRTY_FINISHED, DIRTY_STARTED_MASK, Bool.false_eq_true, if_false]
      exact g1

theorem markFinish_total {f F : Nat} (hB : CountSpec f) (hF : f ≤ F) {n : Node} {a : Nat}
    {s2 : istree} {rr : Nat × Bool} (hst : StartedAt s2 a n)
    (hc : cntSlots (cntWord f s2) n.slots n.degree 0 = some rr) :
    ∃ s3 n3, (do
        let (r, st3) ← markSumLoop (markAndCount F) a n.degree 0 0 s2
        match r with
        | Sum.inl sum => pure (sum, st3)
        | Sum.inr keyCount => do
          let (_, st4) ← casDirty st3 a DIRTY_STARTED_MASK (SUM_TO_DIRTY_FINISHED keyCount)
          pure (keyCount, st4) : Except Fault (Nat × istree))
        = .ok (rr.1, s3.setNode a { n3 with dirty := SUM_TO_DIRTY_FINISHED rr.1 })
      ∧ CountStep [] s2 s3 ∧ s3.nodes[a]? = some n3 ∧ SameShape n n3
      ∧ n3.dirty = DIRTY_STARTED_MASK
      ∧ cntSlots (cntWord f s3) n.slots n.degree 0 = some (rr.1, true) := by
  obtain ⟨s3, g1, g2, g3⟩ := markSumLoop_total hB hF n.degree 0 0 s2 rr hst (by omega) hc
  have hst3 := hst.keepStarted g2
  obtain ⟨n3, hget3, hn3, hshape3, hdirty3⟩ := startedAt_getNode hst3
  refine ⟨s3, n3, ?_, g2, hn3, hshape3, hdirty3, g3⟩
  have g1' : markSumLoop (markAndCount F) a n.degree 0 0 s2 = .ok (Sum.inr rr.1, s3) := by
    simpa using g1
  simp only [bind, Except.bind, g1', casDirty, hget3, hdirty3, if_true, pure, Except.pure]

theorem markBody_total {f F : Nat} (hB : CountSpec f) (hF : f ≤ F) {n : Node} {a : Nat}
    (big : Prop) [Decidable big] {s1 : istree} {rr : Nat × Bool} (hst : StartedAt s1 a n)
    (hc : cntSlots (cntWord f s1) n.slots n.degree 0 = some rr) :
    ∃ s3 n3, (if big then do
          let y ← markClaimLoop (markAndCount F) a (n.degree + 1) s1
          match y.1 with
          | some sum => pure (sum, y.2)
          | none => do
            let (r, st3) ← markSumLoop (markAndCount F) a n.degree 0 0 y.2
            match r with
            | Sum.inl sum => pure (sum, st3)
            | Sum.inr keyCount => do
              let (_, st4) ← casDirty st3 a DIRTY_STARTED_MASK (SUM_TO_DIRTY_FINISHED keyCount)
              pure (keyCount, st4)
        else do
          let (r, st3) ← markSumLoop (markAndCount F) a n.degree 0 0 s1
          match r with
          | Sum.inl sum => pure (sum, st3)
          | Sum.inr keyCount => do
            let (_, st4) ← casDirty st3 a DIRTY_STARTED_MASK (SUM_TO_DIRTY_FINISHED keyCount)
            pure (keyCount, st4) : Except Fault (Nat × istree))
        = .ok (rr.1, s3.setNode a { n3 with dirty := SUM_TO_DIRTY_FINISHED rr.1 })
      ∧ CountStep [a] s1 s3 ∧ s3.nodes[a]? = some n3 ∧ SameShape n n3
      ∧ n3.dirty = DIRTY_STARTED_MASK
      ∧ cntSlots (cntWord f s3) n.slots n.degree 0 = some (rr.1, true) := by
  by_cases hbig : big
  · obtain ⟨na, hget, hna, hshape, hdirty⟩ := startedAt_getNode hst
    obtain ⟨s2, h2, hm2⟩ := markClaimLoop_total hB hF (n.degree + 1) s1 rr na hna hshape hdirty
      hc (by omega) (by omega)
    have hst2 := hst.keepStarted hm2
    obtain ⟨d2, e2, _⟩ := cntSlots_mono (cntWord_stable hm2 f) n.slots n.degree 0 rr hc
    obtain ⟨s3, n3, h3, hm3, hn3, hsh3, hd3, hc3⟩ := markFinish_total hB hF hst2 e2
    refine ⟨s3, n3, ?_, hm2.thenCount (hm3.widen (by simp)), hn3, hsh3, hd3, hc3⟩
    simp only [hbig, if_true]
    rw [bind_ok]
    exact ⟨(none, s2), h2, h3⟩
  · obtain ⟨s3, n3, h3, hm3, hn3, hsh3, hd3, hc3⟩ := markFinish_total hB hF hst hc
    refine ⟨s3, n3, ?_, hm3.widen (by simp), hn3, hsh3, hd3, hc3⟩
    simp only [hbig, if_false]
    exact h3

theorem markAndCount_total : ∀ f, CountSpec f := by
  intro f
  induction f with
  | zero => intro F st w r _ hc; simp [cntWord] at hc
  | succ f ih =>
    intro F st w r hF hc
    obtain ⟨F, rfl⟩ : ∃ F0, F = F0 + 1 := ⟨F - 1, by omega⟩
    have hF1 : f ≤ F := by omega
    cases w with
    | kvpair k v =>
      simp only [cntWord, Option.some.injEq] at hc
      subst hc
      exact ⟨st, by simp [markAndCount, IS_KVPAIR, pure, Except.pure],
        CountStep.reflCount _ _, by simp [cntWord]⟩
    | val v =>
      simp only [cntWord, Option.some.injEq] at hc
      subst hc
      exact ⟨st, by simp [markAndCount, IS_KVPAIR, IS_VAL, IS_EMPTY_VAL, pure, Except.pure],
        CountStep.reflCount _ _, by simp [cntWord]⟩
    | emptyVal =>
      simp only [cntWord, Option.some.injEq] at hc
      subst hc
      exact ⟨st, by simp [markAndCount, IS_KVPAIR, IS_VAL, IS_EMPTY_VAL, pure, Except.pure],
        CountStep.reflCount _ _, by simp [cntWord]⟩
    | null => simp [cntWord] at hc
    | rebuildop o =>
      simp only [cntWord] at hc
      cases ho : st.ops[o]? with
      | none => simp [ho] at hc
      | some op =>
        simp only [ho] at hc
        obtain ⟨st1, h1, h2, h3⟩ := ih F st _ r hF1 hc
        have hgo : st.getOp o = .ok op := by simp [istree.getOp, ho, pure, Except.pure]
        refine ⟨st1, ?_, h2, ?_⟩
        · simp only [markAndCount, IS_KVPAIR, IS_VAL, Bool.false_eq_true, if_false, bind,
            Except.bind, hgo]
          exact h1
        · simp only [cntWord, h2.sameOps, ho]
          exact h3
    | node a =>
      cases hlow : cntWord f st (Word.node a) with
      | some r0 =>
        -- the subtree is already countable with less fuel
        have e := cntWord_mono_succ st f _ r0 hlow
        rw [hc] at e
        cases e
        obtain ⟨st1, h1, h2, h3⟩ := ih (F + 1) st _ r (by omega) hlow
        exact ⟨st1, h1, h2, cntWord_mono_succ st1 f _ _ h3⟩
      | none =>
        obtain ⟨n, r2, hn, hok, hsl, hr1, hcase⟩ := cntWord_node hc
        have hget := getNode_of_getElem hn
        rcases hcase with ⟨hclean, hflag⟩ | ⟨hfin, hall, hflag⟩
        · -- the node is claimed: the state `s0`
          have hlt := lt_of_getElem hn
          have hs0a : (st.setNode a { n with dirty := DIRTY_STARTED_MASK }).nodes[a]?
              = some { n with dirty := DIRTY_STARTED_MASK } := getElem_setNode_same _ hlt
          have hst0 : StartedAt (st.setNode a { n with dirty := DIRTY_STARTED_MASK }) a n :=
            ⟨_, hs0a, by simp [SameShape], rfl⟩
          have hsl0 : cntSlots (cntWord f (st.setNode a { n with dirty := DIRTY_STARTED_MASK }))
              n.slots n.degree 0 = some r2 :=
            cntSlots_ext (cntWord_setNode _ hlow) n.slots n.degree 0 r2 hsl
          obtain ⟨s3, n3, hbody, hstep, hn3, hshape3, hd3, hsl3⟩ :=
            markBody_total ih hF1 (n.degree > st.MAX_ACCEPTABLE_LEAF_SIZE) hst0 hsl0
          have hst3 : StartedAt s3 a n := ⟨n3, hn3, hshape3, hd3⟩
          have hlt3 := lt_of_getElem hn3
          have hshape1 : SameShape n { n3 with dirty := SUM_TO_DIRTY_FINISHED r2.1 } := by
            have := hshape3
            unfold SameShape at this ⊢
            rw [this]
          have hs1a : (s3.setNode a { n3 with dirty := SUM_TO_DIRTY_FINISHED r2.1 }).nodes[a]?
              = some { n3 with dirty := SUM_TO_DIRTY_FINISHED r2.1 } :=
            getElem_setNode_same _ hlt3
          have hfr1 : ∀ (g : Nat) (w : Word) (x : Nat × Bool), cntWord g s3 w = some x →
              cntWord g (s3.setNode a { n3 with dirty := SUM_TO_DIRTY_FINISHED r2.1 }) w
                = some x :=
            fun g => cntWord_setNode _ (cntWord_started hst3 g)
          have hsl1 := cntSlots_ext (hfr1 f) n.slots n.degree 0 _ hsl3
          have hdone : cntWord (f + 1)
              (s3.setNode a { n3 with dirty := SUM_TO_DIRTY_FINISHED r2.1 }) (Word.node a)
                = some (r2.1, true) := by
            have e1 := hshape3.slots
            have e2 := hshape3.degree
            refine cntWord_node_fin hs1a ?_ ?_ rfl
            · rw [← e1, ← e2] at hok
              exact hok
            · rw [← e1, ← e2] at hsl1
              exact hsl1
          refine ⟨s3.setNode a { n3 with dirty := SUM_TO_DIRTY_FINISHED r2.1 }, ?_, ⟨?_, ?_, ?_, ?_⟩,
            by rw [hr1]; exact hdone⟩
          · have hcas : casDirty st a Dirty.clean DIRTY_STARTED_MASK
                = .ok (true, st.setNode a { n with dirty := DIRTY_STARTED_MASK }) := by
              simp [casDirty, bind, Except.bind, hget, hclean, pure, Except.pure]
            have hnf : ¬ IS_DIRTY_FINISHED n.dirty = true := by
              rw [hclean]; simp [IS_DIRTY_FINISHED, Dirty.clean]
            have hns : (!IS_DIRTY_STARTED n.dirty) = true := by
              rw [hclean]; simp [IS_DIRTY_STARTED, Dirty.clean]
            simp only [markAndCount, IS_KVPAIR, IS_VAL, Bool.false_eq_true, if_false]
            rw [bind_ok]
            refine ⟨(), by simp [assert, IS_NODE, pure, Except.pure], ?_⟩
            rw [bind_ok]
            refine ⟨(a, n), by simp [istree.derefWord, hget, bind, Except.bind, pure,
              Except.pure], ?_⟩
            simp only []
            rw [if_neg hnf, if_pos hns, bind_ok]
            refine ⟨(true, st.setNode a { n with dirty := DIRTY_STARTED_MASK }), hcas, ?_⟩
            simp only [pure_bind]
            rw [hr1]
            exact hbody
          · have h3 := hstep.rest
            simp only [istree.setNode] at h3 ⊢
            rw [h3]
          · have h3 := hstep.len
            simp only [istree.setNode, List.length_set] at h3 ⊢
            exact h3
          · intro b m hb
            by_cases hba : b = a
            · subst hba
              rw [hn] at hb
              cases hb
              exact ⟨_, hs1a, hshape1, Or.inr ⟨hclean, f + 1, r2.1, hdone⟩⟩
            · have hb0 : (st.setNode a { n with dirty := DIRTY_STARTED_MASK }).nodes[b]?
                  = some m := by
                rw [getElem_setNode_ne _ (Ne.symm hba)]; exact hb
              obtain ⟨m1, hm1, hsh1, hd1⟩ := hstep.pt b m hb0
              refine ⟨m1, ?_, hsh1, ?_⟩
              · rw [getElem_setNode_ne _ (Ne.symm hba)]; exact hm1
              · rcases hd1 with hd1 | ⟨hcl, g0, c, hfin0⟩
                · exact Or.inl hd1
                · exact Or.inr ⟨hcl, g0, c, hfr1 g0 _ _ hfin0⟩
          · intro b m _ hb hd
            have hba : b ≠ a := by
              intro e
              subst e
              rw [hn] at hb
              cases hb
              rw [hclean] at hd
              simp [DIRTY_STARTED_MASK, Dirty.clean] at hd
            have hb0 : (st.setNode a { n with dirty := DIRTY_STARTED_MASK }).nodes[b]?
                = some m := by
              rw [getElem_setNode_ne _ (Ne.symm hba)]; exact hb
            rw [getElem_setNode_ne _ (Ne.symm hba)]
            exact hstep.started b m (by simpa using hba) hb0 hd
        · refine ⟨st, ?_, CountStep.reflCount _ _, ?_⟩
          · simp only [markAndCount, IS_KVPAIR, IS_VAL, IS_NODE, assert, istree.derefWord,
              Bool.false_eq_true, if_false, if_true, pure_bind, hget]
            simp only [pure, Except.pure, bind, Except.bind]
            rw [hfin]
            simp only [IS_DIRTY_FINISHED, SUM_TO_DIRTY_FINISHED, DIRTY_FINISHED_TO_SUM, if_true,
              hr1]
          · rw [hc]
            cases r
            simp only at hflag
            subst hflag
            rfl

theorem sumSlots_of_cnt {rec : Word → Option (Nat × Bool)} {rec1 : Word → Option Nat}
    (h : ∀ w r, rec w = some r → rec1 w = some r.1) (slots : List Word) :
    ∀ (c i : Nat) (r : Nat × Bool), cntSlots rec slots c i = some r →
      sumSlots rec1 slots c i = some r.1 := by
  intro c
  induction c with
  | zero => intro i r hc; simp only [cntSlots, Option.some.injEq] at hc; subst hc; rfl
  | succ c ih =>
    intro i r hc
    obtain ⟨w, r1, r2, hw, hr1, hr2, e⟩ := cntSlots_step hc
    subst e
    simp [sumSlots, hw, h w r1 hr1, ih (i + 1) r2 hr2]

theorem countKeys_of_cnt (st : istree) : ∀ (f : Nat) (w : Word) (r : Nat × Bool),
    cntWord f st w = some r → countKeys f st w = some r.1 := by
  intro f
  induction f with
  | zero => intro w r h; simp [cntWord] at h
  | succ f ih =>
    intro w r h
    cases w with
    | kvpair k v => simp only [cntWord, Option.some.injEq] at h; subst h; rfl
    | val v => simp only [cntWord, Option.some.injEq] at h; subst h; rfl
    | emptyVal => simp only [cntWord, Option.some.injEq] at h; subst h; rfl
    | null => simp [cntWord] at h
    | rebuildop o =>
      simp only [cntWord, countKeys] at h ⊢
      cases ho : st.ops[o]? with
      | none => simp [ho] at h
      | some op =>
        simp only [ho] at h ⊢
        exact ih _ _ h
    | node a =>
      obtain ⟨n, r2, hn, hok, hsl, hr, _⟩ := cntWord_node h
      simp only [countKeys, hn, hok, if_true]
      rw [hr]
      exact sumSlots_of_cnt ih n.slots n.degree 0 r2 hsl

theorem allSlots_of_cnt {rec : Word → Option (Nat × Bool)} {rec1 : Word → Bool}
    (h : ∀ w c, rec w = some (c, true) → rec1 w = true) (slots : List Word) :
    ∀ (c i : Nat) (r : Nat × Bool), cntSlots rec slots c i = some r → r.2 = true →
      allSlots rec1 slots c i = true := by
  intro c
  induction c with
  | zero => intro i r _ _; rfl
  | succ c ih =>
    intro i r hc hf
    obtain ⟨w, r1, r2, hw, hr1, hr2, e⟩ := cntSlots_step hc
    subst e
    simp only [Bool.and_eq_true] at hf
    have h1 : rec w = some (r1.1, true) := by
      rw [hr1]; cases r1; simp only at hf; rw [hf.1]
    simp [allSlots, hw, h w r1.1 h1, ih (i + 1) r2 hr2 hf.2]

theorem allFinished_of_cnt (st : istree) : ∀ (f : Nat) (w : Word) (c : Nat),
    cntWord f st w = some (c, true) → allFinished f st w = true := by
  intro f
  induction f with
  | zero => intro w c h; simp [cntWord] at h
  | succ f ih =>
    intro w c h
    cases w with
    | kvpair k v => rfl
    | val v => rfl
    | emptyVal => rfl
    | null => simp [cntWord] at h
    | rebuildop o =>
      simp only [cntWord, allFinished] at h ⊢
      cases ho : st.ops[o]? with
      | none => simp [ho] at h
      | some op =>
        simp only [ho] at h ⊢
        exact ih _ _ h
    | node a =>
      have hk := countKeys_of_cnt st _ _ _ h
      obtain ⟨n, r2, hn, hok, hsl, hr, hcase⟩ := cntWord_node h
      rcases hcase with ⟨_, hf⟩ | ⟨hfin, hall, _⟩
      · cases hf
      · simp only at hr hk
        simp only [allFinished, hn, hk, Bool.and_eq_true, decide_eq_true_eq]
        exact ⟨by rw [hfin, hr], allSlots_of_cnt ih n.slots n.degree 0 r2 hsl hall⟩

theorem cntSlots_of_clean {rec : Word → Option (Nat × Bool)} {rec1 : Word → Option Nat}
    {rec2 : Word → Bool}
    (h : ∀ w c, rec1 w = some c → rec2 w = true → ∃ d, rec w = some (c, d))
    (slots : List Word) :
    ∀ (c i : Nat) (x : Nat), sumSlots rec1 slots c i = some x → allSlots rec2 slots c i = true →
      ∃ d, cntSlots rec slots c i = some (x, d) := by
  intro c
  induction c with
  | zero =>
    intro i x hs _
    simp only [sumSlots, Option.some.injEq] at hs
    subst hs
    exact ⟨true, rfl⟩
  | succ c ih =>
    intro i x hs ha
    simp only [sumSlots, allSlots] at hs ha
    cases hw : slots[i]? with
    | none => simp [hw] at hs
    | some w =>
      simp only [hw] at hs ha
      cases h1 : rec1 w with
      | none => simp [h1] at hs
      | some x1 =>
        simp only [h1] at hs
        cases h2 : sumSlots rec1 slots c (i + 1) with
        | none => simp [h2] at hs
        | some x2 =>
          simp only [h2, Option.some.injEq] at hs
          subst hs
          simp only [Bool.and_eq_true] at ha
          obtain ⟨d1, e1⟩ := h w x1 h1 ha.1
          obtain ⟨d2, e2⟩ := ih (i + 1) x2 h2 ha.2
          exact ⟨d1 && d2, by simp [cntSlots, hw, e1, e2]⟩

theorem cnt_of_clean (st : istree) : ∀ (f : Nat) (w : Word) (c : Nat),
    countKeys f st w = some c → allClean f st w = true → ∃ d, cntWord f st w = some (c, d) := by
  intro f
  induction f with
  | zero => intro w c h; simp [countKeys] at h
  | succ f ih =>
    intro w c h hcl
    cases w with
    | kvpair k v => simp only [countKeys, Option.some.injEq] at h; subst h; exact ⟨true, rfl⟩
    | val v => simp only [countKeys, Option.some.injEq] at h; subst h; exact ⟨true, rfl⟩
    | emptyVal => simp only [countKeys, Option.some.injEq] at h; subst h; exact ⟨true, rfl⟩
    | null => simp [countKeys] at h
    | rebuildop o =>
      simp only [countKeys, allClean, cntWord] at h hcl ⊢
      cases ho : st.ops[o]? with
      | none => simp [ho] at h
      | some op =>
        simp only [ho] at h hcl ⊢
        exact ih _ _ h hcl
    | node a =>
      simp only [countKeys, allClean] at h hcl
      cases hn : st.nodes[a]? with
      | none => simp [hn] at h
      | some n =>
        simp only [hn, Bool.and_eq_true, decide_eq_true_eq] at h hcl
        split at h
        swap
        · cases h
        rename_i hok
        obtain ⟨d, e⟩ := cntSlots_of_clean ih n.slots n.degree 0 c h hcl.2
        exact ⟨false, cntWord_node_clean hn hok e hcl.1⟩

theorem markAndCount_finished {f : Nat} {st : istree} {a c : Nat}
    (h : cntWord f st (Word.node a) = some (c, true)) (F : Nat) :
    markAndCount (F + 1) st (Word.node a) = .ok (c, st) := by
  cases f with
  | zero => simp [cntWord] at h
  | succ f =>
    obtain ⟨n, r2, hn, hok, hsl, hr, hcase⟩ := cntWord_node h
    have hget := getNode_of_getElem hn
    rcases hcase with ⟨_, hf⟩ | ⟨hfin, _, _⟩
    · cases hf
    · simp only at hr
      simp only [markAndCount, IS_KVPAIR, IS_VAL, IS_NODE, assert, istree.derefWord,
        Bool.false_eq_true, if_false, if_true, pure_bind, hget]
      simp only [pure, Except.pure, bind, Except.bind]
      rw [hfin]
      simp only [IS_DIRTY_FINISHED, SUM_TO_DIRTY_FINISHED, DIRTY_FINISHED_TO_SUM, if_true, hr]

/-! ## Properties: rebuild transparency (C8) -/

/-- C11 fails as stated: the leaf with the keys `-2^62`, `-1`, `1` (the leaf of the map after
`insert(-2^62, 10)`, `insert(-1, 20)`, `insert(1, 30)`) has strictly increasing keys and
caches the first and the last one, and `minKey <= -1 < maxKey`; the product
`3 * (-1 - (-2^62))` of source line 671 does not fit 64 bits, the index computed is `-1`, and
`interpolationSearch` stops at the read of `key(-1)` without a result. -/
theorem C11_counterexample :
    wideThree.nodes[4]? = some wideLeaf
    ∧ 2 ≤ wideLeaf.degree ∧ keysWellFormed wideLeaf = true
    ∧ wideLeaf.minKey ≤ -1 ∧ -1 < wideLeaf.maxKey
    ∧ predictedIndex ((wideLeaf.degree : Int) - 1) (-1) wideLeaf.minKey wideLeaf.maxKey = -1
    ∧ interpolationSearch (-1) wideLeaf = .error Fault.outOfBounds
    ∧ keysAtMost wideLeaf (-1) = 2 := by
  decide

/-- C11 (amended): on a node of degree at least 2 whose keys increase strictly and whose
`minKey` and `maxKey` cache the first and the last key, and for a key for which the read at
the predicted index stays inside the node, `interpolationSearch` returns the number of node
keys that are at most the key; for `minKey <= key < maxKey` the index `i` returned satisfies
`1 <= i <= degree-2` and `keys[i-1] <= key < keys[i]`.  The read stays inside the node
whenever `maxKey - minKey` and `numKeys * (key - minKey)` fit the signed 64-bit key type and
the degree fits an `int`; and whenever `interpolationSearch` returns, the read was inside
the node. -/
theorem C11_interpolationSearch_position (n : Node) (key : Int) (hd : 2 ≤ n.degree)
    (hwf : keysWellFormed n = true) :
    (indexInBounds key n = true →
      ∃ i : Nat, interpolationSearch key n = .ok (i : Int) ∧ i = keysAtMost n key ∧
        (n.minKey ≤ key → key < n.maxKey →
          1 ≤ i ∧ i ≤ n.degree - 2 ∧ keyAt n (i - 1) ≤ key ∧ key < keyAt n i))
    ∧ (fits64 (n.maxKey - n.minKey) = true →
        fits64 (((n.degree : Int) - 1) * (key - n.minKey)) = true →
        (n.degree : Int) ≤ 2147483648 → indexInBounds key n = true)
    ∧ (∀ ix : Int, interpolationSearch key n = .ok ix → indexInBounds key n = true) := by
  have hk := keysOK_of_wellFormed hwf
  refine ⟨?_, fun h1 h2 h3 => indexInBounds_of_fits (by omega) h1 h2 h3,
    fun ix h => indexInBounds_of_ok h⟩
  intro hb
  obtain ⟨r, hr, hlt, h1, h2⟩ := interpolationSearch_spec n key hk hb
  refine ⟨r, hr, (keysAtMost_eq hk key r hlt h1 h2).symm, ?_⟩
  intro hmin hmax
  rw [hk.min hd] at hmin
  rw [hk.max hd] at hmax
  have hr1 : 1 ≤ r := by
    by_contra hc
    have hr0 : r = 0 := by omega
    subst hr0
    have := h2 (by omega)
    omega
  have hr2 : r ≤ n.degree - 2 := by
    by_contra hc
    have hre : r = n.degree - 1 := by omega
    have := h1 (by omega)
    rw [hre] at this
    have e : n.degree - 1 - 1 = n.degree - 2 := by omega
    rw [e] at this
    omega
  exact ⟨hr1, hr2, h1 (by omega), h2 (by omega)⟩

/-- Witness for C11 on the node with the keys 10, 20, 30 and the key 25. -/
theorem C11_witness :
    2 ≤ threeKeyNode.degree ∧ keysWellFormed threeKeyNode = true
    ∧ indexInBounds 25 threeKeyNode = true
    ∧ ∃ i : Nat, interpolationSearch 25 threeKeyNode = .ok (i : Int) ∧
      i = keysAtMost threeKeyNode 25 ∧
      1 ≤ i ∧ i ≤ threeKeyNode.degree - 2 ∧ keyAt threeKeyNode (i - 1) ≤ 25 ∧
      25 < keyAt threeKeyNode i := by
  obtain ⟨i, h1, h2, h3⟩ :=
    (C11_interpolationSearch_position threeKeyNode 25 (by decide) (by decide)).1 (by decide)
  exact ⟨by decide, by decide, by decide, i, h1, h2, h3 (by decide) (by decide)⟩

/-- C12 fails as stated: the leaf with the keys `-2^62`, `-1`, `1` is well formed, and for the
key `-2^60` the result of `interpolationSearch` does not lie in `[0, degree-1]`: the product
`3 * (-2^60 - (-2^62))` of source line 671 does not fit 64 bits, the index computed is `-1`,
and the call stops at the read of `key(-1)` without a result. -/
theorem C12_counterexample :
    keysWellFormed wideLeaf = true
    ∧ predictedIndex ((wideLeaf.degree : Int) - 1) (-1152921504606846976) wideLeaf.minKey
        wideLeaf.maxKey = -1
    ∧ interpolationSearch (-1152921504606846976) wideLeaf = .error Fault.outOfBounds
    ∧ ¬ (∀ (n : Node) (key : Int), keysWellFormed n = true →
          ∃ i : Nat, interpolationSearch key n = .ok (i : Int) ∧ i ≤ n.degree - 1) := by
  refine ⟨by decide, by decide, by decide, ?_⟩
  intro h
  obtain ⟨i, hi, _⟩ := h wideLeaf (-1152921504606846976) (by decide)
  have he : interpolationSearch (-1152921504606846976) wideLeaf = .error Fault.outOfBounds := by
    decide
  rw [he] at hi
  cases hi

/-- C12 (amended): `interpolationSearch` returns 0 on every node of degree 1; on every node
of degree at least 2 it returns 0 when `key < minKey`, and, the bounds being in order
(`minKey <= maxKey`, as on every node with well-formed keys), `degree - 1` when
`key >= maxKey`; on every node with well-formed keys the result lies in `[0, degree-1]`
whenever there is one, and there is one when the read at the predicted index stays inside
the node. -/
theorem C12_interpolationSearch_boundaries (n : Node) (key : Int) :
    (n.degree = 1 → interpolationSearch key n = .ok 0) ∧
    (2 ≤ n.degree → key < n.minKey → interpolationSearch key n = .ok 0) ∧
    (2 ≤ n.degree → n.minKey ≤ n.maxKey → key ≥ n.maxKey →
      interpolationSearch key n = .ok ((n.degree : Int) - 1)) ∧
    (2 ≤ n.degree → keysWellFormed n = true → n.minKey ≤ n.maxKey) ∧
    (keysWellFormed n = true → indexInBounds key n = true →
      ∃ i : Nat, interpolationSearch key n = .ok (i : Int) ∧ i ≤ n.degree - 1) ∧
    (keysWellFormed n = true → ∀ ix : Int, interpolationSearch key n = .ok ix →
      0 ≤ ix ∧ ix ≤ (n.degree : Int) - 1) := by
  refine ⟨interpolationSearch_degree_one key n, ?_, ?_, ?_, ?_, ?_⟩
  · intro hd h
    exact interpolationSearch_below key n (by omega) h
  · intro hd h1 h2
    exact interpolationSearch_above key n (by omega) (by omega) h2
  · intro hd hwf
    have hk := keysOK_of_wellFormed hwf
    rw [hk.min hd, hk.max hd]
    by_cases h0 : 0 = n.degree - 2
    · rw [← h0]
    · exact le_of_lt (hk.sorted 0 (n.degree - 2) (by omega) (by omega))
  · intro hwf hb
    obtain ⟨r, hr, hlt, _, _⟩ := interpolationSearch_spec n key (keysOK_of_wellFormed hwf) hb
    exact ⟨r, hr, by omega⟩
  · intro hwf ix hr
    obtain ⟨r, hr, hlt, _, _⟩ := interpolationSearch_sound (keysOK_of_wellFormed hwf) hr
    omega

/-- Witness for C12: the root pseudo-node of degree 1, and the node with the keys 10, 20, 30
at the keys 5 and 30. -/
theorem C12_witness :
    interpolationSearch 25 rootOfFive = .ok 0 ∧
    interpolationSearch 5 threeKeyNode = .ok 0 ∧
    interpolationSearch 30 threeKeyNode = .ok ((threeKeyNode.degree : Int) - 1) ∧
    (∃ i : Nat, interpolationSearch 30 threeKeyNode = .ok (i : Int)
      ∧ i ≤ threeKeyNode.degree - 1) :=
  ⟨(C12_interpolationSearch_boundaries rootOfFive 25).1 (by decide),
   (C12_interpolationSearch_boundaries threeKeyNode 5).2.1 (by decide) (by decide),
   (C12_interpolationSearch_boundaries threeKeyNode 30).2.2.1 (by decide) (by decide)
     (by decide),
   (C12_interpolationSearch_boundaries threeKeyNode 30).2.2.2.2.1 (by decide) (by decide)⟩

/-- C13 (leftmost-slot invariant), evaluated where it fails.  After the inserts of 10..50 and
`insert(5,6)`, slot 0 of the leaf at address 8 holds `KVPAIR(5,6)`; `insert(5,7)` then
writes the non-empty `VAL(7)` into that slot 0.  On the empty map, `insert(5,10)` and
`insert(5,20)` leave `VAL(20)` in slot 0 of the root pseudo-node. -/
theorem C13_update_writes_val_into_slot0 :
    applyOps 100 (insertTens 5 ++ [(UpdateType.InsertReplace, 5, 6)]) emptyMap
      = .ok (stateAfter (insertTens 5 ++ [(UpdateType.InsertReplace, 5, 6)]))
    ∧ ((stateAfter (insertTens 5 ++ [(UpdateType.InsertReplace, 5, 6)])).nodes[8]?).map
        (fun n => n.slots[0]?) = some (some (Word.kvpair 5 6))
    ∧ (insert 100 (stateAfter (insertTens 5 ++ [(UpdateType.InsertReplace, 5, 6)])) 5 7).map
        (fun r => (r.1, (r.2.nodes[8]?).map (fun n => n.slots[0]?)))
      = .ok (6, some (some (Word.val 7)))
    ∧ applyOps 100 [(UpdateType.InsertReplace, 5, 10), (UpdateType.InsertReplace, 5, 20)]
        emptyMap
      = .ok (stateAfter [(UpdateType.InsertReplace, 5, 10), (UpdateType.InsertReplace, 5, 20)])
    ∧ ((stateAfter [(UpdateType.InsertReplace, 5, 10),
          (UpdateType.InsertReplace, 5, 20)]).nodes[0]?).map (fun n => n.slots[0]?)
      = some (some (Word.val 20))
    ∧ IS_VAL (Word.val 7) = true ∧ IS_EMPTY_VAL (Word.val 7) = false := by
  decide

/-- C20, the claim as stated fails: of the empty word both `IS_VAL` and `IS_EMPTY_VAL` hold
(`markAndCount` returns `1 - IS_EMPTY_VAL(ptr)` inside `if (IS_VAL(ptr))`), so two of the
five predicates hold, not exactly one. -/
theorem C20_counterexample :
    IS_VAL Word.emptyVal = true ∧ IS_EMPTY_VAL Word.emptyVal = true
    ∧ tagsHolding Word.emptyVal = 2
    ∧ ¬ (∀ w : Word, tagsHolding w = 1) := by
  refine ⟨rfl, rfl, rfl, ?_⟩
  intro h
  have := h Word.emptyVal
  revert this
  decide

/-- C20 (amended): of every word exactly one of `IS_NODE`, `IS_KVPAIR`, `IS_VAL`,
`IS_REBUILDOP` holds; `IS_EMPTY_VAL` holds of the empty word only, which is a `VAL` word, so
that of every word other than the empty one exactly one of the five predicates holds. -/
theorem C20_tag_exclusivity (w : Word) :
    kindsHolding w = 1
    ∧ (IS_EMPTY_VAL w = true ↔ w = Word.emptyVal)
    ∧ (IS_EMPTY_VAL w = true → IS_VAL w = true)
    ∧ (w ≠ Word.emptyVal → tagsHolding w = 1) := by
  cases w <;> simp [kindsHolding, tagsHolding, IS_NODE, IS_KVPAIR, IS_VAL, IS_EMPTY_VAL,
    IS_REBUILDOP]

/-- Witness for C20 on a `VAL` word. -/
theorem C20_witness : kindsHolding (Word.val 7) = 1 ∧ tagsHolding (Word.val 7) = 1 :=
  ⟨(C20_tag_exclusivity (Word.val 7)).1,
   (C20_tag_exclusivity (Word.val 7)).2.2.2 (by decide)⟩

/-- C19: the dirty field only moves forward.  Across `markAndCount` and across
`helpFreeSubtree` the dirty word of every node changes by a sequence of the three writes
`0 -> started`, `started -> finished(sum)` and `old -> old | marked-for-free` only; such a
sequence clears no bit, keeps a stored finished sum, and never turns a word that is not `0`
(in particular one that is marked for free) into `0`. -/
theorem C19_dirty_moves_forward :
    (∀ (F : Nat) (st : istree) (w : Word) (c : Nat) (st1 : istree),
      markAndCount F st w = .ok (c, st1) →
      ∀ (a : Nat) (n : Node), st.nodes[a]? = some n →
        ∃ n1, st1.nodes[a]? = some n1 ∧ DirtyForward n.dirty n1.dirty) ∧
    (∀ (st : istree) (a : Nat) (st1 : istree), helpFreeSubtree st a = .ok st1 →
      ∀ (b : Nat) (n : Node), st.nodes[b]? = some n →
        ∃ n1, st1.nodes[b]? = some n1 ∧ DirtyForward n.dirty n1.dirty) ∧
    (∀ d d1 : Dirty, DirtyForward d d1 →
      (d.started = true → d1.started = true) ∧
      (d.finished = true → d1.finished = true ∧ d1.sum = d.sum) ∧
      (d.markedForFree = true → d1.markedForFree = true ∧ d1 ≠ Dirty.clean)) := by
  refine ⟨?_, ?_, ?_⟩
  · intro F st w c st1 h a n hn
    obtain ⟨n1, h1, _, h2⟩ := (markAndCount_rel marked_rel F st w c st1 h).pt a n hn
    exact ⟨n1, h1, h2⟩
  · intro st a st1 h b n hn
    obtain ⟨n1, h1, _, h2⟩ := (helpFreeSubtree_rel marked_rel st a st1 h).pt b n hn
    exact ⟨n1, h1, h2⟩
  · intro d d1 h
    have k := h.kept
    refine ⟨k.1, k.2.1, fun hm => ⟨k.2.2.1 hm, k.2.2.2 ?_⟩⟩
    intro hc
    rw [hc] at hm
    simp [Dirty.clean] at hm

/-- Witness for C19: `markAndCount` on the leaf of `fiveKeys`, then `helpFreeSubtree` on it. -/
theorem C19_witness :
    (∃ n1, markedFiveKeys.nodes[1]? = some n1 ∧ DirtyForward Dirty.clean n1.dirty) ∧
    (∃ n1, freedFiveKeys.nodes[1]? = some n1 ∧
      DirtyForward (SUM_TO_DIRTY_FINISHED 5) n1.dirty) ∧
    ((SUM_TO_DIRTY_FINISHED 5).orMarkedForFree.finished = true ∧
      (SUM_TO_DIRTY_FINISHED 5).orMarkedForFree.sum = 5) :=
  ⟨C19_dirty_moves_forward.1 3 fiveKeys (Word.node 1) 5 markedFiveKeys (by decide) 1
      { capacity := 6, degree := 6, keys := [10, 20, 30, 40, 50],
        slots := [Word.emptyVal, Word.val 11, Word.val 21, Word.val 31, Word.val 41,
          Word.val 51],
        minKey := 10, maxKey := 50, initSize := 5, changeSum := 2, dirty := Dirty.clean,
        nextMarkAndCount := 0 } (by decide),
   C19_dirty_moves_forward.2.1 markedFiveKeys 1 freedFiveKeys (by decide) 1
      { capacity := 6, degree := 6, keys := [10, 20, 30, 40, 50],
        slots := [Word.emptyVal, Word.val 11, Word.val 21, Word.val 31, Word.val 41,
          Word.val 51],
        minKey := 10, maxKey := 50, initSize := 5, changeSum := 2,
        dirty := SUM_TO_DIRTY_FINISHED 5, nextMarkAndCount := 7 } (by decide),
   (C19_dirty_moves_forward.2.2 (SUM_TO_DIRTY_FINISHED 5)
      (SUM_TO_DIRTY_FINISHED 5).orMarkedForFree
      (Relation.ReflTransGen.single (DirtyWrite.mark _))).2.1 (by decide)⟩

/-- C16: `markAndCount` returns the number of non-empty keys.  For every word that roots a
finite subtree (of height at most `f`) in which every dirty field is clean, `markAndCount`
with fuel at least `f` returns `countKeys`, the number of non-empty entries of the subtree:
1 for a `KVPAIR`, 1 for a non-empty `VAL`, 0 for `EMPTY_VAL`, the count of the rebuild root
for a `REBUILDOP`, and for a `NODE` the sum of the counts of its `degree` children. -/
theorem C16_markAndCount_counts (f : Nat) (st : istree) (w : Word) (c : Nat)
    (hcount : countKeys f st w = some c) (hclean : allClean f st w = true) :
    (∀ F, f ≤ F → ∃ st1, markAndCount F st w = .ok (c, st1))
    ∧ (∀ g k v, countKeys (g + 1) st (Word.kvpair k v) = some 1)
    ∧ (∀ g v, countKeys (g + 1) st (Word.val v) = some 1)
    ∧ (∀ g, countKeys (g + 1) st Word.emptyVal = some 0)
    ∧ (∀ g o op, st.ops[o]? = some op →
        countKeys (g + 1) st (Word.rebuildop o) = countKeys g st (Word.node op.rebuildRoot))
    ∧ (∀ g a n, st.nodes[a]? = some n → n.degree ≤ n.slots.length →
        countKeys (g + 1) st (Word.node a) = sumSlots (countKeys g st) n.slots n.degree 0) := by
  refine ⟨?_, fun _ _ _ => rfl, fun _ _ => rfl, fun _ => rfl, ?_, ?_⟩
  · intro F hF
    obtain ⟨d, hd⟩ := cnt_of_clean st f w c hcount hclean
    obtain ⟨st1, h1, _, _⟩ := markAndCount_total f F st w _ hF hd
    exact ⟨st1, h1⟩
  · intro g o op ho
    simp [countKeys, ho]
  · intro g a n hn hok
    simp [countKeys, hn, hok]

/-- Witness for C16: `markAndCount` on the leaf of `fiveKeys` returns 5. -/
theorem C16_witness : ∃ st1, markAndCount 3 fiveKeys (Word.node 1) = .ok (5, st1) :=
  (C16_markAndCount_counts 2 fiveKeys (Word.node 1) 5 (by decide) (by decide)).1 3 (by decide)

/-- C17: the memoized count.  On a node whose subtree is finite (of height below `f`) and in
which every node is clean, or already finished with the number of entries of its own subtree
and only finished nodes below, `markAndCount` with fuel at least `f` returns that number `c`
and leaves the node and every node of its subtree (also those behind descriptors) with
`dirty == finished(s)`, `s` the number of non-empty entries of that node's own subtree; a
second `markAndCount` on the node returns `c` again and leaves the state as it is. -/
theorem C17_memoized_count (f : Nat) (st : istree) (a : Nat) (c : Nat) (d : Bool)
    (h : cntWord f st (Word.node a) = some (c, d)) :
    ∀ F, f ≤ F → ∃ st1, markAndCount F st (Word.node a) = .ok (c, st1)
      ∧ allFinished f st1 (Word.node a) = true
      ∧ countKeys f st1 (Word.node a) = some c
      ∧ ∀ F2, 1 ≤ F2 → markAndCount F2 st1 (Word.node a) = .ok (c, st1) := by
  intro F hF
  obtain ⟨st1, h1, _, h3⟩ := markAndCount_total f F st _ _ hF h
  refine ⟨st1, h1, allFinished_of_cnt st1 f _ c h3, countKeys_of_cnt st1 f _ _ h3, ?_⟩
  intro F2 hF2
  obtain ⟨F3, rfl⟩ : ∃ F3, F2 = F3 + 1 := ⟨F2 - 1, by omega⟩
  exact markAndCount_finished h3 F3

/-- Witness for C17: `markAndCount` on the clean leaf of `fiveKeys`. -/
theorem C17_witness :
    ∃ st1, markAndCount 3 fiveKeys (Word.node 1) = .ok (5, st1)
      ∧ allFinished 2 st1 (Word.node 1) = true
      ∧ countKeys 2 st1 (Word.node 1) = some 5
      ∧ ∀ F2, 1 ≤ F2 → markAndCount F2 st1 (Word.node 1) = .ok (5, st1) :=
  C17_memoized_count 2 fiveKeys 1 5 false (by decide) 3 (by decide)
/-! ## Lemmas for the claims C21 to C30 -/

/-- What `interpolationSearch` does past its guards on a node with well-formed keys when the
predicted index is a key index of the node: the result comes from the scan to the left, the
scan to the right, or the equality branch. -/
theorem interpolationSearch_branches (n : Node) (key : Int) (h : KeysOK n) (h2 : 2 ≤ n.degree)
    (hlo : n.minKey ≤ key) (hhi : key < n.maxKey) (hb : indexInBounds key n = true) :
    ∃ m : Nat, predictedIndex ((n.degree : Int) - 1) key n.minKey n.maxKey = (m : Int)
      ∧ m + 2 ≤ n.degree ∧ n.key (m : Int) = .ok (keyAt n m)
      ∧ ((key < keyAt n m ∧ ∃ r : Nat, 1 ≤ r ∧ r ≤ m ∧ scanLeft key n m = .ok (r : Int)
            ∧ interpolationSearch key n = .ok (r : Int))
        ∨ (keyAt n m < key ∧ ∃ r : Nat, m + 1 ≤ r ∧ r + 2 ≤ n.degree
            ∧ scanRight key n (n.degree - 2 - m) ((m : Int) + 1) = .ok (r : Int)
            ∧ interpolationSearch key n = .ok (r : Int))
        ∨ (key = keyAt n m ∧ interpolationSearch key n = .ok ((m : Int) + 1))) := by
  have hd : n.degree ≠ 1 := by omega
  have hlo' : ¬ key < n.minKey := by omega
  have hhi' : ¬ key ≥ n.maxKey := by omega
  unfold indexInBounds at hb
  simp only [hd, hlo', hhi', decide_False, Bool.false_or, Bool.and_eq_true, decide_eq_true_eq,
    Bool.not_eq_true'] at hb
  obtain ⟨⟨ht, hix0⟩, hixlt⟩ := hb
  obtain ⟨m, hm⟩ := Int.eq_ofNat_of_zero_le hix0
  have hmlt : m + 1 < n.degree := by omega
  have hkey : n.key (m : Int) = .ok (keyAt n m) := Node.key_ok n m hmlt h.len
  refine ⟨m, hm, by omega, hkey, ?_⟩
  have hlo2 : keyAt n 0 ≤ key := by rw [← h.min h2]; exact hlo
  have hhi2 : key < keyAt n (n.degree - 2) := by rw [← h.max h2]; exact hhi
  rw [interpolationSearch_past hd hlo' hhi' ht]
  simp only [hm, Except.bind, hkey]
  by_cases hc1 : key < keyAt n m
  · left
    simp only [hc1, if_true]
    have : ((m : Nat) : Int).toNat = m := by simp
    rw [this]
    obtain ⟨r, g1, g2, g3, _, _⟩ := scanLeft_spec key n h.len hlo2 m hmlt hc1
    exact ⟨trivial, r, by omega, g3, g1, g1⟩
  · simp only [hc1, if_false]
    by_cases hc2 : key > keyAt n m
    · right; left
      simp only [hc2, if_true]
      have e2 : ((n.degree : Int) - 1 - ((m : Int) + 1)).toNat = n.degree - 2 - m := by omega
      rw [e2]
      have e1 : (m : Int) + 1 = ((m + 1 : Nat) : Int) := by simp
      obtain ⟨r, g1, g2, g3, _, _⟩ := scanRight_spec key n h.len hhi2
        (n.degree - 2 - m) (m + 1) (by omega) (by omega) (by simpa using le_of_lt hc2)
      rw [← e1] at g1
      exact ⟨trivial, r, g2, by omega, g1, g1⟩
    · right; right
      simp only [hc2, if_false]
      exact ⟨by omega, rfl⟩

/-- When the read at the predicted index is outside the node, `interpolationSearch` stops at
the division or at that read. -/
theorem interpolationSearch_outside {n : Node} {key : Int} (hb : indexInBounds key n = false) :
    interpolationSearch key n = .error Fault.outOfBounds
    ∨ interpolationSearch key n = .error Fault.arithmetic := by
  unfold indexInBounds at hb
  simp only [Bool.or_eq_false_iff, decide_eq_false_iff_not, Bool.and_eq_false_iff,
    Bool.not_eq_eq_eq_not, Bool.not_false] at hb
  obtain ⟨⟨⟨hd, hlo⟩, hhi⟩, hrest⟩ := hb
  cases ht : divisionTraps ((n.degree : Int) - 1) key n.minKey n.maxKey with
  | true => exact Or.inr (interpolationSearch_traps hd hlo hhi ht)
  | false =>
    left
    rw [interpolationSearch_past hd hlo hhi ht]
    have hout : ¬ (0 ≤ predictedIndex ((n.degree : Int) - 1) key n.minKey n.maxKey
        ∧ predictedIndex ((n.degree : Int) - 1) key n.minKey n.maxKey < (n.degree : Int) - 1) := by
      rw [ht] at hrest
      rcases hrest with (h | h) | h
      · cases h
      · exact fun g => h g.1
      · exact fun g => h g.2
    unfold Node.key
    simp only [hout, if_false]
    rfl

theorem rebuildScan_skip (fuel : Nat) (st : istree) :
    ∀ (p1 pre rest : List Nat),
      (∀ x ∈ p1, ∃ m, st.nodes[x]? = some m ∧ needsRebuild st m = false) →
      rebuildScan fuel st pre (p1 ++ rest) = rebuildScan fuel st (p1.reverse ++ pre) rest := by
  intro p1
  induction p1 with
  | nil => intro pre rest _; rfl
  | cons a t ih =>
    intro pre rest h
    obtain ⟨m, hm, hneed⟩ := h a (List.mem_cons_self _ _)
    have e : rebuildScan fuel st pre (a :: (t ++ rest))
        = rebuildScan fuel st (a :: pre) (t ++ rest) := by
      rw [rebuildScan]
      simp only [getNode_of_getElem hm, bind, Except.bind, hneed]
      rfl
    rw [List.cons_append, e, ih (a :: pre) rest (fun x hx => h x (List.mem_cons_of_mem _ hx))]
    simp

theorem rebuildScan_none (fuel : Nat) (st : istree) (path : List Nat)
    (h : ∀ x ∈ path, ∃ m, st.nodes[x]? = some m ∧ needsRebuild st m = false) :
    rebuildScan fuel st [] path = .ok st := by
  have := rebuildScan_skip fuel st path [] [] h
  rw [List.append_nil] at this
  rw [this]
  rfl

theorem rebuildScan_first (fuel : Nat) (st : istree) (p1 : List Nat) (a : Nat) (p2 : List Nat)
    (n : Node) (h : ∀ x ∈ p1, ∃ m, st.nodes[x]? = some m ∧ needsRebuild st m = false)
    (hn : st.nodes[a]? = some n) (hneed : needsRebuild st n = true) :
    rebuildScan fuel st [] (p1 ++ a :: p2)
      = (match p1.getLast? with
        | none => rebuild fuel st a st.root 0 0
        | some parent =>
          (st.getNode parent).bind (fun parentNode =>
            (assert (decide (parentNode.degree > 1))).bind (fun _ =>
              (assert (decide (n.degree > 1))).bind (fun _ =>
                (n.key 0).bind (fun k0 =>
                  (interpolationSearch k0 parentNode).bind (fun index =>
                    rebuild fuel st a parent index p1.length)))))) := by
  rw [rebuildScan_skip fuel st p1 [] (a :: p2) h, List.append_nil]
  have hl : p1.getLast? = p1.reverse.head? := by rw [List.head?_reverse]
  have hlen : p1.length = p1.reverse.length := by simp
  rw [hl, hlen]
  generalize p1.reverse = r
  rw [rebuildScan]
  simp only [getNode_of_getElem hn, bind, Except.bind, hneed, if_true]
  cases r with
  | nil => rfl
  | cons p t => rfl

theorem incrementPath_spec : ∀ (path : List Nat) (st st4 : istree),
    incrementPath st path = .ok st4 →
    st4 = { st with nodes := st4.nodes } ∧ st4.nodes.length = st.nodes.length
      ∧ ∀ (x : Nat) (m : Node), st.nodes[x]? = some m →
          st4.nodes[x]? = some { m with changeSum := m.changeSum + path.count x } := by
  intro path
  induction path with
  | nil =>
    intro st st4 h
    simp only [incrementPath, pure, Except.pure, Except.ok.injEq] at h
    subst h
    exact ⟨rfl, rfl, fun x m hm => by simpa using hm⟩
  | cons a t ih =>
    intro st st4 h
    simp only [incrementPath, incrementChangeSum, bind, Except.bind] at h
    cases hg : st.getNode a with
    | error e => simp [hg] at h
    | ok na =>
      simp only [hg, pure, Except.pure] at h
      obtain ⟨h1, h2, h3⟩ := ih _ _ h
      have hna := getNode_eq_ok.mp hg
      have hlt := lt_of_getElem hna
      refine ⟨?_, ?_, ?_⟩
      · rw [h1]
        rfl
      · rw [h2]
        simp [istree.setNode]
      · intro x m hm
        by_cases hx : x = a
        · subst hx
          rw [hna] at hm
          cases hm
          have := h3 x { na with changeSum := na.changeSum + 1 }
            (by simp [istree.setNode, List.getElem?_set, hlt])
          rw [this]
          simp only [List.count_cons_self, Option.some.injEq]
          congr 1
          omega
        · have := h3 x m (by
            simp only [istree.setNode]
            rw [List.getElem?_set_ne (Ne.symm hx)]
            exact hm)
          rw [this]
          simp [List.count_cons, hx]

/-- The step of `doUpdate` at a slot that holds a `KVPAIR` or `VAL` word, when the decision
is to write and the DCSS succeeds. -/
theorem doUpdateLoop_swap (key val : Int) (t : UpdateType) (fuel : Nat) (st : istree)
    (node : Nat) (path : List Nat) (ixKnown : Option Int) (n : Node) (ix : Int) (word : Word)
    (newWord : Word) (aff : Bool) (fv : Int) (np : Bool) (nn : Option Nat) (st1 st2 : istree)
    (hn : st.getNode node = .ok n)
    (hi : ixKnown = some ix ∨ (ixKnown = none ∧ interpolationSearch key n = .ok ix))
    (hw : n.ptr ix = .ok word) (hleaf : (IS_KVPAIR word || IS_VAL word) = true)
    (hd : decideUpdate st n ix word key val t = .ok (Decision.swap newWord aff fv np nn, st1))
    (hdcss : dcssPtr st1 node ix word newWord = .ok (DcssStatus.DCSS_SUCCESS, st2)) :
    doUpdateLoop key val t (fuel + 1) st node path ixKnown
      = if aff = false then
          .ok (fv, if IS_KVPAIR word then st2.logSmr (SmrCall.retire word) else st2)
        else
          (incrementPath (if IS_KVPAIR word then st2.logSmr (SmrCall.retire word) else st2)
              path).bind (fun st4 =>
            (rebuildScan fuel st4 [] path).bind (fun st5 => .ok (fv, st5))) := by
  obtain ⟨j, hj, hjlt, _⟩ := Node.ptr_inv hw
  have h1 : ix ≥ 0 := by omega
  have h2 : ix < (n.degree : Int) := by omega
  rw [doUpdateLoop]
  rcases hi with hi | ⟨hi, hs⟩
  · subst hi
    simp only [hn, bind, Except.bind, pure, Except.pure, hw, hleaf, if_true, hd, assert, h1, h2,
      decide_True, hdcss]
    cases aff <;> rfl
  · subst hi
    simp only [hn, bind, Except.bind, pure, Except.pure, hs, hw, hleaf, if_true, hd, assert, h1,
      h2, decide_True, hdcss]
    cases aff <;> rfl

/-- The decision of `doUpdate` for `InsertReplace` at a slot that holds the key with a
value: write `VAL(val)`, which does not affect `changeSum`. -/
theorem decideUpdate_replace (st : istree) (n : Node) (ix : Int) (word : Word) (key val fv : Int)
    (hfound : word = Word.kvpair key fv
      ∨ (word = Word.val fv ∧ 0 < ix ∧ n.key (ix - 1) = .ok key))
    (hfv : fv ≠ st.NO_VALUE) (hpos : fv > 0) (hkey : key < Int.tdiv st.INF_KEY 8)
    (hval : val ≠ 0) :
    decideUpdate st n ix word key val UpdateType.InsertReplace
      = .ok (Decision.swap (Word.val val) false fv false none, st) := by
  have hb : (fv == st.NO_VALUE) = false := by simpa using hfv
  rcases hfound with h | ⟨h, hix, hk⟩
  · subst h
    simp [decideUpdate, assert, IS_EMPTY_VAL, IS_VAL, bind, Except.bind, pure, Except.pure, hb,
      hpos, hkey, payloadNonzero, hval]
  · subst h
    simp [decideUpdate, assert, IS_EMPTY_VAL, IS_VAL, bind, Except.bind, pure, Except.pure, hb,
      hpos, hkey, payloadNonzero, hval, hix, hk]

/-- A decision of `doUpdate` to write that does not affect `changeSum` is the replacement of
the value of a present key by `InsertReplace`. -/
theorem decideUpdate_affects {st st1 : istree} {n : Node} {ix : Int} {word : Word}
    {key val : Int} {t : UpdateType} {w : Word} {fv : Int} {np : Bool} {nn : Option Nat}
    (h : decideUpdate st n ix word key val t = .ok (Decision.swap w false fv np nn, st1)) :
    t = UpdateType.InsertReplace ∧ w = Word.val val ∧ fv ≠ st.NO_VALUE ∧ st1 = st
      ∧ (word = Word.kvpair key fv ∨ (word = Word.val fv ∧ n.key (ix - 1) = .ok key)) := by
  unfold decideUpdate at h
  simp only [bind, Except.bind] at h
  cases ha : assert (IS_EMPTY_VAL word || !IS_VAL word || decide (ix > 0)) with
  | error e => simp [ha] at h
  | ok u =>
    simp only [ha] at h
    cases word with
    | null => simp [throw, throwThe, MonadExceptOf.throw] at h
    | node a => simp [throw, throwThe, MonadExceptOf.throw] at h
    | rebuildop o => simp [throw, throwThe, MonadExceptOf.throw] at h
    | emptyVal =>
      by_cases hk : st.INF_KEY = key <;> by_cases c6 : val = 0 <;> cases t <;>
        simp [assert, payloadNonzero, hk, c6, pure, Except.pure, throw, throwThe,
          MonadExceptOf.throw] at h
    | kvpair k v =>
      simp only [pure, Except.pure] at h
      cases hb : assert (v == st.NO_VALUE ||
          (decide (v > 0) && decide (k < Int.tdiv st.INF_KEY 8))) with
      | error e => simp [hb] at h
      | ok u2 =>
        simp only [hb] at h
        generalize createLeaf st (if key < k then [(key, val), (k, v)] else [(k, v), (key, val)])
          = cl at h
        by_cases hk : k = key <;> by_cases c2 : v = st.NO_VALUE <;> by_cases c6 : val = 0 <;>
          cases t <;> cases cl <;>
          simp [assert, payloadNonzero, hk, c2, c6, pure, Except.pure, throw, throwThe,
            MonadExceptOf.throw] at h
        all_goals (
          obtain ⟨⟨h1, h2, -, -⟩, h3⟩ := h
          subst h1 h2 h3 hk
          exact ⟨rfl, rfl, c2, rfl, Or.inl rfl⟩)
    | val v =>
      cases hkk : n.key (ix - 1) with
      | error e => simp [hkk] at h
      | ok k =>
        simp only [hkk, pure, Except.pure] at h
        cases hb : assert (v == st.NO_VALUE ||
            (decide (v > 0) && decide (k < Int.tdiv st.INF_KEY 8))) with
        | error e => simp [hb] at h
        | ok u2 =>
          simp only [hb] at h
          generalize createLeaf st (if key < k then [(key, val), (k, v)] else [(k, v), (key, val)])
            = cl at h
          by_cases hk : k = key <;> by_cases c2 : v = st.NO_VALUE <;> by_cases c6 : val = 0 <;>
            cases t <;> cases cl <;>
            simp [assert, payloadNonzero, hk, c2, c6, pure, Except.pure, throw, throwThe,
              MonadExceptOf.throw] at h
          all_goals (
            obtain ⟨⟨h1, h2, -, -⟩, h3⟩ := h
            subst h1 h2 h3 hk
            exact ⟨rfl, rfl, c2, rfl, Or.inr ⟨rfl, rfl⟩⟩)

theorem chunk_length {l : List (Int × Int)} {cs rem m : Nat}
    (htot : chunkStart cs rem m = l.length) {j : Nat} (hj : j < m) :
    (chunk l cs rem j).length = chunkSize cs rem j := by
  unfold chunk
  rw [List.length_take, List.length_drop]
  have h1 : chunkStart cs rem (j + 1) ≤ chunkStart cs rem m := chunkStart_le cs rem (by omega)
  rw [chunkStart_succ] at h1
  omega

/-- On a node whose keys are usable for searching, the slot of a key is determined by the
two keys around it. -/
theorem interpolationSearch_unique {n : Node} (h : KeysOK n) {key : Int} {j : Nat}
    (hj : j < n.degree) (h1 : 0 < j → keyAt n (j - 1) ≤ key)
    (h2 : j + 1 < n.degree → key < keyAt n j) (hb : indexInBounds key n = true) :
    interpolationSearch key n = .ok (j : Int) := by
  obtain ⟨r, hr, hlt, g1, g2⟩ := interpolationSearch_spec n key h hb
  have e1 := keysAtMost_eq h key r hlt g1 g2
  have e2 := keysAtMost_eq h key j hj h1 h2
  rw [hr, ← e1, e2]

/-- A result of `interpolationSearch` on a node with well-formed keys is the slot that the
two keys around the key determine. -/
theorem interpolationSearch_result {n : Node} (h : KeysOK n) {key ix : Int} {j : Nat}
    (hj : j < n.degree) (h1 : 0 < j → keyAt n (j - 1) ≤ key)
    (h2 : j + 1 < n.degree → key < keyAt n j) (hr : interpolationSearch key n = .ok ix) :
    ix = (j : Int) := by
  have := interpolationSearch_unique h hj h1 h2 (indexInBounds_of_ok hr)
  rw [hr] at this
  simpa using this

theorem chunkSize_bounds (keyCount : Nat) (hk : 1 ≤ keyCount) (ix : Nat) :
    1 ≤ chunkSize (keyCount / ceilSqrt keyCount) (keyCount % ceilSqrt keyCount) ix
    ∧ (keyCount ≤ ceilSqrt keyCount * ceilSqrt keyCount →
        chunkSize (keyCount / ceilSqrt keyCount) (keyCount % ceilSqrt keyCount) ix
          ≤ ceilSqrt keyCount) := by
  have hpos := ceilSqrt_pos hk
  have hcs0 : 1 ≤ keyCount / ceilSqrt keyCount := Nat.div_pos (ceilSqrt_le _) (by omega)
  refine ⟨by unfold chunkSize; omega, ?_⟩
  intro h1
  have hcs : 1 ≤ keyCount / ceilSqrt keyCount := Nat.div_pos (ceilSqrt_le _) (by omega)
  have hle : keyCount / ceilSqrt keyCount ≤ ceilSqrt keyCount :=
    Nat.div_le_of_le_mul h1
  unfold chunkSize
  split
  · rename_i hlt
    have hrem : 0 < keyCount % ceilSqrt keyCount := by omega
    have hdm := Nat.div_add_mod keyCount (ceilSqrt keyCount)
    by_contra hc
    have he : keyCount / ceilSqrt keyCount = ceilSqrt keyCount := by omega
    rw [he] at hdm
    omega
  · omega

/-- The call of `addKVPairsSubset` in `subtreeBuildAndReplace`: child `ix` asks for
`chunkSize` pairs after skipping `chunkStart` pairs, and a fault of that call is a fault of
`subtreeBuildAndReplace`. -/
theorem subtreeBuildAndReplace_call {fuel : Nat} {st : istree} {o parent ix cs rem : Nat}
    {op : RebuildOperation} {e : Fault} (hop : st.getOp o = .ok op)
    (h : addKVPairsSubset st (SlotRef.slot parent ix) fuel op.rebuildRoot
      ⟨chunkStart cs rem ix, chunkSize cs rem ix, ⟨chunkSize cs rem ix, 1 + op.depth, []⟩⟩
      = .error e) :
    subtreeBuildAndReplace fuel st o parent ix cs rem = .error e := by
  unfold chunkStart chunkSize at h
  unfold subtreeBuildAndReplace
  simp only [bind, Except.bind, hop, h]

theorem pairsIncreasing_iff (l : List (Int × Int)) :
    pairsIncreasing l = true ↔ l.Pairwise (fun p q => p.1 < q.1) := by
  induction l with
  | nil => simp [pairsIncreasing]
  | cons a t ih =>
    cases t with
    | nil => simp [pairsIncreasing]
    | cons b rest =>
      simp only [pairsIncreasing, Bool.and_eq_true, decide_eq_true_eq, ih, List.pairwise_cons]
      constructor
      · rintro ⟨hab, h1, h2⟩
        refine ⟨?_, h1, h2⟩
        intro x hx
        rcases List.mem_cons.mp hx with rfl | hx
        · exact hab
        · exact lt_trans hab (h1 x hx)
      · rintro ⟨h0, h1, h2⟩
        exact ⟨h0 b (List.mem_cons_self _ _), h1, h2⟩

/-- For at least one pair with strictly increasing keys, `createLeaf` returns the address of
a new node with the fields that lines 906-929 write. -/
theorem createLeaf_total (st : istree) (pairs : List (Int × Int)) (hne : 1 ≤ pairs.length)
    (hinc : pairsIncreasing pairs = true) :
    ∃ (st1 : istree) (leaf : Node),
      createLeaf st pairs = .ok (st.nodes.length, st1)
      ∧ st1 = { st with nodes := st.nodes ++ [leaf] }
      ∧ leaf.capacity = pairs.length + 1 ∧ leaf.degree = pairs.length + 1
      ∧ leaf.initSize = pairs.length ∧ leaf.changeSum = 0 ∧ leaf.dirty = Dirty.clean
      ∧ leaf.slots = Word.emptyVal :: pairs.map (fun p => Word.val p.2)
      ∧ leaf.keys = pairs.map (fun p => p.1)
      ∧ leaf.minKey = keyAt leaf 0 ∧ leaf.maxKey = keyAt leaf (pairs.length - 1) := by
  unfold createLeaf
  simp only [createNode, bind, Except.bind, getNode_alloc, assert, hinc, if_true, pure,
    Except.pure]
  have e1 := Node.key_zero
    { capacity := pairs.length + 1, degree := pairs.length + 1,
      keys := pairs.map (fun p => p.1),
      slots := Word.emptyVal :: pairs.map (fun p => Word.val p.2), minKey := 0, maxKey := 0,
      initSize := pairs.length, changeSum := 0, dirty := Dirty.clean, nextMarkAndCount := 0 }
    (by simp only; omega) (by simp)
  have e2 := Node.key_last
    { capacity := pairs.length + 1, degree := pairs.length + 1,
      keys := pairs.map (fun p => p.1),
      slots := Word.emptyVal :: pairs.map (fun p => Word.val p.2), minKey := 0, maxKey := 0,
      initSize := pairs.length, changeSum := 0, dirty := Dirty.clean, nextMarkAndCount := 0 }
    (by simp only; omega) (by simp)
  simp only [Nat.add_sub_cancel] at e1 e2 ⊢
  rw [e1, e2]
  refine ⟨_, Node.mk (pairs.length + 1) (pairs.length + 1) (pairs.map (fun p => p.1))
      (Word.emptyVal :: pairs.map (fun p => Word.val p.2))
      ((pairs.map (fun p => p.1)).getD 0 0)
      ((pairs.map (fun p => p.1)).getD (pairs.length - 1) 0)
      pairs.length 0 Dirty.clean 0,
    rfl, ?_, rfl, rfl, rfl, rfl, rfl, rfl, rfl, rfl, rfl⟩
  simp [istree.setNode, istree.allocNode, keyAt]

theorem lookup_of_sorted : ∀ (l : List (Int × Int)), l.Pairwise (fun p q => p.1 < q.1) →
    ∀ (i : Nat) (p : Int × Int), l[i]? = some p → l.lookup p.1 = some p.2 := by
  intro l
  induction l with
  | nil => intro _ i p h; simp at h
  | cons q t ih =>
    intro hs i p h
    obtain ⟨qk, qv⟩ := q
    rw [List.pairwise_cons] at hs
    cases i with
    | zero =>
      simp only [List.getElem?_cons_zero, Option.some.injEq] at h
      subst h
      simp [List.lookup]
    | succ i =>
      simp only [List.getElem?_cons_succ] at h
      have hmem : p ∈ t := List.mem_iff_getElem?.mpr ⟨i, h⟩
      have hlt := hs.1 p hmem
      have hb : (p.1 == qk) = false := by
        simp only [beq_eq_false_iff_ne, ne_eq]
        intro e
        simp only at hlt
        omega
      simp only [List.lookup, hb]
      exact ih hs.2 i p h

theorem chkNode_succ_some_any {f : Nat} {st : istree} {lo hi : Option Int} {b : Nat}
    {r : List (Int × Int) × Bool} (h : chkNode false f st lo hi b = some r) :
    ∃ n r2, st.nodes[b]? = some n ∧ nodeShapeOK n lo hi = true
      ∧ chkSlots false (chkNode false (f - 1) st) n b lo hi n.degree 0 = some r2 ∧ r.1 = r2.1
      ∧ ((n.dirty = Dirty.clean ∧ r.2 = false)
        ∨ (n.dirty = SUM_TO_DIRTY_FINISHED r2.1.length ∧ r2.2 = true ∧ r.2 = true)) := by
  cases f with
  | zero => simp [chkNode] at h
  | succ f => exact chkNode_succ_some h

theorem addKVLoop_total {st : istree} {f : Nat} (hB : CollectTotal st f) {n : Node} {a : Nat}
    {lo hi : Option Int} (hn : st.nodes[a]? = some n) (hlen : n.degree - 1 ≤ n.keys.length)
    (fuel : Nat) (hfuel : f + 1 ≤ fuel) :
    ∀ (cnt i : Nat) (rr : List (Int × Int) × Bool) (b : IdealBuilder),
      i + cnt = n.degree → chkSlots false (chkNode false f st) n a lo hi cnt i = some rr →
      rr.2 = true → ∃ b1, addKVLoop st (addKVPairs st fuel) a cnt (i : Int) b = .ok b1 := by
  intro cnt
  induction cnt with
  | zero =>
    intro i rr b _ _ _
    exact ⟨b, rfl⟩
  | succ cnt ih =>
    intro i rr b hsum hc hflag
    obtain ⟨w, r1, r2, hw, h1, h2, hr⟩ := chkSlots_step hc
    subst hr
    simp only [Bool.and_eq_true] at hflag
    have hget := getNode_of_getElem hn
    have hptr : n.ptr (i : Int) = .ok w := Node.ptr_ok n i w (by omega) hw
    have hcast : ((i : Nat) : Int) + 1 = ((i + 1 : Nat) : Int) := by simp
    simp only [addKVLoop, bind, Except.bind, hget, hptr, hcast]
    cases w with
    | emptyVal =>
      simp only [IS_VAL, if_true]
      exact ih (i + 1) r2 b (by omega) h2 hflag.2
    | val v =>
      simp only [IS_VAL, if_true]
      simp only [chkSlot, Bool.false_and, Bool.false_eq_true, if_false] at h1
      split at h1
      swap
      · cases h1
      rename_i hpos
      have hdec : decide ((i : Int) > 0) = true := by simp; omega
      have hk : n.key ((i : Int) - 1) = .ok (keyAt n (i - 1)) := by
        have := Node.key_ok n (i - 1) (by omega) hlen
        have hc2 : ((i - 1 : Nat) : Int) = (i : Int) - 1 := by omega
        rw [hc2] at this
        exact this
      simp only [assert, hdec, if_true, pure, Except.pure, hk]
      exact ih (i + 1) r2 _ (by omega) h2 hflag.2
    | kvpair k v =>
      simp only [IS_VAL, Bool.false_eq_true, if_false]
      obtain ⟨fuel1, rfl⟩ : ∃ m, fuel = m + 1 := ⟨fuel - 1, by omega⟩
      simp only [addKVPairs, pure, Except.pure]
      exact ih (i + 1) r2 _ (by omega) h2 hflag.2
    | node c =>
      simp only [IS_VAL, Bool.false_eq_true, if_false]
      simp only [chkSlot] at h1
      split at h1
      swap
      · cases h1
      obtain ⟨l1, d1⟩ := r1
      simp only at hflag
      obtain ⟨hd1, hd2⟩ := hflag
      subst hd1
      obtain ⟨b2, hb2⟩ := hB fuel _ _ c l1 b hfuel h1
      simp only [hb2]
      exact ih (i + 1) r2 _ (by omega) h2 hd2
    | null => simp [chkSlot] at h1
    | rebuildop o => simp [chkSlot] at h1

theorem addKVPairs_total (st : istree) : ∀ f, CollectTotal st f := by
  intro f
  induction f with
  | zero => intro fuel lo hi a l b _ hc; simp [chkNode] at hc
  | succ f ih =>
    intro fuel lo hi a l b hfuel hc
    obtain ⟨fuel1, rfl⟩ : ∃ m, fuel = m + 1 := ⟨fuel - 1, by omega⟩
    obtain ⟨n, r2, hn, hok, hsl, hr1, hcase⟩ := chkNode_succ_some hc
    have hget := getNode_of_getElem hn
    have hf := nodeShapeOK_facts hok
    rcases hcase with ⟨_, hx⟩ | ⟨hdirty, hflag, _⟩
    · simp at hx
    simp only [addKVPairs, IS_NODE, assert, istree.derefWord, bind, Except.bind, pure,
      Except.pure, hget, if_true, hdirty, IS_DIRTY_FINISHED, IS_DIRTY_STARTED,
      SUM_TO_DIRTY_FINISHED, Bool.and_self]
    exact addKVLoop_total ih hn hf.keys.len fuel1 (by omega) n.degree 0 r2 b (by omega) hsl hflag

theorem addKVSubsetLoop_total {st : istree} {cs : SlotRef} {f : Nat}
    (hB : SubsetTotal st cs f) {n : Node} {a : Nat} {lo hi : Option Int}
    (hn : st.nodes[a]? = some n) (hlen : n.degree - 1 ≤ n.keys.length)
    (hcs : st.readRef cs = .ok Word.null) (fuel : Nat) (hfuel : f ≤ fuel) :
    ∀ (cnt i : Nat) (rr : List (Int × Int) × Bool) (s : SubsetArgs),
      i + cnt = n.degree → chkSlots false (chkNode false f st) n a lo hi cnt i = some rr →
      rr.2 = true → 0 < s.numKeysToAdd →
      ∃ s1, addKVSubsetLoop st (addKVPairsSubset st cs fuel) a cs cnt (i : Int) s = .ok s1 := by
  intro cnt
  induction cnt with
  | zero =>
    intro i rr s _ _ _ _
    exact ⟨s, rfl⟩
  | succ cnt ih =>
    intro i rr s hsum hc hflag hadd
    obtain ⟨w, r1, r2, hw, h1, h2, hr⟩ := chkSlots_step hc
    subst hr
    simp only [Bool.and_eq_true] at hflag
    have hget := getNode_of_getElem hn
    have hptr : n.ptr (i : Int) = .ok w := Node.ptr_ok n i w (by omega) hw
    have hcast : ((i : Nat) : Int) + 1 = ((i + 1 : Nat) : Int) := by simp
    have hnn : (Word.null != Word.null) = false := by decide
    have hadd2 : decide (s.numKeysToAdd > 0) = true := by simpa using hadd
    simp only [addKVSubsetLoop, bind, Except.bind, hcs, hnn, Bool.false_eq_true, if_false,
      assert, hadd2, if_true, pure, Except.pure, hget, hptr, hcast]
    cases w with
    | emptyVal =>
      exact ih (i + 1) r2 s (by omega) h2 hflag.2 hadd
    | val v =>
      simp only [chkSlot, Bool.false_and, Bool.false_eq_true, if_false] at h1
      split at h1
      swap
      · cases h1
      rename_i hpos
      simp only
      split
      · exact ih (i + 1) r2 _ (by omega) h2 hflag.2 hadd
      · have hdec : decide ((i : Int) > 0) = true := by simp; omega
        have hk : n.key ((i : Int) - 1) = .ok (keyAt n (i - 1)) := by
          have := Node.key_ok n (i - 1) (by omega) hlen
          have hc2 : ((i - 1 : Nat) : Int) = (i : Int) - 1 := by omega
          rw [hc2] at this
          exact this
        simp only [hdec, if_true, hk]
        split
        · exact ⟨_, rfl⟩
        · rename_i h0
          exact ih (i + 1) r2 _ (by omega) h2 hflag.2 (by simp only at h0 ⊢; omega)
    | kvpair k v =>
      simp only
      split
      · exact ih (i + 1) r2 _ (by omega) h2 hflag.2 hadd
      · split
        · exact ⟨_, rfl⟩
        · rename_i h0
          exact ih (i + 1) r2 _ (by omega) h2 hflag.2 (by simp only at h0 ⊢; omega)
    | node c =>
      simp only [chkSlot] at h1
      split at h1
      swap
      · cases h1
      obtain ⟨l1, d1⟩ := r1
      simp only at hflag
      obtain ⟨hd1, hd2⟩ := hflag
      subst hd1
      obtain ⟨child, r3, hchild, _, _, _, hcase⟩ := chkNode_succ_some_any h1
      rcases hcase with ⟨_, hx⟩ | ⟨hdirty, _, _⟩
      · simp at hx
      have hfin : IS_DIRTY_FINISHED child.dirty = true := by rw [hdirty]; rfl
      simp only [IS_NODE, istree.derefWord, bind, Except.bind, if_true, pure, Except.pure,
        getNode_of_getElem hchild, hfin]
      split
      · obtain ⟨s2, hs2⟩ := hB fuel _ _ c l1 s hfuel h1 hadd
        simp only [hs2]
        split
        · exact ⟨_, rfl⟩
        · rename_i h0
          exact ih (i + 1) r2 _ (by omega) h2 hd2 (by omega)
      · exact ih (i + 1) r2 _ (by omega) h2 hd2 hadd
    | null => simp [chkSlot] at h1
    | rebuildop o => simp [chkSlot] at h1

theorem addKVPairsSubset_total (st : istree) (cs : SlotRef)
    (hcs : st.readRef cs = .ok Word.null) : ∀ f, SubsetTotal st cs f := by
  intro f
  induction f with
  | zero => intro fuel lo hi a l s _ hc; simp [chkNode] at hc
  | succ f ih =>
    intro fuel lo hi a l s hfuel hc hadd
    obtain ⟨fuel1, rfl⟩ : ∃ m, fuel = m + 1 := ⟨fuel - 1, by omega⟩
    obtain ⟨n, r2, hn, hok, hsl, hr1, hcase⟩ := chkNode_succ_some hc
    have hget := getNode_of_getElem hn
    have hf := nodeShapeOK_facts hok
    rcases hcase with ⟨_, hx⟩ | ⟨hdirty, hflag, _⟩
    · simp at hx
    simp only [addKVPairsSubset, bind, Except.bind, hget]
    exact addKVSubsetLoop_total ih hn hf.keys.len hcs fuel1 (by omega) n.degree 0 r2 s (by omega)
      hsl hflag hadd

theorem claimChildLoop_marked {st : istree} {c : Nat} {m : Node} (ptr : Word) (k : Nat)
    (hm : st.nodes[c]? = some m) (hmk : m.dirty.markedForFree = true) :
    claimChildLoop c ptr (k + 1) st = .ok st := by
  simp [claimChildLoop, bind, Except.bind, getNode_of_getElem hm, IS_DIRTY_MARKED_FOR_FREE, hmk,
    pure, Except.pure]

theorem claimChildLoop_fresh {st : istree} {c : Nat} {m : Node} (ptr : Word)
    (hm : st.nodes[c]? = some m) (hmk : m.dirty.markedForFree = false) :
    claimChildLoop c ptr 2 st
      = .ok ((st.setNode c { m with dirty := m.dirty.orMarkedForFree }).logSmr
          (SmrCall.freeSubtree ptr true)) := by
  have hlt := lt_of_getElem hm
  have h2 : ((st.setNode c { m with dirty := m.dirty.orMarkedForFree }).logSmr
      (SmrCall.freeSubtree ptr true)).nodes[c]?
      = some { m with dirty := m.dirty.orMarkedForFree } := by
    show (st.setNode c _).nodes[c]? = _
    exact getElem_setNode_same _ hlt
  rw [claimChildLoop]
  simp only [bind, Except.bind, getNode_of_getElem hm, IS_DIRTY_MARKED_FOR_FREE, hmk,
    Bool.false_eq_true, if_false, casDirty, if_true, pure, Except.pure]
  exact claimChildLoop_marked ptr 0 h2 rfl

theorem ChildBefore.succOf {n : Node} {i c : Nat} (h : ChildBefore n i c) :
    ChildBefore n (i + 1) c := by
  obtain ⟨j, h1, h2, h3⟩ := h
  exact ⟨j, by omega, h2, h3⟩

theorem ChildBefore.ofSucc {n : Node} {i c : Nat} {w : Word} (hw : n.slots[i]? = some w)
    (hne : w ≠ Word.node c) (h : ChildBefore n (i + 1) c) : ChildBefore n i c := by
  obtain ⟨j, h1, h2, h3⟩ := h
  by_cases hj : j = i
  · subst hj
    rw [hw] at h3
    cases h3
    exact absurd rfl hne
  · exact ⟨j, by omega, h2, h3⟩

theorem claimChildrenLoop_claims {st : istree} {a : Nat} {n : Node}
    (hch : ∀ c, ChildBefore n n.degree c → c ≠ a) :
    ∀ (cnt i : Nat) (s : istree), i + cnt = n.degree → n.degree ≤ n.slots.length →
      ClaimedTo st s a n i →
      ∃ s1, claimChildrenLoop a cnt (i : Int) s = .ok s1 ∧ ClaimedTo st s1 a n n.degree := by
  intro cnt
  induction cnt with
  | zero =>
    intro i s hsum _ h
    have : i = n.degree := by omega
    subst this
    exact ⟨s, rfl, h⟩
  | succ cnt ih =>
    intro i s hsum hlen h
    have hi : i < n.slots.length := by omega
    obtain ⟨w, hw⟩ : ∃ w, n.slots[i]? = some w := ⟨n.slots[i], List.getElem?_eq_getElem hi⟩
    have hptr : n.ptr (i : Int) = .ok w := Node.ptr_ok n i w (by omega) hw
    have hcast : ((i : Nat) : Int) + 1 = ((i + 1 : Nat) : Int) := by simp
    simp only [claimChildrenLoop, bind, Except.bind, getNode_of_getElem h.self, hptr, hcast]
    have keep : (∀ c, w ≠ Word.node c) → ClaimedTo st s a n (i + 1) := by
      intro hne
      obtain ⟨L, hL1, hL2, hL3, hL4⟩ := h.log
      refine ⟨h.rest, h.self, ?_, L, hL1, hL2, ?_, ?_⟩
      · intro c hc
        obtain ⟨m1, g1, g2⟩ := h.child c hc
        exact ⟨m1, g1, g2.trans ⟨ChildBefore.succOf, ChildBefore.ofSucc hw (hne c)⟩⟩
      · intro c hc
        exact hL3 c (ChildBefore.ofSucc hw (hne c) hc)
      · intro c hc
        exact hL4 c (fun hb => hc hb.succOf)
    cases w with
    | node c =>
      have hcc : ChildBefore n n.degree c := ⟨i, by omega, by omega, hw⟩
      have hcnow : ChildBefore n (i + 1) c := ⟨i, by omega, by omega, hw⟩
      obtain ⟨m1, g1, g2⟩ := h.child c hcc
      cases hmk : m1.dirty.markedForFree with
      | true =>
        simp only [claimChildLoop_marked (Word.node c) 1 g1 hmk]
        apply ih (i + 1) s (by omega) hlen
        have hbefore := g2.mp hmk
        obtain ⟨L, hL1, hL2, hL3, hL4⟩ := h.log
        refine ⟨h.rest, h.self, ?_, L, hL1, hL2, ?_, ?_⟩
        · intro c2 hc2
          obtain ⟨m2, k1, k2⟩ := h.child c2 hc2
          refine ⟨m2, k1, k2.trans ⟨ChildBefore.succOf, ?_⟩⟩
          intro hb
          by_cases e : c2 = c
          · subst e; exact hbefore
          · exact ChildBefore.ofSucc hw (by simpa using fun x => e x.symm) hb
        · intro c2 hc2
          by_cases e : c2 = c
          · subst e; exact hL3 _ hbefore
          · exact hL3 c2 (ChildBefore.ofSucc hw (by simpa using fun x => e x.symm) hc2)
        · intro c2 hc2
          exact hL4 c2 (fun hb => hc2 hb.succOf)
      | false =>
        simp only [claimChildLoop_fresh (Word.node c) g1 hmk]
        apply ih (i + 1) _ (by omega) hlen
        have hnot : ¬ ChildBefore n i c := by
          intro hb
          have := g2.mpr hb
          rw [hmk] at this
          cases this
        have hca : c ≠ a := hch c hcc
        obtain ⟨L, hL1, hL2, hL3, hL4⟩ := h.log
        refine ⟨?_, ?_, ?_, L ++ [SmrCall.freeSubtree (Word.node c) true], ?_, ?_, ?_, ?_⟩
        · rw [h.rest]
          rfl
        · show (s.setNode c _).nodes[a]? = _
          rw [getElem_setNode_ne _ hca]
          exact h.self
        · intro c2 hc2
          by_cases e : c2 = c
          · subst e
            refine ⟨{ m1 with dirty := m1.dirty.orMarkedForFree }, ?_, ?_⟩
            · show (s.setNode c2 _).nodes[c2]? = _
              exact getElem_setNode_same _ (lt_of_getElem g1)
            · exact ⟨fun _ => hcnow, fun _ => rfl⟩
          · obtain ⟨m2, k1, k2⟩ := h.child c2 hc2
            refine ⟨m2, ?_, k2.trans ⟨ChildBefore.succOf, ?_⟩⟩
            · show (s.setNode c _).nodes[c2]? = _
              rw [getElem_setNode_ne _ (fun x => e x.symm)]
              exact k1
            · exact ChildBefore.ofSucc hw (by simpa using fun x => e x.symm)
        · show s.smrLog ++ _ = _
          rw [hL1, List.append_assoc]
        · intro e he
          rcases List.mem_append.mp he with he | he
          · exact hL2 e he
          · exact ⟨c, by simpa using he⟩
        · intro c2 hc2
          by_cases e : c2 = c
          · subst e
            rw [List.count_append, hL4 _ hnot]
            simp
          · rw [List.count_append,
              hL3 c2 (ChildBefore.ofSucc hw (by simpa using fun x => e x.symm) hc2)]
            simp [e]
        · intro c2 hc2
          have e : c2 ≠ c := by
            intro e; subst e; exact hc2 hcnow
          rw [List.count_append, hL4 c2 (fun hb => hc2 hb.succOf)]
          simp [e]
    | null => exact ih (i + 1) s (by omega) hlen (keep (by simp))
    | kvpair k v => exact ih (i + 1) s (by omega) hlen (keep (by simp))
    | val v => exact ih (i + 1) s (by omega) hlen (keep (by simp))
    | emptyVal => exact ih (i + 1) s (by omega) hlen (keep (by simp))
    | rebuildop o => exact ih (i + 1) s (by omega) hlen (keep (by simp))

theorem freeNonNodeLoop_log {a : Nat} {n : Node} :
    ∀ (cnt i : Nat) (s : istree), i + cnt = n.degree → n.degree ≤ n.slots.length →
      s.nodes[a]? = some n →
      ∃ L, freeNonNodeLoop a cnt (i : Int) s = .ok { s with smrLog := s.smrLog ++ L }
        ∧ ∀ e ∈ L, ∃ w, e = SmrCall.freeSubtree w true ∧ IS_NODE w = false := by
  intro cnt
  induction cnt with
  | zero =>
    intro i s _ _ _
    exact ⟨[], by simp [freeNonNodeLoop, pure, Except.pure], by simp⟩
  | succ cnt ih =>
    intro i s hsum hlen hn
    have hi : i < n.slots.length := by omega
    obtain ⟨w, hw⟩ : ∃ w, n.slots[i]? = some w := ⟨n.slots[i], List.getElem?_eq_getElem hi⟩
    have hptr : n.ptr (i : Int) = .ok w := Node.ptr_ok n i w (by omega) hw
    have hcast : ((i : Nat) : Int) + 1 = ((i + 1 : Nat) : Int) := by simp
    simp only [freeNonNodeLoop, bind, Except.bind, getNode_of_getElem hn, hptr, hcast]
    cases hnode : IS_NODE w with
    | true =>
      simp only [Bool.not_true, Bool.false_eq_true, if_false]
      exact ih (i + 1) s (by omega) hlen hn
    | false =>
      simp only [Bool.not_false, if_true]
      obtain ⟨L, h1, h2⟩ := ih (i + 1) (s.logSmr (SmrCall.freeSubtree w true)) (by omega) hlen hn
      refine ⟨SmrCall.freeSubtree w true :: L, ?_, ?_⟩
      · rw [h1]
        simp [istree.logSmr]
      · intro e he
        rcases List.mem_cons.mp he with he | he
        · exact ⟨w, he, hnode⟩
        · exact h2 e he

theorem claimSelfLoop_marked {s : istree} {a : Nat} {n : Node} (k : Nat)
    (hn : s.nodes[a]? = some n) (hmk : n.dirty.markedForFree = true) :
    claimSelfLoop a (k + 1) s = .ok s := by
  simp [claimSelfLoop, bind, Except.bind, getNode_of_getElem hn, IS_DIRTY_MARKED_FOR_FREE, hmk,
    pure, Except.pure]

theorem claimSelfLoop_fresh {s : istree} {a : Nat} {n : Node}
    (hn : s.nodes[a]? = some n) (hmk : n.dirty.markedForFree = false)
    (hlen : n.degree ≤ n.slots.length) :
    ∃ L, claimSelfLoop a 2 s
        = .ok { s with nodes := s.nodes.set a { n with dirty := n.dirty.orMarkedForFree },
                       smrLog := s.smrLog ++ L ++ [SmrCall.freeNode a true] }
      ∧ ∀ e ∈ L, ∃ w, e = SmrCall.freeSubtree w true ∧ IS_NODE w = false := by
  have hlt := lt_of_getElem hn
  have h2 : (s.setNode a { n with dirty := n.dirty.orMarkedForFree }).nodes[a]?
      = some { n with dirty := n.dirty.orMarkedForFree } := getElem_setNode_same _ hlt
  obtain ⟨L, h3, h4⟩ := freeNonNodeLoop_log (n := { n with dirty := n.dirty.orMarkedForFree })
    n.degree 0 (s.setNode a { n with dirty := n.dirty.orMarkedForFree }) (by simp) hlen h2
  refine ⟨L, ?_, h4⟩
  rw [claimSelfLoop]
  simp only [bind, Except.bind, getNode_of_getElem hn, IS_DIRTY_MARKED_FOR_FREE, hmk,
    Bool.false_eq_true, if_false, casDirty, if_true, pure, Except.pure]
  have h3b : freeNonNodeLoop a n.degree 0 (s.setNode a { n with dirty := n.dirty.orMarkedForFree })
      = .ok { s.setNode a { n with dirty := n.dirty.orMarkedForFree } with
              smrLog := (s.setNode a { n with dirty := n.dirty.orMarkedForFree }).smrLog ++ L } :=
    h3
  simp only [h3b]
  rw [claimSelfLoop_marked 0 (n := { n with dirty := n.dirty.orMarkedForFree })]
  · rfl
  · show (s.nodes.set a _)[a]? = _
    simp [List.getElem?_set, hlt]
  · rfl

theorem claimChildrenLoop_idle {a : Nat} {n : Node} :
    ∀ (cnt i : Nat) (s : istree), i + cnt = n.degree → n.degree ≤ n.slots.length →
      s.nodes[a]? = some n →
      (∀ j c, j < n.degree → n.slots[j]? = some (Word.node c) →
        ∃ m, s.nodes[c]? = some m ∧ m.dirty.markedForFree = true) →
      claimChildrenLoop a cnt (i : Int) s = .ok s := by
  intro cnt
  induction cnt with
  | zero => intro i s _ _ _ _; rfl
  | succ cnt ih =>
    intro i s hsum hlen hn hall
    have hi : i < n.slots.length := by omega
    obtain ⟨w, hw⟩ : ∃ w, n.slots[i]? = some w := ⟨n.slots[i], List.getElem?_eq_getElem hi⟩
    have hptr : n.ptr (i : Int) = .ok w := Node.ptr_ok n i w (by omega) hw
    have hcast : ((i : Nat) : Int) + 1 = ((i + 1 : Nat) : Int) := by simp
    simp only [claimChildrenLoop, bind, Except.bind, getNode_of_getElem hn, hptr, hcast]
    cases w with
    | node c =>
      obtain ⟨m, hm, hmk⟩ := hall i c (by omega) hw
      simp only [claimChildLoop_marked (Word.node c) 1 hm hmk]
      exact ih (i + 1) s (by omega) hlen hn hall
    | null => exact ih (i + 1) s (by omega) hlen hn hall
    | kvpair k v => exact ih (i + 1) s (by omega) hlen hn hall
    | val v => exact ih (i + 1) s (by omega) hlen hn hall
    | emptyVal => exact ih (i + 1) s (by omega) hlen hn hall
    | rebuildop o => exact ih (i + 1) s (by omega) hlen hn hall

/-- The descent of `doUpdate` follows the descent of `find` down to the slot where `find`
stops, as long as no descriptor is met. -/
theorem doUpdateLoop_reaches (key val : Int) (t : UpdateType) (st : istree) :
    ∀ (fuel : Nat) (a : Nat) (path : List Nat) (n : Node) (ix : Int) (word : Word)
      (s : FindStop),
      st.getNode a = .ok n → interpolationSearch key n = .ok ix → n.ptr ix = .ok word →
      findDescent st key fuel word a ix false = .ok s → s.sawRebuildOp = false →
      path.length + fuel ≤ 65 →
      ∃ (f2 : Nat) (path2 : List Nat) (m : Node), st.getNode s.parent = .ok m
        ∧ interpolationSearch key m = .ok s.ixToPtr ∧ m.ptr s.ixToPtr = .ok s.ptr
        ∧ doUpdateLoop key val t fuel st a path none
            = doUpdateLoop key val t (f2 + 1) st s.parent path2 none := by
  intro fuel
  induction fuel with
  | zero => intro a path n ix word s _ _ _ h; cases h
  | succ f ih =>
    intro a path n ix word s hn hi hw h hsaw hlen
    cases word with
    | node a2 =>
      rw [doUpdateLoop_node key val t f st a path n ix a2 hn hi hw]
      simp only [findDescent, bind, Except.bind] at h
      cases hn2 : st.getNode a2 with
      | error e => simp [hn2] at h
      | ok n2 =>
        simp only [hn2] at h
        cases hi2 : interpolationSearch key n2 with
        | error e => simp [hi2] at h
        | ok i2 =>
          simp only [hi2] at h
          cases hw2 : n2.ptr i2 with
          | error e => simp [hw2] at h
          | ok w2 =>
            simp only [hw2] at h
            have hlen2 : path.length + 1 ≤ 64 := by
              have hf : f ≠ 0 := by
                intro h0; subst h0; cases h
              omega
            simp only [assert, hlen2, decide_True, if_true, pure, Except.pure, Except.bind]
            exact ih a2 (path ++ [a2]) n2 i2 w2 s hn2 hi2 hw2 h hsaw
              (by simp only [List.length_append, List.length_singleton]; omega)
    | rebuildop o =>
      simp only [findDescent, bind, Except.bind] at h
      cases ho : st.getOp o with
      | error e => simp [ho] at h
      | ok op =>
        simp only [ho] at h
        have := findDescent_saw st key f _ a ix s h
        rw [hsaw] at this
        cases this
    | null =>
      simp only [findDescent, pure, Except.pure] at h
      cases h
      exact ⟨f, path, n, hn, hi, hw, rfl⟩
    | kvpair k v =>
      simp only [findDescent, pure, Except.pure] at h
      cases h
      exact ⟨f, path, n, hn, hi, hw, rfl⟩
    | val v =>
      simp only [findDescent, pure, Except.pure] at h
      cases h
      exact ⟨f, path, n, hn, hi, hw, rfl⟩
    | emptyVal =>
      simp only [findDescent, pure, Except.pure] at h
      cases h
      exact ⟨f, path, n, hn, hi, hw, rfl⟩

/-- The descent of `find` is the same after the value in the slot where it stops has been
replaced. -/
theorem findDescent_stable {st : istree} {T j : Nat} {m : Node} {fv : Int} (v : Int)
    (hm : st.nodes[T]? = some m) (hslot : m.slots[j]? = some (Word.val fv)) (key : Int) :
    ∀ (fuel : Nat) (word word1 : Word) (a : Nat) (ix : Int),
      (a = T → ix = (j : Int) → word = Word.val fv) →
      (a = T ∧ ix = (j : Int) → word1 = Word.val v) →
      (¬ (a = T ∧ ix = (j : Int)) → word1 = word) →
      findDescent st key fuel word a ix false = .ok ⟨Word.val fv, T, (j : Int), false⟩ →
      findDescent (st.setNode T { m with slots := m.slots.set j (Word.val v) }) key fuel word1
        a ix false = .ok ⟨Word.val v, T, (j : Int), false⟩ := by
  intro fuel
  induction fuel with
  | zero => intro word word1 a ix _ _ _ h; cases h
  | succ f ih =>
    intro word word1 a ix hcons h1 h2 h
    have hlt := lt_of_getElem hm
    have leaf : ∀ w : Word, (∀ x, w ≠ Word.node x) → (∀ o, w ≠ Word.rebuildop o) → word = w →
        findDescent (st.setNode T { m with slots := m.slots.set j (Word.val v) }) key (f + 1)
          word1 a ix false = .ok ⟨Word.val v, T, (j : Int), false⟩ := by
      intro w hw1 hw2 e
      subst e
      have hs : (⟨word, a, ix, false⟩ : FindStop) = ⟨Word.val fv, T, (j : Int), false⟩ := by
        cases word with
        | node x => exact absurd rfl (hw1 x)
        | rebuildop o => exact absurd rfl (hw2 o)
        | null => simp [findDescent, pure, Except.pure] at h
        | kvpair k v => simp [findDescent, pure, Except.pure] at h
        | val v => simpa [findDescent, pure, Except.pure] using h
        | emptyVal => simp [findDescent, pure, Except.pure] at h
      simp only [FindStop.mk.injEq] at hs
      obtain ⟨e1, e2, e3, _⟩ := hs
      rw [h1 ⟨e2, e3⟩, e2, e3]
      simp [findDescent, pure, Except.pure]
    cases word with
    | node a2 =>
      have hnot : ¬ (a = T ∧ ix = (j : Int)) := by
        rintro ⟨e1, e2⟩
        have := hcons e1 e2
        cases this
      rw [h2 hnot]
      simp only [findDescent, bind, Except.bind] at h ⊢
      cases hn2 : st.getNode a2 with
      | error e => simp [hn2] at h
      | ok n2 =>
        simp only [hn2] at h
        cases hi2 : interpolationSearch key n2 with
        | error e => simp [hi2] at h
        | ok i2 =>
          simp only [hi2] at h
          cases hw2 : n2.ptr i2 with
          | error e => simp [hw2] at h
          | ok w2 =>
            simp only [hw2] at h
            obtain ⟨k, hk, hklt, hks⟩ := Node.ptr_inv hw2
            subst hk
            have hn2e := getNode_eq_ok.mp hn2
            by_cases ha : a2 = T
            · subst ha
              rw [hm] at hn2e
              cases hn2e
              have hg : (st.setNode a2 { m with slots := m.slots.set j (Word.val v) }).getNode a2
                  = .ok { m with slots := m.slots.set j (Word.val v) } :=
                getNode_of_getElem (getElem_setNode_same _ hlt)
              have hic : interpolationSearch key { m with slots := m.slots.set j (Word.val v) }
                  = .ok (k : Int) := by
                rw [← hi2]
                exact @interpolationSearch_congr { m with slots := m.slots.set j (Word.val v) } m rfl rfl
                  rfl rfl key
              have hp : ({ m with slots := m.slots.set j (Word.val v) } : Node).ptr (k : Int)
                  = .ok (if k = j then Word.val v else w2) := by
                refine Node.ptr_ok { m with slots := m.slots.set j (Word.val v) } k _ hklt ?_
                simp only [List.getElem?_set]
                by_cases e : j = k
                · subst e
                  have := (List.getElem?_eq_some_iff.mp hks).1
                  simp [this]
                · have e2 : ¬ k = j := fun x => e x.symm
                  simp [e, e2, hks]
              simp only [hg, hic, hp]
              apply ih w2 _ a2 (k : Int) _ _ _ h
              · intro _ e
                have e2 : k = j := by omega
                subst e2
                rw [hslot] at hks
                cases hks
                rfl
              · rintro ⟨_, e⟩
                have e2 : k = j := by omega
                simp [e2]
              · intro hne
                have e2 : ¬ k = j := by
                  intro e; apply hne; exact ⟨rfl, by omega⟩
                simp [e2]
            · have hg : (st.setNode T { m with slots := m.slots.set j (Word.val v) }).getNode a2
                  = .ok n2 := by
                apply getNode_of_getElem
                rw [getElem_setNode_ne _ (fun x => ha x.symm)]
                exact hn2e
              simp only [hg, hi2, hw2]
              apply ih w2 w2 a2 (k : Int) _ _ _ h
              · intro e; exact absurd e ha
              · rintro ⟨e, _⟩; exact absurd e ha
              · intro _; rfl
    | rebuildop o =>
      simp only [findDescent, bind, Except.bind] at h
      cases ho : st.getOp o with
      | error e => simp [ho] at h
      | ok op =>
        simp only [ho] at h
        have := findDescent_saw st key f _ a ix _ h
        cases this
    | null => exact leaf _ (by simp) (by simp) rfl
    | kvpair k v => exact leaf _ (by simp) (by simp) rfl
    | val v => exact leaf _ (by simp) (by simp) rfl
    | emptyVal => exact leaf _ (by simp) (by simp) rfl

/-- An `insert` on a key that is present with a value replaces the value and changes nothing
else: the key is present afterwards with the new value, no `changeSum` or `initSize` has
changed, and no descriptor has been created. -/
theorem insert_present_step {st : istree} {key : Int} {fuel T j : Nat} {fv : Int}
    (h : PresentAt st key fuel T j fv) (hfuel : fuel ≤ 65) (v : Int) (hv : v > 0)
    (hv2 : v ≠ st.NO_VALUE) :
    ∃ st1, insert fuel st key v = .ok (fv, st1) ∧ PresentAt st1 key fuel T j v
      ∧ st1.ops = st.ops ∧ st1.NO_VALUE = st.NO_VALUE
      ∧ ∀ (x : Nat) (m : Node), st.nodes[x]? = some m →
          ∃ m1, st1.nodes[x]? = some m1 ∧ m1.changeSum = m.changeSum
            ∧ m1.initSize = m.initSize := by
  obtain ⟨rootNode, hroot, hdeg⟩ := h.root
  obtain ⟨m, hm, hkey, hdirty⟩ := h.node
  have hstop := h.stop
  simp only [findStop, bind, Except.bind, hroot] at hstop
  cases hw : rootNode.ptr 0 with
  | error e => simp [hw] at hstop
  | ok w =>
    simp only [hw] at hstop
    cases ha : assert (w != Word.null) with
    | error e => simp [ha] at hstop
    | ok u =>
      simp only [ha] at hstop
      obtain ⟨f2, path2, m', hm', hi', hp', heq⟩ := doUpdateLoop_reaches key v
        UpdateType.InsertReplace st fuel st.root [] rootNode 0 w _ hroot
        (interpolationSearch_degree_one key rootNode hdeg) hw hstop rfl (by simpa using hfuel)
      simp only at hm' hi' hp' heq
      rw [hm] at hm'
      cases hm'
      obtain ⟨j', hj', hjlt, hslot⟩ := Node.ptr_inv hp'
      have hjj : j' = j := by omega
      subst hjj
      have hmT := getNode_eq_ok.mp hm
      have hlt := lt_of_getElem hmT
      have hdec := decideUpdate_replace st m (j' : Int) (Word.val fv) key v fv
        (Or.inr ⟨rfl, by have := h.pos; omega, hkey⟩) h.val.2 h.val.1 h.key (by omega)
      have hdcss := dcssPtr_ok (Word.val v) hmT hjlt hslot hdirty
      have hrun := doUpdateLoop_swap key v UpdateType.InsertReplace f2 st T path2 none m
        (j' : Int) (Word.val fv) (Word.val v) false fv false none st _ hm
        (Or.inr ⟨rfl, hi'⟩) hp' rfl hdec hdcss
      simp only [if_true, IS_KVPAIR, Bool.false_eq_true, if_false] at hrun
      refine ⟨st.setNode T { m with slots := m.slots.set j' (Word.val v) }, ?_, ?_, rfl, rfl, ?_⟩
      · show doUpdateLoop key v UpdateType.InsertReplace fuel st st.root [] none = _
        rw [heq, hrun]
      · refine ⟨?_, ?_, h.pos, ?_, ⟨hv, hv2⟩, h.key⟩
        · by_cases hr : st.root = T
          · exfalso
            rw [hr, hm] at hroot
            cases hroot
            have := h.pos
            omega
          · refine ⟨rootNode, ?_, hdeg⟩
            show (st.setNode T _).getNode st.root = _
            apply getNode_of_getElem
            rw [getElem_setNode_ne _ (fun x => hr x.symm)]
            exact getNode_eq_ok.mp hroot
        · have hdesc := findDescent_stable v hmT hslot key fuel w w st.root 0
            (by intro _ e; have := h.pos; omega) (by rintro ⟨_, e⟩; have := h.pos; omega)
            (fun _ => rfl) hstop
          have hrootB : ∃ r1, (st.setNode T { m with slots := m.slots.set j' (Word.val v) }).getNode
              st.root = .ok r1 ∧ r1.ptr 0 = .ok w := by
            by_cases hr : st.root = T
            · exfalso
              rw [hr, hm] at hroot
              cases hroot
              have := h.pos
              omega
            · refine ⟨rootNode, ?_, hw⟩
              apply getNode_of_getElem
              rw [getElem_setNode_ne _ (fun x => hr x.symm)]
              exact getNode_eq_ok.mp hroot
          obtain ⟨r1, hr1, hr2⟩ := hrootB
          have hr1b : (st.setNode T { m with slots := m.slots.set j' (Word.val v) }).getNode
              (st.setNode T { m with slots := m.slots.set j' (Word.val v) }).root = .ok r1 := hr1
          simp only [findStop, bind, Except.bind, hr1b, hr2, ha]
          exact hdesc
        · refine ⟨{ m with slots := m.slots.set j' (Word.val v) },
            getNode_of_getElem (getElem_setNode_same _ hlt), ?_, hdirty⟩
          rw [← hkey]
          rfl
      · intro x mx hx
        by_cases hxT : x = T
        · rw [hxT, hmT] at hx
          cases hx
          rw [hxT]
          exact ⟨{ m with slots := m.slots.set j' (Word.val v) },
            getElem_setNode_same _ hlt, rfl, rfl⟩
        · refine ⟨mx, ?_, rfl, rfl⟩
          rw [getElem_setNode_ne _ (fun e => hxT e.symm)]
          exact hx

/-- Repeated inserts on a key that is present with a value never count as a change. -/
theorem repeatInsert_present (key : Int) (fuel T j : Nat) (hfuel : fuel ≤ 65) :
    ∀ (vs : List Int) (st : istree) (fv : Int), PresentAt st key fuel T j fv →
      (∀ v ∈ vs, v > 0 ∧ v ≠ st.NO_VALUE) →
      ∃ st1, repeatInsert fuel key vs st = .ok st1 ∧ st1.ops = st.ops
        ∧ ∀ (x : Nat) (m : Node), st.nodes[x]? = some m →
            ∃ m1, st1.nodes[x]? = some m1 ∧ m1.changeSum = m.changeSum
              ∧ m1.initSize = m.initSize := by
  intro vs
  induction vs with
  | nil =>
    intro st fv _ _
    exact ⟨st, rfl, rfl, fun x m hm => ⟨m, hm, rfl, rfl⟩⟩
  | cons v vs ih =>
    intro st fv h hvs
    obtain ⟨hv1, hv2⟩ := hvs v (List.mem_cons_self _ _)
    obtain ⟨st1, hrun, hp, hops, hnv, hkeep⟩ := insert_present_step h hfuel v hv1 hv2
    obtain ⟨st2, hrun2, hops2, hkeep2⟩ := ih st1 v hp (by
      intro v2 hv2
      rw [hnv]
      exact hvs v2 (List.mem_cons_of_mem _ hv2))
    refine ⟨st2, ?_, by rw [hops2, hops], ?_⟩
    · simp only [repeatInsert, bind, Except.bind, hrun]
      exact hrun2
    · intro x m hm
      obtain ⟨m1, g1, g2, g3⟩ := hkeep x m hm
      obtain ⟨m2, k1, k2, k3⟩ := hkeep2 x m1 g1
      exact ⟨m2, k1, by rw [k2, g2], by rw [k3, g3]⟩

set_option maxRecDepth 100000 in
set_option maxHeartbeats 8000000 in
theorem filledTen_facts :
    applyOps 100 (insertUpTo 10) tinyMap = .ok filledTen
    ∧ (filledTen.getNode filledTen.root).map (fun n => n.degree) = .ok 1
    ∧ findStop 60 filledTen 7 = .ok ⟨Word.val 70, 63, 1, false⟩
    ∧ (filledTen.getNode 63).map (fun m => (m.key 0, m.dirty)) = .ok (.ok 7, Dirty.clean)
    ∧ filledTen.INF_KEY = 4611686018427387904 ∧ filledTen.NO_VALUE = 0 := by
  decide

theorem filledTen_present : PresentAt filledTen 7 60 63 1 70 := by
  obtain ⟨_, h2, h3, h4, h5, h6⟩ := filledTen_facts
  refine ⟨?_, h3, by omega, ?_, ⟨by omega, by rw [h6]; omega⟩, by rw [h5]; decide⟩
  · cases hr : filledTen.getNode filledTen.root with
    | error e => rw [hr] at h2; cases h2
    | ok r =>
      rw [hr] at h2
      simp only [Except.map, Except.ok.injEq] at h2
      exact ⟨r, rfl, h2⟩
  · cases hr : filledTen.getNode 63 with
    | error e => rw [hr] at h4; cases h4
    | ok m =>
      rw [hr] at h4
      simp only [Except.map, Except.ok.injEq, Prod.mk.injEq] at h4
      exact ⟨m, rfl, h4.1, h4.2⟩
/-! ## Claims C21 to C30 -/

/-- C26, the claim as stated fails over a signed 64-bit key type: for `minKey = -2^63`,
`maxKey = 2^63 - 1`, `key = minKey + 1` and `numKeys = 2` the product `numKeys * (key -
minKey) = 2` fits, but `maxKey - minKey` does not: its 64-bit value is `-1`, and the computed
index is `-2`, which is neither the floor `0` of the exact quotient nor at least `0`. -/
theorem C26_counterexample :
    ¬ (∀ (numKeys key minKey maxKey : Int), 1 ≤ numKeys → numKeys < 2147483648 →
        fits64 key = true → fits64 minKey = true → fits64 maxKey = true →
        minKey ≤ key → key < maxKey → fits64 (numKeys * (key - minKey)) = true →
        predictedIndex numKeys key minKey maxKey
            = Int.fdiv (numKeys * (key - minKey)) (maxKey - minKey)
          ∧ 0 ≤ predictedIndex numKeys key minKey maxKey) := by
  intro h
  have h1 := h 2 (-9223372036854775807) (-9223372036854775808) 9223372036854775807
    (by decide) (by decide) (by decide) (by decide) (by decide) (by decide) (by decide)
    (by decide)
  revert h1
  decide

/-- C26 (amended): the predicted index is well defined and in range when the divisor fits
too.  `interpolationSearch` returns `0` on a node of degree 1 and for `key < minKey`, and
`degree - 1` for `key >= maxKey`, without dividing; so a node with `minKey == maxKey` never
divides.  Past these guards `minKey <= key < maxKey`, so `maxKey - minKey` is strictly
positive; and when both `maxKey - minKey` and `numKeys * (key - minKey)` fit the signed
64-bit key type (and `numKeys` fits an `int`), the index computed on machine integers equals
the floor of `numKeys*(key-minKey)/(maxKey-minKey)`, lies in `[0, numKeys-1]`, and is the
index at which `interpolationSearch` reads the first key. -/
theorem C26_predicted_index (n : Node) (key : Int) (hd : 2 ≤ n.degree) :
    (key < n.minKey → interpolationSearch key n = .ok 0)
    ∧ (n.minKey ≤ key → n.maxKey ≤ key →
        interpolationSearch key n = .ok ((n.degree : Int) - 1))
    ∧ (n.minKey = n.maxKey →
        interpolationSearch key n = .ok 0
        ∨ interpolationSearch key n = .ok ((n.degree : Int) - 1))
    ∧ (n.minKey ≤ key → key < n.maxKey →
        0 < n.maxKey - n.minKey
        ∧ (fits64 (n.maxKey - n.minKey) = true →
            fits64 (((n.degree : Int) - 1) * (key - n.minKey)) = true →
            (n.degree : Int) ≤ 2147483648 →
            predictedIndex ((n.degree : Int) - 1) key n.minKey n.maxKey
                = Int.fdiv (((n.degree : Int) - 1) * (key - n.minKey)) (n.maxKey - n.minKey)
            ∧ 0 ≤ predictedIndex ((n.degree : Int) - 1) key n.minKey n.maxKey
            ∧ predictedIndex ((n.degree : Int) - 1) key n.minKey n.maxKey
                ≤ ((n.degree : Int) - 1) - 1
            ∧ interpolationSearch key n
                = (n.key (predictedIndex ((n.degree : Int) - 1) key n.minKey n.maxKey)).bind
                    (fun ixKey =>
                      if key < ixKey then
                        scanLeft key n
                          (predictedIndex ((n.degree : Int) - 1) key n.minKey n.maxKey).toNat
                      else if key > ixKey then
                        scanRight key n
                          (((n.degree : Int) - 1)
                            - (predictedIndex ((n.degree : Int) - 1) key n.minKey n.maxKey + 1)).toNat
                          (predictedIndex ((n.degree : Int) - 1) key n.minKey n.maxKey + 1)
                      else pure (predictedIndex ((n.degree : Int) - 1) key n.minKey n.maxKey + 1)))) := by
  have hd1 : n.degree ≠ 1 := by omega
  refine ⟨fun h => interpolationSearch_below key n hd1 h,
    fun h1 h2 => interpolationSearch_above key n hd1 h1 h2, ?_, ?_⟩
  · intro he
    by_cases hk : key < n.minKey
    · exact Or.inl (interpolationSearch_below key n hd1 hk)
    · exact Or.inr (interpolationSearch_above key n hd1 (by omega) (by omega))
  · intro hlo hhi
    refine ⟨by omega, ?_⟩
    intro hf1 hf2 hdeg
    have hpos : 0 < n.maxKey - n.minKey := by omega
    have hnumnn : 0 ≤ ((n.degree : Int) - 1) * (key - n.minKey) := by
      apply mul_nonneg
      · omega
      · omega
    have hkm : fits64 (key - n.minKey) = true := by
      simp only [fits64, Bool.and_eq_true, decide_eq_true_eq] at hf1 ⊢
      omega
    have hix0 : 0 ≤ Int.tdiv (((n.degree : Int) - 1) * (key - n.minKey)) (n.maxKey - n.minKey) := by
      rw [Int.tdiv_eq_ediv hnumnn (le_of_lt hpos)]
      exact Int.ediv_nonneg hnumnn (le_of_lt hpos)
    have hixlt : Int.tdiv (((n.degree : Int) - 1) * (key - n.minKey)) (n.maxKey - n.minKey)
        < (n.degree : Int) - 1 := by
      rw [Int.tdiv_eq_ediv hnumnn (le_of_lt hpos)]
      apply Int.ediv_lt_of_lt_mul hpos
      apply mul_lt_mul_of_pos_left
      · omega
      · omega
    have hp : predictedIndex ((n.degree : Int) - 1) key n.minKey n.maxKey
        = Int.tdiv (((n.degree : Int) - 1) * (key - n.minKey)) (n.maxKey - n.minKey) := by
      unfold predictedIndex
      rw [wrap64_of_fits hkm, wrap64_of_fits hf2, wrap64_of_fits hf1]
      exact wrap32_of_range (by omega) (by omega)
    rw [hp]
    refine ⟨?_, hix0, by omega, ?_⟩
    · rw [Int.tdiv_eq_ediv hnumnn (le_of_lt hpos), Int.fdiv_eq_ediv _ (le_of_lt hpos)]
    · have hlo' : ¬ key < n.minKey := by omega
      have hhi' : ¬ key ≥ n.maxKey := by omega
      rw [interpolationSearch_past hd1 hlo' hhi' (divisionTraps_of_fits hf1 hpos), hp]

/-- Witness for C26 on the node with the keys 10, 20, 30 and the key 25: the index is
`3 * 15 / 20 = 2`. -/
theorem C26_witness :
    2 ≤ threeKeyNode.degree
    ∧ predictedIndex ((threeKeyNode.degree : Int) - 1) 25 threeKeyNode.minKey threeKeyNode.maxKey
        = Int.fdiv (((threeKeyNode.degree : Int) - 1) * (25 - threeKeyNode.minKey))
            (threeKeyNode.maxKey - threeKeyNode.minKey)
    ∧ predictedIndex ((threeKeyNode.degree : Int) - 1) 25 threeKeyNode.minKey threeKeyNode.maxKey
        = 2 :=
  ⟨by decide,
   (((C26_predicted_index threeKeyNode 25 (by decide)).2.2.2 (by decide) (by decide)).2
      (by decide) (by decide) (by decide)).1,
   by decide⟩

/-- C27 fails as stated: the leaf with the keys `0, 1, ..., 15` and `2^59 - 1` has strictly
increasing keys and caches the first and the last one; for the key `2^59 - 2` the product
`17 * (2^59 - 2)` of source line 671 does not fit 64 bits, the index computed is `-15`, and
`interpolationSearch` reads `key(-15)`, outside `[0, degree-2]`, and returns from neither
scan loop. -/
theorem C27_counterexample :
    2 ≤ spreadNode.degree ∧ keysWellFormed spreadNode = true
    ∧ wrap64 (17 * (576460752303423486 - 0)) = -8646911284551352354
    ∧ predictedIndex ((spreadNode.degree : Int) - 1) 576460752303423486 spreadNode.minKey
        spreadNode.maxKey = -15
    ∧ spreadNode.key (-15) = .error Fault.outOfBounds
    ∧ interpolationSearch 576460752303423486 spreadNode = .error Fault.outOfBounds := by
  decide

/-- C27 (amended): the linear scan stays inside the node when the predicted index does.  On
every node of degree at least 2 whose keys increase strictly and whose `minKey` and `maxKey`
cache the first and the last key, and for every key, `interpolationSearch` reaches neither
`assert(false)`.  When the read at the predicted index stays inside the node (as it does
whenever `maxKey - minKey` and `numKeys * (key - minKey)` fit the signed 64-bit key type and
the degree fits an `int`), it returns a slot index: past the guards
(`minKey <= key < maxKey`) the predicted index `m` is a key index, and the result comes from
inside the scan to the left (an index in `[1, m]`), from inside the scan to the right (an
index in `[m+1, degree-2]`), or from the equality branch (`m + 1`), every key index read
lying in `[0, degree-2]` (a read outside faults in the model).  Otherwise the call stops at
the division or at the read of the key at the predicted index. -/
theorem C27_scan_stays_inside (n : Node) (key : Int) (hd : 2 ≤ n.degree)
    (hwf : keysWellFormed n = true) :
    interpolationSearch key n ≠ .error Fault.assertion
    ∧ (indexInBounds key n = true →
        (∃ r : Nat, interpolationSearch key n = .ok (r : Int) ∧ r ≤ n.degree - 1)
        ∧ (n.minKey ≤ key → key < n.maxKey →
          ∃ m : Nat,
            predictedIndex ((n.degree : Int) - 1) key n.minKey n.maxKey = (m : Int)
            ∧ m + 2 ≤ n.degree ∧ n.key (m : Int) = .ok (keyAt n m)
            ∧ ((key < keyAt n m ∧ ∃ r : Nat, 1 ≤ r ∧ r ≤ m ∧ scanLeft key n m = .ok (r : Int)
                  ∧ interpolationSearch key n = .ok (r : Int))
              ∨ (keyAt n m < key ∧ ∃ r : Nat, m + 1 ≤ r ∧ r + 2 ≤ n.degree
                  ∧ scanRight key n (n.degree - 2 - m) ((m : Int) + 1) = .ok (r : Int)
                  ∧ interpolationSearch key n = .ok (r : Int))
              ∨ (key = keyAt n m ∧ interpolationSearch key n = .ok ((m : Int) + 1)))))
    ∧ (indexInBounds key n = false →
        interpolationSearch key n = .error Fault.outOfBounds
        ∨ interpolationSearch key n = .error Fault.arithmetic)
    ∧ (fits64 (n.maxKey - n.minKey) = true →
        fits64 (((n.degree : Int) - 1) * (key - n.minKey)) = true →
        (n.degree : Int) ≤ 2147483648 → indexInBounds key n = true) := by
  have hk := keysOK_of_wellFormed hwf
  have hin : indexInBounds key n = true →
      ∃ r : Nat, interpolationSearch key n = .ok (r : Int) ∧ r ≤ n.degree - 1 := by
    intro hb
    obtain ⟨r, hr, hlt, _, _⟩ := interpolationSearch_spec n key hk hb
    exact ⟨r, hr, by omega⟩
  refine ⟨?_, fun hb => ⟨hin hb, fun hlo hhi => interpolationSearch_branches n key hk hd hlo hhi hb⟩,
    interpolationSearch_outside, fun h1 h2 h3 => indexInBounds_of_fits (by omega) h1 h2 h3⟩
  intro he
  cases hb : indexInBounds key n with
  | true =>
    obtain ⟨r, hr, _⟩ := hin hb
    rw [hr] at he
    cases he
  | false =>
    rcases interpolationSearch_outside hb with h | h
    · rw [h] at he; cases he
    · rw [h] at he; cases he

/-- Witness for C27 on the node with the keys 10, 20, 30: the key 12 is found by the scan to
the left of the predicted index. -/
theorem C27_witness :
    2 ≤ threeKeyNode.degree ∧ keysWellFormed threeKeyNode = true
    ∧ interpolationSearch 12 threeKeyNode ≠ .error Fault.assertion
    ∧ indexInBounds 12 threeKeyNode = true
    ∧ (∃ r : Nat, interpolationSearch 12 threeKeyNode = .ok (r : Int)
        ∧ r ≤ threeKeyNode.degree - 1)
    ∧ interpolationSearch 12 threeKeyNode = .ok 1 :=
  ⟨by decide, by decide, (C27_scan_stays_inside threeKeyNode 12 (by decide) (by decide)).1,
   by decide,
   ((C27_scan_stays_inside threeKeyNode 12 (by decide) (by decide)).2.1 (by decide)).1,
   by decide⟩

/-- C25: the root-most eligible ancestor is rebuilt, at most once per update.  After a
successful update that affects `changeSum` (the DCSS succeeded and the increments of the
saved path led to the state `st`), `doUpdate` returns what the scan of the saved path
returns.  The scan calls `rebuild` on no node when no node of the path has `changeSum >=
REBUILD_FRACTION * initSize`; otherwise it returns what one call of `rebuild` on the first
such node `a = path[i]` returns: with the root pseudo-node as parent, index 0 and depth 0 for
`i = 0`, and with parent `path[i-1]`, the index that `interpolationSearch` gives for the
first key of `a` in the parent, and depth `i` for `i > 0`.  The nodes after `a` are not
examined. -/
theorem C25_rootmost_eligible_rebuilt (fuel : Nat) (st : istree) (path : List Nat) :
    (∀ (key val : Int) (t : UpdateType) (s0 : istree) (node : Nat) (ixKnown : Option Int)
        (n : Node) (ix : Int) (word newWord : Word) (fv : Int) (np : Bool) (nn : Option Nat)
        (s1 s2 : istree),
        s0.getNode node = .ok n →
        (ixKnown = some ix ∨ (ixKnown = none ∧ interpolationSearch key n = .ok ix)) →
        n.ptr ix = .ok word → (IS_KVPAIR word || IS_VAL word) = true →
        decideUpdate s0 n ix word key val t = .ok (Decision.swap newWord true fv np nn, s1) →
        dcssPtr s1 node ix word newWord = .ok (DcssStatus.DCSS_SUCCESS, s2) →
        incrementPath (if IS_KVPAIR word then s2.logSmr (SmrCall.retire word) else s2) path
          = .ok st →
        doUpdateLoop key val t (fuel + 1) s0 node path ixKnown
          = (rebuildScan fuel st [] path).bind (fun st5 => .ok (fv, st5)))
    ∧ ((∀ x ∈ path, ∃ m, st.nodes[x]? = some m ∧ needsRebuild st m = false) →
        rebuildScan fuel st [] path = .ok st)
    ∧ (∀ (a : Nat) (p2 : List Nat) (n : Node), path = a :: p2 → st.nodes[a]? = some n →
        needsRebuild st n = true →
        rebuildScan fuel st [] path = rebuild fuel st a st.root 0 0)
    ∧ (∀ (p0 : List Nat) (parent a : Nat) (p2 : List Nat) (n : Node),
        path = (p0 ++ [parent]) ++ a :: p2 →
        (∀ x ∈ p0 ++ [parent], ∃ m, st.nodes[x]? = some m ∧ needsRebuild st m = false) →
        st.nodes[a]? = some n → needsRebuild st n = true →
        rebuildScan fuel st [] path
          = (st.getNode parent).bind (fun parentNode =>
              (assert (decide (parentNode.degree > 1))).bind (fun _ =>
                (assert (decide (n.degree > 1))).bind (fun _ =>
                  (n.key 0).bind (fun k0 =>
                    (interpolationSearch k0 parentNode).bind (fun index =>
                      rebuild fuel st a parent index (p0.length + 1))))))) := by
  refine ⟨?_, rebuildScan_none fuel st path, ?_, ?_⟩
  · intro key val t s0 node ixKnown n ix word newWord fv np nn s1 s2 hn hi hw hleaf hd hdcss hinc
    rw [doUpdateLoop_swap key val t fuel s0 node path ixKnown n ix word newWord true fv np nn
      s1 s2 hn hi hw hleaf hd hdcss]
    simp only [Bool.true_eq_false, if_false, hinc]
    rfl
  · intro a p2 n hp hn hneed
    subst hp
    have := rebuildScan_first fuel st [] a p2 n (by simp) hn hneed
    simpa using this
  · intro p0 parent a p2 n hp hskip hn hneed
    subst hp
    rw [rebuildScan_first fuel st (p0 ++ [parent]) a p2 n hskip hn hneed]
    simp only [List.getLast?_append, List.getLast?_singleton,
      List.length_append, List.length_singleton]
    rfl

/-- Witness for C25: in `fiveKeys`, whose leaf has `changeSum = 2` and `initSize = 5`, the
scan of the path `[1]` calls `rebuild` on the leaf with the root pseudo-node as parent. -/
theorem C25_witness :
    fiveKeys.nodes[1]? = some fiveKeysLeaf ∧ needsRebuild fiveKeys fiveKeysLeaf = true
    ∧ rebuildScan 8 fiveKeys [] [1] = rebuild 8 fiveKeys 1 fiveKeys.root 0 0 :=
  ⟨by decide, by decide,
   (C25_rootmost_eligible_rebuilt 8 fiveKeys [1]).2.2.1 1 [] fiveKeysLeaf rfl (by decide)
     (by decide)⟩

/-- C23: replacing an existing value does not count as a change.  At the slot where the
descent of `doUpdate` ends (`node`, `ix`, `word`): when `insert(key, val)` finds `key`
there with a value `fv != NO_VALUE` (a `KVPAIR` for `key`, or a `VAL` whose key cell holds
`key`; `fv > 0`, `key < INF_KEY/8` and `val != 0` as `doUpdate` asserts) and the node is not
dirty, the call returns `fv`, the slot holds `VAL(val)`, every node keeps its `changeSum`,
and no rebuild descriptor is created.  Every other successful write of an insert or erase
(a decision with `affectsChangeSum` set) increments the `changeSum` of the nodes of the saved
path, once for each occurrence, before the scan for a rebuild. -/
theorem C23_replace_is_no_change (key val : Int) (fuel : Nat) (st : istree) (node : Nat)
    (path : List Nat) (ixKnown : Option Int) (n : Node) (ix : Int) (word : Word)
    (hn : st.getNode node = .ok n)
    (hi : ixKnown = some ix ∨ (ixKnown = none ∧ interpolationSearch key n = .ok ix))
    (hw : n.ptr ix = .ok word) :
    (∀ fv : Int, (word = Word.kvpair key fv
          ∨ (word = Word.val fv ∧ 0 < ix ∧ n.key (ix - 1) = .ok key)) →
        fv ≠ st.NO_VALUE → fv > 0 → key < Int.tdiv st.INF_KEY 8 → val ≠ 0 →
        n.dirty = Dirty.clean →
        ∃ st1, doUpdateLoop key val UpdateType.InsertReplace (fuel + 1) st node path ixKnown
            = .ok (fv, st1)
          ∧ st1.nodes = st.nodes.set node { n with slots := n.slots.set ix.toNat (Word.val val) }
          ∧ st1.ops = st.ops
          ∧ ∀ (x : Nat) (m : Node), st.nodes[x]? = some m →
              ∃ m1, st1.nodes[x]? = some m1 ∧ m1.changeSum = m.changeSum)
    ∧ (∀ (t : UpdateType) (newWord : Word) (aff : Bool) (fv : Int) (np : Bool)
        (nn : Option Nat) (s1 s2 : istree),
        (IS_KVPAIR word || IS_VAL word) = true →
        decideUpdate st n ix word key val t = .ok (Decision.swap newWord aff fv np nn, s1) →
        dcssPtr s1 node ix word newWord = .ok (DcssStatus.DCSS_SUCCESS, s2) →
        (aff = false →
          t = UpdateType.InsertReplace ∧ newWord = Word.val val ∧ fv ≠ st.NO_VALUE
          ∧ (word = Word.kvpair key fv ∨ (word = Word.val fv ∧ n.key (ix - 1) = .ok key)))
        ∧ (aff = true →
          doUpdateLoop key val t (fuel + 1) st node path ixKnown
            = (incrementPath (if IS_KVPAIR word then s2.logSmr (SmrCall.retire word) else s2)
                path).bind (fun st4 =>
                (rebuildScan fuel st4 [] path).bind (fun st5 => .ok (fv, st5)))
          ∧ ∀ st4, incrementPath (if IS_KVPAIR word then s2.logSmr (SmrCall.retire word)
                else s2) path = .ok st4 →
              ∀ (x : Nat) (m : Node),
                (if IS_KVPAIR word then s2.logSmr (SmrCall.retire word) else s2).nodes[x]?
                  = some m →
                st4.nodes[x]? = some { m with changeSum := m.changeSum + path.count x }
                ∧ (x ∈ path → 1 ≤ path.count x))) := by
  have hnode := getNode_eq_ok.mp hn
  obtain ⟨j, hj, hjlt, hslot⟩ := Node.ptr_inv hw
  refine ⟨?_, ?_⟩
  · intro fv hfound hfv hpos hkey hval hdirty
    have hdec := decideUpdate_replace st n ix word key val fv hfound hfv hpos hkey hval
    have hleaf : (IS_KVPAIR word || IS_VAL word) = true := by
      rcases hfound with h | ⟨h, _, _⟩ <;> subst h <;> rfl
    have hdcss := dcssPtr_ok (Word.val val) hnode hjlt hslot hdirty
    rw [← hj] at hdcss
    have hrun := doUpdateLoop_swap key val UpdateType.InsertReplace fuel st node path ixKnown n
      ix word (Word.val val) false fv false none st _ hn hi hw hleaf hdec hdcss
    simp only [if_true] at hrun
    refine ⟨_, hrun, ?_, ?_, ?_⟩
    · subst hj
      split <;> simp [istree.setNode, istree.logSmr]
    · split <;> simp [istree.setNode, istree.logSmr]
    · intro x m hm
      have hlt := lt_of_getElem hnode
      have hnodes : (if IS_KVPAIR word = true then
            (st.setNode node { n with slots := n.slots.set j (Word.val val) }).logSmr
              (SmrCall.retire word)
          else st.setNode node { n with slots := n.slots.set j (Word.val val) }).nodes
          = st.nodes.set node { n with slots := n.slots.set j (Word.val val) } := by
        split <;> simp [istree.setNode, istree.logSmr]
      rw [hnodes]
      by_cases hx : x = node
      · rw [hx, hnode] at hm
        cases hm
        rw [hx]
        exact ⟨{ n with slots := n.slots.set j (Word.val val) },
          by simp [List.getElem?_set, hlt], rfl⟩
      · exact ⟨m, by rw [List.getElem?_set_ne (Ne.symm hx)]; exact hm, rfl⟩
  · intro t newWord aff fv np nn s1 s2 hleaf hdec hdcss
    refine ⟨?_, ?_⟩
    · intro ha
      subst ha
      obtain ⟨h1, h2, h3, _, h5⟩ := decideUpdate_affects hdec
      exact ⟨h1, h2, h3, h5⟩
    · intro ha
      subst ha
      refine ⟨?_, ?_⟩
      · rw [doUpdateLoop_swap key val t fuel st node path ixKnown n ix word newWord true fv np
          nn s1 s2 hn hi hw hleaf hdec hdcss]
        simp
      · intro st4 hinc x m hm
        refine ⟨(incrementPath_spec path _ st4 hinc).2.2 x m hm, ?_⟩
        intro hx
        exact List.count_pos_iff.mpr hx

/-- Witness for C23: `insert(20, 99)` at the leaf of `fiveKeys`, whose slot 2 holds
`VAL(21)` for the key 20. -/
theorem C23_witness :
    fiveKeys.getNode 1 = .ok fiveKeysLeaf
    ∧ interpolationSearch 20 fiveKeysLeaf = .ok 2
    ∧ fiveKeysLeaf.ptr 2 = .ok (Word.val 21)
    ∧ ∃ st1, doUpdateLoop 20 99 UpdateType.InsertReplace (7 + 1) fiveKeys 1 [1] none
          = .ok (21, st1)
        ∧ st1.ops = fiveKeys.ops
        ∧ ∀ (x : Nat) (m : Node), fiveKeys.nodes[x]? = some m →
            ∃ m1, st1.nodes[x]? = some m1 ∧ m1.changeSum = m.changeSum := by
  refine ⟨by decide, by decide, by decide, ?_⟩
  obtain ⟨st1, h1, _, h3, h4⟩ :=
    (C23_replace_is_no_change 20 99 7 fiveKeys 1 [1] none fiveKeysLeaf 2 (Word.val 21)
      (by decide) (Or.inr ⟨rfl, by decide⟩) (by decide)).1 21
      (Or.inr ⟨rfl, by decide, by decide⟩) (by decide) (by decide) (by decide) (by decide)
      (by decide)
  exact ⟨st1, h1, h3, h4⟩

/-- C35 fails as stated: for `keyCount = 2^52 + 1` the code's `numChildren` is `2^26`
(the square root is rounded to the double `2^26`), `childSize = 2^26`, `remainder = 1`, and
child 0 gets `2^26 + 1` keys, more than `numChildren`. -/
theorem C35_counterexample :
    ceilSqrt 4503599627370497 = 67108864
    ∧ 4503599627370497 / ceilSqrt 4503599627370497 = 67108864
    ∧ 4503599627370497 % ceilSqrt 4503599627370497 = 1
    ∧ chunkSize (4503599627370497 / ceilSqrt 4503599627370497)
        (4503599627370497 % ceilSqrt 4503599627370497) 0 = 67108865
    ∧ ¬ (chunkSize (4503599627370497 / ceilSqrt 4503599627370497)
        (4503599627370497 % ceilSqrt 4503599627370497) 0 ≤ ceilSqrt 4503599627370497) := by
  decide

/-- C35 (amended): every rebuilt child is non-empty, and at most square-root sized up to
`2^52` keys.  For every `keyCount >= 1`, with `numChildren` the value of
`(size_t) ceil(sqrt((double) keyCount))` in double precision, `childSize = keyCount /
numChildren` and `remainder = keyCount mod numChildren`, every child index `ix` gets
`newChildSize = childSize + (ix < remainder)` with `1 <= newChildSize`, and with
`newChildSize <= numChildren` when `keyCount <= 2^52` (where `numChildren` is
`ceil(sqrt(keyCount))`); and `newChildSize` is the `numKeysToAdd` with which
`subtreeBuildAndReplace` calls `addKVPairsSubset` (a fault of that call with these arguments
is a fault of `subtreeBuildAndReplace`), so its assertion `numKeysToAdd > 0` holds at the
call. -/
theorem C35_child_sizes (keyCount : Nat) (hk : 1 ≤ keyCount) (ix : Nat) :
    chunkSize (keyCount / ceilSqrt keyCount) (keyCount % ceilSqrt keyCount) ix
      = keyCount / ceilSqrt keyCount + (if ix < keyCount % ceilSqrt keyCount then 1 else 0)
    ∧ 1 ≤ chunkSize (keyCount / ceilSqrt keyCount) (keyCount % ceilSqrt keyCount) ix
    ∧ (keyCount ≤ 2 ^ 52 →
        keyCount ≤ ceilSqrt keyCount * ceilSqrt keyCount
        ∧ (ceilSqrt keyCount - 1) * (ceilSqrt keyCount - 1) < keyCount
        ∧ chunkSize (keyCount / ceilSqrt keyCount) (keyCount % ceilSqrt keyCount) ix
            ≤ ceilSqrt keyCount)
    ∧ ∀ (fuel : Nat) (st : istree) (o parent : Nat) (op : RebuildOperation) (e : Fault),
        st.getOp o = .ok op →
        addKVPairsSubset st (SlotRef.slot parent ix) fuel op.rebuildRoot
          ⟨chunkStart (keyCount / ceilSqrt keyCount) (keyCount % ceilSqrt keyCount) ix,
           chunkSize (keyCount / ceilSqrt keyCount) (keyCount % ceilSqrt keyCount) ix,
           ⟨chunkSize (keyCount / ceilSqrt keyCount) (keyCount % ceilSqrt keyCount) ix,
            1 + op.depth, []⟩⟩ = .error e →
        subtreeBuildAndReplace fuel st o parent ix (keyCount / ceilSqrt keyCount)
          (keyCount % ceilSqrt keyCount) = .error e := by
  obtain ⟨h1, h2⟩ := chunkSize_bounds keyCount hk ix
  refine ⟨rfl, h1, ?_, fun fuel st o parent op e hop h => subtreeBuildAndReplace_call hop h⟩
  intro hle
  obtain ⟨g1, g2⟩ := ceilSqrt_spec keyCount hle
  have hpos := ceilSqrt_pos hk
  exact ⟨g1, g2 _ (by omega), h2 g1⟩

/-- Witness for C35 at `keyCount = 10`: the four children get 3, 3, 2 and 2 keys. -/
theorem C35_witness :
    1 ≤ 10 ∧ ceilSqrt 10 = 4
    ∧ 1 ≤ chunkSize (10 / ceilSqrt 10) (10 % ceilSqrt 10) 3
    ∧ chunkSize (10 / ceilSqrt 10) (10 % ceilSqrt 10) 3 ≤ ceilSqrt 10 :=
  ⟨by decide, by decide, (C35_child_sizes 10 (by decide) 3).2.1,
   ((C35_child_sizes 10 (by decide) 3).2.2.1 (by decide)).2.2⟩

/-- C37 fails as stated: for the three pairs with the keys `-2^62`, `-1`, `1`, strictly
increasing, `createLeaf` on the empty map returns the leaf at address 2, and `find`
restricted to this leaf returns no value for the key `-1` of the second pair: the product
`3 * (-1 - (-2^62))` of source line 671 does not fit 64 bits, the index computed is `-1`, and
the search stops at the read of `key(-1)`. -/
theorem C37_counterexample :
    pairsIncreasing [(-4611686018427387904, 10), (-1, 20), (1, 30)] = true
    ∧ (createLeaf emptyMap [(-4611686018427387904, 10), (-1, 20), (1, 30)]).map
        (fun r => (r.1, r.2.nodes[2]?)) = .ok (2, some wideLeaf)
    ∧ predictedIndex 3 (-1) wideLeaf.minKey wideLeaf.maxKey = -1
    ∧ (createLeaf emptyMap [(-4611686018427387904, 10), (-1, 20), (1, 30)]).bind
        (fun r => findLoop r.2 (-1) 2 (Word.node 2) 0 0) = .error Fault.outOfBounds
    ∧ (createLeaf emptyMap [(-4611686018427387904, 10), (-1, 20), (1, 30)]).bind
        (fun r => findLoop r.2 (-1) 9 (Word.node 2) 0 0) = .error Fault.outOfBounds := by
  decide

/-- C37 (amended): `createLeaf` builds a leaf that is searchable for the keys whose predicted
index stays inside it.  For every array of `n >= 1` pairs with strictly increasing keys,
`createLeaf` returns a new node with `capacity == degree == n+1`, `initSize == n`,
`changeSum == 0`, `dirty == 0`, slot 0 empty, `keys[i] == pairs[i].k` and
slot `i+1 == VAL(pairs[i].v)` for all `i < n`, `minKey == pairs[0].k` and
`maxKey == pairs[n-1].k`; for a key for which the read of `interpolationSearch` at the
predicted index stays inside the leaf, the search of `find` started at this leaf returns
`pairs[i].v` when the key is `pairs[i].k`, and `NO_VALUE` when it is the key of no pair. -/
theorem C37_createLeaf_searchable (st : istree) (pairs : List (Int × Int))
    (hne : 1 ≤ pairs.length) (hinc : pairsIncreasing pairs = true) :
    ∃ (st1 : istree) (leaf : Node),
      createLeaf st pairs = .ok (st.nodes.length, st1)
      ∧ st1.nodes[st.nodes.length]? = some leaf
      ∧ leaf.capacity = pairs.length + 1 ∧ leaf.degree = pairs.length + 1
      ∧ leaf.initSize = pairs.length ∧ leaf.changeSum = 0 ∧ leaf.dirty = Dirty.clean
      ∧ leaf.slots[0]? = some Word.emptyVal
      ∧ (∀ (i : Nat) (p : Int × Int), pairs[i]? = some p →
          leaf.keys[i]? = some p.1 ∧ leaf.slots[i + 1]? = some (Word.val p.2))
      ∧ (∀ p : Int × Int, pairs[0]? = some p → leaf.minKey = p.1)
      ∧ (∀ p : Int × Int, pairs[pairs.length - 1]? = some p → leaf.maxKey = p.1)
      ∧ (∀ (fuel parent : Nat) (ix : Int) (i : Nat) (p : Int × Int), pairs[i]? = some p →
          indexInBounds p.1 leaf = true →
          findLoop st1 p.1 (fuel + 2) (Word.node st.nodes.length) parent ix = .ok p.2)
      ∧ (∀ (fuel parent : Nat) (ix : Int) (key : Int), (∀ p ∈ pairs, p.1 ≠ key) →
          indexInBounds key leaf = true →
          findLoop st1 key (fuel + 2) (Word.node st.nodes.length) parent ix
            = .ok st.NO_VALUE) := by
  obtain ⟨st1, leaf, hrun, hst, hcap, hdeg, hini, hcs, hdirty, hslots, hkeys, hmin, hmax⟩ :=
    createLeaf_total st pairs hne hinc
  have hget : st1.nodes[st.nodes.length]? = some leaf := by
    rw [hst]
    simp
  have hlen1 : st1.nodes.length = st.nodes.length + 1 := by
    rw [hst]
    simp
  have hsorted := (pairsIncreasing_iff pairs).mp hinc
  have hL : ListOK none none pairs := ⟨fun p _ => ⟨rfl, rfl⟩, hsorted⟩
  have hchk : chkNode false 1 st1 none none st.nodes.length = some (pairs, false) :=
    chkNode_leaf hget hdeg hkeys hslots hdirty hmin hmax hL hne
  have hnv : st1.NO_VALUE = st.NO_VALUE := by rw [hst]
  have hfind : ∀ (fuel parent : Nat) (ix : Int) (key : Int), indexInBounds key leaf = true →
      findLoop st1 key (fuel + 2) (Word.node st.nodes.length) parent ix
        = .ok (valueOf st.NO_VALUE key pairs) := by
    intro fuel parent ix key hb
    have h1 := findLoop_chkNode st1 key 1 none none st.nodes.length (pairs, false) parent ix hchk
      (by
        intro b m hb1 hm
        have hb2 := (List.getElem?_eq_some_iff.mp hm).1
        have hbe : b = st.nodes.length := by omega
        subst hbe
        rw [hget] at hm
        cases hm
        exact hb)
    have h2 := findLoop_mono_add st1 key 2 (Word.node st.nodes.length) parent ix _ (by simp) h1
      fuel
    rw [hnv] at h2
    rw [Nat.add_comm]
    exact h2
  refine ⟨st1, leaf, hrun, hget, hcap, hdeg, hini, hcs, hdirty, by rw [hslots]; simp, ?_, ?_, ?_,
    ?_, ?_⟩
  · intro i p hp
    rw [hkeys, hslots]
    simp [hp]
  · intro p hp
    rw [hmin]
    unfold keyAt
    rw [hkeys]
    simp [hp]
  · intro p hp
    rw [hmax]
    unfold keyAt
    rw [hkeys]
    simp [hp]
  · intro fuel parent ix i p hp hb
    rw [hfind _ _ _ _ hb]
    unfold valueOf
    rw [lookup_of_sorted pairs hsorted i p hp]
    rfl
  · intro fuel parent ix key habs hb
    rw [hfind _ _ _ _ hb]
    unfold valueOf
    rw [lookup_of_absent key pairs habs]
    rfl

/-- Witness for C37: the leaf for the pairs (10, 11) and (20, 21) in the empty map. -/
theorem C37_witness :
    1 ≤ [((10 : Int), (11 : Int)), (20, 21)].length
    ∧ pairsIncreasing [(10, 11), (20, 21)] = true
    ∧ ∃ (st1 : istree) (leaf : Node),
        createLeaf emptyMap [(10, 11), (20, 21)] = .ok (2, st1)
        ∧ st1.nodes[2]? = some leaf ∧ leaf.degree = 3
        ∧ findLoop st1 20 (0 + 2) (Word.node 2) 0 0 = .ok 21
        ∧ findLoop st1 15 (0 + 2) (Word.node 2) 0 0 = .ok 0 := by
  refine ⟨by decide, by decide, ?_⟩
  obtain ⟨st1, leaf, h1, h2, _, h4, _, _, _, _, h9, h10, h11, h12, h13⟩ :=
    C37_createLeaf_searchable emptyMap [(10, 11), (20, 21)] (by decide) (by decide)
  have hmin : leaf.minKey = 10 := h10 (10, 11) (by decide)
  have hmax : leaf.maxKey = 20 := h11 (20, 21) (by decide)
  have hd : leaf.degree = 3 := h4
  have hb : ∀ key : Int, key = 20 ∨ key = 15 → indexInBounds key leaf = true := by
    intro key hkey
    unfold indexInBounds
    rw [hd, hmin, hmax]
    rcases hkey with rfl | rfl <;> decide
  exact ⟨st1, leaf, h1, h2, h4, h12 0 0 0 1 (20, 21) (by decide) (hb _ (Or.inl rfl)),
    h13 0 0 0 15 (by decide) (hb _ (Or.inr rfl))⟩

/-- C33 (subsumed rebuild ends with `newRoot == EMPTY_VAL`), evaluated where it fails: a
subsumed rebuild of a subtree without keys.  In `subsumedEmptyRebuild`, `markAndCount` on
the old subtree returns 0, `createIdealConcurrent` returns the empty word and leaves
`op.newRoot` null, the swap-in DCSS fails with `FAILED_ADDR1` because the parent is dirty
(the parent's slot keeps the `REBUILDOP` word and `op.success` stays false), and
`helpRebuild` stops at the assertion `op->newRoot == EMPTY_VAL_TO_CASWORD`.  With one key
left in the old subtree (`subsumedOneKeyRebuild`) the call returns with `op.newRoot ==
EMPTY_VAL`, `op.success == false` and the `REBUILDOP` word still in the parent's slot. -/
theorem C33_subsumed_empty_rebuild_asserts :
    markAndCount 5 subsumedEmptyRebuild (Word.node 2) = .ok (0, subsumedEmptyMarked)
    ∧ createIdealConcurrent 5 subsumedEmptyMarked 0 0 = .ok (Word.emptyVal, subsumedEmptyMarked)
    ∧ dcssPtr subsumedEmptyMarked 1 0 (Word.rebuildop 0) Word.emptyVal
        = .ok (DcssStatus.DCSS_FAILED_ADDR1, subsumedEmptyMarked)
    ∧ (subsumedEmptyMarked.ops[0]?).map (fun op => (op.newRoot, op.success))
        = some (Word.null, false)
    ∧ helpRebuild 5 subsumedEmptyRebuild 0 = .error Fault.assertion
    ∧ helpRebuild 5 subsumedOneKeyRebuild 0 = .ok subsumedOneKeyHelped
    ∧ (subsumedOneKeyHelped.ops[0]?).map (fun op => (op.newRoot, op.success))
        = some (Word.emptyVal, false)
    ∧ (subsumedOneKeyHelped.nodes[1]?).map (fun n => n.slots[0]?)
        = some (some (Word.rebuildop 0)) := by
  decide

/-- C34: `helpFreeSubtree` claims each node once.  On a node `a` with its `degree` slots
present, whose children that are nodes exist, differ from `a` and, like `a`, are not yet
marked for free, a single-threaded `helpFreeSubtree(a)` terminates: it returns a state in
which `a` and every child that is a node carry the marked-for-free bit; the reclamation
calls it made contain `freeSubtree` of each such child exactly once and `freeNode(a)` exactly
once; and a second `helpFreeSubtree(a)` returns the same state, so it frees and retires
nothing. -/
theorem C34_helpFreeSubtree_claims_once (st : istree) (a : Nat) (n : Node)
    (hn : st.nodes[a]? = some n) (hlen : n.degree ≤ n.slots.length)
    (hself : n.dirty.markedForFree = false)
    (hch : ∀ j c, j < n.degree → n.slots[j]? = some (Word.node c) →
      c ≠ a ∧ ∃ m, st.nodes[c]? = some m ∧ m.dirty.markedForFree = false) :
    ∃ (st1 : istree) (L : List SmrCall), helpFreeSubtree st a = .ok st1
      ∧ st1.smrLog = st.smrLog ++ L
      ∧ (∃ n1, st1.nodes[a]? = some n1 ∧ n1.dirty.markedForFree = true)
      ∧ (∀ j c, j < n.degree → n.slots[j]? = some (Word.node c) →
          (∃ m1, st1.nodes[c]? = some m1 ∧ m1.dirty.markedForFree = true)
          ∧ L.count (SmrCall.freeSubtree (Word.node c) true) = 1)
      ∧ L.count (SmrCall.freeNode a true) = 1
      ∧ helpFreeSubtree st1 a = .ok st1 := by
  have hch2 : ∀ c, ChildBefore n n.degree c → c ≠ a := by
    rintro c ⟨j, _, h2, h3⟩
    exact (hch j c h2 h3).1
  have h0 : ClaimedTo st st a n 0 := by
    refine ⟨rfl, hn, ?_, [], by simp, by simp, ?_, by simp⟩
    · rintro c ⟨j, _, h2, h3⟩
      obtain ⟨_, m, hm, hmk⟩ := hch j c h2 h3
      refine ⟨m, hm, ?_⟩
      rw [hmk]
      constructor
      · intro h; cases h
      · rintro ⟨j, hj, _⟩; omega
    · rintro c ⟨j, hj, _⟩; omega
  obtain ⟨s, hs, hcl⟩ := claimChildrenLoop_claims hch2 n.degree 0 st (by omega) hlen h0
  obtain ⟨L1, hL1, hL2, hL3, hL4⟩ := hcl.log
  obtain ⟨L2, hrun2, hL5⟩ := claimSelfLoop_fresh hcl.self hself hlen
  have hlt := lt_of_getElem hcl.self
  have hchild : ∀ j c, j < n.degree → n.slots[j]? = some (Word.node c) →
      ∃ m1, (s.nodes.set a { n with dirty := n.dirty.orMarkedForFree })[c]? = some m1
        ∧ m1.dirty.markedForFree = true := by
    intro j c hj hc
    have hcb : ChildBefore n n.degree c := ⟨j, hj, hj, hc⟩
    obtain ⟨m1, g1, g2⟩ := hcl.child c hcb
    refine ⟨m1, ?_, g2.mpr hcb⟩
    rw [List.getElem?_set_ne (Ne.symm (hch2 c hcb))]
    exact g1
  have hselfB : (s.nodes.set a { n with dirty := n.dirty.orMarkedForFree })[a]?
      = some { n with dirty := n.dirty.orMarkedForFree } := by
    simp [List.getElem?_set, hlt]
  refine ⟨{ s with nodes := s.nodes.set a { n with dirty := n.dirty.orMarkedForFree },
                    smrLog := s.smrLog ++ L2 ++ [SmrCall.freeNode a true] },
    L1 ++ L2 ++ [SmrCall.freeNode a true], ?_, ?_,
    ⟨{ n with dirty := n.dirty.orMarkedForFree }, hselfB, rfl⟩, ?_, ?_, ?_⟩
  · simp only [helpFreeSubtree, bind, Except.bind, getNode_of_getElem hn]
    have hs2 : claimChildrenLoop a n.degree 0 st = .ok s := hs
    simp only [hs2]
    exact hrun2
  · simp only [hL1, List.append_assoc]
  · intro j c hj hc
    refine ⟨hchild j c hj hc, ?_⟩
    rw [List.count_append, List.count_append, hL3 c ⟨j, hj, hj, hc⟩]
    have : L2.count (SmrCall.freeSubtree (Word.node c) true) = 0 := by
      rw [List.count_eq_zero]
      intro hmem
      obtain ⟨w, e, hw⟩ := hL5 _ hmem
      cases e
      simp [IS_NODE] at hw
    rw [this]
    simp
  · rw [List.count_append, List.count_append]
    have e1 : L1.count (SmrCall.freeNode a true) = 0 := by
      rw [List.count_eq_zero]
      intro hmem
      obtain ⟨c, e⟩ := hL2 _ hmem
      cases e
    have e2 : L2.count (SmrCall.freeNode a true) = 0 := by
      rw [List.count_eq_zero]
      intro hmem
      obtain ⟨w, e, _⟩ := hL5 _ hmem
      cases e
    rw [e1, e2]
    simp
  · have hselfC : ({ s with nodes := s.nodes.set a { n with dirty := n.dirty.orMarkedForFree },
                               smrLog := s.smrLog ++ L2 ++ [SmrCall.freeNode a true] }
          : istree).nodes[a]?
        = some { n with dirty := n.dirty.orMarkedForFree } := hselfB
    have hidle := claimChildrenLoop_idle (a := a)
      (n := { n with dirty := n.dirty.orMarkedForFree }) n.degree 0
      { s with nodes := s.nodes.set a { n with dirty := n.dirty.orMarkedForFree },
               smrLog := s.smrLog ++ L2 ++ [SmrCall.freeNode a true] }
      (by simp) hlen hselfC hchild
    simp only [helpFreeSubtree, bind, Except.bind, getNode_of_getElem hselfC]
    have hidle2 : claimChildrenLoop a n.degree 0
        { s with nodes := s.nodes.set a { n with dirty := n.dirty.orMarkedForFree },
                 smrLog := s.smrLog ++ L2 ++ [SmrCall.freeNode a true] } = .ok _ := hidle
    simp only [hidle2]
    exact claimSelfLoop_marked 1 hselfC rfl

/-- Witness for C34: `helpFreeSubtree` on the leaf at address 1 of `markedFiveKeys`. -/
theorem C34_witness :
    ∃ (n : Node), markedFiveKeys.nodes[1]? = some n
      ∧ ∃ (st1 : istree) (L : List SmrCall), helpFreeSubtree markedFiveKeys 1 = .ok st1
        ∧ st1.smrLog = markedFiveKeys.smrLog ++ L
        ∧ L.count (SmrCall.freeNode 1 true) = 1
        ∧ helpFreeSubtree st1 1 = .ok st1 := by
  refine ⟨_, (by decide : markedFiveKeys.nodes[1]? = some
    { capacity := 6, degree := 6, keys := [10, 20, 30, 40, 50],
      slots := [Word.emptyVal, Word.val 11, Word.val 21, Word.val 31, Word.val 41,
        Word.val 51],
      minKey := 10, maxKey := 50, initSize := 5, changeSum := 2,
      dirty := SUM_TO_DIRTY_FINISHED 5, nextMarkAndCount := 7 }), ?_⟩
  obtain ⟨st1, L, h1, h2, _, _, h5, h6⟩ := C34_helpFreeSubtree_claims_once markedFiveKeys 1 _
    (by decide : markedFiveKeys.nodes[1]? = some
      { capacity := 6, degree := 6, keys := [10, 20, 30, 40, 50],
        slots := [Word.emptyVal, Word.val 11, Word.val 21, Word.val 31, Word.val 41,
          Word.val 51],
        minKey := 10, maxKey := 50, initSize := 5, changeSum := 2,
        dirty := SUM_TO_DIRTY_FINISHED 5, nextMarkAndCount := 7 })
    (by decide) (by decide) (by
      intro j c hj hc
      have hj6 : j < 6 := hj
      interval_cases j <;> simp at hc)
  exact ⟨st1, L, h1, h2, h5, h6⟩

/-- C24, the claim as stated fails: in the map filled with the keys 1..10 (with
`MAX_ACCEPTABLE_LEAF_SIZE = 1`, so `N = 10 * MAX_ACCEPTABLE_LEAF_SIZE`), any number of
repeated calls `insert(7, 71)` returns, leaves `changeSum` and `initSize` of every node as
they were and creates no rebuild descriptor: no rebuild is ever triggered. -/
theorem C24_counterexample :
    applyOps 100 (insertUpTo 10) tinyMap = .ok filledTen
    ∧ 10 * tinyMap.MAX_ACCEPTABLE_LEAF_SIZE ≤ (insertUpTo 10).length
    ∧ ∀ n : Nat, ∃ st1, repeatInsert 60 7 (List.replicate n 71) filledTen = .ok st1
        ∧ st1.ops = filledTen.ops
        ∧ ∀ (x : Nat) (m : Node), filledTen.nodes[x]? = some m →
            ∃ m1, st1.nodes[x]? = some m1 ∧ m1.changeSum = m.changeSum
              ∧ m1.initSize = m.initSize := by
  refine ⟨filledTen_facts.1, by decide, ?_⟩
  intro n
  apply repeatInsert_present 7 60 63 1 (by omega) _ filledTen 70 filledTen_present
  intro v hv
  rw [List.eq_of_mem_replicate hv, filledTen_facts.2.2.2.2.2]
  omega

/-- C24 (amended): repeated inserts on one same key that is present are replacements and
never trigger a rebuild.  When the descent for `key` crosses no descriptor and stops at a
slot `j > 0` of a clean node holding `VAL(fv)` for `key` (`fv` a value, as `doUpdate`
asserts), then for every list of values (positive, not `NO_VALUE`) the repeated calls
`insert(key, v)` all return, and afterwards every node has the `changeSum` and the `initSize`
it had before and the list of rebuild descriptors is unchanged: no `changeSum / initSize`
has moved towards `REBUILD_FRACTION` and no rebuild was started. -/
theorem C24_repeated_insert_never_rebuilds (st : istree) (key : Int) (fuel T j : Nat)
    (fv : Int) (h : PresentAt st key fuel T j fv) (hfuel : fuel ≤ 65) (vs : List Int)
    (hvs : ∀ v ∈ vs, v > 0 ∧ v ≠ st.NO_VALUE) :
    ∃ st1, repeatInsert fuel key vs st = .ok st1 ∧ st1.ops = st.ops
      ∧ ∀ (x : Nat) (m : Node), st.nodes[x]? = some m →
          ∃ m1, st1.nodes[x]? = some m1 ∧ m1.changeSum = m.changeSum
            ∧ m1.initSize = m.initSize :=
  repeatInsert_present key fuel T j hfuel vs st fv h hvs

/-- Witness for C24: the calls `insert(7, 71)` and `insert(7, 72)` in the map filled with
the keys 1..10. -/
theorem C24_witness :
    ∃ st1, repeatInsert 60 7 [71, 72] filledTen = .ok st1 ∧ st1.ops = filledTen.ops
      ∧ ∀ (x : Nat) (m : Node), filledTen.nodes[x]? = some m →
          ∃ m1, st1.nodes[x]? = some m1 ∧ m1.changeSum = m.changeSum
            ∧ m1.initSize = m.initSize :=
  C24_repeated_insert_never_rebuilds filledTen 7 60 63 1 70 filledTen_present (by decide)
    [71, 72] (by
      intro v hv
      rw [filledTen_facts.2.2.2.2.2]
      simp only [List.mem_cons, List.mem_singleton, List.not_mem_nil, or_false] at hv
      rcases hv with e | e <;> subst e <;> decide)

/-! ## Paths through a well-formed tree -/

theorem Chain.le {st : istree} : ∀ {path : List Nat} {p : Nat} {lo hi : Option Int} {q : Nat}
    {L H : Option Int}, Chain st p lo hi path q L H → p ≤ q := by
  intro path
  induction path with
  | nil => intro p lo hi q L H h; exact le_of_eq h.1.symm
  | cons a rest ih =>
    intro p lo hi q L H h
    obtain ⟨pn, i, _, _, _, hpa, hc⟩ := h
    have := ih hc
    omega

theorem Chain.snoc {st : istree} : ∀ {path : List Nat} {p : Nat} {lo hi : Option Int} {q : Nat}
    {L H : Option Int} {qn : Node} {i c : Nat}, Chain st p lo hi path q L H →
    st.nodes[q]? = some qn → i < qn.degree → qn.slots[i]? = some (Word.node c) → q < c →
    Chain st p lo hi (path ++ [c]) c (slotLo qn L i) (slotHi qn H i) := by
  intro path
  induction path with
  | nil =>
    intro p lo hi q L H qn i c h hq hi1 hs hqc
    obtain ⟨e1, e2, e3⟩ := h
    subst e1 e2 e3
    exact ⟨qn, i, hq, hi1, hs, hqc, rfl, rfl, rfl⟩
  | cons a rest ih =>
    intro p lo hi q L H qn i c h hq hi1 hs hqc
    obtain ⟨pn, j, g1, g2, g3, g4, hc⟩ := h
    exact ⟨pn, j, g1, g2, g3, g4, ih hc hq hi1 hs hqc⟩

theorem Chain.thenChain {st : istree} : ∀ {xs : List Nat} {p : Nat} {lo hi : Option Int} {q : Nat}
    {L H : Option Int} {ys : List Nat} {q2 : Nat} {L2 H2 : Option Int},
    Chain st p lo hi xs q L H → Chain st q L H ys q2 L2 H2 →
    Chain st p lo hi (xs ++ ys) q2 L2 H2 := by
  intro xs
  induction xs with
  | nil =>
    intro p lo hi q L H ys q2 L2 H2 h h2
    obtain ⟨e1, e2, e3⟩ := h
    subst e1 e2 e3
    exact h2
  | cons a rest ih =>
    intro p lo hi q L H ys q2 L2 H2 h h2
    obtain ⟨pn, j, g1, g2, g3, g4, hc⟩ := h
    exact ⟨pn, j, g1, g2, g3, g4, ih hc h2⟩

/-- A path is kept when the nodes below its end are kept. -/
theorem Chain.keep {A B : istree} : ∀ {path : List Nat} {p : Nat} {lo hi : Option Int} {q : Nat}
    {L H : Option Int}, Chain A p lo hi path q L H →
    (∀ (x : Nat) (n : Node), x < q → A.nodes[x]? = some n →
      ∃ n1, B.nodes[x]? = some n1 ∧ LikeNode n n1) →
    Chain B p lo hi path q L H := by
  intro path
  induction path with
  | nil => intro p lo hi q L H h _; exact h
  | cons a rest ih =>
    intro p lo hi q L H h hk
    obtain ⟨pn, j, g1, g2, g3, g4, hc⟩ := h
    have hle := hc.le
    obtain ⟨n1, e1, e2⟩ := hk p pn (by omega) g1
    refine ⟨n1, j, e1, by rw [e2.degree]; exact g2, by rw [e2.slots]; exact g3, g4, ?_⟩
    have e3 : slotLo n1 lo j = slotLo pn lo j := by simp [slotLo, keyAt, e2.keys]
    have e4 : slotHi n1 hi j = slotHi pn hi j := by simp [slotHi, keyAt, e2.keys, e2.degree]
    rw [e3, e4]
    exact ih hc hk

/-- The end of a path through a well-formed subtree roots a well-formed subtree. -/
theorem Chain.endChk {st : istree} : ∀ {path : List Nat} {p : Nat} {lo hi : Option Int} {q : Nat}
    {L H : Option Int} {g : Nat} {r : List (Int × Int) × Bool},
    Chain st p lo hi path q L H → chkNode tol g st lo hi p = some r →
    ∃ g1 r1, chkNode tol g1 st L H q = some r1 := by
  intro path
  induction path with
  | nil =>
    intro p lo hi q L H g r h hc
    obtain ⟨e1, e2, e3⟩ := h
    subst e1 e2 e3
    exact ⟨g, r, hc⟩
  | cons a rest ih =>
    intro p lo hi q L H g r h hc
    obtain ⟨pn, j, g1, g2, g3, g4, hch⟩ := h
    cases g with
    | zero => simp [chkNode] at hc
    | succ g =>
      obtain ⟨rc, hrc, _⟩ := chkNode_slot hc g1 g2 g3
      exact ih hch hrc

/-- The range of the end of a path through a well-formed subtree lies within the range of
its start. -/
theorem Chain.rangeSub {st : istree} : ∀ {path : List Nat} {p : Nat} {lo hi : Option Int} {q : Nat}
    {L H : Option Int} {g : Nat} {r : List (Int × Int) × Bool},
    Chain st p lo hi path q L H → chkNode tol g st lo hi p = some r →
    ∀ k, inRange L H k → inRange lo hi k := by
  intro path
  induction path with
  | nil =>
    intro p lo hi q L H g r h hc k hk
    obtain ⟨e1, e2, e3⟩ := h
    subst e1 e2 e3
    exact hk
  | cons a rest ih =>
    intro p lo hi q L H g r h hc k hk
    obtain ⟨pn, j, g1, g2, g3, g4, hch⟩ := h
    cases g with
    | zero => simp [chkNode] at hc
    | succ g =>
      obtain ⟨rc, hrc, _⟩ := chkNode_slot hc g1 g2 g3
      obtain ⟨n1, r2, hn1, hok, _, _, _⟩ := chkNode_succ_some hc
      rw [g1] at hn1
      cases hn1
      exact slot_sub (nodeShapeOK_facts hok) g2 (ih hch hrc k hk)

theorem chkSlots_get_flag {rec : Option Int → Option Int → Nat → Option (List (Int × Int) × Bool)}
    {n : Node} {a : Nat} {lo hi : Option Int} :
    ∀ (c i : Nat) (r : List (Int × Int) × Bool), chkSlots tol rec n a lo hi c i = some r →
      ∀ j, i ≤ j → j < i + c →
        ∃ w rj, n.slots[j]? = some w ∧ chkSlot tol rec n a lo hi j w = some rj
          ∧ (r.2 = true → rj.2 = true) := by
  intro c
  induction c with
  | zero => intro i r _ j h1 h2; omega
  | succ c ih =>
    intro i r h j h1 h2
    obtain ⟨w, r1, r2, hw, e1, e2, hr⟩ := chkSlots_step h
    subst hr
    by_cases hj : j = i
    · subst hj
      exact ⟨w, r1, hw, e1, fun hf => by simp only [Bool.and_eq_true] at hf; exact hf.1⟩
    · obtain ⟨w2, rj, g1, g2, g3⟩ := ih (i + 1) r2 e2 j (by omega) (by omega)
      exact ⟨w2, rj, g1, g2, fun hf => g3 (by simp only [Bool.and_eq_true] at hf; exact hf.2)⟩

/-- A clean node has no finished node above it: the check of a subtree that holds a path to
a clean node reports that its root is not finished. -/
theorem Chain.clean {st : istree} : ∀ {path : List Nat} {p : Nat} {lo hi : Option Int} {q : Nat}
    {L H : Option Int} {g : Nat} {r : List (Int × Int) × Bool} {qn : Node},
    Chain st p lo hi path q L H → chkNode tol g st lo hi p = some r →
    st.nodes[q]? = some qn → qn.dirty = Dirty.clean → r.2 = false := by
  intro path
  induction path with
  | nil =>
    intro p lo hi q L H g r qn h hc hq hd
    obtain ⟨e1, e2, e3⟩ := h
    subst e1 e2 e3
    cases g with
    | zero => simp [chkNode] at hc
    | succ g =>
      obtain ⟨n, r2, hn, _, _, _, hcase⟩ := chkNode_succ_some hc
      rw [hq] at hn
      cases hn
      rcases hcase with ⟨_, h2⟩ | ⟨h1, _, _⟩
      · exact h2
      · rw [hd] at h1
        simp [Dirty.clean, SUM_TO_DIRTY_FINISHED] at h1
  | cons a rest ih =>
    intro p lo hi q L H g r qn h hc hq hd
    obtain ⟨pn, j, g1, g2, g3, g4, hch⟩ := h
    cases g with
    | zero => simp [chkNode] at hc
    | succ g =>
      obtain ⟨n, r2, hn, _, hsl, _, hcase⟩ := chkNode_succ_some hc
      rw [g1] at hn
      cases hn
      rcases hcase with ⟨_, h2⟩ | ⟨_, hfl, _⟩
      · exact h2
      · obtain ⟨w, rj, hw, hcj, hflag⟩ := chkSlots_get_flag pn.degree 0 r2 hsl j (by omega) (by omega)
        rw [g3] at hw
        cases hw
        simp only [chkSlot, g4, if_true] at hcj
        have := ih hch hcj hq hd
        rw [hflag hfl] at this
        cases this

/-- The node at the root of a checked subtree that is not reported finished is clean. -/
theorem chkNode_clean {g : Nat} {st : istree} {lo hi : Option Int} {p : Nat} {pn : Node}
    {r : List (Int × Int) × Bool} (h : chkNode tol g st lo hi p = some r)
    (hn : st.nodes[p]? = some pn) (hr : r.2 = false) : pn.dirty = Dirty.clean := by
  cases g with
  | zero => simp [chkNode] at h
  | succ g =>
    obtain ⟨n, r2, hn1, _, _, _, hcase⟩ := chkNode_succ_some h
    rw [hn] at hn1
    cases hn1
    rcases hcase with ⟨h1, _⟩ | ⟨_, _, h3⟩
    · exact h1
    · rw [hr] at h3
      cases h3

theorem chkSlots_of_pointwise {B : istree} {nb : Node} {a : Nat} {lo hi : Option Int}
    (hpt : ∀ j, j < nb.degree → ∃ w g r, nb.slots[j]? = some w
      ∧ chkSlot tol (chkNode tol g B) nb a lo hi j w = some r) :
    ∀ c i, i + c ≤ nb.degree →
      ∃ g r, chkSlots tol (chkNode tol g B) nb a lo hi c i = some r := by
  intro c
  induction c with
  | zero => intro i _; exact ⟨0, ([], true), rfl⟩
  | succ c ih =>
    intro i hle
    obtain ⟨w, g1, r1, hw, h1⟩ := hpt i (by omega)
    obtain ⟨g2, r2, h2⟩ := ih (i + 1) (by omega)
    refine ⟨max g1 g2, (r1.1 ++ r2.1, r1.2 && r2.2), ?_⟩
    have l1 := chkSlot_ext (a := a) (fun lo2 hi2 c2 r4 _ h4 =>
      chkNode_mono B (le_max_left g1 g2) h4) nb lo hi i w _ h1
    have l2 := chkSlots_ext (a := a) (fun lo2 hi2 c2 r4 _ h4 =>
      chkNode_mono B (le_max_right g1 g2) h4) nb lo hi c (i + 1) _ h2
    simp only [chkSlots, hw, l1, l2]

theorem chkNode_of_slots {B : istree} {nb : Node} {a : Nat} {lo hi : Option Int} {g : Nat}
    {r : List (Int × Int) × Bool} (hn : B.nodes[a]? = some nb)
    (hok : nodeShapeOK nb lo hi = true) (hd : nb.dirty = Dirty.clean)
    (hs : chkSlots tol (chkNode tol g B) nb a lo hi nb.degree 0 = some r) :
    chkNode tol (g + 1) B lo hi a = some (r.1, false) := by
  simp [chkNode, hn, hok, hs, hd]

/-- The check of a slot that does not hold a node word does not depend on the heap. -/
theorem chkSlot_leaf {rec rec1 : Option Int → Option Int → Nat → Option (List (Int × Int) × Bool)}
    (n : Node) (a : Nat) (lo hi : Option Int) (i : Nat) {w : Word} (hw : ∀ c, w ≠ Word.node c) :
    chkSlot tol rec1 n a lo hi i w = chkSlot tol rec n a lo hi i w := by
  cases w with
  | node b => exact absurd rfl (hw b)
  | emptyVal => rfl
  | val v => rfl
  | kvpair k v => rfl
  | null => rfl
  | rebuildop o => rfl

/-- A clean node of a well-formed subtree in which one slot is overwritten roots a
well-formed subtree again when the new word passes the check of its slot and the subtrees
behind the other slots (if the node has any) are kept. -/
theorem node_ctx {A B : istree} {a : Nat} {na nb : Node} {L H : Option Int} {g : Nat}
    {r : List (Int × Int) × Bool} {ix : Nat} {w : Word}
    (hA : chkNode tol g A L H a = some r) (hna : A.nodes[a]? = some na)
    (hnb : B.nodes[a]? = some nb) (hdeg : nb.degree = na.degree) (hkeys : nb.keys = na.keys)
    (hmin : nb.minKey = na.minKey) (hmax : nb.maxKey = na.maxKey)
    (hdirty : nb.dirty = Dirty.clean) (hslots : nb.slots = na.slots.set ix w)
    (hix : ix < na.degree)
    (hnew : ∃ g1 r1, chkSlot tol (chkNode tol g1 B) nb a L H ix w = some r1)
    (hother : 2 ≤ na.degree → ∀ g lo2 hi2 c r2, a < c →
      Apart lo2 hi2 (slotLo na L ix) (slotHi na H ix) →
      chkNode tol g A lo2 hi2 c = some r2 → ∃ g1 d1, chkNode tol g1 B lo2 hi2 c = some (r2.1, d1)) :
    ∃ g2 r2, chkNode tol g2 B L H a = some r2 := by
  cases g with
  | zero => simp [chkNode] at hA
  | succ g =>
    obtain ⟨n, r2, hn, hok, hsl, _, _⟩ := chkNode_succ_some hA
    rw [hna] at hn
    cases hn
    have hf := nodeShapeOK_facts hok
    have hokB : nodeShapeOK nb L H = true := by
      rw [← hok]
      simp [nodeShapeOK, keyAt, hdeg, hkeys, hslots, hmin, hmax]
    have hpt : ∀ j, j < nb.degree → ∃ w2 g2 r3, nb.slots[j]? = some w2
        ∧ chkSlot tol (chkNode tol g2 B) nb a L H j w2 = some r3 := by
      intro j hj
      rw [hdeg] at hj
      by_cases hji : j = ix
      · subst hji
        obtain ⟨g1, r1, h1⟩ := hnew
        refine ⟨w, g1, r1, ?_, h1⟩
        rw [hslots]
        simp [List.getElem?_set]
        have := hf.slots
        omega
      · obtain ⟨wj, rj, hwj, hcj⟩ := chkSlots_get na.degree 0 r2 hsl j (by omega) (by omega)
        have hwB : nb.slots[j]? = some wj := by
          rw [hslots, List.getElem?_set_ne (Ne.symm hji)]
          exact hwj
        by_cases hnode : ∃ c, wj = Word.node c
        · obtain ⟨c, hc⟩ := hnode
          subst hc
          simp only [chkSlot] at hcj
          split at hcj
          swap
          · cases hcj
          rename_i hac
          obtain ⟨g1, d1, e1⟩ := hother (by omega) g _ _ c rj hac
            (slot_apart hf.keys L H (by omega) hix hji) hcj
          refine ⟨Word.node c, g1, (rj.1, d1), hwB, ?_⟩
          rw [chkSlot_keys hkeys hdeg]
          simp only [chkSlot, hac, if_true]
          exact e1
        · refine ⟨wj, 0, rj, hwB, ?_⟩
          rw [chkSlot_keys hkeys hdeg, chkSlot_leaf na a L H j (fun c hc => hnode ⟨c, hc⟩)]
          exact hcj
    obtain ⟨g2, r3, h3⟩ := chkSlots_of_pointwise hpt nb.degree 0 (by omega)
    exact ⟨g2 + 1, _, chkNode_of_slots hnb hokB hdirty h3⟩

/-- A well-formed subtree that holds a path to a clean node stays well formed when the nodes
below the end of the path are kept, the subtrees whose ranges are apart from the range of
the end are kept, and the end of the path roots a well-formed subtree again. -/
theorem chain_ctx {A B : istree} {L H : Option Int} {q : Nat} {qn : Node}
    (hq : A.nodes[q]? = some qn) (hqc : qn.dirty = Dirty.clean)
    (hanc : ∀ (x : Nat) (n : Node), x < q → A.nodes[x]? = some n →
      ∃ n1, B.nodes[x]? = some n1 ∧ LikeNode n n1)
    (hoff : 2 ≤ q → ∀ g lo2 hi2 b r2, 2 ≤ b → Apart lo2 hi2 L H →
      chkNode tol g A lo2 hi2 b = some r2 → ∃ g1 d1, chkNode tol g1 B lo2 hi2 b = some (r2.1, d1))
    (hend : ∃ g1 r1, chkNode tol g1 B L H q = some r1)
    (hdeg : ∀ (x : Nat) (n : Node), A.nodes[x]? = some n → 2 ≤ n.degree → 2 ≤ x) :
    ∀ {path : List Nat} {p : Nat} {lo hi : Option Int} {g : Nat} {r : List (Int × Int) × Bool},
      Chain A p lo hi path q L H → chkNode tol g A lo hi p = some r →
      ∃ g2 r2, chkNode tol g2 B lo hi p = some r2 := by
  intro path
  induction path with
  | nil =>
    intro p lo hi g r h hc
    obtain ⟨e1, e2, e3⟩ := h
    subst e1 e2 e3
    exact hend
  | cons a rest ih =>
    intro p lo hi g r h hc
    have hcl := Chain.clean h hc hq hqc
    obtain ⟨pn, j, g1, g2, g3, g4, hch⟩ := h
    cases g with
    | zero => simp [chkNode] at hc
    | succ g =>
      obtain ⟨n, r2, hn, hok, hsl, _, _⟩ := chkNode_succ_some hc
      rw [g1] at hn
      cases hn
      have hf := nodeShapeOK_facts hok
      obtain ⟨rc, hrc, _⟩ := chkNode_slot hc g1 g2 g3
      obtain ⟨gc, rc2, hcB⟩ := ih hch hrc
      have hle := hch.le
      obtain ⟨nB, hnB, hlike⟩ := hanc p pn (by omega) g1
      have hpclean := chkNode_clean hc g1 hcl
      have hsubr := Chain.rangeSub hch hrc
      have hpt : ∀ i, i < nB.degree → ∃ w2 g2 r3, nB.slots[i]? = some w2
          ∧ chkSlot tol (chkNode tol g2 B) nB p lo hi i w2 = some r3 := by
        intro i hi1
        rw [hlike.degree] at hi1
        by_cases hij : i = j
        · subst hij
          refine ⟨Word.node a, gc, rc2, by rw [hlike.slots]; exact g3, ?_⟩
          rw [chkSlot_like hlike]
          simp only [chkSlot, g4, if_true]
          exact hcB
        · obtain ⟨wi, ri, hwi, hci⟩ := chkSlots_get pn.degree 0 r2 hsl i (by omega) (by omega)
          have hwB : nB.slots[i]? = some wi := by rw [hlike.slots]; exact hwi
          by_cases hnode : ∃ c, wi = Word.node c
          · obtain ⟨c, hc2⟩ := hnode
            subst hc2
            simp only [chkSlot] at hci
            split at hci
            swap
            · cases hci
            rename_i hpc
            have hp2 : 2 ≤ p := hdeg p pn g1 (by omega)
            obtain ⟨g5, d5, e5⟩ := hoff (by omega) g _ _ c ri (by omega)
              ((slot_apart hf.keys lo hi hi1 g2 hij).subRight hsubr) hci
            refine ⟨Word.node c, g5, (ri.1, d5), hwB, ?_⟩
            rw [chkSlot_like hlike]
            simp only [chkSlot, hpc, if_true]
            exact e5
          · refine ⟨wi, 0, ri, hwB, ?_⟩
            rw [chkSlot_like hlike, chkSlot_leaf pn p lo hi i (fun c hc2 => hnode ⟨c, hc2⟩)]
            exact hci
      obtain ⟨g6, r6, h6⟩ := chkSlots_of_pointwise hpt nB.degree 0 (by omega)
      exact ⟨g6 + 1, _, chkNode_of_slots hnB (by rw [nodeShapeOK_like hlike]; exact hok)
        (by rw [hlike.dirty]; exact hpclean) h6⟩
/-! ## The invariant of the states that updates reach -/

/-- What a `rebuild` does, single-threaded: either the first DCSS fails and the heap is left
as it was, or the subtree is replaced. -/
theorem rebuild_cases {fuel : Nat} {st st1 : istree} {rr parent depth f : Nat} {index : Int}
    {lo0 hi0 : Option Int} {l : List (Int × Int)} {d0 : Bool}
    (hrun : rebuild fuel st rr parent index depth = .ok st1)
    (hwf : chkNode tol f st lo0 hi0 rr = some (l, d0)) (hpar : parent < rr) :
    (st1.nodes = st.nodes ∧ st1.root = st.root ∧ st1.INF_KEY = st.INF_KEY
      ∧ st1.NO_VALUE = st.NO_VALUE)
    ∨ ∃ (pn : Node) (i : Nat) (w : Word), st.nodes[parent]? = some pn ∧ index = (i : Int)
      ∧ i < pn.degree ∧ pn.slots[i]? = some (Word.node rr) ∧ pn.dirty = Dirty.clean
      ∧ Rebuilt tol st st1 parent i w pn l ∧ Kept tol st st1 parent rr lo0 hi0 := by
  simp only [rebuild, istree.allocOp, bind, Except.bind] at hrun
  cases hd : dcssPtr { st with ops := st.ops ++ [⟨rr, parent, index, depth, Word.null, false⟩] }
      parent index (Word.node rr) (Word.rebuildop st.ops.length) with
  | error e => simp [hd] at hrun
  | ok q =>
    obtain ⟨res, st2⟩ := q
    simp only [hd] at hrun
    have hop0 : ∀ (s : istree), s.ops = st.ops ++ [⟨rr, parent, index, depth, Word.null, false⟩] →
        s.getOp st.ops.length = .ok ⟨rr, parent, index, depth, Word.null, false⟩ := by
      intro s hs
      rw [getOp_eq_ok, hs]
      simp
    rcases dcssPtr_inv hd with ⟨hres, pn, i, hpn, hidx, hi, hslot, hdirty, hst2⟩ | ⟨hres, hst2⟩
    · right
      subst hres hst2
      simp only [if_true] at hrun
      have hpn0 : st.nodes[parent]? = some pn := hpn
      have hlt := lt_of_getElem hpn0
      have hilt := (List.getElem?_eq_some_iff.mp hslot).1
      have hne : ∀ (x : Nat), x ≠ parent →
          (({ st with ops := st.ops ++ [⟨rr, parent, index, depth, Word.null, false⟩] }
            : istree).setNode parent
            { pn with slots := pn.slots.set i (Word.rebuildop st.ops.length) }).nodes[x]?
            = st.nodes[x]? := by
        intro x hx
        show (st.nodes.set parent _)[x]? = _
        rw [List.getElem?_set_ne (Ne.symm hx)]
      have hsame : (({ st with ops := st.ops ++ [⟨rr, parent, index, depth, Word.null, false⟩] }
            : istree).setNode parent
            { pn with slots := pn.slots.set i (Word.rebuildop st.ops.length) }).nodes[parent]?
            = some { pn with slots := pn.slots.set i (Word.rebuildop st.ops.length) } := by
        show (st.nodes.set parent _)[parent]? = _
        simp [List.getElem?_set, hlt]
      obtain ⟨w, hreb, hkept⟩ := @helpRebuild_spec tol fuel _ st1 _ f i _ lo0 hi0 l d0
        { pn with slots := pn.slots.set i (Word.rebuildop st.ops.length) }
        (hop0 _ rfl) rfl rfl
        (by
          show chkNode tol f _ lo0 hi0 rr = some (l, d0)
          rw [@chkNode_frame tol st _ parent (fun x hx => hne x (by omega)) f lo0 hi0 rr hpar]
          exact hwf)
        hpar hsame hidx hi (by simp [List.getElem?_set, hilt]) hdirty hrun
      refine ⟨pn, i, w, hpn0, hidx, hi, hslot, hdirty, ?_, ?_⟩
      · refine ⟨hreb.root, hreb.noValue, ?_, ?_, ?_, hreb.word, hreb.sub, hreb.infKey⟩
        · have := hreb.len
          simpa [istree.setNode] using this
        · intro x n hx hn
          exact hreb.old x n hx (by rw [hne x hx]; exact hn)
        · obtain ⟨pn1, g1, g2⟩ := hreb.par
          refine ⟨pn1, g1, ?_⟩
          simpa [List.set_set] using g2
      · refine ⟨?_, ?_, ?_⟩
        · intro x n hx hn
          by_cases hxp : x = parent
          · subst hxp
            rw [hpn0] at hn
            cases hn
            obtain ⟨n1, g1, g2⟩ := hkept.low _ { pn with slots := pn.slots.set i (Word.rebuildop st.ops.length) } hx hsame
            exact ⟨n1, g1, g2⟩
          · exact hkept.low x n hx (by rw [hne x hxp]; exact hn)
        · have := hkept.fresh
          simpa [istree.setNode] using this
        · intro L H m hsub hp hdeg g lo hi b r hmb hap hc
          have hc2 := @chkNode_apart tol st _ L H m (fun x n hmx hn => by
            by_cases hxp : x = parent
            · subst hxp
              right
              obtain ⟨pn2, hpn2, h2, h3⟩ := hp hmx
              rw [hn] at hpn2
              cases hpn2
              exact ⟨h2, h3⟩
            · left
              exact ⟨n, by rw [hne x hxp]; exact hn, LikeNode.reflLike n⟩) g lo hi b r hmb hap hc
          refine hkept.off L H m hsub ?_ ?_ g lo hi b r hmb hap hc2
          · intro hmp
            obtain ⟨pn2, hpn2, h2, h3⟩ := hp hmp
            rw [hpn0] at hpn2
            cases hpn2
            exact ⟨_, hsame, h2, h3⟩
          · intro x n hx hn
            have hx2 : rr ≤ x := hx
            rw [hne x (by intro e; subst e; omega)] at hn
            exact hdeg x n hx2 hn
    · left
      subst hst2
      simp only [hres, if_false, pure, Except.pure, Except.ok.injEq] at hrun
      subst hrun
      exact ⟨rfl, rfl, rfl, rfl⟩

theorem keysWellFormed_congr {n n1 : Node} (hd : n1.degree = n.degree) (hk : n1.keys = n.keys)
    (hmin : n1.minKey = n.minKey) (hmax : n1.maxKey = n.maxKey) :
    keysWellFormed n1 = keysWellFormed n := by
  simp [keysWellFormed, keyAt, hd, hk, hmin, hmax]

theorem Inv.ofNodes {st st1 : istree} (h : Inv st) (hn : st1.nodes = st.nodes)
    (hr : st1.root = st.root) : Inv st1 := by
  obtain ⟨⟨h1, h2, h3, h4⟩, g, all, d, ht⟩ := h
  refine ⟨⟨by rw [hr]; exact h1, by rw [hn]; exact h2, ?_, ?_⟩, g, all, d, ?_⟩
  · intro a n ha
    rw [hn] at ha
    exact h3 a n ha
  · intro a n ha
    rw [hn] at ha
    exact h4 a n ha
  · rw [hr, chkNode_nodes hn]
    exact ht

/-- The empty map satisfies the invariant. -/
theorem inv_init (infKey noValue : Int) (maxLeaf num den rng : Nat) :
    Inv (istree.new infKey noValue maxLeaf num den rng) := by
  refine ⟨⟨rfl, by simp [istree.new], ?_, ?_⟩, 2, [], false, ?_⟩
  · intro a n ha
    match a, ha with
    | 0, ha =>
      simp [istree.new] at ha
      subst ha
      rfl
    | 1, ha =>
      simp [istree.new] at ha
      subst ha
      rfl
    | a + 2, ha => simp [istree.new] at ha
  · intro a n ha
    match a, ha with
    | 0, ha =>
      simp [istree.new] at ha
      subst ha
      simp
    | 1, ha =>
      simp [istree.new] at ha
      subst ha
      simp
    | a + 2, ha => simp [istree.new] at ha
  · simp [istree.new, chkNode, chkSlots, chkSlot, nodeShapeOK, keysIncreasing, slotLo, slotHi,
      Dirty.clean]

theorem Frozen.ofSameNodes {st st1 : istree} (hn : st1.nodes = st.nodes) : Frozen st st1 := by
  intro a n ha _
  exact ⟨n, by rw [hn]; exact ha, rfl⟩

theorem SameShape.like {n n1 : Node} (h : SameShape n n1) (hd : n1.dirty = n.dirty) :
    LikeNode n n1 :=
  ⟨h.degree, h.keys, h.slots, h.minKey, h.maxKey, hd⟩

/-- A rebuild below a node of the tree keeps the invariant, and writes no slot of a node whose
dirty word is not `0`. -/
theorem rebuild_inv {fuel : Nat} {st st1 : istree} {rr parent depth : Nat} {index : Int}
    {path : List Nat} {L H : Option Int} {pn : Node} {j : Nat}
    (hinv : Inv st) (hch : Chain st st.root none none path parent L H)
    (hpn : st.nodes[parent]? = some pn) (hj : j < pn.degree)
    (hslot : pn.slots[j]? = some (Word.node rr)) (hidx : index = (j : Int))
    (hrun : rebuild fuel st rr parent index depth = .ok st1) :
    Inv st1 ∧ Frozen st st1 ∧ st1.INF_KEY = st.INF_KEY := by
  obtain ⟨g, all, d, htree⟩ := hinv.tree
  obtain ⟨g1, r1, hq⟩ := Chain.endChk hch htree
  cases g1 with
  | zero => simp [chkNode] at hq
  | succ g1 =>
    obtain ⟨rc, hrc, hpr⟩ := chkNode_slot hq hpn hj hslot
    obtain ⟨n0, r2, hn0, hok, hsl, _, _⟩ := chkNode_succ_some hq
    rw [hpn] at hn0
    cases hn0
    have hf := nodeShapeOK_facts hok
    have hdeg2 : ∀ (x : Nat) (n : Node), st.nodes[x]? = some n → 2 ≤ n.degree → 2 ≤ x :=
      fun x n hn => (hinv.heap.deg x n hn).mp
    rcases @rebuild_cases true fuel st st1 rr parent depth g1 index _ _ rc.1 rc.2 hrun hrc hpr with
      ⟨hn, hr, hik, _⟩ | ⟨pn2, i, w, hpn2, hidx2, hi, hslot2, hdirty, hreb, hkept⟩
    · exact ⟨hinv.ofNodes hn hr, Frozen.ofSameNodes hn, hik⟩
    · rw [hpn] at hpn2
      cases hpn2
      have hij : i = j := by
        rw [hidx] at hidx2
        exact (Int.ofNat_inj.mp hidx2).symm
      subst hij
      have hlike : ∀ (x : Nat) (n : Node), x < rr → x ≠ parent → st.nodes[x]? = some n →
          ∃ n1, st1.nodes[x]? = some n1 ∧ LikeNode n n1 := by
        intro x n hx hxp hn
        obtain ⟨n1, e1, e2⟩ := hreb.old x n hxp hn
        obtain ⟨n2, e3, e4⟩ := hkept.low x n hx hn
        rw [e1] at e3
        cases e3
        exact ⟨n1, e1, e2.like e4⟩
      obtain ⟨pn1, hpn1, hss⟩ := hreb.par
      have hpd : pn1.dirty = Dirty.clean := by
        obtain ⟨n2, e3, e4⟩ := hkept.low parent pn hpr hpn
        rw [hpn1] at e3
        cases e3
        rw [e4]
        exact hdirty
      have hrrdeg : 2 ≤ parent → ∀ (x : Nat) (n : Node), rr ≤ x → st.nodes[x]? = some n →
          2 ≤ n.degree := by
        intro hp x n hx hn
        exact (hinv.heap.deg x n hn).mpr (by omega)
      have hp2 : 2 ≤ pn.degree → 2 ≤ parent := hdeg2 parent pn hpn
      -- the node at the parent
      have hend : ∃ g2 r3, chkNode true g2 st1 L H parent = some r3 := by
        refine node_ctx hq hpn hpn1 hss.degree hss.keys hss.minKey hss.maxKey hpd hss.slots hj
          ?_ ?_
        · obtain ⟨F, d1, hw⟩ := hreb.sub _ _ (chkNode_ok st _ _ _ _ _ hrc)
          refine ⟨F, (rc.1, d1), ?_⟩
          rw [chkSlot_keys hss.keys hss.degree, chkSlot_eq_chkWord]
          · exact hw
          · intro v hv
            subst hv
            simp [chkWord] at hw
        · intro hd2 g3 lo2 hi2 c r3 hpc hap hc
          obtain ⟨d3, e3⟩ := hkept.off _ _ (parent + 1) (fun k hk => hk) (by intro h; omega)
            (hrrdeg (hp2 hd2)) g3 lo2 hi2 c r3 (by omega) hap hc
          exact ⟨g3, d3, e3⟩
      -- the nodes above it
      obtain ⟨g4, r4, h4⟩ := chain_ctx hpn hdirty
        (fun x n hx hn => hlike x n (by omega) (by omega) hn)
        (fun hq2 g3 lo2 hi2 b r3 hb hap hc => by
          obtain ⟨d3, e3⟩ := hkept.off L H 2 (fun k hk => slot_sub hf hj hk)
            (fun _ => ⟨pn, hpn, (hinv.heap.deg parent pn hpn).mpr hq2,
              first_key_inRange hf ((hinv.heap.deg parent pn hpn).mpr hq2)⟩)
            (hrrdeg hq2) g3 lo2 hi2 b r3 hb hap hc
          exact ⟨g3, d3, e3⟩)
        hend hdeg2 hch htree
      have hold : ∀ (x : Nat) (n : Node), st.nodes[x]? = some n →
          ∃ n1, st1.nodes[x]? = some n1 ∧ n1.degree = n.degree ∧ n1.keys = n.keys
            ∧ n1.minKey = n.minKey ∧ n1.maxKey = n.maxKey
            ∧ (x ≠ parent → n1.slots = n.slots) := by
        intro x n hn
        by_cases hxp : x = parent
        · subst hxp
          rw [hpn] at hn
          cases hn
          exact ⟨pn1, hpn1, hss.degree, hss.keys, hss.minKey, hss.maxKey, fun h => absurd rfl h⟩
        · obtain ⟨n1, e1, e2⟩ := hreb.old x n hxp hn
          exact ⟨n1, e1, e2.degree, e2.keys, e2.minKey, e2.maxKey, fun _ => e2.slots⟩
      have hcase : ∀ (x : Nat) (n1 : Node), st1.nodes[x]? = some n1 →
          (∃ n, st.nodes[x]? = some n ∧ n1.degree = n.degree ∧ n1.keys = n.keys
            ∧ n1.minKey = n.minKey ∧ n1.maxKey = n.maxKey)
          ∨ (st.nodes.length ≤ x ∧ keysWellFormed n1 = true ∧ 2 ≤ n1.degree) := by
        intro x n1 hn1
        by_cases hx : x < st.nodes.length
        · left
          obtain ⟨n, hn⟩ : ∃ n, st.nodes[x]? = some n := ⟨st.nodes[x], List.getElem?_eq_getElem hx⟩
          obtain ⟨n2, e1, e2, e3, e4, e5, _⟩ := hold x n hn
          rw [hn1] at e1
          cases e1
          exact ⟨n, hn, e2, e3, e4, e5⟩
        · right
          have := hkept.fresh x n1 (by omega) hn1
          exact ⟨by omega, this.1, this.2⟩
      refine ⟨⟨⟨?_, ?_, ?_, ?_⟩, g4, r4.1, r4.2, ?_⟩, ?_, hreb.infKey⟩
      · rw [hreb.root]
        exact hinv.heap.root
      · have := hinv.heap.two
        have := hreb.len
        omega
      · intro x n1 hn1
        rcases hcase x n1 hn1 with ⟨n, hn, e2, e3, e4, e5⟩ | ⟨_, h2, _⟩
        · rw [keysWellFormed_congr e2 e3 e4 e5]
          exact hinv.heap.keys x n hn
        · exact h2
      · intro x n1 hn1
        rcases hcase x n1 hn1 with ⟨n, hn, e2, e3, e4, e5⟩ | ⟨h1, _, h3⟩
        · rw [e2]
          exact hinv.heap.deg x n hn
        · have := hinv.heap.two
          constructor
          · intro _; omega
          · intro _; exact h3
      · rw [hreb.root]
        exact h4
      · intro x n hn hd
        have hxp : x ≠ parent := by
          intro e
          subst e
          rw [hpn] at hn
          cases hn
          exact hd hdirty
        obtain ⟨n1, e1, _, _, _, _, e6⟩ := hold x n hn
        exact ⟨n1, e1, e6 hxp⟩

/-- What `decideUpdate` decides for a key other than `INF_KEY`: it returns without writing and
leaves the state as it was, or it writes the empty word, a `VAL` word over a word that holds
the key, a `KVPAIR` for the key, or a pointer to a new leaf that holds the key and the pair
found in the slot. -/
theorem decideUpdate_cases {st s1 : istree} {n : Node} {ix : Int} {word : Word}
    {key val : Int} {t : UpdateType} {d : Decision} (hk : key ≠ st.INF_KEY)
    (h : decideUpdate st n ix word key val t = .ok (d, s1)) :
    (∃ v, d = Decision.done v ∧ s1 = st)
    ∨ ∃ w aff fv np nn, d = Decision.swap w aff fv np nn ∧
      ((s1 = st ∧ w = Word.emptyVal)
      ∨ (s1 = st ∧ w = Word.val val ∧
          ((∃ v, word = Word.kvpair key v) ∨ ((∃ v, word = Word.val v) ∧ 0 < ix)))
      ∨ (s1 = st ∧ w = Word.kvpair key val)
      ∨ ∃ a fk fval, createLeaf st (if key < fk then [(key, val), (fk, fval)]
            else [(fk, fval), (key, val)]) = .ok (a, s1) ∧ w = Word.node a ∧ fk ≠ key
          ∧ (word = Word.kvpair fk fval
              ∨ (word = Word.val fval ∧ n.key (ix - 1) = .ok fk ∧ 0 < ix))) := by
  unfold decideUpdate at h
  simp only [bind, Except.bind] at h
  cases ha : assert (IS_EMPTY_VAL word || !IS_VAL word || decide (ix > 0)) with
  | error e => simp [ha] at h
  | ok u =>
    simp only [ha] at h
    cases word with
    | null => simp [throw, throwThe, MonadExceptOf.throw] at h
    | node a => simp [throw, throwThe, MonadExceptOf.throw] at h
    | rebuildop o => simp [throw, throwThe, MonadExceptOf.throw] at h
    | emptyVal =>
      have hk2 : ¬ st.INF_KEY = key := fun e => hk e.symm
      by_cases c6 : val = 0 <;> cases t <;>
        simp [assert, payloadNonzero, hk2, c6, pure, Except.pure, throw, throwThe,
          MonadExceptOf.throw] at h
      all_goals (
        obtain ⟨h1, h2⟩ := h
        subst h1 h2
        try subst c6
        first
          | exact Or.inl ⟨_, rfl, rfl⟩
          | exact Or.inr ⟨_, _, _, _, _, rfl, Or.inr (Or.inr (Or.inl ⟨rfl, rfl⟩))⟩)
    | kvpair k v =>
      simp only [pure, Except.pure] at h
      cases hb : assert (v == st.NO_VALUE ||
          (decide (v > 0) && decide (k < Int.tdiv st.INF_KEY 8))) with
      | error e => simp [hb] at h
      | ok u2 =>
        simp only [hb] at h
        generalize hcl : createLeaf st
          (if key < k then [(key, val), (k, v)] else [(k, v), (key, val)]) = cl at h
        by_cases hkk : k = key <;> by_cases c2 : v = st.NO_VALUE <;> by_cases c6 : val = 0 <;>
          cases t <;> cases cl <;>
          simp [assert, payloadNonzero, hkk, c2, c6, pure, Except.pure, throw, throwThe,
            MonadExceptOf.throw] at h
        all_goals (
          obtain ⟨h1, h2⟩ := h
          subst h1 h2
          try subst c6
          try subst hkk
          first
            | exact Or.inl ⟨_, rfl, rfl⟩
            | exact Or.inr ⟨_, _, _, _, _, rfl, Or.inl ⟨rfl, rfl⟩⟩
            | exact Or.inr ⟨_, _, _, _, _, rfl, Or.inr (Or.inl ⟨rfl, rfl, Or.inl ⟨_, rfl⟩⟩)⟩
            | exact Or.inr ⟨_, _, _, _, _, rfl, Or.inr (Or.inr (Or.inl ⟨rfl, rfl⟩))⟩
            | exact Or.inr ⟨_, _, _, _, _, rfl,
                Or.inr (Or.inr (Or.inr ⟨_, _, _, hcl, rfl, hkk, Or.inl rfl⟩))⟩)
    | val v =>
      have hix : 0 < ix := by
        simp [assert, IS_EMPTY_VAL, IS_VAL] at ha
        split at ha
        · assumption
        · cases ha
      cases hkey : n.key (ix - 1) with
      | error e => simp [hkey] at h
      | ok k =>
        simp only [hkey, pure, Except.pure] at h
        cases hb : assert (v == st.NO_VALUE ||
            (decide (v > 0) && decide (k < Int.tdiv st.INF_KEY 8))) with
        | error e => simp [hb] at h
        | ok u2 =>
          simp only [hb] at h
          generalize hcl : createLeaf st
            (if key < k then [(key, val), (k, v)] else [(k, v), (key, val)]) = cl at h
          by_cases hkk : k = key <;> by_cases c2 : v = st.NO_VALUE <;> by_cases c6 : val = 0 <;>
            cases t <;> cases cl <;>
            simp [assert, payloadNonzero, hkk, c2, c6, pure, Except.pure, throw, throwThe,
              MonadExceptOf.throw] at h
          all_goals (
            obtain ⟨h1, h2⟩ := h
            subst h1 h2
            try subst c6
            try subst hkk
            first
              | exact Or.inl ⟨_, rfl, rfl⟩
              | exact Or.inr ⟨_, _, _, _, _, rfl, Or.inl ⟨rfl, rfl⟩⟩
              | exact Or.inr ⟨_, _, _, _, _, rfl,
                  Or.inr (Or.inl ⟨rfl, rfl, Or.inr ⟨⟨_, rfl⟩, hix⟩⟩)⟩
              | exact Or.inr ⟨_, _, _, _, _, rfl, Or.inr (Or.inr (Or.inl ⟨rfl, rfl⟩))⟩
              | exact Or.inr ⟨_, _, _, _, _, rfl,
                  Or.inr (Or.inr (Or.inr ⟨_, _, _, hcl, rfl, hkk, Or.inr ⟨rfl, rfl, hix⟩⟩))⟩)

/-- The nodes of a path from another node have at least two slots' worth of address: a node
at an address below `2` is reached from the root pseudo-node with the range of all keys. -/
theorem Chain.lowRange {st : istree} (hh : GoodHeap st) {path : List Nat} {q : Nat}
    {L H : Option Int} (h : Chain st st.root none none path q L H) (hq : q < 2) :
    L = none ∧ H = none := by
  cases path with
  | nil => exact ⟨h.2.1, h.2.2⟩
  | cons a rest =>
    obtain ⟨pn, i, g1, g2, g3, g4, hc⟩ := h
    have hle := hc.le
    rw [hh.root] at g1 g4
    have ha : a = 1 := by omega
    subst ha
    have hd : pn.degree = 1 := by
      have h1 := (hh.deg 0 pn g1).mp
      have h2 := hh.keys 0 pn g1
      simp only [keysWellFormed, Bool.and_eq_true, decide_eq_true_eq] at h2
      omega
    have hi0 : i = 0 := by omega
    subst hi0
    cases rest with
    | nil =>
      obtain ⟨_, e2, e3⟩ := hc
      simp [slotLo, slotHi, hd] at e2 e3
      exact ⟨e2, e3⟩
    | cons b rest2 =>
      obtain ⟨pn2, i2, _, _, _, k4, hc2⟩ := hc
      have := hc2.le
      omega

/-- The invariant is kept by a write of a word that passes the check of its slot into a slot
of a clean node of the tree, in a heap that may have grown by complete nodes. -/
theorem write_inv {st s1 : istree} {node : Nat} {n : Node} {path : List Nat} {L H : Option Int}
    {r : Nat} {newWord : Word}
    (hinv : Inv st) (hch : Chain st st.root none none path node L H)
    (hn : st.nodes[node]? = some n) (hclean : n.dirty = Dirty.clean) (hr : r < n.degree)
    (hkeep : ∀ (x : Nat) (m : Node), st.nodes[x]? = some m → s1.nodes[x]? = some m)
    (hfresh : Fresh st.nodes.length s1) (hroot : s1.root = st.root)
    (hnew : ∃ g1 r1, chkSlot true (chkNode true g1 s1) n node L H r newWord = some r1) :
    Inv (s1.setNode node { n with slots := n.slots.set r newWord }) := by
  obtain ⟨g, all, d, htree⟩ := hinv.tree
  obtain ⟨g1, r1, hq⟩ := Chain.endChk hch htree
  cases g1 with
  | zero => simp [chkNode] at hq
  | succ g1 =>
    obtain ⟨n0, r2, hn0, hok, hsl, _, _⟩ := chkNode_succ_some hq
    rw [hn] at hn0
    cases hn0
    have hf := nodeShapeOK_facts hok
    have hlt1 : node < s1.nodes.length := lt_of_getElem (hkeep node n hn)
    have hne : ∀ (x : Nat), x ≠ node →
        (s1.setNode node { n with slots := n.slots.set r newWord }).nodes[x]? = s1.nodes[x]? := by
      intro x hx
      show (s1.nodes.set node _)[x]? = _
      rw [List.getElem?_set_ne (Ne.symm hx)]
    have hsame : (s1.setNode node { n with slots := n.slots.set r newWord }).nodes[node]?
        = some { n with slots := n.slots.set r newWord } := by
      show (s1.nodes.set node _)[node]? = _
      simp [List.getElem?_set, hlt1]
    have hdeg2 : ∀ (x : Nat) (m : Node), st.nodes[x]? = some m → 2 ≤ m.degree → 2 ≤ x :=
      fun x m hm => (hinv.heap.deg x m hm).mp
    have hlike : ∀ (x : Nat) (m : Node), x ≠ node → st.nodes[x]? = some m →
        ∃ m1, (s1.setNode node { n with slots := n.slots.set r newWord }).nodes[x]? = some m1
          ∧ LikeNode m m1 := by
      intro x m hx hm
      exact ⟨m, by rw [hne x hx]; exact hkeep x m hm, LikeNode.reflLike m⟩
    have hend : ∃ g2 r3, chkNode true g2
        (s1.setNode node { n with slots := n.slots.set r newWord }) L H node = some r3 := by
      refine node_ctx hq hn hsame rfl rfl rfl rfl hclean rfl hr ?_ ?_
      · obtain ⟨g5, r5, h5⟩ := hnew
        refine ⟨g5, r5, ?_⟩
        rw [@chkSlot_keys true _ n { n with slots := n.slots.set r newWord } rfl rfl]
        refine chkSlot_ext ?_ n L H r newWord r5 h5
        intro lo2 hi2 c r6 hc h6
        rw [chkNode_frame (fun x hx => hne x (by omega)) g5 lo2 hi2 c hc]
        exact h6
      · intro _ g3 lo2 hi2 c r3 hpc hap hc
        refine ⟨g3, r3.2, ?_⟩
        exact @chkNode_apart true st _ (some 0) (some 0) (node + 1)
          (fun x m hx hm => Or.inl (hlike x m (by omega) hm)) g3 lo2 hi2 c r3 (by omega)
          (Apart.empty lo2 hi2) hc
    obtain ⟨g4, r4, h4⟩ := chain_ctx hn hclean
      (fun x m hx hm => hlike x m (by omega) hm)
      (fun hq2 g3 lo2 hi2 b r3 hb hap hc =>
        ⟨g3, r3.2, @chkNode_apart true st _ L H 2 (fun x m hx hm => by
          by_cases hxn : x = node
          · subst hxn
            rw [hn] at hm
            cases hm
            exact Or.inr ⟨(hinv.heap.deg x n hn).mpr hq2,
              first_key_inRange hf ((hinv.heap.deg x n hn).mpr hq2)⟩
          · exact Or.inl (hlike x m hxn hm)) g3 lo2 hi2 b r3 hb hap hc⟩)
      hend hdeg2 hch htree
    have hcase : ∀ (x : Nat) (m1 : Node),
        (s1.setNode node { n with slots := n.slots.set r newWord }).nodes[x]? = some m1 →
        (∃ m, st.nodes[x]? = some m ∧ m1.degree = m.degree ∧ m1.keys = m.keys
          ∧ m1.minKey = m.minKey ∧ m1.maxKey = m.maxKey)
        ∨ (st.nodes.length ≤ x ∧ keysWellFormed m1 = true ∧ 2 ≤ m1.degree) := by
      intro x m1 hm1
      by_cases hxn : x = node
      · subst hxn
        rw [hsame] at hm1
        cases hm1
        exact Or.inl ⟨n, hn, rfl, rfl, rfl, rfl⟩
      · rw [hne x hxn] at hm1
        by_cases hx : x < st.nodes.length
        · left
          obtain ⟨m, hm⟩ : ∃ m, st.nodes[x]? = some m := ⟨st.nodes[x], List.getElem?_eq_getElem hx⟩
          have := hkeep x m hm
          rw [hm1] at this
          cases this
          exact ⟨m1, hm, rfl, rfl, rfl, rfl⟩
        · right
          have := hfresh x m1 (by omega) hm1
          exact ⟨by omega, this.1, this.2⟩
    refine ⟨⟨?_, ?_, ?_, ?_⟩, g4, r4.1, r4.2, ?_⟩
    · show s1.root = 0
      rw [hroot]
      exact hinv.heap.root
    · show 2 ≤ (s1.nodes.set node _).length
      rw [List.length_set]
      have := hinv.heap.two
      have : st.nodes.length ≤ s1.nodes.length := by
        by_contra hc
        have hx : s1.nodes.length < st.nodes.length := by omega
        obtain ⟨m, hm⟩ : ∃ m, st.nodes[s1.nodes.length]? = some m :=
          ⟨st.nodes[s1.nodes.length], List.getElem?_eq_getElem hx⟩
        have := lt_of_getElem (hkeep _ m hm)
        omega
      omega
    · intro x m1 hm1
      rcases hcase x m1 hm1 with ⟨m, hm, e2, e3, e4, e5⟩ | ⟨_, h2, _⟩
      · rw [keysWellFormed_congr e2 e3 e4 e5]
        exact hinv.heap.keys x m hm
      · exact h2
    · intro x m1 hm1
      rcases hcase x m1 hm1 with ⟨m, hm, e2, e3, e4, e5⟩ | ⟨h1, _, h3⟩
      · rw [e2]
        exact hinv.heap.deg x m hm
      · have := hinv.heap.two
        constructor
        · intro _; omega
        · intro _; exact h3
    · show chkNode true g4 _ none none s1.root = some _
      rw [hroot]
      exact h4

/-- The invariant is kept when every node is replaced by a node with the same degree, keys,
slots, cached bounds and dirty word. -/
theorem Inv.ofLike {st st1 : istree} (hinv : Inv st)
    (hl : ∀ (x : Nat) (n : Node), st.nodes[x]? = some n →
      ∃ n1, st1.nodes[x]? = some n1 ∧ LikeNode n n1)
    (hlen : st1.nodes.length = st.nodes.length) (hroot : st1.root = st.root) : Inv st1 := by
  obtain ⟨g, all, d, htree⟩ := hinv.tree
  have hback : ∀ (x : Nat) (n1 : Node), st1.nodes[x]? = some n1 →
      ∃ n, st.nodes[x]? = some n ∧ LikeNode n n1 := by
    intro x n1 hn1
    have hx : x < st.nodes.length := by
      have := lt_of_getElem hn1
      omega
    obtain ⟨n, hn⟩ : ∃ n, st.nodes[x]? = some n := ⟨st.nodes[x], List.getElem?_eq_getElem hx⟩
    obtain ⟨n2, e1, e2⟩ := hl x n hn
    rw [hn1] at e1
    cases e1
    exact ⟨n, hn, e2⟩
  refine ⟨⟨?_, ?_, ?_, ?_⟩, g, all, d, ?_⟩
  · rw [hroot]
    exact hinv.heap.root
  · rw [hlen]
    exact hinv.heap.two
  · intro x n1 hn1
    obtain ⟨n, hn, e⟩ := hback x n1 hn1
    rw [keysWellFormed_congr e.degree e.keys e.minKey e.maxKey]
    exact hinv.heap.keys x n hn
  · intro x n1 hn1
    obtain ⟨n, hn, e⟩ := hback x n1 hn1
    rw [e.degree]
    exact hinv.heap.deg x n hn
  · rw [hroot]
    exact chkNode_like hl g none none st.root _ htree

theorem GoodHeap.lowDegree {st : istree} (hh : GoodHeap st) {x : Nat} {n : Node}
    (hn : st.nodes[x]? = some n) (hx : x < 2) : n.degree = 1 := by
  have h1 := (hh.deg x n hn).mp
  have h2 := hh.keys x n hn
  simp only [keysWellFormed, Bool.and_eq_true, decide_eq_true_eq] at h2
  omega

/-- The slot of a node of a well-formed subtree that holds a child is the slot that
`interpolationSearch` finds for the first key of the child. -/
theorem link_index {tol : Bool} {g : Nat} {st : istree} {L H : Option Int} {p : Nat} {pn : Node}
    {r : List (Int × Int) × Bool} (h : chkNode tol g st L H p = some r)
    (hpn : st.nodes[p]? = some pn) {j a : Nat} (hj : j < pn.degree)
    (hs : pn.slots[j]? = some (Word.node a)) :
    ∃ na, st.nodes[a]? = some na ∧ p < a ∧
      (2 ≤ na.degree → na.key 0 = .ok (keyAt na 0)
        ∧ (indexInBounds (keyAt na 0) pn = true →
            interpolationSearch (keyAt na 0) pn = .ok (j : Int))) := by
  cases g with
  | zero => simp [chkNode] at h
  | succ g =>
    obtain ⟨rc, hrc, hpa⟩ := chkNode_slot h hpn hj hs
    obtain ⟨n0, r2, hn0, hok, _, _, _⟩ := chkNode_succ_some h
    rw [hpn] at hn0
    cases hn0
    have hf := nodeShapeOK_facts hok
    cases g with
    | zero => simp [chkNode] at hrc
    | succ g =>
      obtain ⟨na, r3, hna, hoka, _, _, _⟩ := chkNode_succ_some hrc
      have hfa := nodeShapeOK_facts hoka
      refine ⟨na, hna, hpa, fun hd => ⟨Node.key_zero na hd hfa.keys.len, fun hb => ?_⟩⟩
      obtain ⟨k1, k2⟩ := first_key_inRange hfa hd
      refine interpolationSearch_unique hf.keys hj ?_ ?_ hb
      · intro h0
        have : ¬ j = 0 := by omega
        simpa [slotLo, this, aboveLo] using k1
      · intro h1
        have : ¬ j + 1 = pn.degree := by omega
        simpa [slotHi, this, belowHi] using k2

/-- The scan of `doUpdate` for a node to rebuild keeps the invariant, and writes no slot of
a node whose dirty word is not `0`. -/
theorem rebuildScan_inv {fuel : Nat} {st : istree} (hinv : Inv st) {node : Nat}
    {L H : Option Int} :
    ∀ (rest pre : List Nat) (parent : Nat) (Lp Hp : Option Int) (st5 : istree),
      Chain st st.root none none pre.reverse parent Lp Hp →
      (pre = [] ∨ pre.head? = some parent) →
      Chain st parent Lp Hp rest node L H →
      rebuildScan fuel st pre rest = .ok st5 →
        Inv st5 ∧ Frozen st st5 ∧ st5.INF_KEY = st.INF_KEY := by
  intro rest
  induction rest with
  | nil =>
    intro pre parent Lp Hp st5 _ _ _ hrun
    simp only [rebuildScan, pure, Except.pure, Except.ok.injEq] at hrun
    subst hrun
    exact ⟨hinv, Frozen.ofSameNodes rfl, rfl⟩
  | cons a rest ih =>
    intro pre parent Lp Hp st5 hup hpre hdown hrun
    obtain ⟨pn, i, hpn, hi, hs, hpa, hc⟩ := hdown
    obtain ⟨g, all, d, htree⟩ := hinv.tree
    obtain ⟨g1, r1, hq⟩ := Chain.endChk hup htree
    obtain ⟨na, hna, _, hlink⟩ := link_index hq hpn hi hs
    simp only [rebuildScan, getNode_of_getElem hna, bind, Except.bind] at hrun
    by_cases hneed : needsRebuild st na = true
    · simp only [hneed, if_true] at hrun
      cases pre with
      | nil =>
        simp only at hrun
        obtain ⟨e1, _, _⟩ := hup
        subst e1
        have hd := hinv.heap.lowDegree hpn (by rw [hinv.heap.root]; omega)
        have hi0 : i = 0 := by omega
        subst hi0
        exact rebuild_inv hinv (show Chain st st.root none none [] st.root none none from
          ⟨rfl, rfl, rfl⟩) hpn hi hs (by simp) hrun
      | cons p0 pre0 =>
        rcases hpre with hpre | hpre
        · cases hpre
        simp only [List.head?_cons, Option.some.injEq] at hpre
        subst hpre
        simp only [getNode_of_getElem hpn] at hrun
        by_cases hd1 : decide (pn.degree > 1) = true
        swap
        · simp only [assert, hd1, throw, throwThe, MonadExceptOf.throw] at hrun
          cases hrun
        by_cases hd2 : decide (na.degree > 1) = true
        swap
        · simp only [assert, hd1, hd2, if_true, pure, Except.pure, throw, throwThe,
            MonadExceptOf.throw] at hrun
          cases hrun
        obtain ⟨hk0, hidx0⟩ := hlink (by simpa using hd2)
        simp only [assert, hd1, hd2, if_true, pure, Except.pure, hk0] at hrun
        cases his : interpolationSearch (keyAt na 0) pn with
        | error e =>
          simp only [his] at hrun
          cases hrun
        | ok ix =>
          have hidx := hidx0 (indexInBounds_of_ok his)
          simp only [hidx] at hrun
          exact rebuild_inv hinv hup hpn hi hs rfl hrun
    · simp only [hneed] at hrun
      refine ih (a :: pre) a _ _ st5 ?_ (Or.inr rfl) hc hrun
      rw [List.reverse_cons]
      exact Chain.snoc hup hpn hi hs hpa

/-- The key that `interpolationSearch` sends to slot `r` lies in the range of the slot. -/
theorem slot_inRange {n : Node} {L H : Option Int} {key : Int} {r : Nat}
    (hk : inRange L H key) (h1 : 0 < r → keyAt n (r - 1) ≤ key)
    (h2 : r + 1 < n.degree → key < keyAt n r) (hr : r < n.degree) :
    inRange (slotLo n L r) (slotHi n H r) key := by
  constructor
  · by_cases h0 : r = 0
    · simp only [slotLo, h0, if_true]
      exact hk.1
    · simp only [slotLo, h0, if_false, aboveLo, decide_eq_true_eq]
      exact h1 (by omega)
  · by_cases h0 : r + 1 = n.degree
    · simp only [slotHi, h0, if_true]
      exact hk.2
    · simp only [slotHi, h0, if_false, belowHi, decide_eq_true_eq]
      exact h2 (by omega)

/-- The invariant is kept when the heap grows by complete nodes. -/
theorem Inv.ofGrowth {st s1 : istree} (hinv : Inv st)
    (hkeep : ∀ (x : Nat) (m : Node), st.nodes[x]? = some m → s1.nodes[x]? = some m)
    (hfresh : Fresh st.nodes.length s1) (hroot : s1.root = st.root) : Inv s1 := by
  obtain ⟨g, all, d, htree⟩ := hinv.tree
  have hlen : st.nodes.length ≤ s1.nodes.length := by
    by_contra hc
    have hx : s1.nodes.length < st.nodes.length := by omega
    obtain ⟨m, hm⟩ : ∃ m, st.nodes[s1.nodes.length]? = some m :=
      ⟨st.nodes[s1.nodes.length], List.getElem?_eq_getElem hx⟩
    have := lt_of_getElem (hkeep _ m hm)
    omega
  have hcase : ∀ (x : Nat) (m1 : Node), s1.nodes[x]? = some m1 →
      st.nodes[x]? = some m1 ∨ (st.nodes.length ≤ x ∧ keysWellFormed m1 = true ∧ 2 ≤ m1.degree) := by
    intro x m1 hm1
    by_cases hx : x < st.nodes.length
    · left
      obtain ⟨m, hm⟩ : ∃ m, st.nodes[x]? = some m := ⟨st.nodes[x], List.getElem?_eq_getElem hx⟩
      have := hkeep x m hm
      rw [hm1] at this
      cases this
      exact hm
    · right
      have := hfresh x m1 (by omega) hm1
      exact ⟨by omega, this.1, this.2⟩
  refine ⟨⟨?_, ?_, ?_, ?_⟩, g, all, d, ?_⟩
  · rw [hroot]
    exact hinv.heap.root
  · have := hinv.heap.two
    omega
  · intro x m1 hm1
    rcases hcase x m1 hm1 with hm | ⟨_, h2, _⟩
    · exact hinv.heap.keys x m1 hm
    · exact h2
  · intro x m1 hm1
    rcases hcase x m1 hm1 with hm | ⟨h1, _, h3⟩
    · exact hinv.heap.deg x m1 hm
    · have := hinv.heap.two
      constructor
      · intro _; omega
      · intro _; exact h3
  · rw [hroot]
    exact chkNode_keep hkeep g none none st.root _ htree

theorem releaseHelpers_nodes (st : istree) (w : Word) (np : Bool) (nn : Option Nat) :
    (releaseHelpers st w np nn).nodes = st.nodes ∧ (releaseHelpers st w np nn).root = st.root
      ∧ (releaseHelpers st w np nn).INF_KEY = st.INF_KEY := by
  unfold releaseHelpers
  cases np <;> cases nn <;> simp [istree.logSmr]

theorem Grow.keepNode {st s1 : istree} (h : Grow st s1) (x : Nat) (m : Node)
    (hm : st.nodes[x]? = some m) : s1.nodes[x]? = some m := by
  rw [h.keep x (lt_of_getElem hm)]
  exact hm

/-- The word that `decideUpdate` decides to write passes the check of the slot, in a heap
that has at most grown by a complete leaf. -/
theorem newWord_chk {st s1 : istree} {node : Nat} {n : Node} {L H : Option Int} {g1 : Nat}
    {r1 : List (Int × Int) × Bool} {r : Nat} {word : Word} {key val : Int} {t : UpdateType}
    {w : Word} {aff : Bool} {fv : Int} {np : Bool} {nn : Option Nat}
    (hh : GoodHeap st) (hq : chkNode true (g1 + 1) st L H node = some r1)
    (hn : st.nodes[node]? = some n) (hlow : node < 2 → L = none ∧ H = none)
    (hr : r < n.degree) (hw : n.slots[r]? = some word)
    (hkey : inRange (slotLo n L r) (slotHi n H r) key) (hk : key ≠ st.INF_KEY)
    (hd : decideUpdate st n (r : Int) word key val t
      = .ok (Decision.swap w aff fv np nn, s1)) :
    (∀ (x : Nat) (m : Node), st.nodes[x]? = some m → s1.nodes[x]? = some m)
      ∧ Fresh st.nodes.length s1 ∧ s1.root = st.root ∧ s1.INF_KEY = st.INF_KEY
      ∧ ∃ g r2, chkSlot true (chkNode true g s1) n node L H r w = some r2 := by
  obtain ⟨n0, r2, hn0, hok, hsl, _, _⟩ := chkNode_succ_some hq
  rw [hn] at hn0
  cases hn0
  have hf := nodeShapeOK_facts hok
  obtain ⟨w0, rj, hw0, hcj⟩ := chkSlots_get n.degree 0 r2 hsl r (by omega) (by omega)
  rw [hw] at hw0
  cases hw0
  have hsame : (∀ (x : Nat) (m : Node), st.nodes[x]? = some m → st.nodes[x]? = some m)
      ∧ Fresh st.nodes.length st ∧ st.root = st.root ∧ st.INF_KEY = st.INF_KEY :=
    ⟨fun _ _ h => h, fun x m hx hm => by have := lt_of_getElem hm; omega, rfl, rfl⟩
  rcases decideUpdate_cases hk hd with ⟨v, e, _⟩ | ⟨w2, aff2, fv2, np2, nn2, e, hc⟩
  · cases e
  cases e
  rcases hc with ⟨e1, e2⟩ | ⟨e1, e2, e3⟩ | ⟨e1, e2⟩ | ⟨a, fk, fval, hcl, e2, hne, hfound⟩
  · subst e1 e2
    exact ⟨hsame.1, hsame.2.1, rfl, rfl, 0, _, rfl⟩
  · subst e1 e2
    refine ⟨hsame.1, hsame.2.1, rfl, rfl, 0, ?_⟩
    by_cases h0 : 0 < r
    · exact ⟨([(keyAt n (r - 1), val)], true), by simp only [chkSlot, h0, if_true]⟩
    · have hr0 : r = 0 := by omega
      subst hr0
      rcases e3 with ⟨v, e4⟩ | ⟨_, e5⟩
      swap
      · simp at e5
      subst e4
      have hpick : (aboveLo (slotLo n L 0) (pickKey n) && belowHi (slotHi n H 0) (pickKey n))
          = true := by
        by_cases hd2 : 2 ≤ n.degree
        · simp only [chkSlot] at hcj
          split at hcj
          swap
          · cases hcj
          rename_i hc2
          simp only [Bool.and_eq_true] at hc2 ⊢
          have hne1 : ¬ 0 + 1 = n.degree := by omega
          simp only [slotLo, slotHi, hne1, if_true, if_false, pickKey, hd2, belowHi,
            decide_eq_true_eq] at hc2 ⊢
          exact ⟨aboveLo_trans hc2.1 (by omega), by omega⟩
        · have hnode : node < 2 := by
            by_contra hc
            have := (hh.deg node n hn).mpr (by omega)
            omega
          obtain ⟨eL, eH⟩ := hlow hnode
          subst eL eH
          have hd1 : n.degree = 1 := by have := hf.keys.deg; omega
          simp [slotLo, slotHi, hd1, aboveLo, belowHi]
      exact ⟨([(pickKey n, val)], true),
        by simp only [chkSlot, lt_irrefl, if_false, hpick, Bool.true_and, if_true]⟩
  · subst e1 e2
    refine ⟨hsame.1, hsame.2.1, rfl, rfl, 0, ([(key, val)], true), ?_⟩
    simp only [chkSlot, hkey.1, hkey.2, Bool.and_self, if_true]
  · subst e2
    have hfk : inRange (slotLo n L r) (slotHi n H r) fk := by
      rcases hfound with e4 | ⟨e4, e5, e6⟩
      · subst e4
        simp only [chkSlot] at hcj
        split at hcj
        swap
        · cases hcj
        rename_i hc2
        simp only [Bool.and_eq_true] at hc2
        exact hc2
      · have hr0 : 0 < r := by omega
        have hkk := Node.key_ok n (r - 1) (by omega) hf.keys.len
        have hcast : ((r - 1 : Nat) : Int) = (r : Int) - 1 := by omega
        rw [hcast, e5] at hkk
        cases hkk
        constructor
        · have : ¬ r = 0 := by omega
          simp [slotLo, this, aboveLo]
        · by_cases hl : r + 1 = n.degree
          · simp only [slotHi, hl, if_true]
            have := hf.hi (by omega)
            have e : n.degree - 2 = r - 1 := by omega
            rw [e] at this
            exact this
          · simp only [slotHi, hl, if_false, belowHi, decide_eq_true_eq]
            exact hf.keys.sorted (r - 1) r (by omega) (by omega)
    have hL : ListOK (slotLo n L r) (slotHi n H r)
        (if key < fk then [(key, val), (fk, fval)] else [(fk, fval), (key, val)]) := by
      by_cases hlt : key < fk
      · simp only [hlt, if_true]
        refine ⟨?_, ?_⟩
        · intro p hp
          simp only [List.mem_cons, List.mem_singleton, List.not_mem_nil, or_false] at hp
          rcases hp with rfl | rfl
          · exact hkey
          · exact hfk
        · simp [hlt]
      · simp only [hlt, if_false]
        have : fk < key := by omega
        refine ⟨?_, ?_⟩
        · intro p hp
          simp only [List.mem_cons, List.mem_singleton, List.not_mem_nil, or_false] at hp
          rcases hp with rfl | rfl
          · exact hfk
          · exact hkey
        · simp [this]
    obtain ⟨ea, hgrow, hchk, hfresh⟩ := @createLeaf_spec true _ _ _ _ _ _ hcl hL
    refine ⟨hgrow.keepNode, hfresh, ?_, ?_, 1,
      (if key < fk then [(key, val), (fk, fval)] else [(fk, fval), (key, val)], false), ?_⟩
    · rw [hgrow.rest]
    · rw [hgrow.rest]
    · have : node < a := by
        rw [ea]
        exact lt_of_getElem hn
      simp only [chkSlot, this, if_true]
      exact hchk

/-- Arriving at the label `retryNode` with the index that `interpolationSearch` finds is the
same as arriving at the label `retry`. -/
theorem doUpdateLoop_known (key val : Int) (t : UpdateType) (fuel : Nat) (st : istree)
    (node : Nat) (path : List Nat) (n : Node) (ix : Int) (hn : st.nodes[node]? = some n)
    (hs : interpolationSearch key n = .ok ix) :
    doUpdateLoop key val t fuel st node path (some ix)
      = doUpdateLoop key val t fuel st node path none := by
  cases fuel with
  | zero => rfl
  | succ fuel =>
    rw [doUpdateLoop, doUpdateLoop]
    simp only [getNode_of_getElem hn, bind, Except.bind, hs, pure, Except.pure]

/-- An update that starts in a state with the invariant, on a path of the tree that leads to
the range of the key, ends in a state with the invariant, and writes no slot of a node whose
dirty word is not `0`. -/
theorem doUpdateLoop_inv (key val : Int) (t : UpdateType) :
    ∀ (fuel : Nat) (st : istree) (node : Nat) (path : List Nat) (ixKnown : Option Int)
      (L H : Option Int) (res : Int) (st1 : istree),
      Inv st → key ≠ st.INF_KEY → Chain st st.root none none path node L H → inRange L H key →
      (∀ ix, ixKnown = some ix →
        ∃ n, st.nodes[node]? = some n ∧ interpolationSearch key n = .ok ix) →
      doUpdateLoop key val t fuel st node path ixKnown = .ok (res, st1) →
      Inv st1 ∧ Frozen st st1 ∧ st1.INF_KEY = st.INF_KEY := by
  intro fuel
  induction fuel with
  | zero =>
    intro st node path ixKnown L H res st1 _ _ _ _ _ hrun
    simp [doUpdateLoop, throw, throwThe, MonadExceptOf.throw] at hrun
  | succ fuel ih =>
    intro st node path ixKnown L H res st1 hinv hk hch hkr hix hrun
    obtain ⟨g, all, d, htree⟩ := hinv.tree
    obtain ⟨g1, r1, hq⟩ := Chain.endChk hch htree
    cases g1 with
    | zero => simp [chkNode] at hq
    | succ g1 =>
    obtain ⟨n, r2, hn, hok, hsl, _, _⟩ := chkNode_succ_some hq
    have hf := nodeShapeOK_facts hok
    have hrun2 : doUpdateLoop key val t (fuel + 1) st node path none = .ok (res, st1) := by
      cases ixKnown with
      | none => exact hrun
      | some ix =>
        obtain ⟨n2, e1, e2⟩ := hix ix rfl
        rw [doUpdateLoop_known key val t (fuel + 1) st node path n2 ix e1 e2] at hrun
        exact hrun
    clear hrun
    have hbnd : indexInBounds key n = true := by
      cases his : interpolationSearch key n with
      | ok ix => exact indexInBounds_of_ok his
      | error e =>
        rw [doUpdateLoop] at hrun2
        simp [getNode_of_getElem hn, bind, Except.bind, his] at hrun2
    obtain ⟨r, hsearch, hr, hb1, hb2⟩ := interpolationSearch_spec n key hf.keys hbnd
    obtain ⟨word, rj, hw, hcj⟩ := chkSlots_get n.degree 0 r2 hsl r (by omega) (by omega)
    have hptr := Node.ptr_ok n r word hr hw
    have hslotr := slot_inRange hkr hb1 hb2 hr
    by_cases hleaf : (IS_KVPAIR word || IS_VAL word) = true
    · -- the slot holds a key or is empty
      cases hd : decideUpdate st n (r : Int) word key val t with
      | error e =>
        rw [doUpdateLoop] at hrun2
        simp [getNode_of_getElem hn, bind, Except.bind, hsearch, hptr, hleaf, hd] at hrun2
      | ok q =>
        obtain ⟨dec, s1⟩ := q
        cases dec with
        | done v =>
          rw [doUpdateLoop] at hrun2
          simp only [getNode_of_getElem hn, bind, Except.bind, hsearch, hptr, hleaf, hd, if_true,
            pure, Except.pure, Except.ok.injEq, Prod.mk.injEq] at hrun2
          obtain ⟨_, e⟩ := hrun2
          subst e
          rcases decideUpdate_cases hk hd with ⟨v2, _, e2⟩ | ⟨w2, aff2, fv2, np2, nn2, e, _⟩
          · subst e2
            exact ⟨hinv, Frozen.ofSameNodes rfl, rfl⟩
          · cases e
        | swap w aff fv np nn =>
          obtain ⟨hkeep, hfresh, hroot, hinf, hnew⟩ := newWord_chk hinv.heap hq hn
            (Chain.lowRange hinv.heap hch) hr hw hslotr hk hd
          have hinv1 : Inv s1 := hinv.ofGrowth hkeep hfresh hroot
          cases hdc : dcssPtr s1 node (r : Int) word w with
          | error e =>
            rw [doUpdateLoop] at hrun2
            simp [getNode_of_getElem hn, bind, Except.bind, hsearch, hptr, hleaf, hd, assert,
              hr, hdc, pure, Except.pure] at hrun2
          | ok q2 =>
            obtain ⟨result, s2⟩ := q2
            rcases dcssPtr_inv hdc with ⟨hres, n', i, hn', hidx, hi, hslot, hdirty, hs2⟩
              | ⟨hres, hs2⟩
            · -- the write succeeds
              subst hres
              have e1 := hkeep node n hn
              rw [hn'] at e1
              cases e1
              have hir : r = i := Int.ofNat_inj.mp hidx
              subst hir
              have hinv2 : Inv s2 := by
                rw [hs2]
                exact write_inv hinv hch hn hdirty hr hkeep hfresh hroot hnew
              have hnode2 : ∀ (x : Nat) (m : Node), st.nodes[x]? = some m → x ≠ node →
                  s2.nodes[x]? = some m := by
                intro x m hm hx
                rw [hs2]
                show (s1.nodes.set node _)[x]? = _
                rw [List.getElem?_set_ne (Ne.symm hx)]
                exact hkeep x m hm
              have hroot2 : s2.root = st.root := by rw [hs2]; exact hroot
              rw [doUpdateLoop_swap key val t fuel st node path none n (r : Int) word w aff fv np
                nn s1 s2 (getNode_of_getElem hn) (Or.inr ⟨rfl, hsearch⟩) hptr hleaf hd hdc]
                at hrun2
              generalize hst3 : (if IS_KVPAIR word = true then s2.logSmr (SmrCall.retire word)
                else s2) = st3 at hrun2
              have hn3 : st3.nodes = s2.nodes ∧ st3.root = s2.root
                  ∧ st3.INF_KEY = st.INF_KEY := by
                rw [← hst3, hs2]
                split <;> exact ⟨rfl, rfl, hinf⟩
              have hinv3 : Inv st3 := hinv2.ofNodes hn3.1 hn3.2.1
              cases aff with
              | false =>
                simp only [if_true, Except.ok.injEq, Prod.mk.injEq] at hrun2
                obtain ⟨_, e⟩ := hrun2
                subst e
                refine ⟨hinv3, ?_, hn3.2.2⟩
                intro x m hm hdm
                have hx : x ≠ node := by
                  intro e
                  subst e
                  rw [hn] at hm
                  cases hm
                  exact hdm hdirty
                exact ⟨m, by rw [hn3.1]; exact hnode2 x m hm hx, rfl⟩
              | true =>
                simp only [Bool.true_eq_false, if_false] at hrun2
                cases hinc : incrementPath st3 path with
                | error e => simp [hinc, Except.bind] at hrun2
                | ok st4 =>
                  simp only [hinc, Except.bind] at hrun2
                  cases hscan : rebuildScan fuel st4 [] path with
                  | error e => simp [hscan] at hrun2
                  | ok st5 =>
                    simp only [hscan, Except.ok.injEq, Prod.mk.injEq] at hrun2
                    obtain ⟨_, e⟩ := hrun2
                    subst e
                    obtain ⟨h41, h42, h43⟩ := incrementPath_spec path st3 st4 hinc
                    have hroot4 : st4.root = st3.root := by rw [h41]
                    have hinv4 : Inv st4 := hinv3.ofLike
                      (fun x m hm => ⟨_, h43 x m hm, ⟨rfl, rfl, rfl, rfl, rfl, rfl⟩⟩) h42 hroot4
                    have hmid : ∀ (x : Nat) (m : Node), st.nodes[x]? = some m → x ≠ node →
                        ∃ m4, st4.nodes[x]? = some m4 ∧ LikeNode m m4 := by
                      intro x m hm hx
                      have := h43 x m (by rw [hn3.1]; exact hnode2 x m hm hx)
                      exact ⟨_, this, ⟨rfl, rfl, rfl, rfl, rfl, rfl⟩⟩
                    have hch4 : Chain st4 st4.root none none path node L H := by
                      rw [hroot4, hn3.2.1, hroot2]
                      exact Chain.keep hch (fun x m hx hm => hmid x m hm (by omega))
                    obtain ⟨hinv5, hfr5, hik5⟩ := rebuildScan_inv hinv4 path [] st4.root none
                      none st5 ⟨rfl, rfl, rfl⟩ (Or.inl rfl) hch4 hscan
                    refine ⟨hinv5, ?_, by rw [hik5, h41]; exact hn3.2.2⟩
                    intro x m hm hdm
                    have hx : x ≠ node := by
                      intro e
                      subst e
                      rw [hn] at hm
                      cases hm
                      exact hdm hdirty
                    obtain ⟨m4, e4, l4⟩ := hmid x m hm hx
                    obtain ⟨m5, e5, l5⟩ := hfr5 x m4 e4 (by rw [l4.dirty]; exact hdm)
                    exact ⟨m5, e5, by rw [l5, l4.slots]⟩
            · -- the write fails
              subst hs2
              have hrel := releaseHelpers_nodes s2 w np nn
              have hinv3 : Inv (releaseHelpers s2 w np nn) := hinv1.ofNodes hrel.1 hrel.2.1
              have hk3 : key ≠ (releaseHelpers s2 w np nn).INF_KEY := by
                rw [hrel.2.2, hinf]
                exact hk
              have hfro : ∀ {st9 : istree}, Frozen (releaseHelpers s2 w np nn) st9 →
                  Frozen st st9 := by
                intro st9 h9 x m hm hdm
                exact h9 x m (by rw [hrel.1]; exact hkeep x m hm) hdm
              rw [doUpdateLoop] at hrun2
              simp only [getNode_of_getElem hn, bind, Except.bind, hsearch, hptr, hleaf, hd,
                if_true, assert, hr, hdc, pure, Except.pure, Int.ofNat_nonneg, ge_iff_le,
                decide_True, Nat.cast_lt] at hrun2
              cases result with
              | DCSS_SUCCESS => exact absurd rfl hres
              | DCSS_FAILED_ADDR1 =>
                simp only at hrun2
                obtain ⟨h1, h2, h3⟩ := ih _ _ [] none none none res st1 hinv3 hk3 ⟨rfl, rfl, rfl⟩
                  ⟨rfl, rfl⟩ (fun ix h => by cases h) hrun2
                exact ⟨h1, hfro h2, by rw [h3, hrel.2.2, hinf]⟩
              | DCSS_FAILED_ADDR2 =>
                simp only at hrun2
                have hch3 : Chain (releaseHelpers s2 w np nn) (releaseHelpers s2 w np nn).root
                    none none path node L H := by
                  rw [hrel.2.1, hroot]
                  exact Chain.keep hch (fun x m _ hm =>
                    ⟨m, by rw [hrel.1]; exact hkeep x m hm, LikeNode.reflLike m⟩)
                obtain ⟨h1, h2, h3⟩ := ih _ node path (some (r : Int)) L H res st1 hinv3 hk3 hch3
                  hkr
                  (fun ix h => by
                    cases h
                    exact ⟨n, by rw [hrel.1]; exact hkeep node n hn, hsearch⟩) hrun2
                exact ⟨h1, hfro h2, by rw [h3, hrel.2.2, hinf]⟩
    · -- the slot holds a pointer
      rw [doUpdateLoop] at hrun2
      simp only [getNode_of_getElem hn, bind, Except.bind, hsearch, hptr, hleaf] at hrun2
      cases word with
      | emptyVal => simp [IS_VAL] at hleaf
      | val v => simp [IS_VAL] at hleaf
      | kvpair k v => simp [IS_KVPAIR] at hleaf
      | null => simp [chkSlot] at hcj
      | rebuildop o => simp [chkSlot] at hcj
      | node a =>
        simp only [chkSlot] at hcj
        split at hcj
        swap
        · cases hcj
        rename_i hna
        by_cases hlen : decide (path.length + 1 ≤ 64) = true
        swap
        · rw [show decide (path.length + 1 ≤ 64) = false from by simpa using hlen] at hrun2
          simp only [assert, Bool.false_eq_true, if_false, throw, throwThe,
            MonadExceptOf.throw] at hrun2
          cases hrun2
        simp only [assert, hlen, if_true, pure, Except.pure] at hrun2
        exact ih st a (path ++ [a]) none _ _ res st1 hinv hk
          (Chain.snoc hch hn hr hw hna) hslotr (fun ix h => by cases h) hrun2

/-- An update of a state with the invariant keeps the invariant and `INF_KEY`, and writes no
slot of a node whose dirty word is not `0`. -/
theorem doUpdate_inv {fuel : Nat} {st st1 : istree} {key val res : Int} {t : UpdateType}
    (hinv : Inv st) (hk : key ≠ st.INF_KEY)
    (hrun : doUpdate fuel st key val t = .ok (res, st1)) :
    Inv st1 ∧ Frozen st st1 ∧ st1.INF_KEY = st.INF_KEY :=
  doUpdateLoop_inv key val t fuel st st.root [] none none none res st1 hinv hk ⟨rfl, rfl, rfl⟩
    ⟨rfl, rfl⟩ (fun ix h => by cases h) hrun

theorem reachable_inv {st : istree} (h : Reachable st) : Inv st := by
  induction h with
  | init infKey noValue maxLeaf num den rng => exact inv_init infKey noValue maxLeaf num den rng
  | step _ hk hrun ih => exact (doUpdate_inv ih hk hrun).1

/-- A sequence of updates with keys other than `INF_KEY` leads from a reachable state to a
reachable state. -/
theorem Reachable.applyOps {fuel : Nat} : ∀ (ops : List Op) {st s : istree}, Reachable st →
    (∀ o ∈ ops, o.2.1 ≠ st.INF_KEY) → ISTree.applyOps fuel ops st = .ok s → Reachable s := by
  intro ops
  induction ops with
  | nil =>
    intro st s hr _ hrun
    simp only [ISTree.applyOps, pure, Except.pure, Except.ok.injEq] at hrun
    subst hrun
    exact hr
  | cons o rest ih =>
    intro st s hr hk hrun
    simp only [ISTree.applyOps, bind, Except.bind] at hrun
    cases hd : doUpdate fuel st o.2.1 o.2.2 o.1 with
    | error e => simp [hd] at hrun
    | ok q =>
      obtain ⟨res, s1⟩ := q
      simp only [hd] at hrun
      have hk0 := hk o (List.mem_cons_self _ _)
      have h3 := (doUpdate_inv (reachable_inv hr) hk0 hd).2.2
      exact ih (Reachable.step hr hk0 hd)
        (fun o2 ho2 => by rw [h3]; exact hk o2 (List.mem_cons_of_mem _ ho2)) hrun

/-- The maps filled by `insertUpTo` from `tinyMap` are reachable. -/
theorem reachable_filled (k : Nat) (hk : ∀ o ∈ insertUpTo k, o.2.1 ≠ tinyMap.INF_KEY) :
    Reachable (match ISTree.applyOps 100 (insertUpTo k) tinyMap with
      | .ok s => s
      | .error _ => tinyMap) := by
  cases h : ISTree.applyOps 100 (insertUpTo k) tinyMap with
  | error e => exact Reachable.init _ _ _ _ _ _
  | ok s => exact Reachable.applyOps _ (Reachable.init _ _ _ _ _ _) hk h

theorem reachable_tinyOne : Reachable tinyOne := reachable_filled 1 (by decide)

theorem reachable_tinyTwo : Reachable tinyTwo := reachable_filled 2 (by decide)

theorem reachable_tinyThree : Reachable tinyThree := reachable_filled 3 (by decide)

theorem reachable_wideFive : Reachable wideFive := by
  unfold wideFive
  cases h : ISTree.applyOps 100 wideOps tinyMap with
  | error e => exact Reachable.init _ _ _ _ _ _
  | ok s => exact Reachable.applyOps _ (Reachable.init _ _ _ _ _ _) (by decide) h

theorem Chain.lt {st : istree} {path : List Nat} {p : Nat} {lo hi : Option Int} {q : Nat}
    {L H : Option Int} (h : Chain st p lo hi path q L H) (hne : path ≠ []) : p < q := by
  cases path with
  | nil => exact absurd rfl hne
  | cons a rest =>
    obtain ⟨pn, i, _, _, _, hpa, hc⟩ := h
    have := hc.le
    omega

/-- Along the saved path of `doUpdate` in a state with the invariant, every node other than
the first is found again, in its parent, by `interpolationSearch` for its first key, when the
read of that search stays inside the parent. -/
theorem savedPath_links {st : istree} (hinv : Inv st) {key : Int} {path : List Nat} {node : Nat}
    (hp : SavedPath st key path node) :
    (∃ L H, Chain st st.root none none path node L H ∧ inRange L H key)
    ∧ (∀ (p : List Nat) (x : Nat), path = p ++ [x] → x = node)
    ∧ ∀ (p1 p2 : List Nat) (parent a : Nat), path = p1 ++ parent :: a :: p2 →
      ∃ pn na j k0, st.getNode parent = .ok pn ∧ st.getNode a = .ok na
        ∧ interpolationSearch key pn = .ok j ∧ pn.ptr j = .ok (Word.node a)
        ∧ na.key 0 = .ok k0
        ∧ (indexInBounds k0 pn = true → interpolationSearch k0 pn = .ok j)
        ∧ (∀ ix : Int, interpolationSearch k0 pn = .ok ix → ix = j) := by
  induction hp with
  | start =>
    refine ⟨⟨none, none, ⟨rfl, rfl, rfl⟩, rfl, rfl⟩, ?_, ?_⟩
    · intro p x h
      simp at h
    · intro p1 p2 parent a h
      simp at h
  | @down path node a hprev hstep ih =>
    obtain ⟨⟨L, H, hch, hkr⟩, hlast, hlinks⟩ := ih
    obtain ⟨g, all, d, htree⟩ := hinv.tree
    obtain ⟨g1, r1, hq⟩ := Chain.endChk hch htree
    cases hg : st.getNode node with
    | error e => simp [hg, Except.bind] at hstep
    | ok n =>
      have hn := getNode_eq_ok.mp hg
      simp only [hg, Except.bind] at hstep
      cases hs : interpolationSearch key n with
      | error e => simp [hs] at hstep
      | ok ix =>
        simp only [hs] at hstep
        obtain ⟨j, hj1, hj2, hj3⟩ := Node.ptr_inv hstep
        subst hj1
        obtain ⟨na, hna, hlt, hlink⟩ := link_index hq hn hj2 hj3
        have hf : ShapeFacts n L H := by
          cases g1 with
          | zero => simp [chkNode] at hq
          | succ g1 =>
            obtain ⟨n0, _, hn0, hok, _, _, _⟩ := chkNode_succ_some hq
            rw [hn] at hn0
            cases hn0
            exact nodeShapeOK_facts hok
        obtain ⟨r, hr1, hr2, hb1, hb2⟩ :=
          interpolationSearch_spec n key hf.keys (indexInBounds_of_ok hs)
        rw [hs] at hr1
        have hrj : j = r := Int.ofNat_inj.mp (by simpa using hr1)
        subst hrj
        refine ⟨⟨_, _, Chain.snoc hch hn hj2 hj3 hlt, slot_inRange hkr hb1 hb2 hj2⟩, ?_, ?_⟩
        · intro p x h
          have := List.append_inj' h (by simp)
          simpa using this.2.symm
        · intro p1 p2 parent a2 h
          rcases List.eq_nil_or_concat p2 with e | ⟨q, z, e⟩
          · subst e
            have h2 : path ++ [a] = (p1 ++ [parent]) ++ [a2] := by simpa using h
            obtain ⟨e1, e2⟩ := List.append_inj' h2 (by simp)
            simp only [List.cons.injEq, and_true] at e2
            subst e2
            have hpar := hlast p1 parent e1
            subst hpar
            have hroot : st.root < parent := Chain.lt hch (by rw [e1]; simp)
            have hd2 : 2 ≤ na.degree := (hinv.heap.deg a na hna).mpr (by omega)
            obtain ⟨hk0, hidx⟩ := hlink hd2
            refine ⟨n, na, (j : Int), keyAt na 0, hg, getNode_of_getElem hna, hs, hstep, hk0,
              hidx, ?_⟩
            intro ix his
            have := hidx (indexInBounds_of_ok his)
            rw [his] at this
            simpa using this
          · subst e
            have h2 : path ++ [a] = (p1 ++ parent :: a2 :: q) ++ [z] := by simpa using h
            obtain ⟨e1, _⟩ := List.append_inj' h2 (by simp)
            exact hlinks p1 q parent a2 e1

theorem dcssPtr_dirty {st : istree} {a : Nat} {n : Node} {ix : Int} {old new : Word}
    (hn : st.getNode a = .ok n) (hw : n.ptr ix = .ok old) (hd : n.dirty ≠ Dirty.clean) :
    dcssPtr st a ix old new = .ok (DcssStatus.DCSS_FAILED_ADDR1, st) := by
  unfold dcssPtr
  have h1 : (old != old) = false := by simp
  have h2 : (n.dirty != Dirty.clean) = true := by simpa using hd
  simp only [hn, bind, Except.bind, hw, h1, h2, Bool.false_eq_true, if_false, if_true, pure,
    Except.pure]

/-- An update that stands on a node whose dirty word is not `0` and finds a key, a pair or
the empty word in the slot for its key: either it returns without a write, or the DCSS that
it attempts reports `FAILED_ADDR1` and leaves the state as it was, and the update starts
again from the root; in both cases no node whose dirty word is not `0` has a slot changed
when the update returns. -/
theorem doUpdateLoop_dirty (key val : Int) (t : UpdateType) {st : istree} (hinv : Inv st)
    (hk : key ≠ st.INF_KEY) {a : Nat} {n : Node} (hn : st.nodes[a]? = some n)
    (hdirty : n.dirty ≠ Dirty.clean) {ix : Int} {word : Word}
    (hix : interpolationSearch key n = .ok ix) (hword : n.ptr ix = .ok word)
    (hleaf : (IS_KVPAIR word || IS_VAL word) = true)
    {fuel : Nat} {path : List Nat} {res : Int} {st1 : istree}
    (hrun : doUpdateLoop key val t (fuel + 1) st a path none = .ok (res, st1)) :
    (∃ d s1, decideUpdate st n ix word key val t = .ok (d, s1)
      ∧ ((∃ v, d = Decision.done v ∧ st1 = st ∧ res = v)
        ∨ (∃ w aff fv np nn, d = Decision.swap w aff fv np nn
            ∧ dcssPtr s1 a ix word w = .ok (DcssStatus.DCSS_FAILED_ADDR1, s1)
            ∧ s1.nodes[a]? = some n
            ∧ doUpdateLoop key val t fuel (releaseHelpers s1 w np nn)
                (releaseHelpers s1 w np nn).root [] none = .ok (res, st1))))
    ∧ Frozen st st1 := by
  rw [doUpdateLoop] at hrun
  simp only [getNode_of_getElem hn, bind, Except.bind, hix, hword, hleaf, if_true] at hrun
  cases hd : decideUpdate st n ix word key val t with
  | error e => simp [hd] at hrun
  | ok q =>
    obtain ⟨d, s1⟩ := q
    simp only [hd] at hrun
    rcases decideUpdate_cases hk hd with ⟨v, e, es⟩ | ⟨w, aff, fv, np, nn, e, hc⟩
    · subst e es
      simp only [pure, Except.pure, Except.ok.injEq, Prod.mk.injEq] at hrun
      obtain ⟨e1, e2⟩ := hrun
      subst e1 e2
      exact ⟨⟨_, _, rfl, Or.inl ⟨_, rfl, rfl, rfl⟩⟩, Frozen.ofSameNodes rfl⟩
    · subst e
      have hgrowth : (∀ (x : Nat) (m : Node), st.nodes[x]? = some m → s1.nodes[x]? = some m)
          ∧ Fresh st.nodes.length s1 ∧ s1.root = st.root ∧ s1.INF_KEY = st.INF_KEY := by
        have hsame : (∀ (x : Nat) (m : Node), st.nodes[x]? = some m → st.nodes[x]? = some m)
            ∧ Fresh st.nodes.length st ∧ st.root = st.root ∧ st.INF_KEY = st.INF_KEY :=
          ⟨fun _ _ h => h, fun x m hx hm => by have := lt_of_getElem hm; omega, rfl, rfl⟩
        rcases hc with ⟨e1, _⟩ | ⟨e1, _⟩ | ⟨e1, _⟩ | ⟨b, fk, fval, hcl, _, hne, _⟩
        · subst e1; exact hsame
        · subst e1; exact hsame
        · subst e1; exact hsame
        · have hL : ListOK none none
              (if key < fk then [(key, val), (fk, fval)] else [(fk, fval), (key, val)]) := by
            refine ⟨fun p _ => ⟨rfl, rfl⟩, ?_⟩
            by_cases hlt : key < fk
            · simp [hlt]
            · have : fk < key := by omega
              simp [hlt, this]
          obtain ⟨ea, hgrow, hchk, hfresh⟩ := @createLeaf_spec true _ _ _ _ _ _ hcl hL
          exact ⟨hgrow.keepNode, hfresh, by rw [hgrow.rest], by rw [hgrow.rest]⟩
      obtain ⟨hkeep, hfresh, hroot, hinf⟩ := hgrowth
      have hn1 : s1.nodes[a]? = some n := hkeep a n hn
      have hdc := @dcssPtr_dirty s1 a n ix word w (getNode_of_getElem hn1) hword hdirty
      obtain ⟨i, hi1, hi2, hi3⟩ := Node.ptr_inv hword
      subst hi1
      simp only [assert, Int.ofNat_nonneg, ge_iff_le, decide_True, if_true, Nat.cast_lt, hi2,
        pure, Except.pure, hdc] at hrun
      refine ⟨⟨_, _, rfl, Or.inr ⟨w, aff, fv, np, nn, rfl, hdc, hn1, hrun⟩⟩, ?_⟩
      have hinv1 : Inv s1 := hinv.ofGrowth hkeep hfresh hroot
      have hrel := releaseHelpers_nodes s1 w np nn
      have hinv3 : Inv (releaseHelpers s1 w np nn) := hinv1.ofNodes hrel.1 hrel.2.1
      have hk3 : key ≠ (releaseHelpers s1 w np nn).INF_KEY := by
        rw [hrel.2.2, hinf]
        exact hk
      obtain ⟨_, h2, _⟩ := doUpdateLoop_inv key val t fuel _ _ [] none none none res st1 hinv3
        hk3 ⟨rfl, rfl, rfl⟩ ⟨rfl, rfl⟩ (fun ix h => by cases h) hrun
      intro x m hm hdm
      exact h2 x m (by rw [hrel.1]; exact hkeep x m hm) hdm
/-! ## Claims about the states that updates reach -/

/-- C14: the node key invariant.  In every state that single-threaded updates (with keys
other than the reserved `INF_KEY`) reach from an empty map, every node of the heap with at
least two slots (the leaves made by `createLeaf` and the internal nodes completed by
`createIdealConcurrent` among them) has `degree - 1` keys that increase strictly, caches the
first of them in `minKey` and the last in `maxKey`. -/
theorem C14_node_keys_well_formed (st : istree) (h : Reachable st) (a : Nat) (n : Node)
    (hn : st.nodes[a]? = some n) (hd : 2 ≤ n.degree) :
    n.degree - 1 ≤ n.keys.length
      ∧ (∀ i, i + 2 < n.degree → keyAt n i < keyAt n (i + 1))
      ∧ n.minKey = keyAt n 0 ∧ n.maxKey = keyAt n (n.degree - 2) := by
  have hk := keysOK_of_wellFormed ((reachable_inv h).heap.keys a n hn)
  exact ⟨hk.len, fun i hi => hk.sorted i (i + 1) (by omega) (by omega), hk.min hd, hk.max hd⟩

/-- Witness for C14: the leaf at address `2` of the map with the keys 1 and 2. -/
theorem C14_witness :
    Reachable tinyTwo ∧ tinyTwo.nodes[2]? = some tinyTwoLeaf ∧ 2 ≤ tinyTwoLeaf.degree
      ∧ tinyTwoLeaf.degree - 1 ≤ tinyTwoLeaf.keys.length
      ∧ (∀ i, i + 2 < tinyTwoLeaf.degree → keyAt tinyTwoLeaf i < keyAt tinyTwoLeaf (i + 1))
      ∧ tinyTwoLeaf.minKey = keyAt tinyTwoLeaf 0
      ∧ tinyTwoLeaf.maxKey = keyAt tinyTwoLeaf (tinyTwoLeaf.degree - 2) :=
  ⟨reachable_tinyTwo, by decide, by decide,
    C14_node_keys_well_formed tinyTwo reachable_tinyTwo 2 tinyTwoLeaf (by decide) (by decide)⟩

/-- C15 as stated fails: after the first insert into the empty map the rebuild of the real
root node (one key, depth 0) has put the `KVPAIR` itself into slot 0 of the root
pseudo-node, which then holds no `NODE` word. -/
theorem C15_counterexample :
    Reachable tinyOne ∧ tinyOne.root = 0
      ∧ (tinyOne.nodes[0]?).map (fun n => n.slots) = some [Word.kvpair 1 10]
      ∧ IS_NODE (Word.kvpair 1 10) = false :=
  ⟨reachable_tinyOne, by decide, by decide, by decide⟩

/-- C15, amended: in every state that single-threaded updates reach from an empty map and
in which the leftmost-slot rule holds (slot 0 of no node holds a non-empty `VAL`), the root
pseudo-node has exactly one slot, and slot 0 holds a `NODE` word that points to a node of
the heap at a larger address, or, after the depth-0 rebuild of a subtree with one key or
none, the `KVPAIR` of that key or the empty word; it never holds the null word or a
`REBUILDOP` word. -/
theorem C15_root_slot (st : istree) (h : Reachable st) (hrule : leftmostRule st = true) :
    ∃ rootNode w, st.getNode st.root = .ok rootNode ∧ rootNode.degree = 1
      ∧ rootNode.ptr 0 = .ok w
      ∧ (w = Word.emptyVal ∨ (∃ k v, w = Word.kvpair k v)
          ∨ ∃ a n, w = Word.node a ∧ st.root < a ∧ st.getNode a = .ok n) := by
  have hinv := reachable_inv h
  obtain ⟨g, all, d, htree⟩ := hinv.tree
  cases g with
  | zero => simp [chkNode] at htree
  | succ g =>
    obtain ⟨n, r2, hn, hok, hsl, _, _⟩ := chkNode_succ_some htree
    have hd := hinv.heap.lowDegree hn (by rw [hinv.heap.root]; omega)
    obtain ⟨w, rj, hw, hcj⟩ := chkSlots_get n.degree 0 r2 hsl 0 (by omega) (by omega)
    refine ⟨n, w, getNode_of_getElem hn, hd, Node.ptr_ok n 0 w (by omega) hw, ?_⟩
    cases w with
    | emptyVal => exact Or.inl rfl
    | val v =>
      unfold leftmostRule at hrule
      rw [List.all_eq_true] at hrule
      have := hrule n (List.getElem?_mem hn)
      rw [hw] at this
      cases this
    | kvpair k v => exact Or.inr (Or.inl ⟨k, v, rfl⟩)
    | null => simp [chkSlot] at hcj
    | rebuildop o => simp [chkSlot] at hcj
    | node a =>
      obtain ⟨na, hna, hlt, _⟩ := link_index htree hn (by omega) hw
      exact Or.inr (Or.inr ⟨a, na, rfl, hlt, getNode_of_getElem hna⟩)

/-- Witness for C15: the map with the keys 1 and 2, whose root slot points to the leaf at
address `2`. -/
theorem C15_witness :
    Reachable tinyTwo ∧ leftmostRule tinyTwo = true
    ∧ ∃ rootNode w, tinyTwo.getNode tinyTwo.root = .ok rootNode ∧ rootNode.degree = 1
      ∧ rootNode.ptr 0 = .ok w
      ∧ (w = Word.emptyVal ∨ (∃ k v, w = Word.kvpair k v)
          ∨ ∃ a n, w = Word.node a ∧ tinyTwo.root < a ∧ tinyTwo.getNode a = .ok n) :=
  ⟨reachable_tinyTwo, by decide, C15_root_slot tinyTwo reachable_tinyTwo (by decide)⟩

/-- C18: dirty nodes are frozen.  (1) A DCSS on a slot succeeds only when the dirty word of
the node is `0`, a DCSS that does not succeed leaves the state as it was, and a DCSS on the
slot of a node whose dirty word is not `0` reports `FAILED_ADDR1` when the slot holds the
expected word.  (2) For every state that single-threaded updates reach from an empty map, no
`insert`, `insertIfAbsent` or `erase` (with a key other than the reserved `INF_KEY`) changes
any slot of a node whose dirty word is not `0` (started, finished or marked for free).
(3) The same holds of an update that stands on a node whose dirty word is not `0` (a node
that a rebuild has marked since the update descended to it) and finds a key, a pair or the
empty word in the slot for its key: either it returns without a write, or the DCSS that it
attempts on that node reports `FAILED_ADDR1` and leaves the state as it was, the node
included, and the update starts again from the root. -/
theorem C18_dirty_nodes_frozen :
    (∀ (st st2 : istree) (a : Nat) (ix : Int) (old new : Word) (r : DcssStatus),
      dcssPtr st a ix old new = .ok (r, st2) →
        (r = DcssStatus.DCSS_SUCCESS → ∃ n, st.nodes[a]? = some n ∧ n.dirty = Dirty.clean)
        ∧ (r ≠ DcssStatus.DCSS_SUCCESS → st2 = st))
    ∧ (∀ (st : istree) (a : Nat) (n : Node) (ix : Int) (old new : Word),
        st.getNode a = .ok n → n.ptr ix = .ok old → n.dirty ≠ Dirty.clean →
        dcssPtr st a ix old new = .ok (DcssStatus.DCSS_FAILED_ADDR1, st))
    ∧ (∀ (st : istree), Reachable st →
      ∀ (fuel : Nat) (key val res : Int) (t : UpdateType) (st1 : istree),
        key ≠ st.INF_KEY → doUpdate fuel st key val t = .ok (res, st1) →
        ∀ (a : Nat) (n : Node), st.nodes[a]? = some n → n.dirty ≠ Dirty.clean →
          ∃ n1, st1.nodes[a]? = some n1 ∧ n1.slots = n.slots)
    ∧ ∀ (st : istree), Reachable st →
      ∀ (fuel : Nat) (key val res : Int) (t : UpdateType) (st1 : istree) (a : Nat) (n : Node)
        (ix : Int) (word : Word) (path : List Nat),
        key ≠ st.INF_KEY → st.nodes[a]? = some n → n.dirty ≠ Dirty.clean →
        interpolationSearch key n = .ok ix → n.ptr ix = .ok word →
        (IS_KVPAIR word || IS_VAL word) = true →
        doUpdateLoop key val t (fuel + 1) st a path none = .ok (res, st1) →
        (∃ d s1, decideUpdate st n ix word key val t = .ok (d, s1)
          ∧ ((∃ v, d = Decision.done v ∧ st1 = st ∧ res = v)
            ∨ (∃ w aff fv np nn, d = Decision.swap w aff fv np nn
                ∧ dcssPtr s1 a ix word w = .ok (DcssStatus.DCSS_FAILED_ADDR1, s1)
                ∧ s1.nodes[a]? = some n
                ∧ doUpdateLoop key val t fuel (releaseHelpers s1 w np nn)
                    (releaseHelpers s1 w np nn).root [] none = .ok (res, st1))))
        ∧ ∀ (b : Nat) (m : Node), st.nodes[b]? = some m → m.dirty ≠ Dirty.clean →
            ∃ m1, st1.nodes[b]? = some m1 ∧ m1.slots = m.slots := by
  refine ⟨?_, ?_, ?_, ?_⟩
  · intro st st2 a ix old new r h
    rcases dcssPtr_inv h with ⟨hres, n, i, hn, _, _, _, hd, _⟩ | ⟨hres, hs⟩
    · exact ⟨fun _ => ⟨n, hn, hd⟩, fun hne => absurd hres hne⟩
    · exact ⟨fun he => absurd he hres, fun _ => hs⟩
  · intro st a n ix old new hn hw hd
    exact dcssPtr_dirty hn hw hd
  · intro st hr fuel key val res t st1 hk hrun a n hn hd
    exact (doUpdate_inv (reachable_inv hr) hk hrun).2.1 a n hn hd
  · intro st hr fuel key val res t st1 a n ix word path hk hn hd hix hword hleaf hrun
    exact doUpdateLoop_dirty key val t (reachable_inv hr) hk hn hd hix hword hleaf hrun

/-- Witness for C18: in the map with the keys 1, 2 and 3 the leaf at address `2` has been
replaced and finished by a rebuild; an `insert(0, 5)` that stands on it decides to write
`KVPAIR(0, 5)` into its empty slot 0, the DCSS reports `FAILED_ADDR1`, the insert starts again
from the root and returns, and the slots of the leaf are as before. -/
theorem C18_witness :
    Reachable tinyThree ∧ (0 : Int) ≠ tinyThree.INF_KEY
      ∧ tinyThree.nodes[2]? = some tinyThreeOld ∧ tinyThreeOld.dirty ≠ Dirty.clean
      ∧ interpolationSearch 0 tinyThreeOld = .ok 0 ∧ tinyThreeOld.ptr 0 = .ok Word.emptyVal
      ∧ doUpdateLoop 0 5 UpdateType.InsertReplace (99 + 1) tinyThree 2 [2] none
          = .ok (0, tinyThreeRetried)
      ∧ decideUpdate tinyThree tinyThreeOld 0 Word.emptyVal 0 5 UpdateType.InsertReplace
          = .ok (Decision.swap (Word.kvpair 0 5) true 0 true none, tinyThree)
      ∧ dcssPtr tinyThree 2 0 Word.emptyVal (Word.kvpair 0 5)
          = .ok (DcssStatus.DCSS_FAILED_ADDR1, tinyThree)
      ∧ (∃ d s1, decideUpdate tinyThree tinyThreeOld 0 Word.emptyVal 0 5
            UpdateType.InsertReplace = .ok (d, s1)
          ∧ ((∃ v, d = Decision.done v ∧ tinyThreeRetried = tinyThree ∧ (0 : Int) = v)
            ∨ (∃ w aff fv np nn, d = Decision.swap w aff fv np nn
                ∧ dcssPtr s1 2 0 Word.emptyVal w = .ok (DcssStatus.DCSS_FAILED_ADDR1, s1)
                ∧ s1.nodes[2]? = some tinyThreeOld
                ∧ doUpdateLoop 0 5 UpdateType.InsertReplace 99 (releaseHelpers s1 w np nn)
                    (releaseHelpers s1 w np nn).root [] none = .ok (0, tinyThreeRetried))))
      ∧ (∀ (b : Nat) (m : Node), tinyThree.nodes[b]? = some m → m.dirty ≠ Dirty.clean →
          ∃ m1, tinyThreeRetried.nodes[b]? = some m1 ∧ m1.slots = m.slots)
      ∧ tinyThreeRetried.nodes[2]? = some tinyThreeOld :=
  have h := C18_dirty_nodes_frozen.2.2.2 tinyThree reachable_tinyThree 99 0 5 0
    UpdateType.InsertReplace tinyThreeRetried 2 tinyThreeOld 0 Word.emptyVal [2] (by decide)
    (by decide) (by decide) (by decide) (by decide) (by decide) (by decide)
  ⟨reachable_tinyThree, by decide, by decide, by decide, by decide, by decide, by decide,
    by decide, by decide, h.1, h.2, by decide⟩

/-- C36 fails as stated: in the map that the five inserts of `-2^62 - 2`, `-2^62 - 1`,
`-2^62`, `0`, `1` build when a leaf may hold one key, the descent for the key `-2^62` goes
from the node at address 17 (keys `-2^62` and `1`) through its slot 1 to the node at address
21, whose first key is `0`; for that key the product `2 * (0 - (-2^62))` of source line 671
does not fit 64 bits, the index computed is `-1`, and `interpolationSearch(0, node 17)`
stops at the read of `key(-1)` instead of returning the slot 1.  The `erase` of the key
`-2^62`, which recomputes this index to rebuild the node at address 21, stops there. -/
theorem C36_counterexample :
    Reachable wideFive ∧ SavedPath wideFive (-4611686018427387904) [17, 21, 22] 22
    ∧ (wideFive.getNode 17).map (fun n => (n.keys, n.slots))
        = .ok ([-4611686018427387904, 1], [Word.node 18, Word.node 21, Word.kvpair 1 5])
    ∧ (wideFive.getNode 17).bind (fun n => interpolationSearch (-4611686018427387904) n)
        = .ok 1
    ∧ (wideFive.getNode 21).bind (fun n => n.key 0) = .ok 0
    ∧ predictedIndex 2 0 (-4611686018427387904) 1 = -1
    ∧ (wideFive.getNode 17).bind (fun n => interpolationSearch 0 n)
        = .error Fault.outOfBounds
    ∧ (doUpdate 100 wideFive (-4611686018427387904) 0 UpdateType.Erase).map (fun r => r.1)
        = .error Fault.outOfBounds :=
  ⟨reachable_wideFive,
    SavedPath.down (SavedPath.down (SavedPath.down SavedPath.start (by decide)) (by decide))
      (by decide),
    by decide, by decide, by decide, by decide, by decide, by decide⟩

/-- C36 (amended): the recomputed rebuild index is the slot actually descended, when the
search that recomputes it stays inside the parent.  In every state that single-threaded
updates reach from an empty map, for every node `a` on the saved path of `doUpdate` that
follows another node `parent` of the path, the slot `j` through which the descent for `key`
reached `a` holds `NODE(a)`, and `interpolationSearch` for the first key of `a` finds in
`parent` that slot `j` whenever it returns, which it does when its read at the predicted
index stays inside `parent`: then `rebuild(a, parent, j, depth)` names the slot that holds
the node to rebuild. -/
theorem C36_recomputed_index_is_descended_slot (st : istree) (hr : Reachable st) (key : Int)
    (path : List Nat) (node : Nat) (hp : SavedPath st key path node)
    (p1 p2 : List Nat) (parent a : Nat) (hdec : path = p1 ++ parent :: a :: p2) :
    ∃ pn na j k0, st.getNode parent = .ok pn ∧ st.getNode a = .ok na
      ∧ interpolationSearch key pn = .ok j ∧ pn.ptr j = .ok (Word.node a)
      ∧ na.key 0 = .ok k0
      ∧ (indexInBounds k0 pn = true → interpolationSearch k0 pn = .ok j)
      ∧ (∀ ix : Int, interpolationSearch k0 pn = .ok ix → ix = j) :=
  (savedPath_links (reachable_inv hr) hp).2.2 p1 p2 parent a hdec

/-- Witness for C36: the descent for the key 1 in the map with the keys 1, 2 and 3, whose
saved path is `[4, 5, 6]`. -/
theorem C36_witness :
    Reachable tinyThree ∧ SavedPath tinyThree 1 [4, 5, 6] 6
      ∧ (∃ pn na j k0, tinyThree.getNode 4 = .ok pn ∧ tinyThree.getNode 5 = .ok na
        ∧ interpolationSearch 1 pn = .ok j ∧ pn.ptr j = .ok (Word.node 5)
        ∧ na.key 0 = .ok k0
        ∧ (indexInBounds k0 pn = true → interpolationSearch k0 pn = .ok j)
        ∧ (∀ ix : Int, interpolationSearch k0 pn = .ok ix → ix = j))
      ∧ (tinyThree.getNode 4).bind (fun pn => (tinyThree.getNode 5).bind (fun na =>
          (na.key 0).bind (fun k0 => (interpolationSearch k0 pn).map (fun j =>
            (indexInBounds k0 pn, j, pn.ptr j))))) = .ok (true, 0, .ok (Word.node 5)) :=
  have hp : SavedPath tinyThree 1 [4, 5, 6] 6 :=
    SavedPath.down (SavedPath.down (SavedPath.down SavedPath.start (by decide)) (by decide))
      (by decide)
  ⟨reachable_tinyThree, hp,
    C36_recomputed_index_is_descended_slot tinyThree reachable_tinyThree 1 [4, 5, 6] 6 hp
      [] [6] 4 5 rfl, by decide⟩

/-- C39: `addKVPairs` emits keys in strictly increasing order.  For every node of the tree in
a state that single-threaded updates reach from an empty map, once `markAndCount` has run on
the subtree, the pairs that `addKVPairs` adds to the builder have strictly increasing keys,
which is what `createLeaf` asserts of its input; and the pairs that `addKVPairsSubset` adds
are a segment of them, so they increase strictly as well. -/
theorem C39_collected_keys_increase (st : istree) (hr : Reachable st) (path : List Nat)
    (a : Nat) (L H : Option Int) (hch : Chain st st.root none none path a L H)
    (F c : Nat) (st1 : istree) (hmark : markAndCount F st (Word.node a) = .ok (c, st1))
    (fuel : Nat) (b b1 : IdealBuilder)
    (hcol : addKVPairs st1 fuel (Word.node a) b = .ok b1) :
    ∃ l, b1.pairs = b.pairs ++ l ∧ l.length = c ∧ pairsIncreasing l = true
      ∧ ∀ (cs : SlotRef) (fuel2 : Nat) (s s1 : SubsetArgs), st1.readRef cs = .ok Word.null →
          addKVPairsSubset st1 cs fuel2 a s = .ok s1 →
          s1.b.pairs = s.b.pairs ++ (l.drop s.numKeysToSkip).take s.numKeysToAdd
            ∧ pairsIncreasing ((l.drop s.numKeysToSkip).take s.numKeysToAdd) = true := by
  obtain ⟨g, all, d, htree⟩ := (reachable_inv hr).tree
  obtain ⟨g1, r1, hq⟩ := Chain.endChk hch htree
  obtain ⟨hc, _, hfin⟩ := @markAndCount_spec true g1 F st L H a r1 c st1 hq hmark
  have e1 := @addKVPairs_spec true st1 g1 fuel L H a (r1.1, true) b b1 hfin hcol
  have hok := (chkNode_ok st _ _ _ _ _ hq).2
  refine ⟨r1.1, by rw [e1], hc.symm, (pairsIncreasing_iff _).mpr hok, ?_⟩
  intro cs fuel2 s s1 hcs hsub
  have e2 := @addKVPairsSubset_spec true st1 cs hcs g1 fuel2 L H a (r1.1, true) s s1 hfin hsub
  refine ⟨by rw [e2]; rfl, (pairsIncreasing_iff _).mpr ?_⟩
  exact (hok.sublist (List.drop_sublist _ _)).sublist (List.take_sublist _ _)

/-- Witness for C39: the leaf of the map with the keys 1 and 2. -/
theorem C39_witness :
    Reachable tinyTwo ∧ Chain tinyTwo tinyTwo.root none none [2] 2 none none
      ∧ markAndCount 3 tinyTwo (Word.node 2) = .ok (2, tinyTwoMarked)
      ∧ addKVPairs tinyTwoMarked 2 (Word.node 2) ⟨2, 0, []⟩ = .ok ⟨2, 0, [(1, 10), (2, 20)]⟩
      ∧ ∃ l, [((1 : Int), (10 : Int)), (2, 20)] = [] ++ l ∧ l.length = 2
        ∧ pairsIncreasing l = true :=
  have hch : Chain tinyTwo tinyTwo.root none none [2] 2 none none :=
    ⟨_, 0, (by decide : tinyTwo.nodes[tinyTwo.root]? = some
        { capacity := 1, degree := 1, keys := [], slots := [Word.node 2],
          minKey := 4611686018427387904, maxKey := 4611686018427387904, initSize := 0,
          changeSum := 0, dirty := Dirty.clean, nextMarkAndCount := 0 }),
      by decide, by decide, by decide, rfl, rfl, rfl⟩
  have h := C39_collected_keys_increase tinyTwo reachable_tinyTwo [2] 2 none none hch 3 2
    tinyTwoMarked (by decide) 2 ⟨2, 0, []⟩ ⟨2, 0, [(1, 10), (2, 20)]⟩ (by decide)
  ⟨reachable_tinyTwo, hch, by decide, by decide,
    h.elim fun l hl => ⟨l, hl.1, hl.2.1, hl.2.2.1⟩⟩


/-! ## Termination of the rebuild and the second run of helpRebuild -/

/-- The children of an ideal node for at least two pairs hold fewer pairs than the node. -/
theorem chunkSize_lt {n : Nat} (h : 2 ≤ n) (ix : Nat) :
    chunkSize (n / ceilSqrt n) (n % ceilSqrt n) ix < n := by
  have hm := ceilSqrt_two h
  have hd := Nat.div_add_mod n (ceilSqrt n)
  have hcs : 1 ≤ n / ceilSqrt n := Nat.div_pos (ceilSqrt_le _) (by omega)
  have h2 : 2 * (n / ceilSqrt n) ≤ ceilSqrt n * (n / ceilSqrt n) :=
    Nat.mul_le_mul_right _ hm
  unfold chunkSize
  split
  · rename_i hlt
    omega
  · omega

theorem take_drop_pairwise {l : List (Int × Int)} (h : l.Pairwise (fun p q => p.1 < q.1))
    (a b : Nat) : ((l.drop a).take b).Pairwise (fun p q => p.1 < q.1) :=
  (h.sublist (List.drop_sublist _ _)).sublist (List.take_sublist _ _)

/-- The loop that fills the children of an ideal node returns when every call of the builder
for a chunk returns. -/
theorem buildChildren_total {fuel d a : Nat} {l : List (Int × Int)} {cs rem m : Nat}
    (hB : ∀ (s : istree) (ps : List (Int × Int)), 1 ≤ s.MAX_ACCEPTABLE_LEAF_SIZE →
      1 ≤ ps.length → ps.length ≤ fuel → ps.Pairwise (fun p q => p.1 < q.1) →
      ∃ c s1, build fuel s ps d = .ok (c, s1))
    (hL : l.Pairwise (fun p q => p.1 < q.1)) (hcs : 1 ≤ cs)
    (htot : chunkStart cs rem m = l.length) (hsz : ∀ i, i < m → chunkSize cs rem i ≤ fuel) :
    ∀ (cnt i : Nat) (st : istree) (n : Node), i + cnt = m →
      st.nodes[a]? = some n → n.degree = m → n.slots.length = m → n.keys.length = m - 1 →
      1 ≤ st.MAX_ACCEPTABLE_LEAF_SIZE →
      ∃ st2, buildChildren (fun s ps => build fuel s ps d) a cs rem cnt i
        (l.drop (chunkStart cs rem i)) st = .ok st2 := by
  intro cnt
  induction cnt with
  | zero =>
    intro i st n _ _ _ _ _ _
    exact ⟨st, rfl⟩
  | succ cnt ih =>
    intro i st n hi0 hget hdeg hsl hkl hmax
    have him : i < m := by omega
    have hsize : cs + (if i < rem then 1 else 0) = chunkSize cs rem i := rfl
    have hclen := chunk_length htot him
    have hc1 : 1 ≤ chunkSize cs rem i := by unfold chunkSize; omega
    obtain ⟨child, st1, hb⟩ := hB st (chunk l cs rem i) hmax (by omega)
      (by rw [hclen]; exact hsz i him) (take_drop_pairwise hL _ _)
    obtain ⟨_, hgrow, _, _⟩ := @build_spec false fuel st st1 _ d child none none hb
      ⟨fun p _ => ⟨rfl, rfl⟩, take_drop_pairwise hL _ _⟩
    have hlt := lt_of_getElem hget
    have hget1 : st1.nodes[a]? = some n := by rw [hgrow.keep a hlt]; exact hget
    have hsp := Node.setPtr_ok n i (Word.node child) (by omega) (by omega)
    have hdrop : List.drop (cs + if i < rem then 1 else 0) (l.drop (chunkStart cs rem i))
        = l.drop (chunkStart cs rem (i + 1)) := by
      rw [List.drop_drop, chunkStart_succ, hsize]
    have hmax1 : 1 ≤ st1.MAX_ACCEPTABLE_LEAF_SIZE := by rw [hgrow.rest]; exact hmax
    simp only [buildChildren, bind, Except.bind]
    unfold chunk at hb
    rw [hsize, hb]
    simp only [getNode_of_getElem hget1, hsp]
    by_cases hpos : 0 < i
    · simp only [hpos, if_true]
      cases hcs2 : l.drop (chunkStart cs rem i) with
      | nil =>
        have : (chunk l cs rem i).length = 0 := by simp [chunk, hcs2]
        omega
      | cons q t =>
        have hk := Node.setKey_ok { n with slots := n.slots.set i (Word.node child) } i q.1
          hpos (by simp only; omega)
        simp only [hk]
        rw [← hcs2, ← hsize, hdrop]
        exact ih (i + 1) _ _ (by omega) (getElem_setNode_same _ (lt_of_getElem hget1))
          hdeg (by simp [hsl]) (by simp [hkl]) hmax1
    · simp only [hpos, if_false, pure, Except.pure]
      rw [← hsize, hdrop]
      exact ih (i + 1) _ _ (by omega) (getElem_setNode_same _ (lt_of_getElem hget1))
        hdeg (by simp [hsl]) hkl hmax1

/-- The builder returns on a strictly increasing non-empty list of pairs, given fuel for
their number, when a leaf may hold a pair. -/
theorem build_total : ∀ (fuel : Nat) (st : istree) (pset : List (Int × Int)) (d : Nat),
    1 ≤ st.MAX_ACCEPTABLE_LEAF_SIZE → 1 ≤ pset.length → pset.length ≤ fuel →
    pset.Pairwise (fun p q => p.1 < q.1) → ∃ a st1, build fuel st pset d = .ok (a, st1) := by
  intro fuel
  induction fuel with
  | zero => intro st pset d _ h1 h2 _; omega
  | succ fuel ih =>
    intro st pset d hmax hne hlen hL
    simp only [build]
    by_cases hsmall : pset.length ≤ st.MAX_ACCEPTABLE_LEAF_SIZE
    · simp only [hsmall, if_true]
      obtain ⟨st1, leaf, h1, _⟩ := createLeaf_total st pset hne ((pairsIncreasing_iff _).mpr hL)
      exact ⟨_, _, h1⟩
    · simp only [hsmall, if_false]
      have hn2 : 2 ≤ pset.length := by omega
      have hm2 := ceilSqrt_two hn2
      have hm1 : 1 ≤ ceilSqrt pset.length := by omega
      have hcs : 1 ≤ pset.length / ceilSqrt pset.length :=
        Nat.div_pos (ceilSqrt_le _) (by omega)
      have htot := chunkStart_total pset.length (ceilSqrt pset.length) hm1
      obtain ⟨n0, hcn, hn1, hn2', hn3, hn4, hn5⟩ := createNode_spec st (ceilSqrt pset.length)
      simp only [createMultiCounterNode, ite_self, hcn, bind, Except.bind, getNode_append]
      obtain ⟨st3, hbc⟩ := buildChildren_total (d := 1 + d) (a := st.nodes.length)
        (fun s ps h1 h2 h3 h4 => ih s ps (1 + d) h1 h2 h3 h4) hL hcs htot
        (fun i _ => by have := chunkSize_lt hn2 i; omega)
        (ceilSqrt pset.length) 0
        (({ st with nodes := st.nodes ++ [n0] } : istree).setNode st.nodes.length
          { n0 with degree := ceilSqrt pset.length, initSize := pset.length })
        { n0 with degree := ceilSqrt pset.length, initSize := pset.length } (by omega)
        (getElem_setNode_same _ (by simp)) rfl (by simp [hn3]) (by simp [hn4]) hmax
      rw [chunkStart_zero, List.drop_zero] at hbc
      rw [hbc]
      have hbc2 : buildChildren (fun s ps => build fuel s ps (1 + d)) st.nodes.length
          (pset.length / ceilSqrt pset.length) (pset.length % ceilSqrt pset.length)
          (ceilSqrt pset.length) 0 (pset.drop (chunkStart (pset.length / ceilSqrt pset.length)
            (pset.length % ceilSqrt pset.length) 0))
          (({ st with nodes := st.nodes ++ [n0] } : istree).setNode st.nodes.length
            { n0 with degree := ceilSqrt pset.length, initSize := pset.length }) = .ok st3 := by
        rw [chunkStart_zero, List.drop_zero]
        exact hbc
      obtain ⟨hext, n3, F3, g1, g2, g3, g4, g5, g6⟩ := @buildChildren_spec false fuel (1 + d)
        (build_spec fuel) _ _ _ _ _ none none ⟨fun p _ => ⟨rfl, rfl⟩, hL⟩ hcs htot
        (ceilSqrt pset.length) 0 _ st3 _ 0 (by omega)
        (getElem_setNode_same _ (by simp)) rfl (by simp [hn3]) (by simp [hn4])
        (Filled.zero _ _ _ _ _ _ _ _ _ _) hbc2
      simp only [getNode_of_getElem g1]
      rw [Node.key_zero n3 (by omega) (by omega), Node.key_last n3 (by omega) (by omega)]
      exact ⟨_, _, rfl⟩

theorem getCASWord_total {b : IdealBuilder} {fuel : Nat} {st : istree} {cs : SlotRef}
    (hcs : st.readRef cs = .ok Word.null) (hmax : 1 ≤ st.MAX_ACCEPTABLE_LEAF_SIZE)
    (hlen : b.pairs.length ≤ fuel) (hL : b.pairs.Pairwise (fun p q => p.1 < q.1)) :
    ∃ w st1, b.getCASWord fuel st cs = .ok (w, st1) := by
  have hnn : (Word.null != Word.null) = false := by decide
  simp only [IdealBuilder.getCASWord, bind, Except.bind, hcs, hnn, Bool.false_eq_true, if_false]
  cases hp : b.pairs with
  | nil => exact ⟨_, _, rfl⟩
  | cons p t =>
    cases t with
    | nil => exact ⟨_, _, rfl⟩
    | cons q t2 =>
      simp only
      obtain ⟨a, st1, hb⟩ := build_total fuel st b.pairs b.depth hmax (by rw [hp]; simp) hlen hL
      rw [hp] at hb
      rw [hb]
      exact ⟨_, _, rfl⟩

/-- The construction of one child of an ideal node returns: the old subtree is marked, the
slot is reserved and still empty, and there is fuel for the height of the old subtree and
for the number of pairs of the child. -/
theorem subtreeBuildAndReplace_total {fuel : Nat} {st : istree} {o a ix cs rem m f : Nat}
    {op : RebuildOperation} {l : List (Int × Int)} {lo hi lo0 hi0 : Option Int}
    {n : Node} (hop : st.getOp o = .ok op)
    (hold : chkNode false f st lo0 hi0 op.rebuildRoot = some (l, true))
    (hL : ListOK lo hi l) (hcs : 1 ≤ cs) (htot : chunkStart cs rem m = l.length) (hix : ix < m)
    (hres : Reserved st a n m ix) (hdeg : n.degree = ix + 1)
    (hmax : 1 ≤ st.MAX_ACCEPTABLE_LEAF_SIZE) (hf : f ≤ fuel)
    (hsz : chunkSize cs rem ix ≤ fuel) :
    ∃ st4, subtreeBuildAndReplace fuel st o a ix cs rem = .ok st4 := by
  have hget := getNode_of_getElem hres.get
  have hnull : n.slots[ix]? = some Word.null := hres.free ix (le_refl _) hix
  have hptr : n.ptr (ix : Int) = .ok Word.null := Node.ptr_ok n ix _ (by omega) hnull
  have hcsr : st.readRef (SlotRef.slot a (ix : Int)) = .ok Word.null := by
    simp only [istree.readRef, bind, Except.bind, hget, hptr]
  have hnn : (Word.null != Word.null) = false := by decide
  have hc1 : 1 ≤ chunkSize cs rem ix := by unfold chunkSize; omega
  obtain ⟨s, hsub⟩ := addKVPairsSubset_total st _ hcsr f fuel lo0 hi0 op.rebuildRoot l
    ⟨ix * cs + (if ix < rem then ix else rem), cs + (if ix < rem then 1 else 0),
      ⟨cs + (if ix < rem then 1 else 0), 1 + op.depth, []⟩⟩ hf hold hc1
  have hs := @addKVPairsSubset_spec false st _ hcsr f fuel lo0 hi0 _ _ _ s hold hsub
  have hpairs : s.b.pairs = chunk l cs rem ix := by
    rw [hs]
    simp [subsetResult, chunk, chunkStart, chunkSize]
  have hLc := chunk_listOK hL hcs htot hix
  rw [← hpairs] at hLc
  have hclen := chunk_length htot hix
  obtain ⟨w, st1, hcas⟩ := @getCASWord_total s.b fuel st (SlotRef.slot a (ix : Int)) hcsr hmax
    (by rw [hpairs, hclen]; exact hsz) hLc.2
  obtain ⟨hgrow, hfresh, hwn, F1, d1, hw⟩ :=
    @getCASWord_spec false _ _ _ _ _ _ _ _ a hcas hcsr hLc (lt_of_getElem hres.get)
  have hget1 : st1.nodes[a]? = some n := hgrow.keepSome hres.get
  have hwn2 : (w != Word.null) = true := by simpa using hwn
  have fin : ∀ st2 n2, st2.nodes[a]? = some n2 → n2.slots = n.slots → n2.degree = n.degree →
      (casPtr st2 a (ix : Int) Word.null w
          = .ok (true, st2.setNode a { n2 with slots := n2.slots.set ix w })) ∧
       (st2.setNode a { n2 with slots := n2.slots.set ix w }).getNode a
          = .ok { n2 with slots := n2.slots.set ix w } ∧
       ({ n2 with slots := n2.slots.set ix w } : Node).ptr (ix : Int) = .ok w := by
    intro st2 n2 hget2 hslots2 hdeg2
    have hptr2 : n2.ptr (ix : Int) = .ok Word.null :=
      Node.ptr_ok n2 ix _ (by omega) (by rw [hslots2]; exact hnull)
    have hsp := Node.setPtr_ok n2 ix w (by omega) (by rw [hslots2, hres.slots]; exact hix)
    have hget3 : (st2.setNode a { n2 with slots := n2.slots.set ix w }).nodes[a]?
        = some { n2 with slots := n2.slots.set ix w } :=
      getElem_setNode_same _ (lt_of_getElem hget2)
    have hptr3 : ({ n2 with slots := n2.slots.set ix w } : Node).ptr (ix : Int) = .ok w :=
      Node.ptr_ok _ ix _ (by simp only; omega)
        (by simp [List.getElem?_set, hslots2, hres.slots, hix])
    refine ⟨?_, getNode_of_getElem hget3, hptr3⟩
    simp only [casPtr, bind, Except.bind, getNode_of_getElem hget2, hptr2, if_true, hsp,
      pure, Except.pure]
  simp only [subtreeBuildAndReplace, bind, Except.bind, hop, hsub, hget, hptr, hnn,
    Bool.false_eq_true, if_false, hcas, hwn]
  by_cases hpos : 0 < ix
  · have hpos2 : ix > 0 := hpos
    simp only [hpos2, if_true]
    cases hch : chunk l cs rem ix with
    | nil =>
      rw [hch] at hclen
      simp at hclen
      omega
    | cons p t =>
      have hmk : s.b.getMinKey = .ok p.1 := by
        unfold IdealBuilder.getMinKey
        rw [hpairs, hch]
        rfl
      have hk := Node.setKey_ok n ix p.1 hpos (by have := hres.keys; omega)
      simp only [hmk, getNode_of_getElem hget1, hk, pure, Except.pure]
      obtain ⟨c1, c2, c3⟩ := fin
        (st1.setNode a { n with keys := n.keys.set (ix - 1) p.1 })
        { n with keys := n.keys.set (ix - 1) p.1 }
        (getElem_setNode_same _ (lt_of_getElem hget1)) rfl rfl
      simp only [c1, if_true, c2, c3, assert, hwn2, pure, Except.pure]
      exact ⟨_, rfl⟩
  · have hpos2 : ¬ ix > 0 := hpos
    simp only [hpos2, if_false, pure, Except.pure]
    obtain ⟨c1, c2, c3⟩ := fin st1 n hget1 rfl rfl
    simp only [c1, if_true, c2, c3, assert, hwn2, pure, Except.pure]
    exact ⟨_, rfl⟩

/-- The loop of `createIdealConcurrent` that reserves and builds the children returns. -/
theorem reserveLoop_total {fuel o a cs rem m f : Nat} {s0 : istree} {op : RebuildOperation}
    {l : List (Int × Int)} {lo hi lo0 hi0 : Option Int}
    (hold : chkNode false f s0 lo0 hi0 op.rebuildRoot = some (l, true))
    (ha : s0.nodes.length ≤ a)
    (hL : ListOK lo hi l) (hcs : 1 ≤ cs) (htot : chunkStart cs rem m = l.length)
    (hmax : 1 ≤ s0.MAX_ACCEPTABLE_LEAF_SIZE) (hf : f ≤ fuel)
    (hsz : ∀ i, i < m → chunkSize cs rem i ≤ fuel) :
    ∀ (cnt : Nat) (st : istree) (n : Node) (ix F : Nat), Grow s0 st →
      st.getOp o = .ok op → Reserved st a n m ix → n.degree = ix → ix ≤ m →
      Filled false F st a n l cs rem m lo hi ix → m - ix + 1 ≤ cnt →
      ∃ st2, reserveLoop fuel o a cs rem cnt st = .ok st2 := by
  intro cnt
  induction cnt with
  | zero => intro st n ix F _ _ _ _ _ _ h; omega
  | succ cnt ih =>
    intro st n ix F hgrow hop hres hdeg hle hfill hcnt
    simp only [reserveLoop, bind, Except.bind, getNode_of_getElem hres.get]
    by_cases hge : n.degree ≥ n.capacity
    · simp only [hge, if_true]
      exact ⟨_, rfl⟩
    · simp only [hge, if_false]
      have hixm : ix < m := by have := hres.cap; omega
      have hext1 : Ext a st (st.setNode a { n with degree := 1 + n.degree }) :=
        Ext.setNode _ _ _
      have hres1 : Reserved (st.setNode a { n with degree := 1 + n.degree }) a
          { n with degree := 1 + n.degree } m ix :=
        ⟨getElem_setNode_same _ (lt_of_getElem hres.get), hres.cap, hres.slots, hres.keys,
          hres.dirty, hres.free⟩
      have hgrow1 := Ext.grow hgrow hext1 ha
      have hfill1 : Filled false F (st.setNode a { n with degree := 1 + n.degree }) a
          { n with degree := 1 + n.degree } l cs rem m lo hi ix :=
        hfill.mono (fun x y hx hy => hext1.keep x y (by omega) hy) rfl rfl
      rw [hdeg] at hext1 hres1 hgrow1 hfill1 ⊢
      have hmax1 : 1 ≤ (st.setNode a { n with degree := 1 + ix }).MAX_ACCEPTABLE_LEAF_SIZE := by
        show 1 ≤ st.MAX_ACCEPTABLE_LEAF_SIZE
        rw [hgrow.rest]
        exact hmax
      obtain ⟨st1, hsb⟩ := subtreeBuildAndReplace_total
        (by rw [hext1.getOp]; exact hop) (hgrow1.chk hold) hL hcs htot hixm hres1
        (by simp only; omega) hmax1 hf (hsz ix hixm)
      rw [hsb]
      simp only
      obtain ⟨hext2, n4, F4, hres4, hdeg4, hfill4⟩ := subtreeBuildAndReplace_spec
        (by rw [hext1.getOp]; exact hop) (hgrow1.chk hold) hL hcs htot hixm hres1
        (by simp only; omega) hfill1 hsb
      have hgrow4 := Ext.grow hgrow (hext1.thenExt hext2) ha
      exact ih st1 n4 (ix + 1) F4 hgrow4
        (by rw [hext2.getOp, hext1.getOp]; exact hop) hres4 hdeg4 (by omega) hfill4 (by omega)

/-- The helping loop of `createIdealConcurrent` does nothing on a node whose slots are all
filled. -/
theorem helpLoop_full {fuel o a cs rem m ix : Nat} {st : istree} {n : Node}
    (hget : st.nodes[a]? = some n) (hm : 1 ≤ m) (hdeg : n.degree = m)
    (hfull : ∀ j, j < m → ∃ w, n.slots[j]? = some w ∧ w ≠ Word.null) :
    ∀ (cnt i0 : Nat), helpLoop fuel o a cs rem m ix cnt i0 st = .ok st := by
  intro cnt
  induction cnt with
  | zero => intro i0; rfl
  | succ cnt ih =>
    intro i0
    have hlt : (i0 + ix) % m < m := Nat.mod_lt _ (by omega)
    obtain ⟨w, hw, hwn⟩ := hfull _ hlt
    have hp := Node.ptr_ok n ((i0 + ix) % m) w (by omega) hw
    simp only [helpLoop, bind, Except.bind, getNode_of_getElem hget, hp, hwn, if_false, pure,
      Except.pure]
    exact ih (i0 + 1)

theorem chunkKey_ne {l : List (Int × Int)} {cs rem m : Nat} (hcs : 1 ≤ cs)
    (htot : chunkStart cs rem m = l.length) {j : Nat} (hj : j < m) {x : Int}
    (hinf : ∀ p ∈ l, p.1 ≠ x) : chunkKey l cs rem j ≠ x := by
  obtain ⟨p, hp1, hp2⟩ := chunkKey_mem hcs htot hj
  rw [hp2]
  exact hinf p (List.mem_iff_getElem?.mpr ⟨_, hp1⟩)

/-- Single-threaded, on a marked well-formed subtree whose keys differ from `INF_KEY`,
`createIdealConcurrent` returns, given fuel for the height and for the number of keys of
the subtree; unless the subtree is empty, the descriptor then holds the returned word as
its new root. -/
theorem createIdealConcurrent_total {fuel : Nat} {st : istree} {o keyCount f : Nat}
    {op : RebuildOperation} {l : List (Int × Int)} {lo hi lo0 hi0 : Option Int}
    (hop : st.getOp o = .ok op) (hnr : op.newRoot = Word.null)
    (hold : chkNode false f st lo0 hi0 op.rebuildRoot = some (l, true))
    (hcount : keyCount = l.length) (hL : ListOK lo hi l)
    (hmax : 1 ≤ st.MAX_ACCEPTABLE_LEAF_SIZE) (hf : f + 1 ≤ fuel) (hlen : l.length ≤ fuel)
    (hinf : ∀ p ∈ l, p.1 ≠ st.INF_KEY) :
    ∃ w st1, createIdealConcurrent fuel st o keyCount = .ok (w, st1)
      ∧ st1.getOp o = .ok { op with newRoot := if keyCount = 0 then Word.null else w } := by
  have hne : (Word.null = Word.emptyVal) = False := by simp
  have hnn : (Word.null != Word.null) = false := by decide
  have hopnull : ({ op with newRoot := Word.null } : RebuildOperation) = op := by
    cases op
    simp only at hnr
    subst hnr
    rfl
  by_cases h0 : keyCount = 0
  · refine ⟨Word.emptyVal, st, ?_, ?_⟩
    · simp only [createIdealConcurrent, h0, if_true, pure, Except.pure]
    · simp only [h0, if_true, hopnull]
      exact hop
  by_cases hs : keyCount ≤ st.MAX_ACCEPTABLE_LEAF_SIZE
  · obtain ⟨b1, hadd⟩ := addKVPairs_total st f fuel lo0 hi0 op.rebuildRoot l
      ⟨keyCount, op.depth, []⟩ hf hold
    have hb1 := @addKVPairs_spec false st f fuel lo0 hi0 _ _ _ b1 hold hadd
    simp only [List.nil_append] at hb1
    have hpairs : b1.pairs = l := by rw [hb1]
    have hL1 : ListOK lo hi b1.pairs := by rw [hpairs]; exact hL
    obtain ⟨w1, s1, hcas⟩ := @getCASWord_total b1 fuel st SlotRef.localNull rfl hmax
      (by rw [hpairs]; exact hlen) hL1.2
    obtain ⟨hgrow, hfresh, hwn, F, d, hw⟩ :=
      @getCASWord_spec false _ _ _ _ _ _ lo hi 0 hcas rfl hL1
        (by
          obtain ⟨nx, hnx⟩ := chkNode_exists hold
          have := lt_of_getElem hnx
          omega)
    have hwn2 : (w1 != Word.null) = true := by simpa using hwn
    have hop1 : s1.getOp o = .ok op := by
      rw [← hop]
      unfold istree.getOp
      rw [hgrow.rest]
    refine ⟨w1, s1.setOp o { op with newRoot := w1 }, ?_, ?_⟩
    · simp only [createIdealConcurrent, bind, Except.bind, hop, hnr, hne, if_false, hnn,
        Bool.false_eq_true, h0, hs, if_true, hadd, hcas, assert, hwn2, pure, Except.pure, hop1,
        getOp_setOp_same hop1, Bool.or_true, decide_True]
    · simp only [h0, if_false]
      exact getOp_setOp_same hop1 _
  · have hk1 : 1 ≤ keyCount := by omega
    have hk2 : 2 ≤ keyCount := by omega
    have hm1 := ceilSqrt_pos hk1
    have hm2 := ceilSqrt_two hk2
    have hcs : 1 ≤ keyCount / ceilSqrt keyCount := Nat.div_pos (ceilSqrt_le _) (by omega)
    have htot : chunkStart (keyCount / ceilSqrt keyCount) (keyCount % ceilSqrt keyCount)
        (ceilSqrt keyCount) = l.length := by
      rw [← hcount]; exact chunkStart_total keyCount (ceilSqrt keyCount) hm1
    obtain ⟨n0, hcn, hn1, hn2, hn3, hn4, hn5⟩ := createNode_spec st (ceilSqrt keyCount)
    have hop1 : ((({ st with nodes := st.nodes ++ [n0] } : istree).setNode st.nodes.length
        { n0 with slots := List.replicate n0.capacity Word.null, degree := 0 })).getOp o
        = .ok op := hop
    have hnode : (Word.node st.nodes.length != Word.null) = true := by simp
    have hget1 : ((({ st with nodes := st.nodes ++ [n0] } : istree).setNode st.nodes.length
        { n0 with slots := List.replicate n0.capacity Word.null, degree := 0 }).setOp o
        { op with newRoot := Word.node st.nodes.length }).nodes[st.nodes.length]?
        = some { n0 with slots := List.replicate n0.capacity Word.null, degree := 0 } := by
      simp [istree.setOp, istree.setNode]
    simp only [createIdealConcurrent, bind, Except.bind, hop, hnr, hne, if_false, hnn,
      Bool.false_eq_true, h0, hs, createMultiCounterNode, ite_self, hcn, getNode_append,
      pure, Except.pure, hop1, if_true, getOp_setOp_same hop1, assert, IS_KVPAIR, IS_NODE,
      Bool.false_or, decide_eq_true_eq, istree.derefWord, hnode, getNode_of_getElem hget1]
    generalize hs1 : ((({ st with nodes := st.nodes ++ [n0] } : istree).setNode st.nodes.length
        { n0 with slots := List.replicate n0.capacity Word.null, degree := 0 }).setOp o
        { op with newRoot := Word.node st.nodes.length }) = s1 at hget1 ⊢
    have hgrow : Grow (st.setOp o { op with newRoot := Word.node st.nodes.length }) s1 := by
      rw [← hs1]
      refine ⟨rfl, by simp [istree.setOp, istree.setNode], ?_⟩
      intro x hx
      have hx2 : x < st.nodes.length := hx
      have hne2 : ¬ st.nodes.length = x := by omega
      simp [istree.setOp, istree.setNode, List.getElem?_set, hne2,
        List.getElem?_append_left hx2]
    have hop2 : s1.getOp o = .ok { op with newRoot := Word.node st.nodes.length } := by
      rw [← hs1]; exact getOp_setOp_same hop1 _
    have hold2 : chkNode false f (st.setOp o { op with newRoot := Word.node st.nodes.length })
        lo0 hi0 ({ op with newRoot := Word.node st.nodes.length } : RebuildOperation).rebuildRoot
        = some (l, true) := by
      rw [chkNode_nodes (show (st.setOp o _).nodes = st.nodes from rfl)]
      exact hold
    have hres : Reserved s1 st.nodes.length
        { n0 with slots := List.replicate n0.capacity Word.null, degree := 0 }
        (ceilSqrt keyCount) 0 := by
      refine ⟨hget1, hn2, by simp [hn2], hn4, hn5, ?_⟩
      intro j _ hj
      simp [hn2, List.getElem?_replicate, hj]
    have hszall : ∀ i, i < ceilSqrt keyCount →
        chunkSize (keyCount / ceilSqrt keyCount) (keyCount % ceilSqrt keyCount) i ≤ fuel := by
      intro i _
      have := chunkSize_lt hk2 i
      omega
    obtain ⟨st2, hrl⟩ := reserveLoop_total hold2
      (show (st.setOp o { op with newRoot := Word.node st.nodes.length }).nodes.length
        ≤ st.nodes.length from le_refl _) hL hcs htot
      (show 1 ≤ (st.setOp o _).MAX_ACCEPTABLE_LEAF_SIZE from hmax) (by omega) hszall
      (ceilSqrt keyCount + 1) s1 _ 0 0 hgrow hop2 hres rfl (by omega)
      (Filled.zero _ _ _ _ _ _ _ _ _ _) (by omega)
    obtain ⟨hext, n2, F2, hres2, hdeg2, hfill2⟩ := reserveLoop_spec hold2
      (show (st.setOp o { op with newRoot := Word.node st.nodes.length }).nodes.length
        ≤ st.nodes.length from le_refl _) hL hcs htot
      (ceilSqrt keyCount + 1) s1 st2 _ 0 0 hgrow hop2 hres rfl (by omega)
      (Filled.zero _ _ _ _ _ _ _ _ _ _) hrl
    have hfull : ∀ j, j < ceilSqrt keyCount → ∃ w, n2.slots[j]? = some w ∧ w ≠ Word.null := by
      intro j hj
      obtain ⟨w2, d2, hw1, hw2⟩ := hfill2.slot j hj
      refine ⟨w2, hw1, ?_⟩
      intro e
      subst e
      simp [chkWord] at hw2
    have hhl := @helpLoop_full fuel o st.nodes.length (keyCount / ceilSqrt keyCount)
      (keyCount % ceilSqrt keyCount) (ceilSqrt keyCount) (st2.rngNext % ceilSqrt keyCount) st2 n2
      hres2.get hm1 hdeg2 hfull (ceilSqrt keyCount) 0
    have hkl : n2.degree - 1 ≤ n2.keys.length := by
      rw [hdeg2, hres2.keys]
    have hk0 : keyAt n2 0 = chunkKey l (keyCount / ceilSqrt keyCount)
        (keyCount % ceilSqrt keyCount) 1 := hfill2.key 1 (le_refl _) (by omega)
    have hkz : keyAt n2 (n2.degree - 2) = chunkKey l (keyCount / ceilSqrt keyCount)
        (keyCount % ceilSqrt keyCount) (ceilSqrt keyCount - 1) := by
      have := hfill2.key (ceilSqrt keyCount - 1) (by omega) (by omega)
      rw [hdeg2, ← this]
      congr 1
    have c1 : (keyAt n2 0 != st.INF_KEY) = true := by
      rw [hk0]
      simpa using chunkKey_ne hcs htot (by omega) hinf
    have c2 : (keyAt n2 (n2.degree - 2) != st.INF_KEY) = true := by
      rw [hkz]
      simpa using chunkKey_ne hcs htot (by omega) hinf
    have hnf : (st2.setNode st.nodes.length
        { n2 with initSize := keyCount, minKey := keyAt n2 0,
                  maxKey := keyAt n2 (n2.degree - 2) }).nodes[st.nodes.length]?
        = some { n2 with initSize := keyCount, minKey := keyAt n2 0,
                         maxKey := keyAt n2 (n2.degree - 2) } :=
      getElem_setNode_same _ (lt_of_getElem hres2.get)
    have hchk : chkNode false (F2 + 1) (st2.setNode st.nodes.length
        { n2 with initSize := keyCount, minKey := keyAt n2 0,
                  maxKey := keyAt n2 (n2.degree - 2) }) lo hi st.nodes.length
        = some (l, false) :=
      chkNode_of_filled hnf
        (hfill2.mono (fun x y hx hy => by rw [getElem_setNode_ne _ (by omega)]; exact hy)
          rfl rfl)
        hdeg2 hm2 (by simp [hres2.slots]) (by simp [hres2.keys]) hres2.dirty rfl
        (by rw [hdeg2]; rfl) hL hcs htot
    obtain ⟨nf, _, hnf2, hokf, _, _, _⟩ := chkNode_succ_some hchk
    rw [hnf] at hnf2
    cases hnf2
    have c3 : keyAt n2 0 ≤ keyAt n2 (n2.degree - 2) := by
      have := keyAt_mono (nodeShapeOK_facts hokf).keys (show 0 ≤ n2.degree - 2 by omega)
        (show n2.degree - 2 < n2.degree - 1 by omega)
      simpa [keyAt] using this
    simp only [hn2, if_true]
    rw [hrl]
    simp only
    rw [hhl]
    simp only [getNode_of_getElem hres2.get]
    rw [Node.key_zero n2 (by omega) hkl, Node.key_last n2 (by omega) hkl]
    simp only [c1, c2, c3, if_true, decide_True]
    refine ⟨_, _, rfl, ?_⟩
    have hext2 := hext.thenExt (Ext.setNode st.nodes.length st2
      { n2 with initSize := keyCount, minKey := keyAt n2 0,
                maxKey := keyAt n2 (n2.degree - 2) })
    rw [hext2.getOp]
    exact hop2

theorem setNode_self {st : istree} {a : Nat} {n : Node} (h : st.nodes[a]? = some n) :
    st.setNode a n = st := by
  have hlt := lt_of_getElem h
  have e : st.nodes.set a n = st.nodes := by
    apply List.ext_getElem?
    intro i
    by_cases hi : i = a
    · subst hi
      simp [List.getElem?_set, hlt, h]
    · rw [List.getElem?_set_ne (Ne.symm hi)]
  unfold istree.setNode
  rw [e]

/-- The root of a subtree that is checked as finished carries the finished word, and so do
its children. -/
theorem finished_node {tol : Bool} {f : Nat} {st : istree} {lo hi : Option Int} {a : Nat}
    {l : List (Int × Int)} (h : chkNode tol f st lo hi a = some (l, true)) :
    ∃ n, st.nodes[a]? = some n ∧ n.dirty = SUM_TO_DIRTY_FINISHED l.length
      ∧ n.degree ≤ n.slots.length
      ∧ ∀ j c, j < n.degree → n.slots[j]? = some (Word.node c) →
          a < c ∧ ∃ m k, st.nodes[c]? = some m ∧ m.dirty = SUM_TO_DIRTY_FINISHED k := by
  cases f with
  | zero => simp [chkNode] at h
  | succ f =>
    obtain ⟨n, r2, hn, hok, hsl, hr1, hcase⟩ := chkNode_succ_some h
    simp only at hr1
    rcases hcase with ⟨_, hx⟩ | ⟨hd, hfl, _⟩
    · simp at hx
    refine ⟨n, hn, by rw [hd, hr1], (nodeShapeOK_facts hok).slots, ?_⟩
    intro j c hj hc
    obtain ⟨w, rj, hw, hcj, hflag⟩ := chkSlots_get_flag n.degree 0 r2 hsl j (by omega) (by omega)
    rw [hc] at hw
    cases hw
    simp only [chkSlot] at hcj
    split at hcj
    swap
    · cases hcj
    rename_i hac
    refine ⟨hac, ?_⟩
    cases f with
    | zero => simp [chkNode] at hcj
    | succ f =>
      obtain ⟨m, r3, hm, _, _, _, hcase2⟩ := chkNode_succ_some hcj
      rcases hcase2 with ⟨_, hx⟩ | ⟨hd2, _, _⟩
      · rw [hflag hfl] at hx
        cases hx
      · exact ⟨m, _, hm, hd2⟩

/-- On a node that is finished `markAndCount` returns the stored sum and writes nothing. -/
theorem markAndCount_done {st : istree} {a : Nat} {n : Node} (hn : st.nodes[a]? = some n)
    (hfin : n.dirty.finished = true) (F : Nat) :
    markAndCount (F + 1) st (Word.node a) = .ok (n.dirty.sum, st) := by
  simp only [markAndCount, IS_KVPAIR, IS_VAL, IS_NODE, assert, istree.derefWord,
    Bool.false_eq_true, if_false, if_true, pure_bind, getNode_of_getElem hn]
  simp only [pure, Except.pure, bind, Except.bind, IS_DIRTY_FINISHED, hfin, if_true,
    DIRTY_FINISHED_TO_SUM]

/-- A single-threaded `helpFreeSubtree` on a node that is not marked for free, whose child
nodes are other nodes that are not marked either, returns, and a second call changes
nothing. -/
theorem helpFreeSubtree_once (st : istree) (a : Nat) (n : Node)
    (hn : st.nodes[a]? = some n) (hlen : n.degree ≤ n.slots.length)
    (hself : n.dirty.markedForFree = false)
    (hch : ∀ j c, j < n.degree → n.slots[j]? = some (Word.node c) →
      c ≠ a ∧ ∃ m, st.nodes[c]? = some m ∧ m.dirty.markedForFree = false) :
    ∃ (st1 : istree), helpFreeSubtree st a = .ok st1 ∧ helpFreeSubtree st1 a = .ok st1
      ∧ st1.nodes[a]? = some { n with dirty := n.dirty.orMarkedForFree } := by
  have hch2 : ∀ c, ChildBefore n n.degree c → c ≠ a := by
    rintro c ⟨j, _, h2, h3⟩
    exact (hch j c h2 h3).1
  have h0 : ClaimedTo st st a n 0 := by
    refine ⟨rfl, hn, ?_, [], by simp, by simp, ?_, by simp⟩
    · rintro c ⟨j, _, h2, h3⟩
      obtain ⟨_, m, hm, hmk⟩ := hch j c h2 h3
      refine ⟨m, hm, ?_⟩
      rw [hmk]
      constructor
      · intro h; cases h
      · rintro ⟨j, hj, _⟩; omega
    · rintro c ⟨j, hj, _⟩; omega
  obtain ⟨s, hs, hcl⟩ := claimChildrenLoop_claims hch2 n.degree 0 st (by omega) hlen h0
  obtain ⟨L2, hrun2, _⟩ := claimSelfLoop_fresh hcl.self hself hlen
  have hlt := lt_of_getElem hcl.self
  have hchild : ∀ j c, j < n.degree → n.slots[j]? = some (Word.node c) →
      ∃ m1, (s.nodes.set a { n with dirty := n.dirty.orMarkedForFree })[c]? = some m1
        ∧ m1.dirty.markedForFree = true := by
    intro j c hj hc
    have hcb : ChildBefore n n.degree c := ⟨j, hj, hj, hc⟩
    obtain ⟨m1, g1, g2⟩ := hcl.child c hcb
    refine ⟨m1, ?_, g2.mpr hcb⟩
    rw [List.getElem?_set_ne (Ne.symm (hch2 c hcb))]
    exact g1
  have hselfB : (s.nodes.set a { n with dirty := n.dirty.orMarkedForFree })[a]?
      = some { n with dirty := n.dirty.orMarkedForFree } := by
    simp [List.getElem?_set, hlt]
  refine ⟨{ s with nodes := s.nodes.set a { n with dirty := n.dirty.orMarkedForFree },
                    smrLog := s.smrLog ++ L2 ++ [SmrCall.freeNode a true] }, ?_, ?_, hselfB⟩
  · simp only [helpFreeSubtree, bind, Except.bind, getNode_of_getElem hn]
    have hs2 : claimChildrenLoop a n.degree 0 st = .ok s := hs
    simp only [hs2]
    exact hrun2
  · have hselfC : ({ s with nodes := s.nodes.set a { n with dirty := n.dirty.orMarkedForFree },
                               smrLog := s.smrLog ++ L2 ++ [SmrCall.freeNode a true] }
          : istree).nodes[a]?
        = some { n with dirty := n.dirty.orMarkedForFree } := hselfB
    have hidle := claimChildrenLoop_idle (a := a)
      (n := { n with dirty := n.dirty.orMarkedForFree }) n.degree 0
      { s with nodes := s.nodes.set a { n with dirty := n.dirty.orMarkedForFree },
               smrLog := s.smrLog ++ L2 ++ [SmrCall.freeNode a true] }
      (by simp) hlen hselfC hchild
    simp only [helpFreeSubtree, bind, Except.bind, getNode_of_getElem hselfC]
    have hidle2 : claimChildrenLoop a n.degree 0
        { s with nodes := s.nodes.set a { n with dirty := n.dirty.orMarkedForFree },
                 smrLog := s.smrLog ++ L2 ++ [SmrCall.freeNode a true] } = .ok _ := hidle
    simp only [hidle2]
    exact claimSelfLoop_marked 1 hselfC rfl

/-- A second `createIdealConcurrent` for a descriptor whose new root is set returns that
root and changes nothing. -/
theorem createIdealConcurrent_again {fuel : Nat} {st : istree} {o keyCount : Nat}
    {op : RebuildOperation} {w : Word} (hop : st.getOp o = .ok op) (hw : op.newRoot = w)
    (hwn : w ≠ Word.null) (hwe : w ≠ Word.emptyVal) (h0 : keyCount ≠ 0)
    (hlarge : ¬ keyCount ≤ st.MAX_ACCEPTABLE_LEAF_SIZE →
      ∃ a n, w = Word.node a ∧ Completed st keyCount a n) :
    createIdealConcurrent fuel st o keyCount = .ok (w, st) := by
  have hwn2 : (w != Word.null) = true := by simpa using hwn
  by_cases hs : keyCount ≤ st.MAX_ACCEPTABLE_LEAF_SIZE
  · simp only [createIdealConcurrent, bind, Except.bind, hop, hw, hwe, hwn, hwn2, if_true,
      if_false, h0, pure, Except.pure, assert, hs, decide_True, Bool.or_true]
  · obtain ⟨a, n, e, hc⟩ := hlarge hs
    subst e
    have hm1 : 1 ≤ ceilSqrt keyCount := by have := hc.two; omega
    have hrl : reserveLoop fuel o a (keyCount / ceilSqrt keyCount) (keyCount % ceilSqrt keyCount)
        (n.capacity + 1) st = .ok st := by
      simp only [reserveLoop, bind, Except.bind, getNode_of_getElem hc.get]
      have : n.degree ≥ n.capacity := by rw [hc.deg, hc.cap]
      simp only [this, if_true, pure, Except.pure]
    have hhl := @helpLoop_full fuel o a (keyCount / ceilSqrt keyCount)
      (keyCount % ceilSqrt keyCount) (ceilSqrt keyCount) (st.rngNext % ceilSqrt keyCount) st n
      hc.get hm1 hc.deg hc.full (ceilSqrt keyCount) 0
    have c1 : (keyAt n 0 != st.INF_KEY) = true := by simpa using hc.minInf
    have c2 : (keyAt n (n.degree - 2) != st.INF_KEY) = true := by simpa using hc.maxInf
    have hd2 : 2 ≤ n.degree := by rw [hc.deg]; exact hc.two
    have hself : ({ n with initSize := keyCount, minKey := keyAt n 0,
                           maxKey := keyAt n (n.degree - 2) } : Node) = n := by
      cases n
      have h1 := hc.size
      have h2 := hc.min
      have h3 := hc.max
      simp only at h1 h2 h3
      simp only [Node.mk.injEq, true_and]
      exact ⟨h2.symm, h3.symm, h1.symm, trivial⟩
    simp only [createIdealConcurrent, bind, Except.bind, hop, hw, hwe, hwn, hwn2, if_true,
      if_false, h0, pure, Except.pure, assert, hs, IS_KVPAIR, IS_NODE, Bool.false_or,
      decide_eq_true_eq, istree.derefWord, getNode_of_getElem hc.get, hc.cap]
    rw [hc.cap] at hrl
    rw [hrl]
    simp only
    rw [hhl]
    simp only [getNode_of_getElem hc.get]
    rw [Node.key_zero n hd2 hc.keys, Node.key_last n hd2 hc.keys]
    simp only [c1, c2, hc.le, if_true, decide_True, hself, setNode_self hc.get]

/-- A DCSS on a slot that does not hold the expected word fails at the second address and
writes nothing. -/
theorem dcssPtr_addr2 {st : istree} {a i : Nat} {old w : Word} (new : Word) {n : Node}
    (hn : st.nodes[a]? = some n) (hi : i < n.degree) (hs : n.slots[i]? = some w)
    (hne : w ≠ old) :
    dcssPtr st a (i : Int) old new = .ok (DcssStatus.DCSS_FAILED_ADDR2, st) := by
  unfold dcssPtr
  have hb : (w != old) = true := by simpa using hne
  simp only [bind, Except.bind, getNode_of_getElem hn, Node.ptr_ok n i w hi hs, hb, if_true,
    pure, Except.pure]

/-- The node that a first `createIdealConcurrent` for more than `MAX_ACCEPTABLE_LEAF_SIZE`
keys returns is complete. -/
theorem createIdealConcurrent_completed {tol : Bool} {fuel : Nat} {st st1 : istree}
    {o keyCount f : Nat}
    {op : RebuildOperation} {l : List (Int × Int)} {lo hi lo0 hi0 : Option Int} {d0 : Bool}
    {w : Word} (hop : st.getOp o = .ok op) (hnr : op.newRoot = Word.null)
    (hold : chkNode tol f st lo0 hi0 op.rebuildRoot = some (l, d0)) (hcount : keyCount = l.length)
    (hL : ListOK lo hi l)
    (h0 : ¬ keyCount = 0) (hbig : ¬ keyCount ≤ st.MAX_ACCEPTABLE_LEAF_SIZE)
    (hrun : createIdealConcurrent fuel st o keyCount = .ok (w, st1)) :
    ∃ n, w = Word.node st.nodes.length ∧ Completed st1 keyCount st.nodes.length n
      ∧ st1.getOp o = .ok { op with newRoot := w } := by
  obtain ⟨n, F, ⟨hw, hget, hcap, hdeg, hsl, hkl, hsz, _, htwo, hfill, hchk, hb⟩, hop1, hi1, hi2⟩ :=
    createIdealConcurrent_large_full hop hnr hold hcount hL h0 hbig hrun
  obtain ⟨n1, _, hn1, hok, _, _, _⟩ := chkNode_succ_some hchk
  rw [hget] at hn1
  cases hn1
  have hfacts := nodeShapeOK_facts hok
  have hd2 : 2 ≤ n.degree := by rw [hdeg]; exact htwo
  have hinf : st1.INF_KEY = st.INF_KEY := by rw [hb.rest]
  refine ⟨n, hw, ⟨hget, hcap, hdeg, htwo, by rw [hdeg, hkl], ?_, hsz, hfacts.keys.min hd2,
    hfacts.keys.max hd2, by rw [hinf]; exact hi1, by rw [hinf]; exact hi2, ?_⟩, hop1⟩
  · intro j hj
    obtain ⟨w2, d2, hw1, hw2⟩ := hfill.slot j hj
    refine ⟨w2, hw1, ?_⟩
    intro e
    subst e
    simp [chkWord] at hw2
  · exact keyAt_mono hfacts.keys (Nat.zero_le _) (by omega)

/-- A second `helpRebuild` after a first single-threaded one that has returned changes
nothing. -/
theorem helpRebuild_twice {tol : Bool} {fuel : Nat} {st2 st1 : istree} {o f i : Nat}
    {op0 : RebuildOperation}
    {lo0 hi0 : Option Int} {l : List (Int × Int)} {d0 : Bool} {pn1 : Node}
    (hop : st2.getOp o = .ok op0) (hnr : op0.newRoot = Word.null)
    (hs0 : op0.success = false)
    (hold : chkNode tol f st2 lo0 hi0 op0.rebuildRoot = some (l, d0))
    (hpar : op0.parent < op0.rebuildRoot) (hpn : st2.nodes[op0.parent]? = some pn1)
    (hidx : op0.index = (i : Int)) (hi : i < pn1.degree)
    (hslot : pn1.slots[i]? = some (Word.rebuildop o)) (hdirty : pn1.dirty = Dirty.clean)
    (hrun : helpRebuild fuel st2 o = .ok st1) (F2 : Nat) :
    helpRebuild (F2 + 1) st1 o = .ok st1 := by
  simp only [helpRebuild, bind, Except.bind, hop] at hrun
  cases hmc : markAndCount fuel st2 (Word.node op0.rebuildRoot) with
  | error e => simp [hmc] at hrun
  | ok q =>
    obtain ⟨keyCount, st3⟩ := q
    simp only [hmc] at hrun
    obtain ⟨hcount, hmark, hfin⟩ := markAndCount_spec f fuel st2 lo0 hi0 _ _ _ _ hold hmc
    simp only at hcount hfin
    have hop3 : st3.getOp o = .ok op0 := by
      rw [← hop]
      unfold istree.getOp
      rw [hmark.rest]
    obtain ⟨nrr, hnrr⟩ := chkNode_exists hold
    have hN0 : op0.rebuildRoot < st2.nodes.length := lt_of_getElem hnrr
    cases hci : createIdealConcurrent fuel st3 o keyCount with
    | error e => simp [hci] at hrun
    | ok q =>
      obtain ⟨w, st4⟩ := q
      simp only [hci] at hrun
      have hm0 : st2.nodes.length - 1 < st3.nodes.length := by
        rw [hmark.len]; omega
      have hL := chkNode_ok st2 f lo0 hi0 _ _ hold
      obtain ⟨hwn, ⟨Fw, dw, hwchk⟩, hbuilt⟩ := createIdealConcurrent_spec hop3 hnr hfin hcount
        hL hm0 hci
      simp only [hwn, if_false] at hrun
      -- the descriptor after the construction
      have hop4 : st4.getOp o
          = .ok { op0 with newRoot := if keyCount = 0 then Word.null else w } := by
        by_cases h0 : keyCount = 0
        · exact (createIdealConcurrent_small_full hop3 hnr hfin hcount hL hm0 (Or.inl h0) hci).2
        · by_cases hs : keyCount ≤ st3.MAX_ACCEPTABLE_LEAF_SIZE
          · exact (createIdealConcurrent_small_full hop3 hnr hfin hcount hL hm0 (Or.inr hs)
              hci).2
          · obtain ⟨n, _, _, h⟩ := createIdealConcurrent_completed hop3 hnr hfin hcount hL h0 hs
              hci
            rw [if_neg h0]
            exact h
      -- the parent in the state after the construction
      obtain ⟨pn3, hpn3, hsh3, hd3⟩ := hmark.pt op0.parent pn1 hpn
      have hd3b : pn3.dirty = Dirty.clean := by
        rcases hd3 with h | ⟨h, _⟩
        · rw [h, hdirty]
        · omega
      have hplt : op0.parent < st3.nodes.length := lt_of_getElem hpn3
      have hpn4 : st4.nodes[op0.parent]? = some pn3 := by
        rw [hbuilt.keep _ hplt]; exact hpn3
      have hi3 : i < pn3.degree := by rw [hsh3.degree]; exact hi
      have hdc := dcssPtr_ok w hpn4 hi3 (by rw [hsh3.slots]; exact hslot) hd3b
      rw [hidx, hdc] at hrun
      generalize hnrdef : (if keyCount = 0 then Word.null else w) = nr at hop4
      have hop5 : (st4.setNode op0.parent { pn3 with slots := pn3.slots.set i w }).getOp o
          = .ok { op0 with newRoot := nr } := hop4
      simp only [hop5, hs0, assert, beq_self_eq_true, if_true, pure, Except.pure,
        getOp_setOp_same hop5] at hrun
      generalize hs6 : (((st4.setNode op0.parent { pn3 with slots := pn3.slots.set i w }).setOp o
        { op0 with newRoot := nr, success := true }).logSmr
          (SmrCall.retire (Word.rebuildop o))) = st6 at hrun
      have hnodes6 : st6.nodes = (st4.nodes.set op0.parent
          { pn3 with slots := pn3.slots.set i w }) := by
        rw [← hs6]; rfl
      have hop6 : st6.getOp o = .ok { op0 with newRoot := nr, success := true } := by
        rw [← hs6]; exact getOp_setOp_same hop5 _
      have hget6 : ∀ x, x ≠ op0.parent → st6.nodes[x]? = st4.nodes[x]? := by
        intro x hx
        rw [hnodes6, List.getElem?_set_ne (Ne.symm hx)]
      have hpar6 : st6.nodes[op0.parent]? = some { pn3 with slots := pn3.slots.set i w } := by
        rw [hnodes6]
        simp [List.getElem?_set, lt_of_getElem hpn4]
      have hparam6 : st6.MAX_ACCEPTABLE_LEAF_SIZE = st3.MAX_ACCEPTABLE_LEAF_SIZE
          ∧ st6.INF_KEY = st3.INF_KEY := by
        rw [← hs6]
        constructor
        · show st4.MAX_ACCEPTABLE_LEAF_SIZE = _
          rw [hbuilt.rest]
        · show st4.INF_KEY = _
          rw [hbuilt.rest]
      -- the old root of the subtree
      obtain ⟨nf, hnf, hnfd, hnfl, hnfc⟩ := finished_node hfin
      have hnrr6 : st6.nodes[op0.rebuildRoot]? = some nf := by
        rw [hget6 _ (by omega), hbuilt.keep _ (lt_of_getElem hnf)]
        exact hnf
      simp only [hop6, if_true, getNode_of_getElem hnrr6] at hrun
      have hkeep34 : ∀ (x : Nat) (n : Node), st3.nodes[x]? = some n → st4.nodes[x]? = some n :=
        fun x n hn => by rw [hbuilt.keep x (lt_of_getElem hn)]; exact hn
      -- the final state
      have hfinal : st1.ops = st6.ops ∧ st1.MAX_ACCEPTABLE_LEAF_SIZE = st6.MAX_ACCEPTABLE_LEAF_SIZE
          ∧ st1.INF_KEY = st6.INF_KEY
          ∧ (∀ x, x < op0.rebuildRoot ∨ st3.nodes.length ≤ x → st1.nodes[x]? = st6.nodes[x]?)
          ∧ (∃ nF, st1.nodes[op0.rebuildRoot]? = some nF ∧ nF.dirty.finished = true
              ∧ nF.dirty.sum = keyCount ∧ nF.degree = nf.degree)
          ∧ (¬ nf.degree < 256 → helpFreeSubtree st1 op0.rebuildRoot = .ok st1) := by
        split at hrun
        · rename_i hdeg
          simp only [Except.ok.injEq] at hrun
          subst hrun
          refine ⟨rfl, rfl, rfl, fun _ _ => rfl, ⟨nf, hnrr6, ?_, ?_, rfl⟩, fun h => absurd hdeg h⟩
          · rw [hnfd]; rfl
          · rw [hnfd, hcount]; rfl
        · rename_i hdeg
          have hdo := helpFreeSubtree_spec hnrr6 hrun
          obtain ⟨s, hs1, hs2, hs3⟩ := helpFreeSubtree_once st6 op0.rebuildRoot nf hnrr6 hnfl
            (by rw [hnfd]; rfl) (by
              intro j c hj hc
              obtain ⟨hlt, m, k, hm, hmd⟩ := hnfc j c hj hc
              refine ⟨by omega, m, ?_, by rw [hmd]; rfl⟩
              rw [hget6 _ (by omega)]
              exact hkeep34 c m hm)
          rw [hs1] at hrun
          cases hrun
          refine ⟨by rw [hdo.rest], by rw [hdo.rest], by rw [hdo.rest], ?_,
            ⟨_, hs3, ?_, ?_, rfl⟩, fun _ => hs2⟩
          · intro x hx
            apply hdo.frame
            intro hc
            rcases hc with hc | ⟨j, hj1, hj2⟩
            · have := lt_of_getElem hnf
              omega
            · obtain ⟨hlt, m, k, hm, _⟩ := hnfc j x hj1 hj2
              have := lt_of_getElem hm
              omega
          · show (nf.dirty.orMarkedForFree).finished = true
            rw [hnfd]; rfl
          · show (nf.dirty.orMarkedForFree).sum = keyCount
            rw [hnfd, hcount]; rfl
      obtain ⟨hops1, hmax1, hinf1, hframe1, ⟨nF, hnF, hnFf, hnFs, hnFd⟩, hfree1⟩ := hfinal
      have hopF : st1.getOp o = .ok { op0 with newRoot := nr, success := true } := by
        rw [← hop6]
        unfold istree.getOp
        rw [hops1]
      have hparF : st1.nodes[op0.parent]? = some { pn3 with slots := pn3.slots.set i w } := by
        rw [hframe1 _ (Or.inl hpar)]
        exact hpar6
      have hwe : keyCount ≠ 0 → w ≠ Word.emptyVal := by
        intro h0 e
        subst e
        simp only [chkWord, Option.some.injEq, Prod.mk.injEq] at hwchk
        rw [← hwchk.1] at hcount
        exact h0 hcount
      have hwo : w ≠ Word.rebuildop o := by
        intro e
        subst e
        simp [chkWord] at hwchk
      have hcic : createIdealConcurrent (F2 + 1) st1 o keyCount = .ok (w, st1) := by
        by_cases h0 : keyCount = 0
        · subst h0
          simp only [createIdealConcurrent, if_true, pure, Except.pure, Except.ok.injEq,
            Prod.mk.injEq] at hci ⊢
          exact ⟨hci.1, trivial⟩
        · have hnrw : nr = w := by rw [← hnrdef, if_neg h0]
          refine createIdealConcurrent_again hopF hnrw hwn (hwe h0) h0 ?_
          intro hbig
          rw [hmax1, hparam6.1] at hbig
          obtain ⟨n, hw, hc, _⟩ := createIdealConcurrent_completed hop3 hnr hfin hcount hL h0 hbig
            hci
          refine ⟨_, n, hw, ?_, hc.cap, hc.deg, hc.two, hc.keys, hc.full, hc.size, hc.min, hc.max,
            ?_, ?_, hc.le⟩
          · rw [hframe1 _ (Or.inr (le_refl _)), hget6 _ (by omega)]
            exact hc.get
          · rw [hinf1, hparam6.2]
            have := hc.minInf
            rw [show st4.INF_KEY = st3.INF_KEY from by rw [hbuilt.rest]] at this
            exact this
          · rw [hinf1, hparam6.2]
            have := hc.maxInf
            rw [show st4.INF_KEY = st3.INF_KEY from by rw [hbuilt.rest]] at this
            exact this
      have hmc2 := markAndCount_done hnF hnFf F2
      rw [hnFs] at hmc2
      have hdc2 := @dcssPtr_addr2 _ _ _ (Word.rebuildop o) _ w _ hparF (show i < pn3.degree from hi3)
        (by
          show (pn3.slots.set i w)[i]? = some w
          have hilt := (List.getElem?_eq_some_iff.mp hslot).1
          rw [← hsh3.slots] at hilt
          simp [List.getElem?_set, hilt]) hwo
      simp only [helpRebuild, bind, Except.bind, hopF, hmc2, hcic, hwn, if_false, hidx, hdc2,
        pure, Except.pure, if_true, getNode_of_getElem hnF]
      by_cases hdeg : nF.degree < 256
      · simp only [hdeg, if_true]
        rfl
      · simp only [hdeg, if_false]
        rw [hnFd] at hdeg
        exact hfree1 hdeg

/-- The in-order list of a slot is a part of the in-order list of the slots. -/
theorem chkSlots_sublist {tol : Bool}
    {rec : Option Int → Option Int → Nat → Option (List (Int × Int) × Bool)}
    {n : Node} {a : Nat} {lo hi : Option Int} :
    ∀ (c i : Nat) (r : List (Int × Int) × Bool), chkSlots tol rec n a lo hi c i = some r →
      ∀ j, i ≤ j → j < i + c →
        ∃ w rj, n.slots[j]? = some w ∧ chkSlot tol rec n a lo hi j w = some rj
          ∧ List.Sublist rj.1 r.1 := by
  intro c
  induction c with
  | zero => intro i r _ j h1 h2; omega
  | succ c ih =>
    intro i r h j h1 h2
    obtain ⟨w, r1, r2, hw, e1, e2, hr⟩ := chkSlots_step h
    subst hr
    by_cases hj : j = i
    · subst hj
      exact ⟨w, r1, hw, e1, List.sublist_append_left _ _⟩
    · obtain ⟨w2, rj, g1, g2, g3⟩ := ih (i + 1) r2 e2 j (by omega) (by omega)
      exact ⟨w2, rj, g1, g2, g3.trans (List.sublist_append_right _ _)⟩

/-- The in-order list of a child is a part of the in-order list of its parent. -/
theorem chkNode_slot_sublist {tol : Bool} {g : Nat} {st : istree} {lo hi : Option Int} {p : Nat}
    {pn : Node} {r : List (Int × Int) × Bool} (h : chkNode tol (g + 1) st lo hi p = some r)
    (hn : st.nodes[p]? = some pn) {i c : Nat} (hi1 : i < pn.degree)
    (hs : pn.slots[i]? = some (Word.node c)) :
    ∃ rc, chkNode tol g st (slotLo pn lo i) (slotHi pn hi i) c = some rc ∧ p < c
      ∧ List.Sublist rc.1 r.1 := by
  obtain ⟨n1, r2, hn1, _, hsl, hr1, _⟩ := chkNode_succ_some h
  rw [hn] at hn1
  cases hn1
  obtain ⟨w, rj, hw, hc, hsub⟩ := chkSlots_sublist pn.degree 0 r2 hsl i (by omega) (by omega)
  rw [hs] at hw
  cases hw
  simp only [chkSlot] at hc
  split at hc
  · rename_i hpc
    exact ⟨rj, hc, hpc, by rw [hr1]; exact hsub⟩
  · cases hc

/-- The in-order list of the end of a path is a part of the in-order list of its start. -/
theorem Chain.sublist {tol : Bool} {st : istree} :
    ∀ {path : List Nat} {p : Nat} {lo hi : Option Int} {q : Nat}
    {L H : Option Int} {g : Nat} {r : List (Int × Int) × Bool},
    Chain st p lo hi path q L H → chkNode tol g st lo hi p = some r →
    ∃ g1 r1, chkNode tol g1 st L H q = some r1 ∧ g1 ≤ g ∧ List.Sublist r1.1 r.1 := by
  intro path
  induction path with
  | nil =>
    intro p lo hi q L H g r h hc
    obtain ⟨e1, e2, e3⟩ := h
    subst e1 e2 e3
    exact ⟨g, r, hc, le_refl _, List.Sublist.refl _⟩
  | cons a rest ih =>
    intro p lo hi q L H g r h hc
    obtain ⟨pn, j, g1, g2, g3, g4, hch⟩ := h
    cases g with
    | zero => simp [chkNode] at hc
    | succ g =>
      obtain ⟨rc, hrc, _, hsub⟩ := chkNode_slot_sublist hc g1 g2 g3
      obtain ⟨g5, r5, h5, hle, hs5⟩ := ih hch hrc
      exact ⟨g5, r5, h5, by omega, hs5.trans hsub⟩

/-- C32: `helpRebuild` is idempotent.  Let the descriptor `o` be installed: slot `i` of its
parent, a node that is not dirty, holds the `REBUILDOP` word of `o`, the descriptor is as
`rebuild` created it (`newRoot` null, `success` false), and the subtree at its `rebuildRoot`
is well formed and lies above the parent in the heap.  Once a first single-threaded
`helpRebuild(o)` has returned the state `st1`, a second `helpRebuild(o)` on `st1`, with any
fuel that is not zero, returns and its result is `st1` itself: every node (slots, keys,
degree, `initSize`, `minKey`, `maxKey`, dirty word), the descriptor with its `newRoot` and
`success`, and the record of the reclamation calls are as the first call left them, so
nothing further is retired or freed. -/
theorem C32_helpRebuild_idempotent {tol : Bool} {fuel : Nat} {st st1 : istree} {o f i : Nat}
    {op : RebuildOperation} {lo hi : Option Int} {l : List (Int × Int)} {d : Bool} {pn : Node}
    (hop : st.getOp o = .ok op) (hnr : op.newRoot = Word.null) (hs : op.success = false)
    (hold : chkNode tol f st lo hi op.rebuildRoot = some (l, d))
    (hpar : op.parent < op.rebuildRoot) (hpn : st.nodes[op.parent]? = some pn)
    (hidx : op.index = (i : Int)) (hi : i < pn.degree)
    (hslot : pn.slots[i]? = some (Word.rebuildop o)) (hdirty : pn.dirty = Dirty.clean)
    (hrun : helpRebuild fuel st o = .ok st1) (fuel2 : Nat) (h2 : 1 ≤ fuel2) :
    helpRebuild fuel2 st1 o = .ok st1 := by
  obtain ⟨F2, rfl⟩ : ∃ F2, fuel2 = F2 + 1 := ⟨fuel2 - 1, by omega⟩
  exact helpRebuild_twice hop hnr hs hold hpar hpn hidx hi hslot hdirty hrun F2

/-- Witness for C32: the descriptor of `pendingRebuild`, installed in slot 0 of the root
pseudo-node for the leaf at address 1. -/
theorem C32_witness :
    helpRebuild 3 pendingRebuild 0 = .ok pendingRebuildHelped
    ∧ pendingRebuildHelped.ops[0]? = some ⟨1, 0, 0, 0, Word.kvpair 10 11, true⟩
    ∧ helpRebuild 1 pendingRebuildHelped 0 = .ok pendingRebuildHelped :=
  ⟨by decide, by decide,
   @C32_helpRebuild_idempotent false 3 pendingRebuild pendingRebuildHelped 0 2 0
     ⟨1, 0, 0, 0, Word.null, false⟩ none none [(10, 11)] false
     { capacity := 1, degree := 1, keys := [], slots := [Word.rebuildop 0],
       minKey := 4611686018427387904, maxKey := 4611686018427387904, initSize := 0,
       changeSum := 0, dirty := Dirty.clean, nextMarkAndCount := 0 }
     (by decide) rfl rfl (by decide) (by decide) (by decide) rfl (by decide) (by decide) rfl
     (by decide) 1 (by decide)⟩

/-- C30 fails as stated: the five inserts of `-2^62 - 2`, `-2^62 - 1`, `-2^62`, `0`, `1` into
a map whose leaves hold one key build a tree with these five keys; a rebuild of its real
root (descriptor 4, after `markAndCount`) runs `createIdealConcurrent` with `keyCount = 5`,
which returns the new node at address 24 with three children and the routing keys `-2^62`
and `1`.  The key `0` is in child 1, but for it the product `2 * (0 - (-2^62))` of source
line 671 does not fit 64 bits, the index computed is `-1`, and `interpolationSearch` on the
new node stops at the read of `key(-1)` instead of sending the key to child 1. -/
theorem C30_counterexample :
    Reachable wideFive
    ∧ rebuildingWide.getOp 4 = .ok ⟨17, 0, 0, 0, Word.null, false⟩
    ∧ chkNode false 4 rebuildingWide none none 17
        = some ([(-4611686018427387906, 1), (-4611686018427387905, 2),
            (-4611686018427387904, 3), (0, 4), (1, 5)], true)
    ∧ rebuildingWide.MAX_ACCEPTABLE_LEAF_SIZE = 1
    ∧ createIdealConcurrent 8 rebuildingWide 4 5 = .ok (Word.node 24, idealWide)
    ∧ idealWide.nodes[24]? = some (wideRouting 25 28)
    ∧ ceilSqrt 5 = 3
    ∧ chunk [(-4611686018427387906, 1), (-4611686018427387905, 2),
          (-4611686018427387904, 3), (0, 4), (1, 5)] (5 / ceilSqrt 5) (5 % ceilSqrt 5) 1
        = [(-4611686018427387904, 3), (0, 4)]
    ∧ predictedIndex 2 0 (-4611686018427387904) 1 = -1
    ∧ interpolationSearch 0 (wideRouting 25 28) = .error Fault.outOfBounds :=
  ⟨reachable_wideFive, by decide, by decide, by decide, by decide, by decide, by decide,
    by decide, by decide, by decide⟩

/-- C30 (amended): routing keys of a rebuilt node.  Single-threaded, with
`keyCount > MAX_ACCEPTABLE_LEAF_SIZE` on a marked well-formed subtree (its in-order list `l`
has strictly increasing keys other than `INF_KEY` and `keyCount` entries) and with fuel for
the height and the number of keys, `createIdealConcurrent` returns a new node with
`numChildren` slots (the value of `(size_t) ceil(sqrt((double) keyCount))`); child `ix`
holds exactly the chunk `ix` of `l`, which is not empty; for every `ix` in
`[1, numChildren)` the key `keys[ix-1]` is the smallest (first) key of child `ix` and is
strictly greater than every key of child `ix-1`; and for every key of child `ix`,
`interpolationSearch` on the new node returns slot `ix` whenever it returns, which it does
when its read at the predicted index stays inside the node. -/
theorem C30_routing_keys (fuel : Nat) (st : istree) (o keyCount f : Nat)
    (op : RebuildOperation) (l : List (Int × Int)) (lo0 hi0 : Option Int)
    (hop : st.getOp o = .ok op) (hnr : op.newRoot = Word.null)
    (hold : chkNode false f st lo0 hi0 op.rebuildRoot = some (l, true))
    (hcount : keyCount = l.length) (hbig : st.MAX_ACCEPTABLE_LEAF_SIZE < keyCount)
    (hmax : 1 ≤ st.MAX_ACCEPTABLE_LEAF_SIZE) (hf : f + 1 ≤ fuel) (hlen : l.length ≤ fuel)
    (hinf : ∀ p ∈ l, p.1 ≠ st.INF_KEY) :
    ∃ (w : Word) (st1 : istree) (n : Node),
      createIdealConcurrent fuel st o keyCount = .ok (w, st1)
      ∧ w = Word.node st.nodes.length ∧ st1.nodes[st.nodes.length]? = some n
      ∧ n.degree = ceilSqrt keyCount
      ∧ (∀ ix, ix < ceilSqrt keyCount → ∃ (c : Word) (F : Nat) (d : Bool),
          n.slots[ix]? = some c
          ∧ chkWord false F st1 st.nodes.length
              (chunkLo l (keyCount / ceilSqrt keyCount) (keyCount % ceilSqrt keyCount) none ix)
              (chunkHi l (keyCount / ceilSqrt keyCount) (keyCount % ceilSqrt keyCount)
                (ceilSqrt keyCount) none ix) c
            = some (chunk l (keyCount / ceilSqrt keyCount) (keyCount % ceilSqrt keyCount) ix, d)
          ∧ chunk l (keyCount / ceilSqrt keyCount) (keyCount % ceilSqrt keyCount) ix ≠ [])
      ∧ (∀ ix, 1 ≤ ix → ix < ceilSqrt keyCount →
          (∃ p t, chunk l (keyCount / ceilSqrt keyCount) (keyCount % ceilSqrt keyCount) ix
              = p :: t ∧ keyAt n (ix - 1) = p.1)
          ∧ ∀ q ∈ chunk l (keyCount / ceilSqrt keyCount) (keyCount % ceilSqrt keyCount) (ix - 1),
              q.1 < keyAt n (ix - 1))
      ∧ (∀ ix, ix < ceilSqrt keyCount →
          ∀ q ∈ chunk l (keyCount / ceilSqrt keyCount) (keyCount % ceilSqrt keyCount) ix,
            (indexInBounds q.1 n = true → interpolationSearch q.1 n = .ok (ix : Int))
            ∧ (∀ r : Int, interpolationSearch q.1 n = .ok r → r = (ix : Int))) := by
  have hL : ListOK none none l := by
    have := chkNode_ok st f lo0 hi0 op.rebuildRoot (l, true) hold
    exact ⟨fun p _ => ⟨rfl, rfl⟩, this.2⟩
  have h0 : ¬ keyCount = 0 := by omega
  obtain ⟨w, st1, hrun, _⟩ := createIdealConcurrent_total hop hnr hold hcount hL hmax hf hlen hinf
  obtain ⟨n, F, hw, hn, hcap, hdeg, hsl, hkl, hini, hdirty, hm2, hfill, hchk, hb⟩ :=
    createIdealConcurrent_large_node hop hnr hold hcount hL h0 (by omega) hrun
  have hm1 : 1 ≤ ceilSqrt keyCount := by omega
  have hcs : 1 ≤ keyCount / ceilSqrt keyCount := Nat.div_pos (ceilSqrt_le _) (by omega)
  have htot : chunkStart (keyCount / ceilSqrt keyCount) (keyCount % ceilSqrt keyCount)
      (ceilSqrt keyCount) = l.length := by
    rw [← hcount]; exact chunkStart_total keyCount (ceilSqrt keyCount) hm1
  have hne : ∀ ix, ix < ceilSqrt keyCount →
      chunk l (keyCount / ceilSqrt keyCount) (keyCount % ceilSqrt keyCount) ix ≠ [] := by
    intro ix hix e
    have := chunk_length htot hix
    rw [e] at this
    unfold chunkSize at this
    simp at this
    omega
  obtain ⟨nf, _, hnf, hshape, _, _, _⟩ := chkNode_succ_some hchk
  rw [hn] at hnf
  cases hnf
  have hk : KeysOK n := (nodeShapeOK_facts hshape).keys
  have hlow : ∀ ix, 1 ≤ ix → ix < ceilSqrt keyCount →
      ∀ q ∈ chunk l (keyCount / ceilSqrt keyCount) (keyCount % ceilSqrt keyCount) ix,
        keyAt n (ix - 1) ≤ q.1 := by
    intro ix h1 h2 q hq
    have := ((chunk_listOK hL hcs htot h2).1 q hq).1
    unfold chunkLo at this
    have hne0 : ¬ ix = 0 := by omega
    simp only [hne0, if_false, aboveLo, decide_eq_true_eq] at this
    rw [hfill.key ix h1 h2]
    exact this
  have hhigh : ∀ ix, ix + 1 < ceilSqrt keyCount →
      ∀ q ∈ chunk l (keyCount / ceilSqrt keyCount) (keyCount % ceilSqrt keyCount) ix,
        q.1 < keyAt n ix := by
    intro ix h2 q hq
    have := ((chunk_listOK hL hcs htot (show ix < ceilSqrt keyCount by omega)).1 q hq).2
    unfold chunkHi at this
    have hne0 : ¬ ix + 1 = ceilSqrt keyCount := by omega
    simp only [hne0, if_false, belowHi, decide_eq_true_eq] at this
    have := hfill.key (ix + 1) (by omega) h2
    simp only [Nat.add_sub_cancel] at this
    rw [this]
    assumption
  refine ⟨w, st1, n, hrun, hw, hn, hdeg, ?_, ?_, ?_⟩
  · intro ix hix
    obtain ⟨c, d, hc1, hc2⟩ := hfill.slot ix hix
    exact ⟨c, F, d, hc1, hc2, hne ix hix⟩
  · intro ix h1 h2
    refine ⟨?_, ?_⟩
    · cases hc : chunk l (keyCount / ceilSqrt keyCount) (keyCount % ceilSqrt keyCount) ix with
      | nil => exact absurd hc (hne ix h2)
      | cons p t =>
        refine ⟨p, t, rfl, ?_⟩
        rw [hfill.key ix h1 h2]
        exact chunk_head hc
    · intro q hq
      have := hhigh (ix - 1) (by omega) q hq
      exact this
  · intro ix hix q hq
    have g1 : 0 < ix → keyAt n (ix - 1) ≤ q.1 := fun hpos => hlow ix (by omega) hix q hq
    have g2 : ix + 1 < n.degree → q.1 < keyAt n ix := fun hlt => hhigh ix (by omega) q hq
    exact ⟨fun hbb => interpolationSearch_unique hk (by omega) g1 g2 hbb,
      fun r hr => interpolationSearch_result hk (by omega) g1 g2 hr⟩


/-- Witness for C30: the rebuild of the five-key leaf of `fiveKeys` (where a leaf may hold
two keys) builds a node with three children. -/
theorem C30_witness :
    createIdealConcurrent 8 rebuildingFiveKeys 0 5 = .ok (Word.node 2, idealFiveKeys)
    ∧ ∃ (w : Word) (st1 : istree) (n : Node),
      createIdealConcurrent 8 rebuildingFiveKeys 0 5 = .ok (w, st1)
      ∧ w = Word.node rebuildingFiveKeys.nodes.length
      ∧ st1.nodes[rebuildingFiveKeys.nodes.length]? = some n
      ∧ n.degree = ceilSqrt 5
      ∧ (∀ ix, ix < ceilSqrt 5 →
          ∀ q ∈ chunk [(10, 11), (20, 21), (30, 31), (40, 41), (50, 51)] (5 / ceilSqrt 5)
              (5 % ceilSqrt 5) ix,
            (indexInBounds q.1 n = true → interpolationSearch q.1 n = .ok (ix : Int))
            ∧ (∀ r : Int, interpolationSearch q.1 n = .ok r → r = (ix : Int))) := by
  refine ⟨by decide, ?_⟩
  obtain ⟨w, st1, n, h0, h1, h2, h3, _, _, h6⟩ := C30_routing_keys 8 rebuildingFiveKeys 0 5 1
    ⟨1, 0, 0, 0, Word.null, false⟩ [(10, 11), (20, 21), (30, 31), (40, 41), (50, 51)]
    none none (by decide) rfl (by decide) (by decide) (by decide) (by decide) (by decide)
    (by decide) (by decide)
  exact ⟨w, st1, n, h0, h1, h2, h3, h6⟩

/-- C31 fails as stated: for `keyCount = 2^52 + 1` the code's
`numChildren = (size_t) ceil(sqrt((double) keyCount))` is `2^26` (the square root is
rounded to the double `2^26`), not `ceil(sqrt(keyCount)) = 2^26 + 1`; so the node that a
single-threaded `createIdealConcurrent` returns for that many keys has the capacity `2^26`,
whose square is less than `keyCount`. -/
theorem C31_counterexample :
    ceilSqrt 4503599627370497 = 67108864
    ∧ 67108864 * 67108864 < 4503599627370497
    ∧ 4503599627370497 ≤ 67108865 * 67108865
    ∧ ∀ (fuel : Nat) (st st1 : istree) (o f : Nat) (op : RebuildOperation)
        (l : List (Int × Int)) (lo0 hi0 : Option Int) (d0 : Bool) (w : Word),
        st.getOp o = .ok op → op.newRoot = Word.null →
        chkNode false f st lo0 hi0 op.rebuildRoot = some (l, d0) →
        4503599627370497 = l.length → st.MAX_ACCEPTABLE_LEAF_SIZE < 4503599627370497 →
        createIdealConcurrent fuel st o 4503599627370497 = .ok (w, st1) →
        ∃ n : Node, w = Word.node st.nodes.length ∧ st1.nodes[st.nodes.length]? = some n
          ∧ n.capacity = 67108864 ∧ n.capacity * n.capacity < 4503599627370497 := by
  have hc : ceilSqrt 4503599627370497 = 67108864 := by decide
  refine ⟨hc, by decide, by decide, ?_⟩
  intro fuel st st1 o f op l lo0 hi0 d0 w hop hnr hold hcount hbig hrun
  have hL : ListOK none none l := by
    have := chkNode_ok st f lo0 hi0 op.rebuildRoot (l, d0) hold
    exact ⟨fun p _ => ⟨rfl, rfl⟩, this.2⟩
  obtain ⟨n, F, hw, hn, hcap, _⟩ :=
    createIdealConcurrent_large_node hop hnr hold hcount hL (by omega) (by omega) hrun
  rw [hc] at hcap
  refine ⟨n, hw, hn, hcap, ?_⟩
  rw [hcap]
  decide

/-- C31 (amended): shape of the node built by a rebuild.  `createIdealConcurrent` returns the
empty word, and leaves the state as it is, when `keyCount == 0`.  When `keyCount >
MAX_ACCEPTABLE_LEAF_SIZE`, the descriptor's `newRoot` is still null (the rebuild is not
subsumed), `keyCount` is the number of keys of the marked well-formed old subtree (none of
them `INF_KEY`) and the fuel covers the height and the number of keys, a single-threaded call
returns a new node with `capacity == (size_t) ceil(sqrt((double) keyCount))` in double
precision, which for `keyCount <= 2^52` is `ceil(sqrt(keyCount))`, with `degree == capacity`,
`degree` slots none of which is null, and `initSize == keyCount`. -/
theorem C31_rebuilt_node_shape (fuel : Nat) (st : istree) (o : Nat) :
    createIdealConcurrent fuel st o 0 = .ok (Word.emptyVal, st)
    ∧ ∀ (keyCount f : Nat) (op : RebuildOperation) (l : List (Int × Int))
        (lo0 hi0 : Option Int),
        st.getOp o = .ok op → op.newRoot = Word.null →
        chkNode false f st lo0 hi0 op.rebuildRoot = some (l, true) → keyCount = l.length →
        st.MAX_ACCEPTABLE_LEAF_SIZE < keyCount → 1 ≤ st.MAX_ACCEPTABLE_LEAF_SIZE →
        f + 1 ≤ fuel → l.length ≤ fuel → (∀ p ∈ l, p.1 ≠ st.INF_KEY) →
        ∃ (w : Word) (st1 : istree) (n : Node),
          createIdealConcurrent fuel st o keyCount = .ok (w, st1)
          ∧ w = Word.node st.nodes.length ∧ st1.nodes[st.nodes.length]? = some n
          ∧ n.capacity = ceilSqrt keyCount
          ∧ (keyCount ≤ 2 ^ 52 →
              keyCount ≤ n.capacity * n.capacity
              ∧ (n.capacity - 1) * (n.capacity - 1) < keyCount)
          ∧ n.degree = n.capacity
          ∧ n.slots.length = n.degree
          ∧ (∀ i, i < n.degree → ∃ c, n.slots[i]? = some c ∧ c ≠ Word.null)
          ∧ n.initSize = keyCount := by
  refine ⟨?_, ?_⟩
  · simp [createIdealConcurrent, pure, Except.pure]
  · intro keyCount f op l lo0 hi0 hop hnr hold hcount hbig hmax hf hlen hinf
    have hL : ListOK none none l := by
      have := chkNode_ok st f lo0 hi0 op.rebuildRoot (l, true) hold
      exact ⟨fun p _ => ⟨rfl, rfl⟩, this.2⟩
    obtain ⟨w, st1, hrun, _⟩ :=
      createIdealConcurrent_total hop hnr hold hcount hL hmax hf hlen hinf
    obtain ⟨n, F, hw, hn, hcap, hdeg, hsl, hkl, hini, hdirty, hm2, hfill, hchk, hb⟩ :=
      createIdealConcurrent_large_node hop hnr hold hcount hL (by omega) (by omega) hrun
    refine ⟨w, st1, n, hrun, hw, hn, hcap, ?_, by rw [hdeg, hcap], by rw [hsl, hdeg], ?_, hini⟩
    · intro hle
      obtain ⟨g1, g2⟩ := ceilSqrt_spec keyCount hle
      rw [hcap]
      exact ⟨g1, g2 _ (by omega)⟩
    · intro i hi
      obtain ⟨c, d, hc1, hc2⟩ := hfill.slot i (by omega)
      refine ⟨c, hc1, ?_⟩
      intro e
      subst e
      simp [chkWord] at hc2

/-- Witness for C31: the node built for the five keys of `fiveKeys` has 3 slots. -/
theorem C31_witness :
    createIdealConcurrent 8 rebuildingFiveKeys 0 5 = .ok (Word.node 2, idealFiveKeys)
    ∧ ∃ (w : Word) (st1 : istree) (n : Node),
      createIdealConcurrent 8 rebuildingFiveKeys 0 5 = .ok (w, st1)
      ∧ st1.nodes[rebuildingFiveKeys.nodes.length]? = some n
      ∧ n.capacity = ceilSqrt 5 ∧ n.degree = n.capacity ∧ n.initSize = 5 := by
  refine ⟨by decide, ?_⟩
  obtain ⟨w, st1, n, h0, _, h2, h3, _, h4, _, _, h7⟩ :=
    (C31_rebuilt_node_shape 8 rebuildingFiveKeys 0).2 5 1
      ⟨1, 0, 0, 0, Word.null, false⟩ [(10, 11), (20, 21), (30, 31), (40, 41), (50, 51)]
      none none (by decide) rfl (by decide) (by decide) (by decide) (by decide) (by decide)
      (by decide) (by decide)
  exact ⟨w, st1, n, h0, h2, h3, h4, h7⟩

end ISTree
